import Mathlib

namespace concurrent_data_structures

/-- Key traits shared by all tables: the hash function and the reserved null key
(`KeyTraits<K>` of the absent header `hash_table_common.h`, taken as a parameter). -/
structure KeyTraits where
  hash : Nat → Nat
  NullKey : Nat

/-- Modelled from the spec: `distance_from_slot` of the absent header
`hash_table_common.h`, the probe distance `(slot − home) mod capacity` of the glossary. -/
def distance_from_slot (size original_slot current_slot : Nat) : Nat :=
  (current_slot + size - original_slot) % size

/-- Key traits used for the concrete tables below: `h(k) = k`, null key `255`. -/
def idTraits : KeyTraits := { hash := fun k => k, NullKey := 255 }

namespace TransactionalRobinHoodSet

/-- The probe loop of `contains` (lines 56-69); `i` and `cur_dist` are the loop variables,
the first argument bounds the number of iterations. -/
def contains_loop (KT : KeyTraits) (m_table : List Nat) (key : Nat) :
    Nat → Nat → Nat → Option Bool
  | 0, _, _ => none
  | fuel + 1, i, cur_dist =>
    let size := m_table.length
    let size_mask := size - 1
    let i := i &&& size_mask
    let current_key := m_table.getD i 0
    if current_key = KT.NullKey then some false
    else if key = current_key then some true
    else
      let current_original_slot := KT.hash current_key &&& size_mask
      if distance_from_slot size current_original_slot i < cur_dist then some false
      else contains_loop KT m_table key fuel (i + 1) (cur_dist + 1)

/-- `TransactionalRobinHoodSet::contains`: the probe starts at the unmasked hash. -/
def contains (KT : KeyTraits) (fuel : Nat) (m_table : List Nat) (key : Nat) : Option Bool :=
  contains_loop KT m_table key fuel (KT.hash key) 0

/-- The displacement loop of `add` (lines 82-102). -/
def add_loop (KT : KeyTraits) :
    Nat → List Nat → Nat → Nat → Nat → Option (Bool × List Nat)
  | 0, _, _, _, _ => none
  | fuel + 1, m_table, i, active_key, active_dist =>
    let size := m_table.length
    let size_mask := size - 1
    let i := i &&& size_mask
    let current_key := m_table.getD i 0
    if current_key = KT.NullKey then some (true, m_table.set i active_key)
    else if active_key = current_key then some (false, m_table)
    else
      let current_original_slot := KT.hash current_key &&& size_mask
      let current_dist := distance_from_slot size current_original_slot i
      if current_dist < active_dist then
        add_loop KT fuel (m_table.set i active_key) (i + 1) current_key (current_dist + 1)
      else
        add_loop KT fuel m_table (i + 1) active_key (active_dist + 1)

/-- `TransactionalRobinHoodSet::add`: the result is the returned boolean and the table. -/
def add (KT : KeyTraits) (fuel : Nat) (m_table : List Nat) (key : Nat) :
    Option (Bool × List Nat) :=
  let size_mask := m_table.length - 1
  let original_bucket := KT.hash key &&& size_mask
  add_loop KT fuel m_table original_bucket key 0

/-- The backward-shift loop of `remove` (lines 119-130), with the final store of `NullKey`. -/
def shift_loop (KT : KeyTraits) :
    Nat → List Nat → Nat → Nat → Option (List Nat)
  | 0, _, _, _ => none
  | fuel + 1, m_table, current, i =>
    let size := m_table.length
    let size_mask := size - 1
    let current := current &&& size_mask
    let i := i &&& size_mask
    let current_key := m_table.getD current 0
    if current_key = KT.NullKey ∨
        distance_from_slot size (KT.hash current_key &&& size_mask) current = 0 then
      some (m_table.set i KT.NullKey)
    else
      shift_loop KT fuel (m_table.set i current_key) (current + 1) (i + 1)

/-- The probe loop of `remove` (lines 112-137); `shift_fuel` bounds the inner loop. -/
def remove_loop (KT : KeyTraits) (shift_fuel : Nat) (m_table : List Nat) (key : Nat) :
    Nat → Nat → Nat → Option (Bool × List Nat)
  | 0, _, _ => none
  | fuel + 1, i, cur_dist =>
    let size := m_table.length
    let size_mask := size - 1
    let i := i &&& size_mask
    let current_key := m_table.getD i 0
    if current_key = KT.NullKey then some (false, m_table)
    else if key = current_key then
      (shift_loop KT shift_fuel m_table (i + 1) i).map (fun t => (true, t))
    else
      let current_original_slot := KT.hash current_key &&& size_mask
      if distance_from_slot size current_original_slot i < cur_dist then some (false, m_table)
      else remove_loop KT shift_fuel m_table key fuel (i + 1) (cur_dist + 1)

/-- `TransactionalRobinHoodSet::remove`. -/
def remove (KT : KeyTraits) (fuel : Nat) (m_table : List Nat) (key : Nat) :
    Option (Bool × List Nat) :=
  remove_loop KT fuel m_table key fuel (KT.hash key) 0

/-- Home slot of a key in a table of the given size. -/
def home (KT : KeyTraits) (size key : Nat) : Nat := KT.hash key &&& (size - 1)

/-- Probe distance of the key stored in slot `i`. -/
def probe_distance (KT : KeyTraits) (t : List Nat) (i : Nat) : Nat :=
  distance_from_slot t.length (home KT t.length (t.getD i 0)) i

/-- The first `n` slots of the cyclic probe path of key `x` are occupied, each by a key
whose own probe distance is at least the distance of that slot from the home of `x`. -/
def PathOccupied (KT : KeyTraits) (t : List Nat) (x n : Nat) : Prop :=
  ∀ d < n,
    t.getD ((home KT t.length x + d) % t.length) 0 ≠ KT.NullKey ∧
    d ≤ probe_distance KT t ((home KT t.length x + d) % t.length)

/-- The Robin-Hood distance invariant: for every occupied slot `i` holding key `x`, every
slot on the cyclic path from the home of `x` up to but excluding `i` is occupied by a key
whose probe distance there is at least the distance of that slot from the home of `x`. -/
def RobinHoodInvariant (KT : KeyTraits) (t : List Nat) : Prop :=
  ∀ i < t.length, t.getD i 0 ≠ KT.NullKey →
    PathOccupied KT t (t.getD i 0) (probe_distance KT t i)

/-- Some slot is empty. -/
def HasEmptySlot (KT : KeyTraits) (t : List Nat) : Prop :=
  ∃ i < t.length, t.getD i 0 = KT.NullKey

/-- Key `k` occupies some slot. -/
def Occupies (t : List Nat) (k : Nat) : Prop :=
  ∃ i < t.length, t.getD i 0 = k

/-- No key occupies two slots. -/
def NoDuplicateKey (KT : KeyTraits) (t : List Nat) : Prop :=
  ∀ i < t.length, ∀ j < t.length,
    t.getD i 0 ≠ KT.NullKey → t.getD i 0 = t.getD j 0 → i = j

/-- The backward shift of `remove` stops at slot `j`: it is empty or holds a key at its home. -/
def ShiftStops (KT : KeyTraits) (t : List Nat) (j : Nat) : Prop :=
  t.getD j 0 = KT.NullKey ∨ probe_distance KT t j = 0

/-- Table `t'` is `t` after the `m` keys that follow slot `s` were moved one slot back and
the last vacated slot was emptied. -/
def ShiftedBack (KT : KeyTraits) (t t' : List Nat) (s m : Nat) : Prop :=
  t'.length = t.length ∧
  ∀ j < t.length, t'.getD j 0 =
    if distance_from_slot t.length s j < m then t.getD ((j + 1) % t.length) 0
    else if distance_from_slot t.length s j = m then KT.NullKey
    else t.getD j 0

instance (KT : KeyTraits) (t : List Nat) (x n : Nat) : Decidable (PathOccupied KT t x n) := by
  unfold PathOccupied; infer_instance

instance (KT : KeyTraits) (t : List Nat) : Decidable (RobinHoodInvariant KT t) := by
  unfold RobinHoodInvariant; infer_instance

instance (KT : KeyTraits) (t : List Nat) : Decidable (HasEmptySlot KT t) := by
  unfold HasEmptySlot; infer_instance

instance (t : List Nat) (k : Nat) : Decidable (Occupies t k) := by
  unfold Occupies; infer_instance

instance (KT : KeyTraits) (t : List Nat) : Decidable (NoDuplicateKey KT t) := by
  unfold NoDuplicateKey; infer_instance

end TransactionalRobinHoodSet
end concurrent_data_structures

namespace concurrent_data_structures
namespace MagedMichael

/-- A list cell: its key and the raw value of its `next` link, whose low bit is the mark. -/
structure Cell where
  key : Nat
  next : Nat

/-- `Cell::mark`: sets the low bit (`| 0x1`). -/
def Cell.mark (ptr : Nat) : Nat := ptr ||| 1

/-- `Cell::is_marked`: tests the low bit (`& 0x1`). -/
def Cell.is_marked (ptr : Nat) : Bool := (ptr &&& 1) == 1

/-- `Cell::get_ptr`: clears the low bit (`& ~0x1`). -/
def Cell.get_ptr (ptr : Nat) : Nat := 2 * (ptr / 2)

/-- Result of `LinkedList::search`. -/
inductive SearchResult
  | Found
  | NotFound
  deriving DecidableEq, Repr

/-- An atomic link (`std::atomic<Cell *> *`): the head of a bucket list or the `next` field of
the cell at an address. -/
inductive Loc
  | head (bucket : Nat)
  | next (cell : Nat)
  deriving DecidableEq, Repr

/-- The memory seen by the set: the cells by address, the first address that `malloc` has not
handed out yet, and the array `m_table` of list heads (null is 0). -/
structure State where
  mem : Nat → Cell
  brk : Nat
  m_table : List Nat

/-- The local variables `ListVars` of a traversal (the protection handles are left out:
`try_protect` always succeeds in both reclaimers). -/
structure ListVars where
  previous : Loc
  current : Nat
  next : Nat

/-- Atomic load of a link. -/
def load (s : State) : Loc → Nat
  | Loc.head b => s.m_table.getD b 0
  | Loc.next c => (s.mem c).next

/-- Atomic store to a link. -/
def store (s : State) (l : Loc) (v : Nat) : State :=
  match l with
  | Loc.head b => { s with m_table := s.m_table.set b v }
  | Loc.next c => { s with mem := Function.update s.mem c { key := (s.mem c).key, next := v } }

/-- Single-thread `compare_exchange_weak`: it succeeds exactly when the link holds the
expected value. -/
def compare_exchange_weak (s : State) (l : Loc) (expected desired : Nat) : Bool × State :=
  if load s l = expected then (true, store s l desired) else (false, s)

/-- The loop of `LinkedList::search` on the list of bucket `b` (lines 95-131); a jump to
`try_again` re-enters the loop from the head. -/
def search_loop (key b : Nat) : Nat → State → ListVars → Option (SearchResult × ListVars × State)
  | 0, _, _ => none
  | fuel + 1, s, vars =>
    if Cell.get_ptr vars.current = 0 then some (SearchResult.NotFound, vars, s)
    else
      let vars := { vars with next := (s.mem (Cell.get_ptr vars.current)).next }
      let is_cur_marked := Cell.is_marked vars.next
      let next := Cell.get_ptr vars.next
      let current_key := (s.mem (Cell.get_ptr vars.current)).key
      if load s vars.previous ≠ Cell.get_ptr vars.current then
        search_loop key b fuel s
          { previous := Loc.head b, current := load s (Loc.head b), next := vars.next }
      else if !is_cur_marked then
        if current_key ≥ key then
          some (if current_key = key then SearchResult.Found else SearchResult.NotFound, vars, s)
        else
          search_loop key b fuel s
            { previous := Loc.next (Cell.get_ptr vars.current), current := vars.next,
              next := vars.next }
      else
        match compare_exchange_weak s vars.previous vars.current next with
        | (true, s') =>
          search_loop key b fuel s'
            { previous := Loc.next (Cell.get_ptr vars.current), current := vars.next,
              next := vars.next }
        | (false, s') =>
          search_loop key b fuel s'
            { previous := Loc.head b, current := load s' (Loc.head b), next := vars.next }

/-- `LinkedList::search` on bucket `b`. -/
def search (key b fuel : Nat) (s : State) : Option (SearchResult × ListVars × State) :=
  search_loop key b fuel s { previous := Loc.head b, current := load s (Loc.head b), next := 0 }

/-- `LinkedList::find`. -/
def find (key b fuel : Nat) (s : State) : Option (Bool × State) :=
  match search key b fuel s with
  | none => none
  | some (res, _, s') => some (decide (res = SearchResult.Found), s')

/-- `LinkedList::add` (lines 140-156); `sfuel` bounds each search. -/
def list_add (cell key b sfuel : Nat) : Nat → State → Option (Bool × State)
  | 0, _ => none
  | fuel + 1, s =>
    match search key b sfuel s with
    | none => none
    | some (res, vars, s1) =>
      if res = SearchResult.Found then some (false, s1)
      else
        let current := vars.current
        let s2 := store s1 (Loc.next cell) current
        match compare_exchange_weak s2 vars.previous current cell with
        | (true, s3) => some (true, s3)
        | (false, s3) => list_add cell key b sfuel fuel s3

/-- `LinkedList::remove` (lines 158-182). -/
def list_remove (key b sfuel : Nat) : Nat → State → Option (Bool × State)
  | 0, _ => none
  | fuel + 1, s =>
    match search key b sfuel s with
    | none => none
    | some (res, vars, s1) =>
      if res = SearchResult.NotFound then some (false, s1)
      else
        let next := vars.next
        let current := vars.current
        match compare_exchange_weak s1 (Loc.next current) next (Cell.mark next) with
        | (false, s2) => list_remove key b sfuel fuel s2
        | (true, s2) =>
          match compare_exchange_weak s2 vars.previous current (Cell.get_ptr next) with
          | (true, s3) => some (true, s3)
          | (false, s3) =>
            match search key b sfuel s3 with
            | none => none
            | some (_, _, s4) => some (true, s4)

/-- `MagedMichael::contains`. -/
def contains (KT : KeyTraits) (fuel : Nat) (s : State) (key : Nat) : Option (Bool × State) :=
  let size_mask := s.m_table.length - 1
  let i := KT.hash key &&& size_mask
  find key i fuel s

/-- `MagedMichael::add`: the new cell is placed at the next unused address (cells take 16
bytes); `free` of a cell that was not linked changes nothing that is read later. -/
def add (KT : KeyTraits) (fuel : Nat) (s : State) (key : Nat) : Option (Bool × State) :=
  let m_size_mask := s.m_table.length - 1
  let i := KT.hash key &&& m_size_mask
  let cell := s.brk
  let s0 : State :=
    { s with brk := s.brk + 16,
             mem := Function.update s.mem cell { key := key, next := (s.mem cell).next } }
  list_add cell key i fuel fuel s0

/-- `MagedMichael::remove`. -/
def remove (KT : KeyTraits) (fuel : Nat) (s : State) (key : Nat) : Option (Bool × State) :=
  let m_size_mask := s.m_table.length - 1
  let i := KT.hash key &&& m_size_mask
  list_remove key i fuel fuel s

/-- The empty set with `size` buckets: every list head is null. -/
def empty (size : Nat) : State :=
  { mem := fun _ => { key := 0, next := 0 }, brk := 16, m_table := List.replicate size 0 }

/-- A call of the set interface. -/
inductive Op
  | contains (key : Nat)
  | add (key : Nat)
  | remove (key : Nat)
  deriving DecidableEq, Repr

/-- One call on the set. -/
def step (KT : KeyTraits) (fuel : Nat) (s : State) : Op → Option (Bool × State)
  | Op.contains k => contains KT fuel s k
  | Op.add k => add KT fuel s k
  | Op.remove k => remove KT fuel s k

/-- The booleans returned by a sequence of calls. -/
def run (KT : KeyTraits) (fuel : Nat) : State → List Op → Option (List Bool)
  | _, [] => some []
  | s, op :: ops =>
    match step KT fuel s op with
    | none => none
    | some (r, s') =>
      match run KT fuel s' ops with
      | none => none
      | some rs => some (r :: rs)

/-- One call on a mathematical set of keys. -/
def set_step (m : Finset Nat) : Op → Bool × Finset Nat
  | Op.contains k => (decide (k ∈ m), m)
  | Op.add k => (decide (k ∉ m), insert k m)
  | Op.remove k => (decide (k ∈ m), m.erase k)

/-- The booleans returned by a sequence of calls on a mathematical set. -/
def set_run : Finset Nat → List Op → List Bool
  | _, [] => []
  | m, op :: ops => (set_step m op).1 :: set_run (set_step m op).2 ops

/-- The cells reached from pointer `p` are unmarked, lie below `bound` and hold the keys `ks`
in this order; the last link is null. -/
def Chain (mem : Nat → Cell) (bound : Nat) : Nat → List Nat → Prop
  | p, [] => p = 0
  | p, k :: ks =>
    p ≠ 0 ∧ p % 2 = 0 ∧ p < bound ∧ (mem p).key = k ∧ Chain mem bound (mem p).next ks

/-- Link `l'` is reached from link `l` by stepping over the cells that hold the keys `ks`. -/
def Link (s : State) : Loc → List Nat → Loc → Prop
  | l, [], l' => l' = l
  | l, _ :: ks, l' => Link s (Loc.next (load s l)) ks l'

/-- The owner of link `l`, when it is a cell, lies below `bound` and has a key smaller than
every key of `ks`. -/
def Below (s : State) (bound : Nat) (l : Loc) (ks : List Nat) : Prop :=
  ∀ c, l = Loc.next c → c < bound ∧ ∀ x ∈ ks, (s.mem c).key < x

/-- The state represents the set `m`: the table has a power-of-two size and every bucket
list is an unmarked, strictly ascending chain of exactly the keys of `m` that hash to it. -/
def Represents (KT : KeyTraits) (s : State) (m : Finset Nat) : Prop :=
  (∃ p, s.m_table.length = 2 ^ p) ∧ s.brk % 2 = 0 ∧ 0 < s.brk ∧
  ∀ b < s.m_table.length, ∃ ks, Chain s.mem s.brk (s.m_table.getD b 0) ks ∧
    ks.Pairwise (fun x y => x < y) ∧
    ∀ k, k ∈ ks ↔ (k ∈ m ∧ KT.hash k &&& (s.m_table.length - 1) = b)

end MagedMichael
end concurrent_data_structures

namespace concurrent_data_structures
namespace LockFreeLinearProbingNodeSet

/-- `Cell::flag`: sets the low bit of a cell pointer (`| 0x1`), the tentative tag. -/
def Cell.flag (ptr : Nat) : Nat := ptr ||| 1

/-- `Cell::is_flagged`: tests the low bit (`& 0x1`). -/
def Cell.is_flagged (ptr : Nat) : Bool := (ptr &&& 1) == 1

/-- `Cell::get_ptr`: clears the low bit (`& ~0x1`). -/
def Cell.get_ptr (ptr : Nat) : Nat := 2 * (ptr / 2)

/-- The memory seen by the set: the key stored in the cell at each address, the slots of
`m_table` (null is 0), the address of the `TOMBSTONE` cell, and the pointers handed to
`retire` so far. -/
structure State where
  key : Nat → Nat
  m_table : List Nat
  TOMBSTONE : Nat
  retired : List Nat

/-- Single-thread `compare_exchange_weak` on slot `i`: it succeeds exactly when the slot
holds the expected value; the second component is the value of `expected` afterwards. -/
def compare_exchange_weak (s : State) (i expected desired : Nat) : Bool × Nat × State :=
  if s.m_table.getD i 0 = expected then
    (true, expected, { s with m_table := s.m_table.set i desired })
  else (false, s.m_table.getD i 0, s)

/-- The call `pin.retire(handle)`, recorded by the pointer that the handle holds: the
pointer of the protected cell without its flag. -/
def retire (s : State) (ptr : Nat) : State := { s with retired := s.retired ++ [ptr] }

/-- The local variables of `upgrade`. -/
structure UpgradeVars where
  found_non_flagged : Bool
  found_closest_flagged : Bool
  closest_flagged_slot : Nat
  actual_cell : Nat

/-- The scan of `upgrade` (lines 74-169); `try_protect` always succeeds. -/
def upgrade_loop (upgrade_key : Nat) : Nat → State → Nat → UpgradeVars → Option (Nat × State)
  | 0, _, _, _ => none
  | fuel + 1, s, i, v =>
    let size_mask := s.m_table.length - 1
    let i := i &&& size_mask
    let current_cell := s.m_table.getD i 0
    if current_cell = 0 then
      if v.found_non_flagged then some (v.actual_cell, s)
      else if v.found_closest_flagged then
        let to_commit := s.m_table.getD v.closest_flagged_slot 0
        if to_commit = Cell.get_ptr v.actual_cell then some (Cell.get_ptr v.actual_cell, s)
        else if Cell.get_ptr to_commit ≠ Cell.get_ptr v.actual_cell then some (s.TOMBSTONE, s)
        else
          match compare_exchange_weak s v.closest_flagged_slot to_commit
              (Cell.get_ptr v.actual_cell) with
          | (true, _, s') => some (Cell.get_ptr v.actual_cell, s')
          | (false, to_commit, s') =>
            if to_commit ≠ Cell.get_ptr v.actual_cell then some (s'.TOMBSTONE, s')
            else some (to_commit, s')
      else upgrade_loop upgrade_key fuel s (i + 1) v
    else if current_cell = s.TOMBSTONE then upgrade_loop upgrade_key fuel s (i + 1) v
    else if Cell.is_flagged current_cell then
      let potential_cell := Cell.get_ptr current_cell
      if s.key potential_cell = upgrade_key then
        if v.found_non_flagged then
          match compare_exchange_weak s i current_cell s.TOMBSTONE with
          | (true, _, s') =>
            upgrade_loop upgrade_key fuel (retire s' (Cell.get_ptr current_cell)) (i + 1) v
          | (false, _, s') => upgrade_loop upgrade_key fuel s' (i + 1) v
        else if !v.found_closest_flagged then
          upgrade_loop upgrade_key fuel s (i + 1)
            { v with closest_flagged_slot := i, found_closest_flagged := true,
                     actual_cell := current_cell }
        else
          let best := s.m_table.getD v.closest_flagged_slot 0
          if best = v.actual_cell then
            match compare_exchange_weak s i current_cell s.TOMBSTONE with
            | (true, _, s') =>
              upgrade_loop upgrade_key fuel (retire s' (Cell.get_ptr current_cell)) (i + 1) v
            | (false, _, s') => upgrade_loop upgrade_key fuel s' (i + 1) v
          else some (s.TOMBSTONE, s)
      else upgrade_loop upgrade_key fuel s (i + 1) v
    else
      let current_key := s.key current_cell
      if current_key = upgrade_key then
        let v := { v with found_non_flagged := true }
        if v.found_closest_flagged then
          let to_remove := s.m_table.getD v.closest_flagged_slot 0
          if to_remove = s.TOMBSTONE then upgrade_loop upgrade_key fuel s (i + 1) v
          else if s.key (Cell.get_ptr to_remove) ≠ upgrade_key then
            upgrade_loop upgrade_key fuel s (i + 1) v
          else
            match compare_exchange_weak s v.closest_flagged_slot v.actual_cell s.TOMBSTONE with
            | (true, _, s') =>
              upgrade_loop upgrade_key fuel (retire s' (Cell.get_ptr v.actual_cell)) (i + 1)
                { v with actual_cell := current_cell, found_closest_flagged := false }
            | (false, _, s') =>
              upgrade_loop upgrade_key fuel s' (i + 1)
                { v with actual_cell := current_cell, found_closest_flagged := false }
        else upgrade_loop upgrade_key fuel s (i + 1) v
      else upgrade_loop upgrade_key fuel s (i + 1) v

/-- `LockFreeLinearProbingNodeSet::upgrade`. -/
def upgrade (fuel : Nat) (s : State) (original_slot upgrade_key : Nat) : Option (Nat × State) :=
  upgrade_loop upgrade_key fuel s original_slot
    { found_non_flagged := false, found_closest_flagged := false, closest_flagged_slot := 0,
      actual_cell := s.TOMBSTONE }

/-- The probe loop of `contains` (lines 205-223). -/
def contains_loop (key : Nat) (s : State) : Nat → Nat → Option Bool
  | 0, _ => none
  | fuel + 1, i =>
    let size_mask := s.m_table.length - 1
    let i := i &&& size_mask
    let current_cell := s.m_table.getD i 0
    if current_cell = 0 then some false
    else if current_cell = s.TOMBSTONE ∨ Cell.is_flagged current_cell = true then
      contains_loop key s fuel (i + 1)
    else if s.key current_cell = key then some true
    else contains_loop key s fuel (i + 1)

/-- `LockFreeLinearProbingNodeSet::contains`. -/
def contains (KT : KeyTraits) (fuel : Nat) (s : State) (key : Nat) : Option Bool :=
  let size_mask := s.m_table.length - 1
  let original_slot := KT.hash key &&& size_mask
  contains_loop key s fuel original_slot

/-- The probe loop of `add` (lines 232-264); `ufuel` bounds the scan of `upgrade`. -/
def add_loop (key to_insert original_slot ufuel : Nat) : Nat → State → Nat → Option (Bool × State)
  | 0, _, _ => none
  | fuel + 1, s, i =>
    let size_mask := s.m_table.length - 1
    let i := i &&& size_mask
    let current_cell := s.m_table.getD i 0
    if current_cell = 0 ∨ current_cell = s.TOMBSTONE then
      match compare_exchange_weak s i current_cell (Cell.flag to_insert) with
      | (false, _, s') => add_loop key to_insert original_slot ufuel fuel s' i
      | (true, _, s') =>
        match upgrade ufuel s' original_slot key with
        | none => none
        | some (current_cell, s'') =>
          if current_cell = s''.TOMBSTONE then some (true, s'')
          else some (decide (current_cell = to_insert), s'')
    else
      let current_key := s.key (Cell.get_ptr current_cell)
      if current_key = key then
        if Cell.is_flagged current_cell = true then
          match upgrade ufuel s original_slot key with
          | none => none
          | some (_, s') => some (false, s')
        else some (false, s)
      else add_loop key to_insert original_slot ufuel fuel s (i + 1)

/-- `LockFreeLinearProbingNodeSet::add`; `to_insert` is the address returned by `malloc`,
where the constructor stores the key. -/
def add (KT : KeyTraits) (fuel : Nat) (s : State) (to_insert key : Nat) : Option (Bool × State) :=
  let s0 : State := { s with key := Function.update s.key to_insert key }
  let size_mask := s.m_table.length - 1
  let original_slot := KT.hash key &&& size_mask
  add_loop key to_insert original_slot fuel fuel s0 original_slot

/-- The probe loop of `remove` (lines 273-297); a failed CAS restarts from the home slot. -/
def remove_loop (in_key original_slot : Nat) : Nat → State → Nat → Option (Bool × State)
  | 0, _, _ => none
  | fuel + 1, s, i =>
    let size_mask := s.m_table.length - 1
    let i := i &&& size_mask
    let current_cell := s.m_table.getD i 0
    if current_cell = 0 then some (false, s)
    else if current_cell = s.TOMBSTONE ∨ Cell.is_flagged current_cell = true then
      remove_loop in_key original_slot fuel s (i + 1)
    else if s.key current_cell = in_key then
      match compare_exchange_weak s i current_cell s.TOMBSTONE with
      | (true, _, s') => some (true, retire s' current_cell)
      | (false, _, s') => remove_loop in_key original_slot fuel s' original_slot
    else remove_loop in_key original_slot fuel s (i + 1)

/-- `LockFreeLinearProbingNodeSet::remove`. -/
def remove (KT : KeyTraits) (fuel : Nat) (s : State) (in_key : Nat) : Option (Bool × State) :=
  let size_mask := s.m_table.length - 1
  let original_slot := KT.hash in_key &&& size_mask
  remove_loop in_key original_slot fuel s original_slot

/-- Home slot of a key. -/
def home (KT : KeyTraits) (s : State) (k : Nat) : Nat := KT.hash k &&& (s.m_table.length - 1)

/-- The slot at distance `d` on the probe path of key `k`. -/
def probe (KT : KeyTraits) (s : State) (k d : Nat) : Nat := (home KT s k + d) % s.m_table.length

/-- Slot `i` holds a committed (unflagged, non-tombstone) cell with key `k`. -/
def CommittedKey (s : State) (i k : Nat) : Prop :=
  s.m_table.getD i 0 ≠ 0 ∧ s.m_table.getD i 0 ≠ s.TOMBSTONE ∧
  Cell.is_flagged (s.m_table.getD i 0) = false ∧ s.key (s.m_table.getD i 0) = k

/-- No slot holds a tentative (flagged) cell. -/
def NoTentative (s : State) : Prop :=
  ∀ i < s.m_table.length, Cell.is_flagged (s.m_table.getD i 0) = false

/-- A memory for the concrete tables below: the cell at address `16 * j` holds key `j`; the
tombstone cell is at address 4096. -/
def exampleState (table : List Nat) : State :=
  { key := fun a => a / 16, m_table := table, TOMBSTONE := 4096, retired := [] }

instance (s : State) (i k : Nat) : Decidable (CommittedKey s i k) := by
  unfold CommittedKey; infer_instance

instance (s : State) : Decidable (NoTentative s) := by
  unfold NoTentative; infer_instance

end LockFreeLinearProbingNodeSet
end concurrent_data_structures

namespace concurrent_data_structures
namespace HopscotchHashSet

/-- The sentinel `_NULL_DELTA = INT_MIN`. -/
def _NULL_DELTA : Int := -2147483648

/-- `INT_MAX`. -/
def INT_MAX : Int := 2147483647

/-- The conversion to `std::int32_t`. -/
def toInt32 (x : Int) : Int := (x + 2147483648) % 4294967296 - 2147483648

/-- A bucket: the delta to the first member of the list of this home bucket, the delta to
the next member of the list this bucket is on, the claimed hash (0 when free) and the key. -/
structure Bucket where
  _first_delta : Int
  _next_delta : Int
  _hash : Nat
  _key : Nat
  deriving DecidableEq, Repr

/-- The fields fixed by the constructor: `m_size_mask`, `_cache_mask` and
`_is_cacheline_alignment`. -/
structure Config where
  m_size_mask : Nat
  _cache_mask : Nat
  _is_cacheline_alignment : Bool

/-- `Bucket::init`. -/
def Bucket.init (KT : KeyTraits) : Bucket :=
  { _first_delta := _NULL_DELTA, _next_delta := _NULL_DELTA, _hash := 0, _key := KT.NullKey }

/-- The bucket at index `i` of `_table` (pointer `_table + i`); an index outside the table
reads as an initialised bucket. -/
def bucketAt (KT : KeyTraits) (t : List Bucket) (i : Int) : Bucket :=
  if i < 0 then Bucket.init KT else t.getD i.toNat (Bucket.init KT)

/-- A store to fields of the bucket at index `i`. -/
def setBucket (t : List Bucket) (i : Int) (b : Bucket) : List Bucket :=
  if i < 0 then t else t.set i.toNat b

/-- The table built by the constructor: `inCapacity + _INSERT_RANGE + 1` initialised buckets. -/
def emptyTable (KT : KeyTraits) (inCapacity : Nat) : List Bucket :=
  List.replicate (inCapacity + 4096 + 1) (Bucket.init KT)

/-- `get_start_cacheline_bucket`. -/
def get_start_cacheline_bucket (cfg : Config) (bucket : Int) : Int :=
  bucket - ((bucket.toNat &&& cfg._cache_mask : Nat) : Int)

/-- `bucket->_first_delta.store(v)` on the bucket at index `i`. -/
def set_first_delta (KT : KeyTraits) (t : List Bucket) (i : Int) (v : Int) : List Bucket :=
  setBucket t i { bucketAt KT t i with _first_delta := v }

/-- `bucket->_next_delta.store(v)` on the bucket at index `i`. -/
def set_next_delta (KT : KeyTraits) (t : List Bucket) (i : Int) (v : Int) : List Bucket :=
  setBucket t i { bucketAt KT t i with _next_delta := v }

/-- `bucket->_hash.store(v)` on the bucket at index `i`. -/
def set_hash (KT : KeyTraits) (t : List Bucket) (i : Int) (v : Nat) : List Bucket :=
  setBucket t i { bucketAt KT t i with _hash := v }

/-- `bucket->_key.store(v)` on the bucket at index `i`. -/
def set_key (KT : KeyTraits) (t : List Bucket) (i : Int) (v : Nat) : List Bucket :=
  setBucket t i { bucketAt KT t i with _key := v }

/-- `remove_key` without the timestamp of the segment, which a single thread never sees
change between its two reads in `contains`. -/
def remove_key (KT : KeyTraits) (t : List Bucket) (from_bucket key_bucket : Int)
    (prev_key_bucket : Option Int) : List Bucket :=
  let t := set_key KT t key_bucket KT.NullKey
  let t :=
    match prev_key_bucket with
    | none =>
      if _NULL_DELTA = (bucketAt KT t key_bucket)._next_delta then
        set_first_delta KT t from_bucket _NULL_DELTA
      else
        set_first_delta KT t from_bucket
          (toInt32 ((bucketAt KT t from_bucket)._first_delta +
            (bucketAt KT t key_bucket)._next_delta))
    | some prev =>
      if _NULL_DELTA = (bucketAt KT t key_bucket)._next_delta then
        set_next_delta KT t prev _NULL_DELTA
      else
        set_next_delta KT t prev
          (toInt32 ((bucketAt KT t prev)._next_delta + (bucketAt KT t key_bucket)._next_delta))
  let t := set_next_delta KT t key_bucket _NULL_DELTA
  set_hash KT t key_bucket 0

/-- `add_key_to_begining_of_list`. -/
def add_key_to_begining_of_list (KT : KeyTraits) (t : List Bucket)
    (keys_bucket free_bucket : Int) (key : Nat) : List Bucket :=
  let t := set_key KT t free_bucket key
  if 0 = (bucketAt KT t keys_bucket)._first_delta then
    let t :=
      if _NULL_DELTA = (bucketAt KT t keys_bucket)._next_delta then
        set_next_delta KT t free_bucket _NULL_DELTA
      else
        set_next_delta KT t free_bucket
          (toInt32 ((keys_bucket + (bucketAt KT t keys_bucket)._next_delta) - free_bucket))
    set_next_delta KT t keys_bucket (toInt32 (free_bucket - keys_bucket))
  else
    let t :=
      if _NULL_DELTA = (bucketAt KT t keys_bucket)._first_delta then
        set_next_delta KT t free_bucket _NULL_DELTA
      else
        set_next_delta KT t free_bucket
          (toInt32 ((keys_bucket + (bucketAt KT t keys_bucket)._first_delta) - free_bucket))
    set_first_delta KT t keys_bucket (toInt32 (free_bucket - keys_bucket))

/-- `add_key_to_end_of_list`. -/
def add_key_to_end_of_list (KT : KeyTraits) (t : List Bucket)
    (keys_bucket free_bucket : Int) (key : Nat) (last_bucket : Option Int) : List Bucket :=
  let t := set_key KT t free_bucket key
  let t := set_next_delta KT t free_bucket _NULL_DELTA
  match last_bucket with
  | none => set_first_delta KT t keys_bucket (toInt32 (free_bucket - keys_bucket))
  | some last => set_next_delta KT t last (toInt32 (free_bucket - last))

/-- The relocation of the key of `relocate_key` into `free_bucket` (lines 199-229). -/
def relocate (KT : KeyTraits) (t : List Bucket) (free_bucket opt_bucket relocate_key : Int)
    (relocate_key_last : Option Int) : List Bucket :=
  let t := set_key KT t free_bucket (bucketAt KT t relocate_key)._key
  let t := set_hash KT t free_bucket (bucketAt KT t relocate_key)._hash
  let t :=
    if _NULL_DELTA = (bucketAt KT t relocate_key)._next_delta then
      set_next_delta KT t free_bucket _NULL_DELTA
    else
      set_next_delta KT t free_bucket
        (toInt32 ((relocate_key + (bucketAt KT t relocate_key)._next_delta) - free_bucket))
  let t :=
    match relocate_key_last with
    | none => set_first_delta KT t opt_bucket (toInt32 (free_bucket - opt_bucket))
    | some last => set_next_delta KT t last (toInt32 (free_bucket - last))
  let t := set_key KT t relocate_key KT.NullKey
  let t := set_next_delta KT t relocate_key _NULL_DELTA
  set_hash KT t relocate_key 0

/-- The inner loop of `optimize_cacheline_use` (lines 197-241) over the list of `opt_bucket`:
the relocated table, or `none` inside when no member of the list lies outside the cache
line. -/
def optimize_list (KT : KeyTraits) (cfg : Config) (t : List Bucket)
    (free_bucket opt_bucket : Int) :
    Nat → Option Int → Int → Int → Option (Option (List Bucket))
  | 0, _, _, _ => none
  | fuel + 1, relocate_key_last, curr_delta, relocate_key =>
    if curr_delta < 0 ∨ curr_delta > (cfg._cache_mask : Int) then
      some (some (relocate KT t free_bucket opt_bucket relocate_key relocate_key_last))
    else if _NULL_DELTA = (bucketAt KT t relocate_key)._next_delta then some none
    else
      optimize_list KT cfg t free_bucket opt_bucket fuel (some relocate_key)
        (toInt32 (curr_delta + (bucketAt KT t relocate_key)._next_delta))
        (relocate_key + (bucketAt KT t relocate_key)._next_delta)

/-- The outer loop of `optimize_cacheline_use` (lines 190-244). -/
def optimize_loop (KT : KeyTraits) (cfg : Config) (lfuel : Nat) (t : List Bucket)
    (free_bucket end_cacheline_bucket : Int) : Nat → Int → Option (List Bucket)
  | 0, _ => none
  | fuel + 1, opt_bucket =>
    let inner :=
      if _NULL_DELTA ≠ (bucketAt KT t opt_bucket)._first_delta then
        optimize_list KT cfg t free_bucket opt_bucket lfuel none
          (bucketAt KT t opt_bucket)._first_delta
          (opt_bucket + (bucketAt KT t opt_bucket)._first_delta)
      else some none
    match inner with
    | none => none
    | some (some t') => some t'
    | some none =>
      if opt_bucket + 1 ≤ end_cacheline_bucket then
        optimize_loop KT cfg lfuel t free_bucket end_cacheline_bucket fuel (opt_bucket + 1)
      else some t

/-- `optimize_cacheline_use`. -/
def optimize_cacheline_use (KT : KeyTraits) (cfg : Config) (fuel : Nat) (t : List Bucket)
    (free_bucket : Int) : Option (List Bucket) :=
  let start_cacheline_bucket := get_start_cacheline_bucket cfg free_bucket
  let end_cacheline_bucket := start_cacheline_bucket + (cfg._cache_mask : Int)
  optimize_loop KT cfg fuel t free_bucket end_cacheline_bucket fuel start_cacheline_bucket

/-- The walk of `contains` over the list of the home bucket (lines 317-323); the timestamp
read before and after the walk is the same in a single thread, so the walk runs once. -/
def contains_walk (KT : KeyTraits) (t : List Bucket) (key : Nat) :
    Nat → Int → Int → Option Bool
  | 0, _, _ => none
  | fuel + 1, curr_bucket, next_delta =>
    if _NULL_DELTA ≠ next_delta then
      let curr_bucket := curr_bucket + next_delta
      if key = (bucketAt KT t curr_bucket)._key then some true
      else contains_walk KT t key fuel curr_bucket (bucketAt KT t curr_bucket)._next_delta
    else some false

/-- `HopscotchHashSet::contains`. -/
def contains (KT : KeyTraits) (cfg : Config) (fuel : Nat) (t : List Bucket) (key : Nat) :
    Option Bool :=
  let hash := KT.hash key % 2 ^ 32
  let start : Int := ((hash &&& cfg.m_size_mask : Nat) : Int)
  contains_walk KT t key fuel start (bucketAt KT t start)._first_delta

/-- What a call of `add` or `remove` ends with: a returned boolean and the table, or
`exit(1)`. -/
inductive Outcome
  | returned (b : Bool) (t : List Bucket)
  | exited

/-- The walk of `add` over the list of the home bucket (lines 342-350): `none` inside when
the key is met, else the last bucket of the list. -/
def add_walk (KT : KeyTraits) (t : List Bucket) (hash key : Nat) :
    Nat → Option Int → Int → Int → Option (Option (Option Int))
  | 0, _, _, _ => none
  | fuel + 1, last_bucket, compare_bucket, next_delta =>
    if _NULL_DELTA ≠ next_delta then
      let compare_bucket := compare_bucket + next_delta
      if hash = (bucketAt KT t compare_bucket)._hash ∧
          key = (bucketAt KT t compare_bucket)._key then some none
      else
        add_walk KT t hash key fuel (some compare_bucket) compare_bucket
          (bucketAt KT t compare_bucket)._next_delta
    else some (some last_bucket)

/-- The scan of the cache line of the home bucket (lines 357-372): the bucket claimed, if
any. -/
def cacheline_scan (KT : KeyTraits) (t : List Bucket)
    (start_bucket start_cacheline_bucket end_cacheline_bucket : Int) :
    Nat → Int → Option (Option Int)
  | 0, _ => none
  | fuel + 1, free_bucket =>
    if 0 = (bucketAt KT t free_bucket)._hash then some (some free_bucket)
    else
      let free_bucket := free_bucket + 1
      let free_bucket :=
        if free_bucket > end_cacheline_bucket then start_cacheline_bucket else free_bucket
      if start_bucket ≠ free_bucket then
        cacheline_scan KT t start_bucket start_cacheline_bucket end_cacheline_bucket fuel
          free_bucket
      else some none

/-- The forward scan (lines 381-394). -/
def forward_scan (KT : KeyTraits) (t : List Bucket) (max_bucket : Int) :
    Nat → Int → Option (Option Int)
  | 0, _ => none
  | fuel + 1, free_max_bucket =>
    if free_max_bucket ≤ max_bucket then
      if 0 = (bucketAt KT t free_max_bucket)._hash then some (some free_max_bucket)
      else forward_scan KT t max_bucket fuel (free_max_bucket + 1)
    else some none

/-- The backward scan (lines 401-414). -/
def backward_scan (KT : KeyTraits) (t : List Bucket) (min_bucket : Int) :
    Nat → Int → Option (Option Int)
  | 0, _ => none
  | fuel + 1, free_min_bucket =>
    if free_min_bucket ≥ min_bucket then
      if 0 = (bucketAt KT t free_min_bucket)._hash then some (some free_min_bucket)
      else backward_scan KT t min_bucket fuel (free_min_bucket - 1)
    else some none

/-- The claim of a free bucket: the CAS of its hash word from 0 to `hash`, which succeeds in
a single thread (a spurious failure of `compare_exchange_weak` only repeats the round). -/
def claim (KT : KeyTraits) (t : List Bucket) (i : Int) (hash : Nat) : List Bucket :=
  set_hash KT t i hash

/-- `HopscotchHashSet::add`. -/
def add (KT : KeyTraits) (cfg : Config) (fuel : Nat) (t : List Bucket) (key : Nat) :
    Option Outcome :=
  let hash := KT.hash key % 2 ^ 32
  let start_bucket : Int := ((hash &&& cfg.m_size_mask : Nat) : Int)
  match add_walk KT t hash key fuel none start_bucket (bucketAt KT t start_bucket)._first_delta with
  | none => none
  | some none => some (Outcome.returned false t)
  | some (some last_bucket) =>
    let start_cacheline_bucket := get_start_cacheline_bucket cfg start_bucket
    let end_cacheline_bucket := start_cacheline_bucket + (cfg._cache_mask : Int)
    let in_line :=
      if cfg._is_cacheline_alignment then
        cacheline_scan KT t start_bucket start_cacheline_bucket end_cacheline_bucket fuel
          start_bucket
      else some none
    match in_line with
    | none => none
    | some (some free_bucket) =>
      some (Outcome.returned true
        (add_key_to_begining_of_list KT (claim KT t free_bucket hash) start_bucket free_bucket
          key))
    | some none =>
      let max_bucket := min (start_bucket + (INT_MAX - 1)) (cfg.m_size_mask : Int)
      match forward_scan KT t max_bucket fuel (start_bucket + ((cfg._cache_mask : Int) + 1)) with
      | none => none
      | some (some free_max_bucket) =>
        some (Outcome.returned true
          (add_key_to_end_of_list KT (claim KT t free_max_bucket hash) start_bucket
            free_max_bucket key last_bucket))
      | some none =>
        let min_bucket := max (start_bucket - (INT_MAX - 1)) 0
        match backward_scan KT t min_bucket fuel
            (start_bucket - ((cfg._cache_mask : Int) + 1)) with
        | none => none
        | some (some free_min_bucket) =>
          some (Outcome.returned true
            (add_key_to_end_of_list KT (claim KT t free_min_bucket hash) start_bucket
              free_min_bucket key last_bucket))
        | some none => some Outcome.exited

/-- The walk of `remove` (lines 434-452). -/
def remove_walk (KT : KeyTraits) (cfg : Config) (ofuel : Nat) (t : List Bucket)
    (hash key : Nat) (start_bucket : Int) :
    Nat → Option Int → Int → Int → Option Outcome
  | 0, _, _, _ => none
  | fuel + 1, last_bucket, curr_bucket, next_delta =>
    if _NULL_DELTA = next_delta then some (Outcome.returned false t)
    else
      let curr_bucket := curr_bucket + next_delta
      if hash = (bucketAt KT t curr_bucket)._hash ∧ key = (bucketAt KT t curr_bucket)._key then
        let t' := remove_key KT t start_bucket curr_bucket last_bucket
        if cfg._is_cacheline_alignment then
          match optimize_cacheline_use KT cfg ofuel t' curr_bucket with
          | none => none
          | some t'' => some (Outcome.returned true t'')
        else some (Outcome.returned true t')
      else
        remove_walk KT cfg ofuel t hash key start_bucket fuel (some curr_bucket) curr_bucket
          (bucketAt KT t curr_bucket)._next_delta

/-- `HopscotchHashSet::remove`. -/
def remove (KT : KeyTraits) (cfg : Config) (fuel : Nat) (t : List Bucket) (key : Nat) :
    Option Outcome :=
  let hash := KT.hash key % 2 ^ 32
  let start_bucket : Int := ((hash &&& cfg.m_size_mask : Nat) : Int)
  remove_walk KT cfg fuel t hash key start_bucket fuel none start_bucket
    (bucketAt KT t start_bucket)._first_delta

/-- A call of the set interface. -/
inductive Op
  | contains (key : Nat)
  | add (key : Nat)
  | remove (key : Nat)
  deriving DecidableEq, Repr

/-- The key a call is made on. -/
def Op.key : Op → Nat
  | Op.contains k => k
  | Op.add k => k
  | Op.remove k => k

/-- A sequence of calls made by one thread: the booleans returned, `some none` when a call
of `add` reaches `exit(1)`, and `none` when a loop is still running after `fuel` rounds. -/
def run (KT : KeyTraits) (cfg : Config) (fuel : Nat) :
    List Bucket → List Op → Option (Option (List Bool))
  | _, [] => some (some [])
  | t, Op.contains k :: ops =>
    match contains KT cfg fuel t k with
    | none => none
    | some b => (run KT cfg fuel t ops).map (fun r => r.map (fun bs => b :: bs))
  | t, Op.add k :: ops =>
    match add KT cfg fuel t k with
    | none => none
    | some Outcome.exited => some none
    | some (Outcome.returned b t') =>
      (run KT cfg fuel t' ops).map (fun r => r.map (fun bs => b :: bs))
  | t, Op.remove k :: ops =>
    match remove KT cfg fuel t k with
    | none => none
    | some Outcome.exited => some none
    | some (Outcome.returned b t') =>
      (run KT cfg fuel t' ops).map (fun r => r.map (fun bs => b :: bs))

/-- The same call on a mathematical set. -/
def set_step (S : Finset Nat) : Op → Bool × Finset Nat
  | Op.contains k => (decide (k ∈ S), S)
  | Op.add k => (decide (k ∉ S), insert k S)
  | Op.remove k => (decide (k ∈ S), S.erase k)

/-- The same sequence of calls on a mathematical set. -/
def set_run : Finset Nat → List Op → List Bool
  | _, [] => []
  | S, op :: ops => (set_step S op).1 :: set_run (set_step S op).2 ops

/-- The home bucket of a key: `hash & m_size_mask` of its 32-bit hash. -/
def home (KT : KeyTraits) (cfg : Config) (key : Nat) : Int :=
  (((KT.hash key % 2 ^ 32) &&& cfg.m_size_mask : Nat) : Int)

/-- The buckets `ms` are those met, in order, by following `delta` from `cur` and then the
`_next_delta` of each bucket, up to `_NULL_DELTA`. -/
def Chain (KT : KeyTraits) (t : List Bucket) : Int → Int → List Int → Prop
  | _, delta, [] => delta = _NULL_DELTA
  | cur, delta, m :: ms =>
    delta ≠ _NULL_DELTA ∧ m = cur + delta ∧ Chain KT t m (bucketAt KT t m)._next_delta ms

/-- The lists of the table are the lists `ms h`: each is linked from its home bucket, its
members are claimed buckets of the table holding a key of that home, no key is twice on
a list, and every claimed bucket is on a list. -/
structure WellFormed (KT : KeyTraits) (cfg : Config) (t : List Bucket)
    (ms : Int → List Int) : Prop where
  chain : ∀ h, Chain KT t h (bucketAt KT t h)._first_delta (ms h)
  member : ∀ h m, m ∈ ms h → 0 ≤ m ∧ m < (t.length : Int) ∧ (bucketAt KT t m)._hash ≠ 0 ∧
    (bucketAt KT t m)._hash = KT.hash (bucketAt KT t m)._key % 2 ^ 32 ∧
    home KT cfg (bucketAt KT t m)._key = h
  nodup : ∀ h, ((ms h).map (fun m => (bucketAt KT t m)._key)).Nodup
  claimed : ∀ i, (bucketAt KT t i)._hash ≠ 0 → ∃ h, i ∈ ms h

/-- The table holds the keys of the set `S`. -/
def Represents (KT : KeyTraits) (cfg : Config) (t : List Bucket) (S : Finset Nat) : Prop :=
  ∃ ms, WellFormed KT cfg t ms ∧
    ∀ k, k ∈ S ↔ k ∈ (ms (home KT cfg k)).map (fun m => (bucketAt KT t m)._key)

/-- The last bucket met by a walk over `ms` that starts with `last`. -/
def lastBucket : Option Int → List Int → Option Int
  | last, [] => last
  | _, m :: ms => lastBucket (some m) ms

end HopscotchHashSet
end concurrent_data_structures

namespace concurrent_data_structures
namespace HopscotchHashSet

/-- The table after a sequence of calls made by one thread; `none` when a call does not
return (it reaches `exit(1)` or is still running after `fuel` rounds). -/
def exec (KT : KeyTraits) (cfg : Config) (fuel : Nat) :
    List Bucket → List Op → Option (List Bucket)
  | t, [] => some t
  | t, Op.contains k :: ops =>
    match contains KT cfg fuel t k with
    | none => none
    | some _ => exec KT cfg fuel t ops
  | t, Op.add k :: ops =>
    match add KT cfg fuel t k with
    | some (Outcome.returned _ t') => exec KT cfg fuel t' ops
    | _ => none
  | t, Op.remove k :: ops =>
    match remove KT cfg fuel t k with
    | some (Outcome.returned _ t') => exec KT cfg fuel t' ops
    | _ => none

end HopscotchHashSet
end concurrent_data_structures

namespace concurrent_data_structures
namespace EpochReclaimer

/-- `S_NUM_EPOCHS`. -/
def S_NUM_EPOCHS : Nat := 3

/-- The fields of the reclaimer, with the garbage list of thread `t` and epoch index `e` as
`m_garbage_list t e`, and the pointers handed to `Allocator::free` so far, in order. The
entries of threads `t ≥ m_num_threads` do not exist in the code and are never used. -/
structure State where
  m_num_threads : Nat
  m_global_epoch : Nat
  m_thread_epochs : Nat → Nat
  m_garbage_list : Nat → Nat → List Nat
  freed : List Nat

/-- The constructor: every epoch is 3 and every garbage list is empty. -/
def init (num_threads : Nat) : State :=
  { m_num_threads := num_threads, m_global_epoch := 3, m_thread_epochs := fun _ => 3,
    m_garbage_list := fun _ _ => [], freed := [] }

/-- `try_increment_epoch` run as one step: the compare-and-swap succeeds when the global
epoch still is `current`. -/
def try_increment_epoch (s : State) (current : Nat) : Bool × State :=
  if (List.range s.m_num_threads).all (fun t => s.m_thread_epochs t == current) then
    if s.m_global_epoch = current then (true, { s with m_global_epoch := current + 1 })
    else (false, s)
  else (false, s)

/-- `clear_garbage`: every pointer of the list is freed, then the list is cleared. -/
def clear_garbage (s : State) (safe_epoch thread_id : Nat) : State :=
  let index := safe_epoch % S_NUM_EPOCHS
  { s with
    freed := s.freed ++ s.m_garbage_list thread_id index,
    m_garbage_list := Function.update s.m_garbage_list thread_id
      (Function.update (s.m_garbage_list thread_id) index []) }

/-- `enter`; `none` when the assertion `global_epoch - epoch == 1` fails. -/
def enter (s : State) (thread_id : Nat) : Option State :=
  let epoch := s.m_thread_epochs thread_id
  let global_epoch := s.m_global_epoch
  if epoch ≠ global_epoch then
    if global_epoch - epoch = 1 then
      let s := clear_garbage s global_epoch thread_id
      some { s with m_thread_epochs := Function.update s.m_thread_epochs thread_id global_epoch }
    else none
  else some s

/-- `exit`. -/
def exit (s : State) (thread_id : Nat) : State :=
  let epoch := s.m_thread_epochs thread_id
  let global_epoch := s.m_global_epoch
  if epoch = global_epoch then (try_increment_epoch s global_epoch).2 else s

/-- `retire`; `ptr` is the pointer `handle.m_ptr` held by the handle. -/
def retire (s : State) (ptr thread_id : Nat) : State :=
  let epoch := s.m_thread_epochs thread_id
  { s with
    m_garbage_list := Function.update s.m_garbage_list thread_id
      (Function.update (s.m_garbage_list thread_id) (epoch % S_NUM_EPOCHS)
        (s.m_garbage_list thread_id (epoch % S_NUM_EPOCHS) ++ [ptr])) }

/-- Every pointer of every garbage list, in the order in which the destructor visits the
lists. -/
def garbage (s : State) : List Nat :=
  (List.range s.m_num_threads).flatMap (fun t =>
    (List.range S_NUM_EPOCHS).flatMap (s.m_garbage_list t))

/-- The pointers handed to `Allocator::free` once the destructor has run: those freed before
and then every pointer of every garbage list (lines 137-145). -/
def destroy (s : State) : List Nat := s.freed ++ garbage s

/-- A call of the reclaimer by a thread. -/
inductive Step
  | enter (thread_id : Nat)
  | exit (thread_id : Nat)
  | retire (ptr thread_id : Nat)
  deriving DecidableEq, Repr

/-- The thread that makes the call. -/
def Step.thread : Step → Nat
  | Step.enter t => t
  | Step.exit t => t
  | Step.retire _ t => t

/-- One call, as one step. -/
def step (s : State) : Step → Option State
  | Step.enter t => enter s t
  | Step.exit t => some (exit s t)
  | Step.retire p t => some (retire s p t)

/-- A sequence of calls by any threads in any order. -/
def run : State → List Step → Option State
  | s, [] => some s
  | s, st :: tr =>
    match step s st with
    | none => none
    | some s' => run s' tr

/-- The pointers passed to `retire` by a sequence of calls. -/
def retired : List Step → List Nat
  | [] => []
  | Step.retire p _ :: tr => p :: retired tr
  | _ :: tr => retired tr

/-- Every local epoch is the global epoch or one behind it. -/
def EpochsClose (s : State) : Prop :=
  ∀ t < s.m_num_threads,
    s.m_thread_epochs t ≤ s.m_global_epoch ∧ s.m_global_epoch ≤ s.m_thread_epochs t + 1

/-- Pointer `p` is in no garbage list and has not been freed. -/
def Fresh (s : State) (p : Nat) : Prop :=
  p ∉ s.freed ∧ ∀ t e, p ∉ s.m_garbage_list t e

/-- Thread `u` stays at local epoch `c`, pointer `p` has not been freed, and every garbage
list that holds `p` is the list of an epoch `e` with `c ≤ e + 1` that its thread has
reached. -/
def Guarded (s : State) (u c p : Nat) : Prop :=
  s.m_thread_epochs u = c ∧ p ∉ s.freed ∧
  ∀ t i, p ∈ s.m_garbage_list t i → ∃ e, i = e % 3 ∧ e ≤ s.m_thread_epochs t ∧ c ≤ e + 1

/-- Pointer `p`, retired by thread 0 at epoch `E`: either thread 0 has not reached epoch
`E + 3` and `p` waits, unfreed, in the list `E % 3` of thread 0 and nowhere else, or
thread 0 has reached epoch `E + 3` and `p` has been freed. -/
def Pending (s : State) (E p : Nat) : Prop :=
  E ≤ s.m_thread_epochs 0 ∧
  ((s.m_thread_epochs 0 < E + 3 ∧ p ∉ s.freed ∧ p ∈ s.m_garbage_list 0 (E % 3) ∧
      ∀ t i, p ∈ s.m_garbage_list t i → t = 0 ∧ i = E % 3) ∨
    (E + 3 ≤ s.m_thread_epochs 0 ∧ p ∈ s.freed))

/-- The step is neither `enter(u)` nor `exit(u)`. -/
def Step.inScope (u : Nat) : Step → Prop
  | Step.enter t => t ≠ u
  | Step.exit t => t ≠ u
  | Step.retire _ _ => True

instance (u : Nat) (st : Step) : Decidable (Step.inScope u st) := by
  cases st <;> unfold Step.inScope <;> infer_instance

end EpochReclaimer
end concurrent_data_structures

namespace concurrent_data_structures
namespace bench

/-- `enum class HashTable` (`bench/table.h`). -/
inductive HashTable
  | RH_BROWN_SET
  | TRANS_ROBIN_HOOD_SET
  | HOPSCOTCH_SET
  | LOCK_FREE_LINEAR_PROBING_NODE_SET
  | MAGED_MICHAEL
  deriving DecidableEq, Repr

/-- `enum class Reclaimer` (`mem-reclaimer/reclaimer.h`). -/
inductive Reclaimer
  | Leaky
  | Epoch
  deriving DecidableEq, Repr

/-- `enum class Allocator`, by the enumerators that `allocator_map` and `fix_allocator`
name (the header `allocators.h` is not in the repository). -/
inductive Allocator
  | JeMalloc
  | Glibc
  | Intel
  deriving DecidableEq, Repr

/-- `table_map` of `arg_parsing.cpp`. -/
def table_map : List (String × HashTable) :=
  [("rh_brown_set", HashTable.RH_BROWN_SET),
   ("trans_rh_set", HashTable.TRANS_ROBIN_HOOD_SET),
   ("hopscotch_set", HashTable.HOPSCOTCH_SET),
   ("lf_lp_node_set", HashTable.LOCK_FREE_LINEAR_PROBING_NODE_SET),
   ("mm_set", HashTable.MAGED_MICHAEL)]

/-- `reclaimer_map`. -/
def reclaimer_map : List (String × Reclaimer) :=
  [("leaky", Reclaimer.Leaky), ("epoch", Reclaimer.Epoch)]

/-- `allocator_map`. -/
def allocator_map : List (String × Allocator) :=
  [("je", Allocator.JeMalloc), ("glibc", Allocator.Glibc), ("intel", Allocator.Intel)]

/-- `BenchmarkConfig`, by the fields that `parse_base_arg` assigns, in the order of the
initialiser in `parse_set_args` (the header `benchmark_config.h` is not in the repository).
The duration is in seconds. -/
structure BenchmarkConfig where
  num_threads : Nat
  duration : Int
  reclaimer : Reclaimer
  allocator : Allocator
  papi_active : Bool
  verify : Bool
  hyperthreading : Bool
  deriving DecidableEq, Repr

/-- `SetBenchmarkConfig`, by the fields that `parse_set_args` assigns, in the order of its
initialiser. The load factor, a `double`, is kept as the rational number it is. -/
structure SetBenchmarkConfig where
  base : BenchmarkConfig
  table_size : Nat
  updates : Nat
  load_factor : Rat
  table : HashTable
  deriving DecidableEq, Repr

/-- What the parser takes from outside the repository: `std::atoi`; `std::stod` (`none` when
it throws); the value of `std::size_t(1 << n)` for an `int n`; and whether
`PAPI_library_init` returns `PAPI_VER_CURRENT`. -/
structure Runtime where
  atoi : String → Int
  stod : String → Option Rat
  shl_one : Int → Nat
  papi_ok : Bool

/-- The conversion `std::size_t(n)` of an `int`. -/
def size_t (n : Int) : Nat := (n % 2 ^ 64).toNat

/-- How a call of the parser ends: it returns a value, it calls `exit` with a status, or an
exception leaves it. Each carries the lines written to `std::cout` so far. -/
inductive Parsed (α : Type)
  | returned (a : α) (out : List String)
  | exited (out : List String) (status : Int)
  | threw (out : List String)

/-- The lines that `set_print_help_and_exit` writes. -/
def help_text : List String :=
  ["L: Load Factor. Default = 40%.",
   "S: Power of two size. Default = 1 << 23.",
   "D: Duration of benchmark in seconds. Default = 1 second.",
   "T: Number of concurrent threads. Default = 1.",
   "U: Updates as a percentage of workload. Default = 10%.",
   "B: Table being benchmarked. Default = rh_brown_set.",
   "M: Memory reclaimer using within table (if needed). Default = None.",
   "A: Allocator used within the table. Default = JeMalloc.",
   "P: Whether PAPI is turned on or not. Default = True.",
   "H: Whether to employ HT or move to new socket. Default = True.",
   "V: Whether to run the tests on the table. Default = False."]

/-- `set_print_help_and_exit`: writes the help text and calls `exit(0)`. -/
def set_print_help_and_exit {α : Type} (out : List String) : Parsed α :=
  Parsed.exited (out ++ help_text) 0

/-- `parse_base_arg`; `arg` is `optarg`. -/
def parse_base_arg (R : Runtime) (base : BenchmarkConfig) (current_option : Char)
    (arg : String) (out : List String) : Parsed (Bool × BenchmarkConfig) :=
  if current_option = 'D' then
    Parsed.returned (true, { base with duration := R.atoi arg }) out
  else if current_option = 'T' then
    Parsed.returned (true, { base with num_threads := size_t (R.atoi arg) }) out
  else if current_option = 'M' then
    match reclaimer_map.lookup arg with
    | none => set_print_help_and_exit (out ++ ["Invalid reclaimer choice."])
    | some r => Parsed.returned (true, { base with reclaimer := r }) out
  else if current_option = 'A' then
    match allocator_map.lookup arg with
    | none => set_print_help_and_exit (out ++ ["Invalid allocator choice."])
    | some a => Parsed.returned (true, { base with allocator := a }) out
  else if current_option = 'P' then
    Parsed.returned (true, { base with papi_active := arg == "true" }) out
  else if current_option = 'V' then
    Parsed.returned (true, { base with verify := arg == "true" }) out
  else if current_option = 'H' then
    Parsed.returned (true, { base with hyperthreading := arg == "true" }) out
  else Parsed.returned (false, base) out

/-- The loop of `parse_set_args` over the results of the successive `getopt` calls: the
option character returned (`':'` for a missing argument, `'?'` for an unknown option) and
`optarg`. -/
def parse_set_args_loop (R : Runtime) :
    SetBenchmarkConfig → List (Char × String) → List String → Parsed SetBenchmarkConfig
  | config, [], out => Parsed.returned config out
  | config, (current_option, optarg) :: rest, out =>
    match parse_base_arg R config.base current_option optarg out with
    | Parsed.exited o status => Parsed.exited o status
    | Parsed.threw o => Parsed.threw o
    | Parsed.returned (true, base) out =>
      parse_set_args_loop R { config with base := base } rest out
    | Parsed.returned (false, base) out =>
      let config := { config with base := base }
      if current_option = 'L' then
        match R.stod optarg with
        | none => Parsed.threw out
        | some x => parse_set_args_loop R { config with load_factor := x } rest out
      else if current_option = 'S' then
        parse_set_args_loop R { config with table_size := R.shl_one (R.atoi optarg) } rest out
      else if current_option = 'U' then
        parse_set_args_loop R { config with updates := size_t (R.atoi optarg) } rest out
      else if current_option = 'B' then
        match table_map.lookup optarg with
        | none => set_print_help_and_exit (out ++ ["Invalid benchmark choice."])
        | some t => parse_set_args_loop R { config with table := t } rest out
      else set_print_help_and_exit out

/-- `parse_set_args`; the default load factor is the `double` written `0.4`. -/
def parse_set_args (R : Runtime) (opts : List (Char × String)) : Parsed SetBenchmarkConfig :=
  parse_set_args_loop R
    { base := { num_threads := 1, duration := 1, reclaimer := Reclaimer.Leaky,
                allocator := Allocator.JeMalloc, papi_active := true, verify := false,
                hyperthreading := true },
      table_size := 2 ^ 23, updates := 10,
      load_factor := (3602879701896397 : Rat) / 9007199254740992,
      table := HashTable.RH_BROWN_SET }
    opts []

/-- How `main` goes on after the command line: the process has ended in `exit` with a
status, an exception has left `main`, the PAPI assertion has failed, or `main` has reached
the call `run(config)`, which constructs the set and runs it. -/
inductive Outcome
  | exited (out : List String) (status : Int)
  | threw (out : List String)
  | aborted (out : List String)
  | ran (config : SetBenchmarkConfig) (out : List String)
  deriving DecidableEq

/-- `main`, up to the call `run(config)`. -/
def main (R : Runtime) (opts : List (Char × String)) : Outcome :=
  match parse_set_args R opts with
  | Parsed.exited out status => Outcome.exited out status
  | Parsed.threw out => Outcome.threw out
  | Parsed.returned config out =>
    if config.base.papi_active = true ∧ R.papi_ok = false then Outcome.aborted out
    else Outcome.ran config out

/-- The option gives `-B`, `-M` or `-A` a name that its map does not list. -/
def InvalidName (o : Char × String) : Prop :=
  (o.1 = 'B' ∧ table_map.lookup o.2 = none) ∨
  (o.1 = 'M' ∧ reclaimer_map.lookup o.2 = none) ∨
  (o.1 = 'A' ∧ allocator_map.lookup o.2 = none)

instance (o : Char × String) : Decidable (InvalidName o) := by
  unfold InvalidName; infer_instance

/-- A runtime for the concrete command lines below: decimal `atoi`, `stod` that reads
nothing, the shift as a power of two. -/
def exampleRuntime : Runtime :=
  { atoi := fun s => (s.toInt?).getD 0, stod := fun _ => none,
    shl_one := fun n => 2 ^ n.toNat, papi_ok := true }

end bench
end concurrent_data_structures

namespace concurrent_data_structures

/-- The doubling loop of `nearest_power_of_two`; the first argument bounds the number of
doublings. -/
def nearest_power_of_two_loop (num : Nat) : Nat → Nat → Nat
  | 0, actual => actual
  | fuel + 1, actual =>
    if actual < num then nearest_power_of_two_loop num fuel (actual * 2) else actual

/-- Modelled from the spec: `nearest_power_of_two` of the absent header
`hash_table_common.h`, the capacity "rounded up to a power of two": the least power of
two that is not below `num`, for `num` up to `2 ^ 64`. -/
def nearest_power_of_two (num : Nat) : Nat := nearest_power_of_two_loop num 64 1

namespace TransactionalRobinHoodSet

/-- The constructor: `nearest_power_of_two(size)` slots, each holding `NullKey`. -/
def init (KT : KeyTraits) (size : Nat) : List Nat :=
  List.replicate (nearest_power_of_two size) KT.NullKey

/-- A call of the set by the one thread. -/
inductive Op
  | contains (key : Nat)
  | add (key : Nat)
  | remove (key : Nat)
  deriving DecidableEq, Repr

/-- The key of a call. -/
def Op.key : Op → Nat
  | Op.contains k => k
  | Op.add k => k
  | Op.remove k => k

/-- The table after a sequence of calls; `none` when a call does not return within the
bound on its iterations. -/
def exec (KT : KeyTraits) (fuel : Nat) : List Nat → List Op → Option (List Nat)
  | t, [] => some t
  | t, Op.contains k :: ops =>
    match contains KT fuel t k with
    | none => none
    | some _ => exec KT fuel t ops
  | t, Op.add k :: ops =>
    match add KT fuel t k with
    | none => none
    | some (_, t') => exec KT fuel t' ops
  | t, Op.remove k :: ops =>
    match remove KT fuel t k with
    | none => none
    | some (_, t') => exec KT fuel t' ops

/-- The calls never fill the last empty slot: before the first call and after every call
the table has an empty slot. -/
def NeverFull (KT : KeyTraits) (fuel : Nat) (t : List Nat) (ops : List Op) : Prop :=
  ∀ n ≤ ops.length,
    (exec KT fuel t (ops.take n)).all (fun u => decide (HasEmptySlot KT u)) = true

instance (KT : KeyTraits) (fuel : Nat) (t : List Nat) (ops : List Op) :
    Decidable (NeverFull KT fuel t ops) := by
  unfold NeverFull; infer_instance

end TransactionalRobinHoodSet

namespace SetActionGenerator

/-- `enum class SetAction`. -/
inductive SetAction
  | Contains
  | Add
  | Remove
  deriving DecidableEq, Repr

/-- `m_read_limit`: `100 - config.updates`, computed in `std::size_t` and stored in a
`std::uint8_t`. -/
def m_read_limit (updates : Nat) : Nat :=
  ((100 + 2 ^ 64 - updates % 2 ^ 64) % 2 ^ 64) % 256

/-- `m_add_limit`: `m_read_limit + (config.updates / 2)`, stored in a `std::uint8_t`. -/
def m_add_limit (updates : Nat) : Nat :=
  ((m_read_limit updates + (updates % 2 ^ 64) / 2) % 2 ^ 64) % 256

/-- `generate_action`, as a function of the number drawn from `m_action_distribution`. -/
def generate_action (updates action : Nat) : SetAction :=
  if action ≤ m_read_limit updates then SetAction.Contains
  else if action ≤ m_add_limit updates then SetAction.Add
  else SetAction.Remove

/-- The draws of `m_action_distribution(0, 100)`: the numbers 0 to 100, equally likely. -/
def draws : List Nat := List.range 101

/-- The number of draws that `generate_action` maps to the given action. -/
def count (updates : Nat) (a : SetAction) : Nat :=
  (draws.filter (fun action => generate_action updates action = a)).length

end SetActionGenerator
end concurrent_data_structures

namespace concurrent_data_structures
namespace RHSetKCAS

/-- `S_MAX_KCAS`, the capacity asked of `create_descriptor`. -/
def S_MAX_KCAS : Nat := 3000

/-- `S_MAX_TIMESTAMPS`, the length of the local array `timestamps`. -/
def S_MAX_TIMESTAMPS : Nat := 2048

/-- The fields of the set: the slots of `m_table`, the words of `m_timestamps` and
`m_timestamp_shift`; `m_size` is the length of the table and `m_size_mask` one less. -/
structure State where
  m_table : List Nat
  m_timestamps : List Nat
  m_timestamp_shift : Nat
  deriving DecidableEq, Repr

/-- A word that a descriptor entry addresses: `&m_table[i]` or `&m_timestamps[i]`. -/
inductive Loc
  | table (i : Nat)
  | timestamp (i : Nat)
  deriving DecidableEq, Repr

/-- An entry made by `desc->add_value(location, expected, desired)`. -/
structure Entry where
  loc : Loc
  expected : Nat
  desired : Nat
  deriving DecidableEq, Repr

/-- Modelled from the spec: `read_value` of the K-CAS engine (`primitives/brown_kcas.h`,
not in the repository), called while no other thread runs: the value stored in the word. -/
def read_value (s : State) : Loc → Nat
  | Loc.table i => s.m_table.getD i 0
  | Loc.timestamp i => s.m_timestamps.getD i 0

/-- Modelled from the spec: the store of a value in a word, as `write_value` does it. -/
def write_value (s : State) (l : Loc) (v : Nat) : State :=
  match l with
  | Loc.table i => { s with m_table := s.m_table.set i v }
  | Loc.timestamp i => { s with m_timestamps := s.m_timestamps.set i v }

/-- The words of the state after the stores of all entries of a descriptor. -/
def commit (s : State) (desc : List Entry) : State :=
  desc.foldl (fun s e => write_value s e.loc e.desired) s

/-- Modelled from the spec: `cas` of the K-CAS engine, called while no other thread runs:
when every entry finds its expected value, all the new values are stored and the result is
true; otherwise nothing is stored and the result is false. -/
def cas (s : State) (desc : List Entry) : Bool × State :=
  if desc.all (fun e => read_value s e.loc == e.expected) then (true, commit s desc)
  else (false, s)

/-- The loops of the constructor that count the bits of a `std::size_t` (lines 70-76) in a
`std::uint8_t`. -/
def count_bits : Nat → Nat → Nat → Nat
  | 0, _, bits => bits
  | fuel + 1, value, bits =>
    if 0 < value then count_bits fuel (value >>> 1) ((bits + 1) % 256) else bits

/-- The constructor (lines 58-86). A `std::size_t` has at most 65 shifts to zero. -/
def init (KT : KeyTraits) (size threads : Nat) : State :=
  let m_size := nearest_power_of_two size
  let num_timestamps := nearest_power_of_two ((threads <<< 7) % 2 ^ 64)
  let num_timestamp_bits := count_bits 65 num_timestamps 0
  let num_size_bits := count_bits 65 m_size 0
  let timestamp_shift := (num_size_bits + 256 - num_timestamp_bits) % 256
  { m_table := List.replicate m_size KT.NullKey,
    m_timestamps := List.replicate num_timestamps 0,
    m_timestamp_shift := timestamp_shift }

/-- How a piece of the code ends: with a result; with a store behind the last entry of the
local array `timestamps` (`timestamps[timestamp_index++]` while `timestamp_index` is
`S_MAX_TIMESTAMPS`), for which C++ defines no behaviour; or with a call of `add_value` on a
descriptor that already holds `S_MAX_KCAS` entries, which the K-CAS engine decides. -/
inductive Run (α : Type)
  | done (a : α)
  | out_of_bounds
  | descriptor_full
  deriving DecidableEq, Repr

/-- The result of a piece of code, passed on to the code after it. -/
def Run.map {α β : Type} (f : α → β) : Run α → Run β
  | Run.done a => Run.done (f a)
  | Run.out_of_bounds => Run.out_of_bounds
  | Run.descriptor_full => Run.descriptor_full

/-- The result of a piece of code that ended with one. -/
def Run.result {α : Type} : Run α → Option α
  | Run.done a => some a
  | Run.out_of_bounds => none
  | Run.descriptor_full => none

/-- Modelled from the spec: `add_value` on a descriptor made by
`create_descriptor(S_MAX_KCAS, thread_id)` (`primitives/brown_kcas.h`, not in the
repository; "Operation count per descriptor is bounded (≤ 3000)"): the entry is appended
while the descriptor holds fewer than `S_MAX_KCAS` entries, and there is no descriptor
otherwise. -/
def add_value (desc : List Entry) (loc : Loc) (expected desired : Nat) : Option (List Entry) :=
  if desc.length < S_MAX_KCAS then some (desc ++ [Entry.mk loc expected desired]) else none

/-- A descriptor after calls of `add_value`, as the end of a piece of code. -/
def Run.ofDescriptor : Option (List Entry) → Run (List Entry)
  | some desc => Run.done desc
  | none => Run.descriptor_full

/-- The probe loop of `contains` (lines 104-131). The result is true for `return true` and
false for `goto counter_check`, with the snapshots stored in the local array `timestamps`
of `S_MAX_TIMESTAMPS` entries (`timestamp_index` is the length of the list). -/
def contains_probe (KT : KeyTraits) (s : State) (key : Nat) :
    Nat → Nat → Nat → Nat → List Nat → Option (Run (Bool × List Nat))
  | 0, _, _, _, _ => none
  | fuel + 1, current_bucket, cur_dist, last_timestamp_bucket, timestamps =>
    let m_size := s.m_table.length
    let m_size_mask := m_size - 1
    let current_bucket := current_bucket &&& m_size_mask
    let current_timestamp_bucket := current_bucket >>> s.m_timestamp_shift
    if current_timestamp_bucket ≠ last_timestamp_bucket ∧
        S_MAX_TIMESTAMPS ≤ timestamps.length then some Run.out_of_bounds
    else
      let timestamps :=
        if current_timestamp_bucket ≠ last_timestamp_bucket then
          timestamps ++ [read_value s (Loc.timestamp current_timestamp_bucket)]
        else timestamps
      let last_timestamp_bucket :=
        if current_timestamp_bucket ≠ last_timestamp_bucket then current_timestamp_bucket
        else last_timestamp_bucket
      let current_key := read_value s (Loc.table current_bucket)
      if current_key = KT.NullKey then some (Run.done (false, timestamps))
      else if key = current_key then some (Run.done (true, timestamps))
      else
        let original_bucket := KT.hash current_key &&& m_size_mask
        let distance := distance_from_slot m_size original_bucket current_bucket
        if distance < cur_dist then some (Run.done (false, timestamps))
        else contains_probe KT s key fuel (current_bucket + 1) (cur_dist + 1)
          last_timestamp_bucket timestamps

/-- The loop at `counter_check` (lines 133-147 and 308-322): true when every snapshot
equals its timestamp again, so that the operation returns false; false for
`goto loopBegin`. -/
def counter_check (s : State) (timestamps : List Nat) : Nat → Nat → Nat → Nat → Option Bool
  | 0, _, _, _ => none
  | fuel + 1, current_bucket, check_index, last_timestamp_bucket =>
    if check_index < timestamps.length then
      let current_bucket := current_bucket &&& (s.m_table.length - 1)
      let current_timestamp_bucket := current_bucket >>> s.m_timestamp_shift
      if current_timestamp_bucket ≠ last_timestamp_bucket then
        if timestamps.getD check_index 0 ≠
            read_value s (Loc.timestamp current_timestamp_bucket) then some false
        else counter_check s timestamps fuel (current_bucket + 1) (check_index + 1)
          current_timestamp_bucket
      else counter_check s timestamps fuel (current_bucket + 1) check_index
        last_timestamp_bucket
    else some true

/-- `RHSetKCAS::contains`; each pass from `loopBegin` and each loop iteration uses fuel. -/
def contains (KT : KeyTraits) : Nat → State → Nat → Option (Run Bool)
  | 0, _, _ => none
  | fuel + 1, s, key =>
    let original_bucket := KT.hash key &&& (s.m_table.length - 1)
    match contains_probe KT s key fuel original_bucket 0 (2 ^ 64 - 1) [] with
    | none => none
    | some Run.out_of_bounds => some Run.out_of_bounds
    | some Run.descriptor_full => some Run.descriptor_full
    | some (Run.done (true, _)) => some (Run.done true)
    | some (Run.done (false, timestamps)) =>
      match counter_check s timestamps fuel original_bucket 0 (2 ^ 64 - 1) with
      | none => none
      | some true => some (Run.done false)
      | some false => contains KT fuel s key

/-- How one pass of `add` from `loopBegin` ends: a `return` with the descriptor freed, a
call of `m_kcas.cas` with the descriptor built, or `goto loopBegin`. -/
inductive Attempt
  | returned (result : Bool)
  | commit (desc : List Entry)
  | retry
  deriving DecidableEq, Repr

/-- The probe loop of `add` (lines 164-216). -/
def add_probe (KT : KeyTraits) (s : State) (key : Nat) :
    Nat → Nat → Nat → Nat → Nat → Bool → Nat → List Entry → Option (Run Attempt)
  | 0, _, _, _, _, _, _, _ => none
  | fuel + 1, current_bucket, active_dist, active_key, last_timestamp_bucket, inced_active,
      active_timestamp, desc =>
    let m_size := s.m_table.length
    let m_size_mask := m_size - 1
    let current_bucket := current_bucket &&& m_size_mask
    let current_timestamp_bucket := current_bucket >>> s.m_timestamp_shift
    let active_timestamp :=
      if current_timestamp_bucket ≠ last_timestamp_bucket then
        read_value s (Loc.timestamp current_timestamp_bucket)
      else active_timestamp
    let inced_active :=
      if current_timestamp_bucket ≠ last_timestamp_bucket then false else inced_active
    let last_timestamp_bucket :=
      if current_timestamp_bucket ≠ last_timestamp_bucket then current_timestamp_bucket
      else last_timestamp_bucket
    let current_key := read_value s (Loc.table current_bucket)
    let desc_inc :=
      (add_value desc (Loc.table current_bucket) current_key active_key).bind
        (fun desc_swap =>
          if inced_active = true then some desc_swap
          else add_value desc_swap (Loc.timestamp last_timestamp_bucket) active_timestamp
            ((active_timestamp + 1) % 2 ^ 64))
    if current_key = KT.NullKey then
      some ((Run.ofDescriptor desc_inc).map Attempt.commit)
    else if current_key = key then some (Run.done (Attempt.returned false))
    else if current_key = active_key then some (Run.done Attempt.retry)
    else
      let original_bucket := KT.hash current_key &&& m_size_mask
      let current_dist := distance_from_slot m_size original_bucket current_bucket
      if current_dist < active_dist then
        match desc_inc with
        | none => some Run.descriptor_full
        | some desc_inc =>
          add_probe KT s key fuel (current_bucket + 1) (current_dist + 1) current_key
            last_timestamp_bucket true active_timestamp desc_inc
      else
        add_probe KT s key fuel (current_bucket + 1) (active_dist + 1) active_key
          last_timestamp_bucket inced_active active_timestamp desc

/-- `RHSetKCAS::add`: the returned boolean and the state. -/
def add (KT : KeyTraits) : Nat → State → Nat → Option (Run (Bool × State))
  | 0, _, _ => none
  | fuel + 1, s, key =>
    let original_bucket := KT.hash key &&& (s.m_table.length - 1)
    match add_probe KT s key fuel original_bucket 0 key (2 ^ 64 - 1) false (2 ^ 64 - 1) [] with
    | none => none
    | some Run.out_of_bounds => some Run.out_of_bounds
    | some Run.descriptor_full => some Run.descriptor_full
    | some (Run.done (Attempt.returned result)) => some (Run.done (result, s))
    | some (Run.done Attempt.retry) => add KT fuel s key
    | some (Run.done (Attempt.commit desc)) =>
      match cas s desc with
      | (true, s') => some (Run.done (true, s'))
      | (false, _) => add KT fuel s key

/-- The shuffle-back loop of `remove` (lines 254-285) with the entries made after it
(lines 286-292): the descriptor that is passed to `m_kcas.cas`. -/
def shuffle_loop (KT : KeyTraits) (s : State) :
    Nat → Nat → Bool → Nat → Nat → Nat → Nat → List Entry → Option (Run (List Entry))
  | 0, _, _, _, _, _, _, _ => none
  | fuel + 1, shuffle_bucket, inced_active, dest_bucket, dest_key, dest_timestamp,
      dest_timestamp_bucket, desc =>
    let m_size := s.m_table.length
    let m_size_mask := m_size - 1
    let shuffle_bucket := shuffle_bucket &&& m_size_mask
    let shuffle_timestamp_bucket := shuffle_bucket >>> s.m_timestamp_shift
    let dest_timestamp :=
      if dest_timestamp_bucket ≠ shuffle_timestamp_bucket then
        read_value s (Loc.timestamp shuffle_timestamp_bucket)
      else dest_timestamp
    let inced_active :=
      if dest_timestamp_bucket ≠ shuffle_timestamp_bucket then false else inced_active
    let dest_timestamp_bucket :=
      if dest_timestamp_bucket ≠ shuffle_timestamp_bucket then shuffle_timestamp_bucket
      else dest_timestamp_bucket
    let shuffle_key := read_value s (Loc.table shuffle_bucket)
    let finish :=
      (if inced_active = true then some desc
        else add_value desc (Loc.timestamp dest_timestamp_bucket) dest_timestamp
          ((dest_timestamp + 1) % 2 ^ 64)).bind
        (fun desc_inc => add_value desc_inc (Loc.table dest_bucket) dest_key KT.NullKey)
    if shuffle_key = KT.NullKey then some (Run.ofDescriptor finish)
    else
      let shuffle_idx := KT.hash shuffle_key &&& m_size_mask
      let shuffle_dist := distance_from_slot m_size shuffle_idx shuffle_bucket
      if shuffle_dist = 0 then some (Run.ofDescriptor finish)
      else
        let desc_inc :=
          (add_value desc (Loc.table dest_bucket) dest_key shuffle_key).bind
            (fun desc_move =>
              if inced_active = true then some desc_move
              else add_value desc_move (Loc.timestamp dest_timestamp_bucket) dest_timestamp
                ((dest_timestamp + 1) % 2 ^ 64))
        match desc_inc with
        | none => some Run.descriptor_full
        | some desc_inc =>
          shuffle_loop KT s fuel (shuffle_bucket + 1) true shuffle_bucket shuffle_key
            dest_timestamp dest_timestamp_bucket desc_inc

/-- The probe loop of `remove` (lines 230-305). The result is the descriptor passed to
`m_kcas.cas` when the key was met, or `none` for `goto counter_check`, with the snapshots
stored in the local array `timestamps` of `S_MAX_TIMESTAMPS` entries. -/
def remove_probe (KT : KeyTraits) (s : State) (key : Nat) (shuffle_fuel : Nat) :
    Nat → Nat → Nat → Nat → List Nat → Option (Run (Option (List Entry) × List Nat))
  | 0, _, _, _, _ => none
  | fuel + 1, current_bucket, active_dist, last_timestamp_bucket, timestamps =>
    let m_size := s.m_table.length
    let m_size_mask := m_size - 1
    let current_bucket := current_bucket &&& m_size_mask
    let current_timestamp_bucket := current_bucket >>> s.m_timestamp_shift
    if current_timestamp_bucket ≠ last_timestamp_bucket ∧
        S_MAX_TIMESTAMPS ≤ timestamps.length then some Run.out_of_bounds
    else
      let timestamps :=
        if current_timestamp_bucket ≠ last_timestamp_bucket then
          timestamps ++ [read_value s (Loc.timestamp current_timestamp_bucket)]
        else timestamps
      let last_timestamp_bucket :=
        if current_timestamp_bucket ≠ last_timestamp_bucket then current_timestamp_bucket
        else last_timestamp_bucket
      let current_key := read_value s (Loc.table current_bucket)
      if current_key = KT.NullKey then some (Run.done (none, timestamps))
      else if current_key = key then
        (shuffle_loop KT s shuffle_fuel (current_bucket + 1) false current_bucket current_key
          (timestamps.getD (timestamps.length - 1) 0) (2 ^ 64 - 1) []).map
          (Run.map (fun desc => (some desc, timestamps)))
      else
        let original_idx := KT.hash current_key &&& m_size_mask
        let current_dist := distance_from_slot m_size original_idx current_bucket
        if current_dist < active_dist then some (Run.done (none, timestamps))
        else remove_probe KT s key shuffle_fuel fuel (current_bucket + 1) (active_dist + 1)
          last_timestamp_bucket timestamps

/-- `RHSetKCAS::remove`: the returned boolean and the state. -/
def remove (KT : KeyTraits) : Nat → State → Nat → Option (Run (Bool × State))
  | 0, _, _ => none
  | fuel + 1, s, key =>
    let original_bucket := KT.hash key &&& (s.m_table.length - 1)
    match remove_probe KT s key fuel fuel original_bucket 0 (2 ^ 64 - 1) [] with
    | none => none
    | some Run.out_of_bounds => some Run.out_of_bounds
    | some Run.descriptor_full => some Run.descriptor_full
    | some (Run.done (some desc, _)) =>
      match cas s desc with
      | (true, s') => some (Run.done (true, s'))
      | (false, _) => remove KT fuel s key
    | some (Run.done (none, timestamps)) =>
      match counter_check s timestamps fuel original_bucket 0 (2 ^ 64 - 1) with
      | none => none
      | some true => some (Run.done (false, s))
      | some false => remove KT fuel s key

/-- The timestamp region of a slot. -/
def region (s : State) (i : Nat) : Nat := i >>> s.m_timestamp_shift

/-- The descriptor has an entry that writes a slot of region `r`. -/
def WritesRegion (s : State) (desc : List Entry) (r : Nat) : Prop :=
  ∃ e ∈ desc, ∃ i, e.loc = Loc.table i ∧ region s i = r

/-- A call of the set by the one thread. -/
inductive Op
  | contains (key : Nat)
  | add (key : Nat)
  | remove (key : Nat)
  deriving DecidableEq, Repr

/-- The state after a sequence of calls; `none` when a call does not return within the
bound on its iterations, and the end of the first call that does not end with a result. -/
def exec (KT : KeyTraits) (fuel : Nat) : State → List Op → Option (Run State)
  | s, [] => some (Run.done s)
  | s, Op.contains k :: ops =>
    match contains KT fuel s k with
    | none => none
    | some Run.out_of_bounds => some Run.out_of_bounds
    | some Run.descriptor_full => some Run.descriptor_full
    | some (Run.done _) => exec KT fuel s ops
  | s, Op.add k :: ops =>
    match add KT fuel s k with
    | none => none
    | some Run.out_of_bounds => some Run.out_of_bounds
    | some Run.descriptor_full => some Run.descriptor_full
    | some (Run.done (_, s')) => exec KT fuel s' ops
  | s, Op.remove k :: ops =>
    match remove KT fuel s k with
    | none => none
    | some Run.out_of_bounds => some Run.out_of_bounds
    | some Run.descriptor_full => some Run.descriptor_full
    | some (Run.done (_, s')) => exec KT fuel s' ops

/-- The probe loop of `contains` (lines 104-131) while other threads commit descriptors:
`states n` is the state of the shared words during the iteration of a loop of `contains`
that is number `n` of the call, so that both reads of an iteration see one state. The
result comes with the number of the next iteration. -/
def contains_probe_during (KT : KeyTraits) (states : Nat → State) (key : Nat) :
    Nat → Nat → Nat → Nat → Nat → List Nat → Option (Run (Bool × List Nat) × Nat)
  | 0, _, _, _, _, _ => none
  | fuel + 1, now, current_bucket, cur_dist, last_timestamp_bucket, timestamps =>
    let s := states now
    let m_size := s.m_table.length
    let m_size_mask := m_size - 1
    let current_bucket := current_bucket &&& m_size_mask
    let current_timestamp_bucket := current_bucket >>> s.m_timestamp_shift
    if current_timestamp_bucket ≠ last_timestamp_bucket ∧
        S_MAX_TIMESTAMPS ≤ timestamps.length then some (Run.out_of_bounds, now + 1)
    else
      let timestamps :=
        if current_timestamp_bucket ≠ last_timestamp_bucket then
          timestamps ++ [read_value s (Loc.timestamp current_timestamp_bucket)]
        else timestamps
      let last_timestamp_bucket :=
        if current_timestamp_bucket ≠ last_timestamp_bucket then current_timestamp_bucket
        else last_timestamp_bucket
      let current_key := read_value s (Loc.table current_bucket)
      if current_key = KT.NullKey then some (Run.done (false, timestamps), now + 1)
      else if key = current_key then some (Run.done (true, timestamps), now + 1)
      else
        let original_bucket := KT.hash current_key &&& m_size_mask
        let distance := distance_from_slot m_size original_bucket current_bucket
        if distance < cur_dist then some (Run.done (false, timestamps), now + 1)
        else contains_probe_during KT states key fuel (now + 1) (current_bucket + 1)
          (cur_dist + 1) last_timestamp_bucket timestamps

/-- The loop at `counter_check` of `contains` (lines 133-147) while other threads commit
descriptors; the result comes with the number of the next iteration. -/
def counter_check_during (states : Nat → State) (timestamps : List Nat) :
    Nat → Nat → Nat → Nat → Nat → Option (Bool × Nat)
  | 0, _, _, _, _ => none
  | fuel + 1, now, current_bucket, check_index, last_timestamp_bucket =>
    if check_index < timestamps.length then
      let s := states now
      let current_bucket := current_bucket &&& (s.m_table.length - 1)
      let current_timestamp_bucket := current_bucket >>> s.m_timestamp_shift
      if current_timestamp_bucket ≠ last_timestamp_bucket then
        if timestamps.getD check_index 0 ≠
            read_value s (Loc.timestamp current_timestamp_bucket) then some (false, now + 1)
        else counter_check_during states timestamps fuel (now + 1) (current_bucket + 1)
          (check_index + 1) current_timestamp_bucket
      else counter_check_during states timestamps fuel (now + 1) (current_bucket + 1)
        check_index last_timestamp_bucket
    else some (true, now)

/-- `RHSetKCAS::contains` while other threads commit descriptors, from iteration number
`now` of the call on. -/
def contains_during (KT : KeyTraits) (states : Nat → State) :
    Nat → Nat → Nat → Option (Run Bool)
  | 0, _, _ => none
  | fuel + 1, now, key =>
    let original_bucket := KT.hash key &&& ((states now).m_table.length - 1)
    match contains_probe_during KT states key fuel now original_bucket 0 (2 ^ 64 - 1) [] with
    | none => none
    | some (Run.out_of_bounds, _) => some Run.out_of_bounds
    | some (Run.descriptor_full, _) => some Run.descriptor_full
    | some (Run.done (true, _), _) => some (Run.done true)
    | some (Run.done (false, timestamps), next) =>
      match counter_check_during states timestamps fuel next original_bucket 0
          (2 ^ 64 - 1) with
      | none => none
      | some (true, _) => some (Run.done false)
      | some (false, next) => contains_during KT states fuel next key

/-- The bound on the snapshots kept along a probe that started at slot `h` of a table of `N`
slots with `R` slots per region and has made `d` steps: nothing is stored before the first
step; afterwards `last` is the region of the slot visited last and there is at most one
snapshot per multiple of `R` passed, and one for the start. -/
def SnapInv (N R h d last : Nat) (ts : List Nat) : Prop :=
  (d = 0 ∧ ts.length = 0) ∨
  (0 < d ∧ last = ((h + d - 1) % N) / R ∧ ts.length + h / R ≤ 1 + (h + d - 1) / R)

/-- A table of 4096 slots, built for 32 threads (4096 timestamps, one slot per region),
whose first 2100 slots hold the keys 4096, 8192, ..., all with home slot 0 under
`h(k) = k`: the table after these keys were added in this order. -/
def crowdedState : State :=
  { init idTraits 4096 32 with
    m_table := (List.range 4096).map (fun j => if j < 2100 then 4096 * (j + 1) else 255) }

/-- The table of the state has 4096 slots, one slot per region, and its first `n` slots
hold the keys 4096, 8192, ..., all with home slot 0 under `h(k) = k`; the other slots are
empty. -/
def Crowded (n : Nat) (s : State) : Prop :=
  s.m_table.length = 4096 ∧ s.m_timestamp_shift = 0 ∧
  ∀ j < 4096, s.m_table.getD j 0 = if j < n then 4096 * (j + 1) else 255

/-- The calls `add(4096 * (j + 1))`, `add(4096 * (j + 2))`, ..., `k` of them. -/
def crowdedAddsFrom (j : Nat) : Nat → List Op
  | 0 => []
  | k + 1 => Op.add (4096 * (j + 1)) :: crowdedAddsFrom (j + 1) k

/-- The set of capacity 256 built for one thread (256 slots, 128 timestamps, two slots per
region) after `add(1)` and `add(257)` under `h(k) = k`: key 1 in slot 1, the last slot of
region 0, and key 257, with the same home slot, in slot 2. -/
def racedState : State :=
  { m_table := [255, 1, 257] ++ List.replicate 253 255,
    m_timestamps := [1, 1] ++ List.replicate 126 0,
    m_timestamp_shift := 1 }

/-- The state `racedState` after `remove(1)`: key 257 moved back to slot 1, and the
timestamp of region 1 bumped. -/
def racedStateAfter : State :=
  { m_table := [255, 257] ++ List.replicate 254 255,
    m_timestamps := [1, 2] ++ List.replicate 126 0,
    m_timestamp_shift := 1 }

/-- The states seen by a call that runs its first loop iteration before another thread
commits `remove(1)` on `racedState` and all later iterations after it. -/
def racedSchedule (n : Nat) : State := if n = 0 then racedState else racedStateAfter

/-- The timestamps read by a walk over `n` slots from `current_bucket`: one at each slot
whose region differs from the region of the slot before it. -/
def snapshots (s : State) : Nat → Nat → Nat → List Nat
  | 0, _, _ => []
  | n + 1, current_bucket, last_timestamp_bucket =>
    (if (current_bucket &&& (s.m_table.length - 1)) >>> s.m_timestamp_shift ≠
        last_timestamp_bucket then
      [read_value s (Loc.timestamp
        ((current_bucket &&& (s.m_table.length - 1)) >>> s.m_timestamp_shift))]
    else []) ++
    snapshots s n ((current_bucket &&& (s.m_table.length - 1)) + 1)
      ((current_bucket &&& (s.m_table.length - 1)) >>> s.m_timestamp_shift)

/-- Every entry of the descriptor expects the value that its word holds. -/
def Expected (s : State) (desc : List Entry) : Prop :=
  ∀ e ∈ desc, read_value s e.loc = e.expected

namespace Unbounded

/-! The loops of the set as they run while the local array `timestamps` and the descriptor
have room: the same statements with every store into `timestamps` and every `add_value`
taken. A run of a loop above that ends with a result is a run of the loop here, and a run
here whose snapshots and descriptor entries fit is a run above; the invariants of the loops
are proved here. -/

/-- The probe loop of `contains` with room for every snapshot. -/
def contains_probe (KT : KeyTraits) (s : State) (key : Nat) :
    Nat → Nat → Nat → Nat → List Nat → Option (Bool × List Nat)
  | 0, _, _, _, _ => none
  | fuel + 1, current_bucket, cur_dist, last_timestamp_bucket, timestamps =>
    let m_size := s.m_table.length
    let m_size_mask := m_size - 1
    let current_bucket := current_bucket &&& m_size_mask
    let current_timestamp_bucket := current_bucket >>> s.m_timestamp_shift
    let timestamps :=
      if current_timestamp_bucket ≠ last_timestamp_bucket then
        timestamps ++ [read_value s (Loc.timestamp current_timestamp_bucket)]
      else timestamps
    let last_timestamp_bucket :=
      if current_timestamp_bucket ≠ last_timestamp_bucket then current_timestamp_bucket
      else last_timestamp_bucket
    let current_key := read_value s (Loc.table current_bucket)
    if current_key = KT.NullKey then some (false, timestamps)
    else if key = current_key then some (true, timestamps)
    else
      let original_bucket := KT.hash current_key &&& m_size_mask
      let distance := distance_from_slot m_size original_bucket current_bucket
      if distance < cur_dist then some (false, timestamps)
      else contains_probe KT s key fuel (current_bucket + 1) (cur_dist + 1)
        last_timestamp_bucket timestamps

/-- The passes of `contains` from `loopBegin` with room for every snapshot. -/
def contains (KT : KeyTraits) : Nat → State → Nat → Option Bool
  | 0, _, _ => none
  | fuel + 1, s, key =>
    let original_bucket := KT.hash key &&& (s.m_table.length - 1)
    match contains_probe KT s key fuel original_bucket 0 (2 ^ 64 - 1) [] with
    | none => none
    | some (true, _) => some true
    | some (false, timestamps) =>
      match counter_check s timestamps fuel original_bucket 0 (2 ^ 64 - 1) with
      | none => none
      | some true => some false
      | some false => contains KT fuel s key

/-- The probe loop of `add` with room for every descriptor entry. -/
def add_probe (KT : KeyTraits) (s : State) (key : Nat) :
    Nat → Nat → Nat → Nat → Nat → Bool → Nat → List Entry → Option Attempt
  | 0, _, _, _, _, _, _, _ => none
  | fuel + 1, current_bucket, active_dist, active_key, last_timestamp_bucket, inced_active,
      active_timestamp, desc =>
    let m_size := s.m_table.length
    let m_size_mask := m_size - 1
    let current_bucket := current_bucket &&& m_size_mask
    let current_timestamp_bucket := current_bucket >>> s.m_timestamp_shift
    let active_timestamp :=
      if current_timestamp_bucket ≠ last_timestamp_bucket then
        read_value s (Loc.timestamp current_timestamp_bucket)
      else active_timestamp
    let inced_active :=
      if current_timestamp_bucket ≠ last_timestamp_bucket then false else inced_active
    let last_timestamp_bucket :=
      if current_timestamp_bucket ≠ last_timestamp_bucket then current_timestamp_bucket
      else last_timestamp_bucket
    let current_key := read_value s (Loc.table current_bucket)
    let desc_swap := desc ++ [Entry.mk (Loc.table current_bucket) current_key active_key]
    let desc_inc :=
      if inced_active = true then desc_swap
      else desc_swap ++ [Entry.mk (Loc.timestamp last_timestamp_bucket) active_timestamp
        ((active_timestamp + 1) % 2 ^ 64)]
    if current_key = KT.NullKey then some (Attempt.commit desc_inc)
    else if current_key = key then some (Attempt.returned false)
    else if current_key = active_key then some Attempt.retry
    else
      let original_bucket := KT.hash current_key &&& m_size_mask
      let current_dist := distance_from_slot m_size original_bucket current_bucket
      if current_dist < active_dist then
        add_probe KT s key fuel (current_bucket + 1) (current_dist + 1) current_key
          last_timestamp_bucket true active_timestamp desc_inc
      else
        add_probe KT s key fuel (current_bucket + 1) (active_dist + 1) active_key
          last_timestamp_bucket inced_active active_timestamp desc

/-- The passes of `add` from `loopBegin` with room for every descriptor entry. -/
def add (KT : KeyTraits) : Nat → State → Nat → Option (Bool × State)
  | 0, _, _ => none
  | fuel + 1, s, key =>
    let original_bucket := KT.hash key &&& (s.m_table.length - 1)
    match add_probe KT s key fuel original_bucket 0 key (2 ^ 64 - 1) false (2 ^ 64 - 1) [] with
    | none => none
    | some (Attempt.returned result) => some (result, s)
    | some Attempt.retry => add KT fuel s key
    | some (Attempt.commit desc) =>
      match cas s desc with
      | (true, s') => some (true, s')
      | (false, _) => add KT fuel s key

/-- The shuffle-back loop of `remove` and the entries made after it, with room for every
descriptor entry. -/
def shuffle_loop (KT : KeyTraits) (s : State) :
    Nat → Nat → Bool → Nat → Nat → Nat → Nat → List Entry → Option (List Entry)
  | 0, _, _, _, _, _, _, _ => none
  | fuel + 1, shuffle_bucket, inced_active, dest_bucket, dest_key, dest_timestamp,
      dest_timestamp_bucket, desc =>
    let m_size := s.m_table.length
    let m_size_mask := m_size - 1
    let shuffle_bucket := shuffle_bucket &&& m_size_mask
    let shuffle_timestamp_bucket := shuffle_bucket >>> s.m_timestamp_shift
    let dest_timestamp :=
      if dest_timestamp_bucket ≠ shuffle_timestamp_bucket then
        read_value s (Loc.timestamp shuffle_timestamp_bucket)
      else dest_timestamp
    let inced_active :=
      if dest_timestamp_bucket ≠ shuffle_timestamp_bucket then false else inced_active
    let dest_timestamp_bucket :=
      if dest_timestamp_bucket ≠ shuffle_timestamp_bucket then shuffle_timestamp_bucket
      else dest_timestamp_bucket
    let shuffle_key := read_value s (Loc.table shuffle_bucket)
    let bump := Entry.mk (Loc.timestamp dest_timestamp_bucket) dest_timestamp
      ((dest_timestamp + 1) % 2 ^ 64)
    let finish :=
      (if inced_active = true then desc else desc ++ [bump]) ++
        [Entry.mk (Loc.table dest_bucket) dest_key KT.NullKey]
    if shuffle_key = KT.NullKey then some finish
    else
      let shuffle_idx := KT.hash shuffle_key &&& m_size_mask
      let shuffle_dist := distance_from_slot m_size shuffle_idx shuffle_bucket
      if shuffle_dist = 0 then some finish
      else
        let desc_move := desc ++ [Entry.mk (Loc.table dest_bucket) dest_key shuffle_key]
        let desc_inc := if inced_active = true then desc_move else desc_move ++ [bump]
        shuffle_loop KT s fuel (shuffle_bucket + 1) true shuffle_bucket shuffle_key
          dest_timestamp dest_timestamp_bucket desc_inc

/-- The probe loop of `remove` with room for every snapshot and descriptor entry. -/
def remove_probe (KT : KeyTraits) (s : State) (key : Nat) (shuffle_fuel : Nat) :
    Nat → Nat → Nat → Nat → List Nat → Option (Option (List Entry) × List Nat)
  | 0, _, _, _, _ => none
  | fuel + 1, current_bucket, active_dist, last_timestamp_bucket, timestamps =>
    let m_size := s.m_table.length
    let m_size_mask := m_size - 1
    let current_bucket := current_bucket &&& m_size_mask
    let current_timestamp_bucket := current_bucket >>> s.m_timestamp_shift
    let timestamps :=
      if current_timestamp_bucket ≠ last_timestamp_bucket then
        timestamps ++ [read_value s (Loc.timestamp current_timestamp_bucket)]
      else timestamps
    let last_timestamp_bucket :=
      if current_timestamp_bucket ≠ last_timestamp_bucket then current_timestamp_bucket
      else last_timestamp_bucket
    let current_key := read_value s (Loc.table current_bucket)
    if current_key = KT.NullKey then some (none, timestamps)
    else if current_key = key then
      (shuffle_loop KT s shuffle_fuel (current_bucket + 1) false current_bucket current_key
        (timestamps.getD (timestamps.length - 1) 0) (2 ^ 64 - 1) []).map
        (fun desc => (some desc, timestamps))
    else
      let original_idx := KT.hash current_key &&& m_size_mask
      let current_dist := distance_from_slot m_size original_idx current_bucket
      if current_dist < active_dist then some (none, timestamps)
      else remove_probe KT s key shuffle_fuel fuel (current_bucket + 1) (active_dist + 1)
        last_timestamp_bucket timestamps

/-- The passes of `remove` from `loopBegin` with room for every snapshot and descriptor
entry. -/
def remove (KT : KeyTraits) : Nat → State → Nat → Option (Bool × State)
  | 0, _, _ => none
  | fuel + 1, s, key =>
    let original_bucket := KT.hash key &&& (s.m_table.length - 1)
    match remove_probe KT s key fuel fuel original_bucket 0 (2 ^ 64 - 1) [] with
    | none => none
    | some (some desc, _) =>
      match cas s desc with
      | (true, s') => some (true, s')
      | (false, _) => remove KT fuel s key
    | some (none, timestamps) =>
      match counter_check s timestamps fuel original_bucket 0 (2 ^ 64 - 1) with
      | none => none
      | some true => some (false, s)
      | some false => remove KT fuel s key

end Unbounded

end RHSetKCAS
end concurrent_data_structures

namespace concurrent_data_structures
namespace EpochReclaimer

/-- Pointer `p`, retired by thread `w` at local epoch `E`: either thread `w` has not reached
epoch `E + 3` and `p` waits, unfreed, in the list `E % 3` of thread `w` and nowhere else, or
thread `w` has reached epoch `E + 3` and `p` has been freed. -/
def PendingAt (s : State) (w E p : Nat) : Prop :=
  E ≤ s.m_thread_epochs w ∧
  ((s.m_thread_epochs w < E + 3 ∧ p ∉ s.freed ∧ p ∈ s.m_garbage_list w (E % 3) ∧
      ∀ t i, p ∈ s.m_garbage_list t i → t = w ∧ i = E % 3) ∨
    (E + 3 ≤ s.m_thread_epochs w ∧ p ∈ s.freed))

end EpochReclaimer
end concurrent_data_structures

namespace concurrent_data_structures
namespace MagedMichael

/-- A concrete memory with one bucket: the cell at address 16 holds key 1 and points to the
cell at address 32, which holds key 5 and ends the list; the cell at address 48 holds key 3
and is not linked. -/
def exampleList : State :=
  { mem := fun a =>
      if a = 16 then { key := 1, next := 32 }
      else if a = 32 then { key := 5, next := 0 }
      else { key := 3, next := 0 },
    brk := 64, m_table := [16] }

end MagedMichael
end concurrent_data_structures

namespace concurrent_data_structures
namespace LockFreeLinearProbingNodeSet

/-- The end of `add` once its compare-and-swap has published the tentative cell (lines
248-253): `upgrade` is called on the state `s` that holds the published cell, and its
result decides the boolean that `add` returns. -/
def add_published (ufuel : Nat) (s : State) (original_slot key to_insert : Nat) :
    Option (Bool × State) :=
  match upgrade ufuel s original_slot key with
  | none => none
  | some (current_cell, s') =>
    if current_cell = s'.TOMBSTONE then some (true, s')
    else some (decide (current_cell = to_insert), s')

/-- A memory in which the cells at addresses 16 to 31 hold key 1. Slot 0 holds the committed
cell at address 16; slot 1 holds the tentative cell at address 18 (flagged pointer 19),
published by an `add(1)` that passed slot 0 before the cell at 16 was put there by another
thread; the tombstone cell is at address 4096. -/
def publishedState : State := exampleState [16, 19, 0, 0]

end LockFreeLinearProbingNodeSet
end concurrent_data_structures

namespace concurrent_data_structures
namespace LockFreeLinearProbingNodeSet

/-- A call of the set interface; `add` carries the address that `malloc` returns for its
cell. -/
inductive Op
  | contains (key : Nat)
  | add (to_insert key : Nat)
  | remove (key : Nat)
  deriving DecidableEq, Repr

/-- The call is an `add`. -/
def Op.isAdd : Op → Bool
  | Op.add _ _ => true
  | _ => false

/-- The cell of an `add` is at an address that `malloc` can return: not the null pointer,
with or without the flag bit. -/
def Op.allocated : Op → Bool
  | Op.add to_insert _ => decide (2 ≤ to_insert)
  | _ => true

/-- The state after a sequence of calls made by one thread; `none` when a call is still
running after `fuel` rounds of one of its loops. -/
def exec (KT : KeyTraits) (fuel : Nat) : State → List Op → Option State
  | s, [] => some s
  | s, Op.contains k :: ops =>
    match contains KT fuel s k with
    | none => none
    | some _ => exec KT fuel s ops
  | s, Op.add c k :: ops =>
    match add KT fuel s c k with
    | none => none
    | some (_, s') => exec KT fuel s' ops
  | s, Op.remove k :: ops =>
    match remove KT fuel s k with
    | none => none
    | some (_, s') => exec KT fuel s' ops

/-- The number of null slots. -/
def nulls (s : State) : Nat := s.m_table.count 0

/-- The tombstone pointer and the pointers in the slots are pointers to cells: none is the
null pointer with or without the flag bit (0 or 1), except that a slot may hold null. -/
def Sound (s : State) : Prop :=
  2 ≤ s.TOMBSTONE ∧ ∀ i, s.m_table.getD i 0 = 0 ∨ 2 ≤ s.m_table.getD i 0

/-- From `s` to `s'` the tombstone pointer and the number of slots are the same, and every
slot that was not null is not null. -/
def Keeps (s s' : State) : Prop :=
  s'.TOMBSTONE = s.TOMBSTONE ∧ s'.m_table.length = s.m_table.length ∧
  ∀ i, s.m_table.getD i 0 ≠ 0 → s'.m_table.getD i 0 ≠ 0

end LockFreeLinearProbingNodeSet
end concurrent_data_structures

namespace concurrent_data_structures
namespace HopscotchHashSet

/-- Index `i` is one of the home buckets `0 .. m_size_mask`. -/
def InRange (cfg : Config) (i : Int) : Prop := 0 ≤ i ∧ i ≤ (cfg.m_size_mask : Int)

/-- The buckets past the home buckets are as `Bucket::init` left them, and every link
(`_first_delta` or `_next_delta` other than `_NULL_DELTA`) leads to a home bucket. -/
def InTable (KT : KeyTraits) (cfg : Config) (t : List Bucket) : Prop :=
  (∀ i, ¬ InRange cfg i → bucketAt KT t i = Bucket.init KT) ∧
  (∀ i, (bucketAt KT t i)._first_delta ≠ _NULL_DELTA →
    InRange cfg (i + (bucketAt KT t i)._first_delta)) ∧
  ∀ i, (bucketAt KT t i)._next_delta ≠ _NULL_DELTA →
    InRange cfg (i + (bucketAt KT t i)._next_delta)

end HopscotchHashSet
end concurrent_data_structures

namespace concurrent_data_structures
namespace TransactionalRobinHoodSet

/-! ### Arithmetic of cyclic slots -/

theorem mod_two_lt {a n : Nat} (h : a < n + n) : a % n = if a < n then a else a - n := by
  split_ifs with h1
  · exact Nat.mod_eq_of_lt h1
  · rw [Nat.mod_eq_sub_mod (by omega)]
    exact Nat.mod_eq_of_lt (by omega)

theorem size_pos_of_pow {t : List Nat} {p : Nat} (hp : t.length = 2 ^ p) : 0 < t.length := by
  rw [hp]; exact Nat.pos_pow_of_pos p (by decide)

theorem mask_eq_mod {t : List Nat} {p : Nat} (hp : t.length = 2 ^ p) (x : Nat) :
    x &&& (t.length - 1) = x % t.length := by
  rw [hp]; exact Nat.and_pow_two_sub_one_eq_mod x p

theorem home_eq_mod {KT : KeyTraits} {t : List Nat} {p : Nat} (hp : t.length = 2 ^ p)
    (x : Nat) : home KT t.length x = KT.hash x % t.length := by
  unfold home; exact mask_eq_mod hp (KT.hash x)

theorem home_lt {KT : KeyTraits} {t : List Nat} {p : Nat} (hp : t.length = 2 ^ p)
    (x : Nat) : home KT t.length x < t.length := by
  rw [home_eq_mod hp]; exact Nat.mod_lt _ (size_pos_of_pow hp)

theorem distance_lt {n : Nat} (hn : 0 < n) (a b : Nat) : distance_from_slot n a b < n :=
  Nat.mod_lt _ hn

theorem distance_add {n a d : Nat} (ha : a < n) (hd : d < n) :
    distance_from_slot n a ((a + d) % n) = d := by
  unfold distance_from_slot
  rw [mod_two_lt (show a + d < n + n by omega)]
  split_ifs with h1
  · rw [mod_two_lt (by omega)]; split_ifs <;> omega
  · rw [mod_two_lt (by omega)]; split_ifs <;> omega

theorem add_distance {n a i : Nat} (ha : a < n) (hi : i < n) :
    (a + distance_from_slot n a i) % n = i := by
  unfold distance_from_slot
  rw [mod_two_lt (show i + n - a < n + n by omega)]
  split_ifs with h1
  · rw [mod_two_lt (by omega)]; split_ifs <;> omega
  · rw [mod_two_lt (by omega)]; split_ifs <;> omega

theorem succ_mod_eq {n i a c : Nat} (h : i % n = (a + c) % n) :
    (i + 1) % n = (a + (c + 1)) % n := by
  rw [← Nat.add_assoc, Nat.add_mod i 1 n, Nat.add_mod (a + c) 1 n, h]

theorem getD_set_self {t : List Nat} {i : Nat} (hi : i < t.length) (v : Nat) :
    (t.set i v).getD i 0 = v := by
  simp [List.getD_eq_getElem?_getD, hi]

theorem getD_set_other {t : List Nat} {i j : Nat} (hij : i ≠ j) (v : Nat) :
    (t.set i v).getD j 0 = t.getD j 0 := by
  simp [List.getD_eq_getElem?_getD, List.getElem?_set_ne hij]

/-! ### contains -/

theorem contains_loop_sound (KT : KeyTraits) (t : List Nat) (k : Nat) {p : Nat}
    (hp : t.length = 2 ^ p) :
    ∀ fuel i c, contains_loop KT t k fuel i c = some true → Occupies t k := by
  intro fuel
  induction fuel with
  | zero => intro i c h; simp [contains_loop] at h
  | succ fuel ih =>
    intro i c h
    simp only [contains_loop] at h
    split_ifs at h with h1 h2 h3
    · cases h
    · refine ⟨i &&& (t.length - 1), ?_, h2.symm⟩
      rw [mask_eq_mod hp]; exact Nat.mod_lt _ (size_pos_of_pow hp)
    · cases h
    · exact ih _ _ h

theorem contains_loop_total (KT : KeyTraits) (t : List Nat) (k : Nat) {p : Nat}
    (hp : t.length = 2 ^ p) :
    ∀ fuel i c, c ≤ t.length → t.length + 1 ≤ fuel + c →
      ∃ b, contains_loop KT t k fuel i c = some b := by
  intro fuel
  induction fuel with
  | zero => intro i c h1 h2; omega
  | succ fuel ih =>
    intro i c hc hf
    simp only [contains_loop]
    split_ifs with h1 h2 h3
    · exact ⟨_, rfl⟩
    · exact ⟨_, rfl⟩
    · exact ⟨_, rfl⟩
    · have := distance_lt (size_pos_of_pow hp) (KT.hash (t.getD (i &&& (t.length - 1)) 0) &&& (t.length - 1)) (i &&& (t.length - 1))
      exact ih _ _ (by omega) (by omega)

theorem contains_loop_complete (KT : KeyTraits) (t : List Nat) (k : Nat) {p : Nat}
    (hp : t.length = 2 ^ p) (hinv : RobinHoodInvariant KT t) (hk : k ≠ KT.NullKey)
    (s : Nat) (hs : s < t.length) (hsk : t.getD s 0 = k) :
    ∀ fuel i c, c ≤ probe_distance KT t s →
      i % t.length = (home KT t.length k + c) % t.length →
      probe_distance KT t s < fuel + c →
      contains_loop KT t k fuel i c = some true := by
  intro fuel
  induction fuel with
  | zero => intro i c h1 _ h2; omega
  | succ fuel ih =>
    intro i c hc hi hf
    simp only [contains_loop]
    rw [mask_eq_mod hp, hi]
    rcases Nat.lt_or_ge c (probe_distance KT t s) with hlt | hge
    · have hpath := hinv s hs (by rw [hsk]; exact hk) c hlt
      rw [hsk] at hpath
      obtain ⟨hnn, hdist⟩ := hpath
      rw [if_neg hnn]
      split_ifs with h2 h3
      · rfl
      · exfalso
        unfold probe_distance at hdist
        unfold home at hdist h3
        omega
      · exact ih _ _ (by omega) (succ_mod_eq (Nat.mod_mod _ _)) (by omega)
    · have hceq : c = probe_distance KT t s := le_antisymm hc hge
      have hslot : (home KT t.length k + c) % t.length = s := by
        rw [hceq]; unfold probe_distance; rw [hsk]
        exact add_distance (home_lt hp k) hs
      rw [hslot, hsk, if_neg hk, if_pos rfl]

end TransactionalRobinHoodSet
end concurrent_data_structures

namespace concurrent_data_structures
namespace TransactionalRobinHoodSet

/-! ### Paths and single-slot updates -/

theorem probe_distance_set_other (KT : KeyTraits) {t : List Nat} {s q : Nat} (h : s ≠ q)
    (v : Nat) : probe_distance KT (t.set s v) q = probe_distance KT t q := by
  unfold probe_distance
  rw [List.length_set, getD_set_other h]

theorem probe_distance_set_self (KT : KeyTraits) {t : List Nat} {s : Nat} (hs : s < t.length)
    (v : Nat) :
    probe_distance KT (t.set s v) s = distance_from_slot t.length (home KT t.length v) s := by
  unfold probe_distance
  rw [List.length_set, getD_set_self hs]

theorem path_set (KT : KeyTraits) {t : List Nat} {x n s v : Nat} (hs : s < t.length)
    (hpath : PathOccupied KT t x n) (hv : v ≠ KT.NullKey)
    (hcross : ∀ d < n, (home KT t.length x + d) % t.length = s →
      d ≤ distance_from_slot t.length (home KT t.length v) s) :
    PathOccupied KT (t.set s v) x n := by
  intro d hd
  rw [List.length_set]
  by_cases hj : s = (home KT t.length x + d) % t.length
  · rw [← hj, getD_set_self hs, probe_distance_set_self KT hs]
    exact ⟨hv, hcross d hd hj.symm⟩
  · rw [getD_set_other hj, probe_distance_set_other KT hj]
    exact hpath d hd

theorem path_extend (KT : KeyTraits) {t : List Nat} {x n : Nat}
    (hpath : PathOccupied KT t x n)
    (h1 : t.getD ((home KT t.length x + n) % t.length) 0 ≠ KT.NullKey)
    (h2 : n ≤ probe_distance KT t ((home KT t.length x + n) % t.length)) :
    PathOccupied KT t x (n + 1) := by
  intro d hd
  rcases Nat.lt_or_ge d n with h | h
  · exact hpath d h
  · have : d = n := by omega
    subst this
    exact ⟨h1, h2⟩

theorem path_lt_size (KT : KeyTraits) {t : List Nat} {p : Nat} (hp : t.length = 2 ^ p)
    {x n : Nat} (hpath : PathOccupied KT t x n) (hempty : HasEmptySlot KT t) :
    n < t.length := by
  by_contra hge
  obtain ⟨e, he, hnull⟩ := hempty
  have hd := distance_lt (size_pos_of_pow hp) (home KT t.length x) e
  have := (hpath (distance_from_slot t.length (home KT t.length x) e) (by omega)).1
  rw [add_distance (home_lt hp x) he] at this
  exact this hnull

theorem occupies_set {t : List Nat} {s : Nat} (hs : s < t.length) (v x : Nat) :
    Occupies (t.set s v) x ↔ x = v ∨ ∃ q < t.length, q ≠ s ∧ t.getD q 0 = x := by
  unfold Occupies
  rw [List.length_set]
  constructor
  · rintro ⟨q, hq, hx⟩
    by_cases h : s = q
    · subst h; rw [getD_set_self hs] at hx; exact Or.inl hx.symm
    · rw [getD_set_other h] at hx; exact Or.inr ⟨q, hq, fun e => h e.symm, hx⟩
  · rintro (h | ⟨q, hq, hne, hx⟩)
    · exact ⟨s, hs, by rw [getD_set_self hs, h]⟩
    · exact ⟨q, hq, by rw [getD_set_other (fun e => hne e.symm)]; exact hx⟩

theorem nodup_set_fresh (KT : KeyTraits) {t : List Nat} {s : Nat} (hs : s < t.length)
    {v : Nat} (hnd : NoDuplicateKey KT t) (hfresh : ¬ Occupies t v) :
    NoDuplicateKey KT (t.set s v) := by
  intro i hi j hj hne heq
  rw [List.length_set] at hi hj
  by_cases h1 : s = i <;> by_cases h2 : s = j
  · omega
  · rw [← h1, getD_set_self hs, getD_set_other h2] at heq
    exact absurd ⟨j, hj, heq.symm⟩ hfresh
  · rw [← h2, getD_set_self hs, getD_set_other h1] at heq
    exact absurd ⟨i, hi, heq⟩ hfresh
  · rw [getD_set_other h1] at hne
    rw [getD_set_other h1, getD_set_other h2] at heq
    exact hnd i hi j hj hne heq

end TransactionalRobinHoodSet
end concurrent_data_structures

namespace concurrent_data_structures
namespace TransactionalRobinHoodSet

/-! ### add -/

theorem add_loop_spec (KT : KeyTraits) (p : Nat) :
    ∀ (fuel : Nat) (u : List Nat) (i a ad : Nat),
      u.length = 2 ^ p → RobinHoodInvariant KT u → a ≠ KT.NullKey →
      PathOccupied KT u a ad →
      i % u.length = (home KT u.length a + ad) % u.length →
      (∃ m, m < fuel ∧ u.getD ((i + m) % u.length) 0 = KT.NullKey) →
      ∃ b u', add_loop KT fuel u i a ad = some (b, u') ∧ u'.length = u.length ∧
        RobinHoodInvariant KT u' ∧
        (∀ x, x ≠ KT.NullKey → (Occupies u' x ↔ Occupies u x ∨ x = a)) ∧
        (NoDuplicateKey KT u → ¬ Occupies u a → b = true ∧ NoDuplicateKey KT u') := by
  intro fuel
  induction fuel with
  | zero => intro u i a ad _ _ _ _ _ ⟨m, hm, _⟩; omega
  | succ fuel ih =>
    intro u i a ad hp hinv ha hpath hi ⟨m, hm, hnull⟩
    have hN := size_pos_of_pow hp
    have hs : i % u.length < u.length := Nat.mod_lt _ hN
    have hempty : HasEmptySlot KT u := ⟨_, Nat.mod_lt _ hN, hnull⟩
    have had : ad < u.length := path_lt_size KT hp hpath hempty
    have hdist : distance_from_slot u.length (home KT u.length a) (i % u.length) = ad := by
      rw [hi]; exact distance_add (home_lt hp a) had
    simp only [add_loop]
    rw [mask_eq_mod hp]
    by_cases h1 : u.getD (i % u.length) 0 = KT.NullKey
    · -- an empty slot: the active key is stored
      rw [if_pos h1]
      refine ⟨true, _, rfl, List.length_set _ _ _, ?_, ?_, ?_⟩
      · intro q hq hne
        rw [List.length_set] at hq
        by_cases hqs : i % u.length = q
        · subst hqs
          rw [getD_set_self hs, probe_distance_set_self KT hs, hdist]
          refine path_set KT hs hpath ha ?_
          intro d hd hj
          exact absurd h1 (hj ▸ (hpath d hd).1)
        · rw [getD_set_other hqs, probe_distance_set_other KT hqs]
          rw [getD_set_other hqs] at hne
          refine path_set KT hs (hinv q hq hne) ha ?_
          intro d hd hj
          exact absurd h1 (hj ▸ (hinv q hq hne d hd).1)
      · intro x hx
        rw [occupies_set hs]
        constructor
        · rintro (h | ⟨q, hq, _, hqx⟩)
          · exact Or.inr h
          · exact Or.inl ⟨q, hq, hqx⟩
        · rintro (⟨q, hq, hqx⟩ | h)
          · refine Or.inr ⟨q, hq, ?_, hqx⟩
            intro e; subst e; exact hx (hqx ▸ h1)
          · exact Or.inl h
      · intro hnd hfresh
        exact ⟨rfl, nodup_set_fresh KT hs hnd hfresh⟩
    · rw [if_neg h1]
      by_cases h2 : a = u.getD (i % u.length) 0
      · -- the active key is met: nothing is stored
        rw [if_pos h2]
        refine ⟨false, u, rfl, rfl, hinv, ?_, ?_⟩
        · intro x _
          constructor
          · exact Or.inl
          · rintro (h | h)
            · exact h
            · exact ⟨_, hs, by rw [h, h2]⟩
        · intro _ hfresh
          exact absurd ⟨_, hs, h2.symm⟩ hfresh
      · rw [if_neg h2]
        have hm0 : m ≠ 0 := by
          intro h0; subst h0; exact h1 hnull
        have hnext : ((i % u.length + 1) + (m - 1)) % u.length = (i + m) % u.length := by
          have : i % u.length + 1 + (m - 1) = i % u.length + m := by omega
          rw [this, Nat.add_mod, Nat.mod_mod, ← Nat.add_mod]
        have hne_slot : i % u.length ≠ (i + m) % u.length := by
          intro e; rw [← e] at hnull; exact h1 hnull
        rw [mask_eq_mod hp]
        have hcd : distance_from_slot u.length (KT.hash (u.getD (i % u.length) 0) % u.length)
            (i % u.length) = probe_distance KT u (i % u.length) := by
          unfold probe_distance; rw [home_eq_mod hp]
        rw [hcd]
        by_cases h3 : probe_distance KT u (i % u.length) < ad
        · -- the resident is closer to its home: swap
          rw [if_pos h3]
          have hinv' : RobinHoodInvariant KT (u.set (i % u.length) a) := by
            intro q hq hne
            rw [List.length_set] at hq
            by_cases hqs : i % u.length = q
            · subst hqs
              rw [getD_set_self hs, probe_distance_set_self KT hs, hdist]
              refine path_set KT hs hpath ha ?_
              intro d hd _
              omega
            · rw [getD_set_other hqs, probe_distance_set_other KT hqs]
              rw [getD_set_other hqs] at hne
              refine path_set KT hs (hinv q hq hne) ha ?_
              intro d hd hj
              have := (hinv q hq hne d hd).2
              rw [hj] at this
              omega
          have hslot_c : (home KT u.length (u.getD (i % u.length) 0) +
              probe_distance KT u (i % u.length)) % u.length = i % u.length := by
            unfold probe_distance
            exact add_distance (home_lt hp _) hs
          have hpath' : PathOccupied KT (u.set (i % u.length) a) (u.getD (i % u.length) 0)
              (probe_distance KT u (i % u.length) + 1) := by
            refine path_extend KT (path_set KT hs (hinv _ hs h1) ha ?_) ?_ ?_
            · intro d hd _; omega
            · rw [List.length_set, hslot_c, getD_set_self hs]; exact ha
            · rw [List.length_set, hslot_c, probe_distance_set_self KT hs, hdist]; omega
          obtain ⟨b, u', hrun, hlen, hinv'', hkeys, hret⟩ :=
            ih (u.set (i % u.length) a) (i % u.length + 1) (u.getD (i % u.length) 0)
              (probe_distance KT u (i % u.length) + 1)
              (by rw [List.length_set]; exact hp) hinv' h1 hpath'
              (by rw [List.length_set]; exact succ_mod_eq (by rw [Nat.mod_mod, hslot_c]))
              ⟨m - 1, by omega, by
                rw [List.length_set, hnext, getD_set_other hne_slot]; exact hnull⟩
          refine ⟨b, u', hrun, by rw [hlen, List.length_set], hinv'', ?_, ?_⟩
          · intro x hx
            rw [hkeys x hx, occupies_set hs]
            constructor
            · rintro ((h | ⟨q, hq, _, hqx⟩) | h)
              · exact Or.inr h
              · exact Or.inl ⟨q, hq, hqx⟩
              · exact Or.inl ⟨_, hs, h.symm⟩
            · rintro (⟨q, hq, hqx⟩ | h)
              · by_cases hqs : q = i % u.length
                · subst hqs; exact Or.inr hqx.symm
                · exact Or.inl (Or.inr ⟨q, hq, hqs, hqx⟩)
              · exact Or.inl (Or.inl h)
          · intro hnd hfresh
            refine hret (nodup_set_fresh KT hs hnd hfresh) ?_
            rw [occupies_set hs]
            rintro (h | ⟨q, hq, hqs, hqx⟩)
            · exact h2 h.symm
            · exact hqs (hnd q hq _ hs (by rw [hqx]; exact h1) hqx)
        · -- the resident stays: probe on
          rw [if_neg h3]
          have hpath' : PathOccupied KT u a (ad + 1) := by
            refine path_extend KT hpath ?_ ?_
            · rw [← hi]; exact h1
            · rw [← hi]; omega
          obtain ⟨b, u', hrun, hlen, hinv'', hkeys, hret⟩ :=
            ih u (i % u.length + 1) a (ad + 1) hp hinv ha hpath'
              (succ_mod_eq (by rw [Nat.mod_mod, hi]))
              ⟨m - 1, by omega, by rw [hnext]; exact hnull⟩
          exact ⟨b, u', hrun, hlen, hinv'', hkeys, hret⟩

theorem add_loop_present (KT : KeyTraits) (t : List Nat) (k : Nat) {p : Nat}
    (hp : t.length = 2 ^ p) (hinv : RobinHoodInvariant KT t) (hk : k ≠ KT.NullKey)
    (s : Nat) (hs : s < t.length) (hsk : t.getD s 0 = k) :
    ∀ fuel i c, c ≤ probe_distance KT t s →
      i % t.length = (home KT t.length k + c) % t.length →
      probe_distance KT t s < fuel + c →
      add_loop KT fuel t i k c = some (false, t) := by
  intro fuel
  induction fuel with
  | zero => intro i c h1 _ h2; omega
  | succ fuel ih =>
    intro i c hc hi hf
    simp only [add_loop]
    rw [mask_eq_mod hp, hi]
    rcases Nat.lt_or_ge c (probe_distance KT t s) with hlt | hge
    · have hpath := hinv s hs (by rw [hsk]; exact hk) c hlt
      rw [hsk] at hpath
      obtain ⟨hnn, hdist⟩ := hpath
      rw [if_neg hnn]
      split_ifs with h2 h3
      · rfl
      · exfalso
        unfold probe_distance at hdist
        unfold home at hdist h3
        omega
      · exact ih _ _ (by omega) (succ_mod_eq (Nat.mod_mod _ _)) (by omega)
    · have hceq : c = probe_distance KT t s := le_antisymm hc hge
      have hslot : (home KT t.length k + c) % t.length = s := by
        rw [hceq]; unfold probe_distance; rw [hsk]
        exact add_distance (home_lt hp k) hs
      rw [hslot, hsk, if_neg hk, if_pos rfl]

end TransactionalRobinHoodSet
end concurrent_data_structures

namespace concurrent_data_structures
namespace TransactionalRobinHoodSet

/-! ### remove: the backward shift -/

theorem distance_cases {n a b : Nat} (ha : a < n) (hb : b < n) :
    (a ≤ b ∧ distance_from_slot n a b = b - a) ∨
    (b < a ∧ distance_from_slot n a b = b + n - a) := by
  unfold distance_from_slot
  rw [mod_two_lt (show b + n - a < n + n by omega)]
  split_ifs <;> omega

theorem add_mod_cases {n a d : Nat} (h : a + d < n + n) :
    (a + d < n ∧ (a + d) % n = a + d) ∨ (n ≤ a + d ∧ (a + d) % n = a + d - n) := by
  rw [mod_two_lt h]
  split_ifs <;> omega

theorem shiftStops_set_other (KT : KeyTraits) {t : List Nat} {s j : Nat} (h : s ≠ j) (v : Nat) :
    ShiftStops KT (t.set s v) j ↔ ShiftStops KT t j := by
  unfold ShiftStops
  rw [getD_set_other h, probe_distance_set_other KT h]

theorem shift_loop_spec (KT : KeyTraits) (p : Nat) :
    ∀ (fuel : Nat) (u : List Nat) (cur i s r : Nat),
      u.length = 2 ^ p → s < u.length → i % u.length = s →
      cur % u.length = (s + 1) % u.length →
      r < fuel → r + 1 < u.length →
      u.getD ((s + 1 + r) % u.length) 0 = KT.NullKey →
      ∃ m u', m ≤ r ∧ shift_loop KT fuel u cur i = some u' ∧ ShiftedBack KT u u' s m ∧
        (∀ x < m, ¬ ShiftStops KT u ((s + 1 + x) % u.length)) ∧
        ShiftStops KT u ((s + 1 + m) % u.length) := by
  intro fuel
  induction fuel with
  | zero => intro u cur i s r _ _ _ _ h; omega
  | succ fuel ih =>
    intro u cur i s r hp hs hi hcur hr hrN hnull
    simp only [shift_loop]
    rw [mask_eq_mod hp, mask_eq_mod hp, mask_eq_mod hp, hi, hcur]
    have hstop_iff : (u.getD ((s + 1) % u.length) 0 = KT.NullKey ∨
        distance_from_slot u.length (KT.hash (u.getD ((s + 1) % u.length) 0) % u.length)
          ((s + 1) % u.length) = 0) ↔ ShiftStops KT u ((s + 1) % u.length) := by
      unfold ShiftStops probe_distance; rw [home_eq_mod hp]
    by_cases hst : ShiftStops KT u ((s + 1) % u.length)
    · rw [if_pos (hstop_iff.mpr hst)]
      refine ⟨0, _, Nat.zero_le _, rfl, ⟨List.length_set _ _ _, ?_⟩, ?_, hst⟩
      · intro j hj
        rw [if_neg (Nat.not_lt_zero _)]
        rcases distance_cases hs hj with ⟨h1, h2⟩ | ⟨h1, h2⟩
        · by_cases hjs : s = j
          · subst hjs; rw [getD_set_self hs, if_pos (by omega)]
          · rw [getD_set_other hjs, if_neg (by omega)]
        · rw [getD_set_other (by omega), if_neg (by omega)]
      · intro x hx; omega
    · rw [if_neg (fun h => hst (hstop_iff.mp h))]
      have hr0 : r ≠ 0 := by
        intro h0; subst h0; exact hst (Or.inl hnull)
      have hc : (s + 1) % u.length < u.length := Nat.mod_lt _ (by omega)
      have hslot : ∀ x, 1 ≤ x → x ≤ r → (s + 1 + x) % u.length ≠ s ∧
          ((s + 1) % u.length + 1 + (x - 1)) % u.length = (s + 1 + x) % u.length := by
        intro x hx1 hx
        rcases add_mod_cases (show s + 1 < u.length + u.length by omega) with ⟨h1, h2⟩ | ⟨h1, h2⟩ <;>
        rcases add_mod_cases (show s + 1 + x < u.length + u.length by omega) with ⟨h3, h4⟩ | ⟨h3, h4⟩ <;>
        rcases add_mod_cases (show (s + 1) % u.length + 1 + (x - 1) < u.length + u.length by omega)
          with ⟨h5, h6⟩ | ⟨h5, h6⟩ <;>
        (constructor <;> omega)
      have hlen1 : (u.set s (u.getD ((s + 1) % u.length) 0)).length = u.length :=
        List.length_set _ _ _
      obtain ⟨m1, u', hm1, hrun, ⟨hlen, hsb⟩, hns, hstop⟩ :=
        ih (u.set s (u.getD ((s + 1) % u.length) 0)) ((s + 1) % u.length + 1) (s + 1)
          ((s + 1) % u.length) (r - 1)
          (by rw [hlen1]; exact hp) (by rw [hlen1]; exact hc) (by rw [hlen1])
          (by rw [hlen1]) (by omega) (by rw [hlen1]; omega)
          (by
            rw [hlen1, (hslot r (by omega) le_rfl).2,
              getD_set_other (fun e => (hslot r (by omega) le_rfl).1 e.symm)]
            exact hnull)
      rw [hlen1] at hlen hsb hns hstop
      refine ⟨m1 + 1, u', by omega, hrun, ⟨hlen, ?_⟩, ?_, ?_⟩
      · intro j hj
        rw [hsb j hj]
        have hj1 : (j + 1) % u.length < u.length := Nat.mod_lt _ (by omega)
        by_cases hjs : s = j
        · subst hjs
          have e1 : distance_from_slot u.length s s = 0 := by
            rcases distance_cases hs hs with ⟨_, h⟩ | ⟨_, h⟩ <;> omega
          have e2 : distance_from_slot u.length ((s + 1) % u.length) s = u.length - 1 := by
            rcases distance_cases hc hs with ⟨_, h⟩ | ⟨_, h⟩ <;>
            rcases add_mod_cases (show s + 1 < u.length + u.length by omega)
              with ⟨h1, h2⟩ | ⟨h1, h2⟩ <;> omega
          rw [e1, e2, if_neg (by omega), if_neg (by omega), if_pos (by omega),
            getD_set_self hs]
        · have e1 : distance_from_slot u.length ((s + 1) % u.length) j + 1 =
              distance_from_slot u.length s j := by
            rcases distance_cases hc hj with ⟨_, h⟩ | ⟨_, h⟩ <;>
            rcases distance_cases hs hj with ⟨_, h'⟩ | ⟨_, h'⟩ <;>
            rcases add_mod_cases (show s + 1 < u.length + u.length by omega)
              with ⟨h1, h2⟩ | ⟨h1, h2⟩ <;> omega
          have e2 : distance_from_slot u.length s j < m1 + 1 → s ≠ (j + 1) % u.length := by
            intro hlt
            rcases distance_cases hs hj with ⟨_, h'⟩ | ⟨_, h'⟩ <;>
            rcases add_mod_cases (show j + 1 < u.length + u.length by omega)
              with ⟨h1, h2⟩ | ⟨h1, h2⟩ <;> omega
          by_cases hlt : distance_from_slot u.length s j < m1 + 1
          · rw [if_pos hlt, if_pos (by omega), getD_set_other (e2 hlt)]
          · rw [if_neg hlt, if_neg (by omega)]
            by_cases heq : distance_from_slot u.length s j = m1 + 1
            · rw [if_pos heq, if_pos (by omega)]
            · rw [if_neg heq, if_neg (by omega), getD_set_other hjs]
      · intro x hx
        rcases Nat.eq_zero_or_pos x with h0 | hpos
        · subst h0; exact hst
        · have hsx := hslot x hpos (by omega)
          have := hns (x - 1) (by omega)
          rw [hsx.2, shiftStops_set_other KT (fun e => hsx.1 e.symm)] at this
          exact this
      · have hsx := hslot (m1 + 1) (by omega) (by omega)
        rw [Nat.add_sub_cancel] at hsx
        rw [hsx.2, shiftStops_set_other KT (fun e => hsx.1 e.symm)] at hstop
        exact hstop

end TransactionalRobinHoodSet
end concurrent_data_structures

namespace concurrent_data_structures
namespace TransactionalRobinHoodSet

theorem distance_succ {n a j : Nat} (ha : a < n) (hj : j < n)
    (h : distance_from_slot n a j + 1 < n) :
    distance_from_slot n a ((j + 1) % n) = distance_from_slot n a j + 1 := by
  have hj1 : (j + 1) % n < n := Nat.mod_lt _ (by omega)
  rcases distance_cases ha hj with ⟨_, h1⟩ | ⟨_, h1⟩ <;>
  rcases distance_cases ha hj1 with ⟨_, h2⟩ | ⟨_, h2⟩ <;>
  rcases add_mod_cases (show j + 1 < n + n by omega) with ⟨_, h3⟩ | ⟨_, h3⟩ <;> omega

theorem distance_pred {n a j : Nat} (ha : a < n) (hj : j < n)
    (h : distance_from_slot n a ((j + 1) % n) ≠ 0) :
    distance_from_slot n a j + 1 = distance_from_slot n a ((j + 1) % n) := by
  have hj1 : (j + 1) % n < n := Nat.mod_lt _ (by omega)
  rcases distance_cases ha hj with ⟨_, h1⟩ | ⟨_, h1⟩ <;>
  rcases distance_cases ha hj1 with ⟨_, h2⟩ | ⟨_, h2⟩ <;>
  rcases add_mod_cases (show j + 1 < n + n by omega) with ⟨_, h3⟩ | ⟨_, h3⟩ <;> omega

theorem distance_between {n s a j q e d : Nat} (hs : s < n) (ha : a < n) (hq : q < n)
    (he : e < n) (hj : j = (a + d) % n) (hd : d + 1 < distance_from_slot n a q)
    (h1 : distance_from_slot n s q ≤ distance_from_slot n s j)
    (h2 : distance_from_slot n s j < distance_from_slot n s e) :
    distance_from_slot n a e < distance_from_slot n a q := by
  have hjn : j < n := by rw [hj]; exact Nat.mod_lt _ (by omega)
  have hD := distance_lt (show 0 < n by omega) a q
  rcases distance_cases ha hq with ⟨_, e1⟩ | ⟨_, e1⟩ <;>
  rcases distance_cases ha he with ⟨_, e2⟩ | ⟨_, e2⟩ <;>
  rcases distance_cases hs hq with ⟨_, e3⟩ | ⟨_, e3⟩ <;>
  rcases distance_cases hs hjn with ⟨_, e4⟩ | ⟨_, e4⟩ <;>
  rcases distance_cases hs he with ⟨_, e5⟩ | ⟨_, e5⟩ <;>
  rcases add_mod_cases (show a + d < n + n by omega) with ⟨_, e6⟩ | ⟨_, e6⟩ <;> omega

theorem succ_slot_eq {n a d j : Nat} (hj : j = (a + d) % n) :
    (a + (d + 1)) % n = (j + 1) % n := by
  rw [hj, ← Nat.add_assoc, Nat.add_mod (a + d) 1 n, Nat.add_mod ((a + d) % n) 1 n, Nat.mod_mod]

/-- The value and probe distance of a slot after the backward shift, from facts on the
table before it. -/
theorem shifted_slot (KT : KeyTraits) {p : Nat} {u u' : List Nat} {s m : Nat}
    (hp : u.length = 2 ^ p) (hs : s < u.length) (hsb : ShiftedBack KT u u' s m)
    (hmN : m + 1 < u.length)
    (hns : ∀ j < u.length, 1 ≤ distance_from_slot u.length s j →
      distance_from_slot u.length s j ≤ m → ¬ ShiftStops KT u j)
    {j d : Nat} (hj : j < u.length)
    (ha : u.getD j 0 ≠ KT.NullKey ∧ d ≤ probe_distance KT u j)
    (hb : distance_from_slot u.length s j ≠ m)
    (hc : distance_from_slot u.length s j < m →
      d + 1 ≤ probe_distance KT u ((j + 1) % u.length)) :
    u'.getD j 0 ≠ KT.NullKey ∧ d ≤ probe_distance KT u' j := by
  obtain ⟨hlen, hval⟩ := hsb
  unfold probe_distance
  rw [hlen, hval j hj]
  by_cases hlt : distance_from_slot u.length s j < m
  · rw [if_pos hlt]
    have hj1 : (j + 1) % u.length < u.length := Nat.mod_lt _ (by omega)
    have hoff := distance_succ hs hj (by omega)
    have hnst := hns _ hj1 (by omega) (by omega)
    have hcc := hc hlt
    unfold ShiftStops at hnst
    push_neg at hnst
    refine ⟨hnst.1, ?_⟩
    have := distance_pred (home_lt hp (u.getD ((j + 1) % u.length) 0)) hj (by
      unfold probe_distance at hnst; exact hnst.2)
    unfold probe_distance at hcc
    omega
  · rw [if_neg hlt, if_neg hb]
    exact ha

theorem shiftedBack_invariant (KT : KeyTraits) {p : Nat} {u u' : List Nat} {s m : Nat}
    (hp : u.length = 2 ^ p) (hs : s < u.length) (hinv : RobinHoodInvariant KT u)
    (hsb : ShiftedBack KT u u' s m) (hmN : m + 1 < u.length)
    (hns : ∀ x < m, ¬ ShiftStops KT u ((s + 1 + x) % u.length))
    (hstop : ShiftStops KT u ((s + 1 + m) % u.length))
    (hempty : ∃ e < u.length, u.getD e 0 = KT.NullKey ∧ m < distance_from_slot u.length s e) :
    RobinHoodInvariant KT u' := by
  have hN : 0 < u.length := by omega
  have hns' : ∀ j < u.length, 1 ≤ distance_from_slot u.length s j →
      distance_from_slot u.length s j ≤ m → ¬ ShiftStops KT u j := by
    intro j hj h1 h2
    have := hns (distance_from_slot u.length s j - 1) (by omega)
    have e : (s + 1 + (distance_from_slot u.length s j - 1)) % u.length = j := by
      have : s + 1 + (distance_from_slot u.length s j - 1) = s + distance_from_slot u.length s j := by
        omega
      rw [this]; exact add_distance hs hj
    rw [e] at this; exact this
  have hstop' : ∀ j < u.length, distance_from_slot u.length s j = m + 1 → ShiftStops KT u j := by
    intro j hj h1
    have e : (s + 1 + m) % u.length = j := by
      have : s + 1 + m = s + distance_from_slot u.length s j := by omega
      rw [this]; exact add_distance hs hj
    rw [e] at hstop; exact hstop
  obtain ⟨e, he, henull, heoff⟩ := hempty
  have hlen := hsb.1
  intro q hq hy
  rw [hlen] at hq
  have hval := hsb.2 q hq
  intro d hd
  rw [hlen]
  have hq1 : (q + 1) % u.length < u.length := Nat.mod_lt _ hN
  by_cases hlt : distance_from_slot u.length s q < m
  · -- the key of slot `q` came from the next slot
    rw [if_pos hlt] at hval
    have hoff := distance_succ hs hq (by omega)
    have hnst := hns' _ hq1 (by omega) (by omega)
    unfold ShiftStops at hnst
    push_neg at hnst
    have hpd : probe_distance KT u' q + 1 = probe_distance KT u ((q + 1) % u.length) := by
      unfold probe_distance
      rw [hlen, hval]
      exact distance_pred (home_lt hp _) hq (by
        have := hnst.2; unfold probe_distance at this; exact this)
    rw [hval] at hy ⊢
    have hpath := hinv _ hq1 hnst.1
    have hjn : (home KT u.length (u.getD ((q + 1) % u.length) 0) + d) % u.length < u.length :=
      Nat.mod_lt _ hN
    refine shifted_slot KT hp hs hsb hmN hns' hjn (hpath d (by omega)) ?_ ?_
    · intro hoffj
      have hlt' := distance_between (a := home KT u.length (u.getD ((q + 1) % u.length) 0))
        (d := d) hs (home_lt hp _) hq1 he rfl
        (by unfold probe_distance at hpd hd; omega) (by omega) (by omega)
      have := (hpath _ hlt').1
      rw [add_distance (home_lt hp _) he] at this
      exact this henull
    · intro _
      have := (hpath (d + 1) (by omega)).2
      rw [succ_slot_eq rfl] at this
      exact this
  · rw [if_neg hlt] at hval
    by_cases heq : distance_from_slot u.length s q = m
    · rw [if_pos heq] at hval; exact absurd hval hy
    · rw [if_neg heq] at hval
      have hpd : probe_distance KT u' q = probe_distance KT u q := by
        unfold probe_distance; rw [hlen, hval]
      rw [hpd] at hd
      rw [hval] at hy ⊢
      have hpath := hinv _ hq hy
      have hjn : (home KT u.length (u.getD q 0) + d) % u.length < u.length :=
        Nat.mod_lt _ hN
      have hnext : d + 1 < probe_distance KT u q ∨
          (q = ((home KT u.length (u.getD q 0) + d) % u.length + 1) % u.length ∧
            d + 1 = probe_distance KT u q) := by
        rcases Nat.lt_or_ge (d + 1) (probe_distance KT u q) with h | h
        · exact Or.inl h
        · right
          have hD : d + 1 = probe_distance KT u q := by omega
          refine ⟨?_, hD⟩
          rw [← succ_slot_eq rfl, hD]
          unfold probe_distance
          exact (add_distance (home_lt hp _) hq).symm
      refine shifted_slot KT hp hs hsb hmN hns' hjn (hpath d hd) ?_ ?_
      · intro hoffj
        have hoff1 := distance_succ hs hjn (by omega)
        have hst := hstop' (((home KT u.length (u.getD q 0) + d) % u.length + 1) % u.length)
          (Nat.mod_lt _ hN) (by omega)
        rcases hnext with h | ⟨h1, h2⟩
        · have := hpath (d + 1) h
          rw [succ_slot_eq rfl] at this
          rcases hst with h3 | h3
          · exact this.1 h3
          · omega
        · rw [← h1] at hst
          rcases hst with h3 | h3
          · exact hy h3
          · omega
      · intro hoffj
        rcases hnext with h | ⟨h1, h2⟩
        · have := (hpath (d + 1) h).2
          rw [succ_slot_eq rfl] at this
          exact this
        · exfalso
          have hoff1 := distance_succ hs hjn (by omega)
          rw [← h1] at hoff1
          omega

end TransactionalRobinHoodSet
end concurrent_data_structures

namespace concurrent_data_structures
namespace TransactionalRobinHoodSet

theorem shiftedBack_occupies (KT : KeyTraits) {u u' : List Nat} {s m : Nat}
    (hs : s < u.length) (hsb : ShiftedBack KT u u' s m) (hmN : m + 1 < u.length)
    {x : Nat} (hx : x ≠ KT.NullKey) :
    Occupies u' x ↔ ∃ q < u.length, q ≠ s ∧ u.getD q 0 = x := by
  obtain ⟨hlen, hval⟩ := hsb
  have hN : 0 < u.length := by omega
  constructor
  · rintro ⟨j, hj, hjx⟩
    rw [hlen] at hj
    rw [hval j hj] at hjx
    by_cases hlt : distance_from_slot u.length s j < m
    · rw [if_pos hlt] at hjx
      refine ⟨(j + 1) % u.length, Nat.mod_lt _ hN, ?_, hjx⟩
      have hoff := distance_succ hs hj (by omega)
      intro e
      rw [e] at hoff
      rcases distance_cases hs hs with ⟨_, h⟩ | ⟨_, h⟩ <;> omega
    · rw [if_neg hlt] at hjx
      by_cases heq : distance_from_slot u.length s j = m
      · rw [if_pos heq] at hjx; exact absurd hjx.symm hx
      · rw [if_neg heq] at hjx
        refine ⟨j, hj, ?_, hjx⟩
        intro e
        rw [e] at hlt heq
        rcases distance_cases hs hs with ⟨_, h⟩ | ⟨_, h⟩ <;> omega
  · rintro ⟨q, hq, hqs, hqx⟩
    by_cases hle : distance_from_slot u.length s q ≤ m
    · have hpq : (q + (u.length - 1)) % u.length < u.length := Nat.mod_lt _ hN
      have hback : ((q + (u.length - 1)) % u.length + 1) % u.length = q := by
        rcases add_mod_cases (show q + (u.length - 1) < u.length + u.length by omega)
          with ⟨_, h1⟩ | ⟨_, h1⟩ <;>
        rcases add_mod_cases (show (q + (u.length - 1)) % u.length + 1 < u.length + u.length
          by omega) with ⟨_, h2⟩ | ⟨_, h2⟩ <;> omega
      have hoff : distance_from_slot u.length s ((q + (u.length - 1)) % u.length) + 1 =
          distance_from_slot u.length s q := by
        rcases distance_cases hs hq with ⟨_, h1⟩ | ⟨_, h1⟩ <;>
        rcases distance_cases hs hpq with ⟨_, h2⟩ | ⟨_, h2⟩ <;>
        rcases add_mod_cases (show q + (u.length - 1) < u.length + u.length by omega)
          with ⟨_, h3⟩ | ⟨_, h3⟩ <;> omega
      refine ⟨(q + (u.length - 1)) % u.length, by rw [hlen]; exact hpq, ?_⟩
      rw [hval _ hpq, if_pos (by omega), hback]
      exact hqx
    · refine ⟨q, by rw [hlen]; exact hq, ?_⟩
      rw [hval q hq, if_neg (by omega), if_neg (by omega)]
      exact hqx

theorem remove_loop_found (KT : KeyTraits) (sf : Nat) (t : List Nat) (k : Nat) {p : Nat}
    (hp : t.length = 2 ^ p) (hinv : RobinHoodInvariant KT t) (hk : k ≠ KT.NullKey)
    (s : Nat) (hs : s < t.length) (hsk : t.getD s 0 = k) :
    ∀ fuel i c, c ≤ probe_distance KT t s →
      i % t.length = (home KT t.length k + c) % t.length →
      probe_distance KT t s < fuel + c →
      ∃ s0 < t.length, t.getD s0 0 = k ∧
        remove_loop KT sf t k fuel i c =
          (shift_loop KT sf t (s0 + 1) s0).map (fun t' => (true, t')) := by
  intro fuel
  induction fuel with
  | zero => intro i c h1 _ h2; omega
  | succ fuel ih =>
    intro i c hc hi hf
    simp only [remove_loop]
    rw [mask_eq_mod hp, hi]
    have hslotlt : (home KT t.length k + c) % t.length < t.length :=
      Nat.mod_lt _ (size_pos_of_pow hp)
    rcases Nat.lt_or_ge c (probe_distance KT t s) with hlt | hge
    · have hpath := hinv s hs (by rw [hsk]; exact hk) c hlt
      rw [hsk] at hpath
      obtain ⟨hnn, hdist⟩ := hpath
      rw [if_neg hnn]
      split_ifs with h2 h3
      · exact ⟨_, hslotlt, h2.symm, rfl⟩
      · exfalso
        unfold probe_distance at hdist
        unfold home at hdist h3
        omega
      · exact ih _ _ (by omega) (succ_mod_eq (Nat.mod_mod _ _)) (by omega)
    · have hceq : c = probe_distance KT t s := le_antisymm hc hge
      have hslot : (home KT t.length k + c) % t.length = s := by
        rw [hceq]; unfold probe_distance; rw [hsk]
        exact add_distance (home_lt hp k) hs
      rw [hslot, hsk, if_neg hk, if_pos rfl]
      exact ⟨s, hs, hsk, rfl⟩

theorem remove_loop_absent (KT : KeyTraits) (sf : Nat) (t : List Nat) (k : Nat) {p : Nat}
    (hp : t.length = 2 ^ p)
    (habs : ∀ q < t.length, t.getD q 0 ≠ KT.NullKey → k ≠ t.getD q 0) :
    ∀ fuel i c, c ≤ t.length → t.length + 1 ≤ fuel + c →
      remove_loop KT sf t k fuel i c = some (false, t) := by
  intro fuel
  induction fuel with
  | zero => intro i c h1 h2; omega
  | succ fuel ih =>
    intro i c hc hf
    simp only [remove_loop]
    split_ifs with h1 h2 h3
    · rfl
    · exfalso
      refine habs _ ?_ h1 h2
      rw [mask_eq_mod hp]; exact Nat.mod_lt _ (size_pos_of_pow hp)
    · rfl
    · have := distance_lt (size_pos_of_pow hp)
        (KT.hash (t.getD (i &&& (t.length - 1)) 0) &&& (t.length - 1)) (i &&& (t.length - 1))
      exact ih _ _ (by omega) (by omega)

end TransactionalRobinHoodSet
end concurrent_data_structures

namespace concurrent_data_structures
namespace TransactionalRobinHoodSet

/-! ### The three operations on a table that satisfies the invariant -/

theorem contains_loop_not_null (KT : KeyTraits) (t : List Nat) (k : Nat) :
    ∀ fuel i c, contains_loop KT t k fuel i c = some true → k ≠ KT.NullKey := by
  intro fuel
  induction fuel with
  | zero => intro i c h; simp [contains_loop] at h
  | succ fuel ih =>
    intro i c h
    simp only [contains_loop] at h
    split_ifs at h with h1 h2 h3
    · cases h
    · rw [h2]; exact h1
    · cases h
    · exact ih _ _ h

theorem contains_spec (KT : KeyTraits) (t : List Nat) (k : Nat) {p : Nat}
    (hp : t.length = 2 ^ p) (hinv : RobinHoodInvariant KT t) (fuel : Nat)
    (hf : t.length + 1 ≤ fuel) :
    ∃ b, contains KT fuel t k = some b ∧ (b = true ↔ Occupies t k ∧ k ≠ KT.NullKey) := by
  obtain ⟨b, hb⟩ := contains_loop_total KT t k hp fuel (KT.hash k) 0 (Nat.zero_le _) (by omega)
  refine ⟨b, hb, ?_⟩
  constructor
  · intro h
    subst h
    exact ⟨contains_loop_sound KT t k hp _ _ _ hb, contains_loop_not_null KT t k _ _ _ hb⟩
  · rintro ⟨⟨s, hs, hsk⟩, hk⟩
    have := contains_loop_complete KT t k hp hinv hk s hs hsk fuel (KT.hash k) 0
      (Nat.zero_le _) (by rw [home_eq_mod hp, Nat.add_zero, Nat.mod_mod])
      (by have := distance_lt (size_pos_of_pow hp) (home KT t.length (t.getD s 0)) s
          unfold probe_distance; omega)
    rw [this] at hb
    cases hb; rfl

theorem add_spec (KT : KeyTraits) (t : List Nat) (k : Nat) {p : Nat}
    (hp : t.length = 2 ^ p) (hinv : RobinHoodInvariant KT t) (hempty : HasEmptySlot KT t)
    (hk : k ≠ KT.NullKey) (fuel : Nat) (hf : t.length ≤ fuel) :
    ∃ b u', add KT fuel t k = some (b, u') ∧ u'.length = t.length ∧
      RobinHoodInvariant KT u' ∧
      (∀ x, x ≠ KT.NullKey → (Occupies u' x ↔ Occupies t x ∨ x = k)) ∧
      (NoDuplicateKey KT t → ¬ Occupies t k → b = true ∧ NoDuplicateKey KT u') ∧
      (Occupies t k → b = false ∧ u' = t) := by
  have hN := size_pos_of_pow hp
  obtain ⟨e, he, henull⟩ := hempty
  have hstart : (KT.hash k &&& (t.length - 1)) % t.length =
      (home KT t.length k + 0) % t.length := rfl
  obtain ⟨b, u', hrun, hlen, hinv', hkeys, hret⟩ :=
    add_loop_spec KT p fuel t (KT.hash k &&& (t.length - 1)) k 0 hp hinv hk
      (fun d hd => absurd hd (Nat.not_lt_zero d)) hstart
      ⟨distance_from_slot t.length (home KT t.length k) e,
        by have := distance_lt hN (home KT t.length k) e; omega,
        by
          have h1 : KT.hash k &&& (t.length - 1) = home KT t.length k := rfl
          rw [h1, add_distance (home_lt hp k) he]; exact henull⟩
  refine ⟨b, u', hrun, hlen, hinv', hkeys, hret, ?_⟩
  rintro ⟨s, hs, hsk⟩
  have := add_loop_present KT t k hp hinv hk s hs hsk fuel (KT.hash k &&& (t.length - 1)) 0
    (Nat.zero_le _) hstart
    (by have := distance_lt hN (home KT t.length (t.getD s 0)) s
        unfold probe_distance; omega)
  rw [this] at hrun
  cases hrun
  exact ⟨rfl, rfl⟩

theorem remove_spec (KT : KeyTraits) (t : List Nat) (k : Nat) {p : Nat}
    (hp : t.length = 2 ^ p) (hinv : RobinHoodInvariant KT t) (hempty : HasEmptySlot KT t)
    (fuel : Nat) (hf : t.length + 1 ≤ fuel) :
    ∃ b u', remove KT fuel t k = some (b, u') ∧ u'.length = t.length ∧
      (b = true ↔ Occupies t k ∧ k ≠ KT.NullKey) ∧
      RobinHoodInvariant KT u' ∧
      (b = false → u' = t) ∧
      (∀ x, x ≠ KT.NullKey → x ≠ k → (Occupies u' x ↔ Occupies t x)) ∧
      (NoDuplicateKey KT t → k ≠ KT.NullKey → ¬ Occupies u' k) := by
  have hN := size_pos_of_pow hp
  by_cases hpres : Occupies t k ∧ k ≠ KT.NullKey
  · obtain ⟨⟨s, hs, hsk⟩, hk⟩ := hpres
    obtain ⟨s0, hs0, hs0k, hrun⟩ := remove_loop_found KT fuel t k hp hinv hk s hs hsk fuel
      (KT.hash k) 0 (Nat.zero_le _) (by rw [home_eq_mod hp, Nat.add_zero, Nat.mod_mod])
      (by have := distance_lt hN (home KT t.length (t.getD s 0)) s
          unfold probe_distance; omega)
    obtain ⟨e, he, henull⟩ := hempty
    have hes : e ≠ s0 := by
      intro h; subst h; rw [henull] at hs0k; exact hk hs0k.symm
    have hoff_lt := distance_lt hN s0 e
    have hoff_pos : 1 ≤ distance_from_slot t.length s0 e := by
      rcases distance_cases hs0 he with ⟨_, h⟩ | ⟨_, h⟩ <;> omega
    have hslot_e : (s0 + 1 + (distance_from_slot t.length s0 e - 1)) % t.length = e := by
      have : s0 + 1 + (distance_from_slot t.length s0 e - 1) =
          s0 + distance_from_slot t.length s0 e := by omega
      rw [this]; exact add_distance hs0 he
    obtain ⟨m, u', hm, hshift, hsb, hns, hstop⟩ :=
      shift_loop_spec KT p fuel t (s0 + 1) s0 s0 (distance_from_slot t.length s0 e - 1)
        hp hs0 (Nat.mod_eq_of_lt hs0) rfl (by omega) (by omega) (by rw [hslot_e]; exact henull)
    have hrun' : remove KT fuel t k = some (true, u') := by
      unfold remove; rw [hrun, hshift]; rfl
    refine ⟨true, u', hrun', hsb.1, ?_, ?_, ?_, ?_, ?_⟩
    · exact ⟨fun _ => ⟨⟨s, hs, hsk⟩, hk⟩, fun _ => rfl⟩
    · exact shiftedBack_invariant KT hp hs0 hinv hsb (by omega) hns hstop
        ⟨e, he, henull, by omega⟩
    · intro h; cases h
    · intro x hx hxk
      rw [shiftedBack_occupies KT hs0 hsb (by omega) hx]
      constructor
      · rintro ⟨q, hq, _, hqx⟩; exact ⟨q, hq, hqx⟩
      · rintro ⟨q, hq, hqx⟩
        refine ⟨q, hq, ?_, hqx⟩
        intro h; subst h; rw [hs0k] at hqx; exact hxk hqx.symm
    · intro hnd _
      rw [shiftedBack_occupies KT hs0 hsb (by omega) hk]
      rintro ⟨q, hq, hqs, hqk⟩
      exact hqs (hnd q hq s0 hs0 (by rw [hqk]; exact hk) (by rw [hqk, hs0k]))
  · have habs : ∀ q < t.length, t.getD q 0 ≠ KT.NullKey → k ≠ t.getD q 0 := by
      intro q hq hne h
      exact hpres ⟨⟨q, hq, h.symm⟩, by rw [h]; exact hne⟩
    have hrun := remove_loop_absent KT fuel t k hp habs fuel (KT.hash k) 0 (Nat.zero_le _)
      (by omega)
    refine ⟨false, t, hrun, rfl, ?_, hinv, fun _ => rfl, fun _ _ _ => Iff.rfl, ?_⟩
    · constructor
      · intro h; cases h
      · intro h; exact absurd h hpres
    · intro _ hk hocc
      exact hpres ⟨hocc, hk⟩

end TransactionalRobinHoodSet
end concurrent_data_structures

namespace concurrent_data_structures
namespace TransactionalRobinHoodSet

/-! ### Claims on the transactional Robin-Hood set -/

/-- C1 (as stated, refuted): the table `[0, 8, 1, 1, -, -, -, -]` (`h(k) = k`, 8 slots)
satisfies the distance invariant and has empty slots, key 16 occupies no slot, yet
`add(16)` returns false: it displaces key 1 from slot 2 and then meets the second copy of
key 1 in slot 3. -/
theorem add_false_on_absent_key :
    [0, 8, 1, 1, 255, 255, 255, 255].length = 2 ^ 3 ∧
    RobinHoodInvariant idTraits [0, 8, 1, 1, 255, 255, 255, 255] ∧
    HasEmptySlot idTraits [0, 8, 1, 1, 255, 255, 255, 255] ∧
    16 ≠ idTraits.NullKey ∧
    ¬ Occupies [0, 8, 1, 1, 255, 255, 255, 255] 16 ∧
    add idTraits 8 [0, 8, 1, 1, 255, 255, 255, 255] 16 =
      some (false, [0, 8, 16, 1, 255, 255, 255, 255]) := by
  decide

/-- C1 (amended): on a table that satisfies the distance invariant, has an empty slot and
holds no key in two slots, `add(k)` for `k ≠ NullKey` returns, and it returns true if and
only if `k` occupied no slot before the call. -/
theorem add_true_iff_absent (KT : KeyTraits) (t : List Nat) (k p fuel : Nat)
    (hp : t.length = 2 ^ p) (hinv : RobinHoodInvariant KT t) (hempty : HasEmptySlot KT t)
    (hnd : NoDuplicateKey KT t) (hk : k ≠ KT.NullKey) (hf : t.length ≤ fuel) :
    ∃ b u', add KT fuel t k = some (b, u') ∧ (b = true ↔ ¬ Occupies t k) := by
  obtain ⟨b, u', hrun, _, _, _, habsent, hpresent⟩ := add_spec KT t k hp hinv hempty hk fuel hf
  refine ⟨b, u', hrun, ?_⟩
  constructor
  · intro hb hocc
    rw [(hpresent hocc).1] at hb
    cases hb
  · intro hocc
    exact (habsent hnd hocc).1

theorem add_true_iff_absent_witness :
    ∃ b u', add idTraits 8 [0, 8, 1, 255, 255, 255, 255, 255] 16 = some (b, u') ∧
      (b = true ↔ ¬ Occupies [0, 8, 1, 255, 255, 255, 255, 255] 16) :=
  add_true_iff_absent idTraits [0, 8, 1, 255, 255, 255, 255, 255] 16 3 8
    (by decide) (by decide) (by decide) (by decide) (by decide) (by decide)

/-- C2: on a table that satisfies the distance invariant and has an empty slot, `remove(k)`
for `k ≠ NullKey` returns, and it returns true if and only if `k` occupied some slot before
the call. -/
theorem remove_true_iff_present (KT : KeyTraits) (t : List Nat) (k p fuel : Nat)
    (hp : t.length = 2 ^ p) (hinv : RobinHoodInvariant KT t) (hempty : HasEmptySlot KT t)
    (hk : k ≠ KT.NullKey) (hf : t.length + 1 ≤ fuel) :
    ∃ b u', remove KT fuel t k = some (b, u') ∧ (b = true ↔ Occupies t k) := by
  obtain ⟨b, u', hrun, _, hiff, _⟩ := remove_spec KT t k hp hinv hempty fuel hf
  refine ⟨b, u', hrun, ?_⟩
  rw [hiff]
  exact ⟨fun h => h.1, fun h => ⟨h, hk⟩⟩

theorem remove_true_iff_present_witness :
    ∃ b u', remove idTraits 9 [0, 8, 1, 255, 255, 255, 255, 255] 8 = some (b, u') ∧
      (b = true ↔ Occupies [0, 8, 1, 255, 255, 255, 255, 255] 8) :=
  remove_true_iff_present idTraits [0, 8, 1, 255, 255, 255, 255, 255] 8 3 9
    (by decide) (by decide) (by decide) (by decide) (by decide)

/-- C3: on a table that satisfies the distance invariant, `contains(k)` for `k ≠ NullKey`
returns, and it returns true if and only if some slot holds `k`: the early exit on a resident
with smaller probe distance never hides a key that is present. -/
theorem contains_true_iff_occupies (KT : KeyTraits) (t : List Nat) (k p fuel : Nat)
    (hp : t.length = 2 ^ p) (hinv : RobinHoodInvariant KT t)
    (hk : k ≠ KT.NullKey) (hf : t.length + 1 ≤ fuel) :
    ∃ b, contains KT fuel t k = some b ∧ (b = true ↔ Occupies t k) := by
  obtain ⟨b, hrun, hiff⟩ := contains_spec KT t k hp hinv fuel hf
  refine ⟨b, hrun, ?_⟩
  rw [hiff]
  exact ⟨fun h => h.1, fun h => ⟨h, hk⟩⟩

theorem contains_true_iff_occupies_witness :
    ∃ b, contains idTraits 9 [0, 8, 1, 255, 255, 255, 255, 255] 1 = some b ∧
      (b = true ↔ Occupies [0, 8, 1, 255, 255, 255, 255, 255] 1) :=
  contains_true_iff_occupies idTraits [0, 8, 1, 255, 255, 255, 255, 255] 1 3 9
    (by decide) (by decide) (by decide) (by decide)

/-- C4: on a table that satisfies the distance invariant and has an empty slot, `add(k)` for
`k ≠ NullKey` returns, and afterwards for every key `k'` the call `contains(k')` returns, and
it returns true if and only if `k' = k` or `contains(k')` was true before the call (for
`k' ≠ NullKey`: if and only if `k' = k` or `k'` occupied a slot before the call). -/
theorem contains_after_add (KT : KeyTraits) (t : List Nat) (k p fuel fuel' : Nat)
    (hp : t.length = 2 ^ p) (hinv : RobinHoodInvariant KT t) (hempty : HasEmptySlot KT t)
    (hk : k ≠ KT.NullKey) (hf : t.length ≤ fuel) (hf' : t.length + 1 ≤ fuel') :
    ∃ b u', add KT fuel t k = some (b, u') ∧
      ∀ k', ∃ c c0, contains KT fuel' u' k' = some c ∧ contains KT fuel' t k' = some c0 ∧
        (c = true ↔ k' = k ∨ c0 = true) ∧
        (k' ≠ KT.NullKey → (c = true ↔ k' = k ∨ Occupies t k')) := by
  obtain ⟨b, u', hrun, hlen, hinv', hkeys, _, _⟩ := add_spec KT t k hp hinv hempty hk fuel hf
  refine ⟨b, u', hrun, fun k' => ?_⟩
  obtain ⟨c, hc, hciff⟩ := contains_spec KT u' k' (hlen.trans hp) hinv' fuel' (by omega)
  obtain ⟨c0, hc0, hc0iff⟩ := contains_spec KT t k' hp hinv fuel' hf'
  refine ⟨c, c0, hc, hc0, ?_, ?_⟩
  · rw [hciff, hc0iff]
    constructor
    · rintro ⟨hocc, hne⟩
      rcases (hkeys k' hne).1 hocc with h | h
      · exact Or.inr ⟨h, hne⟩
      · exact Or.inl h
    · rintro (h | ⟨hocc, hne⟩)
      · subst h; exact ⟨(hkeys k' hk).2 (Or.inr rfl), hk⟩
      · exact ⟨(hkeys k' hne).2 (Or.inl hocc), hne⟩
  · intro hne
    rw [hciff, hkeys k' hne]
    constructor
    · rintro ⟨h | h, _⟩
      · exact Or.inr h
      · exact Or.inl h
    · rintro (h | h)
      · exact ⟨Or.inr h, hne⟩
      · exact ⟨Or.inl h, hne⟩

theorem contains_after_add_witness :
    ∃ b u', add idTraits 8 [0, 8, 1, 255, 255, 255, 255, 255] 16 = some (b, u') ∧
      ∀ k', ∃ c c0, contains idTraits 9 u' k' = some c ∧
        contains idTraits 9 [0, 8, 1, 255, 255, 255, 255, 255] k' = some c0 ∧
        (c = true ↔ k' = 16 ∨ c0 = true) ∧
        (k' ≠ idTraits.NullKey →
          (c = true ↔ k' = 16 ∨ Occupies [0, 8, 1, 255, 255, 255, 255, 255] k')) :=
  contains_after_add idTraits [0, 8, 1, 255, 255, 255, 255, 255] 16 3 8 9
    (by decide) (by decide) (by decide) (by decide) (by decide) (by decide)

/-- C5 (as stated, refuted): the table `[0, 0, -, -]` (`h(k) = k`, 4 slots) satisfies the
distance invariant and has empty slots; `remove(0)` returns true and leaves `[0, -, -, -]`,
on which `contains(0)` is still true: only one of the two copies is removed. -/
theorem contains_true_after_remove :
    [0, 0, 255, 255].length = 2 ^ 2 ∧
    RobinHoodInvariant idTraits [0, 0, 255, 255] ∧
    HasEmptySlot idTraits [0, 0, 255, 255] ∧
    remove idTraits 5 [0, 0, 255, 255] 0 = some (true, [0, 255, 255, 255]) ∧
    contains idTraits 5 [0, 255, 255, 255] 0 = some true := by
  decide

/-- C5 (amended): on a table that satisfies the distance invariant, has an empty slot and
holds no key in two slots, `remove(k)` returns, and afterwards for every key `k'` the call
`contains(k')` returns, and it returns true if and only if `k' ≠ k` and `contains(k')` was
true before the call. -/
theorem contains_after_remove (KT : KeyTraits) (t : List Nat) (k p fuel fuel' : Nat)
    (hp : t.length = 2 ^ p) (hinv : RobinHoodInvariant KT t) (hempty : HasEmptySlot KT t)
    (hnd : NoDuplicateKey KT t) (hf : t.length + 1 ≤ fuel) (hf' : t.length + 1 ≤ fuel') :
    ∃ b u', remove KT fuel t k = some (b, u') ∧
      ∀ k', ∃ c c0, contains KT fuel' u' k' = some c ∧ contains KT fuel' t k' = some c0 ∧
        (c = true ↔ k' ≠ k ∧ c0 = true) := by
  obtain ⟨b, u', hrun, hlen, hiff, hinv', hsame, hkeys, hgone⟩ :=
    remove_spec KT t k hp hinv hempty fuel hf
  refine ⟨b, u', hrun, fun k' => ?_⟩
  obtain ⟨c, hc, hciff⟩ := contains_spec KT u' k' (hlen.trans hp) hinv' fuel' (by omega)
  obtain ⟨c0, hc0, hc0iff⟩ := contains_spec KT t k' hp hinv fuel' hf'
  refine ⟨c, c0, hc, hc0, ?_⟩
  rw [hciff, hc0iff]
  by_cases hkk : k' = k
  · subst hkk
    constructor
    · rintro ⟨hocc, hne⟩
      exact absurd hocc (hgone hnd hne)
    · rintro ⟨h, _⟩; exact absurd rfl h
  · constructor
    · rintro ⟨hocc, hne⟩
      exact ⟨hkk, (hkeys k' hne hkk).1 hocc, hne⟩
    · rintro ⟨_, hocc, hne⟩
      exact ⟨(hkeys k' hne hkk).2 hocc, hne⟩

theorem contains_after_remove_witness :
    ∃ b u', remove idTraits 9 [0, 8, 1, 255, 255, 255, 255, 255] 8 = some (b, u') ∧
      ∀ k', ∃ c c0, contains idTraits 9 u' k' = some c ∧
        contains idTraits 9 [0, 8, 1, 255, 255, 255, 255, 255] k' = some c0 ∧
        (c = true ↔ k' ≠ 8 ∧ c0 = true) :=
  contains_after_remove idTraits [0, 8, 1, 255, 255, 255, 255, 255] 8 3 9 9
    (by decide) (by decide) (by decide) (by decide) (by decide) (by decide)

end TransactionalRobinHoodSet
end concurrent_data_structures

namespace concurrent_data_structures
namespace MagedMichael

/-! ### Maged-Michael lists: pointers and chains -/

theorem get_ptr_even {p : Nat} (h : p % 2 = 0) : Cell.get_ptr p = p := by
  unfold Cell.get_ptr; omega

theorem is_marked_even {p : Nat} (h : p % 2 = 0) : Cell.is_marked p = false := by
  unfold Cell.is_marked
  rw [Nat.and_one_is_mod, h]
  rfl

theorem chain_even {mem : Nat → Cell} {bound p : Nat} {ks : List Nat}
    (h : Chain mem bound p ks) : p % 2 = 0 := by
  cases ks with
  | nil => simp only [Chain] at h; rw [h]
  | cons k ks => exact h.2.1

theorem chain_mono {mem : Nat → Cell} {bound bound' : Nat} (hb : bound ≤ bound') :
    ∀ (ks : List Nat) (p : Nat), Chain mem bound p ks → Chain mem bound' p ks := by
  intro ks
  induction ks with
  | nil => intro p h; exact h
  | cons k ks ih =>
    intro p h
    exact ⟨h.1, h.2.1, by have := h.2.2.1; omega, h.2.2.2.1, ih _ h.2.2.2.2⟩

/-- A chain is not affected by writes to cells whose key is not on it or that lie above the
bound. -/
theorem chain_frame {mem mem' : Nat → Cell} {bound : Nat} :
    ∀ (ks : List Nat) (p : Nat), Chain mem bound p ks →
      (∀ a, a < bound → (mem a).key ∈ ks → mem' a = mem a) → Chain mem' bound p ks := by
  intro ks
  induction ks with
  | nil => intro p h _; exact h
  | cons k ks ih =>
    intro p h hfr
    obtain ⟨h0, he, hlt, hkey, hrest⟩ := h
    have hp : mem' p = mem p := hfr p hlt (by rw [hkey]; exact List.mem_cons_self _ _)
    refine ⟨h0, he, hlt, by rw [hp]; exact hkey, ?_⟩
    rw [hp]
    exact ih _ hrest (fun a ha hm => hfr a ha (List.mem_cons_of_mem _ hm))

theorem search_loop_chain (key b : Nat) (s : State) (bound : Nat) :
    ∀ (ks : List Nat) (fuel : Nat) (prev : Loc) (cur nx : Nat),
      load s prev = cur → Chain s.mem bound cur ks → ks.Pairwise (fun x y => x < y) →
      ks.length < fuel →
      ∃ prev' cur' nx',
        search_loop key b fuel s { previous := prev, current := cur, next := nx } =
          some (if key ∈ ks then SearchResult.Found else SearchResult.NotFound,
            { previous := prev', current := cur', next := nx' }, s) ∧
        Link s prev (ks.takeWhile (fun x => decide (x < key))) prev' ∧
        load s prev' = cur' ∧
        Chain s.mem bound cur' (ks.dropWhile (fun x => decide (x < key))) ∧
        (key ∈ ks → nx' = (s.mem cur').next) := by
  intro ks
  induction ks with
  | nil =>
    intro fuel prev cur nx hload hchain _ hfuel
    obtain ⟨fuel, rfl⟩ : ∃ n, fuel = n + 1 := ⟨fuel - 1, by simp at hfuel; omega⟩
    simp only [Chain] at hchain
    subst hchain
    refine ⟨prev, 0, nx, ?_, rfl, hload, rfl, ?_⟩
    · simp [search_loop, Cell.get_ptr]
    · intro h; simp at h
  | cons k ks ih =>
    intro fuel prev cur nx hload hchain hsorted hfuel
    obtain ⟨fuel, rfl⟩ : ∃ n, fuel = n + 1 := ⟨fuel - 1, by simp at hfuel; omega⟩
    obtain ⟨h0, he, hlt, hkey, hrest⟩ := hchain
    have hnext_even := chain_even hrest
    rw [List.pairwise_cons] at hsorted
    simp only [search_loop, get_ptr_even he, is_marked_even hnext_even, hload, hkey]
    rw [if_neg h0]
    simp only [ne_eq, not_true_eq_false, if_false, Bool.not_false, if_true]
    by_cases hge : k ≥ key
    · rw [if_pos hge]
      have hnlt : ¬ k < key := by omega
      refine ⟨prev, cur, (s.mem cur).next, ?_, ?_, hload, ?_, fun _ => rfl⟩
      · congr 2
        by_cases hk : k = key
        · subst hk; simp
        · have : key ∉ k :: ks := by
            intro hm
            rcases List.mem_cons.mp hm with h | h
            · exact hk h.symm
            · have := hsorted.1 key h; omega
          simp [hk, this]
      · simp [List.takeWhile, hnlt, Link]
      · simp only [List.dropWhile, hnlt, decide_False]
        exact ⟨h0, he, hlt, hkey, hrest⟩
    · rw [if_neg hge]
      have hklt : k < key := by omega
      obtain ⟨prev', cur', nx', hrun, hlink, hload', hchain', hnx⟩ :=
        ih fuel (Loc.next cur) (s.mem cur).next (s.mem cur).next rfl hrest hsorted.2
          (by simp at hfuel; omega)
      refine ⟨prev', cur', nx', ?_, ?_, hload', ?_, ?_⟩
      · rw [hrun]
        congr 2
        have hne : key ≠ k := by omega
        simp [List.mem_cons, hne]
      · simp only [List.takeWhile, hklt, decide_True, Link, hload]
        exact hlink
      · simp only [List.dropWhile, hklt, decide_True]
        exact hchain'
      · intro hm
        rcases List.mem_cons.mp hm with h | h
        · omega
        · exact hnx h

end MagedMichael
end concurrent_data_structures

namespace concurrent_data_structures
namespace MagedMichael

/-! ### Stores to links -/

theorem store_key (s : State) (l : Loc) (v a : Nat) :
    ((store s l v).mem a).key = (s.mem a).key := by
  cases l with
  | head b => rfl
  | next c =>
    simp only [store]
    by_cases h : a = c
    · subst h; simp
    · simp [Function.update_noteq h]

theorem store_mem_other (s : State) (l : Loc) (v a : Nat) (h : l ≠ Loc.next a) :
    (store s l v).mem a = s.mem a := by
  cases l with
  | head b => rfl
  | next c =>
    simp only [store]
    have : a ≠ c := by intro e; subst e; exact h rfl
    simp [Function.update_noteq this]

theorem store_brk (s : State) (l : Loc) (v : Nat) : (store s l v).brk = s.brk := by
  cases l <;> rfl

theorem store_length (s : State) (l : Loc) (v : Nat) :
    (store s l v).m_table.length = s.m_table.length := by
  cases l with
  | head b => simp [store]
  | next c => rfl

theorem load_store_same (s : State) (l : Loc) (v : Nat)
    (h : ∀ b, l = Loc.head b → b < s.m_table.length) : load (store s l v) l = v := by
  cases l with
  | head b =>
    simp only [store, load]
    simp [List.getD_eq_getElem?_getD, h b rfl]
  | next c => simp [store, load]

theorem load_store_other (s : State) (l l0 : Loc) (v : Nat) (h : l0 ≠ l) :
    load (store s l v) l0 = load s l0 := by
  cases l with
  | head b =>
    cases l0 with
    | head b0 =>
      have : b ≠ b0 := by intro e; subst e; exact h rfl
      simp [store, load, List.getD_eq_getElem?_getD, List.getElem?_set_ne this]
    | next c0 => rfl
  | next c =>
    cases l0 with
    | head b0 => rfl
    | next c0 =>
      have : c0 ≠ c := by intro e; subst e; exact h rfl
      simp [store, load, Function.update_noteq this]

theorem cell_eq {c1 c2 : Cell} (h1 : c1.key = c2.key) (h2 : c1.next = c2.next) : c1 = c2 := by
  cases c1; cases c2; simp at h1 h2; simp [h1, h2]

/-! ### Relinking a chain -/

theorem link_owner (s : State) (bound : Nat) (ks2 : List Nat) :
    ∀ (ks1 : List Nat) (l l' : Loc), Link s l ks1 l' →
      Chain s.mem bound (load s l) (ks1 ++ ks2) → ks1 ≠ [] →
      ∃ c, l' = Loc.next c ∧ c < bound ∧ (s.mem c).key ∈ ks1 := by
  intro ks1
  induction ks1 with
  | nil => intro l l' _ _ h; exact absurd rfl h
  | cons k ks1 ih =>
    intro l l' hlink hchain _
    obtain ⟨_, _, hlt, hkey, hrest⟩ := hchain
    simp only [Link] at hlink
    by_cases hnil : ks1 = []
    · subst hnil
      simp only [Link] at hlink
      exact ⟨load s l, hlink, hlt, by rw [hkey]; exact List.mem_cons_self _ _⟩
    · obtain ⟨c, hc, hcb, hck⟩ := ih _ _ hlink hrest hnil
      exact ⟨c, hc, hcb, List.mem_cons_of_mem _ hck⟩

theorem link_from_head (s : State) (bound b : Nat) (ks1 ks2 : List Nat) (l' : Loc)
    (hlink : Link s (Loc.head b) ks1 l')
    (hchain : Chain s.mem bound (load s (Loc.head b)) (ks1 ++ ks2)) :
    l' = Loc.head b ∨ ∃ c, l' = Loc.next c ∧ c < bound ∧ (s.mem c).key ∈ ks1 := by
  by_cases hnil : ks1 = []
  · subst hnil; exact Or.inl hlink
  · exact Or.inr (link_owner s bound ks2 ks1 _ _ hlink hchain hnil)

theorem chain_relink {s s' : State} {bound bound' : Nat} (hb : bound ≤ bound') {prev' : Loc}
    {ks2 ks2' : List Nat} {q x : Nat}
    (hkey : ∀ a, ((s'.mem a).key = (s.mem a).key))
    (hfr : ∀ l, l ≠ prev' → l ≠ Loc.next x → load s' l = load s l)
    (hq : load s' prev' = q) (hchain' : Chain s'.mem bound' q ks2') :
    ∀ (ks1 : List Nat) (prev : Loc), Link s prev ks1 prev' →
      Chain s.mem bound (load s prev) (ks1 ++ ks2) →
      (ks1 ++ ks2).Pairwise (fun a b => a < b) →
      Below s bound prev (ks1 ++ ks2) →
      (bound ≤ x ∨ ∀ k ∈ ks1, k < (s.mem x).key) →
      Chain s'.mem bound' (load s' prev) (ks1 ++ ks2') := by
  intro ks1
  induction ks1 with
  | nil =>
    intro prev hlink _ _ _ _
    simp only [Link] at hlink
    subst hlink
    rw [hq]; exact hchain'
  | cons k ks1 ih =>
    intro prev hlink hchain hsorted hbelow hx
    obtain ⟨c, hc, _, hck⟩ := link_owner s bound ks2 (k :: ks1) _ _ hlink hchain
      (List.cons_ne_nil _ _)
    obtain ⟨h0, he, hlt, hkeyc, hrest⟩ := hchain
    simp only [Link] at hlink
    rw [List.cons_append, List.pairwise_cons] at hsorted
    have hrec := ih (Loc.next (load s prev)) hlink hrest hsorted.2
      (by
        intro c0 hc0
        cases hc0
        exact ⟨hlt, fun y hy => by rw [hkeyc]; exact hsorted.1 y hy⟩)
      (by
        rcases hx with h | h
        · exact Or.inl h
        · exact Or.inr (fun y hy => h y (List.mem_cons_of_mem _ hy)))
    have hne1 : prev ≠ prev' := by
      intro e
      rw [← e] at hc
      have := (hbelow c hc).2 (s.mem c).key (by
        rw [List.cons_append]
        rcases List.mem_cons.mp hck with h | h
        · rw [h]; exact List.mem_cons_self _ _
        · exact List.mem_cons_of_mem _ (List.mem_append_left _ h))
      omega
    have hne2 : prev ≠ Loc.next x := by
      intro e
      have hb' := hbelow x e
      rcases hx with h | h
      · omega
      · have h1 := h k (List.mem_cons_self _ _)
        have h2 := hb'.2 k (by rw [List.cons_append]; exact List.mem_cons_self _ _)
        omega
    have hsame : load s' prev = load s prev := hfr prev hne1 hne2
    rw [hsame, List.cons_append]
    exact ⟨h0, he, by omega, by rw [hkey]; exact hkeyc, hrec⟩

end MagedMichael
end concurrent_data_structures

namespace concurrent_data_structures
namespace MagedMichael

/-! ### Splitting an ascending list at a key -/

theorem dropWhile_ge (key : Nat) :
    ∀ ks : List Nat, ks.Pairwise (fun a b => a < b) →
      ∀ x ∈ ks.dropWhile (fun x => decide (x < key)), key ≤ x := by
  intro ks
  induction ks with
  | nil => intro _ x hx; simp at hx
  | cons k ks ih =>
    intro hs x hx
    rw [List.pairwise_cons] at hs
    by_cases hk : k < key
    · simp only [List.dropWhile, hk, decide_True] at hx
      exact ih hs.2 x hx
    · simp only [List.dropWhile, hk, decide_False] at hx
      rcases List.mem_cons.mp hx with h | h
      · omega
      · have := hs.1 x h; omega

theorem takeWhile_lt (key : Nat) (ks : List Nat) :
    ∀ x ∈ ks.takeWhile (fun x => decide (x < key)), x < key := by
  intro x hx
  have := List.mem_takeWhile_imp hx
  simpa using this

theorem split_absent {key : Nat} {ks : List Nat} (hs : ks.Pairwise (fun a b => a < b))
    (habs : key ∉ ks) :
    ∀ x ∈ ks.dropWhile (fun x => decide (x < key)), key < x := by
  intro x hx
  have h1 := dropWhile_ge key ks hs x hx
  have h2 : x ∈ ks := (List.dropWhile_sublist _).subset hx
  have : x ≠ key := fun e => habs (e ▸ h2)
  omega

theorem split_present {key : Nat} {ks : List Nat} (hs : ks.Pairwise (fun a b => a < b))
    (hmem : key ∈ ks) :
    ∃ rest, ks.dropWhile (fun x => decide (x < key)) = key :: rest ∧ ∀ x ∈ rest, key < x := by
  have hsplit := List.takeWhile_append_dropWhile (fun x => decide (x < key)) ks
  have hmem2 : key ∈ ks.dropWhile (fun x => decide (x < key)) := by
    rw [← hsplit] at hmem
    rcases List.mem_append.mp hmem with h | h
    · have := takeWhile_lt key ks key h; omega
    · exact h
  have hs2 : (ks.dropWhile (fun x => decide (x < key))).Pairwise (fun a b => a < b) :=
    hs.sublist (List.dropWhile_sublist _)
  have hge := dropWhile_ge key ks hs
  cases hd : ks.dropWhile (fun x => decide (x < key)) with
  | nil => rw [hd] at hmem2; simp at hmem2
  | cons y rest =>
    rw [hd] at hmem2 hs2 hge
    rw [List.pairwise_cons] at hs2
    have hy : y = key := by
      rcases List.mem_cons.mp hmem2 with h | h
      · exact h.symm
      · have h1 := hs2.1 key h
        have h2 := hge y (List.mem_cons_self _ _)
        omega
    subst hy
    exact ⟨rest, rfl, hs2.1⟩

/-! ### The list operations on an ascending unmarked chain -/

theorem find_chain (key b fuel : Nat) (s : State) (bound : Nat) (ks : List Nat)
    (hchain : Chain s.mem bound (load s (Loc.head b)) ks)
    (hs : ks.Pairwise (fun a b => a < b)) (hfuel : ks.length < fuel) :
    find key b fuel s = some (decide (key ∈ ks), s) := by
  obtain ⟨prev', cur', nx', hrun, _⟩ :=
    search_loop_chain key b s bound ks fuel (Loc.head b) _ 0 rfl hchain hs hfuel
  unfold find search
  rw [hrun]
  by_cases h : key ∈ ks <;> simp [h]

theorem list_add_found (cell key b sfuel n : Nat) (s : State) (bound : Nat) (ks : List Nat)
    (hchain : Chain s.mem bound (load s (Loc.head b)) ks)
    (hs : ks.Pairwise (fun a b => a < b)) (hfuel : ks.length < sfuel) (hmem : key ∈ ks) :
    list_add cell key b sfuel (n + 1) s = some (false, s) := by
  obtain ⟨prev', cur', nx', hrun, _⟩ :=
    search_loop_chain key b s bound ks sfuel (Loc.head b) _ 0 rfl hchain hs hfuel
  unfold list_add search
  rw [hrun]
  simp [hmem]

theorem list_remove_absent (key b sfuel n : Nat) (s : State) (bound : Nat) (ks : List Nat)
    (hchain : Chain s.mem bound (load s (Loc.head b)) ks)
    (hs : ks.Pairwise (fun a b => a < b)) (hfuel : ks.length < sfuel) (hmem : key ∉ ks) :
    list_remove key b sfuel (n + 1) s = some (false, s) := by
  obtain ⟨prev', cur', nx', hrun, _⟩ :=
    search_loop_chain key b s bound ks sfuel (Loc.head b) _ 0 rfl hchain hs hfuel
  unfold list_remove search
  rw [hrun]
  simp [hmem]

theorem list_add_absent (cell key b sfuel n : Nat) (s : State) (bound : Nat) (ks : List Nat)
    (hb : b < s.m_table.length)
    (hchain : Chain s.mem bound (load s (Loc.head b)) ks)
    (hs : ks.Pairwise (fun a b => a < b)) (hfuel : ks.length < sfuel) (hmem : key ∉ ks)
    (hc0 : cell ≠ 0) (hce : cell % 2 = 0) (hcb : cell < bound) (hck : (s.mem cell).key = key) :
    ∃ s', list_add cell key b sfuel (n + 1) s = some (true, s') ∧ s'.brk = s.brk ∧
      s'.m_table.length = s.m_table.length ∧
      (∃ ks', Chain s'.mem bound (load s' (Loc.head b)) ks' ∧
        ks'.Pairwise (fun a b => a < b) ∧ ∀ k, k ∈ ks' ↔ k = key ∨ k ∈ ks) ∧
      (∀ b', b' ≠ b → load s' (Loc.head b') = load s (Loc.head b')) ∧
      (∀ a, (s.mem a).key ≠ key → (s.mem a).key ∉ ks → s'.mem a = s.mem a) := by
  obtain ⟨prev', cur', nx', hrun, hlink, hload, hchain2, _⟩ :=
    search_loop_chain key b s bound ks sfuel (Loc.head b) _ 0 rfl hchain hs hfuel
  have hsplit := List.takeWhile_append_dropWhile (fun x => decide (x < key)) ks
  have hlt1 := takeWhile_lt key ks
  have hgt2 := split_absent hs hmem
  generalize hks1 : ks.takeWhile (fun x => decide (x < key)) = ks1 at *
  generalize hks2 : ks.dropWhile (fun x => decide (x < key)) = ks2 at *
  subst hsplit
  have hown := link_from_head s bound b ks1 ks2 prev' hlink hchain
  have hprev_cell : prev' ≠ Loc.next cell := by
    rcases hown with h | ⟨c, hc, _, hkc⟩
    · rw [h]; exact fun e => by cases e
    · rw [hc]
      intro e
      cases e
      have := hlt1 _ hkc
      omega
  have hprev_len : ∀ b0, prev' = Loc.head b0 → b0 < s.m_table.length := by
    intro b0 h0
    rcases hown with h | ⟨c, hc, _⟩
    · rw [h] at h0; cases h0; exact hb
    · rw [hc] at h0; cases h0
  have hcas : compare_exchange_weak (store s (Loc.next cell) cur') prev' cur' cell =
      (true, store (store s (Loc.next cell) cur') prev' cell) := by
    unfold compare_exchange_weak
    rw [load_store_other _ _ _ _ hprev_cell, hload, if_pos rfl]
  refine ⟨store (store s (Loc.next cell) cur') prev' cell, ?_, ?_, ?_, ?_, ?_, ?_⟩
  · unfold list_add search
    rw [hrun]
    simp only [hmem, if_false]
    rw [if_neg (by intro h; cases h)]
    simp only [hcas]
  · rw [store_brk, store_brk]
  · rw [store_length, store_length]
  · have hmem_same : ∀ a, a ≠ cell → Loc.next a ≠ prev' →
        (store (store s (Loc.next cell) cur') prev' cell).mem a = s.mem a := by
      intro a h1 h2
      rw [store_mem_other _ _ _ _ (fun e => h2 e.symm),
        store_mem_other _ _ _ _ (by intro e; cases e; exact h1 rfl)]
    have hnew : Chain (store (store s (Loc.next cell) cur') prev' cell).mem bound cell
        (key :: ks2) := by
      refine ⟨hc0, hce, hcb, by rw [store_key, store_key]; exact hck, ?_⟩
      have hnext : ((store (store s (Loc.next cell) cur') prev' cell).mem cell).next = cur' := by
        rw [store_mem_other _ _ _ _ hprev_cell]
        exact load_store_same s (Loc.next cell) cur' (fun b0 h0 => by cases h0)
      rw [hnext]
      refine chain_frame ks2 cur' hchain2 ?_
      intro a _ hka
      refine hmem_same a ?_ ?_
      · intro e; subst e; rw [hck] at hka; exact hmem (List.mem_append_right _ hka)
      · intro e
        rcases hown with h | ⟨c, hc, _, hkc⟩
        · rw [h] at e; cases e
        · rw [hc] at e; cases e
          have h1 := hlt1 _ hkc
          have h2 := hgt2 _ hka
          omega
    refine ⟨ks1 ++ key :: ks2, ?_, ?_, ?_⟩
    · refine chain_relink (le_refl bound) (fun a => by rw [store_key, store_key]) ?_
        (load_store_same _ prev' cell (by rw [store_length]; exact hprev_len)) hnew ks1
        (Loc.head b) hlink hchain hs (fun c hc => by cases hc)
        (Or.inr (fun k hk => by rw [hck]; exact hlt1 k hk))
      intro l h1 h2
      rw [load_store_other _ _ _ _ h1, load_store_other _ _ _ _ h2]
    · rw [List.pairwise_append] at hs ⊢
      refine ⟨hs.1, ?_, ?_⟩
      · rw [List.pairwise_cons]; exact ⟨hgt2, hs.2.1⟩
      · intro x hx y hy
        rcases List.mem_cons.mp hy with h | h
        · rw [h]; exact hlt1 x hx
        · exact hs.2.2 x hx y h
    · intro k
      simp only [List.mem_append, List.mem_cons]
      tauto
  · intro b' hb'
    rw [load_store_other _ _ _ _ (by
      rcases hown with h | ⟨c, hc, _⟩
      · rw [h]; intro e; cases e; exact hb' rfl
      · rw [hc]; intro e; cases e),
      load_store_other _ _ _ _ (by intro e; cases e)]
  · intro a h1 h2
    rw [store_mem_other _ _ _ _ (by
      rcases hown with h | ⟨c, hc, _, hkc⟩
      · rw [h]; intro e; cases e
      · rw [hc]; intro e; cases e
        exact h2 (List.mem_append_left _ hkc)),
      store_mem_other _ _ _ _ (by intro e; cases e; exact h1 hck)]

end MagedMichael
end concurrent_data_structures

namespace concurrent_data_structures
namespace MagedMichael

theorem list_remove_found (key b sfuel n : Nat) (s : State) (bound : Nat) (ks : List Nat)
    (hb : b < s.m_table.length)
    (hchain : Chain s.mem bound (load s (Loc.head b)) ks)
    (hs : ks.Pairwise (fun a b => a < b)) (hfuel : ks.length < sfuel) (hmem : key ∈ ks) :
    ∃ s', list_remove key b sfuel (n + 1) s = some (true, s') ∧ s'.brk = s.brk ∧
      s'.m_table.length = s.m_table.length ∧
      (∃ ks', Chain s'.mem bound (load s' (Loc.head b)) ks' ∧
        ks'.Pairwise (fun a b => a < b) ∧ ∀ k, k ∈ ks' ↔ k ≠ key ∧ k ∈ ks) ∧
      (∀ b', b' ≠ b → load s' (Loc.head b') = load s (Loc.head b')) ∧
      (∀ a, (s.mem a).key ∉ ks → s'.mem a = s.mem a) := by
  obtain ⟨prev', cur', nx', hrun, hlink, hload, hchain2, hnx⟩ :=
    search_loop_chain key b s bound ks sfuel (Loc.head b) _ 0 rfl hchain hs hfuel
  have hnx' := hnx hmem
  subst hnx'
  have hsplit := List.takeWhile_append_dropWhile (fun x => decide (x < key)) ks
  have hlt1 := takeWhile_lt key ks
  obtain ⟨rest, hdrop, hgt2⟩ := split_present hs hmem
  rw [hdrop] at hsplit hchain2
  generalize hks1 : ks.takeWhile (fun x => decide (x < key)) = ks1 at *
  subst hsplit
  obtain ⟨hcur0, hcure, hcurb, hcurk, hrest⟩ := hchain2
  have hne := chain_even hrest
  have hown := link_from_head s bound b ks1 (key :: rest) prev' hlink hchain
  have hprev_cur : prev' ≠ Loc.next cur' := by
    rcases hown with h | ⟨c, hc, _, hkc⟩
    · rw [h]; exact fun e => by cases e
    · rw [hc]
      intro e
      cases e
      have := hlt1 _ hkc
      omega
  have hprev_len : ∀ b0, prev' = Loc.head b0 → b0 < s.m_table.length := by
    intro b0 h0
    rcases hown with h | ⟨c, hc, _⟩
    · rw [h] at h0; cases h0; exact hb
    · rw [hc] at h0; cases h0
  have hcas1 : compare_exchange_weak s (Loc.next cur') (s.mem cur').next
      (Cell.mark (s.mem cur').next) =
      (true, store s (Loc.next cur') (Cell.mark (s.mem cur').next)) := by
    unfold compare_exchange_weak
    exact if_pos rfl
  have hcas2 : compare_exchange_weak (store s (Loc.next cur') (Cell.mark (s.mem cur').next))
      prev' cur' (Cell.get_ptr (s.mem cur').next) =
      (true, store (store s (Loc.next cur') (Cell.mark (s.mem cur').next)) prev'
        (s.mem cur').next) := by
    unfold compare_exchange_weak
    rw [load_store_other _ _ _ _ hprev_cur, hload, if_pos rfl, get_ptr_even hne]
  refine ⟨store (store s (Loc.next cur') (Cell.mark (s.mem cur').next)) prev'
    (s.mem cur').next, ?_, ?_, ?_, ?_, ?_, ?_⟩
  · unfold list_remove search
    rw [hrun]
    simp only [hmem, if_true]
    rw [if_neg (by intro h; cases h)]
    simp only [hcas1, hcas2]
  · rw [store_brk, store_brk]
  · rw [store_length, store_length]
  · have hmem_same : ∀ a, a ≠ cur' → Loc.next a ≠ prev' →
        (store (store s (Loc.next cur') (Cell.mark (s.mem cur').next)) prev'
          (s.mem cur').next).mem a = s.mem a := by
      intro a h1 h2
      rw [store_mem_other _ _ _ _ (fun e => h2 e.symm),
        store_mem_other _ _ _ _ (by intro e; cases e; exact h1 rfl)]
    have hnew : Chain (store (store s (Loc.next cur') (Cell.mark (s.mem cur').next)) prev'
        (s.mem cur').next).mem bound (s.mem cur').next rest := by
      refine chain_frame rest _ hrest ?_
      intro a _ hka
      refine hmem_same a ?_ ?_
      · intro e; subst e; rw [hcurk] at hka; have := hgt2 _ hka; omega
      · intro e
        rcases hown with h | ⟨c, hc, _, hkc⟩
        · rw [h] at e; cases e
        · rw [hc] at e; cases e
          have h1 := hlt1 _ hkc
          have h2 := hgt2 _ hka
          omega
    refine ⟨ks1 ++ rest, ?_, ?_, ?_⟩
    · refine chain_relink (le_refl bound) (fun a => by rw [store_key, store_key]) ?_
        (load_store_same _ prev' _ (by rw [store_length]; exact hprev_len)) hnew ks1
        (Loc.head b) hlink hchain hs (fun c hc => by cases hc)
        (Or.inr (fun k hk => by rw [hcurk]; exact hlt1 k hk))
      intro l h1 h2
      rw [load_store_other _ _ _ _ h1, load_store_other _ _ _ _ h2]
    · rw [List.pairwise_append] at hs ⊢
      refine ⟨hs.1, (List.pairwise_cons.mp hs.2.1).2, ?_⟩
      intro x hx y hy
      exact hs.2.2 x hx y (List.mem_cons_of_mem _ hy)
    · intro k
      simp only [List.mem_append, List.mem_cons]
      constructor
      · rintro (h | h)
        · exact ⟨by have := hlt1 k h; omega, Or.inl h⟩
        · exact ⟨by have := hgt2 k h; omega, Or.inr (Or.inr h)⟩
      · rintro ⟨h1, h | h | h⟩
        · exact Or.inl h
        · exact absurd h h1
        · exact Or.inr h
  · intro b' hb'
    rw [load_store_other _ _ _ _ (by
      rcases hown with h | ⟨c, hc, _⟩
      · rw [h]; intro e; cases e; exact hb' rfl
      · rw [hc]; intro e; cases e),
      load_store_other _ _ _ _ (by intro e; cases e)]
  · intro a h2
    rw [store_mem_other _ _ _ _ (by
      rcases hown with h | ⟨c, hc, _, hkc⟩
      · rw [h]; intro e; cases e
      · rw [hc]; intro e; cases e
        exact h2 (List.mem_append_left _ hkc)),
      store_mem_other _ _ _ _ (by
        intro e; cases e
        exact h2 (by rw [hcurk]; exact List.mem_append_right _ (List.mem_cons_self _ _)))]

end MagedMichael
end concurrent_data_structures

namespace concurrent_data_structures
namespace MagedMichael

/-! ### The set operations refine a mathematical set -/

theorem chain_length_le_card {KT : KeyTraits} {s : State} {m : Finset Nat} {b : Nat}
    {ks : List Nat} (hs : ks.Pairwise (fun a b => a < b))
    (hmem : ∀ k, k ∈ ks ↔ (k ∈ m ∧ KT.hash k &&& (s.m_table.length - 1) = b)) :
    ks.length ≤ m.card := by
  have hnd : ks.Nodup := hs.imp (fun h => Nat.ne_of_lt h)
  rw [← List.toFinset_card_of_nodup hnd]
  apply Finset.card_le_card
  intro x hx
  rw [List.mem_toFinset] at hx
  exact ((hmem x).1 hx).1

theorem bucket_lt (KT : KeyTraits) {s : State} {p : Nat} (hp : s.m_table.length = 2 ^ p)
    (k : Nat) : KT.hash k &&& (s.m_table.length - 1) < s.m_table.length := by
  rw [TransactionalRobinHoodSet.mask_eq_mod hp]
  exact Nat.mod_lt _ (TransactionalRobinHoodSet.size_pos_of_pow hp)

theorem contains_refines (KT : KeyTraits) (fuel : Nat) (s : State) (m : Finset Nat) (k : Nat)
    (hrep : Represents KT s m) (hfuel : m.card < fuel) :
    contains KT fuel s k = some (decide (k ∈ m), s) := by
  obtain ⟨⟨p, hp⟩, _, _, hbuckets⟩ := hrep
  obtain ⟨ks, hchain, hs, hmem⟩ := hbuckets _ (bucket_lt KT hp k)
  unfold contains
  simp only
  rw [find_chain k _ fuel s s.brk ks hchain hs
    (lt_of_le_of_lt (chain_length_le_card hs hmem) hfuel)]
  have : k ∈ ks ↔ k ∈ m := by rw [hmem]; exact ⟨fun h => h.1, fun h => ⟨h, rfl⟩⟩
  simp only [this]

theorem add_refines (KT : KeyTraits) (fuel : Nat) (s : State) (m : Finset Nat) (k : Nat)
    (hrep : Represents KT s m) (hfuel : m.card < fuel) :
    ∃ s', add KT fuel s k = some (decide (k ∉ m), s') ∧ Represents KT s' (insert k m) := by
  obtain ⟨⟨p, hp⟩, hbe, hb0, hbuckets⟩ := hrep
  have hfuel1 : ∃ n, fuel = n + 1 := ⟨fuel - 1, by omega⟩
  obtain ⟨n, hn⟩ := hfuel1
  have hi := bucket_lt KT hp k
  -- the state after the allocation of the new cell
  have hchains0 : ∀ b < s.m_table.length, ∃ ks,
      Chain (Function.update s.mem s.brk { key := k, next := (s.mem s.brk).next })
        (s.brk + 16) (s.m_table.getD b 0) ks ∧
      ks.Pairwise (fun a b => a < b) ∧
      ∀ k', k' ∈ ks ↔ (k' ∈ m ∧ KT.hash k' &&& (s.m_table.length - 1) = b) := by
    intro b hb
    obtain ⟨ks, hchain, hs, hmem⟩ := hbuckets b hb
    refine ⟨ks, chain_mono (by omega) ks _ (chain_frame ks _ hchain ?_), hs, hmem⟩
    intro a ha _
    rw [Function.update_noteq (by omega)]
  obtain ⟨ks, hchain, hs, hmem⟩ := hchains0 _ hi
  have hlen := lt_of_le_of_lt (chain_length_le_card hs hmem) hfuel
  have hkm : k ∈ ks ↔ k ∈ m := by rw [hmem]; exact ⟨fun h => h.1, fun h => ⟨h, rfl⟩⟩
  unfold add
  simp only
  by_cases hk : k ∈ m
  · rw [hn, list_add_found _ k _ (n + 1) n _ (s.brk + 16) ks hchain hs (by omega) (hkm.2 hk)]
    refine ⟨{ s with brk := s.brk + 16,
                     mem := Function.update s.mem s.brk
                       { key := k, next := (s.mem s.brk).next } },
      by simp [hk], ⟨p, hp⟩, by simp only; omega, by simp only; omega, ?_⟩
    rw [Finset.insert_eq_of_mem hk]
    exact hchains0
  · obtain ⟨s', hrun, hbrk, hlen', ⟨ks', hchain', hs', hmem'⟩, hheads, hframe⟩ :=
      list_add_absent s.brk k (KT.hash k &&& (s.m_table.length - 1)) (n + 1) n
        { s with brk := s.brk + 16,
                 mem := Function.update s.mem s.brk { key := k, next := (s.mem s.brk).next } }
        (s.brk + 16) ks hi hchain hs (by omega) (fun h => hk (hkm.1 h))
        (by omega) hbe (by omega) (by simp)
    rw [hn, hrun]
    refine ⟨s', by simp [hk], ⟨p, by rw [hlen']; exact hp⟩, by rw [hbrk]; simp only; omega,
      by rw [hbrk]; simp only; omega, ?_⟩
    intro b hb
    rw [hlen'] at hb ⊢
    simp only at hb ⊢
    rw [hbrk]
    by_cases hbi : b = KT.hash k &&& (s.m_table.length - 1)
    · subst hbi
      refine ⟨ks', hchain', hs', ?_⟩
      intro k'
      rw [hmem' k', hmem k', Finset.mem_insert]
      constructor
      · rintro (h | h)
        · subst h; exact ⟨Or.inl rfl, rfl⟩
        · exact ⟨Or.inr h.1, h.2⟩
      · rintro ⟨h | h, h2⟩
        · exact Or.inl h
        · exact Or.inr ⟨h, h2⟩
    · obtain ⟨ksb, hchainb, hsb, hmemb⟩ := hchains0 b hb
      refine ⟨ksb, ?_, hsb, ?_⟩
      · have hh := hheads b hbi
        simp only [load] at hh
        rw [hh]
        refine chain_frame ksb _ hchainb ?_
        intro a _ hka
        refine hframe a ?_ ?_
        · intro e
          simp only at e
          rw [e] at hka
          exact hbi ((hmemb k).1 hka).2.symm
        · intro hka2
          simp only at hka2
          have h1 := ((hmemb _).1 hka).2
          have h2 := ((hmem _).1 hka2).2
          exact hbi (h1.symm.trans h2)
      · intro k'
        rw [hmemb k', Finset.mem_insert]
        constructor
        · rintro ⟨h1, h2⟩; exact ⟨Or.inr h1, h2⟩
        · rintro ⟨h | h, h2⟩
          · subst h; exact absurd h2.symm hbi
          · exact ⟨h, h2⟩

theorem remove_refines (KT : KeyTraits) (fuel : Nat) (s : State) (m : Finset Nat) (k : Nat)
    (hrep : Represents KT s m) (hfuel : m.card < fuel) :
    ∃ s', remove KT fuel s k = some (decide (k ∈ m), s') ∧ Represents KT s' (m.erase k) := by
  obtain ⟨⟨p, hp⟩, hbe, hb0, hbuckets⟩ := hrep
  have hfuel1 : ∃ n, fuel = n + 1 := ⟨fuel - 1, by omega⟩
  obtain ⟨n, hn⟩ := hfuel1
  have hi := bucket_lt KT hp k
  obtain ⟨ks, hchain, hs, hmem⟩ := hbuckets _ hi
  have hlen := lt_of_le_of_lt (chain_length_le_card hs hmem) hfuel
  have hkm : k ∈ ks ↔ k ∈ m := by rw [hmem]; exact ⟨fun h => h.1, fun h => ⟨h, rfl⟩⟩
  unfold remove
  simp only
  by_cases hk : k ∈ m
  · obtain ⟨s', hrun, hbrk, hlen', ⟨ks', hchain', hs', hmem'⟩, hheads, hframe⟩ :=
      list_remove_found k (KT.hash k &&& (s.m_table.length - 1)) (n + 1) n s s.brk ks hi
        hchain hs (by omega) (hkm.2 hk)
    rw [hn, hrun]
    refine ⟨s', by simp [hk], ⟨p, by rw [hlen']; exact hp⟩, by rw [hbrk]; exact hbe,
      by rw [hbrk]; exact hb0, ?_⟩
    intro b hb
    rw [hlen'] at hb ⊢
    rw [hbrk]
    by_cases hbi : b = KT.hash k &&& (s.m_table.length - 1)
    · subst hbi
      refine ⟨ks', hchain', hs', ?_⟩
      intro k'
      rw [hmem' k', hmem k', Finset.mem_erase]
      tauto
    · obtain ⟨ksb, hchainb, hsb, hmemb⟩ := hbuckets b hb
      refine ⟨ksb, ?_, hsb, ?_⟩
      · have hh := hheads b hbi
        simp only [load] at hh
        rw [hh]
        refine chain_frame ksb _ hchainb ?_
        intro a _ hka
        refine hframe a ?_
        intro hka2
        have h1 := ((hmemb _).1 hka).2
        have h2 := ((hmem _).1 hka2).2
        exact hbi (h1.symm.trans h2)
      · intro k'
        rw [hmemb k', Finset.mem_erase]
        constructor
        · rintro ⟨h1, h2⟩
          refine ⟨⟨?_, h1⟩, h2⟩
          intro e; subst e; exact hbi h2.symm
        · rintro ⟨⟨_, h⟩, h2⟩
          exact ⟨h, h2⟩
  · rw [hn, list_remove_absent k _ (n + 1) n s s.brk ks hchain hs (by omega)
      (fun h => hk (hkm.1 h))]
    refine ⟨s, by simp [hk], ⟨p, hp⟩, hbe, hb0, ?_⟩
    rw [Finset.erase_eq_of_not_mem hk]
    exact hbuckets

theorem empty_represents (KT : KeyTraits) (p : Nat) : Represents KT (empty (2 ^ p)) ∅ := by
  refine ⟨⟨p, by simp [empty]⟩, by simp [empty], by simp [empty], ?_⟩
  intro b hb
  refine ⟨[], ?_, List.Pairwise.nil, by simp⟩
  simp only [empty, List.length_replicate] at hb
  simp [empty, Chain, List.getD_eq_getElem?_getD, hb]

theorem step_refines (KT : KeyTraits) (fuel : Nat) (s : State) (m : Finset Nat) (op : Op)
    (hrep : Represents KT s m) (hfuel : m.card < fuel) :
    ∃ s', step KT fuel s op = some ((set_step m op).1, s') ∧
      Represents KT s' (set_step m op).2 := by
  cases op with
  | contains k => exact ⟨s, contains_refines KT fuel s m k hrep hfuel, hrep⟩
  | add k => exact add_refines KT fuel s m k hrep hfuel
  | remove k => exact remove_refines KT fuel s m k hrep hfuel

theorem set_step_card (m : Finset Nat) (op : Op) : (set_step m op).2.card ≤ m.card + 1 := by
  cases op with
  | contains k => simp [set_step]
  | add k => exact Finset.card_insert_le k m
  | remove k => exact le_trans (Finset.card_erase_le) (Nat.le_succ _)

theorem run_refines (KT : KeyTraits) (fuel : Nat) :
    ∀ (ops : List Op) (s : State) (m : Finset Nat), Represents KT s m →
      m.card + ops.length < fuel → run KT fuel s ops = some (set_run m ops) := by
  intro ops
  induction ops with
  | nil => intro s m _ _; rfl
  | cons op ops ih =>
    intro s m hrep hfuel
    simp only [List.length_cons] at hfuel
    obtain ⟨s', hstep, hrep'⟩ := step_refines KT fuel s m op hrep (by omega)
    have hcard := set_step_card m op
    simp only [run, hstep, set_run]
    rw [ih s' _ hrep' (by omega)]

end MagedMichael
end concurrent_data_structures

namespace concurrent_data_structures
namespace MagedMichael

/-- C6: started on the empty Maged-Michael set, every sequence of `contains`/`add`/`remove`
calls of one thread returns, and the returned booleans are those of the same calls on a
mathematical set; in particular `add(k)` twice returns `(true, false)`, and after it
`remove(k)` twice returns `(true, false)`. -/
theorem run_eq_set_run (KT : KeyTraits) (p : Nat) (ops : List Op) (fuel : Nat)
    (hfuel : ops.length < fuel) :
    run KT fuel (empty (2 ^ p)) ops = some (set_run ∅ ops) ∧
    ∀ k, run KT (fuel + 4) (empty (2 ^ p)) [Op.add k, Op.add k] = some [true, false] ∧
      run KT (fuel + 4) (empty (2 ^ p)) [Op.add k, Op.add k, Op.remove k, Op.remove k] =
        some [true, false, true, false] := by
  refine ⟨run_refines KT fuel ops _ ∅ (empty_represents KT p) (by simpa using hfuel), ?_⟩
  intro k
  constructor
  · rw [run_refines KT (fuel + 4) _ _ ∅ (empty_represents KT p)
      (by simp only [Finset.card_empty, List.length_cons, List.length_nil]; omega)]
    simp [set_run, set_step]
  · rw [run_refines KT (fuel + 4) _ _ ∅ (empty_represents KT p)
      (by simp only [Finset.card_empty, List.length_cons, List.length_nil]; omega)]
    simp [set_run, set_step]

theorem run_eq_set_run_witness :
    run idTraits 7 (empty (2 ^ 4))
        [Op.add 7, Op.add 7, Op.contains 7, Op.remove 7, Op.contains 7, Op.remove 7] =
      some (set_run ∅
        [Op.add 7, Op.add 7, Op.contains 7, Op.remove 7, Op.contains 7, Op.remove 7]) :=
  (run_eq_set_run idTraits 4
    [Op.add 7, Op.add 7, Op.contains 7, Op.remove 7, Op.contains 7, Op.remove 7] 7
    (by decide)).1

end MagedMichael
end concurrent_data_structures

namespace concurrent_data_structures
namespace LockFreeLinearProbingNodeSet

open TransactionalRobinHoodSet (mask_eq_mod size_pos_of_pow succ_mod_eq getD_set_self
  getD_set_other)

/-! ### Lock-free linear probing: tagged pointers -/

theorem flag_even {c : Nat} (h : c % 2 = 0) : Cell.flag c = c + 1 := by
  unfold Cell.flag
  apply Nat.eq_of_testBit_eq
  intro i
  rw [Nat.testBit_or]
  cases i with
  | zero =>
    simp only [Nat.testBit_zero]
    have : (c + 1) % 2 = 1 := by omega
    simp [h, this]
  | succ i =>
    simp only [Nat.testBit_succ]
    have : (c + 1) / 2 = c / 2 := by omega
    rw [this]
    simp

theorem is_flagged_iff (x : Nat) : Cell.is_flagged x = true ↔ x % 2 = 1 := by
  unfold Cell.is_flagged
  rw [Nat.and_one_is_mod]
  simp

theorem is_flagged_false_iff (x : Nat) : Cell.is_flagged x = false ↔ x % 2 = 0 := by
  unfold Cell.is_flagged
  rw [Nat.and_one_is_mod]
  have := Nat.mod_two_eq_zero_or_one x
  rcases this with h | h <;> simp [h]

theorem get_ptr_unflagged {x : Nat} (h : x % 2 = 0) : Cell.get_ptr x = x := by
  unfold Cell.get_ptr; omega

theorem get_ptr_succ_even {x : Nat} (h : x % 2 = 0) : Cell.get_ptr (x + 1) = x := by
  unfold Cell.get_ptr; omega

theorem mask_mod_self {t : List Nat} {p : Nat} (hp : t.length = 2 ^ p) {i a : Nat}
    (hi : i % t.length = a % t.length) : i &&& (t.length - 1) = a % t.length := by
  rw [mask_eq_mod hp, hi]

theorem next_slot (n a d : Nat) :
    ((a + d) % n + 1) % n = (a + (d + 1)) % n :=
  succ_mod_eq (Nat.mod_mod _ _)

theorem slot_ne {n a d e : Nat} (hd : d < n) (he : e < n) (hne : d ≠ e) :
    (a + d) % n ≠ (a + e) % n := by
  intro h
  have h1 : (a + d) % n = (a % n + d) % n := by rw [Nat.add_mod, Nat.mod_eq_of_lt hd]
  have h2 : (a + e) % n = (a % n + e) % n := by rw [Nat.add_mod, Nat.mod_eq_of_lt he]
  rw [h1, h2] at h
  have ha : a % n < n := Nat.mod_lt _ (by omega)
  rcases TransactionalRobinHoodSet.add_mod_cases (show a % n + d < n + n by omega)
    with ⟨_, e1⟩ | ⟨_, e1⟩ <;>
  rcases TransactionalRobinHoodSet.add_mod_cases (show a % n + e < n + n by omega)
    with ⟨_, e2⟩ | ⟨_, e2⟩ <;> omega

end LockFreeLinearProbingNodeSet
end concurrent_data_structures

namespace concurrent_data_structures
namespace LockFreeLinearProbingNodeSet

open TransactionalRobinHoodSet (mask_eq_mod size_pos_of_pow succ_mod_eq getD_set_self
  getD_set_other)

/-! ### add of an absent key: the tentative cell is committed -/

/-- The scan of `upgrade` over a table whose only tentative cell is the cell `c` just
published at distance `ds`, with no committed cell for the key and a null slot further on:
the cell is committed in place and its pointer is returned. -/
theorem upgrade_commits (k c h0 ds p : Nat) (s1 : State)
    (hp : s1.m_table.length = 2 ^ p)
    (hc : c % 2 = 0) (htomb : s1.TOMBSTONE % 2 = 0) (hkey : s1.key c = k)
    (hds : ds < s1.m_table.length)
    (hslot : s1.m_table.getD ((h0 + ds) % s1.m_table.length) 0 = c + 1)
    (hother : ∀ d < s1.m_table.length, d ≠ ds →
      s1.m_table.getD ((h0 + d) % s1.m_table.length) 0 % 2 = 0 ∧
      (s1.m_table.getD ((h0 + d) % s1.m_table.length) 0 ≠ 0 →
        s1.m_table.getD ((h0 + d) % s1.m_table.length) 0 ≠ s1.TOMBSTONE →
        s1.key (s1.m_table.getD ((h0 + d) % s1.m_table.length) 0) ≠ k)) :
    ∀ (fuel d i : Nat) (v : UpgradeVars),
      i % s1.m_table.length = (h0 + d) % s1.m_table.length →
      ((d ≤ ds ∧ v = { found_non_flagged := false, found_closest_flagged := false,
                       closest_flagged_slot := 0, actual_cell := s1.TOMBSTONE }) ∨
       (ds < d ∧ v = { found_non_flagged := false, found_closest_flagged := true,
                       closest_flagged_slot := (h0 + ds) % s1.m_table.length,
                       actual_cell := c + 1 })) →
      (∃ m, m < fuel ∧ ds < d + m ∧ d + m < s1.m_table.length ∧
        s1.m_table.getD ((h0 + (d + m)) % s1.m_table.length) 0 = 0) →
      upgrade_loop k fuel s1 i v =
        some (c, { s1 with m_table := s1.m_table.set ((h0 + ds) % s1.m_table.length) c }) := by
  intro fuel
  induction fuel with
  | zero => intro d i v _ _ ⟨m, hm, _⟩; omega
  | succ fuel ih =>
    intro d i v hi hphase ⟨m, hm, hm1, hm2, hnull⟩
    have hnext := next_slot s1.m_table.length h0 d
    simp only [upgrade_loop]
    rw [mask_eq_mod hp, hi]
    by_cases hdd : d = ds
    · -- the tentative cell itself
      subst hdd
      rcases hphase with ⟨_, hv⟩ | ⟨h, _⟩
      swap
      · omega
      subst hv
      have hm0 : m ≠ 0 := by omega
      rw [hslot]
      rw [if_neg (by omega), if_neg (by omega),
        if_pos ((is_flagged_iff _).2 (by omega)), get_ptr_succ_even hc, if_pos hkey]
      simp only [Bool.false_eq_true, if_false, Bool.not_false, if_true]
      exact ih (d + 1) _ _ hnext (Or.inr ⟨by omega, rfl⟩)
        ⟨m - 1, by omega, by omega, by omega, by
          have : d + 1 + (m - 1) = d + m := by omega
          rw [this]; exact hnull⟩
    · obtain ⟨heven, hkeys⟩ := hother d (by omega) hdd
      by_cases hx0 : s1.m_table.getD ((h0 + d) % s1.m_table.length) 0 = 0
      · rw [if_pos hx0]
        rcases hphase with ⟨hle, hv⟩ | ⟨hlt, hv⟩
        · subst hv
          have hm0 : m ≠ 0 := by omega
          simp only [Bool.false_eq_true, if_false]
          exact ih (d + 1) _ _ hnext (Or.inl ⟨by omega, rfl⟩)
            ⟨m - 1, by omega, by omega, by omega, by
              have : d + 1 + (m - 1) = d + m := by omega
              rw [this]; exact hnull⟩
        · subst hv
          simp only [Bool.false_eq_true, if_false, if_true]
          rw [hslot, get_ptr_succ_even hc, if_neg (by omega)]
          simp only [ne_eq, not_true_eq_false, if_false]
          have hcas : compare_exchange_weak s1 ((h0 + ds) % s1.m_table.length) (c + 1) c =
              (true, c + 1,
                { s1 with m_table := s1.m_table.set ((h0 + ds) % s1.m_table.length) c }) := by
            unfold compare_exchange_weak
            rw [if_pos hslot]
          simp only [hcas]
      · rw [if_neg hx0]
        have hm0 : m ≠ 0 := by
          intro h0'; subst h0'; exact hx0 hnull
        have hrest : ∃ m', m' < fuel ∧ ds < d + 1 + m' ∧ d + 1 + m' < s1.m_table.length ∧
            s1.m_table.getD ((h0 + (d + 1 + m')) % s1.m_table.length) 0 = 0 :=
          ⟨m - 1, by omega, by omega, by omega, by
            have : d + 1 + (m - 1) = d + m := by omega
            rw [this]; exact hnull⟩
        have hphase' : (d + 1 ≤ ds ∧ v = ⟨false, false, 0, s1.TOMBSTONE⟩) ∨
            (ds < d + 1 ∧ v = ⟨false, true, (h0 + ds) % s1.m_table.length, c + 1⟩) := by
          rcases hphase with ⟨hle, hv⟩ | ⟨hlt, hv⟩
          · exact Or.inl ⟨by omega, hv⟩
          · exact Or.inr ⟨by omega, hv⟩
        by_cases hxt : s1.m_table.getD ((h0 + d) % s1.m_table.length) 0 = s1.TOMBSTONE
        · rw [if_pos hxt]
          exact ih (d + 1) _ _ hnext hphase' hrest
        · rw [if_neg hxt, (is_flagged_false_iff _).2 heven]
          simp only [Bool.false_eq_true, if_false]
          rw [if_neg (hkeys hx0 hxt)]
          exact ih (d + 1) _ _ hnext hphase' hrest

end LockFreeLinearProbingNodeSet
end concurrent_data_structures

namespace concurrent_data_structures
namespace LockFreeLinearProbingNodeSet

open TransactionalRobinHoodSet (mask_eq_mod size_pos_of_pow succ_mod_eq getD_set_self
  getD_set_other)

/-- The probe of `add` up to the first null or tombstone slot at distance `ds`, where the
tentative cell is published and `upgrade` is run. -/
theorem add_loop_publishes (k c h0 ufuel ds p : Nat) (s0 : State)
    (hp : s0.m_table.length = 2 ^ p)
    (hbefore : ∀ d < ds,
      s0.m_table.getD ((h0 + d) % s0.m_table.length) 0 ≠ 0 ∧
      s0.m_table.getD ((h0 + d) % s0.m_table.length) 0 ≠ s0.TOMBSTONE ∧
      s0.key (Cell.get_ptr (s0.m_table.getD ((h0 + d) % s0.m_table.length) 0)) ≠ k)
    (hs : s0.m_table.getD ((h0 + ds) % s0.m_table.length) 0 = 0 ∨
      s0.m_table.getD ((h0 + ds) % s0.m_table.length) 0 = s0.TOMBSTONE) :
    ∀ (fuel d i : Nat), i % s0.m_table.length = (h0 + d) % s0.m_table.length →
      d ≤ ds → ds - d < fuel →
      add_loop k c h0 ufuel fuel s0 i =
        match upgrade ufuel
          { s0 with m_table := s0.m_table.set ((h0 + ds) % s0.m_table.length) (Cell.flag c) }
          h0 k with
        | none => none
        | some (cc, s'') =>
          if cc = s''.TOMBSTONE then some (true, s'') else some (decide (cc = c), s'') := by
  intro fuel
  induction fuel with
  | zero => intro d i _ _ h; omega
  | succ fuel ih =>
    intro d i hi hd hfuel
    simp only [add_loop]
    rw [mask_eq_mod hp, hi]
    rcases Nat.lt_or_ge d ds with hlt | hge
    · obtain ⟨h1, h2, h3⟩ := hbefore d hlt
      rw [if_neg (by rintro (h | h); exact h1 h; exact h2 h), if_neg h3]
      exact ih (d + 1) _ (next_slot _ h0 d) (by omega) (by omega)
    · have hdd : d = ds := by omega
      subst hdd
      rw [if_pos hs]
      have hcas : compare_exchange_weak s0 ((h0 + d) % s0.m_table.length)
          (s0.m_table.getD ((h0 + d) % s0.m_table.length) 0) (Cell.flag c) =
          (true, s0.m_table.getD ((h0 + d) % s0.m_table.length) 0,
            { s0 with m_table :=
                s0.m_table.set ((h0 + d) % s0.m_table.length) (Cell.flag c) }) := by
        unfold compare_exchange_weak
        exact if_pos rfl
      simp only [hcas]

/-- A scan of `upgrade` never returns on a table without null slot and without tentative
cell. -/
theorem upgrade_loop_no_null (k p : Nat) :
    ∀ (fuel : Nat) (s : State) (i : Nat) (v : UpgradeVars),
      s.m_table.length = 2 ^ p → s.TOMBSTONE ≠ 0 → s.TOMBSTONE % 2 = 0 →
      (∀ j < s.m_table.length, s.m_table.getD j 0 ≠ 0 ∧ s.m_table.getD j 0 % 2 = 0) →
      upgrade_loop k fuel s i v = none := by
  intro fuel
  induction fuel with
  | zero => intro s i v _ _ _ _; rfl
  | succ fuel ih =>
    intro s i v hp ht0 hte hall
    have hi : i &&& (s.m_table.length - 1) < s.m_table.length := by
      rw [mask_eq_mod hp]; exact Nat.mod_lt _ (size_pos_of_pow hp)
    obtain ⟨hx0, hxe⟩ := hall _ hi
    have hset : ∀ (j : Nat), (s.m_table.set j s.TOMBSTONE).length = 2 ^ p ∧
        ∀ j' < (s.m_table.set j s.TOMBSTONE).length,
          (s.m_table.set j s.TOMBSTONE).getD j' 0 ≠ 0 ∧
          (s.m_table.set j s.TOMBSTONE).getD j' 0 % 2 = 0 := by
      intro j
      refine ⟨by rw [List.length_set]; exact hp, ?_⟩
      intro j' hj'
      rw [List.length_set] at hj'
      by_cases hjj : j = j'
      · subst hjj; rw [getD_set_self hj']; exact ⟨ht0, hte⟩
      · rw [getD_set_other hjj]; exact hall j' hj'
    simp only [upgrade_loop]
    rw [if_neg hx0]
    split_ifs
    all_goals first
      | exact ih _ _ _ hp ht0 hte hall
      | (simp only [compare_exchange_weak]
         split_ifs
         all_goals first
           | exact ih _ _ _ hp ht0 hte hall
           | exact ih _ _ _ (hset _).1 ht0 hte (hset _).2)
      | (exfalso
         have := (is_flagged_false_iff (s.m_table.getD (i &&& (s.m_table.length - 1)) 0)).2 hxe
         simp_all)

end LockFreeLinearProbingNodeSet
end concurrent_data_structures

namespace concurrent_data_structures
namespace LockFreeLinearProbingNodeSet

open TransactionalRobinHoodSet (mask_eq_mod size_pos_of_pow succ_mod_eq getD_set_self
  getD_set_other)

theorem upgrade_wipes_last_null (fuel : Nat) :
    upgrade_loop 4 fuel
      { key := Function.update (fun a => a / 16) 64 4, m_table := [65, 16, 32, 48],
        TOMBSTONE := 4096, retired := [] } 0
      { found_non_flagged := false, found_closest_flagged := false, closest_flagged_slot := 0,
        actual_cell := 4096 } = none := by
  rcases fuel with _ | _ | _ | _ | _ | n
  · rfl
  · rfl
  · rfl
  · rfl
  · rfl
  · have h : upgrade_loop 4 (n + 5)
        { key := Function.update (fun a => a / 16) 64 4, m_table := [65, 16, 32, 48],
          TOMBSTONE := 4096, retired := [] } 0
        { found_non_flagged := false, found_closest_flagged := false,
          closest_flagged_slot := 0, actual_cell := 4096 } =
        upgrade_loop 4 n
          { key := Function.update (fun a => a / 16) 64 4, m_table := [4096, 16, 32, 48],
            TOMBSTONE := 4096, retired := [64] } 1
          { found_non_flagged := false, found_closest_flagged := true,
            closest_flagged_slot := 0, actual_cell := 65 } := rfl
    rw [h]
    exact upgrade_loop_no_null 4 2 n _ _ _ rfl (by decide) (by decide) (by decide)

/-- C8 (as stated, refuted): the table `[null, 16, 32, 48]` (4 slots, `h(k) = k`, the cell at
address `16 j` holds key `j`) has no tentative cell, one null slot and no committed cell with
key 4; `add(4)` publishes its cell in slot 0, the only null slot, and `upgrade` then finds no
null slot at which to commit: it withdraws the cell and scans forever, so `add` returns for
no number of iterations. -/
theorem add_never_returns_on_last_null :
    (exampleState [0, 16, 32, 48]).m_table.length = 2 ^ 2 ∧
    NoTentative (exampleState [0, 16, 32, 48]) ∧
    (∃ i < 4, (exampleState [0, 16, 32, 48]).m_table.getD i 0 = 0) ∧
    (∀ i < 4, ¬ CommittedKey (exampleState [0, 16, 32, 48]) i 4) ∧
    ¬ ∃ fuel r, add idTraits fuel (exampleState [0, 16, 32, 48]) 64 4 = some r := by
  refine ⟨rfl, by decide, by decide, by decide, ?_⟩
  rintro ⟨fuel, r, h⟩
  rcases fuel with _ | n
  · simp [add, add_loop] at h
  · have hpub := add_loop_publishes 4 64 0 (n + 1) 0 2
      { key := Function.update (fun a => a / 16) 64 4, m_table := [0, 16, 32, 48],
        TOMBSTONE := 4096, retired := [] } rfl
      (fun d hd => absurd hd (Nat.not_lt_zero d)) (Or.inl rfl) (n + 1) 0 0 rfl
      (Nat.le_refl 0) (by omega)
    have hup : upgrade (n + 1)
        { key := Function.update (fun a => a / 16) 64 4,
          m_table := [0, 16, 32, 48].set ((0 + 0) % 4) (Cell.flag 64),
          TOMBSTONE := 4096, retired := [] } 0 4 = none :=
      upgrade_wipes_last_null (n + 1)
    have hadd : add idTraits (n + 1) (exampleState [0, 16, 32, 48]) 64 4 = none := by
      have : add idTraits (n + 1) (exampleState [0, 16, 32, 48]) 64 4 =
          add_loop 4 64 0 (n + 1) (n + 1)
            { key := Function.update (fun a => a / 16) 64 4, m_table := [0, 16, 32, 48],
              TOMBSTONE := 4096, retired := [] } 0 := rfl
      rw [this, hpub]
      simp only [List.length_cons, List.length_nil] at hup ⊢
      rw [hup]
    rw [hadd] at h
    cases h

/-- C8 (amended): on a table with no tentative cell and no committed cell with key `k`, in
which a null slot lies on the probe path beyond the first null or tombstone slot, `add(k)`
returns true; afterwards that first null or tombstone slot holds the committed cell of `k`,
every other slot is unchanged and no slot holds a tentative cell. -/
theorem add_commits_absent_key (KT : KeyTraits) (s : State) (c k p fuel ds dz : Nat)
    (hp : s.m_table.length = 2 ^ p) (htomb : s.TOMBSTONE % 2 = 0) (hnt : NoTentative s)
    (habs : ∀ i < s.m_table.length, ¬ CommittedKey s i k)
    (hc0 : c ≠ 0) (hce : c % 2 = 0) (hct : c ≠ s.TOMBSTONE)
    (hfresh : ∀ i < s.m_table.length, s.m_table.getD i 0 ≠ c)
    (hbefore : ∀ d < ds, s.m_table.getD (probe KT s k d) 0 ≠ 0 ∧
      s.m_table.getD (probe KT s k d) 0 ≠ s.TOMBSTONE)
    (hs : s.m_table.getD (probe KT s k ds) 0 = 0 ∨
      s.m_table.getD (probe KT s k ds) 0 = s.TOMBSTONE)
    (hds : ds < dz) (hdz : dz < s.m_table.length)
    (hz : s.m_table.getD (probe KT s k dz) 0 = 0)
    (hfuel : s.m_table.length ≤ fuel) :
    ∃ s', add KT fuel s c k = some (true, s') ∧
      s'.m_table = s.m_table.set (probe KT s k ds) c ∧
      CommittedKey s' (probe KT s k ds) k ∧ NoTentative s' ∧ s'.retired = s.retired := by
  have hN := size_pos_of_pow hp
  have hslot_lt : ∀ d, probe KT s k d < s.m_table.length := fun d => Nat.mod_lt _ hN
  have hkey_other : ∀ i < s.m_table.length,
      Function.update s.key c k (s.m_table.getD i 0) = s.key (s.m_table.getD i 0) :=
    fun i hi => Function.update_noteq (hfresh i hi) _ _
  have hpub := add_loop_publishes k c (home KT s k) fuel ds p
    { s with key := Function.update s.key c k } hp
    (by
      intro d hd
      obtain ⟨h1, h2⟩ := hbefore d hd
      refine ⟨h1, h2, ?_⟩
      have he := (is_flagged_false_iff _).1 (hnt _ (hslot_lt d))
      show Function.update s.key c k (Cell.get_ptr (s.m_table.getD (probe KT s k d) 0)) ≠ k
      rw [get_ptr_unflagged he, hkey_other _ (hslot_lt d)]
      intro hk
      exact habs _ (hslot_lt d) ⟨h1, h2, hnt _ (hslot_lt d), hk⟩)
    hs fuel 0 (home KT s k) rfl (Nat.zero_le _) (by omega)
  have hother : ∀ d < s.m_table.length, d ≠ ds →
      (s.m_table.set (probe KT s k ds) (Cell.flag c)).getD
        ((home KT s k + d) % s.m_table.length) 0 % 2 = 0 ∧
      ((s.m_table.set (probe KT s k ds) (Cell.flag c)).getD
        ((home KT s k + d) % s.m_table.length) 0 ≠ 0 →
       (s.m_table.set (probe KT s k ds) (Cell.flag c)).getD
        ((home KT s k + d) % s.m_table.length) 0 ≠ s.TOMBSTONE →
       Function.update s.key c k ((s.m_table.set (probe KT s k ds) (Cell.flag c)).getD
        ((home KT s k + d) % s.m_table.length) 0) ≠ k) := by
    intro d hd hne
    have hsl : probe KT s k ds ≠ (home KT s k + d) % s.m_table.length :=
      slot_ne (by omega) hd (fun e => hne e.symm)
    rw [getD_set_other hsl]
    refine ⟨(is_flagged_false_iff _).1 (hnt _ (Nat.mod_lt _ hN)), ?_⟩
    intro h1 h2 hk
    rw [hkey_other _ (Nat.mod_lt _ hN)] at hk
    exact habs _ (Nat.mod_lt _ hN) ⟨h1, h2, hnt _ (Nat.mod_lt _ hN), hk⟩
  have hup := upgrade_commits k c (home KT s k) ds p
    { s with key := Function.update s.key c k,
             m_table := s.m_table.set (probe KT s k ds) (Cell.flag c) }
    (by simp only [List.length_set]; exact hp) hce htomb
    (by simp only [Function.update_same])
    (by simp only [List.length_set]; omega)
    (by
      simp only [List.length_set]
      rw [flag_even hce]
      exact getD_set_self (hslot_lt ds) _)
    (by
      intro d hd hne
      simp only [List.length_set] at hd ⊢
      rw [List.length_set]
      exact hother d hd hne)
    fuel 0 (home KT s k) ⟨false, false, 0, s.TOMBSTONE⟩
    (by simp only [List.length_set, Nat.add_zero])
    (Or.inl ⟨Nat.zero_le _, rfl⟩)
    ⟨dz, by omega, by omega, by simp only [List.length_set]; omega, by
      simp only [List.length_set, Nat.zero_add]
      have hsl : probe KT s k ds ≠ (home KT s k + dz) % s.m_table.length :=
        slot_ne (by omega) hdz (by omega)
      rw [getD_set_other hsl]
      exact hz⟩
  simp only [List.length_set] at hup
  refine ⟨{ s with key := Function.update s.key c k,
                   m_table := (s.m_table.set (probe KT s k ds) (Cell.flag c)).set
                     (probe KT s k ds) c }, ?_, ?_, ?_, ?_, rfl⟩
  · have hadd : add KT fuel s c k = add_loop k c (home KT s k) fuel fuel
        { s with key := Function.update s.key c k } (home KT s k) := rfl
    rw [hadd, hpub]
    have hup' : upgrade fuel
        { s with key := Function.update s.key c k,
                 m_table := s.m_table.set ((home KT s k + ds) % s.m_table.length)
                   (Cell.flag c) } (home KT s k) k =
        some (c, { s with key := Function.update s.key c k,
                          m_table := (s.m_table.set (probe KT s k ds) (Cell.flag c)).set
                            (probe KT s k ds) c }) := hup
    simp only [hup']
    rw [if_neg hct]
    simp
  · simp only
    rw [List.set_set]
  · have : ((s.m_table.set (probe KT s k ds) (Cell.flag c)).set (probe KT s k ds) c).getD
        (probe KT s k ds) 0 = c :=
      getD_set_self (by rw [List.length_set]; exact hslot_lt ds) _
    refine ⟨?_, ?_, ?_, ?_⟩
    · simp only; rw [this]; exact hc0
    · simp only; rw [this]; exact hct
    · simp only; rw [this]; exact (is_flagged_false_iff _).2 hce
    · simp only; rw [this]; exact Function.update_same _ _ _
  · intro i hi
    simp only [List.length_set] at hi
    simp only
    rw [List.set_set]
    by_cases hsi : probe KT s k ds = i
    · rw [← hsi, getD_set_self (hslot_lt ds)]; exact (is_flagged_false_iff _).2 hce
    · rw [getD_set_other hsi]; exact hnt i hi

theorem add_commits_absent_key_witness :
    ∃ s', add idTraits 4 (exampleState [0, 16, 0, 48]) 64 4 = some (true, s') ∧
      s'.m_table = (exampleState [0, 16, 0, 48]).m_table.set
        (probe idTraits (exampleState [0, 16, 0, 48]) 4 0) 64 ∧
      CommittedKey s' (probe idTraits (exampleState [0, 16, 0, 48]) 4 0) 4 ∧
      NoTentative s' ∧ s'.retired = (exampleState [0, 16, 0, 48]).retired :=
  add_commits_absent_key idTraits (exampleState [0, 16, 0, 48]) 64 4 2 4 0 2
    (by decide) (by decide) (by decide) (by decide) (by decide) (by decide) (by decide)
    (by decide) (by decide) (by decide) (by decide) (by decide) (by decide) (by decide)

end LockFreeLinearProbingNodeSet
end concurrent_data_structures

namespace concurrent_data_structures
namespace LockFreeLinearProbingNodeSet

open TransactionalRobinHoodSet (mask_eq_mod size_pos_of_pow succ_mod_eq getD_set_self
  getD_set_other)

/-! ### add of a present key -/

theorem set_getD_self (t : List Nat) (i : Nat) : t.set i (t.getD i 0) = t := by
  by_cases hi : i < t.length
  · apply List.ext_getElem?
    intro j
    by_cases hij : i = j
    · subst hij
      simp [List.getD_eq_getElem?_getD, hi]
    · rw [List.getElem?_set_ne hij]
  · exact List.set_eq_of_length_le (Nat.le_of_not_lt hi)

/-- The scan of `upgrade` when the tentative cell `c` was published on a tombstone at
distance `ds` and the committed cell of the key lies further on at distance `dq`, before the
first null slot: the tentative cell is withdrawn and the committed pointer is returned. -/
theorem upgrade_withdraws (k c h0 ds dq dz p : Nat) (kf : Nat → Nat) (t : List Nat)
    (tomb : Nat) (r : List Nat)
    (hp : t.length = 2 ^ p) (hc : c % 2 = 0) (htomb : tomb % 2 = 0) (hkey : kf c = k)
    (hsq : ds < dq) (hqz : dq < dz) (hzn : dz < t.length)
    (hq0 : t.getD ((h0 + dq) % t.length) 0 ≠ 0)
    (hqt : t.getD ((h0 + dq) % t.length) 0 ≠ tomb)
    (hqe : t.getD ((h0 + dq) % t.length) 0 % 2 = 0)
    (hqk : kf (t.getD ((h0 + dq) % t.length) 0) = k)
    (hnull : t.getD ((h0 + dz) % t.length) 0 = 0)
    (hother : ∀ d < dz, d ≠ dq →
      t.getD ((h0 + d) % t.length) 0 ≠ 0 ∧ t.getD ((h0 + d) % t.length) 0 % 2 = 0 ∧
      (t.getD ((h0 + d) % t.length) 0 ≠ tomb → kf (t.getD ((h0 + d) % t.length) 0) ≠ k)) :
    ∀ (fuel d i : Nat) (v : UpgradeVars) (st : State),
      i % t.length = (h0 + d) % t.length → d ≤ dz → dz - d < fuel →
      ((d ≤ ds ∧ v = ⟨false, false, 0, tomb⟩ ∧
          st = ⟨kf, t.set ((h0 + ds) % t.length) (c + 1), tomb, r⟩) ∨
       (ds < d ∧ d ≤ dq ∧ v = ⟨false, true, (h0 + ds) % t.length, c + 1⟩ ∧
          st = ⟨kf, t.set ((h0 + ds) % t.length) (c + 1), tomb, r⟩) ∨
       (dq < d ∧ v = ⟨true, false, (h0 + ds) % t.length, t.getD ((h0 + dq) % t.length) 0⟩ ∧
          st = ⟨kf, (t.set ((h0 + ds) % t.length) (c + 1)).set ((h0 + ds) % t.length) tomb,
                tomb, r ++ [c]⟩)) →
      upgrade_loop k fuel st i v =
        some (t.getD ((h0 + dq) % t.length) 0,
          ⟨kf, (t.set ((h0 + ds) % t.length) (c + 1)).set ((h0 + ds) % t.length) tomb, tomb,
            r ++ [c]⟩) := by
  have hN := size_pos_of_pow hp
  have hslot_s : (h0 + ds) % t.length < t.length := Nat.mod_lt _ hN
  have hg1 : ∀ d < t.length, d ≠ ds → ∀ v,
      (t.set ((h0 + ds) % t.length) v).getD ((h0 + d) % t.length) 0 =
        t.getD ((h0 + d) % t.length) 0 := by
    intro d hd hne v
    exact getD_set_other (slot_ne (by omega) hd (fun e => hne e.symm)) v
  have hg2 : ∀ d < t.length, d ≠ ds → ∀ v w,
      ((t.set ((h0 + ds) % t.length) v).set ((h0 + ds) % t.length) w).getD
        ((h0 + d) % t.length) 0 = t.getD ((h0 + d) % t.length) 0 := by
    intro d hd hne v w
    rw [getD_set_other (slot_ne (by omega) hd (fun e => hne e.symm)), hg1 d hd hne]
  intro fuel
  induction fuel with
  | zero => intro d i v st _ _ h; omega
  | succ fuel ih =>
    intro d i v st hi hd hfuel hphase
    have hnext := next_slot t.length h0 d
    rcases hphase with ⟨hle, hv, hst⟩ | ⟨hlt, hle, hv, hst⟩ | ⟨hlt, hv, hst⟩
    · -- before the tentative cell
      subst hv hst
      simp only [upgrade_loop, List.length_set]
      rw [mask_eq_mod hp, hi]
      by_cases hdd : d = ds
      · subst hdd
        rw [getD_set_self hslot_s]
        rw [if_neg (by omega), if_neg (by omega),
          if_pos ((is_flagged_iff _).2 (by omega)), get_ptr_succ_even hc, if_pos hkey]
        simp only [Bool.false_eq_true, if_false, Bool.not_false, if_true]
        exact ih (d + 1) _ _ _ hnext (by omega) (by omega)
          (Or.inr (Or.inl ⟨by omega, by omega, rfl, rfl⟩))
      · obtain ⟨hx0, hxe, hxk⟩ := hother d (by omega) (by omega)
        rw [hg1 d (by omega) hdd, if_neg hx0]
        have hcont := ih (d + 1) (((h0 + d) % t.length) + 1) ⟨false, false, 0, tomb⟩
          ⟨kf, t.set ((h0 + ds) % t.length) (c + 1), tomb, r⟩ hnext (by omega) (by omega)
          (Or.inl ⟨by omega, rfl, rfl⟩)
        by_cases hxt : t.getD ((h0 + d) % t.length) 0 = tomb
        · rw [if_pos hxt]; exact hcont
        · rw [if_neg hxt, (is_flagged_false_iff _).2 hxe]
          simp only [Bool.false_eq_true, if_false]
          rw [if_neg (hxk hxt)]
          exact hcont
    · -- between the tentative cell and the committed cell
      subst hv hst
      simp only [upgrade_loop, List.length_set]
      rw [mask_eq_mod hp, hi]
      by_cases hdd : d = dq
      · subst hdd
        rw [hg1 d (by omega) (by omega), if_neg hq0, if_neg hqt,
          (is_flagged_false_iff _).2 hqe]
        simp only [Bool.false_eq_true, if_false]
        rw [if_pos hqk]
        simp only [if_true]
        rw [getD_set_self hslot_s, if_neg (by omega), get_ptr_succ_even hc]
        simp only [ne_eq, hkey, not_true_eq_false, if_false]
        have hcas : compare_exchange_weak
            ⟨kf, t.set ((h0 + ds) % t.length) (c + 1), tomb, r⟩ ((h0 + ds) % t.length) (c + 1)
            tomb = (true, c + 1, ⟨kf,
              (t.set ((h0 + ds) % t.length) (c + 1)).set ((h0 + ds) % t.length) tomb,
              tomb, r⟩) := by
          unfold compare_exchange_weak
          simp only
          rw [getD_set_self hslot_s, if_pos rfl]
        simp only [hcas, retire]
        exact ih (d + 1) _ _ _ hnext (by omega) (by omega) (Or.inr (Or.inr ⟨by omega, rfl, rfl⟩))
      · obtain ⟨hx0, hxe, hxk⟩ := hother d (by omega) hdd
        rw [hg1 d (by omega) (by omega), if_neg hx0]
        have hcont := ih (d + 1) (((h0 + d) % t.length) + 1)
          ⟨false, true, (h0 + ds) % t.length, c + 1⟩
          ⟨kf, t.set ((h0 + ds) % t.length) (c + 1), tomb, r⟩ hnext (by omega) (by omega)
          (Or.inr (Or.inl ⟨by omega, by omega, rfl, rfl⟩))
        by_cases hxt : t.getD ((h0 + d) % t.length) 0 = tomb
        · rw [if_pos hxt]; exact hcont
        · rw [if_neg hxt, (is_flagged_false_iff _).2 hxe]
          simp only [Bool.false_eq_true, if_false]
          rw [if_neg (hxk hxt)]
          exact hcont
    · -- beyond the committed cell
      subst hv hst
      simp only [upgrade_loop, List.length_set]
      rw [mask_eq_mod hp, hi]
      by_cases hdd : d = dz
      · subst hdd
        rw [hg2 d hzn (by omega), if_pos hnull]
        simp only [if_true]
      · obtain ⟨hx0, hxe, hxk⟩ := hother d (by omega) (by omega)
        rw [hg2 d (by omega) (by omega), if_neg hx0]
        have hcont := ih (d + 1) (((h0 + d) % t.length) + 1)
          ⟨true, false, (h0 + ds) % t.length, t.getD ((h0 + dq) % t.length) 0⟩
          ⟨kf, (t.set ((h0 + ds) % t.length) (c + 1)).set ((h0 + ds) % t.length) tomb, tomb,
            r ++ [c]⟩ hnext (by omega) (by omega)
          (Or.inr (Or.inr ⟨by omega, rfl, rfl⟩))
        by_cases hxt : t.getD ((h0 + d) % t.length) 0 = tomb
        · rw [if_pos hxt]; exact hcont
        · rw [if_neg hxt, (is_flagged_false_iff _).2 hxe]
          simp only [Bool.false_eq_true, if_false]
          rw [if_neg (hxk hxt)]
          exact hcont

/-- The probe of `add` when it meets the committed cell of the key before any null or
tombstone slot. -/
theorem add_loop_finds (k c h0 ufuel dq p : Nat) (s0 : State)
    (hp : s0.m_table.length = 2 ^ p)
    (hbefore : ∀ d < dq,
      s0.m_table.getD ((h0 + d) % s0.m_table.length) 0 ≠ 0 ∧
      s0.m_table.getD ((h0 + d) % s0.m_table.length) 0 ≠ s0.TOMBSTONE ∧
      s0.key (Cell.get_ptr (s0.m_table.getD ((h0 + d) % s0.m_table.length) 0)) ≠ k)
    (hq0 : s0.m_table.getD ((h0 + dq) % s0.m_table.length) 0 ≠ 0)
    (hqt : s0.m_table.getD ((h0 + dq) % s0.m_table.length) 0 ≠ s0.TOMBSTONE)
    (hqf : Cell.is_flagged (s0.m_table.getD ((h0 + dq) % s0.m_table.length) 0) = false)
    (hqk : s0.key (Cell.get_ptr (s0.m_table.getD ((h0 + dq) % s0.m_table.length) 0)) = k) :
    ∀ (fuel d i : Nat), i % s0.m_table.length = (h0 + d) % s0.m_table.length →
      d ≤ dq → dq - d < fuel →
      add_loop k c h0 ufuel fuel s0 i = some (false, s0) := by
  intro fuel
  induction fuel with
  | zero => intro d i _ _ h; omega
  | succ fuel ih =>
    intro d i hi hd hfuel
    simp only [add_loop]
    rw [mask_eq_mod hp, hi]
    rcases Nat.lt_or_ge d dq with hlt | hge
    · obtain ⟨h1, h2, h3⟩ := hbefore d hlt
      rw [if_neg (by rintro (h | h); exact h1 h; exact h2 h), if_neg h3]
      exact ih (d + 1) _ (next_slot _ h0 d) (by omega) (by omega)
    · have hdd : d = dq := by omega
      subst hdd
      rw [if_neg (by rintro (h | h); exact hq0 h; exact hqt h), if_pos hqk, hqf]
      simp

end LockFreeLinearProbingNodeSet
end concurrent_data_structures

namespace concurrent_data_structures
namespace LockFreeLinearProbingNodeSet

open TransactionalRobinHoodSet (mask_eq_mod size_pos_of_pow succ_mod_eq getD_set_self
  getD_set_other)

theorem committed_congr {s s' : State} (k : Nat) (ht : s'.m_table = s.m_table)
    (htomb : s'.TOMBSTONE = s.TOMBSTONE)
    (hkey : ∀ i < s.m_table.length, s'.key (s.m_table.getD i 0) = s.key (s.m_table.getD i 0))
    (i : Nat) (hi : i < s.m_table.length) : CommittedKey s' i k ↔ CommittedKey s i k := by
  unfold CommittedKey
  rw [ht, htomb, hkey i hi]

/-- C9 (as stated, refuted): the table `[64, 72, null, 48]` (4 slots, `h(k) = k`, the cells at
addresses 64 and 72 both hold key 4) has no tentative cell and a committed cell with key 4 on
the probe path before the first null slot; `add(4)` returns false and leaves every slot as it
was, and the table then holds two committed cells for key 4, not exactly one. -/
theorem add_leaves_two_committed_cells :
    NoTentative (exampleState [64, 72, 0, 48]) ∧
    CommittedKey (exampleState [64, 72, 0, 48]) (probe idTraits (exampleState [64, 72, 0, 48]) 4 0) 4 ∧
    (exampleState [64, 72, 0, 48]).m_table.getD
      (probe idTraits (exampleState [64, 72, 0, 48]) 4 2) 0 = 0 ∧
    ∃ s', add idTraits 4 (exampleState [64, 72, 0, 48]) 128 4 = some (false, s') ∧
      s'.m_table = [64, 72, 0, 48] ∧ CommittedKey s' 0 4 ∧ CommittedKey s' 1 4 := by
  refine ⟨by decide, by decide, by decide,
    ⟨{ key := Function.update (fun a => a / 16) 128 4, m_table := [64, 72, 0, 48],
       TOMBSTONE := 4096, retired := [] }, rfl, rfl, by decide, by decide⟩⟩

/-- C9 (amended): on a table with no tentative cell in which exactly one committed cell with
key `k` lies on the probe path from `h(k)` before the first null slot, `add(k)` returns false
and leaves every slot as it was, with exactly one committed cell for `k` and no tentative
cell; also when a tombstone precedes the cell of `k`, where `add` first publishes its own
tentative cell and `upgrade` withdraws it. -/
theorem add_present_key (KT : KeyTraits) (s : State) (c k p fuel dq dz : Nat)
    (hp : s.m_table.length = 2 ^ p) (htomb : s.TOMBSTONE % 2 = 0) (hnt : NoTentative s)
    (hce : c % 2 = 0) (hfresh : ∀ i < s.m_table.length, s.m_table.getD i 0 ≠ c)
    (hq : CommittedKey s (probe KT s k dq) k)
    (hqz : dq < dz) (hzn : dz < s.m_table.length)
    (hz : s.m_table.getD (probe KT s k dz) 0 = 0)
    (hnn : ∀ d < dz, s.m_table.getD (probe KT s k d) 0 ≠ 0)
    (huniq : ∀ d < dz, CommittedKey s (probe KT s k d) k → d = dq)
    (hfuel : s.m_table.length ≤ fuel) :
    ∃ s', add KT fuel s c k = some (false, s') ∧ s'.m_table = s.m_table ∧ NoTentative s' ∧
      CommittedKey s' (probe KT s k dq) k ∧
      ∀ d < dz, CommittedKey s' (probe KT s k d) k → d = dq := by
  have hN := size_pos_of_pow hp
  have hslot_lt : ∀ d, probe KT s k d < s.m_table.length := fun d => Nat.mod_lt _ hN
  have hkey_other : ∀ i < s.m_table.length,
      Function.update s.key c k (s.m_table.getD i 0) = s.key (s.m_table.getD i 0) :=
    fun i hi => Function.update_noteq (hfresh i hi) _ _
  have heven : ∀ d, s.m_table.getD (probe KT s k d) 0 % 2 = 0 :=
    fun d => (is_flagged_false_iff _).1 (hnt _ (hslot_lt d))
  have hnokey : ∀ d < dz, d ≠ dq → s.m_table.getD (probe KT s k d) 0 ≠ s.TOMBSTONE →
      Function.update s.key c k (s.m_table.getD (probe KT s k d) 0) ≠ k := by
    intro d hd hne hnt' hk
    rw [hkey_other _ (hslot_lt d)] at hk
    exact hne (huniq d hd ⟨hnn d hd, hnt', hnt _ (hslot_lt d), hk⟩)
  have hadd : add KT fuel s c k = add_loop k c (home KT s k) fuel fuel
      { s with key := Function.update s.key c k } (home KT s k) := rfl
  obtain ⟨hq0, hqt, hqf, hqk⟩ := hq
  -- the properties of the final state follow from its table and keys
  have hfinal : ∀ s' : State, s'.m_table = s.m_table → s'.TOMBSTONE = s.TOMBSTONE →
      s'.key = Function.update s.key c k →
      NoTentative s' ∧ CommittedKey s' (probe KT s k dq) k ∧
      ∀ d < dz, CommittedKey s' (probe KT s k d) k → d = dq := by
    intro s' ht htb hk
    have hcongr := committed_congr k ht htb
      (fun i hi => by rw [hk]; exact hkey_other i hi)
    refine ⟨?_, ?_, ?_⟩
    · intro i hi
      rw [ht] at hi ⊢
      exact hnt i hi
    · exact (hcongr _ (hslot_lt dq)).2 ⟨hq0, hqt, hqf, hqk⟩
    · intro d hd hcd
      exact huniq d hd ((hcongr _ (hslot_lt d)).1 hcd)
  by_cases htb : ∃ d, d < dq ∧ s.m_table.getD (probe KT s k d) 0 = s.TOMBSTONE
  · -- a tombstone precedes the cell: publish, then withdraw
    have hds := Nat.find_spec htb
    have hmin : ∀ d < Nat.find htb, s.m_table.getD (probe KT s k d) 0 ≠ s.TOMBSTONE := by
      intro d hd ht
      exact Nat.find_min htb hd ⟨by omega, ht⟩
    generalize Nat.find htb = ds at hds hmin
    have hpub := add_loop_publishes k c (home KT s k) fuel ds p
      { s with key := Function.update s.key c k } hp
      (by
        intro d hd
        refine ⟨hnn d (by omega), hmin d hd, ?_⟩
        show Function.update s.key c k (Cell.get_ptr (s.m_table.getD (probe KT s k d) 0)) ≠ k
        rw [get_ptr_unflagged (heven d)]
        exact hnokey d (by omega) (by omega) (hmin d hd))
      (Or.inr hds.2) fuel 0 (home KT s k) rfl (Nat.zero_le _) (by omega)
    have hup := upgrade_withdraws k c (home KT s k) ds dq dz p (Function.update s.key c k)
      s.m_table s.TOMBSTONE s.retired hp hce htomb (Function.update_same _ _ _) hds.1 hqz hzn
      hq0 hqt ((is_flagged_false_iff _).1 hqf)
      (by
        show Function.update s.key c k (s.m_table.getD (probe KT s k dq) 0) = k
        rw [hkey_other _ (hslot_lt dq)]; exact hqk) hz
      (fun d hd hne => ⟨hnn d hd, heven d, hnokey d hd hne⟩)
      fuel 0 (home KT s k) ⟨false, false, 0, s.TOMBSTONE⟩
      ⟨Function.update s.key c k,
        s.m_table.set ((home KT s k + ds) % s.m_table.length) (c + 1), s.TOMBSTONE, s.retired⟩
      rfl (Nat.zero_le _) (by omega) (Or.inl ⟨Nat.zero_le _, rfl, rfl⟩)
    have hup' : upgrade fuel
        { s with key := Function.update s.key c k,
                 m_table := s.m_table.set ((home KT s k + ds) % s.m_table.length)
                   (Cell.flag c) } (home KT s k) k =
        some (s.m_table.getD ((home KT s k + dq) % s.m_table.length) 0,
          ⟨Function.update s.key c k,
            (s.m_table.set ((home KT s k + ds) % s.m_table.length) (c + 1)).set
              ((home KT s k + ds) % s.m_table.length) s.TOMBSTONE, s.TOMBSTONE,
            s.retired ++ [c]⟩) := by
      rw [flag_even hce]
      exact hup
    have htable : (s.m_table.set ((home KT s k + ds) % s.m_table.length) (c + 1)).set
        ((home KT s k + ds) % s.m_table.length) s.TOMBSTONE = s.m_table := by
      rw [List.set_set]
      have := set_getD_self s.m_table ((home KT s k + ds) % s.m_table.length)
      have hds2 : s.m_table.getD ((home KT s k + ds) % s.m_table.length) 0 = s.TOMBSTONE :=
        hds.2
      rw [hds2] at this
      exact this
    refine ⟨⟨Function.update s.key c k,
        (s.m_table.set ((home KT s k + ds) % s.m_table.length) (c + 1)).set
          ((home KT s k + ds) % s.m_table.length) s.TOMBSTONE, s.TOMBSTONE,
        s.retired ++ [c]⟩, ?_, htable, hfinal _ htable rfl rfl⟩
    rw [hadd, hpub]
    simp only [hup']
    have hqt' : s.m_table.getD ((home KT s k + dq) % s.m_table.length) 0 ≠ s.TOMBSTONE := hqt
    have hfr' : s.m_table.getD ((home KT s k + dq) % s.m_table.length) 0 ≠ c :=
      hfresh _ (hslot_lt dq)
    rw [if_neg hqt', decide_eq_false hfr']
  · -- the cell is met first
    have hno : ∀ d < dq, s.m_table.getD (probe KT s k d) 0 ≠ s.TOMBSTONE :=
      fun d hd ht => htb ⟨d, hd, ht⟩
    have hfind := add_loop_finds k c (home KT s k) fuel dq p
      { s with key := Function.update s.key c k } hp
      (by
        intro d hd
        refine ⟨hnn d (by omega), hno d hd, ?_⟩
        show Function.update s.key c k (Cell.get_ptr (s.m_table.getD (probe KT s k d) 0)) ≠ k
        rw [get_ptr_unflagged (heven d)]
        exact hnokey d (by omega) (by omega) (hno d hd))
      hq0 hqt hqf
      (by
        show Function.update s.key c k (Cell.get_ptr (s.m_table.getD (probe KT s k dq) 0)) = k
        rw [get_ptr_unflagged (heven dq), hkey_other _ (hslot_lt dq)]
        exact hqk)
      fuel 0 (home KT s k) rfl (Nat.zero_le _) (by omega)
    exact ⟨⟨Function.update s.key c k, s.m_table, s.TOMBSTONE, s.retired⟩,
      by rw [hadd, hfind], rfl, hfinal _ rfl rfl rfl⟩

theorem add_present_key_witness :
    ∃ s', add idTraits 4 (exampleState [4096, 64, 0, 48]) 128 4 = some (false, s') ∧
      s'.m_table = (exampleState [4096, 64, 0, 48]).m_table ∧ NoTentative s' ∧
      CommittedKey s' (probe idTraits (exampleState [4096, 64, 0, 48]) 4 1) 4 ∧
      ∀ d < 2, CommittedKey s' (probe idTraits (exampleState [4096, 64, 0, 48]) 4 d) 4 →
        d = 1 :=
  add_present_key idTraits (exampleState [4096, 64, 0, 48]) 128 4 2 4 1 2
    (by decide) (by decide) (by decide) (by decide) (by decide) (by decide) (by decide)
    (by decide) (by decide) (by decide) (by decide) (by decide)

end LockFreeLinearProbingNodeSet
end concurrent_data_structures

namespace concurrent_data_structures
namespace LockFreeLinearProbingNodeSet

open TransactionalRobinHoodSet (mask_eq_mod size_pos_of_pow succ_mod_eq getD_set_self
  getD_set_other)

/-! ### remove and contains -/

theorem remove_loop_tombstones (k h0 dq p : Nat) (s : State) (hp : s.m_table.length = 2 ^ p)
    (hbefore : ∀ d < dq,
      s.m_table.getD ((h0 + d) % s.m_table.length) 0 ≠ 0 ∧
      (s.m_table.getD ((h0 + d) % s.m_table.length) 0 = s.TOMBSTONE ∨
       Cell.is_flagged (s.m_table.getD ((h0 + d) % s.m_table.length) 0) = true ∨
       s.key (s.m_table.getD ((h0 + d) % s.m_table.length) 0) ≠ k))
    (hq0 : s.m_table.getD ((h0 + dq) % s.m_table.length) 0 ≠ 0)
    (hqt : s.m_table.getD ((h0 + dq) % s.m_table.length) 0 ≠ s.TOMBSTONE)
    (hqf : Cell.is_flagged (s.m_table.getD ((h0 + dq) % s.m_table.length) 0) = false)
    (hqk : s.key (s.m_table.getD ((h0 + dq) % s.m_table.length) 0) = k) :
    ∀ (fuel d i : Nat), i % s.m_table.length = (h0 + d) % s.m_table.length →
      d ≤ dq → dq - d < fuel →
      remove_loop k h0 fuel s i =
        some (true, retire
          { s with m_table := s.m_table.set ((h0 + dq) % s.m_table.length) s.TOMBSTONE }
          (s.m_table.getD ((h0 + dq) % s.m_table.length) 0)) := by
  intro fuel
  induction fuel with
  | zero => intro d i _ _ h; omega
  | succ fuel ih =>
    intro d i hi hd hfuel
    simp only [remove_loop]
    rw [mask_eq_mod hp, hi]
    rcases Nat.lt_or_ge d dq with hlt | hge
    · obtain ⟨h1, h2⟩ := hbefore d hlt
      have hcont := ih (d + 1) (((h0 + d) % s.m_table.length) + 1) (next_slot _ h0 d)
        (by omega) (by omega)
      rw [if_neg h1]
      by_cases hskip : s.m_table.getD ((h0 + d) % s.m_table.length) 0 = s.TOMBSTONE ∨
          Cell.is_flagged (s.m_table.getD ((h0 + d) % s.m_table.length) 0) = true
      · rw [if_pos hskip]; exact hcont
      · rw [if_neg hskip]
        have hk : s.key (s.m_table.getD ((h0 + d) % s.m_table.length) 0) ≠ k := by
          rcases h2 with h | h | h
          · exact absurd (Or.inl h) hskip
          · exact absurd (Or.inr h) hskip
          · exact h
        rw [if_neg hk]; exact hcont
    · have hdd : d = dq := by omega
      subst hdd
      rw [if_neg hq0, if_neg (by rintro (h | h); exact hqt h; rw [hqf] at h; cases h),
        if_pos hqk]
      have hcas : compare_exchange_weak s ((h0 + d) % s.m_table.length)
          (s.m_table.getD ((h0 + d) % s.m_table.length) 0) s.TOMBSTONE =
          (true, s.m_table.getD ((h0 + d) % s.m_table.length) 0,
            { s with m_table := s.m_table.set ((h0 + d) % s.m_table.length) s.TOMBSTONE }) := by
        unfold compare_exchange_weak
        exact if_pos rfl
      simp only [hcas]

theorem remove_loop_not_found (k h0 dz p : Nat) (s : State) (hp : s.m_table.length = 2 ^ p)
    (hbefore : ∀ d < dz,
      s.m_table.getD ((h0 + d) % s.m_table.length) 0 ≠ 0 ∧
      (s.m_table.getD ((h0 + d) % s.m_table.length) 0 = s.TOMBSTONE ∨
       Cell.is_flagged (s.m_table.getD ((h0 + d) % s.m_table.length) 0) = true ∨
       s.key (s.m_table.getD ((h0 + d) % s.m_table.length) 0) ≠ k))
    (hz : s.m_table.getD ((h0 + dz) % s.m_table.length) 0 = 0) :
    ∀ (fuel d i : Nat), i % s.m_table.length = (h0 + d) % s.m_table.length →
      d ≤ dz → dz - d < fuel → remove_loop k h0 fuel s i = some (false, s) := by
  intro fuel
  induction fuel with
  | zero => intro d i _ _ h; omega
  | succ fuel ih =>
    intro d i hi hd hfuel
    simp only [remove_loop]
    rw [mask_eq_mod hp, hi]
    rcases Nat.lt_or_ge d dz with hlt | hge
    · obtain ⟨h1, h2⟩ := hbefore d hlt
      have hcont := ih (d + 1) (((h0 + d) % s.m_table.length) + 1) (next_slot _ h0 d)
        (by omega) (by omega)
      rw [if_neg h1]
      by_cases hskip : s.m_table.getD ((h0 + d) % s.m_table.length) 0 = s.TOMBSTONE ∨
          Cell.is_flagged (s.m_table.getD ((h0 + d) % s.m_table.length) 0) = true
      · rw [if_pos hskip]; exact hcont
      · rw [if_neg hskip]
        have hk : s.key (s.m_table.getD ((h0 + d) % s.m_table.length) 0) ≠ k := by
          rcases h2 with h | h | h
          · exact absurd (Or.inl h) hskip
          · exact absurd (Or.inr h) hskip
          · exact h
        rw [if_neg hk]; exact hcont
    · have hdd : d = dz := by omega
      subst hdd
      rw [if_pos hz]

theorem contains_loop_not_found (k h0 dz p : Nat) (s : State) (hp : s.m_table.length = 2 ^ p)
    (hbefore : ∀ d < dz,
      s.m_table.getD ((h0 + d) % s.m_table.length) 0 ≠ 0 ∧
      (s.m_table.getD ((h0 + d) % s.m_table.length) 0 = s.TOMBSTONE ∨
       Cell.is_flagged (s.m_table.getD ((h0 + d) % s.m_table.length) 0) = true ∨
       s.key (s.m_table.getD ((h0 + d) % s.m_table.length) 0) ≠ k))
    (hz : s.m_table.getD ((h0 + dz) % s.m_table.length) 0 = 0) :
    ∀ (fuel d i : Nat), i % s.m_table.length = (h0 + d) % s.m_table.length →
      d ≤ dz → dz - d < fuel → contains_loop k s fuel i = some false := by
  intro fuel
  induction fuel with
  | zero => intro d i _ _ h; omega
  | succ fuel ih =>
    intro d i hi hd hfuel
    simp only [contains_loop]
    rw [mask_eq_mod hp, hi]
    rcases Nat.lt_or_ge d dz with hlt | hge
    · obtain ⟨h1, h2⟩ := hbefore d hlt
      have hcont := ih (d + 1) (((h0 + d) % s.m_table.length) + 1) (next_slot _ h0 d)
        (by omega) (by omega)
      rw [if_neg h1]
      by_cases hskip : s.m_table.getD ((h0 + d) % s.m_table.length) 0 = s.TOMBSTONE ∨
          Cell.is_flagged (s.m_table.getD ((h0 + d) % s.m_table.length) 0) = true
      · rw [if_pos hskip]; exact hcont
      · rw [if_neg hskip]
        have hk : s.key (s.m_table.getD ((h0 + d) % s.m_table.length) 0) ≠ k := by
          rcases h2 with h | h | h
          · exact absurd (Or.inl h) hskip
          · exact absurd (Or.inr h) hskip
          · exact h
        rw [if_neg hk]; exact hcont
    · have hdd : d = dz := by omega
      subst hdd
      rw [if_pos hz]

theorem not_committed_cases {s : State} {i k : Nat} (h : ¬ CommittedKey s i k)
    (h0 : s.m_table.getD i 0 ≠ 0) :
    s.m_table.getD i 0 = s.TOMBSTONE ∨ Cell.is_flagged (s.m_table.getD i 0) = true ∨
      s.key (s.m_table.getD i 0) ≠ k := by
  by_cases h1 : s.m_table.getD i 0 = s.TOMBSTONE
  · exact Or.inl h1
  · by_cases h2 : Cell.is_flagged (s.m_table.getD i 0) = true
    · exact Or.inr (Or.inl h2)
    · refine Or.inr (Or.inr ?_)
      intro hk
      exact h ⟨h0, h1, by simpa using h2, hk⟩

end LockFreeLinearProbingNodeSet
end concurrent_data_structures

namespace concurrent_data_structures
namespace LockFreeLinearProbingNodeSet

open TransactionalRobinHoodSet (mask_eq_mod size_pos_of_pow succ_mod_eq getD_set_self
  getD_set_other)

/-- C10 (as stated, refuted): in the table `[64, 72, null, 48]` (4 slots, `h(k) = k`) the
cells at addresses 64 and 72 both hold key 4 and lie on the probe path of 4 before the first
null slot; `remove(4)` returns true and puts `TOMBSTONE` in slot 0, and `contains(4)` is
still true afterwards, through the cell in slot 1. -/
theorem contains_true_after_lp_remove :
    (exampleState [64, 72, 0, 48]).m_table.getD
      (probe idTraits (exampleState [64, 72, 0, 48]) 4 2) 0 = 0 ∧
    CommittedKey (exampleState [64, 72, 0, 48])
      (probe idTraits (exampleState [64, 72, 0, 48]) 4 0) 4 ∧
    ∃ s', remove idTraits 4 (exampleState [64, 72, 0, 48]) 4 = some (true, s') ∧
      s'.m_table = [4096, 72, 0, 48] ∧ contains idTraits 4 s' 4 = some true := by
  refine ⟨by decide, by decide,
    ⟨{ key := fun a => a / 16, m_table := [4096, 72, 0, 48], TOMBSTONE := 4096,
       retired := [64] }, rfl, rfl, by decide⟩⟩

/-- C10 (amended): on a table with a null slot on the probe path of `k` on which at most one
committed cell with key `k` lies before the first null slot, `remove(k)` returns true if and
only if such a cell exists; when it returns true that slot becomes `TOMBSTONE`, every other
slot is unchanged, the cell is retired once and `contains(k)` is false afterwards; when it
returns false the state is unchanged. -/
theorem remove_true_iff_committed (KT : KeyTraits) (s : State) (k p fuel fuel' dz : Nat)
    (hp : s.m_table.length = 2 ^ p) (ht0 : s.TOMBSTONE ≠ 0)
    (hzn : dz < s.m_table.length) (hz : s.m_table.getD (probe KT s k dz) 0 = 0)
    (hnn : ∀ d < dz, s.m_table.getD (probe KT s k d) 0 ≠ 0)
    (huniq : ∀ d < dz, ∀ d' < dz, CommittedKey s (probe KT s k d) k →
      CommittedKey s (probe KT s k d') k → d = d')
    (hfuel : s.m_table.length ≤ fuel) (hfuel' : s.m_table.length ≤ fuel') :
    ∃ b s', remove KT fuel s k = some (b, s') ∧
      (b = true ↔ ∃ d < dz, CommittedKey s (probe KT s k d) k) ∧
      (b = true → ∃ d < dz, CommittedKey s (probe KT s k d) k ∧
        s'.m_table = s.m_table.set (probe KT s k d) s.TOMBSTONE ∧
        s'.retired = s.retired ++ [s.m_table.getD (probe KT s k d) 0] ∧
        contains KT fuel' s' k = some false) ∧
      (b = false → s' = s) := by
  have hN := size_pos_of_pow hp
  have hrem : remove KT fuel s k = remove_loop k (home KT s k) fuel s (home KT s k) := rfl
  by_cases hex : ∃ d, d < dz ∧ CommittedKey s (probe KT s k d) k
  · obtain ⟨dq, hdq, hq⟩ := hex
    have hfound := remove_loop_tombstones k (home KT s k) dq p s hp
      (by
        intro d hd
        refine ⟨hnn d (by omega), not_committed_cases ?_ (hnn d (by omega))⟩
        intro hc
        have := huniq d (by omega) dq hdq hc hq
        omega)
      hq.1 hq.2.1 hq.2.2.1 hq.2.2.2 fuel 0 (home KT s k) rfl (Nat.zero_le _) (by omega)
    refine ⟨true, _, by rw [hrem, hfound], ⟨fun _ => ⟨dq, hdq, hq⟩, fun _ => rfl⟩, ?_,
      fun h => by cases h⟩
    intro _
    refine ⟨dq, hdq, hq, rfl, rfl, ?_⟩
    have hslot_q : probe KT s k dq < s.m_table.length := Nat.mod_lt _ hN
    have hcon : contains KT fuel'
        (retire { s with m_table := s.m_table.set (probe KT s k dq) s.TOMBSTONE }
          (s.m_table.getD (probe KT s k dq) 0)) k =
        contains_loop k
          (retire { s with m_table := s.m_table.set (probe KT s k dq) s.TOMBSTONE }
            (s.m_table.getD (probe KT s k dq) 0)) fuel' (home KT s k) := by
      unfold contains home retire
      simp only [List.length_set]
    have hval : ∀ d < s.m_table.length,
        (s.m_table.set (probe KT s k dq) s.TOMBSTONE).getD (probe KT s k d) 0 =
          if d = dq then s.TOMBSTONE else s.m_table.getD (probe KT s k d) 0 := by
      intro d hd
      by_cases hdd : d = dq
      · subst hdd; rw [getD_set_self hslot_q, if_pos rfl]
      · rw [if_neg hdd]
        exact getD_set_other (slot_ne (by omega) hd (fun e => hdd e.symm)) _
    have hloop := contains_loop_not_found k (home KT s k) dz p
      (retire { s with m_table := s.m_table.set (probe KT s k dq) s.TOMBSTONE }
        (s.m_table.getD (probe KT s k dq) 0))
      (by simp only [retire, List.length_set]; exact hp)
      (by
        intro d hd
        have hv := hval d (by omega)
        simp only [retire, List.length_set]
        simp only [probe] at hv ⊢
        rw [hv]
        by_cases hdd : d = dq
        · rw [if_pos hdd]; exact ⟨ht0, Or.inl rfl⟩
        · rw [if_neg hdd]
          refine ⟨hnn d hd, not_committed_cases ?_ (hnn d hd)⟩
          intro hc
          exact hdd (huniq d hd dq hdq hc hq))
      (by
        have hv := hval dz hzn
        simp only [retire, List.length_set]
        simp only [probe] at hv ⊢
        rw [hv, if_neg (by omega)]
        exact hz)
      fuel' 0 (home KT s k) (by simp only [retire, List.length_set, Nat.add_zero])
      (Nat.zero_le _) (by omega)
    exact hcon.trans hloop
  · have hnot := remove_loop_not_found k (home KT s k) dz p s hp
      (by
        intro d hd
        exact ⟨hnn d hd, not_committed_cases (fun hc => hex ⟨d, hd, hc⟩) (hnn d hd)⟩)
      hz fuel 0 (home KT s k) rfl (Nat.zero_le _) (by omega)
    refine ⟨false, s, by rw [hrem, hnot], ⟨fun h => (by cases h), fun h => absurd h hex⟩,
      fun h => (by cases h), fun _ => rfl⟩

theorem remove_true_iff_committed_witness :
    ∃ b s', remove idTraits 4 (exampleState [4096, 64, 0, 48]) 4 = some (b, s') ∧
      (b = true ↔ ∃ d < 2,
        CommittedKey (exampleState [4096, 64, 0, 48])
          (probe idTraits (exampleState [4096, 64, 0, 48]) 4 d) 4) ∧
      (b = true → ∃ d < 2,
        CommittedKey (exampleState [4096, 64, 0, 48])
          (probe idTraits (exampleState [4096, 64, 0, 48]) 4 d) 4 ∧
        s'.m_table = (exampleState [4096, 64, 0, 48]).m_table.set
          (probe idTraits (exampleState [4096, 64, 0, 48]) 4 d)
          (exampleState [4096, 64, 0, 48]).TOMBSTONE ∧
        s'.retired = (exampleState [4096, 64, 0, 48]).retired ++
          [(exampleState [4096, 64, 0, 48]).m_table.getD
            (probe idTraits (exampleState [4096, 64, 0, 48]) 4 d) 0] ∧
        contains idTraits 4 s' 4 = some false) ∧
      (b = false → s' = exampleState [4096, 64, 0, 48]) :=
  remove_true_iff_committed idTraits (exampleState [4096, 64, 0, 48]) 4 2 4 4 2
    (by decide) (by decide) (by decide) (by decide) (by decide) (by decide) (by decide)
    (by decide)

end LockFreeLinearProbingNodeSet
end concurrent_data_structures

namespace concurrent_data_structures
namespace HopscotchHashSet

/-! ### Hopscotch: buckets and lists -/

theorem toInt32_eq {x : Int} (h1 : -2147483648 ≤ x) (h2 : x < 2147483648) : toInt32 x = x := by
  unfold toInt32; omega

theorem length_setBucket (t : List Bucket) (i : Int) (b : Bucket) :
    (setBucket t i b).length = t.length := by
  unfold setBucket; split <;> simp

theorem bucketAt_setBucket (KT : KeyTraits) (t : List Bucket) {i : Int} (j : Int) (b : Bucket)
    (h0 : 0 ≤ i) (h1 : i < (t.length : Int)) :
    bucketAt KT (setBucket t i b) j = if j = i then b else bucketAt KT t j := by
  have hi : i.toNat < t.length := by omega
  have hs : setBucket t i b = t.set i.toNat b := by
    unfold setBucket; rw [if_neg (by omega)]
  rw [hs]
  unfold bucketAt
  by_cases hj : j = i
  · subst hj
    rw [if_neg (by omega), if_pos rfl]
    simp [List.getD_eq_getElem?_getD, hi]
  · rw [if_neg hj]
    by_cases hj0 : j < 0
    · rw [if_pos hj0, if_pos hj0]
    · rw [if_neg hj0, if_neg hj0]
      have hne : i.toNat ≠ j.toNat := by omega
      simp [List.getD_eq_getElem?_getD, List.getElem?_set_ne hne]

theorem bucketAt_emptyTable (KT : KeyTraits) (n : Nat) (i : Int) :
    bucketAt KT (emptyTable KT n) i = Bucket.init KT := by
  unfold bucketAt emptyTable
  split
  · rfl
  · by_cases h : i.toNat < n + 4096 + 1
    · simp [List.getD_eq_getElem?_getD, List.getElem?_replicate, h]
    · simp [List.getD_eq_getElem?_getD, List.getElem?_replicate, h]

theorem hchain_frame (KT : KeyTraits) {t t' : List Bucket} :
    ∀ (ms : List Int) (cur delta : Int),
      (∀ x ∈ ms, (bucketAt KT t' x)._next_delta = (bucketAt KT t x)._next_delta) →
      Chain KT t cur delta ms → Chain KT t' cur delta ms
  | [], _, _, _, h => h
  | m :: ms, cur, delta, hf, h => by
    obtain ⟨h1, h2, h3⟩ := h
    refine ⟨h1, h2, ?_⟩
    rw [hf m (List.mem_cons_self _ _)]
    exact hchain_frame KT ms m _ (fun x hx => hf x (List.mem_cons_of_mem _ hx)) h3

theorem hchain_suffix (KT : KeyTraits) {t : List Bucket} {p : Int} {rest : List Int} :
    ∀ (pre : List Int) (cur delta : Int),
      Chain KT t cur delta (pre ++ p :: rest) →
      Chain KT t p (bucketAt KT t p)._next_delta rest
  | [], _, _, h => h.2.2
  | _ :: pre, _, _, h => hchain_suffix KT pre _ _ h.2.2

theorem hchain_prefix (KT : KeyTraits) {t t' : List Bucket} {p : Int} {rest rest' : List Int} :
    ∀ (pre : List Int) (cur delta : Int),
      Chain KT t cur delta (pre ++ p :: rest) →
      (∀ x ∈ pre, (bucketAt KT t' x)._next_delta = (bucketAt KT t x)._next_delta) →
      Chain KT t' p (bucketAt KT t' p)._next_delta rest' →
      Chain KT t' cur delta (pre ++ p :: rest')
  | [], _, _, h, _, h' => ⟨h.1, h.2.1, h'⟩
  | q :: pre, _, _, h, hf, h' => by
    refine ⟨h.1, h.2.1, ?_⟩
    rw [hf q (List.mem_cons_self _ _)]
    exact hchain_prefix KT pre _ _ h.2.2 (fun x hx => hf x (List.mem_cons_of_mem _ hx)) h'

theorem hchain_head (KT : KeyTraits) {t : List Bucket} {cur delta m : Int} {ms : List Int}
    (h : Chain KT t cur delta (m :: ms)) : delta ≠ _NULL_DELTA ∧ m = cur + delta := ⟨h.1, h.2.1⟩

theorem lastBucket_append (l : Option Int) (pre : List Int) (p : Int) :
    lastBucket l (pre ++ [p]) = some p := by
  induction pre generalizing l with
  | nil => rfl
  | cons q pre ih => exact ih (some q)

theorem lastBucket_cons (l : Option Int) (m : Int) (ms : List Int) :
    lastBucket l (m :: ms) = lastBucket (some m) ms := rfl

end HopscotchHashSet
end concurrent_data_structures

namespace concurrent_data_structures
namespace HopscotchHashSet

/-! ### Hopscotch: the walks over a list and the scans for a free bucket -/

theorem contains_walk_chain (KT : KeyTraits) (t : List Bucket) (key : Nat) :
    ∀ (ms : List Int) (fuel : Nat) (cur delta : Int), Chain KT t cur delta ms →
      ms.length < fuel →
      contains_walk KT t key fuel cur delta =
        some (decide (key ∈ ms.map (fun m => (bucketAt KT t m)._key)))
  | _, 0, _, _, _, hf => absurd hf (Nat.not_lt_zero _)
  | [], fuel + 1, cur, delta, hc, _ => by
    have hd : delta = _NULL_DELTA := hc
    subst hd
    simp [contains_walk]
  | m :: ms, fuel + 1, cur, delta, hc, hf => by
    obtain ⟨h1, h2, h3⟩ := hc
    have ih := contains_walk_chain KT t key ms fuel m _ h3
      (by simp only [List.length_cons] at hf; omega)
    unfold contains_walk
    rw [if_pos (Ne.symm h1)]
    simp only [← h2]
    by_cases hk : key = (bucketAt KT t m)._key
    · rw [if_pos hk]; simp [hk]
    · rw [if_neg hk, ih]; simp [hk]

theorem add_walk_chain (KT : KeyTraits) (t : List Bucket) (hash key : Nat) :
    ∀ (ms : List Int) (fuel : Nat) (last : Option Int) (cur delta : Int),
      Chain KT t cur delta ms → ms.length < fuel →
      add_walk KT t hash key fuel last cur delta =
        if ∃ m ∈ ms, hash = (bucketAt KT t m)._hash ∧ key = (bucketAt KT t m)._key then some none
        else some (some (lastBucket last ms))
  | _, 0, _, _, _, _, hf => absurd hf (Nat.not_lt_zero _)
  | [], fuel + 1, last, cur, delta, hc, _ => by
    have hd : delta = _NULL_DELTA := hc
    subst hd
    simp [add_walk, lastBucket]
  | m :: ms, fuel + 1, last, cur, delta, hc, hf => by
    obtain ⟨h1, h2, h3⟩ := hc
    have ih := add_walk_chain KT t hash key ms fuel (some m) m _ h3
      (by simp only [List.length_cons] at hf; omega)
    unfold add_walk
    rw [if_pos (Ne.symm h1)]
    simp only [← h2]
    by_cases hk : hash = (bucketAt KT t m)._hash ∧ key = (bucketAt KT t m)._key
    · rw [if_pos hk, if_pos ⟨m, List.mem_cons_self _ _, hk⟩]
    · rw [if_neg hk, ih, lastBucket_cons]
      by_cases hex : ∃ x ∈ ms, hash = (bucketAt KT t x)._hash ∧ key = (bucketAt KT t x)._key
      · obtain ⟨x, hx, hxk⟩ := hex
        rw [if_pos ⟨x, hx, hxk⟩, if_pos ⟨x, List.mem_cons_of_mem _ hx, hxk⟩]
      · rw [if_neg hex, if_neg]
        rintro ⟨x, hx, hxk⟩
        rcases List.mem_cons.mp hx with rfl | hx
        · exact hk hxk
        · exact hex ⟨x, hx, hxk⟩

theorem remove_walk_absent (KT : KeyTraits) (cfg : Config) (ofuel : Nat) (t : List Bucket)
    (hash key : Nat) (start : Int) :
    ∀ (ms : List Int) (fuel : Nat) (last : Option Int) (cur delta : Int),
      Chain KT t cur delta ms → ms.length < fuel →
      (∀ m ∈ ms, ¬ (hash = (bucketAt KT t m)._hash ∧ key = (bucketAt KT t m)._key)) →
      remove_walk KT cfg ofuel t hash key start fuel last cur delta =
        some (Outcome.returned false t)
  | _, 0, _, _, _, _, hf, _ => absurd hf (Nat.not_lt_zero _)
  | [], fuel + 1, last, cur, delta, hc, _, _ => by
    have hd : delta = _NULL_DELTA := hc
    subst hd
    simp [remove_walk]
  | m :: ms, fuel + 1, last, cur, delta, hc, hf, hno => by
    obtain ⟨h1, h2, h3⟩ := hc
    have ih := remove_walk_absent KT cfg ofuel t hash key start ms fuel (some m) m _ h3
      (by simp only [List.length_cons] at hf; omega)
      (fun x hx => hno x (List.mem_cons_of_mem _ hx))
    unfold remove_walk
    rw [if_neg (Ne.symm h1)]
    simp only [← h2]
    rw [if_neg (hno m (List.mem_cons_self _ _)), ih]

theorem remove_walk_found (KT : KeyTraits) (cfg : Config) (ofuel : Nat) (t : List Bucket)
    (hash key : Nat) (start : Int) {m : Int} {post : List Int}
    (hm : hash = (bucketAt KT t m)._hash ∧ key = (bucketAt KT t m)._key) :
    ∀ (pre : List Int) (fuel : Nat) (last : Option Int) (cur delta : Int),
      Chain KT t cur delta (pre ++ m :: post) → pre.length < fuel →
      (∀ x ∈ pre, ¬ (hash = (bucketAt KT t x)._hash ∧ key = (bucketAt KT t x)._key)) →
      remove_walk KT cfg ofuel t hash key start fuel last cur delta =
        if cfg._is_cacheline_alignment then
          match optimize_cacheline_use KT cfg ofuel
              (remove_key KT t start m (lastBucket last pre)) m with
          | none => none
          | some t'' => some (Outcome.returned true t'')
        else some (Outcome.returned true (remove_key KT t start m (lastBucket last pre)))
  | _, 0, _, _, _, _, hf, _ => absurd hf (Nat.not_lt_zero _)
  | [], fuel + 1, last, cur, delta, hc, _, _ => by
    obtain ⟨h1, h2, -⟩ := hc
    unfold remove_walk
    rw [if_neg (Ne.symm h1)]
    simp only [← h2]
    rw [if_pos hm]
    rfl
  | q :: pre, fuel + 1, last, cur, delta, hc, hf, hno => by
    obtain ⟨h1, h2, h3⟩ := hc
    have ih := remove_walk_found KT cfg ofuel t hash key start hm pre fuel (some q) q _ h3
      (by simp only [List.length_cons] at hf; omega)
      (fun x hx => hno x (List.mem_cons_of_mem _ hx))
    unfold remove_walk
    rw [if_neg (Ne.symm h1)]
    simp only [← h2]
    rw [if_neg (hno q (List.mem_cons_self _ _)), ih]
    rfl

theorem cacheline_scan_spec (KT : KeyTraits) (t : List Bucket) (start sc ec : Int)
    (hs : sc ≤ start ∧ start ≤ ec) :
    ∀ (fuel : Nat) (free : Int), sc ≤ free → free ≤ ec →
      (if start ≤ free then (ec - free) + (start - sc) + 1 else start - free) ≤ (fuel : Int) →
      ∃ r, cacheline_scan KT t start sc ec fuel free = some r ∧
        ∀ f, r = some f → (bucketAt KT t f)._hash = 0 ∧ sc ≤ f ∧ f ≤ ec
  | 0, free, h1, h2, hf => by
    exfalso
    split at hf <;> omega
  | fuel + 1, free, h1, h2, hf => by
    unfold cacheline_scan
    by_cases h0 : 0 = (bucketAt KT t free)._hash
    · rw [if_pos h0]
      exact ⟨_, rfl, fun f hf => by cases hf; exact ⟨h0.symm, h1, h2⟩⟩
    · rw [if_neg h0]
      simp only
      by_cases hw : free + 1 > ec
      · rw [if_pos hw]
        by_cases hst : start ≠ sc
        · rw [if_pos hst]
          apply cacheline_scan_spec KT t start sc ec hs fuel sc (le_refl _) (by omega)
          have hlt : ¬ start ≤ sc := by omega
          rw [if_neg hlt]
          split at hf <;> push_cast at hf <;> omega
        · rw [if_neg hst]
          exact ⟨none, rfl, fun f hf => by cases hf⟩
      · rw [if_neg hw]
        by_cases hst : start ≠ free + 1
        · rw [if_pos hst]
          apply cacheline_scan_spec KT t start sc ec hs fuel (free + 1) (by omega) (by omega)
          split at hf <;> split <;> push_cast at hf <;> omega
        · rw [if_neg hst]
          exact ⟨none, rfl, fun f hf => by cases hf⟩

theorem forward_scan_spec (KT : KeyTraits) (t : List Bucket) (max_bucket : Int) :
    ∀ (fuel : Nat) (free : Int), 0 < fuel → max_bucket - free + 1 < (fuel : Int) →
      ∃ r, forward_scan KT t max_bucket fuel free = some r ∧
        (∀ f, r = some f → (bucketAt KT t f)._hash = 0 ∧ free ≤ f ∧ f ≤ max_bucket) ∧
        (r = none → ∀ j, free ≤ j → j ≤ max_bucket → (bucketAt KT t j)._hash ≠ 0)
  | 0, _, hp, _ => absurd hp (Nat.lt_irrefl 0)
  | fuel + 1, free, _, hf => by
    unfold forward_scan
    by_cases hle : free ≤ max_bucket
    · rw [if_pos hle]
      by_cases h0 : 0 = (bucketAt KT t free)._hash
      · rw [if_pos h0]
        exact ⟨_, rfl, fun f hf => (by cases hf; exact ⟨h0.symm, le_refl _, hle⟩),
          fun h => (by cases h)⟩
      · rw [if_neg h0]
        obtain ⟨r, hr, hrs, hrn⟩ := forward_scan_spec KT t max_bucket fuel (free + 1)
          (by push_cast at hf; omega) (by push_cast at hf; omega)
        refine ⟨r, hr, fun f hf => ?_, fun hn j hj1 hj2 => ?_⟩
        · obtain ⟨a, b, c⟩ := hrs f hf
          exact ⟨a, by omega, c⟩
        · by_cases hj : j = free
          · rw [hj]; exact fun e => h0 e.symm
          · exact hrn hn j (by omega) hj2
    · rw [if_neg hle]
      exact ⟨none, rfl, fun f hf => (by cases hf),
        fun _ j hj1 hj2 => absurd (le_trans hj1 hj2) hle⟩

theorem backward_scan_spec (KT : KeyTraits) (t : List Bucket) (min_bucket : Int) :
    ∀ (fuel : Nat) (free : Int), 0 < fuel → free - min_bucket + 1 < (fuel : Int) →
      ∃ r, backward_scan KT t min_bucket fuel free = some r ∧
        (∀ f, r = some f → (bucketAt KT t f)._hash = 0 ∧ min_bucket ≤ f ∧ f ≤ free) ∧
        (r = none → ∀ j, min_bucket ≤ j → j ≤ free → (bucketAt KT t j)._hash ≠ 0)
  | 0, _, hp, _ => absurd hp (Nat.lt_irrefl 0)
  | fuel + 1, free, _, hf => by
    unfold backward_scan
    by_cases hle : free ≥ min_bucket
    · rw [if_pos hle]
      by_cases h0 : 0 = (bucketAt KT t free)._hash
      · rw [if_pos h0]
        exact ⟨_, rfl, fun f hf => (by cases hf; exact ⟨h0.symm, hle, le_refl _⟩),
          fun h => (by cases h)⟩
      · rw [if_neg h0]
        obtain ⟨r, hr, hrs, hrn⟩ := backward_scan_spec KT t min_bucket fuel (free - 1)
          (by push_cast at hf; omega) (by push_cast at hf; omega)
        refine ⟨r, hr, fun f hf => ?_, fun hn j hj1 hj2 => ?_⟩
        · obtain ⟨a, b, c⟩ := hrs f hf
          exact ⟨a, b, by omega⟩
        · by_cases hj : j = free
          · rw [hj]; exact fun e => h0 e.symm
          · exact hrn hn j hj1 (by omega)
    · rw [if_neg hle]
      exact ⟨none, rfl, fun f hf => (by cases hf),
        fun _ j hj1 hj2 => absurd (le_trans hj1 hj2) hle⟩

theorem members_length_le {ms : List Int} {n : Nat} (hnd : ms.Nodup)
    (hr : ∀ m ∈ ms, 0 ≤ m ∧ m < (n : Int)) : ms.length ≤ n := by
  have h1 : ms.toFinset ⊆ Finset.Ico (0 : Int) n := by
    intro x hx
    rw [List.mem_toFinset] at hx
    exact Finset.mem_Ico.mpr (hr x hx)
  have h2 := Finset.card_le_card h1
  rw [List.toFinset_card_of_nodup hnd, Int.card_Ico] at h2
  simpa using h2

end HopscotchHashSet
end concurrent_data_structures

namespace concurrent_data_structures
namespace HopscotchHashSet

/-! ### Hopscotch: the buckets after each update -/

theorem bucketAt_setBucket_field (KT : KeyTraits) (t : List Bucket) (i j : Int) (b : Bucket) :
    bucketAt KT (setBucket t i b) j = b ∧ j = i ∨
      bucketAt KT (setBucket t i b) j = bucketAt KT t j := by
  by_cases h0 : 0 ≤ i
  · by_cases h1 : i < (t.length : Int)
    · rw [bucketAt_setBucket KT t j b h0 h1]
      by_cases hj : j = i
      · left; rw [if_pos hj]; exact ⟨rfl, hj⟩
      · right; rw [if_neg hj]
    · right
      have hs : setBucket t i b = t := by
        unfold setBucket
        rw [if_neg (by omega)]
        exact List.set_eq_of_length_le (by omega)
      rw [hs]
  · right
    have hs : setBucket t i b = t := by
      unfold setBucket
      rw [if_pos (by omega)]
    rw [hs]

theorem length_set_first_delta (KT : KeyTraits) (t : List Bucket) (i : Int) (v : Int) :
    (set_first_delta KT t i v).length = t.length := length_setBucket _ _ _

theorem first_delta_set_first_delta (KT : KeyTraits) (t : List Bucket) {i : Int} (j : Int) (v : Int)
    (h0 : 0 ≤ i) (h1 : i < (t.length : Int)) :
    (bucketAt KT (set_first_delta KT t i v) j)._first_delta =
      if j = i then v else (bucketAt KT t j)._first_delta := by
  unfold set_first_delta
  rw [bucketAt_setBucket KT t j _ h0 h1]
  split <;> rfl

theorem next_delta_set_first_delta (KT : KeyTraits) (t : List Bucket) (i j : Int) (v : Int) :
    (bucketAt KT (set_first_delta KT t i v) j)._next_delta = (bucketAt KT t j)._next_delta := by
  unfold set_first_delta
  rcases bucketAt_setBucket_field KT t i j
    { bucketAt KT t i with _first_delta := v } with ⟨h, rfl⟩ | h
  · rw [h]
  · rw [h]

theorem hash_set_first_delta (KT : KeyTraits) (t : List Bucket) (i j : Int) (v : Int) :
    (bucketAt KT (set_first_delta KT t i v) j)._hash = (bucketAt KT t j)._hash := by
  unfold set_first_delta
  rcases bucketAt_setBucket_field KT t i j
    { bucketAt KT t i with _first_delta := v } with ⟨h, rfl⟩ | h
  · rw [h]
  · rw [h]

theorem key_set_first_delta (KT : KeyTraits) (t : List Bucket) (i j : Int) (v : Int) :
    (bucketAt KT (set_first_delta KT t i v) j)._key = (bucketAt KT t j)._key := by
  unfold set_first_delta
  rcases bucketAt_setBucket_field KT t i j
    { bucketAt KT t i with _first_delta := v } with ⟨h, rfl⟩ | h
  · rw [h]
  · rw [h]

theorem length_set_next_delta (KT : KeyTraits) (t : List Bucket) (i : Int) (v : Int) :
    (set_next_delta KT t i v).length = t.length := length_setBucket _ _ _

theorem first_delta_set_next_delta (KT : KeyTraits) (t : List Bucket) (i j : Int) (v : Int) :
    (bucketAt KT (set_next_delta KT t i v) j)._first_delta = (bucketAt KT t j)._first_delta := by
  unfold set_next_delta
  rcases bucketAt_setBucket_field KT t i j
    { bucketAt KT t i with _next_delta := v } with ⟨h, rfl⟩ | h
  · rw [h]
  · rw [h]

theorem next_delta_set_next_delta (KT : KeyTraits) (t : List Bucket) {i : Int} (j : Int) (v : Int)
    (h0 : 0 ≤ i) (h1 : i < (t.length : Int)) :
    (bucketAt KT (set_next_delta KT t i v) j)._next_delta =
      if j = i then v else (bucketAt KT t j)._next_delta := by
  unfold set_next_delta
  rw [bucketAt_setBucket KT t j _ h0 h1]
  split <;> rfl

theorem hash_set_next_delta (KT : KeyTraits) (t : List Bucket) (i j : Int) (v : Int) :
    (bucketAt KT (set_next_delta KT t i v) j)._hash = (bucketAt KT t j)._hash := by
  unfold set_next_delta
  rcases bucketAt_setBucket_field KT t i j
    { bucketAt KT t i with _next_delta := v } with ⟨h, rfl⟩ | h
  · rw [h]
  · rw [h]

theorem key_set_next_delta (KT : KeyTraits) (t : List Bucket) (i j : Int) (v : Int) :
    (bucketAt KT (set_next_delta KT t i v) j)._key = (bucketAt KT t j)._key := by
  unfold set_next_delta
  rcases bucketAt_setBucket_field KT t i j
    { bucketAt KT t i with _next_delta := v } with ⟨h, rfl⟩ | h
  · rw [h]
  · rw [h]

theorem length_set_hash (KT : KeyTraits) (t : List Bucket) (i : Int) (v : Nat) :
    (set_hash KT t i v).length = t.length := length_setBucket _ _ _

theorem first_delta_set_hash (KT : KeyTraits) (t : List Bucket) (i j : Int) (v : Nat) :
    (bucketAt KT (set_hash KT t i v) j)._first_delta = (bucketAt KT t j)._first_delta := by
  unfold set_hash
  rcases bucketAt_setBucket_field KT t i j
    { bucketAt KT t i with _hash := v } with ⟨h, rfl⟩ | h
  · rw [h]
  · rw [h]

theorem next_delta_set_hash (KT : KeyTraits) (t : List Bucket) (i j : Int) (v : Nat) :
    (bucketAt KT (set_hash KT t i v) j)._next_delta = (bucketAt KT t j)._next_delta := by
  unfold set_hash
  rcases bucketAt_setBucket_field KT t i j
    { bucketAt KT t i with _hash := v } with ⟨h, rfl⟩ | h
  · rw [h]
  · rw [h]

theorem hash_set_hash (KT : KeyTraits) (t : List Bucket) {i : Int} (j : Int) (v : Nat)
    (h0 : 0 ≤ i) (h1 : i < (t.length : Int)) :
    (bucketAt KT (set_hash KT t i v) j)._hash =
      if j = i then v else (bucketAt KT t j)._hash := by
  unfold set_hash
  rw [bucketAt_setBucket KT t j _ h0 h1]
  split <;> rfl

theorem key_set_hash (KT : KeyTraits) (t : List Bucket) (i j : Int) (v : Nat) :
    (bucketAt KT (set_hash KT t i v) j)._key = (bucketAt KT t j)._key := by
  unfold set_hash
  rcases bucketAt_setBucket_field KT t i j
    { bucketAt KT t i with _hash := v } with ⟨h, rfl⟩ | h
  · rw [h]
  · rw [h]

theorem length_set_key (KT : KeyTraits) (t : List Bucket) (i : Int) (v : Nat) :
    (set_key KT t i v).length = t.length := length_setBucket _ _ _

theorem first_delta_set_key (KT : KeyTraits) (t : List Bucket) (i j : Int) (v : Nat) :
    (bucketAt KT (set_key KT t i v) j)._first_delta = (bucketAt KT t j)._first_delta := by
  unfold set_key
  rcases bucketAt_setBucket_field KT t i j
    { bucketAt KT t i with _key := v } with ⟨h, rfl⟩ | h
  · rw [h]
  · rw [h]

theorem next_delta_set_key (KT : KeyTraits) (t : List Bucket) (i j : Int) (v : Nat) :
    (bucketAt KT (set_key KT t i v) j)._next_delta = (bucketAt KT t j)._next_delta := by
  unfold set_key
  rcases bucketAt_setBucket_field KT t i j
    { bucketAt KT t i with _key := v } with ⟨h, rfl⟩ | h
  · rw [h]
  · rw [h]

theorem hash_set_key (KT : KeyTraits) (t : List Bucket) (i j : Int) (v : Nat) :
    (bucketAt KT (set_key KT t i v) j)._hash = (bucketAt KT t j)._hash := by
  unfold set_key
  rcases bucketAt_setBucket_field KT t i j
    { bucketAt KT t i with _key := v } with ⟨h, rfl⟩ | h
  · rw [h]
  · rw [h]

theorem key_set_key (KT : KeyTraits) (t : List Bucket) {i : Int} (j : Int) (v : Nat)
    (h0 : 0 ≤ i) (h1 : i < (t.length : Int)) :
    (bucketAt KT (set_key KT t i v) j)._key =
      if j = i then v else (bucketAt KT t j)._key := by
  unfold set_key
  rw [bucketAt_setBucket KT t j _ h0 h1]
  split <;> rfl

end HopscotchHashSet
end concurrent_data_structures

namespace concurrent_data_structures
namespace HopscotchHashSet

theorem add_key_to_end_spec (KT : KeyTraits) (t : List Bucket) (h f : Int) (hash key : Nat)
    (last : Option Int) (hf : 0 ≤ f ∧ f < (t.length : Int)) (hh : 0 ≤ h ∧ h < (t.length : Int))
    (hl : ∀ l, last = some l → 0 ≤ l ∧ l < (t.length : Int) ∧ l ≠ f) (j : Int) :
    (add_key_to_end_of_list KT (claim KT t f hash) h f key last).length = t.length ∧
    (bucketAt KT (add_key_to_end_of_list KT (claim KT t f hash) h f key last) j)._first_delta =
      (if last = none ∧ j = h then toInt32 (f - h) else (bucketAt KT t j)._first_delta) ∧
    (bucketAt KT (add_key_to_end_of_list KT (claim KT t f hash) h f key last) j)._next_delta =
      (if last = some j then toInt32 (f - j) else if j = f then _NULL_DELTA
        else (bucketAt KT t j)._next_delta) ∧
    (bucketAt KT (add_key_to_end_of_list KT (claim KT t f hash) h f key last) j)._hash =
      (if j = f then hash else (bucketAt KT t j)._hash) ∧
    (bucketAt KT (add_key_to_end_of_list KT (claim KT t f hash) h f key last) j)._key =
      (if j = f then key else (bucketAt KT t j)._key) := by
  obtain ⟨hf0, hf1⟩ := hf
  obtain ⟨hh0, hh1⟩ := hh
  cases last with
  | none =>
    simp only [add_key_to_end_of_list, claim, length_set_first_delta, length_set_next_delta,
      length_set_hash, length_set_key, first_delta_set_first_delta,
      first_delta_set_next_delta, first_delta_set_hash, first_delta_set_key,
      next_delta_set_first_delta, next_delta_set_next_delta, next_delta_set_hash,
      next_delta_set_key, hash_set_first_delta, hash_set_next_delta, hash_set_hash,
      hash_set_key, key_set_first_delta, key_set_next_delta, key_set_hash,
      key_set_key, hf0, hf1, hh0, hh1, true_and, reduceCtorEq, if_false]
  | some l =>
    obtain ⟨hl0, hl1, hlf⟩ := hl l rfl
    simp only [add_key_to_end_of_list, claim, length_set_first_delta, length_set_next_delta,
      length_set_hash, length_set_key, first_delta_set_first_delta,
      first_delta_set_next_delta, first_delta_set_hash, first_delta_set_key,
      next_delta_set_first_delta, next_delta_set_next_delta, next_delta_set_hash,
      next_delta_set_key, hash_set_first_delta, hash_set_next_delta, hash_set_hash,
      hash_set_key, key_set_first_delta, key_set_next_delta, key_set_hash,
      key_set_key, hf0, hf1, hl0, hl1, true_and, reduceCtorEq, false_and, if_false,
      Option.some.injEq]
    clear hl
    split_ifs <;> subst_vars <;> simp_all

theorem add_key_to_begining_spec (KT : KeyTraits) (t : List Bucket) (h f : Int)
    (hash key : Nat) (hf : 0 ≤ f ∧ f < (t.length : Int)) (hh : 0 ≤ h ∧ h < (t.length : Int))
    (hne : (bucketAt KT t h)._first_delta = 0 → f ≠ h) (j : Int) :
    (add_key_to_begining_of_list KT (claim KT t f hash) h f key).length = t.length ∧
    (bucketAt KT (add_key_to_begining_of_list KT (claim KT t f hash) h f key) j)._first_delta =
      (if j = h ∧ (bucketAt KT t h)._first_delta ≠ 0 then toInt32 (f - h)
        else (bucketAt KT t j)._first_delta) ∧
    (bucketAt KT (add_key_to_begining_of_list KT (claim KT t f hash) h f key) j)._next_delta =
      (if (bucketAt KT t h)._first_delta = 0 then
        (if j = h then toInt32 (f - h)
          else if j = f then
            (if (bucketAt KT t h)._next_delta = _NULL_DELTA then _NULL_DELTA
              else toInt32 ((h + (bucketAt KT t h)._next_delta) - f))
          else (bucketAt KT t j)._next_delta)
      else
        (if j = f then
          (if (bucketAt KT t h)._first_delta = _NULL_DELTA then _NULL_DELTA
            else toInt32 ((h + (bucketAt KT t h)._first_delta) - f))
          else (bucketAt KT t j)._next_delta)) ∧
    (bucketAt KT (add_key_to_begining_of_list KT (claim KT t f hash) h f key) j)._hash =
      (if j = f then hash else (bucketAt KT t j)._hash) ∧
    (bucketAt KT (add_key_to_begining_of_list KT (claim KT t f hash) h f key) j)._key =
      (if j = f then key else (bucketAt KT t j)._key) := by
  obtain ⟨hf0, hf1⟩ := hf
  obtain ⟨hh0, hh1⟩ := hh
  by_cases h0 : (bucketAt KT t h)._first_delta = 0
  · have hfh := hne h0
    have h0' := eq_true h0.symm
    have h0 := eq_true h0
    clear hne
    by_cases hn : (bucketAt KT t h)._next_delta = _NULL_DELTA
    · have hn' := eq_true hn.symm
      have hn := eq_true hn
      simp only [add_key_to_begining_of_list, claim, length_set_first_delta, length_set_next_delta,
      length_set_hash, length_set_key, first_delta_set_first_delta,
      first_delta_set_next_delta, first_delta_set_hash, first_delta_set_key,
      next_delta_set_first_delta, next_delta_set_next_delta, next_delta_set_hash,
      next_delta_set_key, hash_set_first_delta, hash_set_next_delta, hash_set_hash,
      hash_set_key, key_set_first_delta, key_set_next_delta, key_set_hash,
      key_set_key, hf0, hf1, hh0, hh1, true_and, if_true, h0', hn', h0, hn]
      split_ifs <;> simp_all
    · have hn' := eq_false (fun e : _NULL_DELTA = (bucketAt KT t h)._next_delta => hn e.symm)
      have hn := eq_false hn
      simp only [add_key_to_begining_of_list, claim, length_set_first_delta, length_set_next_delta,
      length_set_hash, length_set_key, first_delta_set_first_delta,
      first_delta_set_next_delta, first_delta_set_hash, first_delta_set_key,
      next_delta_set_first_delta, next_delta_set_next_delta, next_delta_set_hash,
      next_delta_set_key, hash_set_first_delta, hash_set_next_delta, hash_set_hash,
      hash_set_key, key_set_first_delta, key_set_next_delta, key_set_hash,
      key_set_key, hf0, hf1, hh0, hh1, true_and, if_true, if_false, h0', hn', h0, hn]
      split_ifs <;> simp_all
  · have h0' := eq_false (fun e : (0 : Int) = (bucketAt KT t h)._first_delta => h0 e.symm)
    have h0 := eq_false h0
    clear hne
    by_cases hn : (bucketAt KT t h)._first_delta = _NULL_DELTA
    · have hn' := eq_true hn.symm
      have hn := eq_true hn
      simp only [add_key_to_begining_of_list, claim, length_set_first_delta, length_set_next_delta,
      length_set_hash, length_set_key, first_delta_set_first_delta,
      first_delta_set_next_delta, first_delta_set_hash, first_delta_set_key,
      next_delta_set_first_delta, next_delta_set_next_delta, next_delta_set_hash,
      next_delta_set_key, hash_set_first_delta, hash_set_next_delta, hash_set_hash,
      hash_set_key, key_set_first_delta, key_set_next_delta, key_set_hash,
      key_set_key, hf0, hf1, hh0, hh1, true_and, if_true, if_false, h0', hn', h0, hn, ne_eq, not_false_eq_true, and_true]
    · have hn' := eq_false (fun e : _NULL_DELTA = (bucketAt KT t h)._first_delta => hn e.symm)
      have hn := eq_false hn
      simp only [add_key_to_begining_of_list, claim, length_set_first_delta, length_set_next_delta,
      length_set_hash, length_set_key, first_delta_set_first_delta,
      first_delta_set_next_delta, first_delta_set_hash, first_delta_set_key,
      next_delta_set_first_delta, next_delta_set_next_delta, next_delta_set_hash,
      next_delta_set_key, hash_set_first_delta, hash_set_next_delta, hash_set_hash,
      hash_set_key, key_set_first_delta, key_set_next_delta, key_set_hash,
      key_set_key, hf0, hf1, hh0, hh1, true_and, if_true, if_false, h0', hn', h0, hn, ne_eq, not_false_eq_true, and_true]

theorem remove_key_spec (KT : KeyTraits) (t : List Bucket) (h m : Int) (prev : Option Int)
    (hm : 0 ≤ m ∧ m < (t.length : Int)) (hh : 0 ≤ h ∧ h < (t.length : Int))
    (hp : ∀ p, prev = some p → 0 ≤ p ∧ p < (t.length : Int) ∧ p ≠ m) (j : Int) :
    (remove_key KT t h m prev).length = t.length ∧
    (bucketAt KT (remove_key KT t h m prev) j)._first_delta =
      (if prev = none ∧ j = h then
        (if (bucketAt KT t m)._next_delta = _NULL_DELTA then _NULL_DELTA
          else toInt32 ((bucketAt KT t h)._first_delta + (bucketAt KT t m)._next_delta))
        else (bucketAt KT t j)._first_delta) ∧
    (bucketAt KT (remove_key KT t h m prev) j)._next_delta =
      (if j = m then _NULL_DELTA
        else if prev = some j then
          (if (bucketAt KT t m)._next_delta = _NULL_DELTA then _NULL_DELTA
            else toInt32 ((bucketAt KT t j)._next_delta + (bucketAt KT t m)._next_delta))
        else (bucketAt KT t j)._next_delta) ∧
    (bucketAt KT (remove_key KT t h m prev) j)._hash =
      (if j = m then 0 else (bucketAt KT t j)._hash) ∧
    (bucketAt KT (remove_key KT t h m prev) j)._key =
      (if j = m then KT.NullKey else (bucketAt KT t j)._key) := by
  obtain ⟨hm0, hm1⟩ := hm
  obtain ⟨hh0, hh1⟩ := hh
  by_cases hn : (bucketAt KT t m)._next_delta = _NULL_DELTA
  · have hn' := eq_true hn.symm
    have hn := eq_true hn
    cases prev with
    | none =>
      simp only [remove_key, length_set_first_delta, length_set_next_delta,
      length_set_hash, length_set_key, first_delta_set_first_delta,
      first_delta_set_next_delta, first_delta_set_hash, first_delta_set_key,
      next_delta_set_first_delta, next_delta_set_next_delta, next_delta_set_hash,
      next_delta_set_key, hash_set_first_delta, hash_set_next_delta, hash_set_hash,
      hash_set_key, key_set_first_delta, key_set_next_delta, key_set_hash,
      key_set_key, hm0, hm1, hh0, hh1, true_and, if_true, if_false, hn', hn, reduceCtorEq]
    | some p =>
      obtain ⟨hp0, hp1, hpm⟩ := hp p rfl
      clear hp
      simp only [remove_key, length_set_first_delta, length_set_next_delta,
      length_set_hash, length_set_key, first_delta_set_first_delta,
      first_delta_set_next_delta, first_delta_set_hash, first_delta_set_key,
      next_delta_set_first_delta, next_delta_set_next_delta, next_delta_set_hash,
      next_delta_set_key, hash_set_first_delta, hash_set_next_delta, hash_set_hash,
      hash_set_key, key_set_first_delta, key_set_next_delta, key_set_hash,
      key_set_key, hm0, hm1, hp0, hp1, true_and, if_true, if_false, hn', hn, reduceCtorEq, false_and, Option.some.injEq]
      split_ifs <;> subst_vars <;> simp_all
  · have hn' := eq_false (fun e : _NULL_DELTA = (bucketAt KT t m)._next_delta => hn e.symm)
    have hn := eq_false hn
    cases prev with
    | none =>
      simp only [remove_key, length_set_first_delta, length_set_next_delta,
      length_set_hash, length_set_key, first_delta_set_first_delta,
      first_delta_set_next_delta, first_delta_set_hash, first_delta_set_key,
      next_delta_set_first_delta, next_delta_set_next_delta, next_delta_set_hash,
      next_delta_set_key, hash_set_first_delta, hash_set_next_delta, hash_set_hash,
      hash_set_key, key_set_first_delta, key_set_next_delta, key_set_hash,
      key_set_key, hm0, hm1, hh0, hh1, true_and, if_true, if_false, hn', hn, reduceCtorEq]
    | some p =>
      obtain ⟨hp0, hp1, hpm⟩ := hp p rfl
      clear hp
      simp only [remove_key, length_set_first_delta, length_set_next_delta,
      length_set_hash, length_set_key, first_delta_set_first_delta,
      first_delta_set_next_delta, first_delta_set_hash, first_delta_set_key,
      next_delta_set_first_delta, next_delta_set_next_delta, next_delta_set_hash,
      next_delta_set_key, hash_set_first_delta, hash_set_next_delta, hash_set_hash,
      hash_set_key, key_set_first_delta, key_set_next_delta, key_set_hash,
      key_set_key, hm0, hm1, hp0, hp1, true_and, if_true, if_false, hn', hn, reduceCtorEq, false_and, Option.some.injEq]
      split_ifs <;> subst_vars <;> simp_all

theorem relocate_spec (KT : KeyTraits) (t : List Bucket) (f o r : Int) (last : Option Int)
    (hf : 0 ≤ f ∧ f < (t.length : Int)) (ho : 0 ≤ o ∧ o < (t.length : Int))
    (hr : 0 ≤ r ∧ r < (t.length : Int) ∧ r ≠ f)
    (hl : ∀ l, last = some l → 0 ≤ l ∧ l < (t.length : Int) ∧ l ≠ f ∧ l ≠ r) (j : Int) :
    (relocate KT t f o r last).length = t.length ∧
    (bucketAt KT (relocate KT t f o r last) j)._first_delta =
      (if last = none ∧ j = o then toInt32 (f - o) else (bucketAt KT t j)._first_delta) ∧
    (bucketAt KT (relocate KT t f o r last) j)._next_delta =
      (if j = r then _NULL_DELTA
        else if last = some j then toInt32 (f - j)
        else if j = f then
          (if (bucketAt KT t r)._next_delta = _NULL_DELTA then _NULL_DELTA
            else toInt32 ((r + (bucketAt KT t r)._next_delta) - f))
        else (bucketAt KT t j)._next_delta) ∧
    (bucketAt KT (relocate KT t f o r last) j)._hash =
      (if j = r then 0 else if j = f then (bucketAt KT t r)._hash
        else (bucketAt KT t j)._hash) ∧
    (bucketAt KT (relocate KT t f o r last) j)._key =
      (if j = r then KT.NullKey else if j = f then (bucketAt KT t r)._key
        else (bucketAt KT t j)._key) := by
  obtain ⟨hf0, hf1⟩ := hf
  obtain ⟨ho0, ho1⟩ := ho
  obtain ⟨hr0, hr1, hrf⟩ := hr
  by_cases hn : (bucketAt KT t r)._next_delta = _NULL_DELTA
  · have hn' := eq_true hn.symm
    have hn := eq_true hn
    cases last with
    | none =>
      simp only [relocate, length_set_first_delta, length_set_next_delta,
      length_set_hash, length_set_key, first_delta_set_first_delta,
      first_delta_set_next_delta, first_delta_set_hash, first_delta_set_key,
      next_delta_set_first_delta, next_delta_set_next_delta, next_delta_set_hash,
      next_delta_set_key, hash_set_first_delta, hash_set_next_delta, hash_set_hash,
      hash_set_key, key_set_first_delta, key_set_next_delta, key_set_hash,
      key_set_key, hf0, hf1, ho0, ho1, hr0, hr1, hrf, true_and, if_true, if_false, hn', hn, reduceCtorEq]
    | some p =>
      obtain ⟨hp0, hp1, hpf, hpr⟩ := hl p rfl
      clear hl
      simp only [relocate, length_set_first_delta, length_set_next_delta,
      length_set_hash, length_set_key, first_delta_set_first_delta,
      first_delta_set_next_delta, first_delta_set_hash, first_delta_set_key,
      next_delta_set_first_delta, next_delta_set_next_delta, next_delta_set_hash,
      next_delta_set_key, hash_set_first_delta, hash_set_next_delta, hash_set_hash,
      hash_set_key, key_set_first_delta, key_set_next_delta, key_set_hash,
      key_set_key, hf0, hf1, hr0, hr1, hrf, hp0, hp1, true_and, if_true, if_false, hn', hn, reduceCtorEq, false_and, Option.some.injEq]
      split_ifs <;> subst_vars <;> simp_all
  · have hn' := eq_false (fun e : _NULL_DELTA = (bucketAt KT t r)._next_delta => hn e.symm)
    have hn := eq_false hn
    cases last with
    | none =>
      simp only [relocate, length_set_first_delta, length_set_next_delta,
      length_set_hash, length_set_key, first_delta_set_first_delta,
      first_delta_set_next_delta, first_delta_set_hash, first_delta_set_key,
      next_delta_set_first_delta, next_delta_set_next_delta, next_delta_set_hash,
      next_delta_set_key, hash_set_first_delta, hash_set_next_delta, hash_set_hash,
      hash_set_key, key_set_first_delta, key_set_next_delta, key_set_hash,
      key_set_key, hf0, hf1, ho0, ho1, hr0, hr1, hrf, true_and, if_true, if_false, hn', hn, reduceCtorEq]
    | some p =>
      obtain ⟨hp0, hp1, hpf, hpr⟩ := hl p rfl
      clear hl
      simp only [relocate, length_set_first_delta, length_set_next_delta,
      length_set_hash, length_set_key, first_delta_set_first_delta,
      first_delta_set_next_delta, first_delta_set_hash, first_delta_set_key,
      next_delta_set_first_delta, next_delta_set_next_delta, next_delta_set_hash,
      next_delta_set_key, hash_set_first_delta, hash_set_next_delta, hash_set_hash,
      hash_set_key, key_set_first_delta, key_set_next_delta, key_set_hash,
      key_set_key, hf0, hf1, hr0, hr1, hrf, hp0, hp1, true_and, if_true, if_false, hn', hn, reduceCtorEq, false_and, Option.some.injEq]
      split_ifs <;> subst_vars <;> simp_all

end HopscotchHashSet
end concurrent_data_structures

namespace concurrent_data_structures
namespace HopscotchHashSet

/-! ### Hopscotch: the lists after each update -/

theorem wf_same_home (KT : KeyTraits) (cfg : Config) {t : List Bucket} {ms : Int → List Int}
    (hwf : WellFormed KT cfg t ms) {h h' m : Int} (hm : m ∈ ms h) (hm' : m ∈ ms h') :
    h = h' := by
  rw [← (hwf.member h m hm).2.2.2.2, ← (hwf.member h' m hm').2.2.2.2]

theorem wf_members_nodup (KT : KeyTraits) (cfg : Config) {t : List Bucket}
    {ms : Int → List Int} (hwf : WellFormed KT cfg t ms) (h : Int) : (ms h).Nodup :=
  List.Nodup.of_map _ (hwf.nodup h)

theorem wf_length_le (KT : KeyTraits) (cfg : Config) {t : List Bucket} {ms : Int → List Int}
    (hwf : WellFormed KT cfg t ms) (h : Int) : (ms h).length ≤ t.length :=
  members_length_le (wf_members_nodup KT cfg hwf h)
    (fun m hm => ⟨(hwf.member h m hm).1, (hwf.member h m hm).2.1⟩)

theorem wf_free_not_member (KT : KeyTraits) (cfg : Config) {t : List Bucket}
    {ms : Int → List Int} (hwf : WellFormed KT cfg t ms) {f : Int}
    (hf : (bucketAt KT t f)._hash = 0) (h : Int) : f ∉ ms h :=
  fun hm => (hwf.member h f hm).2.2.1 hf

theorem lastBucket_mem : ∀ (ms : List Int) (last : Option Int) (l : Int),
    lastBucket last ms = some l → last = some l ∨ l ∈ ms
  | [], _, _, h => Or.inl h
  | m :: ms, _, l, h => by
    rcases lastBucket_mem ms (some m) l h with h1 | h1
    · cases h1; exact Or.inr (List.mem_cons_self _ _)
    · exact Or.inr (List.mem_cons_of_mem _ h1)

theorem nil_or_snoc (ms : List Int) : ms = [] ∨ ∃ pre p, ms = pre ++ [p] := by
  rcases List.eq_nil_or_concat ms with h | ⟨pre, p, h⟩
  · exact Or.inl h
  · exact Or.inr ⟨pre, p, by rw [h, List.concat_eq_append]⟩

theorem lastBucket_nil_iff : ∀ (ms : List Int), lastBucket none ms = none ↔ ms = []
  | [] => by simp [lastBucket]
  | m :: ms => by
    rw [lastBucket_cons]
    constructor
    · intro h
      rcases nil_or_snoc ms with rfl | ⟨pre, p, rfl⟩
      · cases h
      · rw [lastBucket_append] at h; cases h
    · intro h; cases h

theorem hchain_redirect (KT : KeyTraits) {t t' : List Bucket} {a da b : Int}
    {tail : List Int} (hc : Chain KT t a da tail)
    (hfr : ∀ x ∈ tail, (bucketAt KT t' x)._next_delta = (bucketAt KT t x)._next_delta)
    (hb : 0 ≤ b ∧ b < 2147483648) (ht : ∀ x ∈ tail, 0 ≤ x ∧ x < 2147483648) :
    Chain KT t' b (if da = _NULL_DELTA then _NULL_DELTA else toInt32 (a + da - b)) tail := by
  cases tail with
  | nil =>
    have hd : da = _NULL_DELTA := hc
    rw [if_pos hd]
    rfl
  | cons x xs =>
    obtain ⟨h1, h2, h3⟩ := hc
    have hx := ht x (List.mem_cons_self _ _)
    rw [if_neg h1, ← h2, toInt32_eq (by omega) (by omega)]
    refine ⟨?_, by omega, ?_⟩
    · unfold _NULL_DELTA; omega
    · rw [hfr x (List.mem_cons_self _ _)]
      exact hchain_frame KT xs x _ (fun y hy => hfr y (List.mem_cons_of_mem _ hy)) h3

theorem hchain_link (KT : KeyTraits) {t' : List Bucket} {c f : Int} {tail : List Int}
    (hc : 0 ≤ c ∧ c < 2147483648) (hf : 0 ≤ f ∧ f < 2147483648)
    (ht : Chain KT t' f (bucketAt KT t' f)._next_delta tail) :
    Chain KT t' c (toInt32 (f - c)) (f :: tail) := by
  rw [toInt32_eq (by omega) (by omega)]
  refine ⟨?_, by omega, ht⟩
  unfold _NULL_DELTA; omega

theorem wf_update (KT : KeyTraits) (cfg : Config) {t t' : List Bucket} {ms : Int → List Int}
    (hwf : WellFormed KT cfg t ms) (h : Int) (new : List Int)
    (hlen : t'.length = t.length)
    (hfd : ∀ j, j ≠ h → (bucketAt KT t' j)._first_delta = (bucketAt KT t j)._first_delta)
    (hother : ∀ j, j ∉ ms h → j ∉ new →
      (bucketAt KT t' j)._next_delta = (bucketAt KT t j)._next_delta ∧
      (bucketAt KT t' j)._hash = (bucketAt KT t j)._hash ∧
      (bucketAt KT t' j)._key = (bucketAt KT t j)._key)
    (hchain : Chain KT t' h (bucketAt KT t' h)._first_delta new)
    (hmem : ∀ m ∈ new, 0 ≤ m ∧ m < (t.length : Int) ∧ (bucketAt KT t' m)._hash ≠ 0 ∧
      (bucketAt KT t' m)._hash = KT.hash (bucketAt KT t' m)._key % 2 ^ 32 ∧
      home KT cfg (bucketAt KT t' m)._key = h)
    (hnd : (new.map (fun m => (bucketAt KT t' m)._key)).Nodup)
    (hnew : ∀ m ∈ new, m ∈ ms h ∨ (bucketAt KT t m)._hash = 0)
    (hcl : ∀ j, (bucketAt KT t' j)._hash ≠ 0 →
      j ∈ new ∨ ((bucketAt KT t j)._hash ≠ 0 ∧ j ∉ ms h)) :
    WellFormed KT cfg t' (Function.update ms h new) ∧
    ∀ h', h' ≠ h → (ms h').map (fun m => (bucketAt KT t' m)._key) =
      (ms h').map (fun m => (bucketAt KT t m)._key) := by
  have hout : ∀ h', h' ≠ h → ∀ x ∈ ms h', x ∉ ms h ∧ x ∉ new := by
    intro h' hne x hx
    have h1 : x ∉ ms h := fun hx' => hne (wf_same_home KT cfg hwf hx hx')
    refine ⟨h1, fun hx' => ?_⟩
    rcases hnew x hx' with h2 | h2
    · exact h1 h2
    · exact wf_free_not_member KT cfg hwf h2 h' hx
  refine ⟨⟨?_, ?_, ?_, ?_⟩, ?_⟩
  · intro h'
    by_cases hh : h' = h
    · subst hh
      rw [Function.update_same]
      exact hchain
    · rw [Function.update_noteq hh, hfd h' hh]
      exact hchain_frame KT _ _ _
        (fun x hx => (hother x (hout h' hh x hx).1 (hout h' hh x hx).2).1) (hwf.chain h')
  · intro h' m hm
    by_cases hh : h' = h
    · subst hh
      rw [Function.update_same] at hm
      rw [hlen]
      exact hmem m hm
    · rw [Function.update_noteq hh] at hm
      obtain ⟨e1, e2, e3⟩ := hother m (hout h' hh m hm).1 (hout h' hh m hm).2
      rw [hlen, e2, e3]
      exact hwf.member h' m hm
  · intro h'
    by_cases hh : h' = h
    · subst hh
      rw [Function.update_same]
      exact hnd
    · rw [Function.update_noteq hh]
      have : (ms h').map (fun m => (bucketAt KT t' m)._key) =
          (ms h').map (fun m => (bucketAt KT t m)._key) :=
        List.map_congr_left
          (fun x hx => (hother x (hout h' hh x hx).1 (hout h' hh x hx).2).2.2)
      rw [this]
      exact hwf.nodup h'
  · intro j hj
    rcases hcl j hj with h1 | ⟨h1, h2⟩
    · exact ⟨h, by rw [Function.update_same]; exact h1⟩
    · obtain ⟨h', hh'⟩ := hwf.claimed j h1
      have hne : h' ≠ h := fun e => h2 (e ▸ hh')
      exact ⟨h', by rw [Function.update_noteq hne]; exact hh'⟩
  · intro h' hh
    exact List.map_congr_left
      (fun x hx => (hother x (hout h' hh x hx).1 (hout h' hh x hx).2).2.2)

theorem represents_update (KT : KeyTraits) (cfg : Config) {t t' : List Bucket}
    {ms : Int → List Int} {S S' : Finset Nat} (h : Int) (new : List Int)
    (hS : ∀ k, k ∈ S ↔ k ∈ (ms (home KT cfg k)).map (fun m => (bucketAt KT t m)._key))
    (hwf' : WellFormed KT cfg t' (Function.update ms h new) ∧
      ∀ h', h' ≠ h → (ms h').map (fun m => (bucketAt KT t' m)._key) =
        (ms h').map (fun m => (bucketAt KT t m)._key))
    (hin : ∀ k, home KT cfg k = h →
      (k ∈ S' ↔ k ∈ new.map (fun m => (bucketAt KT t' m)._key)))
    (hout : ∀ k, home KT cfg k ≠ h → (k ∈ S' ↔ k ∈ S)) :
    Represents KT cfg t' S' := by
  refine ⟨_, hwf'.1, fun k => ?_⟩
  by_cases hk : home KT cfg k = h
  · rw [hk, Function.update_same]
    exact hin k hk
  · rw [Function.update_noteq hk, hwf'.2 _ hk, hout k hk]
    exact hS k

end HopscotchHashSet
end concurrent_data_structures

namespace concurrent_data_structures
namespace HopscotchHashSet

theorem home_nonneg (KT : KeyTraits) (cfg : Config) (key : Nat) : 0 ≤ home KT cfg key := by
  unfold home; exact Int.ofNat_nonneg _

theorem home_le_mask (KT : KeyTraits) (cfg : Config) (key : Nat) :
    home KT cfg key ≤ (cfg.m_size_mask : Int) := by
  unfold home; exact Int.ofNat_le.mpr Nat.and_le_right

theorem add_end_represents (KT : KeyTraits) (cfg : Config) {t : List Bucket}
    {ms : Int → List Int} {S : Finset Nat} (hwf : WellFormed KT cfg t ms)
    (hS : ∀ k, k ∈ S ↔ k ∈ (ms (home KT cfg k)).map (fun m => (bucketAt KT t m)._key))
    (key : Nat) (f : Int) (hL : (t.length : Int) ≤ 2147483648)
    (hh : home KT cfg key < (t.length : Int))
    (hf : 0 ≤ f ∧ f < (t.length : Int)) (hfree : (bucketAt KT t f)._hash = 0)
    (hhash : KT.hash key % 2 ^ 32 ≠ 0) (hkey : key ∉ S) :
    Represents KT cfg
      (add_key_to_end_of_list KT (claim KT t f (KT.hash key % 2 ^ 32)) (home KT cfg key) f key
        (lastBucket none (ms (home KT cfg key)))) (insert key S) ∧
    (add_key_to_end_of_list KT (claim KT t f (KT.hash key % 2 ^ 32)) (home KT cfg key) f key
      (lastBucket none (ms (home KT cfg key)))).length = t.length := by
  have hh0 := home_nonneg KT cfg key
  have hfm : ∀ h', f ∉ ms h' := wf_free_not_member KT cfg hwf hfree
  have hl : ∀ l, lastBucket none (ms (home KT cfg key)) = some l →
      0 ≤ l ∧ l < (t.length : Int) ∧ l ≠ f := by
    intro l hl
    rcases lastBucket_mem _ _ _ hl with h1 | h1
    · cases h1
    · have := hwf.member _ l h1
      exact ⟨this.1, this.2.1, fun e => hfm _ (e ▸ h1)⟩
  have spec := add_key_to_end_spec KT t (home KT cfg key) f (KT.hash key % 2 ^ 32) key
    (lastBucket none (ms (home KT cfg key))) hf ⟨hh0, hh⟩ hl
  generalize add_key_to_end_of_list KT (claim KT t f (KT.hash key % 2 ^ 32)) (home KT cfg key)
    f key (lastBucket none (ms (home KT cfg key))) = t' at spec
  refine ⟨?_, (spec 0).1⟩
  have hknot : key ∉ (ms (home KT cfg key)).map (fun m => (bucketAt KT t m)._key) :=
    fun hk => hkey ((hS key).mpr hk)
  have hold : ∀ x, x ≠ f → (bucketAt KT t' x)._hash = (bucketAt KT t x)._hash ∧
      (bucketAt KT t' x)._key = (bucketAt KT t x)._key := by
    intro x hx
    have := spec x
    rw [this.2.2.2.1, this.2.2.2.2, if_neg hx, if_neg hx]
    exact ⟨rfl, rfl⟩
  have hnew : (bucketAt KT t' f)._hash = KT.hash key % 2 ^ 32 ∧
      (bucketAt KT t' f)._key = key := by
    have := spec f
    rw [this.2.2.2.1, this.2.2.2.2, if_pos rfl, if_pos rfl]
    exact ⟨rfl, rfl⟩
  have hndf : (bucketAt KT t' f)._next_delta = _NULL_DELTA := by
    rw [(spec f).2.2.1, if_neg (fun e => (hl f e).2.2 rfl), if_pos rfl]
  have hmap : (ms (home KT cfg key)).map (fun m => (bucketAt KT t' m)._key) =
      (ms (home KT cfg key)).map (fun m => (bucketAt KT t m)._key) :=
    List.map_congr_left (fun x hx => (hold x (fun e => hfm _ (e ▸ hx))).2)
  have hmem_range : ∀ x ∈ ms (home KT cfg key), 0 ≤ x ∧ x < 2147483648 := fun x hx =>
    ⟨(hwf.member _ x hx).1, lt_of_lt_of_le (hwf.member _ x hx).2.1 hL⟩
  refine represents_update KT cfg (home KT cfg key) (ms (home KT cfg key) ++ [f]) hS
    (wf_update KT cfg hwf _ _ (spec 0).1 ?_ ?_ ?_ ?_ ?_ ?_ ?_) ?_ ?_
  · intro j hj
    rw [(spec j).2.1, if_neg (fun h => hj h.2)]
  · intro j hj1 hj2
    have hjf : j ≠ f := fun e => hj2 (by rw [e]; simp)
    refine ⟨?_, (hold j hjf).1, (hold j hjf).2⟩
    rw [(spec j).2.2.1, if_neg, if_neg hjf]
    intro hlast
    rcases lastBucket_mem _ _ _ hlast with h1 | h1
    · cases h1
    · exact hj1 h1
  · rcases nil_or_snoc (ms (home KT cfg key)) with hnil | ⟨pre, p, hsnoc⟩
    · rw [hnil, List.nil_append, (spec _).2.1,
        if_pos ⟨(lastBucket_nil_iff _).mpr hnil, rfl⟩]
      refine hchain_link KT ⟨hh0, by omega⟩ ⟨hf.1, by omega⟩ ?_
      rw [hndf]
      rfl
    · have hlast : lastBucket none (ms (home KT cfg key)) = some p := by
        rw [hsnoc, lastBucket_append]
      have hnd := wf_members_nodup KT cfg hwf (home KT cfg key)
      have hc := hwf.chain (home KT cfg key)
      rw [hsnoc] at hnd hc
      have hpm : p ∈ ms (home KT cfg key) := by rw [hsnoc]; simp
      rw [(spec _).2.1, if_neg (fun h => by rw [hlast] at h; cases h.1), hsnoc,
        List.append_assoc, List.singleton_append]
      refine hchain_prefix KT pre _ _ hc ?_ ?_
      · intro x hx
        have hxm : x ∈ ms (home KT cfg key) := by rw [hsnoc]; simp [hx]
        have hxp : x ≠ p := by
          rintro rfl
          exact (List.nodup_append.mp hnd).2.2 hx (List.mem_singleton_self _)
        rw [(spec x).2.2.1, hlast, if_neg (fun e => hxp (Option.some.inj e).symm),
          if_neg (fun e => hfm _ (e ▸ hxm))]
      · rw [(spec p).2.2.1, hlast, if_pos rfl]
        refine hchain_link KT (hmem_range p hpm) ⟨hf.1, by omega⟩ ?_
        rw [hndf]
        rfl
  · intro m hm
    rcases List.mem_append.mp hm with h1 | h1
    · have hmf : m ≠ f := fun e => hfm _ (e ▸ h1)
      rw [(hold m hmf).1, (hold m hmf).2]
      exact hwf.member _ m h1
    · rw [List.mem_singleton.mp h1, hnew.1, hnew.2]
      exact ⟨hf.1, hf.2, hhash, rfl, rfl⟩
  · rw [List.map_append, hmap, List.map_singleton, hnew.2]
    refine List.Nodup.append (hwf.nodup _) (List.nodup_singleton _) ?_
    intro k hk1 hk2
    rw [List.mem_singleton.mp hk2] at hk1
    exact hknot hk1
  · intro m hm
    rcases List.mem_append.mp hm with h1 | h1
    · exact Or.inl h1
    · rw [List.mem_singleton.mp h1]; exact Or.inr hfree
  · intro j hj
    by_cases hjf : j = f
    · left; rw [hjf]; simp
    · rw [(hold j hjf).1] at hj
      by_cases hjm : j ∈ ms (home KT cfg key)
      · exact Or.inl (List.mem_append_left _ hjm)
      · exact Or.inr ⟨hj, hjm⟩
  · intro k hk
    rw [List.map_append, hmap, List.map_singleton, hnew.2, Finset.mem_insert, hS k, hk]
    simp only [List.mem_append, List.mem_singleton]
    exact or_comm
  · intro k hk
    rw [Finset.mem_insert]
    constructor
    · rintro (rfl | h1)
      · exact absurd rfl hk
      · exact h1
    · exact Or.inr

theorem add_begin_represents (KT : KeyTraits) (cfg : Config) {t : List Bucket}
    {ms : Int → List Int} {S : Finset Nat} (hwf : WellFormed KT cfg t ms)
    (hS : ∀ k, k ∈ S ↔ k ∈ (ms (home KT cfg k)).map (fun m => (bucketAt KT t m)._key))
    (key : Nat) (f : Int) (hL : (t.length : Int) ≤ 2147483648)
    (hh : home KT cfg key < (t.length : Int))
    (hf : 0 ≤ f ∧ f < (t.length : Int)) (hfree : (bucketAt KT t f)._hash = 0)
    (hhash : KT.hash key % 2 ^ 32 ≠ 0) (hkey : key ∉ S) :
    Represents KT cfg
      (add_key_to_begining_of_list KT (claim KT t f (KT.hash key % 2 ^ 32)) (home KT cfg key) f
        key) (insert key S) ∧
    (add_key_to_begining_of_list KT (claim KT t f (KT.hash key % 2 ^ 32)) (home KT cfg key) f
      key).length = t.length := by
  have hh0 := home_nonneg KT cfg key
  have hfm : ∀ h', f ∉ ms h' := wf_free_not_member KT cfg hwf hfree
  have hc := hwf.chain (home KT cfg key)
  have hne : (bucketAt KT t (home KT cfg key))._first_delta = 0 → f ≠ home KT cfg key := by
    intro h0 e
    rw [h0] at hc
    cases hms : ms (home KT cfg key) with
    | nil => rw [hms] at hc; exact absurd (show (0 : Int) = _NULL_DELTA from hc) (by decide)
    | cons m0 rest =>
      rw [hms] at hc
      have hm0 : m0 = home KT cfg key := by rw [hc.2.1]; omega
      exact hfm (home KT cfg key) (by rw [hms, e, ← hm0]; exact List.mem_cons_self _ _)
  have spec := add_key_to_begining_spec KT t (home KT cfg key) f (KT.hash key % 2 ^ 32) key
    hf ⟨hh0, hh⟩ hne
  generalize add_key_to_begining_of_list KT (claim KT t f (KT.hash key % 2 ^ 32))
    (home KT cfg key) f key = t' at spec
  refine ⟨?_, (spec 0).1⟩
  have hknot : key ∉ (ms (home KT cfg key)).map (fun m => (bucketAt KT t m)._key) :=
    fun hk => hkey ((hS key).mpr hk)
  have hold : ∀ x, x ≠ f → (bucketAt KT t' x)._hash = (bucketAt KT t x)._hash ∧
      (bucketAt KT t' x)._key = (bucketAt KT t x)._key := by
    intro x hx
    have := spec x
    rw [this.2.2.2.1, this.2.2.2.2, if_neg hx, if_neg hx]
    exact ⟨rfl, rfl⟩
  have hnew : (bucketAt KT t' f)._hash = KT.hash key % 2 ^ 32 ∧
      (bucketAt KT t' f)._key = key := by
    have := spec f
    rw [this.2.2.2.1, this.2.2.2.2, if_pos rfl, if_pos rfl]
    exact ⟨rfl, rfl⟩
  have hmap : (ms (home KT cfg key)).map (fun m => (bucketAt KT t' m)._key) =
      (ms (home KT cfg key)).map (fun m => (bucketAt KT t m)._key) :=
    List.map_congr_left (fun x hx => (hold x (fun e => hfm _ (e ▸ hx))).2)
  have hmem_range : ∀ x ∈ ms (home KT cfg key), 0 ≤ x ∧ x < 2147483648 := fun x hx =>
    ⟨(hwf.member _ x hx).1, lt_of_lt_of_le (hwf.member _ x hx).2.1 hL⟩
  have hout : ∀ k, home KT cfg k ≠ home KT cfg key → (k ∈ insert key S ↔ k ∈ S) := by
    intro k hk
    rw [Finset.mem_insert]
    constructor
    · rintro (rfl | h1)
      · exact absurd rfl hk
      · exact h1
    · exact Or.inr
  by_cases h0 : (bucketAt KT t (home KT cfg key))._first_delta = 0
  · have hfh := hne h0
    cases hms : ms (home KT cfg key) with
    | nil =>
      rw [hms, h0] at hc
      exact absurd (show (0 : Int) = _NULL_DELTA from hc) (by decide)
    | cons m0 rest =>
      rw [hms, h0] at hc
      have hm0 : m0 = home KT cfg key := by rw [hc.2.1]; omega
      rw [hm0] at hms hc
      have hnd := wf_members_nodup KT cfg hwf (home KT cfg key)
      rw [hms] at hnd
      have hhrest : home KT cfg key ∉ rest := (List.nodup_cons.mp hnd).1
      have hrest : ∀ x ∈ rest, x ∈ ms (home KT cfg key) := fun x hx => by
        rw [hms]; exact List.mem_cons_of_mem _ hx
      have hfd : ∀ j, (bucketAt KT t' j)._first_delta = (bucketAt KT t j)._first_delta := by
        intro j
        rw [(spec j).2.1, if_neg (fun h => h.2 h0)]
      have hndx : ∀ j, j ≠ home KT cfg key → j ≠ f →
          (bucketAt KT t' j)._next_delta = (bucketAt KT t j)._next_delta := by
        intro j h1 h2
        rw [(spec j).2.2.1, if_pos h0, if_neg h1, if_neg h2]
      refine represents_update KT cfg (home KT cfg key) (home KT cfg key :: f :: rest) hS
        (wf_update KT cfg hwf _ _ (spec 0).1 (fun j _ => hfd j) ?_ ?_ ?_ ?_ ?_ ?_) ?_ hout
      · intro j hj1 hj2
        have hjh : j ≠ home KT cfg key := fun e => hj2 (by rw [e]; simp)
        have hjf : j ≠ f := fun e => hj2 (by rw [e]; simp)
        exact ⟨hndx j hjh hjf, (hold j hjf).1, (hold j hjf).2⟩
      · rw [hfd, h0]
        refine ⟨by decide, by omega, ?_⟩
        rw [(spec _).2.2.1, if_pos h0, if_pos rfl]
        refine hchain_link KT ⟨hh0, by omega⟩ ⟨hf.1, by omega⟩ ?_
        rw [(spec f).2.2.1, if_pos h0, if_neg hfh, if_pos rfl]
        exact hchain_redirect KT hc.2.2
          (fun x hx => hndx x (fun e => hhrest (e ▸ hx)) (fun e => hfm _ (e ▸ hrest x hx)))
          ⟨hf.1, by omega⟩ (fun x hx => hmem_range x (hrest x hx))
      · intro m hm
        rcases List.mem_cons.mp hm with h1 | h1
        · rw [h1, (hold _ hfh.symm).1, (hold _ hfh.symm).2]
          exact hwf.member _ _ (by rw [hms]; exact List.mem_cons_self _ _)
        · rcases List.mem_cons.mp h1 with h2 | h2
          · rw [h2, hnew.1, hnew.2]
            exact ⟨hf.1, hf.2, hhash, rfl, rfl⟩
          · have hmf : m ≠ f := fun e => hfm _ (e ▸ hrest m h2)
            rw [(hold m hmf).1, (hold m hmf).2]
            exact hwf.member _ m (hrest m h2)
      · have hn := hwf.nodup (home KT cfg key)
        rw [← hmap, hms] at hn
        rw [hms] at hknot hmap
        rw [← hmap] at hknot
        simp only [List.map_cons, List.nodup_cons, List.mem_cons, not_or, hnew.2] at hn hknot ⊢
        exact ⟨⟨fun e => hknot.1 e.symm, hn.1⟩, hknot.2, hn.2⟩
      · intro m hm
        rcases List.mem_cons.mp hm with h1 | h1
        · rw [h1, hms]; exact Or.inl (List.mem_cons_self _ _)
        · rcases List.mem_cons.mp h1 with h2 | h2
          · rw [h2]; exact Or.inr hfree
          · exact Or.inl (hrest m h2)
      · intro j hj
        by_cases hjf : j = f
        · left; rw [hjf]; simp
        · rw [(hold j hjf).1] at hj
          by_cases hjm : j ∈ ms (home KT cfg key)
          · left
            rw [hms] at hjm
            rcases List.mem_cons.mp hjm with h1 | h1
            · rw [h1]; exact List.mem_cons_self _ _
            · exact List.mem_cons_of_mem _ (List.mem_cons_of_mem _ h1)
          · exact Or.inr ⟨hj, hjm⟩
      · intro k hk
        rw [Finset.mem_insert, hS k, hk, ← hmap, hms]
        simp only [List.map_cons, List.mem_cons, hnew.2]
        tauto
  · have hfd : ∀ j, j ≠ home KT cfg key →
        (bucketAt KT t' j)._first_delta = (bucketAt KT t j)._first_delta := by
      intro j hj
      rw [(spec j).2.1, if_neg (fun h => hj h.1)]
    have hndx : ∀ j, j ≠ f →
        (bucketAt KT t' j)._next_delta = (bucketAt KT t j)._next_delta := by
      intro j h2
      rw [(spec j).2.2.1, if_neg h0, if_neg h2]
    refine represents_update KT cfg (home KT cfg key) (f :: ms (home KT cfg key)) hS
      (wf_update KT cfg hwf _ _ (spec 0).1 hfd ?_ ?_ ?_ ?_ ?_ ?_) ?_ hout
    · intro j _ hj2
      have hjf : j ≠ f := fun e => hj2 (by rw [e]; simp)
      exact ⟨hndx j hjf, (hold j hjf).1, (hold j hjf).2⟩
    · rw [(spec _).2.1, if_pos ⟨rfl, h0⟩]
      refine hchain_link KT ⟨hh0, by omega⟩ ⟨hf.1, by omega⟩ ?_
      rw [(spec f).2.2.1, if_neg h0, if_pos rfl]
      exact hchain_redirect KT hc (fun x hx => hndx x (fun e => hfm _ (e ▸ hx)))
        ⟨hf.1, by omega⟩ hmem_range
    · intro m hm
      rcases List.mem_cons.mp hm with h1 | h1
      · rw [h1, hnew.1, hnew.2]
        exact ⟨hf.1, hf.2, hhash, rfl, rfl⟩
      · have hmf : m ≠ f := fun e => hfm _ (e ▸ h1)
        rw [(hold m hmf).1, (hold m hmf).2]
        exact hwf.member _ m h1
    · rw [List.map_cons, hmap, hnew.2]
      exact List.nodup_cons.mpr ⟨hknot, hwf.nodup _⟩
    · intro m hm
      rcases List.mem_cons.mp hm with h1 | h1
      · rw [h1]; exact Or.inr hfree
      · exact Or.inl h1
    · intro j hj
      by_cases hjf : j = f
      · left; rw [hjf]; simp
      · rw [(hold j hjf).1] at hj
        by_cases hjm : j ∈ ms (home KT cfg key)
        · exact Or.inl (List.mem_cons_of_mem _ hjm)
        · exact Or.inr ⟨hj, hjm⟩
    · intro k hk
      rw [List.map_cons, hmap, hnew.2, Finset.mem_insert, hS k, hk, List.mem_cons]

end HopscotchHashSet
end concurrent_data_structures

namespace concurrent_data_structures
namespace HopscotchHashSet

theorem remove_key_represents (KT : KeyTraits) (cfg : Config) {t : List Bucket}
    {ms : Int → List Int} {S : Finset Nat} (hwf : WellFormed KT cfg t ms)
    (hS : ∀ k, k ∈ S ↔ k ∈ (ms (home KT cfg k)).map (fun m => (bucketAt KT t m)._key))
    (key : Nat) {pre post : List Int} {m : Int} (hL : (t.length : Int) ≤ 2147483648)
    (hh : home KT cfg key < (t.length : Int))
    (hms : ms (home KT cfg key) = pre ++ m :: post) (hmk : (bucketAt KT t m)._key = key) :
    Represents KT cfg (remove_key KT t (home KT cfg key) m (lastBucket none pre))
      (S.erase key) ∧
    (remove_key KT t (home KT cfg key) m (lastBucket none pre)).length = t.length ∧
    (bucketAt KT (remove_key KT t (home KT cfg key) m (lastBucket none pre)) m)._hash = 0 := by
  have hh0 := home_nonneg KT cfg key
  have hc := hwf.chain (home KT cfg key)
  have hnd := wf_members_nodup KT cfg hwf (home KT cfg key)
  have hkn := hwf.nodup (home KT cfg key)
  rw [hms] at hc hnd hkn
  have hpre : ∀ x ∈ pre, x ∈ ms (home KT cfg key) ∧ x ≠ m := by
    intro x hx
    refine ⟨by rw [hms]; simp [hx], ?_⟩
    rintro rfl
    exact (List.nodup_append.mp hnd).2.2 hx (List.mem_cons_self _ _)
  have hpost : ∀ x ∈ post, x ∈ ms (home KT cfg key) ∧ x ≠ m := by
    intro x hx
    refine ⟨by rw [hms]; simp [hx], ?_⟩
    rintro rfl
    exact (List.nodup_cons.mp (List.nodup_append.mp hnd).2.1).1 hx
  have hmm : m ∈ ms (home KT cfg key) := by rw [hms]; simp
  have hmr := hwf.member _ m hmm
  have hp : ∀ p, lastBucket none pre = some p → 0 ≤ p ∧ p < (t.length : Int) ∧ p ≠ m := by
    intro p hp
    rcases lastBucket_mem _ _ _ hp with h1 | h1
    · cases h1
    · have := hwf.member _ p (hpre p h1).1
      exact ⟨this.1, this.2.1, (hpre p h1).2⟩
  have spec := remove_key_spec KT t (home KT cfg key) m (lastBucket none pre)
    ⟨hmr.1, hmr.2.1⟩ ⟨hh0, hh⟩ hp
  generalize remove_key KT t (home KT cfg key) m (lastBucket none pre) = t' at spec
  have hold : ∀ x, x ≠ m → (bucketAt KT t' x)._hash = (bucketAt KT t x)._hash ∧
      (bucketAt KT t' x)._key = (bucketAt KT t x)._key := by
    intro x hx
    have := spec x
    rw [this.2.2.2.1, this.2.2.2.2, if_neg hx, if_neg hx]
    exact ⟨rfl, rfl⟩
  have hmem_range : ∀ x ∈ ms (home KT cfg key), 0 ≤ x ∧ x < 2147483648 := fun x hx =>
    ⟨(hwf.member _ x hx).1, lt_of_lt_of_le (hwf.member _ x hx).2.1 hL⟩
  have hnew : ∀ x ∈ pre ++ post, x ∈ ms (home KT cfg key) ∧ x ≠ m := by
    intro x hx
    rcases List.mem_append.mp hx with h1 | h1
    · exact hpre x h1
    · exact hpost x h1
  have hmap : (pre ++ post).map (fun x => (bucketAt KT t' x)._key) =
      (pre ++ post).map (fun x => (bucketAt KT t x)._key) :=
    List.map_congr_left (fun x hx => (hold x (hnew x hx).2).2)
  refine ⟨?_, (spec 0).1, ?_⟩
  · refine represents_update KT cfg (home KT cfg key) (pre ++ post) hS
      (wf_update KT cfg hwf _ _ (spec 0).1 ?_ ?_ ?_ ?_ ?_ ?_ ?_) ?_ ?_
    · intro j hj
      rw [(spec j).2.1, if_neg (fun h => hj h.2)]
    · intro j hj1 _
      have hjm : j ≠ m := fun e => hj1 (e ▸ hmm)
      refine ⟨?_, (hold j hjm).1, (hold j hjm).2⟩
      rw [(spec j).2.2.1, if_neg hjm, if_neg]
      intro hlast
      rcases lastBucket_mem _ _ _ hlast with h1 | h1
      · cases h1
      · exact hj1 (hpre j h1).1
    · rcases nil_or_snoc pre with hnil | ⟨pre', p, hsnoc⟩
      · subst hnil
        rw [List.nil_append] at hc ⊢
        rw [(spec _).2.1, if_pos ⟨rfl, rfl⟩]
        have he : (bucketAt KT t (home KT cfg key))._first_delta +
            (bucketAt KT t m)._next_delta =
            m + (bucketAt KT t m)._next_delta - home KT cfg key := by
          have := hc.2.1; omega
        rw [he]
        refine hchain_redirect KT hc.2.2 ?_ ⟨hh0, by omega⟩
          (fun x hx => hmem_range x (hpost x hx).1)
        intro x hx
        rw [(spec x).2.2.1, if_neg (hpost x hx).2, if_neg]
        intro h; cases h
      · subst hsnoc
        have hlast : lastBucket none (pre' ++ [p]) = some p := lastBucket_append _ _ _
        have hpp := hpre p (by simp)
        rw [(spec _).2.1, if_neg (fun h => by rw [hlast] at h; cases h.1)]
        rw [List.append_assoc, List.singleton_append] at hc ⊢
        refine hchain_prefix KT pre' _ _ hc ?_ ?_
        · intro x hx
          have hxp : x ≠ p := by
            rintro rfl
            have := (List.nodup_append.mp (List.nodup_append.mp hnd).1).2.2 hx
              (List.mem_singleton_self _)
            exact this
          rw [(spec x).2.2.1, if_neg (hpre x (by simp [hx])).2, hlast,
            if_neg (fun e => hxp (Option.some.inj e).symm)]
        · have hs := hchain_suffix KT pre' _ _ hc
          rw [(spec p).2.2.1, if_neg hpp.2, hlast, if_pos rfl]
          have he : (bucketAt KT t p)._next_delta + (bucketAt KT t m)._next_delta =
              m + (bucketAt KT t m)._next_delta - p := by
            have := hs.2.1; omega
          rw [he]
          refine hchain_redirect KT hs.2.2 ?_ (hmem_range p hpp.1)
            (fun x hx => hmem_range x (hpost x hx).1)
          intro x hx
          have hxp : x ≠ p := by
            rintro rfl
            exact (List.nodup_append.mp hnd).2.2 (by simp) (List.mem_cons_of_mem _ hx)
          rw [(spec x).2.2.1, if_neg (hpost x hx).2, hlast,
            if_neg (fun e => hxp (Option.some.inj e).symm)]
    · intro x hx
      rw [(hold x (hnew x hx).2).1, (hold x (hnew x hx).2).2]
      exact hwf.member _ x (hnew x hx).1
    · rw [hmap]
      exact hkn.sublist
        (((List.Sublist.refl pre).append (List.sublist_cons_self m post)).map _)
    · intro x hx
      exact Or.inl (hnew x hx).1
    · intro j hj
      have hjm : j ≠ m := by
        rintro rfl
        rw [(spec j).2.2.2.1, if_pos rfl] at hj
        exact hj rfl
      rw [(hold j hjm).1] at hj
      by_cases hjh : j ∈ ms (home KT cfg key)
      · left
        rw [hms] at hjh
        rcases List.mem_append.mp hjh with h1 | h1
        · exact List.mem_append_left _ h1
        · rcases List.mem_cons.mp h1 with h2 | h2
          · exact absurd h2 hjm
          · exact List.mem_append_right _ h2
      · exact Or.inr ⟨hj, hjh⟩
    · intro k hk
      rw [hmap, Finset.mem_erase, hS k, hk, hms]
      simp only [List.map_append, List.map_cons, List.nodup_append, List.nodup_cons, hmk,
        List.mem_append, List.mem_cons] at hkn ⊢
      constructor
      · rintro ⟨h1, h2 | h2 | h2⟩
        · exact Or.inl h2
        · exact absurd h2 h1
        · exact Or.inr h2
      · rintro (h2 | h2)
        · refine ⟨?_, Or.inl h2⟩
          rintro rfl
          exact hkn.2.2 h2 (List.mem_cons_self _ _)
        · refine ⟨?_, Or.inr (Or.inr h2)⟩
          rintro rfl
          exact hkn.2.1.1 h2
    · intro k hk
      rw [Finset.mem_erase]
      exact ⟨fun h => h.2, fun h => ⟨fun e => hk (by rw [e]), h⟩⟩
  · rw [(spec m).2.2.2.1, if_pos rfl]

end HopscotchHashSet
end concurrent_data_structures

namespace concurrent_data_structures
namespace HopscotchHashSet

theorem relocate_represents (KT : KeyTraits) (cfg : Config) {t : List Bucket}
    {ms : Int → List Int} {S : Finset Nat} (hwf : WellFormed KT cfg t ms)
    (hS : ∀ k, k ∈ S ↔ k ∈ (ms (home KT cfg k)).map (fun m => (bucketAt KT t m)._key))
    (o f : Int) {pre post : List Int} {r : Int} (hL : (t.length : Int) ≤ 2147483648)
    (hM : (cfg.m_size_mask : Int) < (t.length : Int))
    (hf : 0 ≤ f ∧ f < (t.length : Int)) (hfree : (bucketAt KT t f)._hash = 0)
    (hms : ms o = pre ++ r :: post) :
    Represents KT cfg (relocate KT t f o r (lastBucket none pre)) S ∧
    (relocate KT t f o r (lastBucket none pre)).length = t.length := by
  have hfm : ∀ h', f ∉ ms h' := wf_free_not_member KT cfg hwf hfree
  have hc := hwf.chain o
  have hnd := wf_members_nodup KT cfg hwf o
  have hkn := hwf.nodup o
  rw [hms] at hc hnd hkn
  have hpre : ∀ x ∈ pre, x ∈ ms o ∧ x ≠ r ∧ x ≠ f := by
    intro x hx
    have hxm : x ∈ ms o := by rw [hms]; simp [hx]
    refine ⟨hxm, ?_, fun e => hfm o (e ▸ hxm)⟩
    rintro rfl
    exact (List.nodup_append.mp hnd).2.2 hx (List.mem_cons_self _ _)
  have hpost : ∀ x ∈ post, x ∈ ms o ∧ x ≠ r ∧ x ≠ f := by
    intro x hx
    have hxm : x ∈ ms o := by rw [hms]; simp [hx]
    refine ⟨hxm, ?_, fun e => hfm o (e ▸ hxm)⟩
    rintro rfl
    exact (List.nodup_cons.mp (List.nodup_append.mp hnd).2.1).1 hx
  have hrm : r ∈ ms o := by rw [hms]; simp
  have hrr := hwf.member _ r hrm
  have hrf : r ≠ f := fun e => hfm o (e ▸ hrm)
  have ho : 0 ≤ o ∧ o < (t.length : Int) := by
    rw [← hrr.2.2.2.2]
    exact ⟨home_nonneg _ _ _, lt_of_le_of_lt (home_le_mask _ _ _) hM⟩
  have hl : ∀ l, lastBucket none pre = some l →
      0 ≤ l ∧ l < (t.length : Int) ∧ l ≠ f ∧ l ≠ r := by
    intro p hp
    rcases lastBucket_mem _ _ _ hp with h1 | h1
    · cases h1
    · have := hwf.member _ p (hpre p h1).1
      exact ⟨this.1, this.2.1, (hpre p h1).2.2, (hpre p h1).2.1⟩
  have spec := relocate_spec KT t f o r (lastBucket none pre) hf ho ⟨hrr.1, hrr.2.1, hrf⟩ hl
  generalize relocate KT t f o r (lastBucket none pre) = t' at spec
  have hold : ∀ x, x ≠ r → x ≠ f → (bucketAt KT t' x)._hash = (bucketAt KT t x)._hash ∧
      (bucketAt KT t' x)._key = (bucketAt KT t x)._key := by
    intro x hx hx'
    have := spec x
    rw [this.2.2.2.1, this.2.2.2.2, if_neg hx, if_neg hx, if_neg hx', if_neg hx']
    exact ⟨rfl, rfl⟩
  have hnewf : (bucketAt KT t' f)._hash = (bucketAt KT t r)._hash ∧
      (bucketAt KT t' f)._key = (bucketAt KT t r)._key := by
    have := spec f
    rw [this.2.2.2.1, this.2.2.2.2, if_neg hrf.symm, if_neg hrf.symm, if_pos rfl, if_pos rfl]
    exact ⟨rfl, rfl⟩
  have hndf : (bucketAt KT t' f)._next_delta =
      if (bucketAt KT t r)._next_delta = _NULL_DELTA then _NULL_DELTA
      else toInt32 (r + (bucketAt KT t r)._next_delta - f) := by
    rw [(spec f).2.2.1, if_neg hrf.symm, if_neg (fun e => (hl f e).2.2.1 rfl), if_pos rfl]
  have hmem_range : ∀ x ∈ ms o, 0 ≤ x ∧ x < 2147483648 := fun x hx =>
    ⟨(hwf.member _ x hx).1, lt_of_lt_of_le (hwf.member _ x hx).2.1 hL⟩
  have hmap : (pre ++ f :: post).map (fun x => (bucketAt KT t' x)._key) =
      (pre ++ r :: post).map (fun x => (bucketAt KT t x)._key) := by
    rw [List.map_append, List.map_append, List.map_cons, List.map_cons, hnewf.2,
      List.map_congr_left (fun x hx => (hold x (hpre x hx).2.1 (hpre x hx).2.2).2),
      List.map_congr_left (fun x hx => (hold x (hpost x hx).2.1 (hpost x hx).2.2).2)]
  have htail : Chain KT t' f (bucketAt KT t' f)._next_delta post := by
    rw [hndf]
    refine hchain_redirect KT (hchain_suffix KT pre _ _ hc) ?_ ⟨hf.1, by omega⟩
      (fun x hx => hmem_range x (hpost x hx).1)
    intro x hx
    rw [(spec x).2.2.1, if_neg (hpost x hx).2.1, if_neg, if_neg (hpost x hx).2.2]
    intro hlast
    rcases lastBucket_mem _ _ _ hlast with h1 | h1
    · cases h1
    · exact (List.nodup_append.mp hnd).2.2 h1 (List.mem_cons_of_mem _ hx)
  refine ⟨?_, (spec 0).1⟩
  refine represents_update KT cfg o (pre ++ f :: post) hS
    (wf_update KT cfg hwf _ _ (spec 0).1 ?_ ?_ ?_ ?_ ?_ ?_ ?_) ?_ (fun _ _ => Iff.rfl)
  · intro j hj
    rw [(spec j).2.1, if_neg (fun h => hj h.2)]
  · intro j hj1 hj2
    have hjr : j ≠ r := fun e => hj1 (e ▸ hrm)
    have hjf : j ≠ f := fun e => hj2 (by rw [e]; simp)
    refine ⟨?_, (hold j hjr hjf).1, (hold j hjr hjf).2⟩
    rw [(spec j).2.2.1, if_neg hjr, if_neg, if_neg hjf]
    intro hlast
    rcases lastBucket_mem _ _ _ hlast with h1 | h1
    · cases h1
    · exact hj1 (hpre j h1).1
  · rcases nil_or_snoc pre with hnil | ⟨pre', p, hsnoc⟩
    · subst hnil
      rw [List.nil_append, (spec _).2.1, if_pos ⟨rfl, rfl⟩]
      exact hchain_link KT ⟨ho.1, by omega⟩ ⟨hf.1, by omega⟩ htail
    · subst hsnoc
      have hlast : lastBucket none (pre' ++ [p]) = some p := lastBucket_append _ _ _
      have hpp := hpre p (by simp)
      rw [(spec _).2.1, if_neg (fun h => by rw [hlast] at h; cases h.1)]
      rw [List.append_assoc, List.singleton_append] at hc ⊢
      refine hchain_prefix KT pre' _ _ hc ?_ ?_
      · intro x hx
        have hxp : x ≠ p := by
          rintro rfl
          exact (List.nodup_append.mp (List.nodup_append.mp hnd).1).2.2 hx
            (List.mem_singleton_self _)
        have hxx := hpre x (by simp [hx])
        rw [(spec x).2.2.1, if_neg hxx.2.1, hlast,
          if_neg (fun e => hxp (Option.some.inj e).symm), if_neg hxx.2.2]
      · rw [(spec p).2.2.1, if_neg hpp.2.1, hlast, if_pos rfl]
        exact hchain_link KT (hmem_range p hpp.1) ⟨hf.1, by omega⟩ htail
  · intro x hx
    rcases List.mem_append.mp hx with h1 | h1
    · have hxx := hpre x h1
      rw [(hold x hxx.2.1 hxx.2.2).1, (hold x hxx.2.1 hxx.2.2).2]
      exact hwf.member _ x hxx.1
    · rcases List.mem_cons.mp h1 with h2 | h2
      · rw [h2, hnewf.1, hnewf.2]
        exact ⟨hf.1, hf.2, hrr.2.2.1, hrr.2.2.2.1, hrr.2.2.2.2⟩
      · have hxx := hpost x h2
        rw [(hold x hxx.2.1 hxx.2.2).1, (hold x hxx.2.1 hxx.2.2).2]
        exact hwf.member _ x hxx.1
  · rw [hmap]
    exact hkn
  · intro x hx
    rcases List.mem_append.mp hx with h1 | h1
    · exact Or.inl (hpre x h1).1
    · rcases List.mem_cons.mp h1 with h2 | h2
      · rw [h2]; exact Or.inr hfree
      · exact Or.inl (hpost x h2).1
  · intro j hj
    by_cases hjf : j = f
    · left; rw [hjf]; simp
    · have hjr : j ≠ r := by
        rintro rfl
        rw [(spec j).2.2.2.1, if_pos rfl] at hj
        exact hj rfl
      rw [(hold j hjr hjf).1] at hj
      by_cases hjo : j ∈ ms o
      · left
        rw [hms] at hjo
        rcases List.mem_append.mp hjo with h1 | h1
        · exact List.mem_append_left _ h1
        · rcases List.mem_cons.mp h1 with h2 | h2
          · exact absurd h2 hjr
          · exact List.mem_append_right _ (List.mem_cons_of_mem _ h2)
      · exact Or.inr ⟨hj, hjo⟩
  · intro k hk
    rw [hmap, hS k, hk, hms]

end HopscotchHashSet
end concurrent_data_structures

namespace concurrent_data_structures
namespace HopscotchHashSet

/-! ### Hopscotch: the relocation after a removal -/

theorem optimize_list_spec (KT : KeyTraits) (cfg : Config) (t : List Bucket) (f o : Int)
    (ho : 0 ≤ o ∧ o < 2147483648) :
    ∀ (rest : List Int) (fuel : Nat) (last : Option Int) (r0 cd : Int),
      Chain KT t r0 (bucketAt KT t r0)._next_delta rest → cd = r0 - o →
      (∀ x ∈ r0 :: rest, 0 ≤ x ∧ x < 2147483648) → rest.length < fuel →
      optimize_list KT cfg t f o fuel last cd r0 = some none ∨
      ∃ pre r post, r0 :: rest = pre ++ r :: post ∧
        optimize_list KT cfg t f o fuel last cd r0 =
          some (some (relocate KT t f o r (lastBucket last pre)))
  | _, 0, _, _, _, _, _, _, hf => absurd hf (Nat.not_lt_zero _)
  | rest, fuel + 1, last, r0, cd, hc, hcd, hb, hf => by
    unfold optimize_list
    by_cases hout : cd < 0 ∨ cd > (cfg._cache_mask : Int)
    · rw [if_pos hout]
      exact Or.inr ⟨[], r0, rest, rfl, rfl⟩
    · rw [if_neg hout]
      by_cases hn : _NULL_DELTA = (bucketAt KT t r0)._next_delta
      · rw [if_pos hn]
        exact Or.inl rfl
      · rw [if_neg hn]
        cases rest with
        | nil => exact absurd (show (bucketAt KT t r0)._next_delta = _NULL_DELTA from hc).symm hn
        | cons r1 rest' =>
          obtain ⟨-, h2, h3⟩ := hc
          have hr0 := hb r0 (List.mem_cons_self _ _)
          have hr1 := hb r1 (List.mem_cons_of_mem _ (List.mem_cons_self _ _))
          have hcd' : toInt32 (cd + (bucketAt KT t r0)._next_delta) = r1 - o := by
            rw [toInt32_eq (by omega) (by omega)]; omega
          rw [hcd', ← h2]
          rcases optimize_list_spec KT cfg t f o ho rest' fuel (some r0) r1 (r1 - o) h3 rfl
            (fun x hx => hb x (List.mem_cons_of_mem _ hx))
            (by simp only [List.length_cons] at hf; omega) with h | ⟨pre, r, post, he, h⟩
          · exact Or.inl h
          · exact Or.inr ⟨r0 :: pre, r, post, by rw [he]; rfl, h⟩

theorem optimize_loop_spec (KT : KeyTraits) (cfg : Config) {t : List Bucket}
    {ms : Int → List Int} {S : Finset Nat} (hwf : WellFormed KT cfg t ms)
    (hS : ∀ k, k ∈ S ↔ k ∈ (ms (home KT cfg k)).map (fun m => (bucketAt KT t m)._key))
    (f ec : Int) (lfuel : Nat) (hL : (t.length : Int) ≤ 2147483648)
    (hM : (cfg.m_size_mask : Int) < (t.length : Int))
    (hf : 0 ≤ f ∧ f < (t.length : Int)) (hfree : (bucketAt KT t f)._hash = 0)
    (hlf : t.length ≤ lfuel) :
    ∀ (fuel : Nat) (o : Int), 0 < fuel → ec - o < (fuel : Int) →
      ∃ t', optimize_loop KT cfg lfuel t f ec fuel o = some t' ∧
        Represents KT cfg t' S ∧ t'.length = t.length
  | 0, _, hp, _ => absurd hp (Nat.lt_irrefl 0)
  | fuel + 1, o, _, hfu => by
    unfold optimize_loop
    have hnext : ∃ t', (if o + 1 ≤ ec then optimize_loop KT cfg lfuel t f ec fuel (o + 1)
        else some t) = some t' ∧ Represents KT cfg t' S ∧ t'.length = t.length := by
      by_cases hle : o + 1 ≤ ec
      · rw [if_pos hle]
        exact optimize_loop_spec KT cfg hwf hS f ec lfuel hL hM hf hfree hlf fuel (o + 1)
          (by push_cast at hfu; omega) (by push_cast at hfu; omega)
      · rw [if_neg hle]
        exact ⟨t, rfl, ⟨ms, hwf, hS⟩, rfl⟩
    by_cases hfd : _NULL_DELTA ≠ (bucketAt KT t o)._first_delta
    · rw [if_pos hfd]
      have hc := hwf.chain o
      cases hms : ms o with
      | nil =>
        rw [hms] at hc
        exact absurd (show (bucketAt KT t o)._first_delta = _NULL_DELTA from hc).symm hfd
      | cons r0 rest =>
        rw [hms] at hc
        obtain ⟨-, h2, h3⟩ := hc
        have hr0 := hwf.member o r0 (by rw [hms]; exact List.mem_cons_self _ _)
        have ho : 0 ≤ o ∧ o < 2147483648 := by
          rw [← hr0.2.2.2.2]
          exact ⟨home_nonneg _ _ _, by
            have := home_le_mask KT cfg (bucketAt KT t r0)._key
            omega⟩
        have hlen := wf_length_le KT cfg hwf o
        rw [hms, List.length_cons] at hlen
        rw [← h2]
        rcases optimize_list_spec KT cfg t f o ho rest lfuel none r0
          (bucketAt KT t o)._first_delta h3 (by omega)
          (fun x hx => ⟨(hwf.member o x (hms ▸ hx)).1,
            lt_of_lt_of_le (hwf.member o x (hms ▸ hx)).2.1 hL⟩)
          (by omega) with h | ⟨pre, r, post, he, h⟩
        · rw [h]
          exact hnext
        · rw [h]
          have := relocate_represents KT cfg hwf hS o f hL hM hf hfree (hms.trans he)
          exact ⟨_, rfl, this.1, this.2⟩
    · rw [if_neg hfd]
      exact hnext

theorem optimize_cacheline_use_spec (KT : KeyTraits) (cfg : Config) {t : List Bucket}
    {S : Finset Nat} (hrep : Represents KT cfg t S) (f : Int) (fuel : Nat)
    (hL : (t.length : Int) ≤ 2147483648) (hM : (cfg.m_size_mask : Int) < (t.length : Int))
    (hf : 0 ≤ f ∧ f < (t.length : Int)) (hfree : (bucketAt KT t f)._hash = 0)
    (hfuel : t.length + cfg._cache_mask < fuel) :
    ∃ t', optimize_cacheline_use KT cfg fuel t f = some t' ∧
      Represents KT cfg t' S ∧ t'.length = t.length := by
  obtain ⟨ms, hwf, hS⟩ := hrep
  unfold optimize_cacheline_use
  exact optimize_loop_spec KT cfg hwf hS f _ fuel hL hM hf hfree (by omega) fuel _ (by omega)
    (by omega)

end HopscotchHashSet
end concurrent_data_structures

namespace concurrent_data_structures
namespace HopscotchHashSet

/-! ### Hopscotch: each call against the set -/

theorem hopscotch_contains_refines (KT : KeyTraits) (cfg : Config) {t : List Bucket} {S : Finset Nat}
    (hrep : Represents KT cfg t S) (key : Nat) (fuel : Nat) (hfuel : t.length < fuel) :
    contains KT cfg fuel t key = some (decide (key ∈ S)) := by
  obtain ⟨ms, hwf, hS⟩ := hrep
  have h := contains_walk_chain KT t key (ms (home KT cfg key)) fuel (home KT cfg key) _
    (hwf.chain _) (lt_of_le_of_lt (wf_length_le KT cfg hwf _) hfuel)
  have hc : contains KT cfg fuel t key =
      contains_walk KT t key fuel (home KT cfg key)
        (bucketAt KT t (home KT cfg key))._first_delta := rfl
  rw [hc, h]
  exact congrArg some (decide_eq_decide.mpr (hS key).symm)

theorem start_cacheline_bounds (cfg : Config) (b : Int) (hb : 0 ≤ b) :
    0 ≤ get_start_cacheline_bucket cfg b ∧ get_start_cacheline_bucket cfg b ≤ b ∧
      b ≤ get_start_cacheline_bucket cfg b + (cfg._cache_mask : Int) := by
  unfold get_start_cacheline_bucket
  have h1 : b.toNat &&& cfg._cache_mask ≤ b.toNat := Nat.and_le_left
  have h2 : b.toNat &&& cfg._cache_mask ≤ cfg._cache_mask := Nat.and_le_right
  omega

theorem claimed_card_le (KT : KeyTraits) (cfg : Config) {t : List Bucket} {S : Finset Nat}
    (hrep : Represents KT cfg t S) (A : Finset Int)
    (hA : ∀ i ∈ A, (bucketAt KT t i)._hash ≠ 0) : A.card ≤ S.card := by
  obtain ⟨ms, hwf, hS⟩ := hrep
  refine Finset.card_le_card_of_injOn (fun i => (bucketAt KT t i)._key) ?_ ?_
  · intro i hi
    obtain ⟨h, hm⟩ := hwf.claimed i (hA i hi)
    have hh := (hwf.member h i hm).2.2.2.2
    refine (hS _).mpr ?_
    rw [hh]
    exact List.mem_map.mpr ⟨i, hm, rfl⟩
  · intro i hi j hj hij
    obtain ⟨h, hm⟩ := hwf.claimed i (hA i hi)
    obtain ⟨h', hm'⟩ := hwf.claimed j (hA j hj)
    have hh := (hwf.member h i hm).2.2.2.2
    have hh' := (hwf.member h' j hm').2.2.2.2
    have hij' : (bucketAt KT t i)._key = (bucketAt KT t j)._key := hij
    rw [hij'] at hh
    have he : h = h' := hh.symm.trans hh'
    subst he
    exact List.inj_on_of_nodup_map (hwf.nodup h) hm hm' hij'

theorem hopscotch_add_refines (KT : KeyTraits) (cfg : Config) {t : List Bucket} {S : Finset Nat}
    (hrep : Represents KT cfg t S) (key : Nat) (fuel : Nat)
    (hL : (t.length : Int) ≤ 2147483648)
    (hM : (cfg.m_size_mask : Int) + (cfg._cache_mask : Int) < (t.length : Int))
    (hM1 : (cfg.m_size_mask : Int) + 1 < (t.length : Int))
    (hhash : KT.hash key % 2 ^ 32 ≠ 0) (hfuel : t.length + cfg._cache_mask + 1 < fuel) :
    (add KT cfg fuel t key = some Outcome.exited ∧
      cfg.m_size_mask ≤ S.card + 2 * cfg._cache_mask) ∨
    ∃ t', add KT cfg fuel t key = some (Outcome.returned (decide (key ∉ S)) t') ∧
      Represents KT cfg t' (insert key S) ∧ t'.length = t.length := by
  have hcard := claimed_card_le KT cfg hrep
  obtain ⟨ms, hwf, hS⟩ := hrep
  have hh0 := home_nonneg KT cfg key
  have hhM := home_le_mask KT cfg key
  have hwalk := add_walk_chain KT t (KT.hash key % 2 ^ 32) key (ms (home KT cfg key)) fuel none
    (home KT cfg key) _ (hwf.chain _)
    (lt_of_le_of_lt (wf_length_le KT cfg hwf _) (by omega))
  have hiff : (∃ m ∈ ms (home KT cfg key), KT.hash key % 2 ^ 32 = (bucketAt KT t m)._hash ∧
      key = (bucketAt KT t m)._key) ↔ key ∈ S := by
    rw [hS key, List.mem_map]
    constructor
    · rintro ⟨m, hm, -, hk⟩
      exact ⟨m, hm, hk.symm⟩
    · rintro ⟨m, hm, hk⟩
      refine ⟨m, hm, ?_, hk.symm⟩
      rw [(hwf.member _ m hm).2.2.2.1, hk]
  unfold add
  simp only []
  rw [show ((((KT.hash key % 2 ^ 32) &&& cfg.m_size_mask : Nat) : Int)) = home KT cfg key
    from rfl]
  rw [hwalk]
  by_cases hk : key ∈ S
  · rw [if_pos (hiff.mpr hk)]
    refine Or.inr ⟨t, ?_, ?_, rfl⟩
    · simp [hk]
    · rw [Finset.insert_eq_of_mem hk]
      exact ⟨ms, hwf, hS⟩
  · rw [if_neg (fun h => hk (hiff.mp h))]
    simp only []
    have hdec : decide (key ∉ S) = true := by simp [hk]
    rw [hdec]
    have hsc := start_cacheline_bounds cfg (home KT cfg key) hh0
    have hbegin : ∀ f, (bucketAt KT t f)._hash = 0 →
        get_start_cacheline_bucket cfg (home KT cfg key) ≤ f →
        f ≤ get_start_cacheline_bucket cfg (home KT cfg key) + (cfg._cache_mask : Int) →
        ∃ t', some (Outcome.returned true (add_key_to_begining_of_list KT
            (claim KT t f (KT.hash key % 2 ^ 32)) (home KT cfg key) f key)) =
          some (Outcome.returned true t') ∧
          Represents KT cfg t' (insert key S) ∧ t'.length = t.length := by
      intro f h0 h1 h2
      have := add_begin_represents KT cfg hwf hS key f hL (by omega) ⟨by omega, by omega⟩ h0
        hhash hk
      exact ⟨_, rfl, this.1, this.2⟩
    have hend : ∀ f, (bucketAt KT t f)._hash = 0 → 0 ≤ f → f ≤ (cfg.m_size_mask : Int) →
        ∃ t', some (Outcome.returned true (add_key_to_end_of_list KT
            (claim KT t f (KT.hash key % 2 ^ 32)) (home KT cfg key) f key
            (lastBucket none (ms (home KT cfg key))))) =
          some (Outcome.returned true t') ∧
          Represents KT cfg t' (insert key S) ∧ t'.length = t.length := by
      intro f h0 h1 h2
      have := add_end_represents KT cfg hwf hS key f hL (by omega) ⟨by omega, by omega⟩ h0
        hhash hk
      exact ⟨_, rfl, this.1, this.2⟩
    have hrest : ((match forward_scan KT t
          (min (home KT cfg key + (INT_MAX - 1)) (cfg.m_size_mask : Int)) fuel
          (home KT cfg key + ((cfg._cache_mask : Int) + 1)) with
        | none => none
        | some (some free_max_bucket) =>
          some (Outcome.returned true
            (add_key_to_end_of_list KT (claim KT t free_max_bucket (KT.hash key % 2 ^ 32))
              (home KT cfg key) free_max_bucket key (lastBucket none (ms (home KT cfg key)))))
        | some none =>
          match backward_scan KT t (max (home KT cfg key - (INT_MAX - 1)) 0) fuel
              (home KT cfg key - ((cfg._cache_mask : Int) + 1)) with
          | none => none
          | some (some free_min_bucket) =>
            some (Outcome.returned true
              (add_key_to_end_of_list KT (claim KT t free_min_bucket (KT.hash key % 2 ^ 32))
                (home KT cfg key) free_min_bucket key
                (lastBucket none (ms (home KT cfg key)))))
          | some none => some Outcome.exited) = some Outcome.exited ∧
          cfg.m_size_mask ≤ S.card + 2 * cfg._cache_mask) ∨
        ∃ t', (match forward_scan KT t
          (min (home KT cfg key + (INT_MAX - 1)) (cfg.m_size_mask : Int)) fuel
          (home KT cfg key + ((cfg._cache_mask : Int) + 1)) with
        | none => none
        | some (some free_max_bucket) =>
          some (Outcome.returned true
            (add_key_to_end_of_list KT (claim KT t free_max_bucket (KT.hash key % 2 ^ 32))
              (home KT cfg key) free_max_bucket key (lastBucket none (ms (home KT cfg key)))))
        | some none =>
          match backward_scan KT t (max (home KT cfg key - (INT_MAX - 1)) 0) fuel
              (home KT cfg key - ((cfg._cache_mask : Int) + 1)) with
          | none => none
          | some (some free_min_bucket) =>
            some (Outcome.returned true
              (add_key_to_end_of_list KT (claim KT t free_min_bucket (KT.hash key % 2 ^ 32))
                (home KT cfg key) free_min_bucket key
                (lastBucket none (ms (home KT cfg key)))))
          | some none => some Outcome.exited) = some (Outcome.returned true t') ∧
          Represents KT cfg t' (insert key S) ∧ t'.length = t.length := by
      obtain ⟨r, hr, hrs, hfw⟩ := forward_scan_spec KT t
        (min (home KT cfg key + (INT_MAX - 1)) (cfg.m_size_mask : Int)) fuel
        (home KT cfg key + ((cfg._cache_mask : Int) + 1)) (by omega)
        (by
          have : min (home KT cfg key + (INT_MAX - 1)) (cfg.m_size_mask : Int) ≤
            (cfg.m_size_mask : Int) := min_le_right _ _
          omega)
      rw [hr]
      cases r with
      | some f =>
        obtain ⟨a, b, c⟩ := hrs f rfl
        have : min (home KT cfg key + (INT_MAX - 1)) (cfg.m_size_mask : Int) ≤
          (cfg.m_size_mask : Int) := min_le_right _ _
        exact Or.inr (hend f a (by omega) (by omega))
      | none =>
        simp only []
        have hfw := hfw rfl
        obtain ⟨r, hr, hrs, hbw⟩ := backward_scan_spec KT t
          (max (home KT cfg key - (INT_MAX - 1)) 0) fuel
          (home KT cfg key - ((cfg._cache_mask : Int) + 1)) (by omega)
          (by
            have : (0 : Int) ≤ max (home KT cfg key - (INT_MAX - 1)) 0 := le_max_right _ _
            omega)
        rw [hr]
        cases r with
        | some f =>
          obtain ⟨a, b, c⟩ := hrs f rfl
          have : (0 : Int) ≤ max (home KT cfg key - (INT_MAX - 1)) 0 := le_max_right _ _
          exact Or.inr (hend f a (by omega) (by omega))
        | none =>
          refine Or.inl ⟨rfl, ?_⟩
          have hbw := hbw rfl
          have hI : INT_MAX = 2147483647 := rfl
          rw [hI] at hfw hbw
          have hA := hcard
            (Finset.Icc 0 (home KT cfg key - ((cfg._cache_mask : Int) + 1)) ∪
              Finset.Icc (home KT cfg key + ((cfg._cache_mask : Int) + 1))
                (cfg.m_size_mask : Int)) (by
            intro i hi
            rcases Finset.mem_union.mp hi with h1 | h1
            · obtain ⟨a, b⟩ := Finset.mem_Icc.mp h1
              exact hbw i (max_le (by omega) a) b
            · obtain ⟨a, b⟩ := Finset.mem_Icc.mp h1
              exact hfw i a (le_min (by omega) b))
          rw [Finset.card_union_of_disjoint (by
            rw [Finset.disjoint_left]
            intro a ha hb
            have h1 := (Finset.mem_Icc.mp ha).2
            have h2 := (Finset.mem_Icc.mp hb).1
            omega), Int.card_Icc, Int.card_Icc] at hA
          omega
    by_cases hal : cfg._is_cacheline_alignment = true
    · rw [if_pos hal]
      obtain ⟨r, hr, hrs⟩ := cacheline_scan_spec KT t (home KT cfg key)
        (get_start_cacheline_bucket cfg (home KT cfg key))
        (get_start_cacheline_bucket cfg (home KT cfg key) + (cfg._cache_mask : Int))
        ⟨hsc.2.1, hsc.2.2⟩ fuel (home KT cfg key) hsc.2.1 hsc.2.2
        (by rw [if_pos (le_refl _)]; omega)
      rw [hr]
      cases r with
      | some f =>
        obtain ⟨a, b, c⟩ := hrs f rfl
        exact Or.inr (hbegin f a b c)
      | none => exact hrest
    · rw [if_neg hal]
      exact hrest

end HopscotchHashSet
end concurrent_data_structures

namespace concurrent_data_structures
namespace HopscotchHashSet

theorem hopscotch_remove_refines (KT : KeyTraits) (cfg : Config) {t : List Bucket} {S : Finset Nat}
    (hrep : Represents KT cfg t S) (key : Nat) (fuel : Nat)
    (hL : (t.length : Int) ≤ 2147483648)
    (hM : (cfg.m_size_mask : Int) + (cfg._cache_mask : Int) < (t.length : Int))
    (hfuel : t.length + cfg._cache_mask + 1 < fuel) :
    ∃ t', remove KT cfg fuel t key = some (Outcome.returned (decide (key ∈ S)) t') ∧
      Represents KT cfg t' (S.erase key) ∧ t'.length = t.length := by
  obtain ⟨ms, hwf, hS⟩ := hrep
  have hh0 := home_nonneg KT cfg key
  have hhM := home_le_mask KT cfg key
  have hlen := wf_length_le KT cfg hwf (home KT cfg key)
  have hr : remove KT cfg fuel t key =
      remove_walk KT cfg fuel t (KT.hash key % 2 ^ 32) key (home KT cfg key) fuel none
        (home KT cfg key) (bucketAt KT t (home KT cfg key))._first_delta := rfl
  rw [hr]
  by_cases hk : key ∈ S
  · have hk' := (hS key).mp hk
    obtain ⟨m, hm, hmk⟩ := List.mem_map.mp hk'
    obtain ⟨pre, post, hms⟩ := List.append_of_mem hm
    have hkn := hwf.nodup (home KT cfg key)
    rw [hms] at hkn
    have hpre : ∀ x ∈ pre, ¬ (KT.hash key % 2 ^ 32 = (bucketAt KT t x)._hash ∧
        key = (bucketAt KT t x)._key) := by
      rintro x hx ⟨-, hxk⟩
      rw [List.map_append, List.map_cons] at hkn
      refine (List.nodup_append.mp hkn).2.2 (List.mem_map.mpr ⟨x, hx, rfl⟩) ?_
      show (bucketAt KT t x)._key ∈ (bucketAt KT t m)._key :: _
      rw [← hxk, hmk]
      exact List.mem_cons_self _ _
    have hmatch : KT.hash key % 2 ^ 32 = (bucketAt KT t m)._hash ∧
        key = (bucketAt KT t m)._key := by
      refine ⟨?_, hmk.symm⟩
      rw [(hwf.member _ m hm).2.2.2.1, hmk]
    have hc := hwf.chain (home KT cfg key)
    rw [hms] at hc hlen
    rw [List.length_append, List.length_cons] at hlen
    rw [remove_walk_found KT cfg fuel t _ key _ hmatch pre fuel none _ _ hc (by omega) hpre]
    have hrk := remove_key_represents KT cfg hwf hS key hL (by omega) hms hmk
    have hdec : decide (key ∈ S) = true := by simp [hk]
    rw [hdec]
    by_cases hal : cfg._is_cacheline_alignment = true
    · rw [if_pos hal]
      have hmr := hwf.member _ m hm
      obtain ⟨t'', ho, hrep'', hlen''⟩ := optimize_cacheline_use_spec KT cfg hrk.1 m fuel
        (by rw [hrk.2.1]; exact hL) (by rw [hrk.2.1]; omega)
        ⟨hmr.1, by rw [hrk.2.1]; exact hmr.2.1⟩ hrk.2.2 (by rw [hrk.2.1]; omega)
      rw [ho]
      exact ⟨t'', rfl, hrep'', hlen''.trans hrk.2.1⟩
    · rw [if_neg hal]
      exact ⟨_, rfl, hrk.1, hrk.2.1⟩
  · have hno : ∀ m ∈ ms (home KT cfg key), ¬ (KT.hash key % 2 ^ 32 = (bucketAt KT t m)._hash ∧
        key = (bucketAt KT t m)._key) := by
      rintro m hm ⟨-, hmk⟩
      exact hk ((hS key).mpr (List.mem_map.mpr ⟨m, hm, hmk.symm⟩))
    rw [remove_walk_absent KT cfg fuel t _ key _ _ fuel none _ _ (hwf.chain _) (by omega) hno]
    have hdec : decide (key ∈ S) = false := by simp [hk]
    rw [hdec, Finset.erase_eq_of_not_mem hk]
    exact ⟨t, rfl, ⟨ms, hwf, hS⟩, rfl⟩

theorem emptyTable_represents (KT : KeyTraits) (cfg : Config) (n : Nat) :
    Represents KT cfg (emptyTable KT n) ∅ := by
  refine ⟨fun _ => [], ⟨?_, ?_, ?_, ?_⟩, ?_⟩
  · intro h
    rw [bucketAt_emptyTable]
    rfl
  · intro h m hm
    cases hm
  · intro h
    exact List.nodup_nil
  · intro i hi
    rw [bucketAt_emptyTable] at hi
    exact absurd rfl hi
  · intro k
    simp

theorem length_emptyTable (KT : KeyTraits) (n : Nat) :
    (emptyTable KT n).length = n + 4096 + 1 := by
  unfold emptyTable; simp

theorem hopscotch_run_refines (KT : KeyTraits) (cfg : Config) (fuel : Nat) :
    ∀ (ops : List Op) (t : List Bucket) (S : Finset Nat), Represents KT cfg t S →
      (t.length : Int) ≤ 2147483648 →
      (cfg.m_size_mask : Int) + (cfg._cache_mask : Int) < (t.length : Int) →
      (cfg.m_size_mask : Int) + 1 < (t.length : Int) →
      t.length + cfg._cache_mask + 1 < fuel →
      (∀ op ∈ ops, KT.hash op.key % 2 ^ 32 ≠ 0) →
      run KT cfg fuel t ops = some (some (set_run S ops)) ∨
      (run KT cfg fuel t ops = some none ∧
        cfg.m_size_mask < S.card + ops.length + 2 * cfg._cache_mask)
  | [], _, _, _, _, _, _, _, _ => Or.inl rfl
  | Op.contains k :: ops, t, S, hrep, hL, hM, hM1, hfuel, hh => by
    have ih := hopscotch_run_refines KT cfg fuel ops t S hrep hL hM hM1 hfuel
      (fun op hop => hh op (List.mem_cons_of_mem _ hop))
    unfold run
    rw [hopscotch_contains_refines KT cfg hrep k fuel (by omega)]
    simp only []
    rcases ih with h | ⟨h, hc⟩
    · rw [h]; exact Or.inl rfl
    · rw [h]; exact Or.inr ⟨rfl, by rw [List.length_cons]; omega⟩
  | Op.add k :: ops, t, S, hrep, hL, hM, hM1, hfuel, hh => by
    unfold run
    rcases hopscotch_add_refines KT cfg hrep k fuel hL hM hM1 (hh _ (List.mem_cons_self _ _)) hfuel with
      ⟨h, hc⟩ | ⟨t', h, hrep', hlen⟩
    · rw [h]; exact Or.inr ⟨rfl, by rw [List.length_cons]; omega⟩
    · rw [h]
      simp only []
      have ih := hopscotch_run_refines KT cfg fuel ops t' (insert k S) hrep' (by rw [hlen]; exact hL)
        (by rw [hlen]; exact hM) (by rw [hlen]; exact hM1) (by rw [hlen]; exact hfuel)
        (fun op hop => hh op (List.mem_cons_of_mem _ hop))
      rcases ih with h | ⟨h, hc⟩
      · rw [h]; exact Or.inl rfl
      · rw [h]
        have := Finset.card_insert_le k S
        exact Or.inr ⟨rfl, by rw [List.length_cons]; omega⟩
  | Op.remove k :: ops, t, S, hrep, hL, hM, hM1, hfuel, hh => by
    unfold run
    obtain ⟨t', h, hrep', hlen⟩ := hopscotch_remove_refines KT cfg hrep k fuel hL hM hfuel
    rw [h]
    simp only []
    have ih := hopscotch_run_refines KT cfg fuel ops t' (S.erase k) hrep' (by rw [hlen]; exact hL)
      (by rw [hlen]; exact hM) (by rw [hlen]; exact hM1) (by rw [hlen]; exact hfuel)
      (fun op hop => hh op (List.mem_cons_of_mem _ hop))
    rcases ih with h | ⟨h, hc⟩
    · rw [h]; exact Or.inl rfl
    · rw [h]
      have := Finset.card_erase_le (s := S) (a := k)
      exact Or.inr ⟨rfl, by rw [List.length_cons]; omega⟩

end HopscotchHashSet
end concurrent_data_structures

namespace concurrent_data_structures
namespace HopscotchHashSet

/-- C7, as stated, fails for a hash function that takes the value 0: a bucket whose hash word
is 0 counts as free. With the identity hash on a table of 16 home buckets, `add(0)` claims
bucket 0 and leaves its hash word 0, `add(16)` claims the same bucket again and overwrites
key 0, and after `remove(16)` the call `contains(0)` returns false, while on a mathematical
set the four calls return true, true, true, true. -/
theorem contains_false_after_hash_zero_add :
    run idTraits { m_size_mask := 15, _cache_mask := 1, _is_cacheline_alignment := true } 8
        (emptyTable idTraits 16) [Op.add 0, Op.add 16, Op.remove 16, Op.contains 0] =
      some (some [true, true, true, false]) ∧
    set_run ∅ [Op.add 0, Op.add 16, Op.remove 16, Op.contains 0] = [true, true, true, true] := by
  constructor
  · decide
  · decide

/-- C7 with the proviso that no key in use has the 32-bit hash 0: started on the empty
Hopscotch table of `n` home buckets, every sequence of `contains`/`add`/`remove` calls of one
thread either returns the booleans of the same calls on a mathematical set, or ends in an
`add` that finds no free bucket and reaches `exit(1)`; the latter does not happen when the
calls are fewer than `n` minus twice the cache mask. -/
theorem hopscotch_run_eq_set_run (KT : KeyTraits) (cfg : Config) (n : Nat) (ops : List Op)
    (fuel : Nat) (hmask : cfg.m_size_mask + 1 = n) (hsize : n + 4097 ≤ 2147483648)
    (hline : 2 * cfg._cache_mask ≤ 4096)
    (hhash : ∀ op ∈ ops, KT.hash op.key % 2 ^ 32 ≠ 0)
    (hfuel : n + 4097 + cfg._cache_mask + 1 < fuel) :
    (run KT cfg fuel (emptyTable KT n) ops = some (some (set_run ∅ ops)) ∨
      run KT cfg fuel (emptyTable KT n) ops = some none) ∧
    (ops.length + 2 * cfg._cache_mask < n →
      run KT cfg fuel (emptyTable KT n) ops = some (some (set_run ∅ ops))) := by
  have hlen := length_emptyTable KT n
  have h := hopscotch_run_refines KT cfg fuel ops (emptyTable KT n) ∅
    (emptyTable_represents KT cfg n) (by rw [hlen]; push_cast; omega)
    (by rw [hlen]; push_cast; omega) (by rw [hlen]; push_cast; omega) (by rw [hlen]; omega)
    hhash
  rw [Finset.card_empty] at h
  constructor
  · rcases h with h | ⟨h, -⟩
    · exact Or.inl h
    · exact Or.inr h
  · intro hn
    rcases h with h | ⟨-, hc⟩
    · exact h
    · omega

theorem hopscotch_run_eq_set_run_witness :
    run idTraits { m_size_mask := 15, _cache_mask := 1, _is_cacheline_alignment := true } 4200
        (emptyTable idTraits 16)
        [Op.add 1, Op.add 17, Op.add 33, Op.contains 1, Op.remove 17, Op.contains 17,
          Op.contains 33, Op.add 1] =
      some (some (set_run ∅
        [Op.add 1, Op.add 17, Op.add 33, Op.contains 1, Op.remove 17, Op.contains 17,
          Op.contains 33, Op.add 1])) :=
  (hopscotch_run_eq_set_run idTraits
    { m_size_mask := 15, _cache_mask := 1, _is_cacheline_alignment := true } 16
    [Op.add 1, Op.add 17, Op.add 33, Op.contains 1, Op.remove 17, Op.contains 17,
      Op.contains 33, Op.add 1] 4200 (by decide) (by decide) (by decide) (by decide)
    (by decide)).2 (by decide)

end HopscotchHashSet
end concurrent_data_structures

namespace concurrent_data_structures
namespace LockFreeLinearProbingNodeSet

open TransactionalRobinHoodSet (mask_eq_mod size_pos_of_pow)

/-! ### contains on an arbitrary table -/

theorem contains_loop_found (k h0 dq p : Nat) (s : State) (hp : s.m_table.length = 2 ^ p)
    (hbefore : ∀ d < dq,
      s.m_table.getD ((h0 + d) % s.m_table.length) 0 ≠ 0 ∧
      (s.m_table.getD ((h0 + d) % s.m_table.length) 0 = s.TOMBSTONE ∨
       Cell.is_flagged (s.m_table.getD ((h0 + d) % s.m_table.length) 0) = true ∨
       s.key (s.m_table.getD ((h0 + d) % s.m_table.length) 0) ≠ k))
    (hq : CommittedKey s ((h0 + dq) % s.m_table.length) k) :
    ∀ (fuel d i : Nat), i % s.m_table.length = (h0 + d) % s.m_table.length →
      d ≤ dq → dq - d < fuel → contains_loop k s fuel i = some true := by
  intro fuel
  induction fuel with
  | zero => intro d i _ _ h; omega
  | succ fuel ih =>
    intro d i hi hd hfuel
    simp only [contains_loop]
    rw [mask_eq_mod hp, hi]
    rcases Nat.lt_or_ge d dq with hlt | hge
    · obtain ⟨h1, h2⟩ := hbefore d hlt
      have hcont := ih (d + 1) (((h0 + d) % s.m_table.length) + 1) (next_slot _ h0 d)
        (by omega) (by omega)
      rw [if_neg h1]
      by_cases hskip : s.m_table.getD ((h0 + d) % s.m_table.length) 0 = s.TOMBSTONE ∨
          Cell.is_flagged (s.m_table.getD ((h0 + d) % s.m_table.length) 0) = true
      · rw [if_pos hskip]; exact hcont
      · rw [if_neg hskip]
        have hk : s.key (s.m_table.getD ((h0 + d) % s.m_table.length) 0) ≠ k := by
          rcases h2 with h | h | h
          · exact absurd (Or.inl h) hskip
          · exact absurd (Or.inr h) hskip
          · exact h
        rw [if_neg hk]; exact hcont
    · have hdd : d = dq := by omega
      subst hdd
      obtain ⟨h1, h2, h3, h4⟩ := hq
      rw [if_neg h1, if_neg (by
        rintro (h | h)
        · exact h2 h
        · rw [h3] at h; cases h), if_pos h4]

theorem probe_mod (KT : KeyTraits) (s : State) (k d : Nat) :
    probe KT s k (d % s.m_table.length) = probe KT s k d := by
  unfold probe
  rw [Nat.add_mod_mod]

end LockFreeLinearProbingNodeSet
end concurrent_data_structures

namespace concurrent_data_structures
namespace LockFreeLinearProbingNodeSet

open TransactionalRobinHoodSet (mask_eq_mod size_pos_of_pow)

/-- C11: on every table in which the probe from the home slot of `k` reaches a null slot or a
committed cell with key `k`, `contains(k)` returns, and it returns true exactly when a
committed cell with key `k` lies on the probe path before the first null slot; a tombstone or
a tentative cell, also one whose key is `k`, never makes it return true. -/
theorem contains_true_iff_committed_before_null (KT : KeyTraits) (s : State) (k p fuel : Nat)
    (hp : s.m_table.length = 2 ^ p)
    (hreach : ∃ d, s.m_table.getD (probe KT s k d) 0 = 0 ∨ CommittedKey s (probe KT s k d) k)
    (hfuel : s.m_table.length ≤ fuel) :
    ∃ b, contains KT fuel s k = some b ∧
      (b = true ↔ ∃ d, CommittedKey s (probe KT s k d) k ∧
        ∀ e < d, s.m_table.getD (probe KT s k e) 0 ≠ 0) := by
  classical
  have hN := size_pos_of_pow hp
  have hcon : contains KT fuel s k = contains_loop k s fuel (home KT s k) := rfl
  have hmin : ∀ m, m < Nat.find hreach → ¬ (s.m_table.getD (probe KT s k m) 0 = 0 ∨
      CommittedKey s (probe KT s k m) k) := fun m hm => Nat.find_min hreach hm
  have hspec := Nat.find_spec hreach
  generalize Nat.find hreach = d0 at hmin hspec
  have hd0 : d0 < s.m_table.length := by
    by_contra hge
    have hlt : d0 % s.m_table.length < d0 :=
      lt_of_lt_of_le (Nat.mod_lt _ hN) (Nat.le_of_not_lt hge)
    refine hmin _ hlt ?_
    rw [probe_mod]
    exact hspec
  have hbefore : ∀ d < d0,
      s.m_table.getD ((home KT s k + d) % s.m_table.length) 0 ≠ 0 ∧
      (s.m_table.getD ((home KT s k + d) % s.m_table.length) 0 = s.TOMBSTONE ∨
       Cell.is_flagged (s.m_table.getD ((home KT s k + d) % s.m_table.length) 0) = true ∨
       s.key (s.m_table.getD ((home KT s k + d) % s.m_table.length) 0) ≠ k) := by
    intro d hd
    have h := hmin d hd
    have h0 : s.m_table.getD (probe KT s k d) 0 ≠ 0 := fun e => h (Or.inl e)
    exact ⟨h0, not_committed_cases (fun c => h (Or.inr c)) h0⟩
  rcases hspec with hz | hq
  · refine ⟨false, ?_, ?_⟩
    · rw [hcon]
      exact contains_loop_not_found k (home KT s k) d0 p s hp hbefore hz fuel 0 (home KT s k)
        rfl (Nat.zero_le _) (by omega)
    · constructor
      · intro h; cases h
      · rintro ⟨d, hc, hnn⟩
        exfalso
        rcases Nat.lt_trichotomy d d0 with hlt | heq | hgt
        · exact hmin d hlt (Or.inr hc)
        · rw [heq] at hc; exact hc.1 hz
        · exact hnn d0 hgt hz
  · refine ⟨true, ?_, ?_⟩
    · rw [hcon]
      exact contains_loop_found k (home KT s k) d0 p s hp hbefore hq fuel 0 (home KT s k)
        rfl (Nat.zero_le _) (by omega)
    · exact ⟨fun _ => ⟨d0, hq, fun e he => (hbefore e he).1⟩, fun _ => rfl⟩

theorem contains_true_iff_committed_before_null_witness :
    ∃ b, contains idTraits 4 (exampleState [4096, 17, 32, 0]) 1 = some b ∧
      (b = true ↔ ∃ d, CommittedKey (exampleState [4096, 17, 32, 0])
          (probe idTraits (exampleState [4096, 17, 32, 0]) 1 d) 1 ∧
        ∀ e < d, (exampleState [4096, 17, 32, 0]).m_table.getD
          (probe idTraits (exampleState [4096, 17, 32, 0]) 1 e) 0 ≠ 0) :=
  contains_true_iff_committed_before_null idTraits (exampleState [4096, 17, 32, 0]) 1 2 4
    (by decide) ⟨2, Or.inl (by decide)⟩ (by decide)

end LockFreeLinearProbingNodeSet
end concurrent_data_structures

namespace concurrent_data_structures
namespace TransactionalRobinHoodSet

/-- C12, as stated, fails: with 16 slots, `h(k) = k` and keys 0, 1, 2 in slots 0, 1, 2,
`add(16)` returns true but key 16 ends in slot 1, not in slot 3: at slot 1 the resident key 1
has distance 0, less than the distance 1 of key 16, so the two are swapped (lines 97-100),
and likewise key 1 displaces key 2, which ends in slot 3. -/
theorem add_puts_new_key_in_slot_one :
    ∃ t, add idTraits 4 ([0, 1, 2] ++ List.replicate 13 255) 16 = some (true, t) ∧
      t.getD 1 0 = 16 ∧ t.getD 2 0 = 1 ∧ t.getD 3 0 = 2 ∧ t.getD 3 0 ≠ 16 :=
  ⟨[0, 16, 1, 2] ++ List.replicate 12 255, by decide, by decide, by decide, by decide,
    by decide⟩

/-- C12 with the slots the code produces: with 16 slots, `h(k) = k` and keys 0, 1, 2 in slots
0, 1, 2, `add(16)` returns true and leaves `T[0..3] = [0, 16, 1, 2]` and the other slots
empty; the distance invariant holds and the keys 0, 1, 2 and 16 are all found by
`contains`. -/
theorem add_displacement_scenario (fuel : Nat) (hfuel : 4 ≤ fuel) :
    add idTraits fuel ([0, 1, 2] ++ List.replicate 13 255) 16 =
      some (true, [0, 16, 1, 2] ++ List.replicate 12 255) ∧
    RobinHoodInvariant idTraits ([0, 16, 1, 2] ++ List.replicate 12 255) ∧
    ∀ k ∈ [0, 1, 2, 16],
      contains idTraits fuel ([0, 16, 1, 2] ++ List.replicate 12 255) k = some true := by
  obtain ⟨n, rfl⟩ : ∃ n, fuel = n + 4 := ⟨fuel - 4, by omega⟩
  refine ⟨rfl, by decide, ?_⟩
  intro k hk
  simp only [List.mem_cons, List.mem_singleton, List.not_mem_nil, or_false] at hk
  rcases hk with rfl | rfl | rfl | rfl <;> rfl

theorem add_displacement_scenario_witness :
    add idTraits 5 ([0, 1, 2] ++ List.replicate 13 255) 16 =
      some (true, [0, 16, 1, 2] ++ List.replicate 12 255) ∧
    RobinHoodInvariant idTraits ([0, 16, 1, 2] ++ List.replicate 12 255) ∧
    ∀ k ∈ [0, 1, 2, 16],
      contains idTraits 5 ([0, 16, 1, 2] ++ List.replicate 12 255) k = some true :=
  add_displacement_scenario 5 (by decide)

end TransactionalRobinHoodSet
end concurrent_data_structures

namespace concurrent_data_structures
namespace TransactionalRobinHoodSet

/-! ### add on a full table -/

theorem add_loop_full (KT : KeyTraits) {p : Nat} :
    ∀ (fuel : Nat) (t : List Nat) (i active dist : Nat), t.length = 2 ^ p →
      (∀ j < t.length, t.getD j 0 ≠ KT.NullKey) →
      (∀ a < t.length, ∀ b < t.length, t.getD a 0 = t.getD b 0 → a = b) →
      (∀ j < t.length, t.getD j 0 ≠ active) → active ≠ KT.NullKey →
      add_loop KT fuel t i active dist = none
  | 0, _, _, _, _, _, _, _, _, _ => rfl
  | fuel + 1, t, i, active, dist, hp, hfull, hinj, hact, hnn => by
    have hN := size_pos_of_pow hp
    have hi : i % t.length < t.length := Nat.mod_lt _ hN
    unfold add_loop
    simp only []
    rw [mask_eq_mod hp, if_neg (hfull _ hi), if_neg (fun e => hact _ hi e.symm)]
    split
    · refine add_loop_full KT fuel _ _ _ _ (by rw [List.length_set]; exact hp) ?_ ?_ ?_
        (hfull _ hi)
      · intro j hj
        rw [List.length_set] at hj
        by_cases hji : i % t.length = j
        · rw [← hji, getD_set_self hi]; exact hnn
        · rw [getD_set_other hji]; exact hfull j hj
      · intro a ha b hb hab
        rw [List.length_set] at ha hb
        by_cases hai : i % t.length = a
        · by_cases hbi : i % t.length = b
          · exact hai.symm.trans hbi
          · rw [← hai, getD_set_self hi, getD_set_other hbi] at hab
            exact absurd hab.symm (hact b hb)
        · by_cases hbi : i % t.length = b
          · rw [← hbi, getD_set_self hi, getD_set_other hai] at hab
            exact absurd hab (hact a ha)
          · rw [getD_set_other hai, getD_set_other hbi] at hab
            exact hinj a ha b hb hab
      · intro j hj
        rw [List.length_set] at hj
        by_cases hji : i % t.length = j
        · rw [← hji, getD_set_self hi]
          exact fun e => hact _ hi e.symm
        · rw [getD_set_other hji]
          exact fun e => hji (hinj j hj _ hi e).symm
    · exact add_loop_full KT fuel t _ _ _ hp hfull hinj hact hnn

end TransactionalRobinHoodSet
end concurrent_data_structures

namespace concurrent_data_structures
namespace HopscotchHashSet

/-! ### Hopscotch: the states reached from the empty table -/

theorem exec_represents (KT : KeyTraits) (cfg : Config) (fuel : Nat) :
    ∀ (ops : List Op) (t : List Bucket) (S : Finset Nat), Represents KT cfg t S →
      (t.length : Int) ≤ 2147483648 →
      (cfg.m_size_mask : Int) + (cfg._cache_mask : Int) < (t.length : Int) →
      (cfg.m_size_mask : Int) + 1 < (t.length : Int) →
      t.length + cfg._cache_mask + 1 < fuel →
      (∀ op ∈ ops, KT.hash op.key % 2 ^ 32 ≠ 0) →
      ∀ t', exec KT cfg fuel t ops = some t' →
        ∃ S', Represents KT cfg t' S' ∧ t'.length = t.length
  | [], t, S, hrep, _, _, _, _, _, t', h => by
    have : t = t' := Option.some.inj h
    subst this
    exact ⟨S, hrep, rfl⟩
  | Op.contains k :: ops, t, S, hrep, hL, hM, hM1, hfuel, hh, t', h => by
    unfold exec at h
    rw [hopscotch_contains_refines KT cfg hrep k fuel (by omega)] at h
    exact exec_represents KT cfg fuel ops t S hrep hL hM hM1 hfuel
      (fun op hop => hh op (List.mem_cons_of_mem _ hop)) t' h
  | Op.add k :: ops, t, S, hrep, hL, hM, hM1, hfuel, hh, t', h => by
    unfold exec at h
    rcases hopscotch_add_refines KT cfg hrep k fuel hL hM hM1 (hh _ (List.mem_cons_self _ _))
      hfuel with ⟨he, -⟩ | ⟨t1, he, hrep1, hlen⟩
    · rw [he] at h; cases h
    · rw [he] at h
      obtain ⟨S', h1, h2⟩ := exec_represents KT cfg fuel ops t1 _ hrep1 (by rw [hlen]; exact hL)
        (by rw [hlen]; exact hM) (by rw [hlen]; exact hM1) (by rw [hlen]; exact hfuel)
        (fun op hop => hh op (List.mem_cons_of_mem _ hop)) t' h
      exact ⟨S', h1, h2.trans hlen⟩
  | Op.remove k :: ops, t, S, hrep, hL, hM, hM1, hfuel, hh, t', h => by
    unfold exec at h
    obtain ⟨t1, he, hrep1, hlen⟩ := hopscotch_remove_refines KT cfg hrep k fuel hL hM hfuel
    rw [he] at h
    obtain ⟨S', h1, h2⟩ := exec_represents KT cfg fuel ops t1 _ hrep1 (by rw [hlen]; exact hL)
      (by rw [hlen]; exact hM) (by rw [hlen]; exact hM1) (by rw [hlen]; exact hfuel)
      (fun op hop => hh op (List.mem_cons_of_mem _ hop)) t' h
    exact ⟨S', h1, h2.trans hlen⟩

theorem forward_scan_first (KT : KeyTraits) (t : List Bucket) (max_bucket f : Int)
    (hfree : (bucketAt KT t f)._hash = 0) (hmax : f ≤ max_bucket) :
    ∀ (fuel : Nat) (free : Int), free ≤ f → f - free < (fuel : Int) →
      (∀ j, free ≤ j → j < f → (bucketAt KT t j)._hash ≠ 0) →
      forward_scan KT t max_bucket fuel free = some (some f)
  | 0, free, h1, h2, _ => by omega
  | fuel + 1, free, h1, h2, hocc => by
    unfold forward_scan
    rw [if_pos (le_trans h1 hmax)]
    by_cases hf : free = f
    · subst hf
      rw [if_pos hfree.symm]
    · rw [if_neg (fun e => hocc free (le_refl _) (by omega) e.symm)]
      exact forward_scan_first KT t max_bucket f hfree hmax fuel (free + 1) (by omega)
        (by push_cast at h2; omega) (fun j hj1 hj2 => hocc j (by omega) hj2)

theorem eq_some_getD {α : Type} {o : Option α} (h : o.isSome = true) (d : α) :
    o = some (o.getD d) := by
  cases o with
  | none => cases h
  | some a => rfl

end HopscotchHashSet
end concurrent_data_structures

namespace concurrent_data_structures
namespace HopscotchHashSet

theorem add_beyond_cacheline (KT : KeyTraits) (cfg : Config) {t : List Bucket}
    {S : Finset Nat} (hrep : Represents KT cfg t S) (key : Nat) (f : Int) (fuel : Nat)
    (hL : (t.length : Int) ≤ 2147483648)
    (hM : (cfg.m_size_mask : Int) + (cfg._cache_mask : Int) < (t.length : Int))
    (hM1 : (cfg.m_size_mask : Int) + 1 < (t.length : Int))
    (hhash : KT.hash key % 2 ^ 32 ≠ 0) (hfuel : t.length + cfg._cache_mask + 1 < fuel)
    (hal : cfg._is_cacheline_alignment = true) (hkey : key ∉ S)
    (hfull : ∀ j, get_start_cacheline_bucket cfg (home KT cfg key) ≤ j →
      j ≤ get_start_cacheline_bucket cfg (home KT cfg key) + (cfg._cache_mask : Int) →
      (bucketAt KT t j)._hash ≠ 0)
    (hf1 : home KT cfg key + ((cfg._cache_mask : Int) + 1) ≤ f)
    (hf2 : f ≤ (cfg.m_size_mask : Int)) (hfree : (bucketAt KT t f)._hash = 0)
    (hfirst : ∀ j, home KT cfg key + ((cfg._cache_mask : Int) + 1) ≤ j → j < f →
      (bucketAt KT t j)._hash ≠ 0) :
    ∃ t', add KT cfg fuel t key = some (Outcome.returned true t') ∧
      Represents KT cfg t' (insert key S) ∧ t'.length = t.length ∧
      (bucketAt KT t' f)._key = key ∧
      ∀ j, j ≠ f → (bucketAt KT t' j)._hash = (bucketAt KT t j)._hash := by
  obtain ⟨ms, hwf, hS⟩ := hrep
  have hh0 := home_nonneg KT cfg key
  have hhM := home_le_mask KT cfg key
  have hwalk := add_walk_chain KT t (KT.hash key % 2 ^ 32) key (ms (home KT cfg key)) fuel none
    (home KT cfg key) _ (hwf.chain _)
    (lt_of_le_of_lt (wf_length_le KT cfg hwf _) (by omega))
  have hno : ¬ ∃ m ∈ ms (home KT cfg key), KT.hash key % 2 ^ 32 = (bucketAt KT t m)._hash ∧
      key = (bucketAt KT t m)._key := by
    rintro ⟨m, hm, -, hk⟩
    exact hkey ((hS key).mpr (List.mem_map.mpr ⟨m, hm, hk.symm⟩))
  have hsc := start_cacheline_bounds cfg (home KT cfg key) hh0
  obtain ⟨r, hr, hrs⟩ := cacheline_scan_spec KT t (home KT cfg key)
    (get_start_cacheline_bucket cfg (home KT cfg key))
    (get_start_cacheline_bucket cfg (home KT cfg key) + (cfg._cache_mask : Int))
    ⟨hsc.2.1, hsc.2.2⟩ fuel (home KT cfg key) hsc.2.1 hsc.2.2
    (by rw [if_pos (le_refl _)]; omega)
  have hrn : r = none := by
    cases r with
    | none => rfl
    | some g =>
      obtain ⟨a, b, c⟩ := hrs g rfl
      exact absurd a (hfull g b c)
  subst hrn
  have hI : INT_MAX = 2147483647 := rfl
  have hfw := forward_scan_first KT t
    (min (home KT cfg key + (INT_MAX - 1)) (cfg.m_size_mask : Int)) f hfree
    (le_min (by rw [hI]; omega) hf2) fuel (home KT cfg key + ((cfg._cache_mask : Int) + 1)) hf1
    (by omega) hfirst
  have hadd : add KT cfg fuel t key = some (Outcome.returned true
      (add_key_to_end_of_list KT (claim KT t f (KT.hash key % 2 ^ 32)) (home KT cfg key) f key
        (lastBucket none (ms (home KT cfg key))))) := by
    unfold add
    simp only []
    rw [show ((((KT.hash key % 2 ^ 32) &&& cfg.m_size_mask : Nat) : Int)) = home KT cfg key
      from rfl]
    rw [hwalk, if_neg hno]
    simp only []
    rw [if_pos hal, hr]
    simp only []
    rw [hfw]
  have hfr : 0 ≤ f ∧ f < (t.length : Int) := ⟨by omega, by omega⟩
  have hend := add_end_represents KT cfg hwf hS key f hL (by omega) hfr hfree hhash hkey
  have hl : ∀ l, lastBucket none (ms (home KT cfg key)) = some l →
      0 ≤ l ∧ l < (t.length : Int) ∧ l ≠ f := by
    intro l hl
    rcases lastBucket_mem _ _ _ hl with h1 | h1
    · cases h1
    · have := hwf.member _ l h1
      exact ⟨this.1, this.2.1, fun e => wf_free_not_member KT cfg hwf hfree _ (e ▸ h1)⟩
  have spec := add_key_to_end_spec KT t (home KT cfg key) f (KT.hash key % 2 ^ 32) key
    (lastBucket none (ms (home KT cfg key))) hfr ⟨hh0, by omega⟩ hl
  refine ⟨_, hadd, hend.1, hend.2, ?_, ?_⟩
  · rw [(spec f).2.2.2.2, if_pos rfl]
  · intro j hj
    rw [(spec j).2.2.2.1, if_neg hj]

end HopscotchHashSet
end concurrent_data_structures

namespace concurrent_data_structures
namespace HopscotchHashSet

/-- C13, as stated, fails: with 4 buckets per cache line, 16 home buckets and `h(k) = k`,
after `add` of 4, 5, 6, 7 the cache line of home bucket 5 (buckets 4..7) is full and bucket 8
is free; `add(21)` (home 5) nevertheless leaves bucket 8 free and places key 21 in bucket 9,
because the forward scan starts at `start_bucket + (_cache_mask + 1)` (line 380), one
cache-line length beyond the home bucket and not at the end of its cache line. -/
theorem add_skips_bucket_after_cacheline :
    (exec idTraits { m_size_mask := 15, _cache_mask := 3, _is_cacheline_alignment := true } 10
        (emptyTable idTraits 16) [Op.add 4, Op.add 5, Op.add 6, Op.add 7]).map
      (fun t => [(bucketAt idTraits t 4)._hash, (bucketAt idTraits t 5)._hash,
        (bucketAt idTraits t 6)._hash, (bucketAt idTraits t 7)._hash,
        (bucketAt idTraits t 8)._hash]) = some [4, 5, 6, 7, 0] ∧
    run idTraits { m_size_mask := 15, _cache_mask := 3, _is_cacheline_alignment := true } 10
        (emptyTable idTraits 16) [Op.add 4, Op.add 5, Op.add 6, Op.add 7, Op.add 21] =
      some (some [true, true, true, true, true]) ∧
    (exec idTraits { m_size_mask := 15, _cache_mask := 3, _is_cacheline_alignment := true } 10
        (emptyTable idTraits 16) [Op.add 4, Op.add 5, Op.add 6, Op.add 7, Op.add 21]).map
      (fun t => ((bucketAt idTraits t 8)._hash, (bucketAt idTraits t 8)._key,
        (bucketAt idTraits t 9)._hash, (bucketAt idTraits t 9)._key)) =
      some (0, 255, 21, 21) := by
  refine ⟨by decide, by decide, by decide⟩

/-- C13 with the bucket the code uses: in a state reached from the empty table in which the
key is absent and every bucket of the cache line of its home bucket is claimed, `add` returns
true and places the key in the lowest-indexed free bucket `f` with
`home + _cache_mask + 1 ≤ f ≤ m_size_mask` (bucket 9 or beyond for home 5 and 4 buckets per
cache line), no other bucket is claimed or released, and the key is then found by the walk of
`contains` over the list of its home bucket. -/
theorem add_places_beyond_cacheline (KT : KeyTraits) (cfg : Config) (n : Nat)
    (ops : List Op) (t : List Bucket) (key : Nat) (f : Int) (fuel : Nat)
    (hmask : cfg.m_size_mask + 1 = n) (hsize : n + 4097 ≤ 2147483648)
    (hline : 2 * cfg._cache_mask ≤ 4096) (hal : cfg._is_cacheline_alignment = true)
    (hops : ∀ op ∈ ops, KT.hash op.key % 2 ^ 32 ≠ 0) (hhash : KT.hash key % 2 ^ 32 ≠ 0)
    (hfuel : n + 4097 + cfg._cache_mask + 1 < fuel)
    (hexec : exec KT cfg fuel (emptyTable KT n) ops = some t)
    (habsent : contains KT cfg fuel t key = some false)
    (hfull : ∀ j, get_start_cacheline_bucket cfg (home KT cfg key) ≤ j →
      j ≤ get_start_cacheline_bucket cfg (home KT cfg key) + (cfg._cache_mask : Int) →
      (bucketAt KT t j)._hash ≠ 0)
    (hf1 : home KT cfg key + ((cfg._cache_mask : Int) + 1) ≤ f)
    (hf2 : f ≤ (cfg.m_size_mask : Int)) (hfree : (bucketAt KT t f)._hash = 0)
    (hfirst : ∀ j, home KT cfg key + ((cfg._cache_mask : Int) + 1) ≤ j → j < f →
      (bucketAt KT t j)._hash ≠ 0) :
    ∃ t', add KT cfg fuel t key = some (Outcome.returned true t') ∧
      (bucketAt KT t' f)._key = key ∧
      (∀ j, j ≠ f → (bucketAt KT t' j)._hash = (bucketAt KT t j)._hash) ∧
      contains KT cfg fuel t' key = some true := by
  have hlen := length_emptyTable KT n
  obtain ⟨S, hrep, hlt⟩ := exec_represents KT cfg fuel ops (emptyTable KT n) ∅
    (emptyTable_represents KT cfg n) (by rw [hlen]; push_cast; omega)
    (by rw [hlen]; push_cast; omega) (by rw [hlen]; push_cast; omega) (by rw [hlen]; omega)
    hops t hexec
  rw [hlen] at hlt
  have hkey : key ∉ S := by
    have hc := hopscotch_contains_refines KT cfg hrep key fuel (by omega)
    rw [habsent] at hc
    intro hk
    have : decide (key ∈ S) = true := decide_eq_true hk
    rw [this] at hc
    cases hc
  obtain ⟨t', hadd, hrep', hlen', hk', hh'⟩ := add_beyond_cacheline KT cfg hrep key f fuel
    (by rw [hlt]; push_cast; omega) (by rw [hlt]; push_cast; omega)
    (by rw [hlt]; push_cast; omega) hhash (by omega) hal hkey hfull hf1 hf2 hfree hfirst
  refine ⟨t', hadd, hk', hh', ?_⟩
  rw [hopscotch_contains_refines KT cfg hrep' key fuel (by omega)]
  simp

theorem add_places_beyond_cacheline_witness :
    ∃ t', add idTraits { m_size_mask := 15, _cache_mask := 3, _is_cacheline_alignment := true }
        4200
        ((exec idTraits
          { m_size_mask := 15, _cache_mask := 3, _is_cacheline_alignment := true } 4200
          (emptyTable idTraits 16) [Op.add 4, Op.add 5, Op.add 6, Op.add 7]).getD []) 21 =
        some (Outcome.returned true t') ∧
      (bucketAt idTraits t' 9)._key = 21 ∧
      (∀ j, j ≠ 9 → (bucketAt idTraits t' j)._hash =
        (bucketAt idTraits
          ((exec idTraits
            { m_size_mask := 15, _cache_mask := 3, _is_cacheline_alignment := true } 4200
            (emptyTable idTraits 16) [Op.add 4, Op.add 5, Op.add 6, Op.add 7]).getD [])
          j)._hash) ∧
      contains idTraits
        { m_size_mask := 15, _cache_mask := 3, _is_cacheline_alignment := true } 4200 t' 21 =
        some true :=
  add_places_beyond_cacheline idTraits
    { m_size_mask := 15, _cache_mask := 3, _is_cacheline_alignment := true } 16
    [Op.add 4, Op.add 5, Op.add 6, Op.add 7] _ 21 9 4200 (by decide) (by decide) (by decide)
    rfl (by decide) (by decide) (by decide) (eq_some_getD (by decide) []) (by decide)
    (by decide) (by decide) (by decide) (by decide) (by decide)

end HopscotchHashSet
end concurrent_data_structures

namespace concurrent_data_structures
namespace HopscotchHashSet

/-! ### Hopscotch: which buckets are claimed -/

theorem hash_set_hash_cases (KT : KeyTraits) (t : List Bucket) (i j : Int) (v : Nat) :
    (bucketAt KT (set_hash KT t i v) j)._hash = v ∧ j = i ∨
      (bucketAt KT (set_hash KT t i v) j)._hash = (bucketAt KT t j)._hash := by
  unfold set_hash
  rcases bucketAt_setBucket_field KT t i j { bucketAt KT t i with _hash := v } with
    ⟨h, hj⟩ | h
  · left; rw [h]; exact ⟨rfl, hj⟩
  · right; rw [h]

theorem add_key_to_end_support (KT : KeyTraits) (t : List Bucket) (h f : Int) (hv key : Nat)
    (last : Option Int) (j : Int)
    (hj : (bucketAt KT (add_key_to_end_of_list KT (claim KT t f hv) h f key last) j)._hash ≠ 0) :
    j = f ∨ (bucketAt KT t j)._hash ≠ 0 := by
  have hred : (bucketAt KT (add_key_to_end_of_list KT (claim KT t f hv) h f key last) j)._hash =
      (bucketAt KT (set_hash KT t f hv) j)._hash := by
    cases last <;>
      simp only [add_key_to_end_of_list, claim, hash_set_first_delta, hash_set_next_delta,
        hash_set_key]
  rw [hred] at hj
  rcases hash_set_hash_cases KT t f j hv with ⟨-, e⟩ | e
  · exact Or.inl e
  · rw [e] at hj; exact Or.inr hj

theorem add_key_to_begining_support (KT : KeyTraits) (t : List Bucket) (h f : Int)
    (hv key : Nat) (j : Int)
    (hj : (bucketAt KT (add_key_to_begining_of_list KT (claim KT t f hv) h f key) j)._hash ≠ 0) :
    j = f ∨ (bucketAt KT t j)._hash ≠ 0 := by
  have hred : (bucketAt KT (add_key_to_begining_of_list KT (claim KT t f hv) h f key) j)._hash =
      (bucketAt KT (set_hash KT t f hv) j)._hash := by
    unfold add_key_to_begining_of_list claim
    simp only []
    split_ifs <;>
      simp only [hash_set_first_delta, hash_set_next_delta, hash_set_key]
  rw [hred] at hj
  rcases hash_set_hash_cases KT t f j hv with ⟨-, e⟩ | e
  · exact Or.inl e
  · rw [e] at hj; exact Or.inr hj

theorem remove_key_support (KT : KeyTraits) (t : List Bucket) (h m : Int) (prev : Option Int)
    (j : Int) (hj : (bucketAt KT (remove_key KT t h m prev) j)._hash ≠ 0) :
    (bucketAt KT t j)._hash ≠ 0 := by
  unfold remove_key at hj
  simp only [] at hj
  rcases hash_set_hash_cases KT _ m j 0 with ⟨e, -⟩ | e
  · exact absurd e hj
  · rw [e] at hj
    cases prev <;> simp only [] at hj <;> split_ifs at hj <;>
      simpa only [hash_set_first_delta, hash_set_next_delta, hash_set_key] using hj

theorem relocate_support (KT : KeyTraits) (t : List Bucket) (f o r : Int) (last : Option Int)
    (j : Int) (hj : (bucketAt KT (relocate KT t f o r last) j)._hash ≠ 0) :
    j = f ∨ (bucketAt KT t j)._hash ≠ 0 := by
  unfold relocate at hj
  simp only [] at hj
  rcases hash_set_hash_cases KT _ r j 0 with ⟨e, -⟩ | e
  · exact absurd e hj
  · rw [e] at hj
    have hfin : (bucketAt KT (set_hash KT (set_key KT t f (bucketAt KT t r)._key) f
        (bucketAt KT t r)._hash) j)._hash ≠ 0 → j = f ∨ (bucketAt KT t j)._hash ≠ 0 := by
      intro hx
      rcases hash_set_hash_cases KT (set_key KT t f (bucketAt KT t r)._key) f j
        (bucketAt KT t r)._hash with ⟨-, e2⟩ | e2
      · exact Or.inl e2
      · rw [e2, hash_set_key] at hx; exact Or.inr hx
    cases last <;> simp only [] at hj <;> split_ifs at hj <;>
      simp only [hash_set_first_delta, hash_set_next_delta, hash_set_key] at hj <;>
      exact hfin hj

end HopscotchHashSet
end concurrent_data_structures

namespace concurrent_data_structures
namespace HopscotchHashSet

theorem optimize_list_support (KT : KeyTraits) (cfg : Config) (t : List Bucket) (f o : Int) :
    ∀ (fuel : Nat) (last : Option Int) (cd rk : Int) (t' : List Bucket),
      optimize_list KT cfg t f o fuel last cd rk = some (some t') →
      ∀ j, (bucketAt KT t' j)._hash ≠ 0 → j = f ∨ (bucketAt KT t j)._hash ≠ 0
  | 0, _, _, _, _, h => by cases h
  | fuel + 1, last, cd, rk, t', h => by
    unfold optimize_list at h
    split_ifs at h
    · cases h
      exact fun j hj => relocate_support KT t f o rk last j hj
    · cases h
    · exact optimize_list_support KT cfg t f o fuel _ _ _ t' h

theorem optimize_loop_support (KT : KeyTraits) (cfg : Config) (lfuel : Nat) (t : List Bucket)
    (f ec : Int) :
    ∀ (fuel : Nat) (o : Int) (t' : List Bucket),
      optimize_loop KT cfg lfuel t f ec fuel o = some t' →
      ∀ j, (bucketAt KT t' j)._hash ≠ 0 → j = f ∨ (bucketAt KT t j)._hash ≠ 0
  | 0, _, _, h => by cases h
  | fuel + 1, o, t', h => by
    unfold optimize_loop at h
    simp only [] at h
    have hnext : (if o + 1 ≤ ec then optimize_loop KT cfg lfuel t f ec fuel (o + 1)
        else some t) = some t' →
        ∀ j, (bucketAt KT t' j)._hash ≠ 0 → j = f ∨ (bucketAt KT t j)._hash ≠ 0 := by
      intro hn
      split_ifs at hn
      · exact optimize_loop_support KT cfg lfuel t f ec fuel (o + 1) t' hn
      · cases hn
        exact fun j hj => Or.inr hj
    by_cases hfd : _NULL_DELTA ≠ (bucketAt KT t o)._first_delta
    · rw [if_pos hfd] at h
      cases hin : optimize_list KT cfg t f o lfuel none (bucketAt KT t o)._first_delta
          (o + (bucketAt KT t o)._first_delta) with
      | none => rw [hin] at h; cases h
      | some r =>
        rw [hin] at h
        cases r with
        | none => exact hnext h
        | some t1 =>
          cases h
          exact optimize_list_support KT cfg t f o lfuel _ _ _ _ hin
    · rw [if_neg hfd] at h
      exact hnext h

theorem remove_walk_support (KT : KeyTraits) (cfg : Config) (ofuel : Nat) (t : List Bucket)
    (hv key : Nat) (start : Int) (hhv : hv ≠ 0) :
    ∀ (fuel : Nat) (last : Option Int) (cur delta : Int) (b : Bool) (t' : List Bucket),
      remove_walk KT cfg ofuel t hv key start fuel last cur delta =
        some (Outcome.returned b t') →
      ∀ j, (bucketAt KT t' j)._hash ≠ 0 → (bucketAt KT t j)._hash ≠ 0
  | 0, _, _, _, _, _, h => by cases h
  | fuel + 1, last, cur, delta, b, t', h => by
    unfold remove_walk at h
    simp only [] at h
    split_ifs at h with h1 h2 h3
    · cases h
      exact fun j hj => hj
    · cases ho : optimize_cacheline_use KT cfg ofuel
          (remove_key KT t start (cur + delta) last) (cur + delta) with
      | none => rw [ho] at h; cases h
      | some t2 =>
        rw [ho] at h
        cases h
        intro j hj
        unfold optimize_cacheline_use at ho
        rcases optimize_loop_support KT cfg ofuel _ _ _ ofuel _ _ ho j hj with e | e
        · rw [e, ← h2.1]; exact hhv
        · exact remove_key_support KT t start (cur + delta) last j e
    · cases h
      exact fun j hj => remove_key_support KT t start (cur + delta) last j hj
    · exact remove_walk_support KT cfg ofuel t hv key start hhv fuel _ _ _ b t' h

theorem remove_support (KT : KeyTraits) (cfg : Config) (fuel : Nat) (t : List Bucket)
    (key : Nat) (hhash : KT.hash key % 2 ^ 32 ≠ 0) (b : Bool) (t' : List Bucket)
    (h : remove KT cfg fuel t key = some (Outcome.returned b t')) :
    ∀ j, (bucketAt KT t' j)._hash ≠ 0 → (bucketAt KT t j)._hash ≠ 0 :=
  remove_walk_support KT cfg fuel t _ key _ hhash fuel none _ _ b t' h

end HopscotchHashSet
end concurrent_data_structures

namespace concurrent_data_structures
namespace HopscotchHashSet

theorem add_support (KT : KeyTraits) (cfg : Config) (fuel : Nat) (t : List Bucket) (key : Nat)
    (hfuel : cfg.m_size_mask + cfg._cache_mask + 1 < fuel) (b : Bool) (t' : List Bucket)
    (h : add KT cfg fuel t key = some (Outcome.returned b t')) :
    ∀ j, (bucketAt KT t' j)._hash ≠ 0 →
      (bucketAt KT t j)._hash ≠ 0 ∨
        (0 ≤ j ∧ j ≤ (cfg.m_size_mask : Int) + (cfg._cache_mask : Int)) := by
  have hh0 := home_nonneg KT cfg key
  have hhM := home_le_mask KT cfg key
  have hsc := start_cacheline_bounds cfg (home KT cfg key) hh0
  unfold add at h
  simp only [] at h
  rw [show ((((KT.hash key % 2 ^ 32) &&& cfg.m_size_mask : Nat) : Int)) = home KT cfg key
    from rfl] at h
  cases hw : add_walk KT t (KT.hash key % 2 ^ 32) key fuel none (home KT cfg key)
      (bucketAt KT t (home KT cfg key))._first_delta with
  | none => rw [hw] at h; cases h
  | some w =>
    rw [hw] at h
    cases w with
    | none =>
      cases h
      exact fun j hj => Or.inl hj
    | some last =>
      simp only [] at h
      have hrest : (match forward_scan KT t
            (min (home KT cfg key + (INT_MAX - 1)) (cfg.m_size_mask : Int)) fuel
            (home KT cfg key + ((cfg._cache_mask : Int) + 1)) with
          | none => none
          | some (some free_max_bucket) =>
            some (Outcome.returned true
              (add_key_to_end_of_list KT (claim KT t free_max_bucket (KT.hash key % 2 ^ 32))
                (home KT cfg key) free_max_bucket key last))
          | some none =>
            match backward_scan KT t (max (home KT cfg key - (INT_MAX - 1)) 0) fuel
                (home KT cfg key - ((cfg._cache_mask : Int) + 1)) with
            | none => none
            | some (some free_min_bucket) =>
              some (Outcome.returned true
                (add_key_to_end_of_list KT (claim KT t free_min_bucket (KT.hash key % 2 ^ 32))
                  (home KT cfg key) free_min_bucket key last))
            | some none => some Outcome.exited) = some (Outcome.returned b t') →
          ∀ j, (bucketAt KT t' j)._hash ≠ 0 →
            (bucketAt KT t j)._hash ≠ 0 ∨
              (0 ≤ j ∧ j ≤ (cfg.m_size_mask : Int) + (cfg._cache_mask : Int)) := by
        intro hr
        have hmin : min (home KT cfg key + (INT_MAX - 1)) (cfg.m_size_mask : Int) ≤
            (cfg.m_size_mask : Int) := min_le_right _ _
        have hmax : (0 : Int) ≤ max (home KT cfg key - (INT_MAX - 1)) 0 := le_max_right _ _
        obtain ⟨r, hfw, hrs, -⟩ := forward_scan_spec KT t
          (min (home KT cfg key + (INT_MAX - 1)) (cfg.m_size_mask : Int)) fuel
          (home KT cfg key + ((cfg._cache_mask : Int) + 1)) (by omega) (by omega)
        rw [hfw] at hr
        cases r with
        | some g =>
          cases hr
          obtain ⟨-, g1, g2⟩ := hrs g rfl
          intro j hj
          rcases add_key_to_end_support KT t _ g _ key last j hj with e | e
          · exact Or.inr (by omega)
          · exact Or.inl e
        | none =>
          simp only [] at hr
          obtain ⟨r, hbw, hrs, -⟩ := backward_scan_spec KT t
            (max (home KT cfg key - (INT_MAX - 1)) 0) fuel
            (home KT cfg key - ((cfg._cache_mask : Int) + 1)) (by omega) (by omega)
          rw [hbw] at hr
          cases r with
          | some g =>
            cases hr
            obtain ⟨-, g1, g2⟩ := hrs g rfl
            intro j hj
            rcases add_key_to_end_support KT t _ g _ key last j hj with e | e
            · exact Or.inr (by omega)
            · exact Or.inl e
          | none => cases hr
      by_cases hal : cfg._is_cacheline_alignment = true
      · rw [if_pos hal] at h
        obtain ⟨r, hr, hrs⟩ := cacheline_scan_spec KT t (home KT cfg key)
          (get_start_cacheline_bucket cfg (home KT cfg key))
          (get_start_cacheline_bucket cfg (home KT cfg key) + (cfg._cache_mask : Int))
          ⟨hsc.2.1, hsc.2.2⟩ fuel (home KT cfg key) hsc.2.1 hsc.2.2
          (by rw [if_pos (le_refl _)]; omega)
        rw [hr] at h
        cases r with
        | some g =>
          cases h
          obtain ⟨-, g1, g2⟩ := hrs g rfl
          intro j hj
          rcases add_key_to_begining_support KT t _ g _ key j hj with e | e
          · exact Or.inr (by omega)
          · exact Or.inl e
        | none => exact hrest h
      · rw [if_neg hal] at h
        exact hrest h

theorem exec_claimed_bounded (KT : KeyTraits) (cfg : Config) (fuel : Nat)
    (hfuel : cfg.m_size_mask + cfg._cache_mask + 1 < fuel) :
    ∀ (ops : List Op) (t t' : List Bucket),
      (∀ op ∈ ops, KT.hash op.key % 2 ^ 32 ≠ 0) →
      (∀ j, (bucketAt KT t j)._hash ≠ 0 →
        0 ≤ j ∧ j ≤ (cfg.m_size_mask : Int) + (cfg._cache_mask : Int)) →
      exec KT cfg fuel t ops = some t' →
      ∀ j, (bucketAt KT t' j)._hash ≠ 0 →
        0 ≤ j ∧ j ≤ (cfg.m_size_mask : Int) + (cfg._cache_mask : Int)
  | [], t, t', _, hb, h => by
    have : t = t' := Option.some.inj h
    subst this
    exact hb
  | Op.contains k :: ops, t, t', hh, hb, h => by
    unfold exec at h
    cases hc : contains KT cfg fuel t k with
    | none => rw [hc] at h; cases h
    | some c =>
      rw [hc] at h
      exact exec_claimed_bounded KT cfg fuel hfuel ops t t'
        (fun op hop => hh op (List.mem_cons_of_mem _ hop)) hb h
  | Op.add k :: ops, t, t', hh, hb, h => by
    unfold exec at h
    cases ha : add KT cfg fuel t k with
    | none => rw [ha] at h; cases h
    | some r =>
      rw [ha] at h
      cases r with
      | exited => cases h
      | returned b t1 =>
        refine exec_claimed_bounded KT cfg fuel hfuel ops t1 t'
          (fun op hop => hh op (List.mem_cons_of_mem _ hop)) ?_ h
        intro j hj
        rcases add_support KT cfg fuel t k hfuel b t1 ha j hj with e | e
        · exact hb j e
        · exact e
  | Op.remove k :: ops, t, t', hh, hb, h => by
    unfold exec at h
    cases ha : remove KT cfg fuel t k with
    | none => rw [ha] at h; cases h
    | some r =>
      rw [ha] at h
      cases r with
      | exited => cases h
      | returned b t1 =>
        refine exec_claimed_bounded KT cfg fuel hfuel ops t1 t'
          (fun op hop => hh op (List.mem_cons_of_mem _ hop)) ?_ h
        intro j hj
        exact hb j (remove_support KT cfg fuel t k (hh _ (List.mem_cons_self _ _)) b t1 ha j hj)

end HopscotchHashSet
end concurrent_data_structures

namespace concurrent_data_structures
namespace HopscotchHashSet

/-- C14, as stated, fails: with 4 buckets per cache line, 16 home buckets and `h(k) = k`,
the keys 5, 21, 37 and 53 all have home bucket 5; after `add` of the four, key 53 is live
(`contains(53)` is true) and sits in bucket 4, below its home bucket: the scan of the cache
line of the home bucket wraps to the start of the line (lines 369-371). -/
theorem live_key_below_home_bucket :
    home idTraits { m_size_mask := 15, _cache_mask := 3, _is_cacheline_alignment := true } 53 =
      5 ∧
    run idTraits { m_size_mask := 15, _cache_mask := 3, _is_cacheline_alignment := true } 10
        (emptyTable idTraits 16) [Op.add 5, Op.add 21, Op.add 37, Op.add 53, Op.contains 53] =
      some (some [true, true, true, true, true]) ∧
    (exec idTraits { m_size_mask := 15, _cache_mask := 3, _is_cacheline_alignment := true } 10
        (emptyTable idTraits 16) [Op.add 5, Op.add 21, Op.add 37, Op.add 53]).map
      (fun t => ((bucketAt idTraits t 4)._hash, (bucketAt idTraits t 4)._key)) =
      some (53, 53) := by
  refine ⟨by decide, by decide, by decide⟩

/-- C14 with the range the code keeps: in every state reached from the empty table by calls
of one thread (on keys of non-zero 32-bit hash), every claimed bucket, and so the bucket of
every live key, has an index `b` with `0 ≤ b ≤ m_size_mask + _cache_mask`: it lies in the
cache line of a home bucket or among the home buckets, below or above the home bucket of
its key. -/
theorem live_key_bucket_in_table (KT : KeyTraits) (cfg : Config) (n : Nat) (ops : List Op)
    (t : List Bucket) (fuel : Nat) (hmask : cfg.m_size_mask + 1 = n)
    (hsize : n + 4097 ≤ 2147483648) (hline : 2 * cfg._cache_mask ≤ 4096)
    (hops : ∀ op ∈ ops, KT.hash op.key % 2 ^ 32 ≠ 0)
    (hfuel : n + 4097 + cfg._cache_mask + 1 < fuel)
    (hexec : exec KT cfg fuel (emptyTable KT n) ops = some t) :
    (∀ b, (bucketAt KT t b)._hash ≠ 0 →
      0 ≤ b ∧ b ≤ (cfg.m_size_mask : Int) + (cfg._cache_mask : Int)) ∧
    ∀ k, contains KT cfg fuel t k = some true →
      ∃ b, (bucketAt KT t b)._key = k ∧ (bucketAt KT t b)._hash ≠ 0 ∧
        0 ≤ b ∧ b ≤ (cfg.m_size_mask : Int) + (cfg._cache_mask : Int) := by
  have hlen := length_emptyTable KT n
  have hb := exec_claimed_bounded KT cfg fuel (by omega) ops (emptyTable KT n) t hops
    (fun j hj => by rw [bucketAt_emptyTable] at hj; exact absurd rfl hj) hexec
  refine ⟨hb, fun k hk => ?_⟩
  obtain ⟨S, ⟨ms, hwf, hS⟩, hlt⟩ := exec_represents KT cfg fuel ops (emptyTable KT n) ∅
    (emptyTable_represents KT cfg n) (by rw [hlen]; push_cast; omega)
    (by rw [hlen]; push_cast; omega) (by rw [hlen]; push_cast; omega) (by rw [hlen]; omega)
    hops t hexec
  rw [hlen] at hlt
  have hc := hopscotch_contains_refines KT cfg ⟨ms, hwf, hS⟩ k fuel (by omega)
  rw [hk] at hc
  have hkS : k ∈ S := by
    by_contra hn
    have : decide (k ∈ S) = false := decide_eq_false hn
    rw [this] at hc
    cases hc
  obtain ⟨m, hm, hmk⟩ := List.mem_map.mp ((hS k).mp hkS)
  have hmem := hwf.member _ m hm
  exact ⟨m, hmk, hmem.2.2.1, hb m hmem.2.2.1⟩

theorem live_key_bucket_in_table_witness :
    (∀ b, (bucketAt idTraits
        ((exec idTraits
          { m_size_mask := 15, _cache_mask := 3, _is_cacheline_alignment := true } 4200
          (emptyTable idTraits 16)
          [Op.add 5, Op.add 21, Op.add 37, Op.add 53, Op.remove 21]).getD []) b)._hash ≠ 0 →
      0 ≤ b ∧ b ≤ ((15 : Nat) : Int) + ((3 : Nat) : Int)) ∧
    ∀ k, contains idTraits
        { m_size_mask := 15, _cache_mask := 3, _is_cacheline_alignment := true } 4200
        ((exec idTraits
          { m_size_mask := 15, _cache_mask := 3, _is_cacheline_alignment := true } 4200
          (emptyTable idTraits 16)
          [Op.add 5, Op.add 21, Op.add 37, Op.add 53, Op.remove 21]).getD []) k = some true →
      ∃ b, (bucketAt idTraits
          ((exec idTraits
            { m_size_mask := 15, _cache_mask := 3, _is_cacheline_alignment := true } 4200
            (emptyTable idTraits 16)
            [Op.add 5, Op.add 21, Op.add 37, Op.add 53, Op.remove 21]).getD []) b)._key = k ∧
        (bucketAt idTraits
          ((exec idTraits
            { m_size_mask := 15, _cache_mask := 3, _is_cacheline_alignment := true } 4200
            (emptyTable idTraits 16)
            [Op.add 5, Op.add 21, Op.add 37, Op.add 53, Op.remove 21]).getD []) b)._hash ≠ 0 ∧
        0 ≤ b ∧ b ≤ ((15 : Nat) : Int) + ((3 : Nat) : Int) :=
  live_key_bucket_in_table idTraits
    { m_size_mask := 15, _cache_mask := 3, _is_cacheline_alignment := true } 16
    [Op.add 5, Op.add 21, Op.add 37, Op.add 53, Op.remove 21] _ 4200 (by decide) (by decide)
    (by decide) (by decide) (by decide) (eq_some_getD (by decide) [])

end HopscotchHashSet
end concurrent_data_structures

namespace concurrent_data_structures
namespace EpochReclaimer

/-! ### Epoch reclaimer: counting the pointers -/

theorem count_row_update (p : Nat) (g : Nat → List Nat) (e0 : Nat) (L : List Nat)
    (he : e0 < 3) :
    ((List.range 3).flatMap (Function.update g e0 L)).count p + (g e0).count p =
      ((List.range 3).flatMap g).count p + L.count p := by
  have h3 : ∀ f : Nat → List Nat, (List.range 3).flatMap f = f 0 ++ (f 1 ++ (f 2 ++ [])) :=
    fun f => rfl
  rw [h3, h3]
  simp only [List.append_nil, List.count_append]
  interval_cases e0 <;> simp [Function.update] <;> omega

theorem flatMap_rows_congr (T : Nat) (g g' : Nat → Nat → List Nat)
    (h : ∀ t < T, g t = g' t) :
    (List.range T).flatMap (fun t => (List.range 3).flatMap (g t)) =
      (List.range T).flatMap (fun t => (List.range 3).flatMap (g' t)) := by
  induction T with
  | zero => rfl
  | succ T ih =>
    rw [List.range_succ, List.flatMap_append, List.flatMap_append,
      ih (fun t ht => h t (by omega))]
    simp only [List.flatMap_cons, List.flatMap_nil, List.append_nil]
    rw [h T (by omega)]

theorem count_garbage_update (p T : Nat) (g : Nat → Nat → List Nat) (t0 e0 : Nat)
    (L : List Nat) (ht : t0 < T) (he : e0 < 3) :
    ((List.range T).flatMap (fun t => (List.range 3).flatMap
        (Function.update g t0 (Function.update (g t0) e0 L) t))).count p +
      (g t0 e0).count p =
    ((List.range T).flatMap (fun t => (List.range 3).flatMap (g t))).count p + L.count p := by
  induction T with
  | zero => omega
  | succ T ih =>
    rw [List.range_succ, List.flatMap_append, List.flatMap_append]
    simp only [List.flatMap_cons, List.flatMap_nil, List.append_nil, List.count_append]
    by_cases htT : t0 = T
    · subst htT
      rw [flatMap_rows_congr t0 _ g (fun t h => by
        rw [Function.update_noteq (by omega)])]
      rw [Function.update_same]
      have := count_row_update p (g t0) e0 L he
      omega
    · rw [Function.update_noteq (fun e => htT e.symm)]
      have := ih (by omega)
      omega

theorem mem_garbage_iff (s : State) (p : Nat) :
    p ∈ garbage s ↔ ∃ t < s.m_num_threads, ∃ e < 3, p ∈ s.m_garbage_list t e := by
  unfold garbage S_NUM_EPOCHS
  simp only [List.mem_flatMap, List.mem_range]

end EpochReclaimer
end concurrent_data_structures

namespace concurrent_data_structures
namespace EpochReclaimer

/-! ### Epoch reclaimer: the steps -/

theorem all_epochs_iff (s : State) (c : Nat) :
    (List.range s.m_num_threads).all (fun t => s.m_thread_epochs t == c) = true ↔
      ∀ t < s.m_num_threads, s.m_thread_epochs t = c := by
  simp [List.all_eq_true]

theorem exit_fields (s : State) (t : Nat) :
    (exit s t).m_num_threads = s.m_num_threads ∧
    (exit s t).m_thread_epochs = s.m_thread_epochs ∧
    (exit s t).m_garbage_list = s.m_garbage_list ∧ (exit s t).freed = s.freed ∧
    ((exit s t).m_global_epoch = s.m_global_epoch ∨
      ((exit s t).m_global_epoch = s.m_global_epoch + 1 ∧
        ∀ u < s.m_num_threads, s.m_thread_epochs u = s.m_global_epoch)) := by
  unfold exit try_increment_epoch
  simp only []
  split_ifs with h1 h2
  · exact ⟨rfl, rfl, rfl, rfl, Or.inr ⟨rfl, (all_epochs_iff s _).mp h2⟩⟩
  · exact ⟨rfl, rfl, rfl, rfl, Or.inl rfl⟩
  · exact ⟨rfl, rfl, rfl, rfl, Or.inl rfl⟩

theorem enter_cases (s : State) (t : Nat)
    (hc : s.m_thread_epochs t ≤ s.m_global_epoch ∧ s.m_global_epoch ≤ s.m_thread_epochs t + 1) :
    (s.m_thread_epochs t = s.m_global_epoch ∧ enter s t = some s) ∨
    (s.m_global_epoch = s.m_thread_epochs t + 1 ∧
      enter s t = some
        { m_num_threads := s.m_num_threads, m_global_epoch := s.m_global_epoch,
          m_thread_epochs := Function.update s.m_thread_epochs t s.m_global_epoch,
          m_garbage_list := Function.update s.m_garbage_list t
            (Function.update (s.m_garbage_list t) (s.m_global_epoch % 3) []),
          freed := s.freed ++ s.m_garbage_list t (s.m_global_epoch % 3) }) := by
  unfold enter
  simp only []
  by_cases h : s.m_thread_epochs t = s.m_global_epoch
  · left
    rw [if_neg (fun hn => hn h)]
    exact ⟨h, rfl⟩
  · right
    have h1 : s.m_global_epoch = s.m_thread_epochs t + 1 := by omega
    rw [if_pos h, if_pos (by omega)]
    exact ⟨h1, rfl⟩

theorem step_epochsClose (s : State) (st : Step) (hI : EpochsClose s)
    (ht : st.thread < s.m_num_threads) :
    ∃ s', step s st = some s' ∧ EpochsClose s' ∧ s'.m_num_threads = s.m_num_threads := by
  cases st with
  | enter t =>
    rcases enter_cases s t (hI t ht) with ⟨-, h⟩ | ⟨h1, h⟩
    · exact ⟨s, h, hI, rfl⟩
    · refine ⟨_, h, ?_, rfl⟩
      intro u hu
      show Function.update s.m_thread_epochs t s.m_global_epoch u ≤ s.m_global_epoch ∧
        s.m_global_epoch ≤ Function.update s.m_thread_epochs t s.m_global_epoch u + 1
      by_cases hut : u = t
      · rw [hut, Function.update_same]; omega
      · rw [Function.update_noteq hut]; exact hI u hu
  | exit t =>
    obtain ⟨h1, h2, -, -, h5⟩ := exit_fields s t
    refine ⟨_, rfl, ?_, h1⟩
    intro u hu
    rw [h1] at hu
    rw [h2]
    rcases h5 with h | ⟨h, hall⟩
    · rw [h]; exact hI u hu
    · rw [h, hall u hu]; omega
  | retire p t => exact ⟨_, rfl, hI, rfl⟩

theorem step_count (s s' : State) (st : Step) (hI : EpochsClose s)
    (ht : st.thread < s.m_num_threads) (h : step s st = some s') (p : Nat) :
    (destroy s').count p = (destroy s).count p + (retired [st]).count p := by
  unfold destroy garbage S_NUM_EPOCHS
  simp only [List.count_append]
  cases st with
  | enter t =>
    rcases enter_cases s t (hI t ht) with ⟨-, he⟩ | ⟨-, he⟩
    · have : s' = s := (Option.some.inj (he.symm.trans h)).symm
      subst this
      simp [retired]
    · have := Option.some.inj (he.symm.trans h)
      subst this
      simp only [List.count_append, retired, List.count_nil, Nat.add_zero]
      have := count_garbage_update p s.m_num_threads s.m_garbage_list t (s.m_global_epoch % 3)
        [] ht (Nat.mod_lt _ (by decide))
      simp only [List.count_nil, Nat.add_zero] at this
      omega
  | exit t =>
    have : s' = exit s t := (Option.some.inj h).symm
    subst this
    obtain ⟨h1, -, h3, h4, -⟩ := exit_fields s t
    rw [h1, h3, h4]
    simp [retired]
  | retire q t =>
    have : s' = retire s q t := (Option.some.inj h).symm
    subst this
    have := count_garbage_update p s.m_num_threads s.m_garbage_list t
      (s.m_thread_epochs t % 3)
      (s.m_garbage_list t (s.m_thread_epochs t % 3) ++ [q]) ht (Nat.mod_lt _ (by decide))
    simp only [List.count_append] at this
    simp only [retire, S_NUM_EPOCHS, retired]
    omega

theorem retired_cons (st : Step) (tr : List Step) :
    retired (st :: tr) = retired [st] ++ retired tr := by
  cases st <;> rfl

theorem run_count :
    ∀ (tr : List Step) (s : State), EpochsClose s →
      (∀ st ∈ tr, st.thread < s.m_num_threads) →
      ∃ s', run s tr = some s' ∧ EpochsClose s' ∧ s'.m_num_threads = s.m_num_threads ∧
        ∀ p, (destroy s').count p = (destroy s).count p + (retired tr).count p
  | [], s, hI, _ => ⟨s, rfl, hI, rfl, fun p => by simp [retired]⟩
  | st :: tr, s, hI, ht => by
    obtain ⟨s1, h1, hI1, hn1⟩ := step_epochsClose s st hI (ht st (List.mem_cons_self _ _))
    obtain ⟨s', h2, hI2, hn2, hc⟩ := run_count tr s1 hI1
      (fun x hx => by rw [hn1]; exact ht x (List.mem_cons_of_mem _ hx))
    refine ⟨s', ?_, hI2, hn2.trans hn1, fun p => ?_⟩
    · unfold run
      rw [h1]
      exact h2
    · rw [retired_cons st tr, List.count_append, hc p,
        step_count s s1 st hI (ht st (List.mem_cons_self _ _)) h1 p]
      omega

end EpochReclaimer
end concurrent_data_structures

namespace concurrent_data_structures
namespace EpochReclaimer

/-! ### Epoch reclaimer: where a pointer is -/

theorem mem_update_list (g : Nat → Nat → List Nat) (t i : Nat) (L : List Nat)
    (t' i' p : Nat) :
    p ∈ Function.update g t (Function.update (g t) i L) t' i' ↔
      ((t' = t ∧ i' = i) ∧ p ∈ L) ∨ (¬ (t' = t ∧ i' = i) ∧ p ∈ g t' i') := by
  by_cases ht : t' = t
  · subst ht
    rw [Function.update_same]
    by_cases hi : i' = i
    · subst hi
      rw [Function.update_same]
      simp
    · rw [Function.update_noteq hi]
      simp [hi]
  · rw [Function.update_noteq ht]
    simp [ht]

theorem init_fresh (T p : Nat) : Fresh (init T) p := by
  simp [Fresh, init]

theorem init_epochsClose (T : Nat) : EpochsClose (init T) := by
  intro t _
  simp [init]

theorem retire_epochsClose (s : State) (p t : Nat) (h : EpochsClose s) :
    EpochsClose (retire s p t) := h

theorem retired_append (a b : List Step) : retired (a ++ b) = retired a ++ retired b := by
  induction a with
  | nil => rfl
  | cons st a ih =>
    rw [List.cons_append, retired_cons, retired_cons st a, ih, List.append_assoc]

theorem run_append (a b : List Step) (s : State) :
    run s (a ++ b) = (run s a).bind (fun s' => run s' b) := by
  induction a generalizing s with
  | nil => rfl
  | cons st a ih =>
    have h1 : ∀ l, run s (st :: l) = (step s st).bind (fun s1 => run s1 l) := by
      intro l
      rw [run]
      cases step s st <;> rfl
    rw [List.cons_append, h1, h1]
    cases step s st with
    | none => rfl
    | some s1 => exact ih s1

theorem step_fresh (s s' : State) (st : Step) (p : Nat) (hI : EpochsClose s)
    (ht : st.thread < s.m_num_threads) (h : step s st = some s') (hf : Fresh s p)
    (hp : p ∉ retired [st]) : Fresh s' p := by
  obtain ⟨hf1, hf2⟩ := hf
  cases st with
  | enter t =>
    rcases enter_cases s t (hI t ht) with ⟨-, he⟩ | ⟨-, he⟩
    · have : s' = s := (Option.some.inj (he.symm.trans h)).symm
      subst this
      exact ⟨hf1, hf2⟩
    · have := Option.some.inj (he.symm.trans h)
      subst this
      refine ⟨?_, fun t' i' hm => ?_⟩
      · show p ∉ s.freed ++ s.m_garbage_list t (s.m_global_epoch % 3)
        rw [List.mem_append]
        rintro (h1 | h1)
        · exact hf1 h1
        · exact hf2 _ _ h1
      · rcases (mem_update_list _ _ _ _ _ _ _).mp hm with ⟨-, h1⟩ | ⟨-, h1⟩
        · cases h1
        · exact hf2 _ _ h1
  | exit t =>
    have : s' = exit s t := (Option.some.inj h).symm
    subst this
    obtain ⟨-, -, h3, h4, -⟩ := exit_fields s t
    refine ⟨by rw [h4]; exact hf1, fun t' i' => by rw [h3]; exact hf2 t' i'⟩
  | retire q t =>
    have : s' = retire s q t := (Option.some.inj h).symm
    subst this
    have hq : p ≠ q := by
      intro e
      apply hp
      rw [e]
      simp [retired]
    refine ⟨hf1, fun t' i' hm => ?_⟩
    rcases (mem_update_list _ _ _ _ _ _ _).mp hm with ⟨-, h1⟩ | ⟨-, h1⟩
    · rw [List.mem_append] at h1
      rcases h1 with h1 | h1
      · exact hf2 _ _ h1
      · exact hq (List.mem_singleton.mp h1)
    · exact hf2 _ _ h1

theorem run_fresh :
    ∀ (tr : List Step) (s : State) (p : Nat), EpochsClose s →
      (∀ st ∈ tr, st.thread < s.m_num_threads) → Fresh s p → p ∉ retired tr →
      ∃ s', run s tr = some s' ∧ EpochsClose s' ∧ s'.m_num_threads = s.m_num_threads ∧
        Fresh s' p
  | [], s, _, hI, _, hf, _ => ⟨s, rfl, hI, rfl, hf⟩
  | st :: tr, s, p, hI, ht, hf, hp => by
    rw [retired_cons, List.mem_append, not_or] at hp
    have hst := ht st (List.mem_cons_self _ _)
    obtain ⟨s1, h1, hI1, hn1⟩ := step_epochsClose s st hI hst
    obtain ⟨s', h2, hI2, hn2, hf2⟩ := run_fresh tr s1 p hI1
      (fun x hx => by rw [hn1]; exact ht x (List.mem_cons_of_mem _ hx))
      (step_fresh s s1 st p hI hst h1 hf hp.1) hp.2
    refine ⟨s', ?_, hI2, hn2.trans hn1, hf2⟩
    unfold run
    rw [h1]
    exact h2

/-! ### Epoch reclaimer: a pointer retired inside an open scope -/

theorem step_guarded (s s' : State) (st : Step) (u c p : Nat) (hI : EpochsClose s)
    (hu : u < s.m_num_threads) (ht : st.thread < s.m_num_threads)
    (hs : Step.inScope u st) (h : step s st = some s') (hG : Guarded s u c p) :
    Guarded s' u c p := by
  obtain ⟨hc, hf, hl⟩ := hG
  have hgu := hI u hu
  cases st with
  | enter t =>
    have htu : t ≠ u := hs
    rcases enter_cases s t (hI t ht) with ⟨-, he⟩ | ⟨hg, he⟩
    · have : s' = s := (Option.some.inj (he.symm.trans h)).symm
      subst this
      exact ⟨hc, hf, hl⟩
    · have := Option.some.inj (he.symm.trans h)
      subst this
      refine ⟨?_, ?_, fun t' i' hm => ?_⟩
      · show Function.update s.m_thread_epochs t s.m_global_epoch u = c
        rw [Function.update_noteq (fun e => htu e.symm)]
        exact hc
      · show p ∉ s.freed ++ s.m_garbage_list t (s.m_global_epoch % 3)
        rw [List.mem_append]
        rintro (h1 | h1)
        · exact hf h1
        · obtain ⟨e, he1, he2, he3⟩ := hl _ _ h1
          omega
      · show ∃ e, i' = e % 3 ∧
          e ≤ Function.update s.m_thread_epochs t s.m_global_epoch t' ∧ c ≤ e + 1
        rcases (mem_update_list _ _ _ _ _ _ _).mp hm with ⟨-, h1⟩ | ⟨-, h1⟩
        · cases h1
        · obtain ⟨e, he1, he2, he3⟩ := hl _ _ h1
          refine ⟨e, he1, ?_, he3⟩
          by_cases htt : t' = t
          · rw [htt, Function.update_same]
            rw [htt] at he2
            omega
          · rw [Function.update_noteq htt]
            exact he2
  | exit t =>
    have : s' = exit s t := (Option.some.inj h).symm
    subst this
    obtain ⟨-, h2, h3, h4, -⟩ := exit_fields s t
    unfold Guarded
    rw [h2, h3, h4]
    exact ⟨hc, hf, hl⟩
  | retire q t =>
    have : s' = retire s q t := (Option.some.inj h).symm
    subst this
    refine ⟨hc, hf, fun t' i' hm => ?_⟩
    rcases (mem_update_list _ _ _ _ _ _ _).mp hm with ⟨⟨h0, h0'⟩, h1⟩ | ⟨-, h1⟩
    · rw [List.mem_append] at h1
      rcases h1 with h1 | h1
      · rw [h0, h0']
        exact hl _ _ h1
      · refine ⟨s.m_thread_epochs t, ?_, ?_, ?_⟩
        · rw [h0']; rfl
        · rw [h0]; exact le_refl _
        · have := hI t ht
          omega
    · exact hl _ _ h1

theorem run_guarded :
    ∀ (tr : List Step) (s : State) (u c p : Nat), EpochsClose s → u < s.m_num_threads →
      (∀ st ∈ tr, st.thread < s.m_num_threads) → (∀ st ∈ tr, Step.inScope u st) →
      Guarded s u c p →
      ∃ s', run s tr = some s' ∧ Guarded s' u c p
  | [], s, _, _, _, _, _, _, _, hG => ⟨s, rfl, hG⟩
  | st :: tr, s, u, c, p, hI, hu, ht, hs, hG => by
    have hst := ht st (List.mem_cons_self _ _)
    obtain ⟨s1, h1, hI1, hn1⟩ := step_epochsClose s st hI hst
    obtain ⟨s', h2, hG2⟩ := run_guarded tr s1 u c p hI1 (by rw [hn1]; exact hu)
      (fun x hx => by rw [hn1]; exact ht x (List.mem_cons_of_mem _ hx))
      (fun x hx => hs x (List.mem_cons_of_mem _ hx))
      (step_guarded s s1 st u c p hI hu hst (hs st (List.mem_cons_self _ _)) h1 hG)
    refine ⟨s', ?_, hG2⟩
    unfold run
    rw [h1]
    exact h2

theorem fresh_guarded (s : State) (u p : Nat) (hf : Fresh s p) :
    Guarded s u (s.m_thread_epochs u) p :=
  ⟨rfl, hf.1, fun t i hm => absurd hm (hf.2 t i)⟩

end EpochReclaimer
end concurrent_data_structures

namespace concurrent_data_structures
namespace EpochReclaimer

/-! ### Epoch reclaimer: when a retired pointer is drained -/

theorem step_pending (s s' : State) (st : Step) (E p : Nat) (hI : EpochsClose s)
    (ht : st.thread < s.m_num_threads) (h : step s st = some s')
    (hp : p ∉ retired [st]) (hP : Pending s E p) : Pending s' E p := by
  obtain ⟨hE, hP⟩ := hP
  cases st with
  | enter t =>
    rcases enter_cases s t (hI t ht) with ⟨-, he⟩ | ⟨hg, he⟩
    · have : s' = s := (Option.some.inj (he.symm.trans h)).symm
      subst this
      exact ⟨hE, hP⟩
    · have := Option.some.inj (he.symm.trans h)
      subst this
      unfold Pending
      show E ≤ Function.update s.m_thread_epochs t s.m_global_epoch 0 ∧
        ((Function.update s.m_thread_epochs t s.m_global_epoch 0 < E + 3 ∧
            p ∉ s.freed ++ s.m_garbage_list t (s.m_global_epoch % 3) ∧
            p ∈ Function.update s.m_garbage_list t
              (Function.update (s.m_garbage_list t) (s.m_global_epoch % 3) []) 0 (E % 3) ∧
            ∀ t' i, p ∈ Function.update s.m_garbage_list t
              (Function.update (s.m_garbage_list t) (s.m_global_epoch % 3) []) t' i →
              t' = 0 ∧ i = E % 3) ∨
          (E + 3 ≤ Function.update s.m_thread_epochs t s.m_global_epoch 0 ∧
            p ∈ s.freed ++ s.m_garbage_list t (s.m_global_epoch % 3)))
      have huniq : ∀ (hh : ∀ t i, p ∈ s.m_garbage_list t i → t = 0 ∧ i = E % 3) t' i,
          p ∈ Function.update s.m_garbage_list t
              (Function.update (s.m_garbage_list t) (s.m_global_epoch % 3) []) t' i →
          t' = 0 ∧ i = E % 3 := by
        intro hh t' i hm
        rcases (mem_update_list _ _ _ _ _ _ _).mp hm with ⟨-, h1⟩ | ⟨-, h1⟩
        · cases h1
        · exact hh _ _ h1
      by_cases ht0 : t = 0
      · subst ht0
        rw [Function.update_same]
        rcases hP with ⟨h1, h2, h3, h4⟩ | ⟨h1, h2⟩
        · by_cases hm : s.m_global_epoch % 3 = E % 3
          · refine ⟨by omega, Or.inr ⟨by omega, ?_⟩⟩
            rw [hm]
            exact List.mem_append_right _ h3
          · refine ⟨by omega, Or.inl ⟨by omega, ?_, ?_, huniq h4⟩⟩
            · rw [List.mem_append]
              rintro (h5 | h5)
              · exact h2 h5
              · exact hm (h4 _ _ h5).2
            · exact (mem_update_list _ _ _ _ _ _ _).mpr
                (Or.inr ⟨fun hh => hm hh.2.symm, h3⟩)
        · exact ⟨by omega, Or.inr ⟨by omega, List.mem_append_left _ h2⟩⟩
      · rw [Function.update_noteq (fun e => ht0 e.symm)]
        refine ⟨hE, ?_⟩
        rcases hP with ⟨h1, h2, h3, h4⟩ | ⟨h1, h2⟩
        · refine Or.inl ⟨h1, ?_, ?_, huniq h4⟩
          · rw [List.mem_append]
            rintro (h5 | h5)
            · exact h2 h5
            · exact ht0 (h4 _ _ h5).1
          · exact (mem_update_list _ _ _ _ _ _ _).mpr
              (Or.inr ⟨fun hh => ht0 hh.1.symm, h3⟩)
        · exact Or.inr ⟨h1, List.mem_append_left _ h2⟩
  | exit t =>
    have : s' = exit s t := (Option.some.inj h).symm
    subst this
    obtain ⟨-, h2, h3, h4, -⟩ := exit_fields s t
    unfold Pending
    rw [h2, h3, h4]
    exact ⟨hE, hP⟩
  | retire q t =>
    have : s' = retire s q t := (Option.some.inj h).symm
    subst this
    have hq : p ≠ q := by
      intro e
      apply hp
      rw [e]
      simp [retired]
    refine ⟨hE, ?_⟩
    rcases hP with ⟨h1, h2, h3, h4⟩ | ⟨h1, h2⟩
    · refine Or.inl ⟨h1, h2, ?_, fun t' i hm => ?_⟩
      · show p ∈ Function.update s.m_garbage_list t
          (Function.update (s.m_garbage_list t) (s.m_thread_epochs t % S_NUM_EPOCHS)
            (s.m_garbage_list t (s.m_thread_epochs t % S_NUM_EPOCHS) ++ [q])) 0 (E % 3)
        rw [mem_update_list]
        by_cases hc : 0 = t ∧ E % 3 = s.m_thread_epochs t % S_NUM_EPOCHS
        · left
          refine ⟨hc, List.mem_append_left _ ?_⟩
          obtain ⟨hc1, hc2⟩ := hc
          subst hc1
          rw [← hc2]
          exact h3
        · exact Or.inr ⟨hc, h3⟩
      · rcases (mem_update_list _ _ _ _ _ _ _).mp hm with ⟨⟨h0, h0'⟩, h5⟩ | ⟨-, h5⟩
        · rw [List.mem_append] at h5
          rcases h5 with h5 | h5
          · rw [h0, h0']
            exact h4 _ _ h5
          · exact absurd (List.mem_singleton.mp h5) hq
        · exact h4 _ _ h5
    · exact Or.inr ⟨h1, h2⟩

theorem run_pending :
    ∀ (tr : List Step) (s : State) (E p : Nat), EpochsClose s →
      (∀ st ∈ tr, st.thread < s.m_num_threads) → p ∉ retired tr → Pending s E p →
      ∃ s', run s tr = some s' ∧ EpochsClose s' ∧ s'.m_num_threads = s.m_num_threads ∧
        Pending s' E p
  | [], s, _, _, hI, _, _, hP => ⟨s, rfl, hI, rfl, hP⟩
  | st :: tr, s, E, p, hI, ht, hp, hP => by
    rw [retired_cons, List.mem_append, not_or] at hp
    have hst := ht st (List.mem_cons_self _ _)
    obtain ⟨s1, h1, hI1, hn1⟩ := step_epochsClose s st hI hst
    obtain ⟨s', h2, hI2, hn2, hP2⟩ := run_pending tr s1 E p hI1
      (fun x hx => by rw [hn1]; exact ht x (List.mem_cons_of_mem _ hx)) hp.2
      (step_pending s s1 st E p hI hst h1 hp.1 hP)
    refine ⟨s', ?_, hI2, hn2.trans hn1, hP2⟩
    unfold run
    rw [h1]
    exact h2

theorem retire_pending (s : State) (E p : Nat) (hE : s.m_thread_epochs 0 = E)
    (hf : Fresh s p) : Pending (retire s p 0) E p := by
  refine ⟨by show E ≤ s.m_thread_epochs 0; omega, Or.inl ⟨?_, hf.1, ?_, fun t i hm => ?_⟩⟩
  · show s.m_thread_epochs 0 < E + 3
    omega
  · show p ∈ Function.update s.m_garbage_list 0
      (Function.update (s.m_garbage_list 0) (s.m_thread_epochs 0 % S_NUM_EPOCHS)
        (s.m_garbage_list 0 (s.m_thread_epochs 0 % S_NUM_EPOCHS) ++ [p])) 0 (E % 3)
    rw [mem_update_list]
    exact Or.inl ⟨⟨rfl, by rw [hE]; rfl⟩, List.mem_append_right _ (List.mem_singleton.mpr rfl)⟩
  · rcases (mem_update_list _ _ _ _ _ _ _).mp hm with ⟨⟨h0, h0'⟩, -⟩ | ⟨-, h5⟩
    · exact ⟨h0, by rw [h0', hE]; rfl⟩
    · exact absurd h5 (hf.2 _ _)

end EpochReclaimer
end concurrent_data_structures

namespace concurrent_data_structures
namespace EpochReclaimer

/-! ### Epoch reclaimer: every retired pointer is freed exactly once -/

theorem destroy_init (T : Nat) : destroy (init T) = [] := by
  unfold destroy garbage init
  simp

/-- C16: from the constructed reclaimer, every sequence of `enter`, `exit` and `retire` calls
by the threads below `T` runs without a failed assertion, and once the destructor has run
every pointer has been handed to `Allocator::free` exactly as often as it was passed to
`retire`; so a pointer retired once is freed exactly once, and when it has been freed by an
`enter` it is in no garbage list any more. -/
theorem retired_once_freed_once (T : Nat) (tr : List Step)
    (hthreads : ∀ st ∈ tr, st.thread < T) :
    ∃ s, run (init T) tr = some s ∧
      (∀ p, (destroy s).count p = (retired tr).count p) ∧
      ∀ p, (retired tr).count p = 1 →
        (destroy s).count p = 1 ∧
        (p ∈ s.freed → ∀ t < T, ∀ e < S_NUM_EPOCHS, p ∉ s.m_garbage_list t e) := by
  obtain ⟨s, hrun, -, hn, hc⟩ := run_count tr (init T) (init_epochsClose T) hthreads
  have hc' : ∀ p, (destroy s).count p = (retired tr).count p := by
    intro p
    rw [hc p, destroy_init]
    simp
  refine ⟨s, hrun, hc', fun p hp => ⟨(hc' p).trans hp, fun hf t ht e he hm => ?_⟩⟩
  have h1 : (destroy s).count p = 1 := (hc' p).trans hp
  unfold destroy at h1
  rw [List.count_append] at h1
  have h2 : 0 < s.freed.count p := List.count_pos_iff.mpr hf
  have h3 : p ∈ garbage s :=
    (mem_garbage_iff s p).mpr ⟨t, by rw [hn]; exact ht, e, he, hm⟩
  have h4 : 0 < (garbage s).count p := List.count_pos_iff.mpr h3
  omega

theorem retired_once_freed_once_witness :
    ∃ s, run (init 2)
        [Step.enter 0, Step.retire 100 0, Step.exit 0, Step.enter 1, Step.retire 200 1,
          Step.exit 1, Step.enter 0, Step.exit 0, Step.enter 1, Step.exit 1, Step.enter 0,
          Step.exit 0, Step.enter 0] = some s ∧
      (∀ p, (destroy s).count p =
        (retired [Step.enter 0, Step.retire 100 0, Step.exit 0, Step.enter 1,
          Step.retire 200 1, Step.exit 1, Step.enter 0, Step.exit 0, Step.enter 1,
          Step.exit 1, Step.enter 0, Step.exit 0, Step.enter 0]).count p) ∧
      ∀ p, (retired [Step.enter 0, Step.retire 100 0, Step.exit 0, Step.enter 1,
          Step.retire 200 1, Step.exit 1, Step.enter 0, Step.exit 0, Step.enter 1,
          Step.exit 1, Step.enter 0, Step.exit 0, Step.enter 0]).count p = 1 →
        (destroy s).count p = 1 ∧
        (p ∈ s.freed → ∀ t < 2, ∀ e < S_NUM_EPOCHS, p ∉ s.m_garbage_list t e) :=
  retired_once_freed_once 2 _ (by decide)

end EpochReclaimer
end concurrent_data_structures

namespace concurrent_data_structures
namespace EpochReclaimer

/-! ### Epoch reclaimer: the drain scenario -/

/-- C17, as the claim states it, fails: two threads at epoch 3, thread 0 retires pointer 100
and exits, thread 1 completes an operation, thread 0 completes another; the global epoch
now is 5, two advances after the retire. The next `enter` of thread 0 drains its list
`5 % 3 = 2`, while the pointer waits in list `3 % 3 = 0`: nothing has been freed. -/
theorem drain_not_freed_after_two_advances :
    (run (retire (init 2) 100 0)
        [Step.exit 0, Step.enter 1, Step.exit 1, Step.enter 0, Step.exit 0]).map
      (fun s => (s.m_global_epoch, s.m_thread_epochs 0, s.freed)) = some (3 + 2, 4, []) ∧
    (run (retire (init 2) 100 0)
        [Step.exit 0, Step.enter 1, Step.exit 1, Step.enter 0, Step.exit 0,
          Step.enter 0]).map
      (fun s => (s.m_global_epoch, s.m_thread_epochs 0, s.freed, s.m_garbage_list 0 0)) =
        some (3 + 2, 5, [], [100]) := by
  constructor <;> rfl

/-- C17, amended: all `T` threads are at the global epoch `E`, pointer `p` is in no list and
thread 0 retires it. Whatever calls the threads make afterwards (none retiring `p` again),
every call runs; `p` has been freed only if the global epoch has reached `E + 3`; and in
a state where the global epoch is `E + 3` and `p` has not been freed, `enter` of thread 0
frees `p`. -/
theorem drain_frees_after_three_advances (T E p : Nat) (s0 : State) (tr : List Step)
    (hT : s0.m_num_threads = T) (h0 : 0 < T) (hg : s0.m_global_epoch = E)
    (hall : ∀ t < T, s0.m_thread_epochs t = E) (hfresh : Fresh s0 p)
    (hthreads : ∀ st ∈ tr, st.thread < T) (hp : p ∉ retired tr) :
    ∃ s, run (retire s0 p 0) tr = some s ∧
      (p ∈ s.freed → E + 3 ≤ s.m_global_epoch) ∧
      (s.m_global_epoch = E + 3 → p ∉ s.freed →
        ∃ s', enter s 0 = some s' ∧ p ∈ s'.freed) := by
  have hI0 : EpochsClose (retire s0 p 0) := by
    intro t ht
    show s0.m_thread_epochs t ≤ s0.m_global_epoch ∧
      s0.m_global_epoch ≤ s0.m_thread_epochs t + 1
    have : t < T := by rw [← hT]; exact ht
    rw [hall t this, hg]
    omega
  obtain ⟨s, hr, hI, hn, hE, hP⟩ := run_pending tr (retire s0 p 0) E p hI0
    (fun st hst => by show st.thread < s0.m_num_threads; rw [hT]; exact hthreads st hst) hp
    (retire_pending s0 E p (hall 0 h0) hfresh)
  have hn0 : 0 < s.m_num_threads := by
    rw [hn]
    show 0 < s0.m_num_threads
    omega
  have hc := hI 0 hn0
  refine ⟨s, hr, fun hf => ?_, fun hg3 hnf => ?_⟩
  · rcases hP with ⟨-, h2, -, -⟩ | ⟨h1, -⟩
    · exact absurd hf h2
    · omega
  · rcases hP with ⟨h1, -, h3, -⟩ | ⟨-, h2⟩
    · rcases enter_cases s 0 hc with ⟨he, -⟩ | ⟨-, he⟩
      · omega
      · refine ⟨_, he, ?_⟩
        show p ∈ s.freed ++ s.m_garbage_list 0 (s.m_global_epoch % 3)
        have : s.m_global_epoch % 3 = E % 3 := by omega
        rw [this]
        exact List.mem_append_right _ h3
    · exact absurd h2 hnf

theorem drain_frees_after_three_advances_witness :
    (run (retire (init 2) 100 0)
        [Step.exit 0, Step.enter 1, Step.exit 1, Step.enter 0, Step.exit 0, Step.enter 1,
          Step.exit 1, Step.enter 0, Step.exit 0]).map
      (fun s => (s.m_global_epoch, s.freed)) = some (3 + 3, []) ∧
    ∃ s, run (retire (init 2) 100 0)
        [Step.exit 0, Step.enter 1, Step.exit 1, Step.enter 0, Step.exit 0, Step.enter 1,
          Step.exit 1, Step.enter 0, Step.exit 0] = some s ∧
      (100 ∈ s.freed → 3 + 3 ≤ s.m_global_epoch) ∧
      (s.m_global_epoch = 3 + 3 → 100 ∉ s.freed →
        ∃ s', enter s 0 = some s' ∧ 100 ∈ s'.freed) :=
  ⟨rfl, drain_frees_after_three_advances 2 3 100 (init 2) _ rfl (by decide) rfl
    (fun _ _ => rfl) (init_fresh 2 100) (by decide) (by decide)⟩

end EpochReclaimer
end concurrent_data_structures

namespace concurrent_data_structures
namespace EpochReclaimer

/-! ### Epoch reclaimer: nothing retired inside an open scope is freed -/

/-- C18: take any sequence of calls from the constructed reclaimer in which thread `u` calls
`enter`, pointer `p` is passed to `retire` by some thread `t` after that `enter` and not
before it, and thread `u` makes no `exit` call (and, held by its scope guard, no further
`enter`) after the `enter`. Then every call runs and `p` has not been handed to
`Allocator::free`, whatever the other threads do in between and afterwards. -/
theorem retired_in_scope_not_freed (T u p t : Nat) (tr0 tr1 tr2 : List Step)
    (hthreads :
      ∀ st ∈ tr0 ++ Step.enter u :: (tr1 ++ Step.retire p t :: tr2), st.thread < T)
    (hfresh : p ∉ retired tr0)
    (hscope1 : ∀ st ∈ tr1, Step.inScope u st) (hscope2 : ∀ st ∈ tr2, Step.inScope u st) :
    ∃ s, run (init T) (tr0 ++ Step.enter u :: (tr1 ++ Step.retire p t :: tr2)) = some s ∧
      p ∉ s.freed := by
  have ht0 : ∀ st ∈ tr0, st.thread < (init T).m_num_threads := fun st hst =>
    hthreads st (List.mem_append_left _ hst)
  obtain ⟨s0, hr0, hI0, hn0, hf0⟩ :=
    run_fresh tr0 (init T) p (init_epochsClose T) ht0 (init_fresh T p) hfresh
  have hu : u < s0.m_num_threads := by
    rw [hn0]
    exact hthreads (Step.enter u) (List.mem_append_right _ (List.mem_cons_self _ _))
  obtain ⟨s1, hr1, hI1, hn1⟩ := step_epochsClose s0 (Step.enter u) hI0 hu
  have hf1 : Fresh s1 p :=
    step_fresh s0 s1 (Step.enter u) p hI0 hu hr1 hf0 (by simp [retired])
  have ht2 : ∀ st ∈ tr1 ++ Step.retire p t :: tr2, st.thread < s1.m_num_threads := by
    intro st hst
    rw [hn1, hn0]
    exact hthreads st (List.mem_append_right _ (List.mem_cons_of_mem _ hst))
  have hs2 : ∀ st ∈ tr1 ++ Step.retire p t :: tr2, Step.inScope u st := by
    intro st hst
    rcases List.mem_append.mp hst with h | h
    · exact hscope1 st h
    · rcases List.mem_cons.mp h with h | h
      · rw [h]
        exact trivial
      · exact hscope2 st h
  obtain ⟨s, hr, hG⟩ := run_guarded (tr1 ++ Step.retire p t :: tr2) s1 u
    (s1.m_thread_epochs u) p hI1 (by rw [hn1]; exact hu) ht2 hs2 (fresh_guarded s1 u p hf1)
  refine ⟨s, ?_, hG.2.1⟩
  rw [run_append, hr0]
  show run s0 (Step.enter u :: (tr1 ++ Step.retire p t :: tr2)) = some s
  rw [run, hr1]
  exact hr

theorem retired_in_scope_not_freed_witness :
    ∃ s, run (init 2)
        ([Step.enter 0, Step.exit 0] ++ Step.enter 1 ::
          ([Step.enter 0] ++ Step.retire 100 0 ::
            [Step.exit 0, Step.enter 0, Step.exit 0, Step.enter 0, Step.exit 0, Step.enter 0,
              Step.exit 0, Step.enter 0])) = some s ∧
      100 ∉ s.freed :=
  retired_in_scope_not_freed 2 1 100 0 [Step.enter 0, Step.exit 0] [Step.enter 0]
    [Step.exit 0, Step.enter 0, Step.exit 0, Step.enter 0, Step.exit 0, Step.enter 0,
      Step.exit 0, Step.enter 0]
    (by decide) (by decide) (by decide) (by decide)

end EpochReclaimer
end concurrent_data_structures

namespace concurrent_data_structures
namespace bench

/-! ### Command line: a name that is not listed -/

theorem parse_base_arg_cases (R : Runtime) (base : BenchmarkConfig) (c : Char) (arg : String)
    (out : List String) :
    (∃ b base', parse_base_arg R base c arg out = Parsed.returned (b, base') out) ∨
    (∃ out', parse_base_arg R base c arg out = Parsed.exited (out' ++ help_text) 0) := by
  unfold parse_base_arg set_print_help_and_exit
  split_ifs
  · exact Or.inl ⟨_, _, rfl⟩
  · exact Or.inl ⟨_, _, rfl⟩
  · cases reclaimer_map.lookup arg with
    | none => exact Or.inr ⟨_, rfl⟩
    | some r => exact Or.inl ⟨_, _, rfl⟩
  · cases allocator_map.lookup arg with
    | none => exact Or.inr ⟨_, rfl⟩
    | some r => exact Or.inl ⟨_, _, rfl⟩
  · exact Or.inl ⟨_, _, rfl⟩
  · exact Or.inl ⟨_, _, rfl⟩
  · exact Or.inl ⟨_, _, rfl⟩
  · exact Or.inl ⟨_, _, rfl⟩

theorem parse_base_arg_B (R : Runtime) (base : BenchmarkConfig) (arg : String)
    (out : List String) :
    parse_base_arg R base 'B' arg out = Parsed.returned (false, base) out := by
  unfold parse_base_arg
  simp

theorem parse_base_arg_L (R : Runtime) (base : BenchmarkConfig) (arg : String)
    (out : List String) :
    parse_base_arg R base 'L' arg out = Parsed.returned (false, base) out := by
  unfold parse_base_arg
  simp

theorem parse_base_arg_invalid (R : Runtime) (base : BenchmarkConfig) (c : Char)
    (arg : String) (out : List String)
    (h : (c = 'M' ∧ reclaimer_map.lookup arg = none) ∨
      (c = 'A' ∧ allocator_map.lookup arg = none)) :
    ∃ out', parse_base_arg R base c arg out = Parsed.exited (out' ++ help_text) 0 := by
  rcases h with ⟨hc, hl⟩ | ⟨hc, hl⟩
  · subst hc
    unfold parse_base_arg set_print_help_and_exit
    simp only [hl]
    exact ⟨out ++ ["Invalid reclaimer choice."], by simp⟩
  · subst hc
    unfold parse_base_arg set_print_help_and_exit
    simp only [hl]
    exact ⟨out ++ ["Invalid allocator choice."], by simp⟩

theorem parse_set_args_loop_invalid (R : Runtime) :
    ∀ (opts : List (Char × String)) (config : SetBenchmarkConfig) (out : List String),
      (∃ o ∈ opts, InvalidName o) →
      (∀ o ∈ opts, o.1 = 'L' → (R.stod o.2).isSome = true) →
      ∃ out', parse_set_args_loop R config opts out = Parsed.exited (out' ++ help_text) 0
  | [], _, _, h, _ => by
    obtain ⟨o, ho, -⟩ := h
    cases ho
  | (c, arg) :: rest, config, out, h, hs => by
    have hrest : (∃ o ∈ rest, InvalidName o) → ∀ config' out',
        ∃ out'', parse_set_args_loop R config' rest out' =
          Parsed.exited (out'' ++ help_text) 0 := fun hr config' out' =>
      parse_set_args_loop_invalid R rest config' out' hr
        (fun o ho => hs o (List.mem_cons_of_mem _ ho))
    have hhead : InvalidName (c, arg) ∨ ∃ o ∈ rest, InvalidName o := by
      obtain ⟨o, ho, hi⟩ := h
      rcases List.mem_cons.mp ho with h1 | h1
      · left
        rw [← h1]
        exact hi
      · exact Or.inr ⟨o, h1, hi⟩
    rw [parse_set_args_loop]
    by_cases hB : c = 'B'
    · subst hB
      rw [parse_base_arg_B]
      simp only [Char.reduceEq, if_false, if_true, reduceIte]
      cases hl : table_map.lookup arg with
      | none => exact ⟨_, rfl⟩
      | some t =>
        rcases hhead with hi | hr
        · rcases hi with ⟨-, h2⟩ | ⟨h2, -⟩ | ⟨h2, -⟩
          · rw [hl] at h2
            cases h2
          · cases h2
          · cases h2
        · exact hrest hr _ _
    · by_cases hL : c = 'L'
      · subst hL
        rw [parse_base_arg_L]
        simp only [if_true, reduceIte]
        have hsome := hs ('L', arg) (List.mem_cons_self _ _) rfl
        cases hx : R.stod arg with
        | none =>
          rw [hx] at hsome
          cases hsome
        | some x =>
          rcases hhead with hi | hr
          · rcases hi with ⟨h2, -⟩ | ⟨h2, -⟩ | ⟨h2, -⟩ <;> cases h2
          · exact hrest hr _ _
      · rcases hhead with hi | hr
        · rcases hi with ⟨h2, -⟩ | hi
          · exact absurd h2 hB
          · obtain ⟨out', he⟩ := parse_base_arg_invalid R config.base c arg out hi
            rw [he]
            exact ⟨out', rfl⟩
        · rcases parse_base_arg_cases R config.base c arg out with ⟨b, base', he⟩ | ⟨out', he⟩
          · rw [he]
            cases b with
            | true => exact hrest hr _ _
            | false =>
              simp only [if_neg hL, if_neg hB]
              split_ifs
              · exact hrest hr _ _
              · exact hrest hr _ _
              · exact ⟨_, rfl⟩
          · rw [he]
            exact ⟨out', rfl⟩

/-- C20, as the claim states it, fails: `-B` with a name that `table_map` does not list
writes the message and the help text and ends the process with `exit(0)`, not with a
non-zero status. -/
theorem invalid_table_name_exits_with_zero :
    main exampleRuntime [('B', "no_such_set")] =
      Outcome.exited ("Invalid benchmark choice." :: help_text) 0 ∧
    ¬ ∃ out status, main exampleRuntime [('B', "no_such_set")] = Outcome.exited out status ∧
        status ≠ 0 := by
  have h : main exampleRuntime [('B', "no_such_set")] =
      Outcome.exited ("Invalid benchmark choice." :: help_text) 0 := by decide
  refine ⟨h, ?_⟩
  rintro ⟨out, status, he, hs⟩
  rw [h] at he
  injection he with h1 h2
  exact hs h2.symm

/-- C20, amended: when one of the options gives `-B`, `-M` or `-A` a name that is not
listed (and `std::stod` reads the argument of every `-L`, so that no exception ends the
process first), `main` writes the help text and ends in `exit` with status 0; it does not
reach the call `run(config)` that constructs and runs the set. -/
theorem invalid_name_prints_help_and_exits_zero (R : Runtime) (opts : List (Char × String))
    (hinvalid : ∃ o ∈ opts, InvalidName o)
    (hstod : ∀ o ∈ opts, o.1 = 'L' → (R.stod o.2).isSome = true) :
    (∃ out, main R opts = Outcome.exited (out ++ help_text) 0) ∧
    ∀ config out, main R opts ≠ Outcome.ran config out := by
  obtain ⟨out', he⟩ := parse_set_args_loop_invalid R opts _ [] hinvalid hstod
  have hm : main R opts = Outcome.exited (out' ++ help_text) 0 := by
    unfold main parse_set_args
    rw [he]
  refine ⟨⟨out', hm⟩, fun config out h => ?_⟩
  rw [hm] at h
  cases h

theorem invalid_name_prints_help_and_exits_zero_witness :
    (∃ out, main exampleRuntime [('T', "4"), ('M', "hazard"), ('B', "mm_set")] =
      Outcome.exited (out ++ help_text) 0) ∧
    ∀ config out, main exampleRuntime [('T', "4"), ('M', "hazard"), ('B', "mm_set")] ≠
      Outcome.ran config out :=
  invalid_name_prints_help_and_exits_zero exampleRuntime
    [('T', "4"), ('M', "hazard"), ('B', "mm_set")]
    ⟨('M', "hazard"), by decide, by decide⟩ (by decide)

end bench
end concurrent_data_structures

namespace concurrent_data_structures
namespace SetActionGenerator

/-! ### Benchmark workload: the split of the updates -/

/-- C21, as stated, fails for an odd update percentage: with `updates = 1` no draw is
mapped to `Add` and one draw (100) is mapped to `Remove`, because the add limit is
`m_read_limit + updates / 2` with integer division. -/
theorem odd_updates_split_unequally :
    count 1 SetAction.Add = 0 ∧ count 1 SetAction.Remove = 1 ∧
    generate_action 1 100 = SetAction.Remove ∧
    count 1 SetAction.Add ≠ count 1 SetAction.Remove := by
  decide

set_option maxRecDepth 100000 in
theorem count_by_updates :
    ∀ v ≤ 100, count v SetAction.Add = v / 2 ∧ count v SetAction.Remove = v - v / 2 ∧
      count v SetAction.Contains = 101 - v := by
  decide

/-- C21, amended: for every update percentage `u` in 0..100, of the draws 0..100 exactly
`u / 2` (rounded down) are mapped to `Add`, `u - u / 2` to `Remove` and the remaining
`101 - u` to `Contains`; the numbers of `Add` and `Remove` draws are equal exactly when `u`
is even. -/
theorem updates_split (u : Nat) (hu : u ≤ 100) :
    count u SetAction.Add = u / 2 ∧ count u SetAction.Remove = u - u / 2 ∧
    count u SetAction.Contains = 101 - u ∧
    (count u SetAction.Add = count u SetAction.Remove ↔ u % 2 = 0) := by
  obtain ⟨h1, h2, h3⟩ := count_by_updates u hu
  refine ⟨h1, h2, h3, ?_⟩
  rw [h1, h2]
  omega

theorem updates_split_witness :
    count 10 SetAction.Add = 10 / 2 ∧ count 10 SetAction.Remove = 10 - 10 / 2 ∧
    count 10 SetAction.Contains = 101 - 10 ∧
    (count 10 SetAction.Add = count 10 SetAction.Remove ↔ 10 % 2 = 0) :=
  updates_split 10 (by decide)

end SetActionGenerator
end concurrent_data_structures

namespace concurrent_data_structures

/-! ### Rounding the capacity up to a power of two -/

theorem nearest_power_of_two_loop_pow (num : Nat) :
    ∀ fuel q, ∃ p, q ≤ p ∧ p ≤ q + fuel ∧ nearest_power_of_two_loop num fuel (2 ^ q) = 2 ^ p
  | 0, q => ⟨q, le_refl _, le_refl _, rfl⟩
  | fuel + 1, q => by
    unfold nearest_power_of_two_loop
    split_ifs with h
    · obtain ⟨p, h1, h2, h3⟩ := nearest_power_of_two_loop_pow num fuel (q + 1)
      refine ⟨p, by omega, by omega, ?_⟩
      rw [← h3, pow_succ]
    · exact ⟨q, le_refl _, by omega, rfl⟩

theorem nearest_power_of_two_pow (num : Nat) :
    ∃ p, p ≤ 64 ∧ nearest_power_of_two num = 2 ^ p := by
  obtain ⟨p, -, h2, h3⟩ := nearest_power_of_two_loop_pow num 64 0
  exact ⟨p, by omega, h3⟩

theorem nearest_power_of_two_loop_ge (num : Nat) :
    ∀ fuel q, num ≤ 2 ^ (q + fuel) → num ≤ nearest_power_of_two_loop num fuel (2 ^ q)
  | 0, q, h => h
  | fuel + 1, q, h => by
    unfold nearest_power_of_two_loop
    split_ifs with h1
    · have := nearest_power_of_two_loop_ge num fuel (q + 1) (by rw [Nat.add_right_comm]; exact h)
      rw [pow_succ] at this
      exact this
    · omega

theorem nearest_power_of_two_ge (num : Nat) (h : num ≤ 2 ^ 64) :
    num ≤ nearest_power_of_two num :=
  nearest_power_of_two_loop_ge num 64 0 (by simpa using h)

namespace TransactionalRobinHoodSet

/-! ### The table after a backward shift holds no key twice -/

theorem shiftedBack_nodup (KT : KeyTraits) {u u' : List Nat} {s m : Nat}
    (hs : s < u.length) (hsb : ShiftedBack KT u u' s m) (hmN : m + 1 < u.length)
    (hnd : NoDuplicateKey KT u) : NoDuplicateKey KT u' := by
  obtain ⟨hlen, hget⟩ := hsb
  have hN : 0 < u.length := by omega
  have hsrc : ∀ i < u.length, u'.getD i 0 ≠ KT.NullKey →
      ∃ q < u.length, u'.getD i 0 = u.getD q 0 ∧
        ((distance_from_slot u.length s i < m ∧ q = (i + 1) % u.length ∧
            1 ≤ distance_from_slot u.length s q ∧ distance_from_slot u.length s q ≤ m) ∨
          (m < distance_from_slot u.length s i ∧ q = i)) := by
    intro i hi hne
    rw [hget i hi] at hne ⊢
    by_cases h1 : distance_from_slot u.length s i < m
    · rw [if_pos h1] at hne ⊢
      refine ⟨(i + 1) % u.length, Nat.mod_lt _ hN, rfl, Or.inl ⟨h1, rfl, ?_⟩⟩
      have := distance_succ hs hi (by omega : distance_from_slot u.length s i + 1 < u.length)
      omega
    · rw [if_neg h1] at hne ⊢
      by_cases h2 : distance_from_slot u.length s i = m
      · rw [if_pos h2] at hne
        exact absurd rfl hne
      · rw [if_neg h2]
        exact ⟨i, hi, rfl, Or.inr ⟨by omega, rfl⟩⟩
  intro i hi j hj hne heq
  rw [hlen] at hi hj
  have hne' : u'.getD j 0 ≠ KT.NullKey := by rw [← heq]; exact hne
  obtain ⟨qi, hqi, hei, hci⟩ := hsrc i hi hne
  obtain ⟨qj, hqj, hej, hcj⟩ := hsrc j hj hne'
  have hq : qi = qj := hnd qi hqi qj hqj (by rw [← hei]; exact hne) (by rw [← hei, ← hej, heq])
  rcases hci with ⟨hi1, hi2, hi3, hi4⟩ | ⟨hi1, hi2⟩ <;>
    rcases hcj with ⟨hj1, hj2, hj3, hj4⟩ | ⟨hj1, hj2⟩
  · rw [hi2, hj2] at hq
    have h1 := mod_two_lt (show i + 1 < u.length + u.length by omega)
    have h2 := mod_two_lt (show j + 1 < u.length + u.length by omega)
    rw [h1, h2] at hq
    split_ifs at hq <;> omega
  · rw [hj2] at hq
    rw [hq] at hi4
    omega
  · rw [hi2] at hq
    rw [← hq] at hj4
    omega
  · rw [hi2, hj2] at hq
    exact hq

theorem remove_found_shift (KT : KeyTraits) (t : List Nat) (k : Nat) {p : Nat}
    (hp : t.length = 2 ^ p) (hinv : RobinHoodInvariant KT t) (hempty : HasEmptySlot KT t)
    (hk : k ≠ KT.NullKey) (hocc : Occupies t k) (fuel : Nat) (hf : t.length + 1 ≤ fuel) :
    ∃ s m u', s < t.length ∧ t.getD s 0 = k ∧ m + 1 < t.length ∧
      remove KT fuel t k = some (true, u') ∧ ShiftedBack KT t u' s m ∧
      (∀ x < m, ¬ ShiftStops KT t ((s + 1 + x) % t.length)) ∧
      ShiftStops KT t ((s + 1 + m) % t.length) ∧ RobinHoodInvariant KT u' := by
  have hN := size_pos_of_pow hp
  obtain ⟨s, hs, hsk⟩ := hocc
  obtain ⟨s0, hs0, hs0k, hrun⟩ := remove_loop_found KT fuel t k hp hinv hk s hs hsk fuel
    (KT.hash k) 0 (Nat.zero_le _) (by rw [home_eq_mod hp, Nat.add_zero, Nat.mod_mod])
    (by have := distance_lt hN (home KT t.length (t.getD s 0)) s
        unfold probe_distance; omega)
  obtain ⟨e, he, henull⟩ := hempty
  have hes : e ≠ s0 := by
    intro h; subst h; rw [henull] at hs0k; exact hk hs0k.symm
  have hoff_lt := distance_lt hN s0 e
  have hoff_pos : 1 ≤ distance_from_slot t.length s0 e := by
    rcases distance_cases hs0 he with ⟨_, h⟩ | ⟨_, h⟩ <;> omega
  have hslot_e : (s0 + 1 + (distance_from_slot t.length s0 e - 1)) % t.length = e := by
    have : s0 + 1 + (distance_from_slot t.length s0 e - 1) =
        s0 + distance_from_slot t.length s0 e := by omega
    rw [this]; exact add_distance hs0 he
  obtain ⟨m, u', hm, hshift, hsb, hns, hstop⟩ :=
    shift_loop_spec KT p fuel t (s0 + 1) s0 s0 (distance_from_slot t.length s0 e - 1)
      hp hs0 (Nat.mod_eq_of_lt hs0) rfl (by omega) (by omega) (by rw [hslot_e]; exact henull)
  have hrun' : remove KT fuel t k = some (true, u') := by
    unfold remove; rw [hrun, hshift]; rfl
  exact ⟨s0, m, u', hs0, hs0k, by omega, hrun', hsb, hns, hstop,
    shiftedBack_invariant KT hp hs0 hinv hsb (by omega) hns hstop ⟨e, he, henull, by omega⟩⟩

end TransactionalRobinHoodSet
end concurrent_data_structures

namespace concurrent_data_structures
namespace TransactionalRobinHoodSet

/-! ### Transactional Robin-Hood set: the invariant over the calls -/

/-- C22: on a table of power-of-two size that satisfies the Robin-Hood distance invariant
and has an empty slot, `add(k)` for a key `k` different from `NullKey` returns, and the
table it leaves satisfies the distance invariant again. -/
theorem add_preserves_invariant (KT : KeyTraits) (t : List Nat) (k p fuel : Nat)
    (hp : t.length = 2 ^ p) (hinv : RobinHoodInvariant KT t) (hempty : HasEmptySlot KT t)
    (hk : k ≠ KT.NullKey) (hf : t.length ≤ fuel) :
    ∃ b u', add KT fuel t k = some (b, u') ∧ RobinHoodInvariant KT u' := by
  obtain ⟨b, u', h1, -, h2, -⟩ := add_spec KT t k hp hinv hempty hk fuel hf
  exact ⟨b, u', h1, h2⟩

theorem add_preserves_invariant_witness :
    ∃ b u', add idTraits 8 [0, 8, 1, 255, 255, 255, 255, 255] 16 = some (b, u') ∧
      RobinHoodInvariant idTraits u' :=
  add_preserves_invariant idTraits [0, 8, 1, 255, 255, 255, 255, 255] 16 3 8
    (by decide) (by decide) (by decide) (by decide) (by decide)

/-- C23: on a table of power-of-two size that satisfies the Robin-Hood distance invariant
and has an empty slot, `remove(k)` returns, and what it returns is fixed by the table. When
`k` is `NullKey` or in no slot it returns false and leaves every slot as it was. When `k`
is a key of the table it returns true and leaves a table that satisfies the invariant
again, in which `m` keys were shifted back from the slot `s` of `k`: none of the `m` slots
after `s` is empty or holds a key at probe distance 0, the slot after them is empty or
holds a key at probe distance 0, each of the `m` keys now sits one slot earlier, at a probe
distance one less than before, the last vacated slot is empty and every other slot is
unchanged. -/
theorem remove_preserves_invariant (KT : KeyTraits) (t : List Nat) (k p fuel : Nat)
    (hp : t.length = 2 ^ p) (hinv : RobinHoodInvariant KT t) (hempty : HasEmptySlot KT t)
    (hf : t.length + 1 ≤ fuel) :
    (¬ (Occupies t k ∧ k ≠ KT.NullKey) → remove KT fuel t k = some (false, t)) ∧
    (Occupies t k ∧ k ≠ KT.NullKey →
      ∃ u' s m, remove KT fuel t k = some (true, u') ∧ RobinHoodInvariant KT u' ∧
        s < t.length ∧ t.getD s 0 = k ∧ m + 1 < t.length ∧
        ShiftedBack KT t u' s m ∧
        (∀ x < m, ¬ ShiftStops KT t ((s + 1 + x) % t.length)) ∧
        ShiftStops KT t ((s + 1 + m) % t.length) ∧
        ∀ x < m, u'.getD ((s + x) % t.length) 0 = t.getD ((s + 1 + x) % t.length) 0 ∧
          probe_distance KT u' ((s + x) % t.length) + 1 =
            probe_distance KT t ((s + 1 + x) % t.length)) := by
  have hN := size_pos_of_pow hp
  refine ⟨fun hpres => ?_, fun hpres => ?_⟩
  · obtain ⟨b, u', hrun, -, hb, -, hsame, -⟩ := remove_spec KT t k hp hinv hempty fuel hf
    cases b with
    | true => exact absurd (hb.mp rfl) hpres
    | false => rw [hrun, hsame rfl]
  · obtain ⟨hocc, hk⟩ := hpres
    obtain ⟨s, m, u', hs, hsk, hmN, hrun, hsb, hns, hstop, hinv'⟩ :=
      remove_found_shift KT t k hp hinv hempty hk hocc fuel hf
    refine ⟨u', s, m, hrun, hinv', hs, hsk, hmN, hsb, hns, hstop, fun x hx => ?_⟩
    have hj : (s + x) % t.length < t.length := Nat.mod_lt _ hN
    have hd : distance_from_slot t.length s ((s + x) % t.length) = x :=
      distance_add hs (by omega)
    have hnext : ((s + x) % t.length + 1) % t.length = (s + 1 + x) % t.length := by
      rw [Nat.mod_add_mod]
      congr 1
      omega
    have hval : u'.getD ((s + x) % t.length) 0 = t.getD ((s + 1 + x) % t.length) 0 := by
      rw [hsb.2 _ hj, hd, if_pos hx, hnext]
    refine ⟨hval, ?_⟩
    have hstopx := hns x hx
    unfold ShiftStops at hstopx
    have hpd : probe_distance KT t ((s + 1 + x) % t.length) ≠ 0 := fun h => hstopx (Or.inr h)
    unfold probe_distance at hpd ⊢
    rw [hsb.1, hval]
    rw [← hnext] at hpd ⊢
    exact distance_pred (home_lt hp _) hj hpd

theorem remove_preserves_invariant_witness :
    remove idTraits 9 [0, 8, 16, 255, 4, 255, 255, 255] 5 =
        some (false, [0, 8, 16, 255, 4, 255, 255, 255]) ∧
      remove idTraits 9 [0, 8, 16, 255, 4, 255, 255, 255] 0 =
        some (true, [8, 16, 255, 255, 4, 255, 255, 255]) ∧
      RobinHoodInvariant idTraits [8, 16, 255, 255, 4, 255, 255, 255] ∧
      ∃ s m, s < 8 ∧ m + 1 < 8 ∧
        ShiftedBack idTraits [0, 8, 16, 255, 4, 255, 255, 255]
          [8, 16, 255, 255, 4, 255, 255, 255] s m ∧
        (∀ x < m, ¬ ShiftStops idTraits [0, 8, 16, 255, 4, 255, 255, 255] ((s + 1 + x) % 8)) ∧
        ShiftStops idTraits [0, 8, 16, 255, 4, 255, 255, 255] ((s + 1 + m) % 8) ∧
        ∀ x < m,
          [8, 16, 255, 255, 4, 255, 255, 255].getD ((s + x) % 8) 0 =
            [0, 8, 16, 255, 4, 255, 255, 255].getD ((s + 1 + x) % 8) 0 ∧
          probe_distance idTraits [8, 16, 255, 255, 4, 255, 255, 255] ((s + x) % 8) + 1 =
            probe_distance idTraits [0, 8, 16, 255, 4, 255, 255, 255] ((s + 1 + x) % 8) := by
  have h := remove_preserves_invariant idTraits [0, 8, 16, 255, 4, 255, 255, 255]
  have hrun : remove idTraits 9 [0, 8, 16, 255, 4, 255, 255, 255] 0 =
      some (true, [8, 16, 255, 255, 4, 255, 255, 255]) := by decide
  refine ⟨(h 5 3 9 (by decide) (by decide) (by decide) (by decide)).1 (by decide), hrun, ?_⟩
  obtain ⟨u', s, m, h1, h2, h3, -, h5, h6, h7, h8, h9⟩ :=
    (h 0 3 9 (by decide) (by decide) (by decide) (by decide)).2 (by decide)
  rw [hrun] at h1
  cases h1
  exact ⟨h2, s, m, h3, h5, h6, h7, h8, h9⟩

/-- C25: on a table of power-of-two size that satisfies the Robin-Hood distance invariant
and already contains the key `k`, `add(k)` returns false and leaves every slot as it was:
no swap precedes the slot at which it meets `k`. -/
theorem add_present_leaves_table (KT : KeyTraits) (t : List Nat) (k p fuel : Nat)
    (hp : t.length = 2 ^ p) (hinv : RobinHoodInvariant KT t) (hk : k ≠ KT.NullKey)
    (hocc : Occupies t k) (hf : t.length ≤ fuel) :
    add KT fuel t k = some (false, t) := by
  have hN := size_pos_of_pow hp
  obtain ⟨s, hs, hsk⟩ := hocc
  exact add_loop_present KT t k hp hinv hk s hs hsk fuel (KT.hash k &&& (t.length - 1)) 0
    (Nat.zero_le _) rfl
    (by have := distance_lt hN (home KT t.length (t.getD s 0)) s
        unfold probe_distance; omega)

theorem add_present_leaves_table_witness :
    add idTraits 4 [0, 8, 16, 1] 16 = some (false, [0, 8, 16, 1]) :=
  add_present_leaves_table idTraits [0, 8, 16, 1] 16 2 4 (by decide) (by decide) (by decide)
    (by decide) (by decide)

end TransactionalRobinHoodSet
end concurrent_data_structures

namespace concurrent_data_structures
namespace TransactionalRobinHoodSet

/-! ### Transactional Robin-Hood set: no key in two slots -/

theorem init_length (KT : KeyTraits) (size : Nat) :
    (init KT size).length = nearest_power_of_two size := by
  unfold init
  rw [List.length_replicate]

theorem init_getD (KT : KeyTraits) (size i : Nat) (hi : i < (init KT size).length) :
    (init KT size).getD i 0 = KT.NullKey := by
  rw [init_length] at hi
  unfold init
  rw [List.getD_eq_getElem?_getD, List.getElem?_replicate, if_pos hi]
  rfl

theorem exec_invariant (KT : KeyTraits) (p fuel : Nat) :
    ∀ (ops : List Op) (t : List Nat), t.length = 2 ^ p → t.length + 1 ≤ fuel →
      RobinHoodInvariant KT t → NoDuplicateKey KT t →
      (∀ op ∈ ops, op.key ≠ KT.NullKey) → NeverFull KT fuel t ops →
      ∃ u, exec KT fuel t ops = some u ∧ u.length = 2 ^ p ∧ RobinHoodInvariant KT u ∧
        NoDuplicateKey KT u
  | [], t, hp, _, hinv, hnd, _, _ => ⟨t, rfl, hp, hinv, hnd⟩
  | op :: ops, t, hp, hf, hinv, hnd, hkeys, hroom => by
    have hempty : HasEmptySlot KT t := by
      have := hroom 0 (Nat.zero_le _)
      simpa [exec] using this
    have hkeys' : ∀ o ∈ ops, o.key ≠ KT.NullKey := fun o ho =>
      hkeys o (List.mem_cons_of_mem _ ho)
    have hk := hkeys op (List.mem_cons_self _ _)
    have hnext : ∀ t', (∀ l, exec KT fuel t (op :: l) = exec KT fuel t' l) →
        NeverFull KT fuel t' ops := by
      intro t' he n hn
      have := hroom (n + 1) (by simp only [List.length_cons]; omega)
      rw [List.take_succ_cons, he] at this
      exact this
    cases op with
    | contains k =>
      obtain ⟨b, hb, -⟩ := contains_spec KT t k hp hinv fuel hf
      have he : ∀ l, exec KT fuel t (Op.contains k :: l) = exec KT fuel t l := by
        intro l
        rw [exec, hb]
      rw [he]
      exact exec_invariant KT p fuel ops t hp hf hinv hnd hkeys' (hnext t he)
    | add k =>
      obtain ⟨b, u', hrun, hlen, hinv', -, habs, hpres⟩ :=
        add_spec KT t k hp hinv hempty hk fuel (by omega)
      have he : ∀ l, exec KT fuel t (Op.add k :: l) = exec KT fuel u' l := by
        intro l
        rw [exec, hrun]
      have hnd' : NoDuplicateKey KT u' := by
        by_cases hocc : Occupies t k
        · rw [(hpres hocc).2]
          exact hnd
        · exact (habs hnd hocc).2
      rw [he]
      exact exec_invariant KT p fuel ops u' (by rw [hlen]; exact hp) (by rw [hlen]; exact hf)
        hinv' hnd' hkeys' (hnext u' he)
    | remove k =>
      by_cases hocc : Occupies t k
      · obtain ⟨s, m, u', hs, -, hmN, hrun, hsb, -, -, hinv'⟩ :=
          remove_found_shift KT t k hp hinv hempty hk hocc fuel hf
        have he : ∀ l, exec KT fuel t (Op.remove k :: l) = exec KT fuel u' l := by
          intro l
          rw [exec, hrun]
        rw [he]
        exact exec_invariant KT p fuel ops u' (by rw [hsb.1]; exact hp)
          (by rw [hsb.1]; exact hf) hinv' (shiftedBack_nodup KT hs hsb hmN hnd) hkeys'
          (hnext u' he)
      · obtain ⟨b, u', hrun, -, hb, -, hsame, -⟩ := remove_spec KT t k hp hinv hempty fuel hf
        have hbf : b = false := by
          cases b with
          | false => rfl
          | true => exact absurd (hb.mp rfl).1 hocc
        have hu : u' = t := hsame hbf
        rw [hu] at hrun
        have he : ∀ l, exec KT fuel t (Op.remove k :: l) = exec KT fuel t l := by
          intro l
          rw [exec, hrun]
        rw [he]
        exact exec_invariant KT p fuel ops t hp hf hinv hnd hkeys' (hnext t he)

/-- C24: from the table the constructor builds, every sequence of `add`, `remove` and
`contains` calls of one thread on keys different from `NullKey` that never fills the last
empty slot runs, and in the table it leaves no key occupies two slots (and the distance
invariant holds). -/
theorem reachable_no_duplicate_key (KT : KeyTraits) (size fuel : Nat) (ops : List Op)
    (hkeys : ∀ op ∈ ops, op.key ≠ KT.NullKey)
    (hroom : NeverFull KT fuel (init KT size) ops)
    (hf : nearest_power_of_two size + 1 ≤ fuel) :
    ∃ u, exec KT fuel (init KT size) ops = some u ∧ NoDuplicateKey KT u ∧
      RobinHoodInvariant KT u := by
  obtain ⟨p, -, hp⟩ := nearest_power_of_two_pow size
  have hlen := init_length KT size
  have hinv : RobinHoodInvariant KT (init KT size) := fun i hi hne =>
    absurd (init_getD KT size i hi) hne
  have hnd : NoDuplicateKey KT (init KT size) := fun i hi j _ hne _ =>
    absurd (init_getD KT size i hi) hne
  obtain ⟨u, hu, -, hinv', hnd'⟩ := exec_invariant KT p fuel ops (init KT size)
    (by rw [hlen, hp]) (by rw [hlen]; exact hf) hinv hnd hkeys hroom
  exact ⟨u, hu, hnd', hinv'⟩

theorem reachable_no_duplicate_key_witness :
    ∃ u, exec idTraits 9 (init idTraits 8)
        [Op.add 0, Op.add 8, Op.add 1, Op.add 8, Op.remove 0, Op.add 16, Op.contains 1] =
          some u ∧
      NoDuplicateKey idTraits u ∧ RobinHoodInvariant idTraits u :=
  reachable_no_duplicate_key idTraits 8 9
    [Op.add 0, Op.add 8, Op.add 1, Op.add 8, Op.remove 0, Op.add 16, Op.contains 1]
    (by decide) (by decide) (by decide)

end TransactionalRobinHoodSet
end concurrent_data_structures

namespace concurrent_data_structures
namespace RHSetKCAS

/-! ### K-CAS Robin-Hood set: the constructor -/

theorem count_bits_pow :
    ∀ (fuel p bits : Nat), p < fuel → bits + p + 1 < 256 →
      count_bits fuel (2 ^ p) bits = bits + p + 1
  | 0, _, _, h, _ => absurd h (Nat.not_lt_zero _)
  | fuel + 1, 0, bits, _, hb => by
    unfold count_bits
    rw [if_pos (by norm_num)]
    have h1 : (2 ^ 0) >>> 1 = 0 := rfl
    rw [h1, Nat.mod_eq_of_lt (by omega)]
    cases fuel with
    | zero => rfl
    | succ f => rfl
  | fuel + 1, p + 1, bits, h, hb => by
    unfold count_bits
    rw [if_pos (Nat.two_pow_pos _), Nat.mod_eq_of_lt (by omega)]
    have h1 : (2 ^ (p + 1)) >>> 1 = 2 ^ p := by
      rw [Nat.shiftRight_eq_div_pow, pow_succ]
      simp
    rw [h1, count_bits_pow fuel p (bits + 1) (by omega) (by omega)]
    omega

theorem init_shift (KT : KeyTraits) (size threads p m : Nat)
    (hN : nearest_power_of_two size = 2 ^ p)
    (hM : nearest_power_of_two ((threads <<< 7) % 2 ^ 64) = 2 ^ m) :
    (init KT size threads).m_timestamp_shift = (p + 1 + 256 - (m + 1)) % 256 ∧
    (init KT size threads).m_table.length = 2 ^ p ∧
    (init KT size threads).m_timestamps.length = 2 ^ m := by
  obtain ⟨p', hp', hN'⟩ := nearest_power_of_two_pow size
  obtain ⟨m', hm', hM'⟩ := nearest_power_of_two_pow ((threads <<< 7) % 2 ^ 64)
  have hpp : p' = p := Nat.pow_right_injective (le_refl 2) (hN'.symm.trans hN)
  have hmm : m' = m := Nat.pow_right_injective (le_refl 2) (hM'.symm.trans hM)
  subst hpp hmm
  unfold init
  simp only [hN, hM, List.length_replicate]
  rw [count_bits_pow 65 p' 0 (by omega) (by omega), count_bits_pow 65 m' 0 (by omega) (by omega)]
  simp

/-- C29, as stated, fails when the table is smaller than the timestamp array: for capacity
16 and one thread, `N = 2 ^ 4` and `M = 2 ^ 7`, and the shift stored in the
`std::uint8_t` is `5 - 8` modulo 256, that is 253, not `log2 N - log2 M`. -/
theorem shift_wraps_for_small_table :
    nearest_power_of_two 16 = 2 ^ 4 ∧ nearest_power_of_two ((1 <<< 7) % 2 ^ 64) = 2 ^ 7 ∧
    (init idTraits 16 1).m_timestamp_shift = 253 ∧
    ((init idTraits 16 1).m_timestamp_shift : Int) ≠ 4 - 7 := by
  decide

/-- C29, amended: for every requested capacity and thread count with `M ≤ N`, where
`N = 2 ^ p` is the capacity rounded up to a power of two and `M = 2 ^ m` is
`nearest_power_of_two(threads << 7)`, the constructor stores the shift `p - m`, builds `N`
slots and `M` timestamps, and for every slot `i < N` the region index `i >> shift` is
below `M`. -/
theorem shift_and_region_index (KT : KeyTraits) (size threads p m : Nat)
    (hN : nearest_power_of_two size = 2 ^ p)
    (hM : nearest_power_of_two ((threads <<< 7) % 2 ^ 64) = 2 ^ m)
    (hMN : nearest_power_of_two ((threads <<< 7) % 2 ^ 64) ≤ nearest_power_of_two size) :
    (init KT size threads).m_timestamp_shift = p - m ∧
    (init KT size threads).m_table.length = nearest_power_of_two size ∧
    (init KT size threads).m_timestamps.length =
      nearest_power_of_two ((threads <<< 7) % 2 ^ 64) ∧
    ∀ i < (init KT size threads).m_table.length,
      region (init KT size threads) i < (init KT size threads).m_timestamps.length := by
  obtain ⟨hs, hl, ht⟩ := init_shift KT size threads p m hN hM
  obtain ⟨p', hp', hN'⟩ := nearest_power_of_two_pow size
  have hpp : p' = p := Nat.pow_right_injective (le_refl 2) (hN'.symm.trans hN)
  subst hpp
  have hmp : m ≤ p' := by
    rw [hN, hM] at hMN
    exact (Nat.pow_le_pow_iff_right (by norm_num)).mp hMN
  have hshift : (init KT size threads).m_timestamp_shift = p' - m := by
    rw [hs]
    omega
  refine ⟨hshift, by rw [hl, hN], by rw [ht, hM], fun i hi => ?_⟩
  unfold region
  rw [hshift, ht, Nat.shiftRight_eq_div_pow]
  rw [hl] at hi
  rw [Nat.div_lt_iff_lt_mul (Nat.two_pow_pos _), ← pow_add]
  have : m + (p' - m) = p' := by omega
  rw [this]
  exact hi

theorem shift_and_region_index_witness :
    (init idTraits 256 1).m_timestamp_shift = 8 - 7 ∧
    (init idTraits 256 1).m_table.length = nearest_power_of_two 256 ∧
    (init idTraits 256 1).m_timestamps.length = nearest_power_of_two ((1 <<< 7) % 2 ^ 64) ∧
    ∀ i < (init idTraits 256 1).m_table.length,
      region (init idTraits 256 1) i < (init idTraits 256 1).m_timestamps.length :=
  shift_and_region_index idTraits 256 1 8 7 (by decide) (by decide) (by decide)

/-! ### K-CAS Robin-Hood set: the timestamps that `remove` bumps -/

set_option maxRecDepth 100000 in
theorem remove_example_run :
    ((exec idTraits 4 (init idTraits 256 1) [Op.add 1]).bind Run.result).map
      (fun s => (s.m_table.getD 1 0, region s 1, s.m_timestamps.getD 0 0,
        s.m_timestamps.getD 1 0)) = some (1, 0, 1, 0) ∧
    ((exec idTraits 4 (init idTraits 256 1) [Op.add 1]).bind Run.result).map
      (fun s => remove_probe idTraits s 1 4 4 1 0 (2 ^ 64 - 1) []) =
      some (some (Run.done
        (some [Entry.mk (Loc.timestamp 1) 0 1, Entry.mk (Loc.table 1) 1 255], [1]))) ∧
    ((exec idTraits 4 (init idTraits 256 1) [Op.add 1, Op.remove 1]).bind Run.result).map
      (fun s => (s.m_table.getD 1 0, s.m_timestamps.getD 0 0, s.m_timestamps.getD 1 0)) =
      some (255, 1, 1) := by
  decide

/-- C27 fails on the code: with 256 slots and 128 timestamps (two slots per region) and
`h(k) = k`, after `add(1)` the key 1 sits in slot 1, the last slot of region 0. The
descriptor that `remove(1)` commits writes `NullKey` into slot 1 and bumps the timestamp
of region 1, the region of the slot after it; the timestamp of region 0, which holds the
written slot, stays at 1. -/
theorem remove_bumps_region_of_next_slot :
    ((exec idTraits 4 (init idTraits 256 1) [Op.add 1]).bind Run.result).map
      (fun s => (s.m_table.getD 1 0, region s 1, s.m_timestamps.getD 0 0,
        s.m_timestamps.getD 1 0)) = some (1, 0, 1, 0) ∧
    ((exec idTraits 4 (init idTraits 256 1) [Op.add 1]).bind Run.result).map
      (fun s => remove_probe idTraits s 1 4 4 1 0 (2 ^ 64 - 1) []) =
      some (some (Run.done
        (some [Entry.mk (Loc.timestamp 1) 0 1, Entry.mk (Loc.table 1) 1 255], [1]))) ∧
    ((exec idTraits 4 (init idTraits 256 1) [Op.add 1, Op.remove 1]).bind Run.result).map
      (fun s => (s.m_table.getD 1 0, s.m_timestamps.getD 0 0, s.m_timestamps.getD 1 0)) =
      some (255, 1, 1) :=
  remove_example_run

end RHSetKCAS
end concurrent_data_structures

namespace concurrent_data_structures
namespace RHSetKCAS

/-! ### K-CAS Robin-Hood set: the stores of a descriptor -/

theorem commit_cons (s : State) (e : Entry) (desc : List Entry) :
    commit s (e :: desc) = commit (write_value s e.loc e.desired) desc := rfl

theorem commit_snoc (s : State) (desc : List Entry) (e : Entry) :
    commit s (desc ++ [e]) = write_value (commit s desc) e.loc e.desired := by
  unfold commit
  rw [List.foldl_append]
  rfl

theorem write_value_lengths (s : State) (l : Loc) (v : Nat) :
    (write_value s l v).m_table.length = s.m_table.length ∧
    (write_value s l v).m_timestamps.length = s.m_timestamps.length ∧
    (write_value s l v).m_timestamp_shift = s.m_timestamp_shift := by
  cases l <;> simp [write_value]

theorem commit_lengths (desc : List Entry) :
    ∀ s : State, (commit s desc).m_table.length = s.m_table.length ∧
      (commit s desc).m_timestamps.length = s.m_timestamps.length ∧
      (commit s desc).m_timestamp_shift = s.m_timestamp_shift := by
  induction desc with
  | nil => intro s; exact ⟨rfl, rfl, rfl⟩
  | cons e desc ih =>
    intro s
    rw [commit_cons]
    obtain ⟨h1, h2, h3⟩ := ih (write_value s e.loc e.desired)
    obtain ⟨g1, g2, g3⟩ := write_value_lengths s e.loc e.desired
    exact ⟨h1.trans g1, h2.trans g2, h3.trans g3⟩

theorem write_value_timestamp_other (s : State) (l : Loc) (v r : Nat)
    (h : l ≠ Loc.timestamp r) :
    (write_value s l v).m_timestamps.getD r 0 = s.m_timestamps.getD r 0 := by
  cases l with
  | table i => rfl
  | timestamp i =>
    have hir : i ≠ r := fun e => h (by rw [e])
    simp only [write_value]
    rw [List.getD_eq_getElem?_getD, List.getD_eq_getElem?_getD, List.getElem?_set_ne hir]

theorem write_value_timestamp_self (s : State) (v r : Nat) (hr : r < s.m_timestamps.length) :
    (write_value s (Loc.timestamp r) v).m_timestamps.getD r 0 = v := by
  simp only [write_value]
  rw [List.getD_eq_getElem?_getD, List.getElem?_set_self hr]
  rfl

theorem write_value_table_other (s : State) (l : Loc) (v b : Nat) (h : l ≠ Loc.table b) :
    (write_value s l v).m_table.getD b 0 = s.m_table.getD b 0 := by
  cases l with
  | timestamp i => rfl
  | table i =>
    have hir : i ≠ b := fun e => h (by rw [e])
    simp only [write_value]
    rw [List.getD_eq_getElem?_getD, List.getD_eq_getElem?_getD, List.getElem?_set_ne hir]

theorem commit_timestamp_kept (desc : List Entry) (r : Nat) :
    ∀ s : State, (∀ e ∈ desc, e.loc ≠ Loc.timestamp r) →
      (commit s desc).m_timestamps.getD r 0 = s.m_timestamps.getD r 0 := by
  induction desc with
  | nil => intro s _; rfl
  | cons e desc ih =>
    intro s h
    rw [commit_cons, ih _ (fun x hx => h x (List.mem_cons_of_mem _ hx))]
    exact write_value_timestamp_other s e.loc e.desired r (h e (List.mem_cons_self _ _))

theorem commit_table_kept (desc : List Entry) (b : Nat) :
    ∀ s : State, (∀ e ∈ desc, e.loc ≠ Loc.table b) →
      (commit s desc).m_table.getD b 0 = s.m_table.getD b 0 := by
  induction desc with
  | nil => intro s _; rfl
  | cons e desc ih =>
    intro s h
    rw [commit_cons, ih _ (fun x hx => h x (List.mem_cons_of_mem _ hx))]
    exact write_value_table_other s e.loc e.desired b (h e (List.mem_cons_self _ _))

theorem commit_timestamp_bumped (desc : List Entry) (r v : Nat) :
    ∀ s : State, r < s.m_timestamps.length →
      (∀ e ∈ desc, e.loc = Loc.timestamp r → e.desired = v) →
      (∃ e ∈ desc, e.loc = Loc.timestamp r) →
      (commit s desc).m_timestamps.getD r 0 = v := by
  induction desc with
  | nil =>
    intro s _ _ h
    obtain ⟨e, he, -⟩ := h
    cases he
  | cons e desc ih =>
    intro s hr hall hex
    rw [commit_cons]
    have hr' : r < (write_value s e.loc e.desired).m_timestamps.length := by
      rw [(write_value_lengths s e.loc e.desired).2.1]
      exact hr
    by_cases hlater : ∃ x ∈ desc, x.loc = Loc.timestamp r
    · exact ih _ hr' (fun x hx => hall x (List.mem_cons_of_mem _ hx)) hlater
    · have hno : ∀ x ∈ desc, x.loc ≠ Loc.timestamp r := fun x hx hl => hlater ⟨x, hx, hl⟩
      rw [commit_timestamp_kept desc r _ hno]
      obtain ⟨x, hx, hxl⟩ := hex
      rcases List.mem_cons.mp hx with h1 | h1
      · rw [← h1, hxl, ← hall x hx hxl]
        exact write_value_timestamp_self s _ r hr
      · exact absurd hxl (hno x h1)

theorem cas_of_expected (s : State) (desc : List Entry)
    (h : ∀ e ∈ desc, read_value s e.loc = e.expected) : cas s desc = (true, commit s desc) := by
  unfold cas
  rw [if_pos]
  rw [List.all_eq_true]
  intro e he
  rw [beq_iff_eq]
  exact h e he

theorem and_mask_le (i n : Nat) : i &&& (n - 1) ≤ n - 1 := Nat.and_le_right

theorem region_lt_max (s : State) (i : Nat) (hsize : s.m_table.length < 2 ^ 64) :
    (i &&& (s.m_table.length - 1)) >>> s.m_timestamp_shift ≠ 2 ^ 64 - 1 := by
  have h1 := and_mask_le i s.m_table.length
  have h2 : (i &&& (s.m_table.length - 1)) >>> s.m_timestamp_shift ≤
      i &&& (s.m_table.length - 1) := by
    rw [Nat.shiftRight_eq_div_pow]
    exact Nat.div_le_self _ _
  omega

namespace Unbounded

/-! ### K-CAS Robin-Hood set: the timestamps that `add` bumps -/

/-- The timestamp entries of a descriptor bump, by one, the timestamps of exactly the regions
whose slots the descriptor writes. -/
theorem add_probe_bumps (KT : KeyTraits) (s : State) (key : Nat)
    (hsize : s.m_table.length < 2 ^ 64) :
    ∀ (fuel i ad a last : Nat) (inced : Bool) (ats : Nat) (desc desc' : List Entry),
      (last = 2 ^ 64 - 1 ∨ ats = s.m_timestamps.getD last 0) →
      (inced = true → ∃ e ∈ desc, e.loc = Loc.timestamp last) →
      (∀ e ∈ desc, ∀ r, e.loc = Loc.timestamp r →
        e.desired = (s.m_timestamps.getD r 0 + 1) % 2 ^ 64 ∧ WritesRegion s desc r) →
      (∀ e ∈ desc, ∀ b, e.loc = Loc.table b → ∃ x ∈ desc, x.loc = Loc.timestamp (region s b)) →
      add_probe KT s key fuel i ad a last inced ats desc = some (Attempt.commit desc') →
      (∀ e ∈ desc', ∀ r, e.loc = Loc.timestamp r →
        e.desired = (s.m_timestamps.getD r 0 + 1) % 2 ^ 64 ∧ WritesRegion s desc' r) ∧
      (∀ e ∈ desc', ∀ b, e.loc = Loc.table b →
        ∃ x ∈ desc', x.loc = Loc.timestamp (region s b)) := by
  intro fuel
  induction fuel with
  | zero =>
    intro i ad a last inced ats desc desc' _ _ _ _ h
    simp [add_probe] at h
  | succ fuel ih =>
    intro i ad a last inced ats desc desc' hats hinc hts htab h
    unfold add_probe at h
    simp only [] at h
    -- the state of the local variables after the region test
    generalize hb : i &&& (s.m_table.length - 1) = b at h
    have hreg : b >>> s.m_timestamp_shift ≠ 2 ^ 64 - 1 := by
      rw [← hb]
      exact region_lt_max s i hsize
    generalize hats' : (if b >>> s.m_timestamp_shift ≠ last then
      read_value s (Loc.timestamp (b >>> s.m_timestamp_shift)) else ats) = ats' at h
    generalize hinc' : (if b >>> s.m_timestamp_shift ≠ last then false else inced) = inced' at h
    generalize hlast' : (if b >>> s.m_timestamp_shift ≠ last then b >>> s.m_timestamp_shift
      else last) = last' at h
    have hl : last' = b >>> s.m_timestamp_shift := by
      rw [← hlast']
      split_ifs with hc
      · rfl
      · exact (not_not.mp hc).symm
    have hats2 : ats' = s.m_timestamps.getD last' 0 := by
      rw [← hats', hl]
      split_ifs with hc
      · rfl
      · have hc' : b >>> s.m_timestamp_shift = last := not_not.mp hc
        rcases hats with h1 | h1
        · rw [h1] at hc'
          exact absurd hc' hreg
        · rw [h1, hc']
    have hinc2 : inced' = true → ∃ e ∈ desc, e.loc = Loc.timestamp last' := by
      intro hi
      rw [← hinc'] at hi
      split_ifs at hi with hc
      have hc' : b >>> s.m_timestamp_shift = last := not_not.mp hc
      rw [hl, hc']
      exact hinc hi
    -- the descriptor after a store into the current slot
    have hnew : ∀ cur, 
        (∀ e ∈ (if inced' = true then desc ++ [Entry.mk (Loc.table b) cur a]
            else desc ++ [Entry.mk (Loc.table b) cur a] ++
              [Entry.mk (Loc.timestamp last') ats' ((ats' + 1) % 2 ^ 64)]),
          ∀ r, e.loc = Loc.timestamp r →
            e.desired = (s.m_timestamps.getD r 0 + 1) % 2 ^ 64 ∧
            WritesRegion s (if inced' = true then desc ++ [Entry.mk (Loc.table b) cur a]
              else desc ++ [Entry.mk (Loc.table b) cur a] ++
                [Entry.mk (Loc.timestamp last') ats' ((ats' + 1) % 2 ^ 64)]) r) ∧
        (∀ e ∈ (if inced' = true then desc ++ [Entry.mk (Loc.table b) cur a]
            else desc ++ [Entry.mk (Loc.table b) cur a] ++
              [Entry.mk (Loc.timestamp last') ats' ((ats' + 1) % 2 ^ 64)]),
          ∀ q, e.loc = Loc.table q →
            ∃ x ∈ (if inced' = true then desc ++ [Entry.mk (Loc.table b) cur a]
              else desc ++ [Entry.mk (Loc.table b) cur a] ++
                [Entry.mk (Loc.timestamp last') ats' ((ats' + 1) % 2 ^ 64)]),
              x.loc = Loc.timestamp (region s q)) ∧
        ∃ e ∈ (if inced' = true then desc ++ [Entry.mk (Loc.table b) cur a]
            else desc ++ [Entry.mk (Loc.table b) cur a] ++
              [Entry.mk (Loc.timestamp last') ats' ((ats' + 1) % 2 ^ 64)]),
          e.loc = Loc.timestamp last' := by
      intro cur
      have hwr : ∀ d2 : List Entry, Entry.mk (Loc.table b) cur a ∈ d2 →
          WritesRegion s d2 last' := fun d2 hm => ⟨_, hm, b, rfl, by rw [hl]; rfl⟩
      have hmono : ∀ (d1 d2 : List Entry) r, (∀ e ∈ d1, e ∈ d2) → WritesRegion s d1 r →
          WritesRegion s d2 r := fun d1 d2 r hsub ⟨e, he, q, h1, h2⟩ => ⟨e, hsub e he, q, h1, h2⟩
      by_cases hi : inced' = true
      · simp only [hi, if_true]
        obtain ⟨x, hx, hxl⟩ := hinc2 hi
        refine ⟨fun e he r hr => ?_, fun e he q hq => ?_, x, List.mem_append_left _ hx, hxl⟩
        · rcases List.mem_append.mp he with h1 | h1
          · obtain ⟨g1, g2⟩ := hts e h1 r hr
            exact ⟨g1, hmono desc _ r (fun y hy => List.mem_append_left _ hy) g2⟩
          · rw [List.mem_singleton.mp h1] at hr
            cases hr
        · rcases List.mem_append.mp he with h1 | h1
          · obtain ⟨y, hy, hyl⟩ := htab e h1 q hq
            exact ⟨y, List.mem_append_left _ hy, hyl⟩
          · rw [List.mem_singleton.mp h1] at hq
            cases hq
            refine ⟨x, List.mem_append_left _ hx, ?_⟩
            rw [hxl, hl]
            rfl
      · simp only [hi, if_false]
        have hbump : Entry.mk (Loc.timestamp last') ats' ((ats' + 1) % 2 ^ 64) ∈
            desc ++ [Entry.mk (Loc.table b) cur a] ++
              [Entry.mk (Loc.timestamp last') ats' ((ats' + 1) % 2 ^ 64)] :=
          List.mem_append_right _ (List.mem_singleton.mpr rfl)
        have hswap : Entry.mk (Loc.table b) cur a ∈
            desc ++ [Entry.mk (Loc.table b) cur a] ++
              [Entry.mk (Loc.timestamp last') ats' ((ats' + 1) % 2 ^ 64)] :=
          List.mem_append_left _ (List.mem_append_right _ (List.mem_singleton.mpr rfl))
        refine ⟨fun e he r hr => ?_, fun e he q hq => ?_, _, hbump, rfl⟩
        · rcases List.mem_append.mp he with h1 | h1
          · rcases List.mem_append.mp h1 with h2 | h2
            · obtain ⟨g1, g2⟩ := hts e h2 r hr
              exact ⟨g1, hmono desc _ r
                (fun y hy => List.mem_append_left _ (List.mem_append_left _ hy)) g2⟩
            · rw [List.mem_singleton.mp h2] at hr
              cases hr
          · rw [List.mem_singleton.mp h1] at hr ⊢
            cases hr
            exact ⟨by rw [hats2], hwr _ hswap⟩
        · rcases List.mem_append.mp he with h1 | h1
          · rcases List.mem_append.mp h1 with h2 | h2
            · obtain ⟨y, hy, hyl⟩ := htab e h2 q hq
              exact ⟨y, List.mem_append_left _ (List.mem_append_left _ hy), hyl⟩
            · rw [List.mem_singleton.mp h2] at hq
              cases hq
              refine ⟨_, hbump, ?_⟩
              show Loc.timestamp last' = Loc.timestamp (region s b)
              rw [hl]
              rfl
          · rw [List.mem_singleton.mp h1] at hq
            cases hq
    have hn := hnew (read_value s (Loc.table b))
    generalize hdi : (if inced' = true then
        desc ++ [Entry.mk (Loc.table b) (read_value s (Loc.table b)) a]
      else desc ++ [Entry.mk (Loc.table b) (read_value s (Loc.table b)) a] ++
        [Entry.mk (Loc.timestamp last') ats' ((ats' + 1) % 2 ^ 64)]) = di at h hn
    split_ifs at h with h1 h2 h3 h4
    · cases h
      exact ⟨hn.1, hn.2.1⟩
    · cases h
    · cases h
    · exact ih _ _ _ _ _ _ _ _ (Or.inr hats2) (fun _ => hn.2.2) hn.1 hn.2.1 h
    · exact ih _ _ _ _ _ _ _ _ (Or.inr hats2) hinc2 hts htab h

theorem add_probe_returned (KT : KeyTraits) (s : State) (key : Nat) :
    ∀ (fuel i ad a last : Nat) (inced : Bool) (ats : Nat) (desc : List Entry) (b : Bool),
      add_probe KT s key fuel i ad a last inced ats desc = some (Attempt.returned b) →
      b = false := by
  intro fuel
  induction fuel with
  | zero =>
    intro i ad a last inced ats desc b h
    simp [add_probe] at h
  | succ fuel ih =>
    intro i ad a last inced ats desc b h
    unfold add_probe at h
    simp only [] at h
    split_ifs at h <;> first | exact ih _ _ _ _ _ _ _ _ h | (cases h; try rfl)

end Unbounded
end RHSetKCAS
end concurrent_data_structures

namespace concurrent_data_structures
namespace RHSetKCAS

open TransactionalRobinHoodSet (mask_eq_mod size_pos_of_pow distance_lt)

/-! ### K-CAS Robin-Hood set: the snapshots of a traversal -/

namespace Unbounded


theorem region_step (R N a : Nat) (hdvd : R ∣ N) (hN : 0 < N)
    (hne : ((a + 1) % N) / R ≠ (a % N) / R) : (a + 1) / R = a / R + 1 := by
  have key : R ∣ a + 1 := by
    have hy : a % N < N := Nat.mod_lt _ hN
    have ha : a + 1 = N * (a / N) + (a % N + 1) := by
      have := Nat.div_add_mod a N
      omega
    by_cases hlast : a % N + 1 = N
    · rw [ha, hlast]
      exact Dvd.dvd.add (Dvd.dvd.mul_right hdvd _) hdvd
    · have hlt : a % N + 1 < N := by omega
      have hmod : (a + 1) % N = a % N + 1 := by
        rw [ha, Nat.mul_add_mod, Nat.mod_eq_of_lt hlt]
      rw [hmod, Nat.succ_div] at hne
      have hd : R ∣ a % N + 1 := by
        by_contra hnd
        rw [if_neg hnd] at hne
        exact hne rfl
      rw [ha]
      exact Dvd.dvd.add (Dvd.dvd.mul_right hdvd _) hd
  rw [Nat.succ_div, if_pos key]

theorem snap_step (N R h d last v : Nat) (ts : List Nat) (hdvd : R ∣ N) (hN : 0 < N)
    (hinv : SnapInv N R h d last ts) :
    SnapInv N R h (d + 1) (if ((h + d) % N) / R ≠ last then ((h + d) % N) / R else last)
      (if ((h + d) % N) / R ≠ last then ts ++ [v] else ts) ∧
    (if ((h + d) % N) / R ≠ last then ts ++ [v] else ts).length + h / R ≤ 1 + (h + d) / R := by
  have hlast : (if ((h + d) % N) / R ≠ last then ((h + d) % N) / R else last) =
      ((h + d) % N) / R := by
    split_ifs with hc
    · rfl
    · exact (not_not.mp hc).symm
  have hb : (if ((h + d) % N) / R ≠ last then ts ++ [v] else ts).length + h / R ≤
      1 + (h + d) / R := by
    rcases hinv with ⟨h0, hl⟩ | ⟨hpos, hl, hbound⟩
    · split_ifs
      · rw [List.length_append, hl, h0]
        simp
      · rw [hl, h0]
        simp
    · split_ifs with hc
      · rw [hl] at hc
        have := region_step R N (h + d - 1) hdvd hN (by
          have e : h + d - 1 + 1 = h + d := by omega
          rw [e]
          exact hc)
        have e : h + d - 1 + 1 = h + d := by omega
        rw [e] at this
        rw [List.length_append, List.length_singleton, this]
        omega
      · have : (h + d - 1) / R ≤ (h + d) / R := Nat.div_le_div_right (by omega)
        omega
  refine ⟨Or.inr ⟨by omega, ?_, ?_⟩, hb⟩
  · rw [hlast]
    rfl
  · exact hb

theorem contains_probe_snapshots (KT : KeyTraits) (s : State) (key p q h : Nat)
    (hp : s.m_table.length = 2 ^ p) (hshift : s.m_timestamp_shift = q)
    (hdvd : 2 ^ q ∣ s.m_table.length) :
    ∀ (fuel i d last : Nat) (ts : List Nat) (b : Bool) (ts' : List Nat),
      i % s.m_table.length = (h + d) % s.m_table.length → d ≤ s.m_table.length →
      SnapInv s.m_table.length (2 ^ q) h d last ts →
      contains_probe KT s key fuel i d last ts = some (b, ts') →
      ts'.length + h / 2 ^ q ≤ 1 + (h + s.m_table.length) / 2 ^ q := by
  have hN := size_pos_of_pow hp
  intro fuel
  induction fuel with
  | zero =>
    intro i d last ts b ts' _ _ _ hrun
    simp [contains_probe] at hrun
  | succ fuel ih =>
    intro i d last ts b ts' hi hd hinv hrun
    unfold contains_probe at hrun
    simp only [] at hrun
    rw [mask_eq_mod hp, hshift, Nat.shiftRight_eq_div_pow, hi] at hrun
    obtain ⟨hinv', hb⟩ := snap_step s.m_table.length (2 ^ q) h d last
      (read_value s (Loc.timestamp ((h + d) % s.m_table.length / 2 ^ q))) ts hdvd hN hinv
    generalize (if (h + d) % s.m_table.length / 2 ^ q ≠ last then
      ts ++ [read_value s (Loc.timestamp ((h + d) % s.m_table.length / 2 ^ q))] else ts) = ts1
      at hrun hinv' hb
    generalize (if (h + d) % s.m_table.length / 2 ^ q ≠ last then
      (h + d) % s.m_table.length / 2 ^ q else last) = last1 at hrun hinv'
    have hfin : ts1.length + h / 2 ^ q ≤ 1 + (h + s.m_table.length) / 2 ^ q := by
      have : (h + d) / 2 ^ q ≤ (h + s.m_table.length) / 2 ^ q :=
        Nat.div_le_div_right (by omega)
      omega
    split_ifs at hrun with h1 h2 h3
    · cases hrun
      exact hfin
    · cases hrun
      exact hfin
    · cases hrun
      exact hfin
    · have hdist := distance_lt hN
        (KT.hash (read_value s (Loc.table ((h + d) % s.m_table.length))) &&&
          (s.m_table.length - 1)) ((h + d) % s.m_table.length)
      refine ih _ _ _ _ _ _ ?_ (by omega) hinv' hrun
      rw [Nat.mod_add_mod, Nat.add_assoc]

theorem remove_probe_snapshots (KT : KeyTraits) (s : State) (key sf p q h : Nat)
    (hp : s.m_table.length = 2 ^ p) (hshift : s.m_timestamp_shift = q)
    (hdvd : 2 ^ q ∣ s.m_table.length) :
    ∀ (fuel i d last : Nat) (ts : List Nat) (r : Option (List Entry)) (ts' : List Nat),
      i % s.m_table.length = (h + d) % s.m_table.length → d ≤ s.m_table.length →
      SnapInv s.m_table.length (2 ^ q) h d last ts →
      remove_probe KT s key sf fuel i d last ts = some (r, ts') →
      ts'.length + h / 2 ^ q ≤ 1 + (h + s.m_table.length) / 2 ^ q := by
  have hN := size_pos_of_pow hp
  intro fuel
  induction fuel with
  | zero =>
    intro i d last ts b ts' _ _ _ hrun
    simp [remove_probe] at hrun
  | succ fuel ih =>
    intro i d last ts b ts' hi hd hinv hrun
    unfold remove_probe at hrun
    simp only [] at hrun
    rw [mask_eq_mod hp, hshift, Nat.shiftRight_eq_div_pow, hi] at hrun
    obtain ⟨hinv', hb⟩ := snap_step s.m_table.length (2 ^ q) h d last
      (read_value s (Loc.timestamp ((h + d) % s.m_table.length / 2 ^ q))) ts hdvd hN hinv
    generalize (if (h + d) % s.m_table.length / 2 ^ q ≠ last then
      ts ++ [read_value s (Loc.timestamp ((h + d) % s.m_table.length / 2 ^ q))] else ts) = ts1
      at hrun hinv' hb
    generalize (if (h + d) % s.m_table.length / 2 ^ q ≠ last then
      (h + d) % s.m_table.length / 2 ^ q else last) = last1 at hrun hinv'
    have hfin : ts1.length + h / 2 ^ q ≤ 1 + (h + s.m_table.length) / 2 ^ q := by
      have : (h + d) / 2 ^ q ≤ (h + s.m_table.length) / 2 ^ q :=
        Nat.div_le_div_right (by omega)
      omega
    split_ifs at hrun with h1 h2 h3
    · cases hrun
      exact hfin
    · cases hsh : shuffle_loop KT s sf ((h + d) % s.m_table.length + 1) false
          ((h + d) % s.m_table.length) (read_value s (Loc.table ((h + d) % s.m_table.length)))
          (ts1.getD (ts1.length - 1) 0) (2 ^ 64 - 1) [] with
      | none =>
        rw [hsh] at hrun
        cases hrun
      | some desc =>
        rw [hsh] at hrun
        cases hrun
        exact hfin
    · cases hrun
      exact hfin
    · have hdist := distance_lt hN
        (KT.hash (read_value s (Loc.table ((h + d) % s.m_table.length))) &&&
          (s.m_table.length - 1)) ((h + d) % s.m_table.length)
      refine ih _ _ _ _ _ _ ?_ (by omega) hinv' hrun
      rw [Nat.mod_add_mod, Nat.add_assoc]

theorem snapshots_le_regions (N p m len h : Nat) (hN : N = 2 ^ p) (hmp : m ≤ p)
    (hlen : len + h / 2 ^ (p - m) ≤ 1 + (h + N) / 2 ^ (p - m)) : len ≤ 2 ^ m + 1 := by
  have hNR : N = 2 ^ (p - m) * 2 ^ m := by
    rw [hN, ← pow_add]
    congr 1
    omega
  rw [hNR, Nat.add_mul_div_left _ _ (Nat.two_pow_pos _)] at hlen
  omega

/-- The probe loop of `contains` reads the table as the probe loop of the transactional
set does. -/
theorem contains_probe_fst (KT : KeyTraits) (s : State) (key : Nat) :
    ∀ (fuel i d last : Nat) (ts : List Nat),
      (contains_probe KT s key fuel i d last ts).map Prod.fst =
        TransactionalRobinHoodSet.contains_loop KT s.m_table key fuel i d := by
  intro fuel
  induction fuel with
  | zero => intro i d last ts; rfl
  | succ fuel ih =>
    intro i d last ts
    unfold contains_probe TransactionalRobinHoodSet.contains_loop
    simp only [read_value]
    split_ifs <;> first | rfl | exact ih _ _ _ _

/-- A probe from slot 0 over `n` occupied slots none of which ends it stores a snapshot
at every slot when each slot is a region of its own. -/
theorem contains_probe_run (KT : KeyTraits) (s : State) (key p n : Nat)
    (hp : s.m_table.length = 2 ^ p) (hshift : s.m_timestamp_shift = 0)
    (hn : n < s.m_table.length)
    (hocc : ∀ d < n, s.m_table.getD d 0 ≠ KT.NullKey ∧ key ≠ s.m_table.getD d 0 ∧
      ¬ distance_from_slot s.m_table.length
          (KT.hash (s.m_table.getD d 0) &&& (s.m_table.length - 1)) d < d)
    (hnull : s.m_table.getD n 0 = KT.NullKey) :
    ∀ (k fuel d last : Nat) (ts : List Nat), d + k = n → k < fuel → last ≠ d →
      ∃ ts', contains_probe KT s key fuel d d last ts = some (false, ts') ∧
        ts'.length = ts.length + k + 1 := by
  intro k
  induction k with
  | zero =>
    intro fuel d last ts hd hf hl
    obtain ⟨f, rfl⟩ : ∃ f, fuel = f + 1 := ⟨fuel - 1, by omega⟩
    have hdn : d = n := by omega
    subst hdn
    unfold contains_probe
    simp only [read_value]
    rw [mask_eq_mod hp, Nat.mod_eq_of_lt hn, hshift, Nat.shiftRight_zero,
      if_pos (fun e => hl e.symm), if_pos hnull]
    exact ⟨_, rfl, by simp⟩
  | succ k ih =>
    intro fuel d last ts hd hf hl
    obtain ⟨f, rfl⟩ : ∃ f, fuel = f + 1 := ⟨fuel - 1, by omega⟩
    have hdn : d < n := by omega
    obtain ⟨h1, h2, h3⟩ := hocc d hdn
    unfold contains_probe
    simp only [read_value]
    rw [mask_eq_mod hp, Nat.mod_eq_of_lt (by omega : d < s.m_table.length), hshift,
      Nat.shiftRight_zero, if_pos (fun e => hl e.symm), if_pos (fun e => hl e.symm),
      if_neg h1, if_neg h2, if_neg h3]
    obtain ⟨ts', hrun, hlen⟩ := ih f (d + 1) d (ts ++ [s.m_timestamps.getD d 0]) (by omega)
      (by omega) (by omega)
    refine ⟨ts', hrun, ?_⟩
    rw [hlen, List.length_append, List.length_singleton]
    omega

end Unbounded
end RHSetKCAS
end concurrent_data_structures

namespace concurrent_data_structures
namespace RHSetKCAS

open TransactionalRobinHoodSet (mask_eq_mod size_pos_of_pow distance_lt)

/-! ### K-CAS Robin-Hood set: the counter-check of one thread -/

namespace Unbounded


theorem region_if_eq (r last : Nat) : (if r ≠ last then r else last) = r := by
  split_ifs with hc
  · rfl
  · exact (not_not.mp hc).symm

theorem snapshot_if_eq (r last v : Nat) (ts : List Nat) :
    (if r ≠ last then ts ++ [v] else ts) = ts ++ (if r ≠ last then [v] else []) := by
  split_ifs <;> simp

theorem contains_probe_reads (KT : KeyTraits) (s : State) (key p : Nat)
    (hp : s.m_table.length = 2 ^ p) :
    ∀ (fuel i d last : Nat) (ts : List Nat) (b : Bool) (ts' : List Nat),
      d ≤ s.m_table.length →
      contains_probe KT s key fuel i d last ts = some (b, ts') →
      ∃ n, n + d ≤ s.m_table.length + 1 ∧ ts' = ts ++ snapshots s n i last := by
  have hN := size_pos_of_pow hp
  intro fuel
  induction fuel with
  | zero =>
    intro i d last ts b ts' _ hrun
    simp [contains_probe] at hrun
  | succ fuel ih =>
    intro i d last ts b ts' hd hrun
    unfold contains_probe at hrun
    simp only [] at hrun
    rw [region_if_eq, snapshot_if_eq] at hrun
    generalize hx : (if (i &&& (s.m_table.length - 1)) >>> s.m_timestamp_shift ≠ last then
      [read_value s (Loc.timestamp ((i &&& (s.m_table.length - 1)) >>> s.m_timestamp_shift))]
      else []) = x at hrun
    have hone : ts ++ x = ts ++ snapshots s 1 i last := by
      rw [← hx]
      simp [snapshots]
    have hmore : ∀ n, ts ++ x ++ snapshots s n ((i &&& (s.m_table.length - 1)) + 1)
        ((i &&& (s.m_table.length - 1)) >>> s.m_timestamp_shift) =
        ts ++ snapshots s (n + 1) i last := by
      intro n
      rw [← hx, List.append_assoc]
      rfl
    split_ifs at hrun with h1 h2 h3
    · cases hrun
      exact ⟨1, by omega, hone⟩
    · cases hrun
      exact ⟨1, by omega, hone⟩
    · cases hrun
      exact ⟨1, by omega, hone⟩
    · have hdist := distance_lt hN
        (KT.hash (read_value s (Loc.table (i &&& (s.m_table.length - 1)))) &&&
          (s.m_table.length - 1)) (i &&& (s.m_table.length - 1))
      obtain ⟨n, hn, hts⟩ := ih _ _ _ _ _ _ (by omega) hrun
      refine ⟨n + 1, by omega, ?_⟩
      rw [hts]
      exact hmore n

theorem remove_probe_reads (KT : KeyTraits) (s : State) (key sf p : Nat)
    (hp : s.m_table.length = 2 ^ p) :
    ∀ (fuel i d last : Nat) (ts : List Nat) (r : Option (List Entry)) (ts' : List Nat),
      d ≤ s.m_table.length →
      remove_probe KT s key sf fuel i d last ts = some (r, ts') →
      ∃ n, n + d ≤ s.m_table.length + 1 ∧ ts' = ts ++ snapshots s n i last := by
  have hN := size_pos_of_pow hp
  intro fuel
  induction fuel with
  | zero =>
    intro i d last ts b ts' _ hrun
    simp [remove_probe] at hrun
  | succ fuel ih =>
    intro i d last ts b ts' hd hrun
    unfold remove_probe at hrun
    simp only [] at hrun
    rw [region_if_eq, snapshot_if_eq] at hrun
    generalize hx : (if (i &&& (s.m_table.length - 1)) >>> s.m_timestamp_shift ≠ last then
      [read_value s (Loc.timestamp ((i &&& (s.m_table.length - 1)) >>> s.m_timestamp_shift))]
      else []) = x at hrun
    have hone : ts ++ x = ts ++ snapshots s 1 i last := by
      rw [← hx]
      simp [snapshots]
    have hmore : ∀ n, ts ++ x ++ snapshots s n ((i &&& (s.m_table.length - 1)) + 1)
        ((i &&& (s.m_table.length - 1)) >>> s.m_timestamp_shift) =
        ts ++ snapshots s (n + 1) i last := by
      intro n
      rw [← hx, List.append_assoc]
      rfl
    split_ifs at hrun with h1 h2 h3
    · cases hrun
      exact ⟨1, by omega, hone⟩
    · rw [Option.map_eq_some'] at hrun
      obtain ⟨desc, -, hd2⟩ := hrun
      cases hd2
      exact ⟨1, by omega, hone⟩
    · cases hrun
      exact ⟨1, by omega, hone⟩
    · have hdist := distance_lt hN
        (KT.hash (read_value s (Loc.table (i &&& (s.m_table.length - 1)))) &&&
          (s.m_table.length - 1)) (i &&& (s.m_table.length - 1))
      obtain ⟨n, hn, hts⟩ := ih _ _ _ _ _ _ (by omega) hrun
      refine ⟨n + 1, by omega, ?_⟩
      rw [hts]
      exact hmore n

theorem counter_check_passes (s : State) :
    ∀ (n fuel i last : Nat) (pre : List Nat), n < fuel →
      counter_check s (pre ++ snapshots s n i last) fuel i pre.length last = some true := by
  intro n
  induction n with
  | zero =>
    intro fuel i last pre hf
    obtain ⟨f, rfl⟩ : ∃ f, fuel = f + 1 := ⟨fuel - 1, by omega⟩
    unfold counter_check
    rw [if_neg]
    simp [snapshots]
  | succ n ih =>
    intro fuel i last pre hf
    obtain ⟨f, rfl⟩ : ∃ f, fuel = f + 1 := ⟨fuel - 1, by omega⟩
    unfold counter_check
    simp only []
    split_ifs with h1 h2 h3
    · exfalso
      apply h3
      unfold snapshots
      rw [if_pos h2, List.getD_eq_getElem?_getD, List.getElem?_append_right (le_refl _)]
      simp
    · have := ih f ((i &&& (s.m_table.length - 1)) + 1)
        ((i &&& (s.m_table.length - 1)) >>> s.m_timestamp_shift)
        (pre ++ [read_value s (Loc.timestamp
          ((i &&& (s.m_table.length - 1)) >>> s.m_timestamp_shift))]) (by omega)
      rw [List.length_append, List.length_singleton, List.append_assoc] at this
      unfold snapshots
      rw [if_pos h2]
      exact this
    · have h2' : (i &&& (s.m_table.length - 1)) >>> s.m_timestamp_shift = last :=
        not_not.mp h2
      have := ih f ((i &&& (s.m_table.length - 1)) + 1)
        ((i &&& (s.m_table.length - 1)) >>> s.m_timestamp_shift) pre (by omega)
      unfold snapshots
      rw [if_neg h2, List.nil_append]
      rw [h2'] at this ⊢
      exact this
    · rfl

theorem contains_loop_mask (KT : KeyTraits) (t : List Nat) (key fuel i c : Nat) :
    TransactionalRobinHoodSet.contains_loop KT t key fuel (i &&& (t.length - 1)) c =
      TransactionalRobinHoodSet.contains_loop KT t key fuel i c := by
  cases fuel with
  | zero => rfl
  | succ f =>
    unfold TransactionalRobinHoodSet.contains_loop
    simp only [Nat.and_assoc, Nat.and_self]

/-- The two `contains` return the same boolean. -/
theorem contains_agrees (KT : KeyTraits) (s : State) (key p fuel : Nat)
    (hp : s.m_table.length = 2 ^ p) (hf : s.m_table.length + 2 ≤ fuel) :
    ∃ b, contains KT (fuel + 1) s key = some b ∧
      TransactionalRobinHoodSet.contains KT fuel s.m_table key = some b := by
  obtain ⟨b, hb⟩ := TransactionalRobinHoodSet.contains_loop_total KT s.m_table key hp fuel
    (KT.hash key) 0 (Nat.zero_le _) (by omega)
  refine ⟨b, ?_, hb⟩
  have hfst := contains_probe_fst KT s key fuel (KT.hash key &&& (s.m_table.length - 1)) 0
    (2 ^ 64 - 1) []
  rw [contains_loop_mask, hb] at hfst
  unfold contains
  simp only []
  cases hrun : contains_probe KT s key fuel (KT.hash key &&& (s.m_table.length - 1)) 0
      (2 ^ 64 - 1) [] with
  | none =>
    rw [hrun] at hfst
    cases hfst
  | some r =>
    obtain ⟨b', ts⟩ := r
    rw [hrun] at hfst
    simp only [Option.map_some', Option.some.injEq] at hfst
    subst hfst
    cases b' with
    | true => rfl
    | false =>
      simp only []
      obtain ⟨n, hn, hts⟩ := contains_probe_reads KT s key p hp fuel _ 0 _ [] false ts
        (Nat.zero_le _) hrun
      have := counter_check_passes s n fuel (KT.hash key &&& (s.m_table.length - 1))
        (2 ^ 64 - 1) [] (by omega)
      rw [← hts] at this
      rw [List.length_nil] at this
      rw [this]

end Unbounded
end RHSetKCAS
end concurrent_data_structures

namespace concurrent_data_structures
namespace RHSetKCAS

open TransactionalRobinHoodSet (mask_eq_mod size_pos_of_pow distance_lt mod_two_lt home
  probe_distance RobinHoodInvariant NoDuplicateKey HasEmptySlot Occupies home_lt add_distance
  succ_mod_eq)

/-! ### K-CAS Robin-Hood set: `add` against the transactional `add` -/

namespace Unbounded


theorem add_mod_ne {N b k : Nat} (hb : b < N) (hk0 : 0 < k) (hk : k < N) : (b + k) % N ≠ b := by
  rw [mod_two_lt (show b + k < N + N by omega)]
  split_ifs <;> omega

theorem commit_table_snoc_table (s : State) (desc : List Entry) (b x v : Nat) :
    (commit s (desc ++ [Entry.mk (Loc.table b) x v])).m_table =
      (commit s desc).m_table.set b v := by
  rw [commit_snoc]
  rfl

theorem commit_table_snoc_timestamp (s : State) (desc : List Entry) (r x v : Nat) :
    (commit s (desc ++ [Entry.mk (Loc.timestamp r) x v])).m_table = (commit s desc).m_table := by
  rw [commit_snoc]
  rfl

theorem expected_snoc (s : State) (desc : List Entry) (e : Entry) (hd : Expected s desc)
    (he : read_value s e.loc = e.expected) : Expected s (desc ++ [e]) := by
  intro x hx
  rcases List.mem_append.mp hx with h | h
  · exact hd x h
  · rw [List.mem_singleton.mp h]
    exact he

/-- The descriptor after the store into slot `b` and the bump of its region, when the bump
is still due. -/
theorem store_and_bump (s : State) (desc : List Entry) (inced : Bool) (b cur a r : Nat)
    (hd : Expected s desc) (hcur : s.m_table.getD b 0 = cur) :
    Expected s (if inced = true then desc ++ [Entry.mk (Loc.table b) cur a]
      else desc ++ [Entry.mk (Loc.table b) cur a] ++
        [Entry.mk (Loc.timestamp r) (s.m_timestamps.getD r 0)
          ((s.m_timestamps.getD r 0 + 1) % 2 ^ 64)]) ∧
    (commit s (if inced = true then desc ++ [Entry.mk (Loc.table b) cur a]
      else desc ++ [Entry.mk (Loc.table b) cur a] ++
        [Entry.mk (Loc.timestamp r) (s.m_timestamps.getD r 0)
          ((s.m_timestamps.getD r 0 + 1) % 2 ^ 64)])).m_table =
      (commit s desc).m_table.set b a ∧
    ∀ e ∈ (if inced = true then desc ++ [Entry.mk (Loc.table b) cur a]
      else desc ++ [Entry.mk (Loc.table b) cur a] ++
        [Entry.mk (Loc.timestamp r) (s.m_timestamps.getD r 0)
          ((s.m_timestamps.getD r 0 + 1) % 2 ^ 64)]),
      ∀ w, e.loc = Loc.table w → w = b ∨ ∃ x ∈ desc, x.loc = Loc.table w := by
  have h1 : Expected s (desc ++ [Entry.mk (Loc.table b) cur a]) :=
    expected_snoc s desc _ hd hcur
  split_ifs with hi
  · refine ⟨h1, commit_table_snoc_table s desc b cur a, fun e he w hw => ?_⟩
    rcases List.mem_append.mp he with h | h
    · exact Or.inr ⟨e, h, hw⟩
    · rw [List.mem_singleton.mp h] at hw
      cases hw
      exact Or.inl rfl
  · refine ⟨expected_snoc s _ _ h1 rfl, ?_, fun e he w hw => ?_⟩
    · rw [commit_table_snoc_timestamp, commit_table_snoc_table]
    · rcases List.mem_append.mp he with h | h
      · rcases List.mem_append.mp h with h | h
        · exact Or.inr ⟨e, h, hw⟩
        · rw [List.mem_singleton.mp h] at hw
          cases hw
          exact Or.inl rfl
      · rw [List.mem_singleton.mp h] at hw
        cases hw

/-- One iteration of the probe loop of `add`, with the local variables after the region
test written out. -/
theorem add_probe_step (KT : KeyTraits) (s : State) (key p : Nat)
    (hp : s.m_table.length = 2 ^ p) (hsize : s.m_table.length < 2 ^ 64)
    (fuel i ad a last : Nat) (inced : Bool) (ats : Nat) (desc : List Entry)
    (hats : last = 2 ^ 64 - 1 ∨ ats = s.m_timestamps.getD last 0) :
    ∃ inced' : Bool,
      add_probe KT s key (fuel + 1) i ad a last inced ats desc =
        if s.m_table.getD (i % s.m_table.length) 0 = KT.NullKey then
          some (Attempt.commit
            (if inced' = true then
              desc ++ [Entry.mk (Loc.table (i % s.m_table.length))
                (s.m_table.getD (i % s.m_table.length) 0) a]
            else desc ++ [Entry.mk (Loc.table (i % s.m_table.length))
                (s.m_table.getD (i % s.m_table.length) 0) a] ++
              [Entry.mk (Loc.timestamp ((i % s.m_table.length) >>> s.m_timestamp_shift))
                (s.m_timestamps.getD ((i % s.m_table.length) >>> s.m_timestamp_shift) 0)
                ((s.m_timestamps.getD ((i % s.m_table.length) >>> s.m_timestamp_shift) 0 + 1) %
                  2 ^ 64)]))
        else if s.m_table.getD (i % s.m_table.length) 0 = key then
          some (Attempt.returned false)
        else if s.m_table.getD (i % s.m_table.length) 0 = a then some Attempt.retry
        else if distance_from_slot s.m_table.length
            (KT.hash (s.m_table.getD (i % s.m_table.length) 0) &&& (s.m_table.length - 1))
            (i % s.m_table.length) < ad then
          add_probe KT s key fuel (i % s.m_table.length + 1)
            (distance_from_slot s.m_table.length
              (KT.hash (s.m_table.getD (i % s.m_table.length) 0) &&& (s.m_table.length - 1))
              (i % s.m_table.length) + 1)
            (s.m_table.getD (i % s.m_table.length) 0)
            ((i % s.m_table.length) >>> s.m_timestamp_shift) true
            (s.m_timestamps.getD ((i % s.m_table.length) >>> s.m_timestamp_shift) 0)
            (if inced' = true then
              desc ++ [Entry.mk (Loc.table (i % s.m_table.length))
                (s.m_table.getD (i % s.m_table.length) 0) a]
            else desc ++ [Entry.mk (Loc.table (i % s.m_table.length))
                (s.m_table.getD (i % s.m_table.length) 0) a] ++
              [Entry.mk (Loc.timestamp ((i % s.m_table.length) >>> s.m_timestamp_shift))
                (s.m_timestamps.getD ((i % s.m_table.length) >>> s.m_timestamp_shift) 0)
                ((s.m_timestamps.getD ((i % s.m_table.length) >>> s.m_timestamp_shift) 0 + 1) %
                  2 ^ 64)])
        else
          add_probe KT s key fuel (i % s.m_table.length + 1) (ad + 1) a
            ((i % s.m_table.length) >>> s.m_timestamp_shift) inced'
            (s.m_timestamps.getD ((i % s.m_table.length) >>> s.m_timestamp_shift) 0) desc := by
  refine ⟨if (i % s.m_table.length) >>> s.m_timestamp_shift ≠ last then false else inced, ?_⟩
  have hreg := region_lt_max s i hsize
  rw [mask_eq_mod hp] at hreg
  have hats' : (if (i % s.m_table.length) >>> s.m_timestamp_shift ≠ last then
      read_value s (Loc.timestamp ((i % s.m_table.length) >>> s.m_timestamp_shift)) else ats) =
      s.m_timestamps.getD ((i % s.m_table.length) >>> s.m_timestamp_shift) 0 := by
    split_ifs with hc
    · rfl
    · have hc' := not_not.mp hc
      rcases hats with h1 | h1
      · rw [h1] at hc'
        exact absurd hc' hreg
      · rw [h1, hc']
  rw [add_probe]
  simp only []
  rw [mask_eq_mod hp, region_if_eq, hats']
  rfl

theorem add_loop_step (KT : KeyTraits) (u : List Nat) (p fuel i a ad : Nat)
    (hp : u.length = 2 ^ p) :
    TransactionalRobinHoodSet.add_loop KT (fuel + 1) u i a ad =
      if u.getD (i % u.length) 0 = KT.NullKey then some (true, u.set (i % u.length) a)
      else if a = u.getD (i % u.length) 0 then some (false, u)
      else if distance_from_slot u.length
          (KT.hash (u.getD (i % u.length) 0) &&& (u.length - 1)) (i % u.length) < ad then
        TransactionalRobinHoodSet.add_loop KT fuel (u.set (i % u.length) a) (i % u.length + 1)
          (u.getD (i % u.length) 0)
          (distance_from_slot u.length
            (KT.hash (u.getD (i % u.length) 0) &&& (u.length - 1)) (i % u.length) + 1)
      else TransactionalRobinHoodSet.add_loop KT fuel u (i % u.length + 1) a (ad + 1) := by
  rw [TransactionalRobinHoodSet.add_loop]
  simp only []
  rw [mask_eq_mod hp]

/-- When the key is not in the table and no key is in two slots, the probe of `add` builds
a descriptor whose stores leave the table that the transactional `add` leaves. -/
theorem add_probe_absent (KT : KeyTraits) (s : State) (key p : Nat)
    (hp : s.m_table.length = 2 ^ p) (hsize : s.m_table.length < 2 ^ 64)
    (habs : ∀ q < s.m_table.length, s.m_table.getD q 0 ≠ key)
    (hnd : NoDuplicateKey KT s.m_table) :
    ∀ (fuel m i ad a last : Nat) (inced : Bool) (ats : Nat) (desc : List Entry),
      m < fuel → m < s.m_table.length →
      s.m_table.getD ((i + m) % s.m_table.length) 0 = KT.NullKey →
      a ≠ KT.NullKey →
      Expected s desc →
      (∀ e ∈ desc, ∀ w, e.loc = Loc.table w → ∀ m' ≤ m, (i + m') % s.m_table.length ≠ w) →
      (a = key ∨ ∃ w < s.m_table.length, s.m_table.getD w 0 = a ∧
        ∀ m' ≤ m, (i + m') % s.m_table.length ≠ w) →
      (last = 2 ^ 64 - 1 ∨ ats = s.m_timestamps.getD last 0) →
      ∃ desc', add_probe KT s key fuel i ad a last inced ats desc =
          some (Attempt.commit desc') ∧
        Expected s desc' ∧
        TransactionalRobinHoodSet.add_loop KT fuel (commit s desc).m_table i a ad =
          some (true, (commit s desc').m_table) := by
  have hN := size_pos_of_pow hp
  intro fuel
  induction fuel with
  | zero => intro m i ad a last inced ats desc h; omega
  | succ fuel ih =>
    intro m i ad a last inced ats desc hmf hmN hnull ha hexp hwr hact hats
    have hlenu : (commit s desc).m_table.length = s.m_table.length := (commit_lengths desc s).1
    have hb : i % s.m_table.length < s.m_table.length := Nat.mod_lt _ hN
    have hucur : (commit s desc).m_table.getD (i % s.m_table.length) 0 =
        s.m_table.getD (i % s.m_table.length) 0 :=
      commit_table_kept desc _ s (fun e he hl => hwr e he _ hl 0 (Nat.zero_le _) rfl)
    obtain ⟨inced', hK⟩ := add_probe_step KT s key p hp hsize fuel i ad a last inced ats desc hats
    have hT := add_loop_step KT (commit s desc).m_table p fuel i a ad (by rw [hlenu]; exact hp)
    rw [hlenu, hucur] at hT
    rw [hK, hT]
    obtain ⟨hexp', htab', hwr'⟩ := store_and_bump s desc inced' (i % s.m_table.length)
      (s.m_table.getD (i % s.m_table.length) 0) a
      ((i % s.m_table.length) >>> s.m_timestamp_shift) hexp rfl
    by_cases h1 : s.m_table.getD (i % s.m_table.length) 0 = KT.NullKey
    · rw [if_pos h1, if_pos h1]
      exact ⟨_, rfl, hexp', by rw [htab']⟩
    · rw [if_neg h1, if_neg h1]
      have hm0 : 0 < m := by
        rcases Nat.eq_zero_or_pos m with h0 | h0
        · rw [h0, Nat.add_zero] at hnull
          exact absurd hnull h1
        · exact h0
      have hcur_ne_a : s.m_table.getD (i % s.m_table.length) 0 ≠ a := by
        intro he
        rcases hact with h | ⟨w, hw, hwa, hwn⟩
        · rw [h] at he
          exact habs _ hb he
        · have := hnd _ hb w hw h1 (by rw [he, hwa])
          exact hwn 0 (Nat.zero_le _) this
      rw [if_neg (habs _ hb), if_neg hcur_ne_a,
        if_neg (show ¬ a = s.m_table.getD (i % s.m_table.length) 0 from
          fun e => hcur_ne_a e.symm)]
      have hnext : ∀ m', (i % s.m_table.length + 1 + m') % s.m_table.length =
          (i + (m' + 1)) % s.m_table.length := by
        intro m'
        rw [Nat.add_assoc, Nat.mod_add_mod]
        congr 1
        omega
      have hnull' : s.m_table.getD ((i % s.m_table.length + 1 + (m - 1)) % s.m_table.length) 0 =
          KT.NullKey := by
        rw [hnext, show m - 1 + 1 = m by omega]
        exact hnull
      have hself : ∀ m' ≤ m - 1, (i % s.m_table.length + 1 + m') % s.m_table.length ≠
          i % s.m_table.length := by
        intro m' hm'
        rw [Nat.add_assoc]
        exact add_mod_ne hb (by omega) (by omega)
      by_cases h4 : distance_from_slot s.m_table.length
          (KT.hash (s.m_table.getD (i % s.m_table.length) 0) &&& (s.m_table.length - 1))
          (i % s.m_table.length) < ad
      · rw [if_pos h4, if_pos h4]
        obtain ⟨desc', h5, h6, h7⟩ := ih (m - 1) (i % s.m_table.length + 1)
          (distance_from_slot s.m_table.length
            (KT.hash (s.m_table.getD (i % s.m_table.length) 0) &&& (s.m_table.length - 1))
            (i % s.m_table.length) + 1)
          (s.m_table.getD (i % s.m_table.length) 0)
          ((i % s.m_table.length) >>> s.m_timestamp_shift) true
          (s.m_timestamps.getD ((i % s.m_table.length) >>> s.m_timestamp_shift) 0)
          _ (by omega) (by omega) hnull' h1 hexp'
          (fun e he w hw m' hm' => by
            rcases hwr' e he w hw with h | ⟨x, hx, hxl⟩
            · rw [h]
              exact hself m' hm'
            · rw [hnext]
              exact hwr x hx w hxl (m' + 1) (by omega))
          (Or.inr ⟨_, hb, rfl, hself⟩) (Or.inr rfl)
        rw [htab'] at h7
        exact ⟨desc', h5, h6, h7⟩
      · rw [if_neg h4, if_neg h4]
        obtain ⟨desc', h5, h6, h7⟩ := ih (m - 1) (i % s.m_table.length + 1) (ad + 1) a
          ((i % s.m_table.length) >>> s.m_timestamp_shift) inced'
          (s.m_timestamps.getD ((i % s.m_table.length) >>> s.m_timestamp_shift) 0)
          desc (by omega) (by omega) hnull' ha hexp
          (fun e he w hw m' hm' => by
            rw [hnext]
            exact hwr e he w hw (m' + 1) (by omega))
          (by
            rcases hact with h | ⟨w, hw, hwa, hwn⟩
            · exact Or.inl h
            · refine Or.inr ⟨w, hw, hwa, fun m' hm' => ?_⟩
              rw [hnext]
              exact hwn (m' + 1) (by omega))
          (Or.inr rfl)
        exact ⟨desc', h5, h6, h7⟩

/-- When the table satisfies the distance invariant and holds the key, the probe of `add`
meets the key before any swap. -/
theorem add_probe_present (KT : KeyTraits) (s : State) (k p : Nat)
    (hp : s.m_table.length = 2 ^ p) (hsize : s.m_table.length < 2 ^ 64)
    (hinv : RobinHoodInvariant KT s.m_table) (hk : k ≠ KT.NullKey)
    (q : Nat) (hq : q < s.m_table.length) (hqk : s.m_table.getD q 0 = k) :
    ∀ (fuel i c last : Nat) (inced : Bool) (ats : Nat) (desc : List Entry),
      c ≤ probe_distance KT s.m_table q →
      i % s.m_table.length = (home KT s.m_table.length k + c) % s.m_table.length →
      probe_distance KT s.m_table q < fuel + c →
      (last = 2 ^ 64 - 1 ∨ ats = s.m_timestamps.getD last 0) →
      add_probe KT s k fuel i c k last inced ats desc = some (Attempt.returned false) := by
  intro fuel
  induction fuel with
  | zero => intro i c last inced ats desc h1 _ h2; omega
  | succ fuel ih =>
    intro i c last inced ats desc hc hi hf hats
    obtain ⟨inced', hK⟩ := add_probe_step KT s k p hp hsize fuel i c k last inced ats desc hats
    rw [hK, hi]
    rcases Nat.lt_or_ge c (probe_distance KT s.m_table q) with hlt | hge
    · have hpath := hinv q hq (by rw [hqk]; exact hk) c hlt
      rw [hqk] at hpath
      obtain ⟨hnn, hdist⟩ := hpath
      rw [if_neg hnn]
      by_cases h2 : s.m_table.getD ((home KT s.m_table.length k + c) % s.m_table.length) 0 = k
      · rw [if_pos h2]
      · have h3 : ¬ distance_from_slot s.m_table.length
            (KT.hash (s.m_table.getD ((home KT s.m_table.length k + c) % s.m_table.length) 0) &&&
              (s.m_table.length - 1))
            ((home KT s.m_table.length k + c) % s.m_table.length) < c := by
          unfold probe_distance at hdist
          unfold home at hdist
          unfold home
          omega
        rw [if_neg h2, if_neg h2, if_neg h3]
        exact ih _ _ _ _ _ _ (by omega) (succ_mod_eq (Nat.mod_mod _ _)) (by omega)
          (Or.inr rfl)
    · have hceq : c = probe_distance KT s.m_table q := le_antisymm hc hge
      have hslot : (home KT s.m_table.length k + c) % s.m_table.length = q := by
        rw [hceq]; unfold probe_distance; rw [hqk]
        exact add_distance (home_lt hp k) hq
      rw [hslot, hqk, if_neg hk, if_pos rfl]

/-- The two `add` return the same boolean and leave the same slots. -/
theorem add_agrees (KT : KeyTraits) (s : State) (k p fuel : Nat)
    (hp : s.m_table.length = 2 ^ p) (hsize : s.m_table.length < 2 ^ 64)
    (hinv : RobinHoodInvariant KT s.m_table) (hempty : HasEmptySlot KT s.m_table)
    (hnd : NoDuplicateKey KT s.m_table) (hk : k ≠ KT.NullKey)
    (hf : s.m_table.length ≤ fuel) :
    ∃ b s', add KT (fuel + 1) s k = some (b, s') ∧
      TransactionalRobinHoodSet.add KT fuel s.m_table k = some (b, s'.m_table) := by
  have hN := size_pos_of_pow hp
  by_cases hocc : Occupies s.m_table k
  · obtain ⟨q, hq, hqk⟩ := hocc
    have hdq := distance_lt hN (home KT s.m_table.length (s.m_table.getD q 0)) q
    have hK := add_probe_present KT s k p hp hsize hinv hk q hq hqk fuel
      (KT.hash k &&& (s.m_table.length - 1)) 0 (2 ^ 64 - 1) false (2 ^ 64 - 1) []
      (Nat.zero_le _) rfl (by unfold probe_distance; omega) (Or.inl rfl)
    have hT := TransactionalRobinHoodSet.add_loop_present KT s.m_table k hp hinv hk q hq hqk fuel
      (KT.hash k &&& (s.m_table.length - 1)) 0 (Nat.zero_le _) rfl
      (by unfold probe_distance; omega)
    refine ⟨false, s, ?_, hT⟩
    unfold add
    simp only []
    rw [hK]
  · have habs : ∀ q < s.m_table.length, s.m_table.getD q 0 ≠ k := fun q hq h => hocc ⟨q, hq, h⟩
    obtain ⟨e, he, henull⟩ := hempty
    have hde := distance_lt hN (home KT s.m_table.length k) e
    obtain ⟨desc', h1, h2, h3⟩ := add_probe_absent KT s k p hp hsize habs hnd fuel
      (distance_from_slot s.m_table.length (home KT s.m_table.length k) e)
      (KT.hash k &&& (s.m_table.length - 1)) 0 k (2 ^ 64 - 1) false (2 ^ 64 - 1) []
      (by omega) hde
      (by
        have h1 : KT.hash k &&& (s.m_table.length - 1) = home KT s.m_table.length k := rfl
        rw [h1, add_distance (home_lt hp k) he]
        exact henull)
      hk (fun x hx => absurd hx (List.not_mem_nil x))
      (fun x hx => absurd hx (List.not_mem_nil x)) (Or.inl rfl) (Or.inl rfl)
    refine ⟨true, commit s desc', ?_, h3⟩
    unfold add
    simp only []
    rw [h1]
    simp only []
    rw [cas_of_expected s desc' h2]

end Unbounded
end RHSetKCAS
end concurrent_data_structures

namespace concurrent_data_structures
namespace RHSetKCAS

open TransactionalRobinHoodSet (mask_eq_mod size_pos_of_pow distance_lt mod_two_lt home
  probe_distance RobinHoodInvariant NoDuplicateKey HasEmptySlot Occupies home_lt add_distance
  succ_mod_eq distance_cases)

/-! ### K-CAS Robin-Hood set: `remove` against the transactional `remove` -/

namespace Unbounded


/-- The descriptor after the bump that is still due and the store of `NullKey` into the
slot vacated last. -/
theorem bump_and_finish (s : State) (desc : List Entry) (inced : Bool) (b cur v r : Nat)
    (hd : Expected s desc) (hcur : s.m_table.getD b 0 = cur) :
    Expected s ((if inced = true then desc
      else desc ++ [Entry.mk (Loc.timestamp r) (s.m_timestamps.getD r 0)
        ((s.m_timestamps.getD r 0 + 1) % 2 ^ 64)]) ++ [Entry.mk (Loc.table b) cur v]) ∧
    (commit s ((if inced = true then desc
      else desc ++ [Entry.mk (Loc.timestamp r) (s.m_timestamps.getD r 0)
        ((s.m_timestamps.getD r 0 + 1) % 2 ^ 64)]) ++ [Entry.mk (Loc.table b) cur v])).m_table =
      (commit s desc).m_table.set b v := by
  split_ifs with hi
  · exact ⟨expected_snoc s desc _ hd hcur, commit_table_snoc_table s desc b cur v⟩
  · refine ⟨expected_snoc s _ _ (expected_snoc s desc _ hd rfl) hcur, ?_⟩
    rw [commit_table_snoc_table, commit_table_snoc_timestamp]

/-- One iteration of the shuffle-back loop, with the local variables after the region test
written out. -/
theorem shuffle_loop_step (KT : KeyTraits) (s : State) (p : Nat)
    (hp : s.m_table.length = 2 ^ p) (hsize : s.m_table.length < 2 ^ 64)
    (fuel cur : Nat) (inced : Bool) (dest dk dts dtsb : Nat) (desc : List Entry)
    (hts : dtsb = 2 ^ 64 - 1 ∨ dts = s.m_timestamps.getD dtsb 0) :
    ∃ inced' : Bool,
      shuffle_loop KT s (fuel + 1) cur inced dest dk dts dtsb desc =
        if s.m_table.getD (cur % s.m_table.length) 0 = KT.NullKey then
          some ((if inced' = true then desc
            else desc ++
              [Entry.mk (Loc.timestamp ((cur % s.m_table.length) >>> s.m_timestamp_shift))
                (s.m_timestamps.getD ((cur % s.m_table.length) >>> s.m_timestamp_shift) 0)
                ((s.m_timestamps.getD ((cur % s.m_table.length) >>> s.m_timestamp_shift) 0 + 1) %
                  2 ^ 64)]) ++ [Entry.mk (Loc.table dest) dk KT.NullKey])
        else if distance_from_slot s.m_table.length
            (KT.hash (s.m_table.getD (cur % s.m_table.length) 0) &&& (s.m_table.length - 1))
            (cur % s.m_table.length) = 0 then
          some ((if inced' = true then desc
            else desc ++
              [Entry.mk (Loc.timestamp ((cur % s.m_table.length) >>> s.m_timestamp_shift))
                (s.m_timestamps.getD ((cur % s.m_table.length) >>> s.m_timestamp_shift) 0)
                ((s.m_timestamps.getD ((cur % s.m_table.length) >>> s.m_timestamp_shift) 0 + 1) %
                  2 ^ 64)]) ++ [Entry.mk (Loc.table dest) dk KT.NullKey])
        else
          shuffle_loop KT s fuel (cur % s.m_table.length + 1) true (cur % s.m_table.length)
            (s.m_table.getD (cur % s.m_table.length) 0)
            (s.m_timestamps.getD ((cur % s.m_table.length) >>> s.m_timestamp_shift) 0)
            ((cur % s.m_table.length) >>> s.m_timestamp_shift)
            (if inced' = true then
              desc ++ [Entry.mk (Loc.table dest) dk (s.m_table.getD (cur % s.m_table.length) 0)]
            else desc ++
                [Entry.mk (Loc.table dest) dk (s.m_table.getD (cur % s.m_table.length) 0)] ++
              [Entry.mk (Loc.timestamp ((cur % s.m_table.length) >>> s.m_timestamp_shift))
                (s.m_timestamps.getD ((cur % s.m_table.length) >>> s.m_timestamp_shift) 0)
                ((s.m_timestamps.getD ((cur % s.m_table.length) >>> s.m_timestamp_shift) 0 + 1) %
                  2 ^ 64)]) := by
  refine ⟨if dtsb ≠ (cur % s.m_table.length) >>> s.m_timestamp_shift then false else inced, ?_⟩
  have hreg := region_lt_max s cur hsize
  rw [mask_eq_mod hp] at hreg
  have hts' : (if dtsb ≠ (cur % s.m_table.length) >>> s.m_timestamp_shift then
      read_value s (Loc.timestamp ((cur % s.m_table.length) >>> s.m_timestamp_shift)) else dts) =
      s.m_timestamps.getD ((cur % s.m_table.length) >>> s.m_timestamp_shift) 0 := by
    split_ifs with hc
    · rfl
    · have hc' := not_not.mp hc
      rcases hts with h1 | h1
      · rw [h1] at hc'
        exact absurd hc'.symm hreg
      · rw [h1, hc']
  have hb' : (if dtsb ≠ (cur % s.m_table.length) >>> s.m_timestamp_shift then
      (cur % s.m_table.length) >>> s.m_timestamp_shift else dtsb) =
      (cur % s.m_table.length) >>> s.m_timestamp_shift := by
    split_ifs with hc
    · rfl
    · exact not_not.mp hc
  rw [shuffle_loop]
  simp only []
  rw [mask_eq_mod hp, hb', hts']
  rfl

theorem shift_loop_step (KT : KeyTraits) (u : List Nat) (p fuel cur i : Nat)
    (hp : u.length = 2 ^ p) :
    TransactionalRobinHoodSet.shift_loop KT (fuel + 1) u cur i =
      if u.getD (cur % u.length) 0 = KT.NullKey ∨
          distance_from_slot u.length (KT.hash (u.getD (cur % u.length) 0) &&& (u.length - 1))
            (cur % u.length) = 0 then
        some (u.set (i % u.length) KT.NullKey)
      else TransactionalRobinHoodSet.shift_loop KT fuel
        (u.set (i % u.length) (u.getD (cur % u.length) 0)) (cur % u.length + 1)
        (i % u.length + 1) := by
  rw [TransactionalRobinHoodSet.shift_loop]
  try simp only []
  rw [mask_eq_mod hp cur, mask_eq_mod hp i]

/-- The shuffle-back loop builds a descriptor whose stores leave the table that the
backward shift of the transactional `remove` leaves. -/
theorem shuffle_simulates (KT : KeyTraits) (s : State) (p : Nat)
    (hp : s.m_table.length = 2 ^ p) (hsize : s.m_table.length < 2 ^ 64) :
    ∀ (fuel r cur i dest dk : Nat) (inced : Bool) (dts dtsb : Nat) (desc : List Entry),
      r < fuel → r + 1 < s.m_table.length → dest < s.m_table.length →
      i % s.m_table.length = dest → cur % s.m_table.length = (dest + 1) % s.m_table.length →
      s.m_table.getD ((dest + 1 + r) % s.m_table.length) 0 = KT.NullKey →
      s.m_table.getD dest 0 = dk →
      Expected s desc →
      (∀ e ∈ desc, ∀ w, e.loc = Loc.table w →
        ∀ m' ≤ r + 1, (dest + m') % s.m_table.length ≠ w) →
      (dtsb = 2 ^ 64 - 1 ∨ dts = s.m_timestamps.getD dtsb 0) →
      ∃ desc', shuffle_loop KT s fuel cur inced dest dk dts dtsb desc = some desc' ∧
        Expected s desc' ∧
        TransactionalRobinHoodSet.shift_loop KT fuel (commit s desc).m_table cur i =
          some (commit s desc').m_table := by
  have hN := size_pos_of_pow hp
  intro fuel
  induction fuel with
  | zero => intro r cur i dest dk inced dts dtsb desc h; omega
  | succ fuel ih =>
    intro r cur i dest dk inced dts dtsb desc hrf hrN hdest hi hcur hnull hdk hexp hwr hts
    have hlenu : (commit s desc).m_table.length = s.m_table.length := (commit_lengths desc s).1
    have hc : (dest + 1) % s.m_table.length < s.m_table.length := Nat.mod_lt _ hN
    have hucur : (commit s desc).m_table.getD ((dest + 1) % s.m_table.length) 0 =
        s.m_table.getD ((dest + 1) % s.m_table.length) 0 :=
      commit_table_kept desc _ s (fun e he hl => hwr e he _ hl 1 (by omega) rfl)
    obtain ⟨inced', hK⟩ := shuffle_loop_step KT s p hp hsize fuel cur inced dest dk dts dtsb
      desc hts
    have hT := shift_loop_step KT (commit s desc).m_table p fuel cur i (by rw [hlenu]; exact hp)
    rw [hlenu, hi, hcur, hucur] at hT
    rw [hcur] at hK
    rw [hK, hT]
    obtain ⟨hfin1, hfin2⟩ := bump_and_finish s desc inced' dest dk KT.NullKey
      (((dest + 1) % s.m_table.length) >>> s.m_timestamp_shift) hexp hdk
    by_cases h1 : s.m_table.getD ((dest + 1) % s.m_table.length) 0 = KT.NullKey
    · rw [if_pos h1, if_pos (Or.inl h1)]
      exact ⟨_, rfl, hfin1, by rw [hfin2]⟩
    · rw [if_neg h1]
      by_cases h2 : distance_from_slot s.m_table.length
          (KT.hash (s.m_table.getD ((dest + 1) % s.m_table.length) 0) &&&
            (s.m_table.length - 1)) ((dest + 1) % s.m_table.length) = 0
      · rw [if_pos h2, if_pos (Or.inr h2)]
        exact ⟨_, rfl, hfin1, by rw [hfin2]⟩
      · rw [if_neg h2, if_neg (not_or.mpr ⟨h1, h2⟩)]
        have hr0 : 0 < r := by
          rcases Nat.eq_zero_or_pos r with h0 | h0
          · rw [h0, Nat.add_zero] at hnull
            exact absurd hnull h1
          · exact h0
        obtain ⟨hexp', htab', hwr'⟩ := store_and_bump s desc inced' dest dk
          (s.m_table.getD ((dest + 1) % s.m_table.length) 0)
          (((dest + 1) % s.m_table.length) >>> s.m_timestamp_shift) hexp hdk
        have hnext : ∀ m', ((dest + 1) % s.m_table.length + m') % s.m_table.length =
            (dest + (m' + 1)) % s.m_table.length := by
          intro m'
          rw [Nat.mod_add_mod]
          congr 1
          omega
        obtain ⟨desc', h5, h6, h7⟩ := ih (r - 1) ((dest + 1) % s.m_table.length + 1) (dest + 1)
          ((dest + 1) % s.m_table.length)
          (s.m_table.getD ((dest + 1) % s.m_table.length) 0) true
          (s.m_timestamps.getD (((dest + 1) % s.m_table.length) >>> s.m_timestamp_shift) 0)
          (((dest + 1) % s.m_table.length) >>> s.m_timestamp_shift) _
          (by omega) (by omega) hc rfl rfl
          (by
            rw [Nat.add_assoc, hnext, show 1 + (r - 1) + 1 = 1 + r by omega, ← Nat.add_assoc]
            exact hnull)
          rfl hexp'
          (fun e he w hw m' hm' => by
            rw [hnext]
            rcases hwr' e he w hw with h | ⟨x, hx, hxl⟩
            · rw [h]
              exact add_mod_ne hdest (by omega) (by omega)
            · exact hwr x hx w hxl (m' + 1) (by omega))
          (Or.inr rfl)
        rw [htab'] at h7
        exact ⟨desc', h5, h6, h7⟩

theorem remove_loop_mask (KT : KeyTraits) (t : List Nat) (key sf fuel i c : Nat) :
    TransactionalRobinHoodSet.remove_loop KT sf t key fuel (i &&& (t.length - 1)) c =
      TransactionalRobinHoodSet.remove_loop KT sf t key fuel i c := by
  cases fuel with
  | zero => rfl
  | succ f =>
    unfold TransactionalRobinHoodSet.remove_loop
    simp only [Nat.and_assoc, Nat.and_self]

/-- The probe of `remove` ends as the probe of the transactional `remove` does, and when it
meets the key the stores of its descriptor leave the table that the transactional `remove`
leaves. -/
theorem remove_probe_simulates (KT : KeyTraits) (s : State) (key p sf : Nat)
    (hp : s.m_table.length = 2 ^ p) (hsize : s.m_table.length < 2 ^ 64)
    (hempty : HasEmptySlot KT s.m_table) (hsf : s.m_table.length ≤ sf) :
    ∀ (fuel i c last : Nat) (ts : List Nat), c ≤ s.m_table.length →
      s.m_table.length + 1 ≤ fuel + c →
      ∃ res ts' b u', remove_probe KT s key sf fuel i c last ts = some (res, ts') ∧
        TransactionalRobinHoodSet.remove_loop KT sf s.m_table key fuel i c = some (b, u') ∧
        ((res = none ∧ b = false ∧ u' = s.m_table) ∨
          (∃ desc, res = some desc ∧ Expected s desc ∧ b = true ∧
            (commit s desc).m_table = u')) := by
  have hN := size_pos_of_pow hp
  intro fuel
  induction fuel with
  | zero => intro i c last ts h1 h2; omega
  | succ fuel ih =>
    intro i c last ts hc hf
    rw [remove_probe, TransactionalRobinHoodSet.remove_loop]
    simp only [read_value]
    rw [mask_eq_mod hp]
    have hb : i % s.m_table.length < s.m_table.length := Nat.mod_lt _ hN
    generalize (if (i % s.m_table.length) >>> s.m_timestamp_shift ≠ last then
      ts ++ [s.m_timestamps.getD ((i % s.m_table.length) >>> s.m_timestamp_shift) 0]
      else ts) = ts1
    generalize (if (i % s.m_table.length) >>> s.m_timestamp_shift ≠ last then
      (i % s.m_table.length) >>> s.m_timestamp_shift else last) = last1
    by_cases h1 : s.m_table.getD (i % s.m_table.length) 0 = KT.NullKey
    · rw [if_pos h1, if_pos h1]
      exact ⟨none, ts1, false, s.m_table, rfl, rfl, Or.inl ⟨rfl, rfl, rfl⟩⟩
    · rw [if_neg h1, if_neg h1]
      by_cases h2 : s.m_table.getD (i % s.m_table.length) 0 = key
      · rw [if_pos h2, if_pos h2.symm]
        obtain ⟨e, he, henull⟩ := hempty
        have hes : e ≠ i % s.m_table.length := by
          intro h
          rw [h] at henull
          exact h1 henull
        have hoff_lt := distance_lt hN (i % s.m_table.length) e
        have hoff_pos : 1 ≤ distance_from_slot s.m_table.length (i % s.m_table.length) e := by
          rcases distance_cases hb he with ⟨_, h⟩ | ⟨_, h⟩ <;> omega
        have hslot_e : (i % s.m_table.length + 1 +
            (distance_from_slot s.m_table.length (i % s.m_table.length) e - 1)) %
              s.m_table.length = e := by
          have : i % s.m_table.length + 1 +
              (distance_from_slot s.m_table.length (i % s.m_table.length) e - 1) =
              i % s.m_table.length +
                distance_from_slot s.m_table.length (i % s.m_table.length) e := by omega
          rw [this]
          exact add_distance hb he
        obtain ⟨desc', h5, h6, h7⟩ := shuffle_simulates KT s p hp hsize sf
          (distance_from_slot s.m_table.length (i % s.m_table.length) e - 1)
          (i % s.m_table.length + 1) (i % s.m_table.length) (i % s.m_table.length)
          (s.m_table.getD (i % s.m_table.length) 0) false
          (ts1.getD (ts1.length - 1) 0) (2 ^ 64 - 1) []
          (by omega) (by omega) hb (Nat.mod_mod _ _) rfl
          (by rw [hslot_e]; exact henull) rfl
          (fun x hx => absurd hx (List.not_mem_nil x))
          (fun x hx => absurd hx (List.not_mem_nil x)) (Or.inl rfl)
        have h7' : TransactionalRobinHoodSet.shift_loop KT sf s.m_table
            (i % s.m_table.length + 1) (i % s.m_table.length) = some (commit s desc').m_table :=
          h7
        rw [h5, h7']
        exact ⟨some desc', ts1, true, _, rfl, rfl, Or.inr ⟨desc', rfl, h6, rfl, rfl⟩⟩
      · rw [if_neg h2, if_neg (show ¬ key = s.m_table.getD (i % s.m_table.length) 0 from
          fun h => h2 h.symm)]
        by_cases h3 : distance_from_slot s.m_table.length
            (KT.hash (s.m_table.getD (i % s.m_table.length) 0) &&& (s.m_table.length - 1))
            (i % s.m_table.length) < c
        · rw [if_pos h3, if_pos h3]
          exact ⟨none, ts1, false, s.m_table, rfl, rfl, Or.inl ⟨rfl, rfl, rfl⟩⟩
        · rw [if_neg h3, if_neg h3]
          have hdist := distance_lt hN
            (KT.hash (s.m_table.getD (i % s.m_table.length) 0) &&& (s.m_table.length - 1))
            (i % s.m_table.length)
          exact ih _ _ _ _ (by omega) (by omega)

/-- The two `remove` return the same boolean and leave the same slots. -/
theorem remove_agrees (KT : KeyTraits) (s : State) (k p fuel : Nat)
    (hp : s.m_table.length = 2 ^ p) (hsize : s.m_table.length < 2 ^ 64)
    (hempty : HasEmptySlot KT s.m_table) (hf : s.m_table.length + 2 ≤ fuel) :
    ∃ b s', remove KT (fuel + 1) s k = some (b, s') ∧
      TransactionalRobinHoodSet.remove KT fuel s.m_table k = some (b, s'.m_table) := by
  obtain ⟨res, ts', b, u', hK, hT, hcase⟩ := remove_probe_simulates KT s k p fuel hp hsize hempty
    (by omega) fuel (KT.hash k &&& (s.m_table.length - 1)) 0 (2 ^ 64 - 1) [] (Nat.zero_le _)
    (by omega)
  rw [remove_loop_mask] at hT
  rcases hcase with ⟨h1, h2, h3⟩ | ⟨desc, h1, h2, h3, h4⟩
  · subst h1 h2 h3
    refine ⟨false, s, ?_, hT⟩
    obtain ⟨n, hn, hts⟩ := remove_probe_reads KT s k fuel p hp fuel _ 0 _ [] none ts'
      (Nat.zero_le _) hK
    have hcc := counter_check_passes s n fuel (KT.hash k &&& (s.m_table.length - 1))
      (2 ^ 64 - 1) [] (by omega)
    rw [← hts, List.length_nil] at hcc
    unfold remove
    simp only []
    rw [hK]
    simp only []
    rw [hcc]
  · subst h1 h3
    refine ⟨true, commit s desc, ?_, by rw [h4]; exact hT⟩
    unfold remove
    simp only []
    rw [hK]
    simp only []
    rw [cas_of_expected s desc h2]

end Unbounded
end RHSetKCAS
end concurrent_data_structures

namespace concurrent_data_structures
namespace RHSetKCAS

/-! ### K-CAS Robin-Hood set: the capacity of the descriptor -/

theorem swap_entries_eq (desc : List Entry) (inced : Bool) (l1 : Loc) (x1 d1 : Nat)
    (l2 : Loc) (x2 d2 : Nat) :
    (add_value desc l1 x1 d1).bind
        (fun x => if inced = true then some x else add_value x l2 x2 d2) =
      if (if inced = true then desc ++ [Entry.mk l1 x1 d1]
          else desc ++ [Entry.mk l1 x1 d1] ++ [Entry.mk l2 x2 d2]).length ≤ S_MAX_KCAS then
        some (if inced = true then desc ++ [Entry.mk l1 x1 d1]
          else desc ++ [Entry.mk l1 x1 d1] ++ [Entry.mk l2 x2 d2])
      else none := by
  cases inced
  · by_cases h1 : desc.length < 3000
    · by_cases h2 : desc.length + 1 < 3000
      · have h3 : desc.length + 1 + 1 ≤ 3000 := by omega
        simp [add_value, S_MAX_KCAS, h1, h2, h3]
      · have h3 : ¬ desc.length + 1 + 1 ≤ 3000 := by omega
        simp [add_value, S_MAX_KCAS, h1, h2, h3]
    · have h3 : ¬ desc.length + 1 + 1 ≤ 3000 := by omega
      simp [add_value, S_MAX_KCAS, h1, h3]
  · by_cases h1 : desc.length < 3000
    · have h3 : desc.length + 1 ≤ 3000 := by omega
      simp [add_value, S_MAX_KCAS, h1, h3]
    · have h3 : ¬ desc.length + 1 ≤ 3000 := by omega
      simp [add_value, S_MAX_KCAS, h1, h3]

theorem finish_entries_eq (desc : List Entry) (inced : Bool) (l1 : Loc) (x1 d1 : Nat)
    (l2 : Loc) (x2 d2 : Nat) :
    (if inced = true then some desc else add_value desc l1 x1 d1).bind
        (fun x => add_value x l2 x2 d2) =
      if ((if inced = true then desc else desc ++ [Entry.mk l1 x1 d1]) ++
          [Entry.mk l2 x2 d2]).length ≤ S_MAX_KCAS then
        some ((if inced = true then desc else desc ++ [Entry.mk l1 x1 d1]) ++
          [Entry.mk l2 x2 d2])
      else none := by
  cases inced
  · by_cases h1 : desc.length < 3000
    · by_cases h2 : desc.length + 1 < 3000
      · have h3 : desc.length + 1 + 1 ≤ 3000 := by omega
        simp [add_value, S_MAX_KCAS, h1, h2, h3]
      · have h3 : ¬ desc.length + 1 + 1 ≤ 3000 := by omega
        simp [add_value, S_MAX_KCAS, h1, h2, h3]
    · have h3 : ¬ desc.length + 1 + 1 ≤ 3000 := by omega
      simp [add_value, S_MAX_KCAS, h1, h3]
  · by_cases h1 : desc.length < 3000
    · have h3 : desc.length + 1 ≤ 3000 := by omega
      simp [add_value, S_MAX_KCAS, h1, h3]
    · have h3 : ¬ desc.length + 1 ≤ 3000 := by omega
      simp [add_value, S_MAX_KCAS, h1, h3]

/-! ### K-CAS Robin-Hood set: the traversal of `contains` within the local array -/

theorem Unbounded.contains_probe_length_le (KT : KeyTraits) (s : State) (key : Nat) :
    ∀ (fuel i d last : Nat) (ts : List Nat) (r : Bool × List Nat),
      Unbounded.contains_probe KT s key fuel i d last ts = some r → ts.length ≤ r.2.length := by
  intro fuel
  induction fuel with
  | zero =>
    intro i d last ts r h
    simp [Unbounded.contains_probe] at h
  | succ fuel ih =>
    intro i d last ts r h
    unfold Unbounded.contains_probe at h
    simp only [] at h
    split_ifs at h <;> first
      | (cases h; simp)
      | exact le_trans (by simp) (ih _ _ _ _ _ h)

/-- A traversal of `contains` whose snapshots fit into the local array ends with its
result. -/
theorem contains_probe_within (KT : KeyTraits) (s : State) (key : Nat) :
    ∀ (fuel i d last : Nat) (ts : List Nat) (r : Bool × List Nat),
      Unbounded.contains_probe KT s key fuel i d last ts = some r →
      r.2.length ≤ S_MAX_TIMESTAMPS →
      contains_probe KT s key fuel i d last ts = some (Run.done r) := by
  intro fuel
  induction fuel with
  | zero =>
    intro i d last ts r h
    simp [Unbounded.contains_probe] at h
  | succ fuel ih =>
    intro i d last ts r h hr
    unfold Unbounded.contains_probe at h
    unfold contains_probe
    simp only [] at h ⊢
    split_ifs at h ⊢ <;> first
      | exact ih _ _ _ _ _ h hr
      | (cases h; rfl)
      | (exfalso
         have hm := Unbounded.contains_probe_length_le KT s key _ _ _ _ _ _ h
         simp only [List.length_append, List.length_singleton] at hm
         omega)
      | (exfalso
         cases h
         simp only [List.length_append, List.length_singleton] at hr
         omega)

/-- A traversal of `contains` with more snapshots than the local array has entries ends
with a store behind the array. -/
theorem contains_probe_beyond (KT : KeyTraits) (s : State) (key : Nat) :
    ∀ (fuel i d last : Nat) (ts : List Nat) (r : Bool × List Nat),
      Unbounded.contains_probe KT s key fuel i d last ts = some r →
      ts.length ≤ S_MAX_TIMESTAMPS → S_MAX_TIMESTAMPS < r.2.length →
      contains_probe KT s key fuel i d last ts = some Run.out_of_bounds := by
  intro fuel
  induction fuel with
  | zero =>
    intro i d last ts r h
    simp [Unbounded.contains_probe] at h
  | succ fuel ih =>
    intro i d last ts r h hl hr
    unfold Unbounded.contains_probe at h
    unfold contains_probe
    simp only [] at h ⊢
    split_ifs at h ⊢ <;> first
      | rfl
      | (refine ih _ _ _ _ _ h ?_ hr
         simp only [List.length_append, List.length_singleton]
         omega)
      | exact ih _ _ _ _ _ h hl hr
      | (exfalso
         cases h
         simp only [List.length_append, List.length_singleton] at hr
         omega)

/-- A traversal of `contains` that ends with a result is the traversal with room for every
snapshot. -/
theorem contains_probe_done (KT : KeyTraits) (s : State) (key : Nat) :
    ∀ (fuel i d last : Nat) (ts : List Nat) (r : Bool × List Nat),
      contains_probe KT s key fuel i d last ts = some (Run.done r) →
      Unbounded.contains_probe KT s key fuel i d last ts = some r := by
  intro fuel
  induction fuel with
  | zero =>
    intro i d last ts r h
    simp [contains_probe] at h
  | succ fuel ih =>
    intro i d last ts r h
    unfold contains_probe at h
    unfold Unbounded.contains_probe
    simp only [] at h ⊢
    split_ifs at h ⊢ <;> first
      | exact ih _ _ _ _ _ h
      | (cases h; rfl)
      | cases h

theorem contains_probe_mono (KT : KeyTraits) (s : State) (key : Nat) :
    ∀ (fuel fuel' i d last : Nat) (ts : List Nat) (r : Run (Bool × List Nat)),
      contains_probe KT s key fuel i d last ts = some r → fuel ≤ fuel' →
      contains_probe KT s key fuel' i d last ts = some r := by
  intro fuel
  induction fuel with
  | zero =>
    intro fuel' i d last ts r h
    simp [contains_probe] at h
  | succ fuel ih =>
    intro fuel' i d last ts r h hle
    obtain ⟨g, rfl⟩ : ∃ g, fuel' = g + 1 := ⟨fuel' - 1, by omega⟩
    unfold contains_probe at h ⊢
    simp only [] at h ⊢
    split_ifs at h ⊢ <;> first
      | exact h
      | exact ih _ _ _ _ _ _ h (by omega)

theorem contains_probe_in_bounds (KT : KeyTraits) (s : State) (key : Nat) :
    ∀ (fuel i d last : Nat) (ts : List Nat),
      ts.length + fuel ≤ S_MAX_TIMESTAMPS →
      contains_probe KT s key fuel i d last ts ≠ some Run.out_of_bounds := by
  intro fuel
  induction fuel with
  | zero =>
    intro i d last ts _ h
    simp [contains_probe] at h
  | succ fuel ih =>
    intro i d last ts hl h
    unfold contains_probe at h
    simp only [] at h
    split_ifs at h <;> first
      | omega
      | cases h
      | (refine ih _ _ _ _ ?_ h
         simp only [List.length_append, List.length_singleton]
         omega)
      | exact ih _ _ _ _ (by omega) h

theorem contains_probe_not_full (KT : KeyTraits) (s : State) (key : Nat) :
    ∀ (fuel i d last : Nat) (ts : List Nat),
      contains_probe KT s key fuel i d last ts ≠ some Run.descriptor_full := by
  intro fuel
  induction fuel with
  | zero =>
    intro i d last ts h
    simp [contains_probe] at h
  | succ fuel ih =>
    intro i d last ts h
    unfold contains_probe at h
    simp only [] at h
    split_ifs at h <;> first
      | cases h
      | exact ih _ _ _ _ h

theorem counter_check_mono (s : State) (ts : List Nat) :
    ∀ (fuel fuel' i c last : Nat) (r : Bool),
      counter_check s ts fuel i c last = some r → fuel ≤ fuel' →
      counter_check s ts fuel' i c last = some r := by
  intro fuel
  induction fuel with
  | zero =>
    intro fuel' i c last r h
    simp [counter_check] at h
  | succ fuel ih =>
    intro fuel' i c last r h hle
    obtain ⟨g, rfl⟩ : ∃ g, fuel' = g + 1 := ⟨fuel' - 1, by omega⟩
    unfold counter_check at h ⊢
    simp only [] at h ⊢
    split_ifs at h ⊢ <;> first
      | exact h
      | exact ih _ _ _ _ _ h (by omega)

/-- A call of `contains` that ends with a result is the call with room for every
snapshot. -/
theorem contains_done (KT : KeyTraits) (s : State) (key : Nat) :
    ∀ (fuel : Nat) (b : Bool), contains KT fuel s key = some (Run.done b) →
      Unbounded.contains KT fuel s key = some b := by
  intro fuel
  induction fuel with
  | zero =>
    intro b h
    simp [contains] at h
  | succ fuel ih =>
    intro b h
    unfold contains at h
    unfold Unbounded.contains
    simp only [] at h ⊢
    cases hp : contains_probe KT s key fuel (KT.hash key &&& (s.m_table.length - 1)) 0
        (2 ^ 64 - 1) [] with
    | none =>
      rw [hp] at h
      cases h
    | some r =>
      rw [hp] at h
      cases r with
      | out_of_bounds => cases h
      | descriptor_full => cases h
      | done x =>
        obtain ⟨bb, ts⟩ := x
        rw [contains_probe_done KT s key _ _ _ _ _ _ hp]
        cases bb with
        | true => exact (by cases h; rfl)
        | false =>
          simp only [] at h ⊢
          cases hc : counter_check s ts fuel (KT.hash key &&& (s.m_table.length - 1)) 0
              (2 ^ 64 - 1) with
          | none =>
            rw [hc] at h
            cases h
          | some c =>
            rw [hc] at h
            cases c with
            | true => exact (by cases h; rfl)
            | false => exact ih b h

/-- A call of `contains` ends with the result of the call with room for every snapshot, or
with a store behind the local array. -/
theorem contains_of_unbounded (KT : KeyTraits) (s : State) (key : Nat) :
    ∀ (fuel : Nat) (b : Bool), Unbounded.contains KT fuel s key = some b →
      contains KT fuel s key = some (Run.done b) ∨
      contains KT fuel s key = some Run.out_of_bounds := by
  intro fuel
  induction fuel with
  | zero =>
    intro b h
    simp [Unbounded.contains] at h
  | succ fuel ih =>
    intro b h
    unfold Unbounded.contains at h
    unfold contains
    simp only [] at h ⊢
    cases hp : Unbounded.contains_probe KT s key fuel (KT.hash key &&& (s.m_table.length - 1)) 0
        (2 ^ 64 - 1) [] with
    | none =>
      rw [hp] at h
      cases h
    | some x =>
      rw [hp] at h
      by_cases hl : x.2.length ≤ S_MAX_TIMESTAMPS
      · rw [contains_probe_within KT s key _ _ _ _ _ _ hp hl]
        obtain ⟨bb, ts⟩ := x
        cases bb with
        | true => exact Or.inl (by cases h; rfl)
        | false =>
          simp only [] at h ⊢
          cases hc : counter_check s ts fuel (KT.hash key &&& (s.m_table.length - 1)) 0
              (2 ^ 64 - 1) with
          | none =>
            rw [hc] at h
            cases h
          | some c =>
            rw [hc] at h
            cases c with
            | true => exact Or.inl (by cases h; rfl)
            | false => exact ih b h
      · rw [contains_probe_beyond KT s key _ _ _ _ _ _ hp (Nat.zero_le _) (by omega)]
        exact Or.inr rfl

theorem contains_mono (KT : KeyTraits) (s : State) (key : Nat) :
    ∀ (fuel fuel' : Nat) (r : Run Bool), contains KT fuel s key = some r → fuel ≤ fuel' →
      contains KT fuel' s key = some r := by
  intro fuel
  induction fuel with
  | zero =>
    intro fuel' r h
    simp [contains] at h
  | succ fuel ih =>
    intro fuel' r h hle
    obtain ⟨g, rfl⟩ : ∃ g, fuel' = g + 1 := ⟨fuel' - 1, by omega⟩
    unfold contains at h ⊢
    simp only [] at h ⊢
    cases hp : contains_probe KT s key fuel (KT.hash key &&& (s.m_table.length - 1)) 0
        (2 ^ 64 - 1) [] with
    | none =>
      rw [hp] at h
      cases h
    | some x =>
      rw [hp] at h
      rw [contains_probe_mono KT s key _ g _ _ _ _ _ hp (by omega)]
      cases x with
      | out_of_bounds => exact h
      | descriptor_full => exact h
      | done y =>
        obtain ⟨bb, ts⟩ := y
        cases bb with
        | true => exact h
        | false =>
          simp only [] at h ⊢
          cases hc : counter_check s ts fuel (KT.hash key &&& (s.m_table.length - 1)) 0
              (2 ^ 64 - 1) with
          | none =>
            rw [hc] at h
            cases h
          | some c =>
            rw [hc] at h
            rw [counter_check_mono s ts _ g _ _ _ _ hc (by omega)]
            cases c with
            | true => exact h
            | false => exact ih g r h (by omega)

theorem contains_in_bounds (KT : KeyTraits) (s : State) (key : Nat) :
    ∀ fuel, fuel ≤ S_MAX_TIMESTAMPS + 1 → contains KT fuel s key ≠ some Run.out_of_bounds := by
  intro fuel
  induction fuel with
  | zero =>
    intro _ h
    simp [contains] at h
  | succ fuel ih =>
    intro hl h
    unfold contains at h
    simp only [] at h
    cases hp : contains_probe KT s key fuel (KT.hash key &&& (s.m_table.length - 1)) 0
        (2 ^ 64 - 1) [] with
    | none =>
      rw [hp] at h
      cases h
    | some x =>
      rw [hp] at h
      cases x with
      | out_of_bounds =>
        exact contains_probe_in_bounds KT s key fuel _ _ _ []
          (by simp only [List.length_nil]; omega) hp
      | descriptor_full => cases h
      | done y =>
        obtain ⟨bb, ts⟩ := y
        cases bb with
        | true => cases h
        | false =>
          simp only [] at h
          cases hc : counter_check s ts fuel (KT.hash key &&& (s.m_table.length - 1)) 0
              (2 ^ 64 - 1) with
          | none =>
            rw [hc] at h
            cases h
          | some c =>
            rw [hc] at h
            cases c with
            | true => cases h
            | false => exact ih (by omega) h

end RHSetKCAS
end concurrent_data_structures

namespace concurrent_data_structures
namespace RHSetKCAS

/-! ### K-CAS Robin-Hood set: the probe of `add` within the descriptor -/

/-- A probe of `add` that ends with a result is the probe with room for every entry. -/
theorem add_probe_done (KT : KeyTraits) (s : State) (key : Nat) :
    ∀ (fuel i ad a last : Nat) (inced : Bool) (ats : Nat) (desc : List Entry) (r : Attempt),
      add_probe KT s key fuel i ad a last inced ats desc = some (Run.done r) →
      Unbounded.add_probe KT s key fuel i ad a last inced ats desc = some r := by
  intro fuel
  induction fuel with
  | zero =>
    intro i ad a last inced ats desc r h
    simp [add_probe] at h
  | succ fuel ih =>
    intro i ad a last inced ats desc r h
    rw [add_probe] at h
    rw [Unbounded.add_probe]
    simp only [swap_entries_eq] at h ⊢
    generalize i &&& (s.m_table.length - 1) = cb at h ⊢
    generalize (if cb >>> s.m_timestamp_shift ≠ last then false else inced) = inced' at h ⊢
    generalize (if cb >>> s.m_timestamp_shift ≠ last then cb >>> s.m_timestamp_shift
      else last) = last' at h ⊢
    generalize (if cb >>> s.m_timestamp_shift ≠ last then
      read_value s (Loc.timestamp (cb >>> s.m_timestamp_shift)) else ats) = ats' at h ⊢
    generalize read_value s (Loc.table cb) = ck at h ⊢
    generalize (if inced' = true then desc ++ [Entry.mk (Loc.table cb) ck a]
      else desc ++ [Entry.mk (Loc.table cb) ck a] ++
        [Entry.mk (Loc.timestamp last') ats' ((ats' + 1) % 2 ^ 64)]) = X at h ⊢
    by_cases hX : X.length ≤ S_MAX_KCAS
    · simp only [hX, if_true, Run.ofDescriptor, Run.map] at h
      split_ifs at h ⊢ <;> first
        | exact ih _ _ _ _ _ _ _ _ h
        | (cases h; rfl)
    · simp only [hX, if_false, Run.ofDescriptor, Run.map] at h
      split_ifs at h ⊢ <;> first
        | exact ih _ _ _ _ _ _ _ _ h
        | (cases h; rfl)
        | cases h

/-- A probe of `add` ends with the result of the probe with room for every entry, or at a
full descriptor. -/
theorem add_probe_of_unbounded (KT : KeyTraits) (s : State) (key : Nat) :
    ∀ (fuel i ad a last : Nat) (inced : Bool) (ats : Nat) (desc : List Entry) (r : Attempt),
      Unbounded.add_probe KT s key fuel i ad a last inced ats desc = some r →
      add_probe KT s key fuel i ad a last inced ats desc = some (Run.done r) ∨
      add_probe KT s key fuel i ad a last inced ats desc = some Run.descriptor_full := by
  intro fuel
  induction fuel with
  | zero =>
    intro i ad a last inced ats desc r h
    simp [Unbounded.add_probe] at h
  | succ fuel ih =>
    intro i ad a last inced ats desc r h
    rw [Unbounded.add_probe] at h
    rw [add_probe]
    simp only [swap_entries_eq] at h ⊢
    generalize i &&& (s.m_table.length - 1) = cb at h ⊢
    generalize (if cb >>> s.m_timestamp_shift ≠ last then false else inced) = inced' at h ⊢
    generalize (if cb >>> s.m_timestamp_shift ≠ last then cb >>> s.m_timestamp_shift
      else last) = last' at h ⊢
    generalize (if cb >>> s.m_timestamp_shift ≠ last then
      read_value s (Loc.timestamp (cb >>> s.m_timestamp_shift)) else ats) = ats' at h ⊢
    generalize read_value s (Loc.table cb) = ck at h ⊢
    generalize (if inced' = true then desc ++ [Entry.mk (Loc.table cb) ck a]
      else desc ++ [Entry.mk (Loc.table cb) ck a] ++
        [Entry.mk (Loc.timestamp last') ats' ((ats' + 1) % 2 ^ 64)]) = X at h ⊢
    by_cases hX : X.length ≤ S_MAX_KCAS
    · simp only [hX, if_true, Run.ofDescriptor, Run.map]
      split_ifs at h ⊢ <;> first
        | exact ih _ _ _ _ _ _ _ _ h
        | (cases h; exact Or.inl rfl)
    · simp only [hX, if_false, Run.ofDescriptor, Run.map]
      split_ifs at h ⊢ <;> first
        | exact ih _ _ _ _ _ _ _ _ h
        | (cases h; exact Or.inl rfl)
        | exact Or.inr rfl

/-- A probe of `add` that can make no more steps than the descriptor has room for two
entries each does not end at a full descriptor. -/
theorem add_probe_has_room (KT : KeyTraits) (s : State) (key : Nat) :
    ∀ (fuel i ad a last : Nat) (inced : Bool) (ats : Nat) (desc : List Entry),
      desc.length + 2 * fuel ≤ S_MAX_KCAS →
      add_probe KT s key fuel i ad a last inced ats desc ≠ some Run.descriptor_full := by
  intro fuel
  induction fuel with
  | zero =>
    intro i ad a last inced ats desc _ h
    simp [add_probe] at h
  | succ fuel ih =>
    intro i ad a last inced ats desc hl h
    rw [add_probe] at h
    simp only [swap_entries_eq] at h
    generalize i &&& (s.m_table.length - 1) = cb at h
    generalize (if cb >>> s.m_timestamp_shift ≠ last then false else inced) = inced' at h
    generalize (if cb >>> s.m_timestamp_shift ≠ last then cb >>> s.m_timestamp_shift
      else last) = last' at h
    generalize (if cb >>> s.m_timestamp_shift ≠ last then
      read_value s (Loc.timestamp (cb >>> s.m_timestamp_shift)) else ats) = ats' at h
    generalize read_value s (Loc.table cb) = ck at h
    have hXl : (if inced' = true then desc ++ [Entry.mk (Loc.table cb) ck a]
        else desc ++ [Entry.mk (Loc.table cb) ck a] ++
          [Entry.mk (Loc.timestamp last') ats' ((ats' + 1) % 2 ^ 64)]).length ≤
        desc.length + 2 := by
      split_ifs <;> simp
    generalize (if inced' = true then desc ++ [Entry.mk (Loc.table cb) ck a]
      else desc ++ [Entry.mk (Loc.table cb) ck a] ++
        [Entry.mk (Loc.timestamp last') ats' ((ats' + 1) % 2 ^ 64)]) = X at h hXl
    have hX : X.length ≤ S_MAX_KCAS := by omega
    simp only [hX, if_true, Run.ofDescriptor, Run.map] at h
    split_ifs at h <;> first
      | cases h
      | exact ih _ _ _ _ _ _ _ (by omega) h

theorem add_probe_in_bounds (KT : KeyTraits) (s : State) (key : Nat) :
    ∀ (fuel i ad a last : Nat) (inced : Bool) (ats : Nat) (desc : List Entry),
      add_probe KT s key fuel i ad a last inced ats desc ≠ some Run.out_of_bounds := by
  intro fuel
  induction fuel with
  | zero =>
    intro i ad a last inced ats desc h
    simp [add_probe] at h
  | succ fuel ih =>
    intro i ad a last inced ats desc h
    rw [add_probe] at h
    simp only [swap_entries_eq] at h
    generalize i &&& (s.m_table.length - 1) = cb at h
    generalize (if cb >>> s.m_timestamp_shift ≠ last then false else inced) = inced' at h
    generalize (if cb >>> s.m_timestamp_shift ≠ last then cb >>> s.m_timestamp_shift
      else last) = last' at h
    generalize (if cb >>> s.m_timestamp_shift ≠ last then
      read_value s (Loc.timestamp (cb >>> s.m_timestamp_shift)) else ats) = ats' at h
    generalize read_value s (Loc.table cb) = ck at h
    generalize (if inced' = true then desc ++ [Entry.mk (Loc.table cb) ck a]
      else desc ++ [Entry.mk (Loc.table cb) ck a] ++
        [Entry.mk (Loc.timestamp last') ats' ((ats' + 1) % 2 ^ 64)]) = X at h
    by_cases hX : X.length ≤ S_MAX_KCAS
    · simp only [hX, if_true, Run.ofDescriptor, Run.map] at h
      split_ifs at h <;> first
        | cases h
        | exact ih _ _ _ _ _ _ _ h
    · simp only [hX, if_false, Run.ofDescriptor, Run.map] at h
      split_ifs at h <;> first
        | cases h
        | exact ih _ _ _ _ _ _ _ h

theorem add_probe_mono (KT : KeyTraits) (s : State) (key : Nat) :
    ∀ (fuel fuel' i ad a last : Nat) (inced : Bool) (ats : Nat) (desc : List Entry)
      (r : Run Attempt),
      add_probe KT s key fuel i ad a last inced ats desc = some r → fuel ≤ fuel' →
      add_probe KT s key fuel' i ad a last inced ats desc = some r := by
  intro fuel
  induction fuel with
  | zero =>
    intro fuel' i ad a last inced ats desc r h
    simp [add_probe] at h
  | succ fuel ih =>
    intro fuel' i ad a last inced ats desc r h hle
    obtain ⟨g, rfl⟩ : ∃ g, fuel' = g + 1 := ⟨fuel' - 1, by omega⟩
    rw [add_probe] at h ⊢
    simp only [swap_entries_eq] at h ⊢
    generalize i &&& (s.m_table.length - 1) = cb at h ⊢
    generalize (if cb >>> s.m_timestamp_shift ≠ last then false else inced) = inced' at h ⊢
    generalize (if cb >>> s.m_timestamp_shift ≠ last then cb >>> s.m_timestamp_shift
      else last) = last' at h ⊢
    generalize (if cb >>> s.m_timestamp_shift ≠ last then
      read_value s (Loc.timestamp (cb >>> s.m_timestamp_shift)) else ats) = ats' at h ⊢
    generalize read_value s (Loc.table cb) = ck at h ⊢
    generalize (if inced' = true then desc ++ [Entry.mk (Loc.table cb) ck a]
      else desc ++ [Entry.mk (Loc.table cb) ck a] ++
        [Entry.mk (Loc.timestamp last') ats' ((ats' + 1) % 2 ^ 64)]) = X at h ⊢
    by_cases hX : X.length ≤ S_MAX_KCAS
    · simp only [hX, if_true, Run.ofDescriptor, Run.map] at h ⊢
      split_ifs at h ⊢ <;> first
        | exact h
        | exact ih _ _ _ _ _ _ _ _ _ h (by omega)
    · simp only [hX, if_false, Run.ofDescriptor, Run.map] at h ⊢
      split_ifs at h ⊢ <;> first
        | exact h
        | exact ih _ _ _ _ _ _ _ _ _ h (by omega)

/-- A call of `add` that ends with a result is the call with room for every entry. -/
theorem add_done (KT : KeyTraits) (s : State) (key : Nat) :
    ∀ (fuel : Nat) (r : Bool × State), add KT fuel s key = some (Run.done r) →
      Unbounded.add KT fuel s key = some r := by
  intro fuel
  induction fuel with
  | zero =>
    intro r h
    simp [add] at h
  | succ fuel ih =>
    intro r h
    unfold add at h
    unfold Unbounded.add
    simp only [] at h ⊢
    cases hp : add_probe KT s key fuel (KT.hash key &&& (s.m_table.length - 1)) 0 key
        (2 ^ 64 - 1) false (2 ^ 64 - 1) [] with
    | none =>
      rw [hp] at h
      cases h
    | some x =>
      rw [hp] at h
      cases x with
      | out_of_bounds => cases h
      | descriptor_full => cases h
      | done a =>
        rw [add_probe_done KT s key _ _ _ _ _ _ _ _ _ hp]
        cases a with
        | returned b => exact (by cases h; rfl)
        | retry => exact ih r h
        | commit desc =>
          simp only [] at h ⊢
          cases hc : cas s desc with
          | mk b s' =>
            rw [hc] at h
            cases b with
            | true => exact (by cases h; rfl)
            | false => exact ih r h

/-- A call of `add` ends with the result of the call with room for every entry, or at a
full descriptor. -/
theorem add_of_unbounded (KT : KeyTraits) (s : State) (key : Nat) :
    ∀ (fuel : Nat) (r : Bool × State), Unbounded.add KT fuel s key = some r →
      add KT fuel s key = some (Run.done r) ∨ add KT fuel s key = some Run.descriptor_full := by
  intro fuel
  induction fuel with
  | zero =>
    intro r h
    simp [Unbounded.add] at h
  | succ fuel ih =>
    intro r h
    unfold Unbounded.add at h
    unfold add
    simp only [] at h ⊢
    cases hp : Unbounded.add_probe KT s key fuel (KT.hash key &&& (s.m_table.length - 1)) 0 key
        (2 ^ 64 - 1) false (2 ^ 64 - 1) [] with
    | none =>
      rw [hp] at h
      cases h
    | some a =>
      rw [hp] at h
      rcases add_probe_of_unbounded KT s key _ _ _ _ _ _ _ _ _ hp with hb | hb
      · rw [hb]
        cases a with
        | returned b => exact Or.inl (by cases h; rfl)
        | retry => exact ih r h
        | commit desc =>
          simp only [] at h ⊢
          cases hc : cas s desc with
          | mk b s' =>
            rw [hc] at h
            cases b with
            | true => exact Or.inl (by cases h; rfl)
            | false => exact ih r h
      · rw [hb]
        exact Or.inr rfl

theorem add_has_room (KT : KeyTraits) (s : State) (key : Nat) :
    ∀ fuel, 2 * fuel ≤ S_MAX_KCAS + 2 → add KT fuel s key ≠ some Run.descriptor_full := by
  intro fuel
  induction fuel with
  | zero =>
    intro _ h
    simp [add] at h
  | succ fuel ih =>
    intro hl h
    unfold add at h
    simp only [] at h
    cases hp : add_probe KT s key fuel (KT.hash key &&& (s.m_table.length - 1)) 0 key
        (2 ^ 64 - 1) false (2 ^ 64 - 1) [] with
    | none =>
      rw [hp] at h
      cases h
    | some x =>
      rw [hp] at h
      cases x with
      | out_of_bounds => cases h
      | descriptor_full =>
        exact add_probe_has_room KT s key fuel _ _ _ _ _ _ []
          (by simp only [List.length_nil]; omega) hp
      | done a =>
        cases a with
        | returned b => cases h
        | retry => exact ih (by omega) h
        | commit desc =>
          simp only [] at h
          cases hc : cas s desc with
          | mk b s' =>
            rw [hc] at h
            cases b with
            | true => cases h
            | false => exact ih (by omega) h

theorem add_mono (KT : KeyTraits) (s : State) (key : Nat) :
    ∀ (fuel fuel' : Nat) (r : Run (Bool × State)), add KT fuel s key = some r → fuel ≤ fuel' →
      add KT fuel' s key = some r := by
  intro fuel
  induction fuel with
  | zero =>
    intro fuel' r h
    simp [add] at h
  | succ fuel ih =>
    intro fuel' r h hle
    obtain ⟨g, rfl⟩ : ∃ g, fuel' = g + 1 := ⟨fuel' - 1, by omega⟩
    unfold add at h ⊢
    simp only [] at h ⊢
    cases hp : add_probe KT s key fuel (KT.hash key &&& (s.m_table.length - 1)) 0 key
        (2 ^ 64 - 1) false (2 ^ 64 - 1) [] with
    | none =>
      rw [hp] at h
      cases h
    | some x =>
      rw [hp] at h
      rw [add_probe_mono KT s key _ g _ _ _ _ _ _ _ _ hp (by omega)]
      cases x with
      | out_of_bounds => exact h
      | descriptor_full => exact h
      | done a =>
        cases a with
        | returned b => exact h
        | retry => exact ih g r h (by omega)
        | commit desc =>
          simp only [] at h ⊢
          cases hc : cas s desc with
          | mk b s' =>
            rw [hc] at h
            cases b with
            | true => exact h
            | false => exact ih g r h (by omega)

/-- When `add` returns true, its state is the one left by the stores of the descriptor
that a probe built within the capacity. -/
theorem add_true_commits (KT : KeyTraits) (s s' : State) (key : Nat) :
    ∀ fuel, add KT fuel s key = some (Run.done (true, s')) →
      ∃ f desc, add_probe KT s key f (KT.hash key &&& (s.m_table.length - 1)) 0 key
          (2 ^ 64 - 1) false (2 ^ 64 - 1) [] = some (Run.done (Attempt.commit desc)) ∧
        s' = commit s desc := by
  intro fuel
  induction fuel with
  | zero =>
    intro h
    simp [add] at h
  | succ fuel ih =>
    intro h
    unfold add at h
    simp only [] at h
    cases hp : add_probe KT s key fuel (KT.hash key &&& (s.m_table.length - 1)) 0 key
        (2 ^ 64 - 1) false (2 ^ 64 - 1) [] with
    | none =>
      rw [hp] at h
      cases h
    | some x =>
      rw [hp] at h
      cases x with
      | out_of_bounds => cases h
      | descriptor_full => cases h
      | done a =>
        cases a with
        | returned b =>
          have hb := Unbounded.add_probe_returned KT s key _ _ _ _ _ _ _ _ _
            (add_probe_done KT s key _ _ _ _ _ _ _ _ _ hp)
          subst hb
          cases h
        | retry => exact ih h
        | commit desc =>
          simp only [] at h
          unfold cas at h
          split_ifs at h with hc
          · simp only [Option.some.injEq, Run.done.injEq, Prod.mk.injEq, true_and] at h
            exact ⟨fuel, desc, hp, h.symm⟩
          · exact ih h

end RHSetKCAS
end concurrent_data_structures

namespace concurrent_data_structures
namespace RHSetKCAS

/-! ### K-CAS Robin-Hood set: the shuffle of `remove` within the descriptor -/

/-- A shuffle that ends with a descriptor is the shuffle with room for every entry. -/
theorem shuffle_loop_done (KT : KeyTraits) (s : State) :
    ∀ (fuel sb : Nat) (inced : Bool) (db dk dts dtb : Nat) (desc r : List Entry),
      shuffle_loop KT s fuel sb inced db dk dts dtb desc = some (Run.done r) →
      Unbounded.shuffle_loop KT s fuel sb inced db dk dts dtb desc = some r := by
  intro fuel
  induction fuel with
  | zero =>
    intro sb inced db dk dts dtb desc r h
    simp [shuffle_loop] at h
  | succ fuel ih =>
    intro sb inced db dk dts dtb desc r h
    rw [shuffle_loop] at h
    rw [Unbounded.shuffle_loop]
    simp only [swap_entries_eq, finish_entries_eq] at h ⊢
    generalize sb &&& (s.m_table.length - 1) = cb at h ⊢
    generalize (if dtb ≠ cb >>> s.m_timestamp_shift then false else inced) = inced' at h ⊢
    generalize (if dtb ≠ cb >>> s.m_timestamp_shift then cb >>> s.m_timestamp_shift
      else dtb) = dtb' at h ⊢
    generalize (if dtb ≠ cb >>> s.m_timestamp_shift then
      read_value s (Loc.timestamp (cb >>> s.m_timestamp_shift)) else dts) = dts' at h ⊢
    generalize read_value s (Loc.table cb) = ck at h ⊢
    generalize ((if inced' = true then desc
      else desc ++ [Entry.mk (Loc.timestamp dtb') dts' ((dts' + 1) % 2 ^ 64)]) ++
        [Entry.mk (Loc.table db) dk KT.NullKey]) = F at h ⊢
    generalize (if inced' = true then desc ++ [Entry.mk (Loc.table db) dk ck]
      else desc ++ [Entry.mk (Loc.table db) dk ck] ++
        [Entry.mk (Loc.timestamp dtb') dts' ((dts' + 1) % 2 ^ 64)]) = X at h ⊢
    by_cases hF : F.length ≤ S_MAX_KCAS <;> by_cases hX : X.length ≤ S_MAX_KCAS <;>
      simp only [hF, hX, if_true, if_false, Run.ofDescriptor] at h <;>
      split_ifs at h ⊢ <;> first
        | exact ih _ _ _ _ _ _ _ _ h
        | (cases h; rfl)
        | cases h

/-- A shuffle ends with the descriptor of the shuffle with room for every entry, or at a
full descriptor. -/
theorem shuffle_loop_of_unbounded (KT : KeyTraits) (s : State) :
    ∀ (fuel sb : Nat) (inced : Bool) (db dk dts dtb : Nat) (desc r : List Entry),
      Unbounded.shuffle_loop KT s fuel sb inced db dk dts dtb desc = some r →
      shuffle_loop KT s fuel sb inced db dk dts dtb desc = some (Run.done r) ∨
      shuffle_loop KT s fuel sb inced db dk dts dtb desc = some Run.descriptor_full := by
  intro fuel
  induction fuel with
  | zero =>
    intro sb inced db dk dts dtb desc r h
    simp [Unbounded.shuffle_loop] at h
  | succ fuel ih =>
    intro sb inced db dk dts dtb desc r h
    rw [Unbounded.shuffle_loop] at h
    rw [shuffle_loop]
    simp only [swap_entries_eq, finish_entries_eq] at h ⊢
    generalize sb &&& (s.m_table.length - 1) = cb at h ⊢
    generalize (if dtb ≠ cb >>> s.m_timestamp_shift then false else inced) = inced' at h ⊢
    generalize (if dtb ≠ cb >>> s.m_timestamp_shift then cb >>> s.m_timestamp_shift
      else dtb) = dtb' at h ⊢
    generalize (if dtb ≠ cb >>> s.m_timestamp_shift then
      read_value s (Loc.timestamp (cb >>> s.m_timestamp_shift)) else dts) = dts' at h ⊢
    generalize read_value s (Loc.table cb) = ck at h ⊢
    generalize ((if inced' = true then desc
      else desc ++ [Entry.mk (Loc.timestamp dtb') dts' ((dts' + 1) % 2 ^ 64)]) ++
        [Entry.mk (Loc.table db) dk KT.NullKey]) = F at h ⊢
    generalize (if inced' = true then desc ++ [Entry.mk (Loc.table db) dk ck]
      else desc ++ [Entry.mk (Loc.table db) dk ck] ++
        [Entry.mk (Loc.timestamp dtb') dts' ((dts' + 1) % 2 ^ 64)]) = X at h ⊢
    by_cases hF : F.length ≤ S_MAX_KCAS <;> by_cases hX : X.length ≤ S_MAX_KCAS <;>
      simp only [hF, hX, if_true, if_false, Run.ofDescriptor] <;>
      split_ifs at h ⊢ <;> first
        | exact ih _ _ _ _ _ _ _ _ h
        | (cases h; exact Or.inl rfl)
        | exact Or.inr rfl

/-- A shuffle that can make no more steps than the descriptor has room for two entries each
does not end at a full descriptor. -/
theorem shuffle_loop_has_room (KT : KeyTraits) (s : State) :
    ∀ (fuel sb : Nat) (inced : Bool) (db dk dts dtb : Nat) (desc : List Entry),
      desc.length + 2 * fuel ≤ S_MAX_KCAS →
      shuffle_loop KT s fuel sb inced db dk dts dtb desc ≠ some Run.descriptor_full := by
  intro fuel
  induction fuel with
  | zero =>
    intro sb inced db dk dts dtb desc _ h
    simp [shuffle_loop] at h
  | succ fuel ih =>
    intro sb inced db dk dts dtb desc hl h
    rw [shuffle_loop] at h
    simp only [swap_entries_eq, finish_entries_eq] at h
    generalize sb &&& (s.m_table.length - 1) = cb at h
    generalize (if dtb ≠ cb >>> s.m_timestamp_shift then false else inced) = inced' at h
    generalize (if dtb ≠ cb >>> s.m_timestamp_shift then cb >>> s.m_timestamp_shift
      else dtb) = dtb' at h
    generalize (if dtb ≠ cb >>> s.m_timestamp_shift then
      read_value s (Loc.timestamp (cb >>> s.m_timestamp_shift)) else dts) = dts' at h
    generalize read_value s (Loc.table cb) = ck at h
    have hFl : ((if inced' = true then desc
        else desc ++ [Entry.mk (Loc.timestamp dtb') dts' ((dts' + 1) % 2 ^ 64)]) ++
          [Entry.mk (Loc.table db) dk KT.NullKey]).length ≤ desc.length + 2 := by
      split_ifs <;> simp
    have hXl : (if inced' = true then desc ++ [Entry.mk (Loc.table db) dk ck]
        else desc ++ [Entry.mk (Loc.table db) dk ck] ++
          [Entry.mk (Loc.timestamp dtb') dts' ((dts' + 1) % 2 ^ 64)]).length ≤
        desc.length + 2 := by
      split_ifs <;> simp
    generalize ((if inced' = true then desc
      else desc ++ [Entry.mk (Loc.timestamp dtb') dts' ((dts' + 1) % 2 ^ 64)]) ++
        [Entry.mk (Loc.table db) dk KT.NullKey]) = F at h hFl
    generalize (if inced' = true then desc ++ [Entry.mk (Loc.table db) dk ck]
      else desc ++ [Entry.mk (Loc.table db) dk ck] ++
        [Entry.mk (Loc.timestamp dtb') dts' ((dts' + 1) % 2 ^ 64)]) = X at h hXl
    have hF : F.length ≤ S_MAX_KCAS := by omega
    have hX : X.length ≤ S_MAX_KCAS := by omega
    simp only [hF, hX, if_true, Run.ofDescriptor] at h
    split_ifs at h <;> first
      | cases h
      | exact ih _ _ _ _ _ _ _ (by omega) h

theorem shuffle_loop_in_bounds (KT : KeyTraits) (s : State) :
    ∀ (fuel sb : Nat) (inced : Bool) (db dk dts dtb : Nat) (desc : List Entry),
      shuffle_loop KT s fuel sb inced db dk dts dtb desc ≠ some Run.out_of_bounds := by
  intro fuel
  induction fuel with
  | zero =>
    intro sb inced db dk dts dtb desc h
    simp [shuffle_loop] at h
  | succ fuel ih =>
    intro sb inced db dk dts dtb desc h
    rw [shuffle_loop] at h
    simp only [swap_entries_eq, finish_entries_eq] at h
    generalize sb &&& (s.m_table.length - 1) = cb at h
    generalize (if dtb ≠ cb >>> s.m_timestamp_shift then false else inced) = inced' at h
    generalize (if dtb ≠ cb >>> s.m_timestamp_shift then cb >>> s.m_timestamp_shift
      else dtb) = dtb' at h
    generalize (if dtb ≠ cb >>> s.m_timestamp_shift then
      read_value s (Loc.timestamp (cb >>> s.m_timestamp_shift)) else dts) = dts' at h
    generalize read_value s (Loc.table cb) = ck at h
    generalize ((if inced' = true then desc
      else desc ++ [Entry.mk (Loc.timestamp dtb') dts' ((dts' + 1) % 2 ^ 64)]) ++
        [Entry.mk (Loc.table db) dk KT.NullKey]) = F at h
    generalize (if inced' = true then desc ++ [Entry.mk (Loc.table db) dk ck]
      else desc ++ [Entry.mk (Loc.table db) dk ck] ++
        [Entry.mk (Loc.timestamp dtb') dts' ((dts' + 1) % 2 ^ 64)]) = X at h
    by_cases hF : F.length ≤ S_MAX_KCAS <;> by_cases hX : X.length ≤ S_MAX_KCAS <;>
      simp only [hF, hX, if_true, if_false, Run.ofDescriptor] at h <;>
      split_ifs at h <;> first
        | cases h
        | exact ih _ _ _ _ _ _ _ h

theorem shuffle_loop_mono (KT : KeyTraits) (s : State) :
    ∀ (fuel fuel' sb : Nat) (inced : Bool) (db dk dts dtb : Nat) (desc : List Entry)
      (r : Run (List Entry)),
      shuffle_loop KT s fuel sb inced db dk dts dtb desc = some r → fuel ≤ fuel' →
      shuffle_loop KT s fuel' sb inced db dk dts dtb desc = some r := by
  intro fuel
  induction fuel with
  | zero =>
    intro fuel' sb inced db dk dts dtb desc r h
    simp [shuffle_loop] at h
  | succ fuel ih =>
    intro fuel' sb inced db dk dts dtb desc r h hle
    obtain ⟨g, rfl⟩ : ∃ g, fuel' = g + 1 := ⟨fuel' - 1, by omega⟩
    rw [shuffle_loop] at h ⊢
    simp only [swap_entries_eq, finish_entries_eq] at h ⊢
    generalize sb &&& (s.m_table.length - 1) = cb at h ⊢
    generalize (if dtb ≠ cb >>> s.m_timestamp_shift then false else inced) = inced' at h ⊢
    generalize (if dtb ≠ cb >>> s.m_timestamp_shift then cb >>> s.m_timestamp_shift
      else dtb) = dtb' at h ⊢
    generalize (if dtb ≠ cb >>> s.m_timestamp_shift then
      read_value s (Loc.timestamp (cb >>> s.m_timestamp_shift)) else dts) = dts' at h ⊢
    generalize read_value s (Loc.table cb) = ck at h ⊢
    generalize ((if inced' = true then desc
      else desc ++ [Entry.mk (Loc.timestamp dtb') dts' ((dts' + 1) % 2 ^ 64)]) ++
        [Entry.mk (Loc.table db) dk KT.NullKey]) = F at h ⊢
    generalize (if inced' = true then desc ++ [Entry.mk (Loc.table db) dk ck]
      else desc ++ [Entry.mk (Loc.table db) dk ck] ++
        [Entry.mk (Loc.timestamp dtb') dts' ((dts' + 1) % 2 ^ 64)]) = X at h ⊢
    by_cases hF : F.length ≤ S_MAX_KCAS <;> by_cases hX : X.length ≤ S_MAX_KCAS <;>
      simp only [hF, hX, if_true, if_false, Run.ofDescriptor] at h ⊢ <;>
      split_ifs at h ⊢ <;> first
        | exact h
        | exact ih _ _ _ _ _ _ _ _ _ h (by omega)

end RHSetKCAS
end concurrent_data_structures

namespace concurrent_data_structures
namespace RHSetKCAS

/-! ### K-CAS Robin-Hood set: the traversal of `remove` within the capacities -/

theorem Unbounded.remove_probe_length_le (KT : KeyTraits) (s : State) (key sf : Nat) :
    ∀ (fuel i d last : Nat) (ts : List Nat) (r : Option (List Entry) × List Nat),
      Unbounded.remove_probe KT s key sf fuel i d last ts = some r →
      ts.length ≤ r.2.length := by
  intro fuel
  induction fuel with
  | zero =>
    intro i d last ts r h
    simp [Unbounded.remove_probe] at h
  | succ fuel ih =>
    intro i d last ts r h
    unfold Unbounded.remove_probe at h
    simp only [] at h
    generalize i &&& (s.m_table.length - 1) = cb at h
    generalize read_value s (Loc.table cb) = ck at h
    have hts : ts.length ≤ (if cb >>> s.m_timestamp_shift ≠ last then
        ts ++ [read_value s (Loc.timestamp (cb >>> s.m_timestamp_shift))] else ts).length := by
      split_ifs <;> simp
    generalize (if cb >>> s.m_timestamp_shift ≠ last then
      ts ++ [read_value s (Loc.timestamp (cb >>> s.m_timestamp_shift))] else ts) = ts' at h hts
    generalize (if cb >>> s.m_timestamp_shift ≠ last then cb >>> s.m_timestamp_shift
      else last) = last' at h
    by_cases h1 : ck = KT.NullKey
    · rw [if_pos h1] at h
      cases h
      exact hts
    · rw [if_neg h1] at h
      by_cases h2 : ck = key
      · rw [if_pos h2] at h
        cases hs : Unbounded.shuffle_loop KT s sf (cb + 1) false cb ck
            (ts'.getD (ts'.length - 1) 0) (2 ^ 64 - 1) [] with
        | none =>
          rw [hs] at h
          cases h
        | some desc =>
          rw [hs] at h
          cases h
          exact hts
      · rw [if_neg h2] at h
        split_ifs at h
        · cases h
          exact hts
        · exact le_trans hts (ih _ _ _ _ _ h)

/-- A traversal of `remove` that ends with a result is the traversal with room for every
snapshot and entry. -/
theorem remove_probe_done (KT : KeyTraits) (s : State) (key sf : Nat) :
    ∀ (fuel i d last : Nat) (ts : List Nat) (r : Option (List Entry) × List Nat),
      remove_probe KT s key sf fuel i d last ts = some (Run.done r) →
      Unbounded.remove_probe KT s key sf fuel i d last ts = some r := by
  intro fuel
  induction fuel with
  | zero =>
    intro i d last ts r h
    simp [remove_probe] at h
  | succ fuel ih =>
    intro i d last ts r h
    unfold remove_probe at h
    unfold Unbounded.remove_probe
    simp only [] at h ⊢
    generalize i &&& (s.m_table.length - 1) = cb at h ⊢
    generalize read_value s (Loc.table cb) = ck at h ⊢
    by_cases hov : cb >>> s.m_timestamp_shift ≠ last ∧ S_MAX_TIMESTAMPS ≤ ts.length
    · rw [if_pos hov] at h
      cases h
    · rw [if_neg hov] at h
      generalize (if cb >>> s.m_timestamp_shift ≠ last then
        ts ++ [read_value s (Loc.timestamp (cb >>> s.m_timestamp_shift))] else ts) = ts' at h ⊢
      generalize (if cb >>> s.m_timestamp_shift ≠ last then cb >>> s.m_timestamp_shift
        else last) = last' at h ⊢
      by_cases h1 : ck = KT.NullKey
      · rw [if_pos h1] at h ⊢
        cases h
        rfl
      · rw [if_neg h1] at h ⊢
        by_cases h2 : ck = key
        · rw [if_pos h2] at h ⊢
          cases hs : shuffle_loop KT s sf (cb + 1) false cb ck
              (ts'.getD (ts'.length - 1) 0) (2 ^ 64 - 1) [] with
          | none =>
            rw [hs] at h
            cases h
          | some y =>
            rw [hs] at h
            cases y with
            | out_of_bounds => cases h
            | descriptor_full => cases h
            | done desc =>
              rw [shuffle_loop_done KT s _ _ _ _ _ _ _ _ _ hs]
              cases h
              rfl
        · rw [if_neg h2] at h ⊢
          split_ifs at h ⊢
          · cases h
            rfl
          · exact ih _ _ _ _ _ h

/-- A traversal of `remove` ends with the result of the traversal with room for every
snapshot and entry, or with a store behind the local array, or at a full descriptor. -/
theorem remove_probe_of_unbounded (KT : KeyTraits) (s : State) (key sf : Nat) :
    ∀ (fuel i d last : Nat) (ts : List Nat) (r : Option (List Entry) × List Nat),
      Unbounded.remove_probe KT s key sf fuel i d last ts = some r →
      remove_probe KT s key sf fuel i d last ts = some (Run.done r) ∨
      remove_probe KT s key sf fuel i d last ts = some Run.out_of_bounds ∨
      remove_probe KT s key sf fuel i d last ts = some Run.descriptor_full := by
  intro fuel
  induction fuel with
  | zero =>
    intro i d last ts r h
    simp [Unbounded.remove_probe] at h
  | succ fuel ih =>
    intro i d last ts r h
    unfold Unbounded.remove_probe at h
    unfold remove_probe
    simp only [] at h ⊢
    generalize i &&& (s.m_table.length - 1) = cb at h ⊢
    generalize read_value s (Loc.table cb) = ck at h ⊢
    by_cases hov : cb >>> s.m_timestamp_shift ≠ last ∧ S_MAX_TIMESTAMPS ≤ ts.length
    · rw [if_pos hov]
      exact Or.inr (Or.inl rfl)
    · rw [if_neg hov]
      generalize (if cb >>> s.m_timestamp_shift ≠ last then
        ts ++ [read_value s (Loc.timestamp (cb >>> s.m_timestamp_shift))] else ts) = ts' at h ⊢
      generalize (if cb >>> s.m_timestamp_shift ≠ last then cb >>> s.m_timestamp_shift
        else last) = last' at h ⊢
      by_cases h1 : ck = KT.NullKey
      · rw [if_pos h1] at h ⊢
        cases h
        exact Or.inl rfl
      · rw [if_neg h1] at h ⊢
        by_cases h2 : ck = key
        · rw [if_pos h2] at h ⊢
          cases hs : Unbounded.shuffle_loop KT s sf (cb + 1) false cb ck
              (ts'.getD (ts'.length - 1) 0) (2 ^ 64 - 1) [] with
          | none =>
            rw [hs] at h
            cases h
          | some desc =>
            rw [hs] at h
            cases h
            rcases shuffle_loop_of_unbounded KT s _ _ _ _ _ _ _ _ _ hs with hb | hb
            · rw [hb]
              exact Or.inl rfl
            · rw [hb]
              exact Or.inr (Or.inr rfl)
        · rw [if_neg h2] at h ⊢
          split_ifs at h ⊢
          · cases h
            exact Or.inl rfl
          · exact ih _ _ _ _ _ h

/-- A traversal of `remove` with more snapshots than the local array has entries ends with
a store behind the array. -/
theorem remove_probe_beyond (KT : KeyTraits) (s : State) (key sf : Nat) :
    ∀ (fuel i d last : Nat) (ts : List Nat) (r : Option (List Entry) × List Nat),
      Unbounded.remove_probe KT s key sf fuel i d last ts = some r →
      ts.length ≤ S_MAX_TIMESTAMPS → S_MAX_TIMESTAMPS < r.2.length →
      remove_probe KT s key sf fuel i d last ts = some Run.out_of_bounds := by
  intro fuel
  induction fuel with
  | zero =>
    intro i d last ts r h
    simp [Unbounded.remove_probe] at h
  | succ fuel ih =>
    intro i d last ts r h hl hr
    unfold Unbounded.remove_probe at h
    unfold remove_probe
    simp only [] at h ⊢
    generalize i &&& (s.m_table.length - 1) = cb at h ⊢
    generalize read_value s (Loc.table cb) = ck at h ⊢
    by_cases hov : cb >>> s.m_timestamp_shift ≠ last ∧ S_MAX_TIMESTAMPS ≤ ts.length
    · rw [if_pos hov]
    · rw [if_neg hov]
      have hts : (if cb >>> s.m_timestamp_shift ≠ last then
          ts ++ [read_value s (Loc.timestamp (cb >>> s.m_timestamp_shift))] else ts).length ≤
          S_MAX_TIMESTAMPS := by
        split_ifs with hc
        · simp only [List.length_append, List.length_singleton]
          have := fun h' => hov ⟨hc, h'⟩
          omega
        · exact hl
      generalize (if cb >>> s.m_timestamp_shift ≠ last then
        ts ++ [read_value s (Loc.timestamp (cb >>> s.m_timestamp_shift))] else ts) = ts' at h hts ⊢
      generalize (if cb >>> s.m_timestamp_shift ≠ last then cb >>> s.m_timestamp_shift
        else last) = last' at h ⊢
      by_cases h1 : ck = KT.NullKey
      · rw [if_pos h1] at h
        cases h
        exact absurd hts (by simpa using hr)
      · rw [if_neg h1] at h ⊢
        by_cases h2 : ck = key
        · rw [if_pos h2] at h
          cases hs : Unbounded.shuffle_loop KT s sf (cb + 1) false cb ck
              (ts'.getD (ts'.length - 1) 0) (2 ^ 64 - 1) [] with
          | none =>
            rw [hs] at h
            cases h
          | some desc =>
            rw [hs] at h
            cases h
            exact absurd hts (by simpa using hr)
        · rw [if_neg h2] at h ⊢
          split_ifs at h ⊢
          · cases h
            exact absurd hts (by simpa using hr)
          · exact ih _ _ _ _ _ h hts hr

/-- A traversal of `remove` that can make no more steps than the local array has entries,
with a shuffle that can make no more steps than the descriptor has room for two entries
each, ends within both. -/
theorem remove_probe_has_room (KT : KeyTraits) (s : State) (key sf : Nat)
    (hsf : 2 * sf ≤ S_MAX_KCAS) :
    ∀ (fuel i d last : Nat) (ts : List Nat),
      ts.length + fuel ≤ S_MAX_TIMESTAMPS →
      remove_probe KT s key sf fuel i d last ts ≠ some Run.out_of_bounds ∧
      remove_probe KT s key sf fuel i d last ts ≠ some Run.descriptor_full := by
  intro fuel
  induction fuel with
  | zero =>
    intro i d last ts _
    simp [remove_probe]
  | succ fuel ih =>
    intro i d last ts hl
    unfold remove_probe
    simp only []
    generalize i &&& (s.m_table.length - 1) = cb
    generalize read_value s (Loc.table cb) = ck
    by_cases hov : cb >>> s.m_timestamp_shift ≠ last ∧ S_MAX_TIMESTAMPS ≤ ts.length
    · exfalso
      omega
    · rw [if_neg hov]
      have hts : (if cb >>> s.m_timestamp_shift ≠ last then
          ts ++ [read_value s (Loc.timestamp (cb >>> s.m_timestamp_shift))] else ts).length ≤
          ts.length + 1 := by
        split_ifs <;> simp
      generalize (if cb >>> s.m_timestamp_shift ≠ last then
        ts ++ [read_value s (Loc.timestamp (cb >>> s.m_timestamp_shift))] else ts) = ts' at hts ⊢
      generalize (if cb >>> s.m_timestamp_shift ≠ last then cb >>> s.m_timestamp_shift
        else last) = last'
      by_cases h1 : ck = KT.NullKey
      · rw [if_pos h1]
        exact ⟨fun h => (by cases h), fun h => (by cases h)⟩
      · rw [if_neg h1]
        by_cases h2 : ck = key
        · rw [if_pos h2]
          have hroom := shuffle_loop_has_room KT s sf (cb + 1) false cb ck
            (ts'.getD (ts'.length - 1) 0) (2 ^ 64 - 1) []
            (by simp only [List.length_nil]; omega)
          have hin := shuffle_loop_in_bounds KT s sf (cb + 1) false cb ck
            (ts'.getD (ts'.length - 1) 0) (2 ^ 64 - 1) []
          cases hs : shuffle_loop KT s sf (cb + 1) false cb ck
              (ts'.getD (ts'.length - 1) 0) (2 ^ 64 - 1) [] with
          | none => exact ⟨fun h => (by cases h), fun h => (by cases h)⟩
          | some y =>
            cases y with
            | out_of_bounds => exact absurd hs hin
            | descriptor_full => exact absurd hs hroom
            | done desc => exact ⟨fun h => (by cases h), fun h => (by cases h)⟩
        · rw [if_neg h2]
          split_ifs
          · exact ⟨fun h => (by cases h), fun h => (by cases h)⟩
          · exact ih _ _ _ _ (by omega)

theorem remove_probe_mono (KT : KeyTraits) (s : State) (key sf sf' : Nat) (hsf : sf ≤ sf') :
    ∀ (fuel fuel' i d last : Nat) (ts : List Nat)
      (r : Run (Option (List Entry) × List Nat)),
      remove_probe KT s key sf fuel i d last ts = some r → fuel ≤ fuel' →
      remove_probe KT s key sf' fuel' i d last ts = some r := by
  intro fuel
  induction fuel with
  | zero =>
    intro fuel' i d last ts r h
    simp [remove_probe] at h
  | succ fuel ih =>
    intro fuel' i d last ts r h hle
    obtain ⟨g, rfl⟩ : ∃ g, fuel' = g + 1 := ⟨fuel' - 1, by omega⟩
    unfold remove_probe at h ⊢
    simp only [] at h ⊢
    generalize i &&& (s.m_table.length - 1) = cb at h ⊢
    generalize read_value s (Loc.table cb) = ck at h ⊢
    by_cases hov : cb >>> s.m_timestamp_shift ≠ last ∧ S_MAX_TIMESTAMPS ≤ ts.length
    · rw [if_pos hov] at h ⊢
      exact h
    · rw [if_neg hov] at h ⊢
      generalize (if cb >>> s.m_timestamp_shift ≠ last then
        ts ++ [read_value s (Loc.timestamp (cb >>> s.m_timestamp_shift))] else ts) = ts' at h ⊢
      generalize (if cb >>> s.m_timestamp_shift ≠ last then cb >>> s.m_timestamp_shift
        else last) = last' at h ⊢
      by_cases h1 : ck = KT.NullKey
      · rw [if_pos h1] at h ⊢
        exact h
      · rw [if_neg h1] at h ⊢
        by_cases h2 : ck = key
        · rw [if_pos h2] at h ⊢
          cases hs : shuffle_loop KT s sf (cb + 1) false cb ck
              (ts'.getD (ts'.length - 1) 0) (2 ^ 64 - 1) [] with
          | none =>
            rw [hs] at h
            cases h
          | some y =>
            rw [hs] at h
            rw [shuffle_loop_mono KT s _ sf' _ _ _ _ _ _ _ _ hs hsf]
            exact h
        · rw [if_neg h2] at h ⊢
          split_ifs at h ⊢
          · exact h
          · exact ih _ _ _ _ _ _ h (by omega)

/-- A call of `remove` that ends with a result is the call with room for every snapshot
and entry. -/
theorem remove_done (KT : KeyTraits) (s : State) (key : Nat) :
    ∀ (fuel : Nat) (r : Bool × State), remove KT fuel s key = some (Run.done r) →
      Unbounded.remove KT fuel s key = some r := by
  intro fuel
  induction fuel with
  | zero =>
    intro r h
    simp [remove] at h
  | succ fuel ih =>
    intro r h
    unfold remove at h
    unfold Unbounded.remove
    simp only [] at h ⊢
    cases hp : remove_probe KT s key fuel fuel (KT.hash key &&& (s.m_table.length - 1)) 0
        (2 ^ 64 - 1) [] with
    | none =>
      rw [hp] at h
      cases h
    | some x =>
      rw [hp] at h
      cases x with
      | out_of_bounds => cases h
      | descriptor_full => cases h
      | done y =>
        rw [remove_probe_done KT s key _ _ _ _ _ _ _ hp]
        obtain ⟨od, ts⟩ := y
        cases od with
        | some desc =>
          simp only [] at h ⊢
          cases hc : cas s desc with
          | mk b s' =>
            rw [hc] at h
            cases b with
            | true => exact (by cases h; rfl)
            | false => exact ih r h
        | none =>
          simp only [] at h ⊢
          cases hc : counter_check s ts fuel (KT.hash key &&& (s.m_table.length - 1)) 0
              (2 ^ 64 - 1) with
          | none =>
            rw [hc] at h
            cases h
          | some c =>
            rw [hc] at h
            cases c with
            | true => exact (by cases h; rfl)
            | false => exact ih r h

/-- A call of `remove` ends with the result of the call with room for every snapshot and
entry, or with a store behind the local array, or at a full descriptor. -/
theorem remove_of_unbounded (KT : KeyTraits) (s : State) (key : Nat) :
    ∀ (fuel : Nat) (r : Bool × State), Unbounded.remove KT fuel s key = some r →
      remove KT fuel s key = some (Run.done r) ∨
      remove KT fuel s key = some Run.out_of_bounds ∨
      remove KT fuel s key = some Run.descriptor_full := by
  intro fuel
  induction fuel with
  | zero =>
    intro r h
    simp [Unbounded.remove] at h
  | succ fuel ih =>
    intro r h
    unfold Unbounded.remove at h
    unfold remove
    simp only [] at h ⊢
    cases hp : Unbounded.remove_probe KT s key fuel fuel
        (KT.hash key &&& (s.m_table.length - 1)) 0 (2 ^ 64 - 1) [] with
    | none =>
      rw [hp] at h
      cases h
    | some y =>
      rw [hp] at h
      rcases remove_probe_of_unbounded KT s key _ _ _ _ _ _ _ hp with hb | hb | hb
      · rw [hb]
        obtain ⟨od, ts⟩ := y
        cases od with
        | some desc =>
          simp only [] at h ⊢
          cases hc : cas s desc with
          | mk b s' =>
            rw [hc] at h
            cases b with
            | true => exact Or.inl (by cases h; rfl)
            | false => exact ih r h
        | none =>
          simp only [] at h ⊢
          cases hc : counter_check s ts fuel (KT.hash key &&& (s.m_table.length - 1)) 0
              (2 ^ 64 - 1) with
          | none =>
            rw [hc] at h
            cases h
          | some c =>
            rw [hc] at h
            cases c with
            | true => exact Or.inl (by cases h; rfl)
            | false => exact ih r h
      · rw [hb]
        exact Or.inr (Or.inl rfl)
      · rw [hb]
        exact Or.inr (Or.inr rfl)

theorem remove_has_room (KT : KeyTraits) (s : State) (key : Nat) :
    ∀ fuel, 2 * fuel ≤ S_MAX_KCAS + 2 → fuel ≤ S_MAX_TIMESTAMPS + 1 →
      remove KT fuel s key ≠ some Run.out_of_bounds ∧
      remove KT fuel s key ≠ some Run.descriptor_full := by
  intro fuel
  induction fuel with
  | zero =>
    intro _ _
    simp [remove]
  | succ fuel ih =>
    intro hl1 hl2
    have hroom := remove_probe_has_room KT s key fuel (by omega) fuel
      (KT.hash key &&& (s.m_table.length - 1)) 0 (2 ^ 64 - 1) []
      (by simp only [List.length_nil]; omega)
    unfold remove
    simp only []
    cases hp : remove_probe KT s key fuel fuel (KT.hash key &&& (s.m_table.length - 1)) 0
        (2 ^ 64 - 1) [] with
    | none => exact ⟨fun h => (by cases h), fun h => (by cases h)⟩
    | some x =>
      cases x with
      | out_of_bounds => exact absurd hp hroom.1
      | descriptor_full => exact absurd hp hroom.2
      | done y =>
        obtain ⟨od, ts⟩ := y
        cases od with
        | some desc =>
          simp only []
          cases hc : cas s desc with
          | mk b s' =>
            cases b with
            | true => exact ⟨fun h => (by cases h), fun h => (by cases h)⟩
            | false => exact ih (by omega) (by omega)
        | none =>
          simp only []
          cases hc : counter_check s ts fuel (KT.hash key &&& (s.m_table.length - 1)) 0
              (2 ^ 64 - 1) with
          | none => exact ⟨fun h => (by cases h), fun h => (by cases h)⟩
          | some c =>
            cases c with
            | true => exact ⟨fun h => (by cases h), fun h => (by cases h)⟩
            | false => exact ih (by omega) (by omega)

theorem remove_mono (KT : KeyTraits) (s : State) (key : Nat) :
    ∀ (fuel fuel' : Nat) (r : Run (Bool × State)), remove KT fuel s key = some r →
      fuel ≤ fuel' → remove KT fuel' s key = some r := by
  intro fuel
  induction fuel with
  | zero =>
    intro fuel' r h
    simp [remove] at h
  | succ fuel ih =>
    intro fuel' r h hle
    obtain ⟨g, rfl⟩ : ∃ g, fuel' = g + 1 := ⟨fuel' - 1, by omega⟩
    unfold remove at h ⊢
    simp only [] at h ⊢
    cases hp : remove_probe KT s key fuel fuel (KT.hash key &&& (s.m_table.length - 1)) 0
        (2 ^ 64 - 1) [] with
    | none =>
      rw [hp] at h
      cases h
    | some x =>
      rw [hp] at h
      rw [remove_probe_mono KT s key fuel g (by omega) _ g _ _ _ _ _ hp (by omega)]
      cases x with
      | out_of_bounds => exact h
      | descriptor_full => exact h
      | done y =>
        obtain ⟨od, ts⟩ := y
        cases od with
        | some desc =>
          simp only [] at h ⊢
          cases hc : cas s desc with
          | mk b s' =>
            rw [hc] at h
            cases b with
            | true => exact h
            | false => exact ih g r h (by omega)
        | none =>
          simp only [] at h ⊢
          cases hc : counter_check s ts fuel (KT.hash key &&& (s.m_table.length - 1)) 0
              (2 ^ 64 - 1) with
          | none =>
            rw [hc] at h
            cases h
          | some c =>
            rw [hc] at h
            rw [counter_check_mono s ts _ g _ _ _ _ hc (by omega)]
            cases c with
            | true => exact h
            | false => exact ih g r h (by omega)

end RHSetKCAS
end concurrent_data_structures

namespace concurrent_data_structures
namespace RHSetKCAS

open TransactionalRobinHoodSet (mask_eq_mod size_pos_of_pow)

namespace Unbounded

/-- With `2 ^ m` regions the traversal of `contains` ends and has stored at most
`2 ^ m + 1` snapshots, and a traversal of `remove` has stored at most `2 ^ m + 1` snapshots
when it ends. -/
theorem snapshots_within (KT : KeyTraits) (s : State) (key p m fuel : Nat)
    (hN : s.m_table.length = 2 ^ p) (hM : s.m_timestamps.length = 2 ^ m) (hmp : m ≤ p)
    (hshift : s.m_timestamp_shift = p - m)
    (hcap : s.m_timestamps.length + 1 ≤ S_MAX_TIMESTAMPS)
    (hfuel : s.m_table.length + 1 ≤ fuel) :
    (∃ b ts, contains_probe KT s key fuel (KT.hash key &&& (s.m_table.length - 1)) 0
        (2 ^ 64 - 1) [] = some (b, ts) ∧
      ts.length ≤ s.m_timestamps.length + 1 ∧ ts.length ≤ S_MAX_TIMESTAMPS) ∧
    ∀ sf f r ts, remove_probe KT s key sf f (KT.hash key &&& (s.m_table.length - 1)) 0
        (2 ^ 64 - 1) [] = some (r, ts) →
      ts.length ≤ s.m_timestamps.length + 1 ∧ ts.length ≤ S_MAX_TIMESTAMPS := by
  have hdvd : 2 ^ (p - m) ∣ s.m_table.length := by
    rw [hN]
    exact pow_dvd_pow 2 (Nat.sub_le _ _)
  have hstart : (KT.hash key &&& (s.m_table.length - 1)) % s.m_table.length =
      (KT.hash key &&& (s.m_table.length - 1) + 0) % s.m_table.length := rfl
  constructor
  · obtain ⟨b, hb⟩ := TransactionalRobinHoodSet.contains_loop_total KT s.m_table key hN fuel
      (KT.hash key &&& (s.m_table.length - 1)) 0 (Nat.zero_le _) (by omega)
    have hfst := contains_probe_fst KT s key fuel (KT.hash key &&& (s.m_table.length - 1)) 0
      (2 ^ 64 - 1) []
    rw [hb] at hfst
    cases hrun : contains_probe KT s key fuel (KT.hash key &&& (s.m_table.length - 1)) 0
        (2 ^ 64 - 1) [] with
    | none =>
      rw [hrun] at hfst
      cases hfst
    | some r =>
      obtain ⟨b', ts⟩ := r
      have hlen := contains_probe_snapshots KT s key p (p - m)
        (KT.hash key &&& (s.m_table.length - 1)) hN hshift hdvd fuel _ 0 _ [] b' ts hstart
        (Nat.zero_le _) (Or.inl ⟨rfl, rfl⟩) hrun
      have := snapshots_le_regions s.m_table.length p m ts.length _ hN hmp hlen
      rw [← hM] at this
      exact ⟨b', ts, rfl, this, by omega⟩
  · intro sf f r ts hrun
    have hlen := remove_probe_snapshots KT s key sf p (p - m)
      (KT.hash key &&& (s.m_table.length - 1)) hN hshift hdvd f _ 0 _ [] r ts hstart
      (Nat.zero_le _) (Or.inl ⟨rfl, rfl⟩) hrun
    have := snapshots_le_regions s.m_table.length p m ts.length _ hN hmp hlen
    rw [← hM] at this
    exact ⟨this, by omega⟩

end Unbounded
end RHSetKCAS
end concurrent_data_structures

namespace concurrent_data_structures
namespace RHSetKCAS

/-- C28: when `add` returns true, the state is the one left by the stores of the descriptor
that the probe built, within the capacity of the descriptor, and for every region `r`: if
the descriptor writes a slot of `r` (a swap slot or the final empty slot) the timestamp of
`r` is one more than before (modulo the word), and otherwise it is unchanged. -/
theorem add_bumps_exactly_written_regions (KT : KeyTraits) (s s' : State) (key fuel : Nat)
    (hsize : s.m_table.length < 2 ^ 64)
    (hadd : add KT fuel s key = some (Run.done (true, s'))) :
    ∃ f desc, add_probe KT s key f (KT.hash key &&& (s.m_table.length - 1)) 0 key
        (2 ^ 64 - 1) false (2 ^ 64 - 1) [] = some (Run.done (Attempt.commit desc)) ∧
      s' = commit s desc ∧
      ∀ r < s.m_timestamps.length,
        (WritesRegion s desc r →
          s'.m_timestamps.getD r 0 = (s.m_timestamps.getD r 0 + 1) % 2 ^ 64) ∧
        (¬ WritesRegion s desc r → s'.m_timestamps.getD r 0 = s.m_timestamps.getD r 0) := by
  obtain ⟨f, desc, hprobe, hs'⟩ := add_true_commits KT s s' key fuel hadd
  obtain ⟨hts, htab⟩ := Unbounded.add_probe_bumps KT s key hsize f _ 0 key (2 ^ 64 - 1) false
    (2 ^ 64 - 1) [] desc (Or.inl rfl) (fun h => by cases h)
    (fun e he => absurd he (List.not_mem_nil e)) (fun e he => absurd he (List.not_mem_nil e))
    (add_probe_done KT s key _ _ _ _ _ _ _ _ _ hprobe)
  refine ⟨f, desc, hprobe, hs', fun r hr => ⟨fun hw => ?_, fun hn => ?_⟩⟩
  · obtain ⟨e, he, b, hb, hreg⟩ := hw
    obtain ⟨x, hx, hxl⟩ := htab e he b hb
    rw [hreg] at hxl
    rw [hs']
    exact commit_timestamp_bumped desc r _ s hr (fun y hy hyl => (hts y hy r hyl).1)
      ⟨x, hx, hxl⟩
  · rw [hs']
    exact commit_timestamp_kept desc r s (fun e he hl => hn (hts e he r hl).2)

set_option maxRecDepth 100000 in
theorem add_bumps_exactly_written_regions_witness :
    ∃ f desc, add_probe idTraits
        { m_table := [0, 1] ++ List.replicate 126 255, m_timestamps := List.replicate 128 0,
          m_timestamp_shift := 0 } 128 f
        (idTraits.hash 128 &&&
          (({ m_table := [0, 1] ++ List.replicate 126 255,
              m_timestamps := List.replicate 128 0,
              m_timestamp_shift := 0 } : State).m_table.length - 1)) 0 128
        (2 ^ 64 - 1) false (2 ^ 64 - 1) [] = some (Run.done (Attempt.commit desc)) ∧
      ({ m_table := [0, 128, 1] ++ List.replicate 125 255,
         m_timestamps := [0, 1, 1] ++ List.replicate 125 0, m_timestamp_shift := 0 } : State) =
        commit { m_table := [0, 1] ++ List.replicate 126 255,
                 m_timestamps := List.replicate 128 0, m_timestamp_shift := 0 } desc ∧
      ∀ r < ({ m_table := [0, 1] ++ List.replicate 126 255,
               m_timestamps := List.replicate 128 0,
               m_timestamp_shift := 0 } : State).m_timestamps.length,
        (WritesRegion { m_table := [0, 1] ++ List.replicate 126 255,
                        m_timestamps := List.replicate 128 0, m_timestamp_shift := 0 } desc r →
          ({ m_table := [0, 128, 1] ++ List.replicate 125 255,
             m_timestamps := [0, 1, 1] ++ List.replicate 125 0,
             m_timestamp_shift := 0 } : State).m_timestamps.getD r 0 =
            (({ m_table := [0, 1] ++ List.replicate 126 255,
                m_timestamps := List.replicate 128 0,
                m_timestamp_shift := 0 } : State).m_timestamps.getD r 0 + 1) % 2 ^ 64) ∧
        (¬ WritesRegion { m_table := [0, 1] ++ List.replicate 126 255,
                          m_timestamps := List.replicate 128 0, m_timestamp_shift := 0 } desc r →
          ({ m_table := [0, 128, 1] ++ List.replicate 125 255,
             m_timestamps := [0, 1, 1] ++ List.replicate 125 0,
             m_timestamp_shift := 0 } : State).m_timestamps.getD r 0 =
            ({ m_table := [0, 1] ++ List.replicate 126 255,
               m_timestamps := List.replicate 128 0,
               m_timestamp_shift := 0 } : State).m_timestamps.getD r 0) :=
  add_bumps_exactly_written_regions idTraits
    { m_table := [0, 1] ++ List.replicate 126 255, m_timestamps := List.replicate 128 0,
      m_timestamp_shift := 0 }
    { m_table := [0, 128, 1] ++ List.replicate 125 255,
      m_timestamps := [0, 1, 1] ++ List.replicate 125 0, m_timestamp_shift := 0 }
    128 4 (by decide) (by decide)

end RHSetKCAS
end concurrent_data_structures

namespace concurrent_data_structures
namespace RHSetKCAS

open TransactionalRobinHoodSet (mask_eq_mod size_pos_of_pow distance_lt)

/-! ### K-CAS Robin-Hood set: the bound on the snapshots -/

/-- A traversal of `remove` from slot 0 over `n` occupied slots none of which ends it
stores a snapshot at every slot when each slot is a region of its own. -/
theorem Unbounded.remove_probe_run (KT : KeyTraits) (s : State) (key sf p n : Nat)
    (hp : s.m_table.length = 2 ^ p) (hshift : s.m_timestamp_shift = 0)
    (hn : n < s.m_table.length)
    (hocc : ∀ d < n, s.m_table.getD d 0 ≠ KT.NullKey ∧ key ≠ s.m_table.getD d 0 ∧
      ¬ distance_from_slot s.m_table.length
          (KT.hash (s.m_table.getD d 0) &&& (s.m_table.length - 1)) d < d)
    (hnull : s.m_table.getD n 0 = KT.NullKey) :
    ∀ (k fuel d last : Nat) (ts : List Nat), d + k = n → k < fuel → last ≠ d →
      ∃ ts', Unbounded.remove_probe KT s key sf fuel d d last ts = some (none, ts') ∧
        ts'.length = ts.length + k + 1 := by
  intro k
  induction k with
  | zero =>
    intro fuel d last ts hd hf hl
    obtain ⟨f, rfl⟩ : ∃ f, fuel = f + 1 := ⟨fuel - 1, by omega⟩
    have hdn : d = n := by omega
    subst hdn
    unfold Unbounded.remove_probe
    simp only [read_value]
    rw [mask_eq_mod hp, Nat.mod_eq_of_lt hn, hshift, Nat.shiftRight_zero,
      if_pos (fun e => hl e.symm), if_pos hnull]
    exact ⟨_, rfl, by simp⟩
  | succ k ih =>
    intro fuel d last ts hd hf hl
    obtain ⟨f, rfl⟩ : ∃ f, fuel = f + 1 := ⟨fuel - 1, by omega⟩
    have hdn : d < n := by omega
    obtain ⟨h1, h2, h3⟩ := hocc d hdn
    unfold Unbounded.remove_probe
    simp only [read_value]
    rw [mask_eq_mod hp, Nat.mod_eq_of_lt (by omega : d < s.m_table.length), hshift,
      Nat.shiftRight_zero, if_pos (fun e => hl e.symm), if_pos (fun e => hl e.symm),
      if_neg h1, if_neg (fun e => h2 e.symm), if_neg h3]
    obtain ⟨ts', hrun, hlen⟩ := ih f (d + 1) d (ts ++ [s.m_timestamps.getD d 0]) (by omega)
      (by omega) (by omega)
    refine ⟨ts', hrun, ?_⟩
    rw [hlen, List.length_append, List.length_singleton]
    omega

theorem crowded_occupied (s : State) (hc : Crowded 2100 s) (d : Nat) (hd : d < 2100) :
    s.m_table.getD d 0 ≠ idTraits.NullKey ∧ 0 ≠ s.m_table.getD d 0 ∧
    ¬ distance_from_slot s.m_table.length
        (idTraits.hash (s.m_table.getD d 0) &&& (s.m_table.length - 1)) d < d := by
  have hlen : s.m_table.length = 2 ^ 12 := hc.1
  have hv : s.m_table.getD d 0 = 4096 * (d + 1) := by
    rw [hc.2.2 d (by omega), if_pos hd]
  rw [hv, mask_eq_mod hlen, hlen]
  refine ⟨?_, by omega, ?_⟩
  · show 4096 * (d + 1) ≠ 255
    omega
  · show ¬ distance_from_slot (2 ^ 12) (4096 * (d + 1) % 2 ^ 12) d < d
    unfold distance_from_slot
    omega

theorem crowded_home (s : State) : idTraits.hash 0 &&& (s.m_table.length - 1) = 0 := by
  generalize s.m_table.length - 1 = n
  exact Nat.zero_and n

theorem crowded_contains_probe (s : State) (hc : Crowded 2100 s) (n : Nat) :
    contains_probe idTraits s 0 (2101 + n) 0 0 (2 ^ 64 - 1) [] = some Run.out_of_bounds := by
  have hlen : s.m_table.length = 2 ^ 12 := hc.1
  have hnull : s.m_table.getD 2100 0 = idTraits.NullKey := by
    rw [hc.2.2 2100 (by omega)]
    rfl
  obtain ⟨ts, hrun, hl⟩ := Unbounded.contains_probe_run idTraits s 0 12 2100 hlen
    hc.2.1 (by rw [hlen]; norm_num) (crowded_occupied s hc) hnull 2100 (2101 + n) 0
    (2 ^ 64 - 1) [] rfl (by omega) (by norm_num)
  refine contains_probe_beyond idTraits s 0 _ _ _ _ _ _ hrun (Nat.zero_le _) ?_
  show S_MAX_TIMESTAMPS < ts.length
  rw [hl]
  simp [S_MAX_TIMESTAMPS]

theorem crowded_remove_probe (s : State) (hc : Crowded 2100 s) (sf n : Nat) :
    remove_probe idTraits s 0 sf (2101 + n) 0 0 (2 ^ 64 - 1) [] = some Run.out_of_bounds := by
  have hlen : s.m_table.length = 2 ^ 12 := hc.1
  have hnull : s.m_table.getD 2100 0 = idTraits.NullKey := by
    rw [hc.2.2 2100 (by omega)]
    rfl
  obtain ⟨ts, hrun, hl⟩ := Unbounded.remove_probe_run idTraits s 0 sf 12 2100 hlen
    hc.2.1 (by rw [hlen]; norm_num) (crowded_occupied s hc) hnull 2100 (2101 + n) 0
    (2 ^ 64 - 1) [] rfl (by omega) (by norm_num)
  refine remove_probe_beyond idTraits s 0 sf _ _ _ _ _ _ hrun (Nat.zero_le _) ?_
  show S_MAX_TIMESTAMPS < ts.length
  rw [hl]
  simp [S_MAX_TIMESTAMPS]

/-- On a table crowded with 2100 keys `contains(0)` stores a snapshot behind its local
array. -/
theorem crowded_contains (s : State) (hc : Crowded 2100 s) (n : Nat) :
    contains idTraits (2102 + n) s 0 = some Run.out_of_bounds := by
  rw [show 2102 + n = 2101 + n + 1 by omega]
  unfold contains
  simp only []
  rw [crowded_home, crowded_contains_probe s hc n]

/-- On a table crowded with 2100 keys `remove(0)` stores a snapshot behind its local
array. -/
theorem crowded_remove (s : State) (hc : Crowded 2100 s) (n : Nat) :
    remove idTraits (2102 + n) s 0 = some Run.out_of_bounds := by
  rw [show 2102 + n = 2101 + n + 1 by omega]
  unfold remove
  simp only []
  rw [crowded_home, crowded_remove_probe s hc (2101 + n) n]

theorem crowdedState_shape :
    crowdedState.m_table.length = 2 ^ 12 ∧ crowdedState.m_timestamps.length = 2 ^ 12 ∧
    crowdedState.m_timestamp_shift = 0 := by
  obtain ⟨h1, -, h3⟩ := init_shift idTraits 4096 32 12 12 (by decide) (by decide)
  refine ⟨?_, h3, h1⟩
  simp [crowdedState]

theorem crowdedState_getD (d : Nat) (hd : d < 4096) :
    crowdedState.m_table.getD d 0 = if d < 2100 then 4096 * (d + 1) else 255 := by
  simp only [crowdedState]
  rw [List.getD_eq_getElem?_getD, List.getElem?_map, List.getElem?_range hd]
  rfl

theorem crowdedState_crowded : Crowded 2100 crowdedState :=
  ⟨crowdedState_shape.1, crowdedState_shape.2.2, crowdedState_getD⟩

theorem crowded_length {n : Nat} {s : State} (hc : Crowded n s) : s.m_table.length = 2 ^ 12 :=
  hc.1

/-- The probe of `add` for the next key of a crowded table walks over the keys without a
swap and ends at the first empty slot with a descriptor of two entries. -/
theorem crowded_add_probe (s : State) (n : Nat) (hn : n < 4096) (hc : Crowded n s) :
    ∀ (k fuel d last : Nat) (inced : Bool) (ats : Nat), d + k = n → k < fuel → last ≠ d →
      add_probe idTraits s (4096 * (n + 1)) fuel d d (4096 * (n + 1)) last inced ats [] =
        some (Run.done (Attempt.commit
          [Entry.mk (Loc.table n) 255 (4096 * (n + 1)),
            Entry.mk (Loc.timestamp n) (s.m_timestamps.getD n 0)
              ((s.m_timestamps.getD n 0 + 1) % 2 ^ 64)])) := by
  have hp := crowded_length hc
  obtain ⟨hlen, hshift, hget⟩ := hc
  intro k
  induction k with
  | zero =>
    intro fuel d last inced ats hd hf hl
    obtain ⟨f, rfl⟩ : ∃ f, fuel = f + 1 := ⟨fuel - 1, by omega⟩
    have hdn : d = n := by omega
    subst hdn
    rw [add_probe]
    have hmask : d &&& (s.m_table.length - 1) = d := by
      rw [mask_eq_mod hp, hlen, Nat.mod_eq_of_lt hn]
    have hck : s.m_table.getD d 0 = 255 := by
      rw [hget d hn, if_neg (lt_irrefl d)]
    have hne : d ≠ last := fun e => hl e.symm
    simp only [swap_entries_eq, read_value, hmask, hshift, Nat.shiftRight_zero, hck]
    rw [if_pos (show (255 : Nat) = idTraits.NullKey from rfl)]
    simp [hne, S_MAX_KCAS, Run.ofDescriptor, Run.map]
  | succ k ih =>
    intro fuel d last inced ats hd hf hl
    obtain ⟨f, rfl⟩ : ∃ f, fuel = f + 1 := ⟨fuel - 1, by omega⟩
    have hdn : d < n := by omega
    rw [add_probe]
    have hmask : d &&& (s.m_table.length - 1) = d := by
      rw [mask_eq_mod hp, hlen, Nat.mod_eq_of_lt (by omega)]
    have hck : s.m_table.getD d 0 = 4096 * (d + 1) := by
      rw [hget d (by omega), if_pos hdn]
    have hne : d ≠ last := fun e => hl e.symm
    have hhome : idTraits.hash (4096 * (d + 1)) &&& (s.m_table.length - 1) = 0 := by
      rw [mask_eq_mod hp, hlen]
      show 4096 * (d + 1) % 4096 = 0
      omega
    have hdist : distance_from_slot s.m_table.length 0 d = d := by
      unfold distance_from_slot
      rw [hlen]
      omega
    simp only [swap_entries_eq, read_value, hmask, hshift, Nat.shiftRight_zero, hck, hhome,
      hdist]
    rw [if_neg (show ¬ 4096 * (d + 1) = idTraits.NullKey from fun e => by
        have e' : 4096 * (d + 1) = 255 := e
        omega),
      if_neg (show ¬ 4096 * (d + 1) = 4096 * (n + 1) by omega),
      if_neg (show ¬ 4096 * (d + 1) = 4096 * (n + 1) by omega),
      if_neg (lt_irrefl d)]
    simp only [hne, ne_eq, not_false_eq_true, if_true]
    exact ih f (d + 1) d false (s.m_timestamps.getD d 0) (by omega) (by omega) (by omega)

/-- On a crowded table `add` of the next key returns true and leaves the table crowded
with one key more. -/
theorem crowded_add (s : State) (n fuel : Nat) (hn : n < 4096) (hc : Crowded n s)
    (hf : n + 2 ≤ fuel) :
    ∃ s', add idTraits fuel s (4096 * (n + 1)) = some (Run.done (true, s')) ∧
      Crowded (n + 1) s' := by
  have hp := crowded_length hc
  have hprobe := fun f hf' => crowded_add_probe s n hn hc n f 0 (2 ^ 64 - 1) false
    (2 ^ 64 - 1) (Nat.zero_add n) hf' (by norm_num)
  obtain ⟨hlen, hshift, hget⟩ := hc
  obtain ⟨f, rfl⟩ : ∃ f, fuel = f + 1 := ⟨fuel - 1, by omega⟩
  have hhome : idTraits.hash (4096 * (n + 1)) &&& (s.m_table.length - 1) = 0 := by
    rw [mask_eq_mod hp, hlen]
    show 4096 * (n + 1) % 4096 = 0
    omega
  have hnull : s.m_table.getD n 0 = 255 := by
    rw [hget n hn, if_neg (lt_irrefl n)]
  have hcas := cas_of_expected s
    [Entry.mk (Loc.table n) 255 (4096 * (n + 1)),
      Entry.mk (Loc.timestamp n) (s.m_timestamps.getD n 0)
        ((s.m_timestamps.getD n 0 + 1) % 2 ^ 64)]
    (by
      intro e he
      simp only [List.mem_cons, List.mem_singleton, List.not_mem_nil, or_false] at he
      rcases he with rfl | rfl
      · exact hnull
      · rfl)
  refine ⟨commit s [Entry.mk (Loc.table n) 255 (4096 * (n + 1)),
      Entry.mk (Loc.timestamp n) (s.m_timestamps.getD n 0)
        ((s.m_timestamps.getD n 0 + 1) % 2 ^ 64)], ?_, ?_, ?_, ?_⟩
  · unfold add
    simp only []
    rw [hhome, hprobe f (by omega)]
    simp only []
    rw [hcas]
  · show (s.m_table.set n (4096 * (n + 1))).length = 4096
    rw [List.length_set, hlen]
  · exact hshift
  · intro j hj
    show (s.m_table.set n (4096 * (n + 1))).getD j 0 = _
    rw [List.getD_eq_getElem?_getD]
    by_cases hjn : j = n
    · subst hjn
      rw [List.getElem?_set_self (by rw [hlen]; exact hn), if_pos (Nat.lt_succ_self j)]
      rfl
    · rw [List.getElem?_set_ne (fun e => hjn e.symm), ← List.getD_eq_getElem?_getD, hget j hj]
      by_cases h1 : j < n
      · rw [if_pos h1, if_pos (by omega)]
      · rw [if_neg h1, if_neg (by omega)]

theorem crowded_exec (fuel : Nat) :
    ∀ (k j : Nat) (s : State), j + k < 4096 → j + k + 1 ≤ fuel → Crowded j s →
      ∃ s', exec idTraits fuel s (crowdedAddsFrom j k) = some (Run.done s') ∧
        Crowded (j + k) s' := by
  intro k
  induction k with
  | zero =>
    intro j s _ _ hc
    exact ⟨s, rfl, hc⟩
  | succ k ih =>
    intro j s hjk hf hc
    obtain ⟨s1, hadd, hc1⟩ := crowded_add s j fuel (by omega) hc (by omega)
    obtain ⟨s2, hexec, hc2⟩ := ih (j + 1) s1 (by omega) (by omega) hc1
    refine ⟨s2, ?_, by rw [← Nat.add_assoc, Nat.add_right_comm]; exact hc2⟩
    unfold crowdedAddsFrom exec
    rw [hadd]
    exact hexec

theorem crowded_init : Crowded 0 (init idTraits 4096 32) := by
  obtain ⟨h1, h2, -⟩ := init_shift idTraits 4096 32 12 12 (by decide) (by decide)
  refine ⟨h2, h1, fun j hj => ?_⟩
  rw [if_neg (Nat.not_lt_zero j)]
  unfold init
  simp only []
  rw [List.getD_eq_getElem?_getD, List.getElem?_replicate]
  rw [if_pos (by rw [show nearest_power_of_two 4096 = 4096 by decide]; exact hj)]
  rfl

/-- C30 fails on the code: for 32 threads and capacity 4096 the constructor builds 4096
slots and 4096 timestamps, one for each slot. The calls `add(4096)`, `add(8192)`, ...,
`add(4096 * 2100)` on the new set all return and leave these 2100 keys, which all have home
slot 0, in the first 2100 slots. On that state the traversal of `contains(0)`, and likewise
that of `remove(0)`, stores a snapshot at each of the slots 0 to 2047 and then, at slot
2048, stores one behind the last of the 2048 entries of the local array `timestamps`;
neither call ends with a result. -/
theorem snapshots_exceed_array :
    (init idTraits 4096 32).m_table.length = 4096 ∧
    (init idTraits 4096 32).m_timestamps.length = 4096 ∧
    (init idTraits 4096 32).m_timestamp_shift = 0 ∧
    ∃ s, exec idTraits 2102 (init idTraits 4096 32) (crowdedAddsFrom 0 2100) =
        some (Run.done s) ∧
      Crowded 2100 s ∧
      (∀ n, contains_probe idTraits s 0 (2101 + n)
        (idTraits.hash 0 &&& (s.m_table.length - 1)) 0 (2 ^ 64 - 1) [] =
          some Run.out_of_bounds) ∧
      (∀ sf n, remove_probe idTraits s 0 sf (2101 + n)
        (idTraits.hash 0 &&& (s.m_table.length - 1)) 0 (2 ^ 64 - 1) [] =
          some Run.out_of_bounds) ∧
      (∀ n, contains idTraits (2102 + n) s 0 = some Run.out_of_bounds) ∧
      (∀ n, remove idTraits (2102 + n) s 0 = some Run.out_of_bounds) := by
  obtain ⟨h1, h2, h3⟩ := init_shift idTraits 4096 32 12 12 (by decide) (by decide)
  obtain ⟨s, hexec, hc⟩ := crowded_exec 2102 2100 0 (init idTraits 4096 32) (by norm_num)
    (by norm_num) crowded_init
  rw [Nat.zero_add] at hc
  refine ⟨h2, h3, h1, s, hexec, hc, fun n => ?_, fun sf n => ?_, crowded_contains s hc,
    crowded_remove s hc⟩
  · rw [crowded_home]
    exact crowded_contains_probe s hc n
  · rw [crowded_home]
    exact crowded_remove_probe s hc sf n

/-- A traversal of `remove` stays within the local array when the table is split into
`2 ^ m` regions and the array has more than `2 ^ m` entries. -/
theorem remove_probe_in_array (KT : KeyTraits) (s : State) (key sf p m h : Nat)
    (hp : s.m_table.length = 2 ^ p) (hmp : m ≤ p) (hshift : s.m_timestamp_shift = p - m)
    (hcap : 2 ^ m + 1 ≤ S_MAX_TIMESTAMPS) :
    ∀ (fuel i d last : Nat) (ts : List Nat),
      i % s.m_table.length = (h + d) % s.m_table.length → d ≤ s.m_table.length →
      SnapInv s.m_table.length (2 ^ (p - m)) h d last ts →
      remove_probe KT s key sf fuel i d last ts ≠ some Run.out_of_bounds := by
  have hN := size_pos_of_pow hp
  have hdvd : 2 ^ (p - m) ∣ s.m_table.length := by
    rw [hp]
    exact pow_dvd_pow 2 (Nat.sub_le _ _)
  intro fuel
  induction fuel with
  | zero =>
    intro i d last ts _ _ _ hrun
    simp [remove_probe] at hrun
  | succ fuel ih =>
    intro i d last ts hi hd hinv hrun
    unfold remove_probe at hrun
    simp only [] at hrun
    rw [mask_eq_mod hp, hshift, Nat.shiftRight_eq_div_pow, hi] at hrun
    obtain ⟨hinv', hb⟩ := Unbounded.snap_step s.m_table.length (2 ^ (p - m)) h d last
      (read_value s (Loc.timestamp ((h + d) % s.m_table.length / 2 ^ (p - m)))) ts hdvd hN hinv
    have hfin : (if (h + d) % s.m_table.length / 2 ^ (p - m) ≠ last then
        ts ++ [read_value s (Loc.timestamp ((h + d) % s.m_table.length / 2 ^ (p - m)))]
        else ts).length ≤ 2 ^ m + 1 := by
      refine Unbounded.snapshots_le_regions s.m_table.length p m _ h hp hmp ?_
      have : (h + d) / 2 ^ (p - m) ≤ (h + s.m_table.length) / 2 ^ (p - m) :=
        Nat.div_le_div_right (by omega)
      omega
    by_cases hov : (h + d) % s.m_table.length / 2 ^ (p - m) ≠ last ∧
        S_MAX_TIMESTAMPS ≤ ts.length
    · rw [if_pos hov.1, List.length_append, List.length_singleton] at hfin
      omega
    · rw [if_neg hov] at hrun
      generalize (if (h + d) % s.m_table.length / 2 ^ (p - m) ≠ last then
        ts ++ [read_value s (Loc.timestamp ((h + d) % s.m_table.length / 2 ^ (p - m)))]
        else ts) = ts1 at hrun hinv'
      generalize (if (h + d) % s.m_table.length / 2 ^ (p - m) ≠ last then
        (h + d) % s.m_table.length / 2 ^ (p - m) else last) = last1 at hrun hinv'
      split_ifs at hrun with h1 h2 h3
      · cases hrun
      · cases hsh : shuffle_loop KT s sf ((h + d) % s.m_table.length + 1) false
            ((h + d) % s.m_table.length)
            (read_value s (Loc.table ((h + d) % s.m_table.length)))
            (ts1.getD (ts1.length - 1) 0) (2 ^ 64 - 1) [] with
        | none =>
          rw [hsh] at hrun
          cases hrun
        | some y =>
          rw [hsh] at hrun
          cases y with
          | done desc => cases hrun
          | descriptor_full => cases hrun
          | out_of_bounds => exact shuffle_loop_in_bounds KT s _ _ _ _ _ _ _ _ hsh
      · cases hrun
      · have hdist := distance_lt hN
          (KT.hash (read_value s (Loc.table ((h + d) % s.m_table.length))) &&&
            (s.m_table.length - 1)) ((h + d) % s.m_table.length)
        refine ih _ _ _ _ ?_ (by omega) hinv' hrun
        rw [Nat.mod_add_mod, Nat.add_assoc]

/-- The snapshots stay within the local array when the timestamp array is short: when the
set has `2 ^ p` slots and `2 ^ m` timestamps with `m ≤ p` and the shift `p - m` (what the
constructor builds when the timestamp array is not longer than the table), and the
timestamp array has fewer than 2048 words, then for every table state and key the traversal
of `contains` ends with a result and has stored at most `2 ^ m + 1` snapshots, a traversal
of `remove` that ends with a result has stored at most `2 ^ m + 1` snapshots, and no
traversal of `remove` ends with a store behind the local array. -/
theorem snapshots_within_array (KT : KeyTraits) (s : State) (key p m fuel : Nat)
    (hN : s.m_table.length = 2 ^ p) (hM : s.m_timestamps.length = 2 ^ m) (hmp : m ≤ p)
    (hshift : s.m_timestamp_shift = p - m)
    (hcap : s.m_timestamps.length + 1 ≤ S_MAX_TIMESTAMPS)
    (hfuel : s.m_table.length + 1 ≤ fuel) :
    (∃ b ts, contains_probe KT s key fuel (KT.hash key &&& (s.m_table.length - 1)) 0
        (2 ^ 64 - 1) [] = some (Run.done (b, ts)) ∧
      ts.length ≤ s.m_timestamps.length + 1) ∧
    (∀ sf f r ts, remove_probe KT s key sf f (KT.hash key &&& (s.m_table.length - 1)) 0
        (2 ^ 64 - 1) [] = some (Run.done (r, ts)) →
      ts.length ≤ s.m_timestamps.length + 1) ∧
    ∀ sf f, remove_probe KT s key sf f (KT.hash key &&& (s.m_table.length - 1)) 0
        (2 ^ 64 - 1) [] ≠ some Run.out_of_bounds := by
  obtain ⟨⟨b, ts, hrun, hl1, hl2⟩, hrem⟩ :=
    Unbounded.snapshots_within KT s key p m fuel hN hM hmp hshift hcap hfuel
  refine ⟨⟨b, ts, contains_probe_within KT s key _ _ _ _ _ _ hrun hl2, hl1⟩,
    fun sf f r ts h => (hrem sf f r ts (remove_probe_done KT s key sf _ _ _ _ _ _ h)).1,
    fun sf f => ?_⟩
  exact remove_probe_in_array KT s key sf p m (KT.hash key &&& (s.m_table.length - 1)) hN hmp
    hshift (by rw [← hM]; exact hcap) f _ 0 _ [] rfl (Nat.zero_le _) (Or.inl ⟨rfl, rfl⟩)

set_option maxRecDepth 100000 in
theorem snapshots_within_array_example :
    (∃ b ts, contains_probe idTraits racedState 513 257
        (idTraits.hash 513 &&& (racedState.m_table.length - 1)) 0
        (2 ^ 64 - 1) [] = some (Run.done (b, ts)) ∧
      ts.length ≤ racedState.m_timestamps.length + 1) ∧
    (∀ sf f r ts, remove_probe idTraits racedState 513 sf f
        (idTraits.hash 513 &&& (racedState.m_table.length - 1)) 0
        (2 ^ 64 - 1) [] = some (Run.done (r, ts)) →
      ts.length ≤ racedState.m_timestamps.length + 1) ∧
    ∀ sf f, remove_probe idTraits racedState 513 sf f
        (idTraits.hash 513 &&& (racedState.m_table.length - 1)) 0
        (2 ^ 64 - 1) [] ≠ some Run.out_of_bounds :=
  snapshots_within_array idTraits racedState 513 8 7 257 (by decide) (by decide)
    (by decide) (by decide) (by decide) (by decide)

end RHSetKCAS
end concurrent_data_structures

namespace concurrent_data_structures
namespace RHSetKCAS

open TransactionalRobinHoodSet (RobinHoodInvariant NoDuplicateKey HasEmptySlot Occupies
  PathOccupied probe_distance home mask_eq_mod)

/-! ### K-CAS Robin-Hood set: agreement with the transactional set -/

set_option maxRecDepth 100000 in
theorem duplicate_table_shape :
    ([0, 1, 1] ++ List.replicate 125 255).length = 2 ^ 7 ∧
    RobinHoodInvariant idTraits ([0, 1, 1] ++ List.replicate 125 255) ∧
    HasEmptySlot idTraits ([0, 1, 1] ++ List.replicate 125 255) ∧
    TransactionalRobinHoodSet.add idTraits 128 ([0, 1, 1] ++ List.replicate 125 255) 128 =
      some (false, [0, 128, 1] ++ List.replicate 125 255) := by
  decide

set_option maxRecDepth 100000 in
theorem duplicate_table_probe (f : Nat) :
    add_probe idTraits
      { m_table := [0, 1, 1] ++ List.replicate 125 255, m_timestamps := List.replicate 128 0,
        m_timestamp_shift := 0 } 128 f
      (idTraits.hash 128 &&& (([0, 1, 1] ++ List.replicate 125 255).length - 1)) 0 128
      (2 ^ 64 - 1) false (2 ^ 64 - 1) [] = none ∨
    add_probe idTraits
      { m_table := [0, 1, 1] ++ List.replicate 125 255, m_timestamps := List.replicate 128 0,
        m_timestamp_shift := 0 } 128 f
      (idTraits.hash 128 &&& (([0, 1, 1] ++ List.replicate 125 255).length - 1)) 0 128
      (2 ^ 64 - 1) false (2 ^ 64 - 1) [] = some (Run.done Attempt.retry) := by
  rcases Nat.lt_or_ge f 3 with h | h
  · interval_cases f
    · exact Or.inl (by decide)
    · exact Or.inl (by decide)
    · exact Or.inl (by decide)
  · obtain ⟨n, rfl⟩ : ∃ n, f = n + 3 := ⟨f - 3, by omega⟩
    exact Or.inr rfl

theorem duplicate_table_add :
    ∀ fuel, add idTraits fuel
      { m_table := [0, 1, 1] ++ List.replicate 125 255, m_timestamps := List.replicate 128 0,
        m_timestamp_shift := 0 } 128 = none
  | 0 => rfl
  | fuel + 1 => by
    unfold add
    simp only []
    rcases duplicate_table_probe fuel with h | h
    · rw [h]
    · rw [h]
      exact duplicate_table_add fuel

theorem crowdedState_invariant : RobinHoodInvariant idTraits crowdedState.m_table := by
  obtain ⟨hlen, -, -⟩ := crowdedState_shape
  have hhome : ∀ j < 2100, home idTraits crowdedState.m_table.length
      (crowdedState.m_table.getD j 0) = 0 := by
    intro j hj
    unfold home
    rw [crowdedState_getD j (by omega), if_pos hj, mask_eq_mod hlen, hlen]
    show 4096 * (j + 1) % 2 ^ 12 = 0
    omega
  have hpd : ∀ j < 2100, probe_distance idTraits crowdedState.m_table j = j := by
    intro j hj
    unfold probe_distance
    rw [hhome j hj, hlen]
    unfold distance_from_slot
    omega
  intro i hi hne
  have hi' : i < 2100 := by
    by_contra hge
    rw [hlen] at hi
    rw [crowdedState_getD i hi, if_neg hge] at hne
    exact hne rfl
  rw [hpd i hi']
  intro d hd
  have hd' : d < 2100 := by omega
  rw [hhome i hi', Nat.zero_add, hlen, Nat.mod_eq_of_lt (by omega : d < 2 ^ 12), hpd d hd']
  exact ⟨(crowded_occupied crowdedState crowdedState_crowded d hd').1, le_refl d⟩

theorem crowdedState_empty : HasEmptySlot idTraits crowdedState.m_table := by
  obtain ⟨hlen, -, -⟩ := crowdedState_shape
  refine ⟨2100, by rw [hlen]; norm_num, ?_⟩
  rw [crowdedState_getD 2100 (by omega)]
  rfl

theorem crowdedState_nodup : NoDuplicateKey idTraits crowdedState.m_table := by
  obtain ⟨hlen, -, -⟩ := crowdedState_shape
  intro i hi j hj hne heq
  rw [hlen] at hi hj
  rw [crowdedState_getD i hi] at hne heq
  rw [crowdedState_getD j hj] at heq
  by_cases h1 : i < 2100
  · rw [if_pos h1] at heq
    by_cases h2 : j < 2100
    · rw [if_pos h2] at heq
      omega
    · rw [if_neg h2] at heq
      omega
  · rw [if_neg h1] at hne
    exact absurd rfl hne

theorem crowdedState_absent : ¬ Occupies crowdedState.m_table 0 := by
  obtain ⟨hlen, -, -⟩ := crowdedState_shape
  rintro ⟨i, hi, h⟩
  rw [hlen] at hi
  rw [crowdedState_getD i hi] at h
  split_ifs at h
  omega

theorem crowdedState_transactional (n : Nat) :
    TransactionalRobinHoodSet.contains idTraits (4097 + n) crowdedState.m_table 0 =
      some false := by
  obtain ⟨hlen, -, -⟩ := crowdedState_shape
  obtain ⟨b, hb⟩ := TransactionalRobinHoodSet.contains_loop_total idTraits
    crowdedState.m_table 0 hlen (4097 + n) (idTraits.hash 0) 0 (Nat.zero_le _)
    (by rw [hlen]; norm_num)
  unfold TransactionalRobinHoodSet.contains
  rw [hb]
  cases b with
  | false => rfl
  | true =>
    exact absurd (TransactionalRobinHoodSet.contains_loop_sound idTraits crowdedState.m_table
      0 hlen _ _ _ hb) crowdedState_absent

/-- C26, as stated, fails in two ways. On a table that holds a key twice: the table of 128
slots with key 0 in slot 0 and key 1 in slots 1 and 2 satisfies the distance invariant and
has empty slots; the transactional `add(128)` swaps key 128 into slot 1, meets the
displaced key 1 again in slot 2 and returns false, leaving `[0, 128, 1, ...]`, while the
K-CAS `add(128)` frees its descriptor at slot 2 and starts again from `loopBegin`, every
time: it returns for no number of iterations. And at the capacity of the local array: the
table of 4096 slots whose first 2100 slots hold keys with home slot 0, with one timestamp
for each slot, satisfies the invariant, has empty slots and holds no key twice; the
transactional `contains(0)` returns false, while the K-CAS `contains(0)` stores a snapshot
behind its local array of 2048 entries. -/
theorem kcas_diverges_from_transactional :
    (([0, 1, 1] ++ List.replicate 125 255).length = 2 ^ 7 ∧
      RobinHoodInvariant idTraits ([0, 1, 1] ++ List.replicate 125 255) ∧
      HasEmptySlot idTraits ([0, 1, 1] ++ List.replicate 125 255) ∧
      TransactionalRobinHoodSet.add idTraits 128 ([0, 1, 1] ++ List.replicate 125 255) 128 =
        some (false, [0, 128, 1] ++ List.replicate 125 255) ∧
      ∀ fuel, add idTraits fuel
        { m_table := [0, 1, 1] ++ List.replicate 125 255,
          m_timestamps := List.replicate 128 0, m_timestamp_shift := 0 } 128 = none) ∧
    (crowdedState.m_table.length = 2 ^ 12 ∧
      RobinHoodInvariant idTraits crowdedState.m_table ∧
      HasEmptySlot idTraits crowdedState.m_table ∧
      NoDuplicateKey idTraits crowdedState.m_table ∧
      (∀ n, TransactionalRobinHoodSet.contains idTraits (4097 + n) crowdedState.m_table 0 =
        some false) ∧
      ∀ n, contains idTraits (4097 + n + 1) crowdedState 0 = some Run.out_of_bounds) := by
  refine ⟨⟨duplicate_table_shape.1, duplicate_table_shape.2.1, duplicate_table_shape.2.2.1,
    duplicate_table_shape.2.2.2, duplicate_table_add⟩, crowdedState_shape.1,
    crowdedState_invariant, crowdedState_empty, crowdedState_nodup,
    crowdedState_transactional, fun n => ?_⟩
  rw [show 4097 + n + 1 = 2102 + (1996 + n) by omega]
  exact crowded_contains crowdedState crowdedState_crowded (1996 + n)

/-- C26, amended: for every state of the K-CAS set whose slot array has power-of-two size
(below `2 ^ 64`), satisfies the Robin-Hood distance invariant, has an empty slot and holds
no key twice, and every key different from `NullKey`, each of the K-CAS `contains`, `add`
and `remove`, run by one thread, ends: either at a capacity (`contains` and `remove` with a
snapshot stored behind the 2048 entries of the local array, `add` and `remove` with an
entry for a descriptor that holds 3000) or with the same boolean and the same slot array as
the transactional `contains`, `add` and `remove` on that slot array. No capacity is reached
when twice the number of slots plus 4 is at most 3000: then the three calls return and
agree with the transactional ones. -/
theorem kcas_agrees_with_transactional (KT : KeyTraits) (s : State) (k p fuel : Nat)
    (hp : s.m_table.length = 2 ^ p) (hsize : s.m_table.length < 2 ^ 64)
    (hinv : RobinHoodInvariant KT s.m_table) (hempty : HasEmptySlot KT s.m_table)
    (hnd : NoDuplicateKey KT s.m_table) (hk : k ≠ KT.NullKey)
    (hf : s.m_table.length + 2 ≤ fuel) :
    (∃ b, TransactionalRobinHoodSet.contains KT fuel s.m_table k = some b ∧
      (contains KT (fuel + 1) s k = some (Run.done b) ∨
        contains KT (fuel + 1) s k = some Run.out_of_bounds)) ∧
    (∃ b t', TransactionalRobinHoodSet.add KT fuel s.m_table k = some (b, t') ∧
      ((∃ s', add KT (fuel + 1) s k = some (Run.done (b, s')) ∧ s'.m_table = t') ∨
        add KT (fuel + 1) s k = some Run.descriptor_full)) ∧
    (∃ b t', TransactionalRobinHoodSet.remove KT fuel s.m_table k = some (b, t') ∧
      ((∃ s', remove KT (fuel + 1) s k = some (Run.done (b, s')) ∧ s'.m_table = t') ∨
        remove KT (fuel + 1) s k = some Run.out_of_bounds ∨
        remove KT (fuel + 1) s k = some Run.descriptor_full)) ∧
    (2 * (s.m_table.length + 2) ≤ S_MAX_KCAS →
      (∃ b, contains KT (fuel + 1) s k = some (Run.done b) ∧
        TransactionalRobinHoodSet.contains KT fuel s.m_table k = some b) ∧
      (∃ b s', add KT (fuel + 1) s k = some (Run.done (b, s')) ∧
        TransactionalRobinHoodSet.add KT fuel s.m_table k = some (b, s'.m_table)) ∧
      (∃ b s', remove KT (fuel + 1) s k = some (Run.done (b, s')) ∧
        TransactionalRobinHoodSet.remove KT fuel s.m_table k = some (b, s'.m_table))) := by
  obtain ⟨bc, hc1, hc2⟩ := Unbounded.contains_agrees KT s k p fuel hp hf
  obtain ⟨ba, sa, ha1, ha2⟩ :=
    Unbounded.add_agrees KT s k p fuel hp hsize hinv hempty hnd hk (by omega)
  obtain ⟨br, sr, hr1, hr2⟩ := Unbounded.remove_agrees KT s k p fuel hp hsize hempty hf
  refine ⟨⟨bc, hc2, contains_of_unbounded KT s k _ _ hc1⟩, ⟨ba, sa.m_table, ha2, ?_⟩,
    ⟨br, sr.m_table, hr2, ?_⟩, fun hcap => ?_⟩
  · rcases add_of_unbounded KT s k _ _ ha1 with h | h
    · exact Or.inl ⟨sa, h, rfl⟩
    · exact Or.inr h
  · rcases remove_of_unbounded KT s k _ _ hr1 with h | h
    · exact Or.inl ⟨sr, h, rfl⟩
    · exact Or.inr h
  · have hcap' : 2 * (s.m_table.length + 2) ≤ 3000 := hcap
    obtain ⟨bc0, hc01, -⟩ :=
      Unbounded.contains_agrees KT s k p (s.m_table.length + 2) hp (le_refl _)
    obtain ⟨ba0, sa0, ha01, -⟩ := Unbounded.add_agrees KT s k p (s.m_table.length + 2) hp
      hsize hinv hempty hnd hk (by omega)
    obtain ⟨br0, sr0, hr01, -⟩ :=
      Unbounded.remove_agrees KT s k p (s.m_table.length + 2) hp hsize hempty (le_refl _)
    have hroom := remove_has_room KT s k (s.m_table.length + 2 + 1)
      (by simp only [S_MAX_KCAS]; omega) (by simp only [S_MAX_TIMESTAMPS]; omega)
    refine ⟨⟨bc, ?_, hc2⟩, ⟨ba, sa, ?_, ha2⟩, ⟨br, sr, ?_, hr2⟩⟩
    · rcases contains_of_unbounded KT s k _ _ hc1 with h | h
      · exact h
      · rcases contains_of_unbounded KT s k _ _ hc01 with h0 | h0
        · rw [contains_mono KT s k _ (fuel + 1) _ h0 (by omega)] at h
          cases h
        · exact absurd h0 (contains_in_bounds KT s k _
            (by simp only [S_MAX_TIMESTAMPS]; omega))
    · rcases add_of_unbounded KT s k _ _ ha1 with h | h
      · exact h
      · rcases add_of_unbounded KT s k _ _ ha01 with h0 | h0
        · rw [add_mono KT s k _ (fuel + 1) _ h0 (by omega)] at h
          cases h
        · exact absurd h0 (add_has_room KT s k _ (by simp only [S_MAX_KCAS]; omega))
    · rcases remove_of_unbounded KT s k _ _ hr1 with h | h | h
      · exact h
      · rcases remove_of_unbounded KT s k _ _ hr01 with h0 | h0 | h0
        · rw [remove_mono KT s k _ (fuel + 1) _ h0 (by omega)] at h
          cases h
        · exact absurd h0 hroom.1
        · exact absurd h0 hroom.2
      · rcases remove_of_unbounded KT s k _ _ hr01 with h0 | h0 | h0
        · rw [remove_mono KT s k _ (fuel + 1) _ h0 (by omega)] at h
          cases h
        · exact absurd h0 hroom.1
        · exact absurd h0 hroom.2

set_option maxRecDepth 100000 in
theorem kcas_agrees_with_transactional_witness :
    (∃ b, contains idTraits (130 + 1)
        { m_table := [0, 1] ++ List.replicate 126 255, m_timestamps := List.replicate 128 0,
          m_timestamp_shift := 0 } 128 = some (Run.done b) ∧
      TransactionalRobinHoodSet.contains idTraits 130 ([0, 1] ++ List.replicate 126 255) 128 =
        some b) ∧
    (∃ b s', add idTraits (130 + 1)
        { m_table := [0, 1] ++ List.replicate 126 255, m_timestamps := List.replicate 128 0,
          m_timestamp_shift := 0 } 128 = some (Run.done (b, s')) ∧
      TransactionalRobinHoodSet.add idTraits 130 ([0, 1] ++ List.replicate 126 255) 128 =
        some (b, s'.m_table)) ∧
    (∃ b s', remove idTraits (130 + 1)
        { m_table := [0, 1] ++ List.replicate 126 255, m_timestamps := List.replicate 128 0,
          m_timestamp_shift := 0 } 128 = some (Run.done (b, s')) ∧
      TransactionalRobinHoodSet.remove idTraits 130 ([0, 1] ++ List.replicate 126 255) 128 =
        some (b, s'.m_table)) :=
  (kcas_agrees_with_transactional idTraits
    { m_table := [0, 1] ++ List.replicate 126 255, m_timestamps := List.replicate 128 0,
      m_timestamp_shift := 0 } 128 7 130
    (by decide) (by decide) (by decide) (by decide) (by decide) (by decide)
    (by decide)).2.2.2 (by decide)

end RHSetKCAS
end concurrent_data_structures

namespace concurrent_data_structures
namespace RHSetKCAS

/-! ### K-CAS Robin-Hood set: `contains` while another thread removes -/

theorem contains_probe_during_const (KT : KeyTraits) (s : State) (key : Nat) :
    ∀ (fuel now i d last : Nat) (ts : List Nat),
      (contains_probe_during KT (fun _ => s) key fuel now i d last ts).map Prod.fst =
        contains_probe KT s key fuel i d last ts := by
  intro fuel
  induction fuel with
  | zero =>
    intro now i d last ts
    rfl
  | succ fuel ih =>
    intro now i d last ts
    unfold contains_probe_during contains_probe
    simp only []
    split_ifs <;> first
      | rfl
      | exact ih _ _ _ _ _

theorem counter_check_during_const (s : State) (ts : List Nat) :
    ∀ (fuel now i c last : Nat),
      (counter_check_during (fun _ => s) ts fuel now i c last).map Prod.fst =
        counter_check s ts fuel i c last := by
  intro fuel
  induction fuel with
  | zero =>
    intro now i c last
    rfl
  | succ fuel ih =>
    intro now i c last
    unfold counter_check_during counter_check
    simp only []
    split_ifs <;> first
      | rfl
      | exact ih _ _ _ _

/-- While no other thread commits a descriptor, `contains_during` is `contains`. -/
theorem contains_during_const (KT : KeyTraits) (s : State) (key : Nat) :
    ∀ (fuel now : Nat), contains_during KT (fun _ => s) fuel now key = contains KT fuel s key := by
  intro fuel
  induction fuel with
  | zero =>
    intro now
    rfl
  | succ fuel ih =>
    intro now
    unfold contains_during contains
    simp only []
    have hp := contains_probe_during_const KT s key fuel now
      (KT.hash key &&& (s.m_table.length - 1)) 0 (2 ^ 64 - 1) []
    cases hd : contains_probe_during KT (fun _ => s) key fuel now
        (KT.hash key &&& (s.m_table.length - 1)) 0 (2 ^ 64 - 1) [] with
    | none =>
      rw [hd] at hp
      rw [← hp]
      rfl
    | some x =>
      obtain ⟨r, next⟩ := x
      rw [hd] at hp
      rw [← hp]
      cases r with
      | out_of_bounds => rfl
      | descriptor_full => rfl
      | done y =>
        obtain ⟨b, ts⟩ := y
        cases b with
        | true => rfl
        | false =>
          simp only [Option.map_some']
          have hc := counter_check_during_const s ts fuel next
            (KT.hash key &&& (s.m_table.length - 1)) 0 (2 ^ 64 - 1)
          cases hcd : counter_check_during (fun _ => s) ts fuel next
              (KT.hash key &&& (s.m_table.length - 1)) 0 (2 ^ 64 - 1) with
          | none =>
            rw [hcd] at hc
            rw [← hc]
            rfl
          | some z =>
            obtain ⟨c, next'⟩ := z
            rw [hcd] at hc
            rw [← hc]
            cases c with
            | true => rfl
            | false => exact ih next'

set_option maxRecDepth 100000 in
theorem raced_example_run :
    exec idTraits 8 (init idTraits 256 1) [Op.add 1, Op.add 257] = some (Run.done racedState) ∧
    contains idTraits 8 racedState 257 = some (Run.done true) ∧
    remove idTraits 8 racedState 1 = some (Run.done (true, racedStateAfter)) ∧
    contains idTraits 8 racedStateAfter 257 = some (Run.done true) ∧
    racedState.m_table.getD 2 0 = 257 ∧ racedStateAfter.m_table.getD 1 0 = 257 ∧
    racedState.m_timestamps.getD 0 0 = racedStateAfter.m_timestamps.getD 0 0 ∧
    contains_probe_during idTraits racedSchedule 257 8 0
      (idTraits.hash 257 &&& ((racedSchedule 0).m_table.length - 1)) 0 (2 ^ 64 - 1) [] =
        some (Run.done (false, [1, 2]), 2) ∧
    counter_check_during racedSchedule [1, 2] 8 2
      (idTraits.hash 257 &&& ((racedSchedule 0).m_table.length - 1)) 0 (2 ^ 64 - 1) =
        some (true, 4) ∧
    contains_during idTraits racedSchedule 8 0 257 = some (Run.done false) := by
  decide

/-- C19 fails on the code: take the set of capacity 256 built for one thread (two slots per
region) after `add(1)` and `add(257)`, with key 1 in slot 1 and key 257 in slot 2. One
thread calls `contains(257)` and runs the first iteration of its probe: it stores the
timestamp of region 0 and reads key 1 in slot 1. Another thread then runs `remove(1)`,
which moves key 257 back to slot 1, empties slot 2 and bumps the timestamp of region 1,
not that of region 0 into which it wrote. The first thread goes on: it stores the new
timestamp of region 1, finds slot 2 empty, finds both snapshots unchanged and returns
false. Key 257 is in the set before and after the `remove(1)`, and `contains(257)` returns
true on either state when run alone; no order of the two calls gives false. -/
theorem contains_misses_present_key :
    exec idTraits 8 (init idTraits 256 1) [Op.add 1, Op.add 257] = some (Run.done racedState) ∧
    contains idTraits 8 racedState 257 = some (Run.done true) ∧
    remove idTraits 8 racedState 1 = some (Run.done (true, racedStateAfter)) ∧
    contains idTraits 8 racedStateAfter 257 = some (Run.done true) ∧
    racedState.m_table.getD 2 0 = 257 ∧ racedStateAfter.m_table.getD 1 0 = 257 ∧
    racedState.m_timestamps.getD 0 0 = racedStateAfter.m_timestamps.getD 0 0 ∧
    contains_probe_during idTraits racedSchedule 257 8 0
      (idTraits.hash 257 &&& ((racedSchedule 0).m_table.length - 1)) 0 (2 ^ 64 - 1) [] =
        some (Run.done (false, [1, 2]), 2) ∧
    counter_check_during racedSchedule [1, 2] 8 2
      (idTraits.hash 257 &&& ((racedSchedule 0).m_table.length - 1)) 0 (2 ^ 64 - 1) =
        some (true, 4) ∧
    contains_during idTraits racedSchedule 8 0 257 = some (Run.done false) :=
  raced_example_run

end RHSetKCAS
end concurrent_data_structures

namespace concurrent_data_structures
namespace RHSetKCAS

open TransactionalRobinHoodSet (mask_eq_mod size_pos_of_pow)

/-! ### K-CAS Robin-Hood set: `add` on a full table -/

/-- On a table with no empty slot that does not hold the key, a probe of `add` that ends
with a result ends with `goto loopBegin`. -/
theorem add_probe_full (KT : KeyTraits) (s : State) (key p : Nat)
    (hp : s.m_table.length = 2 ^ p)
    (hfull : ∀ j < s.m_table.length, s.m_table.getD j 0 ≠ KT.NullKey)
    (hk : ∀ j < s.m_table.length, s.m_table.getD j 0 ≠ key) :
    ∀ (fuel i ad a last : Nat) (inced : Bool) (ats : Nat) (desc : List Entry) (r : Attempt),
      add_probe KT s key fuel i ad a last inced ats desc = some (Run.done r) →
      r = Attempt.retry := by
  have hN := size_pos_of_pow hp
  intro fuel
  induction fuel with
  | zero =>
    intro i ad a last inced ats desc r h
    simp [add_probe] at h
  | succ fuel ih =>
    intro i ad a last inced ats desc r h
    rw [add_probe] at h
    simp only [swap_entries_eq, read_value] at h
    have hcb : i &&& (s.m_table.length - 1) < s.m_table.length := by
      rw [mask_eq_mod hp]
      exact Nat.mod_lt _ hN
    have h1 := hfull _ hcb
    have h2 := hk _ hcb
    generalize i &&& (s.m_table.length - 1) = cb at h h1 h2
    generalize (if cb >>> s.m_timestamp_shift ≠ last then false else inced) = inced' at h
    generalize (if cb >>> s.m_timestamp_shift ≠ last then cb >>> s.m_timestamp_shift
      else last) = last' at h
    generalize (if cb >>> s.m_timestamp_shift ≠ last then
      s.m_timestamps.getD (cb >>> s.m_timestamp_shift) 0 else ats) = ats' at h
    generalize s.m_table.getD cb 0 = ck at h h1 h2
    generalize (if inced' = true then desc ++ [Entry.mk (Loc.table cb) ck a]
      else desc ++ [Entry.mk (Loc.table cb) ck a] ++
        [Entry.mk (Loc.timestamp last') ats' ((ats' + 1) % 2 ^ 64)]) = X at h
    rw [if_neg h1, if_neg h2] at h
    by_cases hX : X.length ≤ S_MAX_KCAS
    · simp only [hX, if_true] at h
      split_ifs at h <;> first
        | exact ih _ _ _ _ _ _ _ _ h
        | (cases h; rfl)
    · simp only [hX, if_false] at h
      split_ifs at h <;> first
        | exact ih _ _ _ _ _ _ _ _ h
        | (cases h; rfl)
        | cases h

/-- On a table with no empty slot that does not hold the key, `add` does not return: it
starts again from `loopBegin` or probes on, for every number of iterations, or it asks for
an entry of a descriptor that holds `S_MAX_KCAS` entries. -/
theorem add_full (KT : KeyTraits) (s : State) (key p : Nat)
    (hp : s.m_table.length = 2 ^ p)
    (hfull : ∀ j < s.m_table.length, s.m_table.getD j 0 ≠ KT.NullKey)
    (hk : ∀ j < s.m_table.length, s.m_table.getD j 0 ≠ key) :
    ∀ fuel, add KT fuel s key = none ∨ add KT fuel s key = some Run.descriptor_full := by
  intro fuel
  induction fuel with
  | zero => exact Or.inl rfl
  | succ fuel ih =>
    unfold add
    simp only []
    cases hpr : add_probe KT s key fuel (KT.hash key &&& (s.m_table.length - 1)) 0 key
        (2 ^ 64 - 1) false (2 ^ 64 - 1) [] with
    | none => exact Or.inl rfl
    | some x =>
      cases x with
      | out_of_bounds => exact absurd hpr (add_probe_in_bounds KT s key _ _ _ _ _ _ _ _)
      | descriptor_full => exact Or.inr rfl
      | done a =>
        have ha := add_probe_full KT s key p hp hfull hk _ _ _ _ _ _ _ _ _ hpr
        subst ha
        exact ih

end RHSetKCAS

namespace TransactionalRobinHoodSet

/-- C15, as stated, fails: `add` has no abort. On the full table `[0, 1, 2, 3]` (`h(k) = k`,
null key 255), which does not contain 4, the transactional `add(4)` returns for no number
of iterations: it probes, and displaces keys, forever. The K-CAS `add(4)` on a set with
these slots returns for no number of iterations either. -/
theorem add_never_returns_on_full_example :
    ¬ HasEmptySlot idTraits [0, 1, 2, 3] ∧ ¬ Occupies [0, 1, 2, 3] 4 ∧
    (¬ ∃ fuel r, add idTraits fuel [0, 1, 2, 3] 4 = some r) ∧
    ∀ s : RHSetKCAS.State, s.m_table = [0, 1, 2, 3] →
      ¬ ∃ fuel r, RHSetKCAS.add idTraits fuel s 4 = some (RHSetKCAS.Run.done r) := by
  refine ⟨by decide, by decide, ?_, ?_⟩
  · rintro ⟨fuel, r, h⟩
    have hnone : add idTraits fuel [0, 1, 2, 3] 4 = none :=
      add_loop_full idTraits (p := 2) fuel [0, 1, 2, 3] _ 4 0 rfl (by decide) (by decide)
        (by decide) (by decide)
    rw [hnone] at h
    cases h
  · rintro s hs ⟨fuel, r, h⟩
    have hfull : ∀ j < s.m_table.length, s.m_table.getD j 0 ≠ idTraits.NullKey := by
      rw [hs]
      decide
    have hk : ∀ j < s.m_table.length, s.m_table.getD j 0 ≠ 4 := by
      rw [hs]
      decide
    rcases RHSetKCAS.add_full idTraits s 4 2 (by rw [hs]; rfl) hfull hk fuel with h' | h'
    · rw [h'] at h
      cases h
    · rw [h'] at h
      cases h

/-- C15 as the code behaves: on every table of power-of-two size with no empty slot that
holds no key twice and does not contain `k`, `add(k)` never returns. For the transactional
set no number of iterations of its loop reaches a `return`, and the loop has no other exit.
For the K-CAS set on these slots no number of iterations reaches a `return` either: the
call starts again from `loopBegin` or probes on, or it asks for an entry of a descriptor
that already holds 3000, which the K-CAS engine decides. -/
theorem add_never_returns_on_full_table (KT : KeyTraits) (t : List Nat) (k p : Nat)
    (hp : t.length = 2 ^ p) (hfull : ¬ HasEmptySlot KT t) (hnd : NoDuplicateKey KT t)
    (hk : ¬ Occupies t k) (hkn : k ≠ KT.NullKey) :
    (∀ fuel, add KT fuel t k = none) ∧
    ∀ (fuel : Nat) (s : RHSetKCAS.State), s.m_table = t →
      RHSetKCAS.add KT fuel s k = none ∨
      RHSetKCAS.add KT fuel s k = some RHSetKCAS.Run.descriptor_full := by
  have hf : ∀ j < t.length, t.getD j 0 ≠ KT.NullKey := fun j hj e => hfull ⟨j, hj, e⟩
  refine ⟨fun fuel => ?_, fun fuel s hs => ?_⟩
  · exact add_loop_full KT fuel t _ k 0 hp hf
      (fun a ha b hb hab => hnd a ha b hb (hf a ha) hab)
      (fun j hj e => hk ⟨j, hj, e⟩) hkn
  · subst hs
    exact RHSetKCAS.add_full KT s k p hp hf (fun j hj e => hk ⟨j, hj, e⟩) fuel

theorem add_never_returns_on_full_table_witness :
    (∀ fuel, add idTraits fuel [0, 1, 2, 3] 4 = none) ∧
    ∀ (fuel : Nat) (s : RHSetKCAS.State), s.m_table = [0, 1, 2, 3] →
      RHSetKCAS.add idTraits fuel s 4 = none ∨
      RHSetKCAS.add idTraits fuel s 4 = some RHSetKCAS.Run.descriptor_full :=
  add_never_returns_on_full_table idTraits [0, 1, 2, 3] 4 2 rfl (by decide) (by decide)
    (by decide) (by decide)

end TransactionalRobinHoodSet
end concurrent_data_structures

namespace concurrent_data_structures
namespace TransactionalRobinHoodSet

/-! ### Transactional Robin-Hood set: `contains` on any table -/

theorem contains_loop_returns (KT : KeyTraits) (t : List Nat) (k : Nat) (hN : 0 < t.length) :
    ∀ fuel i c, c ≤ t.length → t.length + 1 ≤ fuel + c →
      ∃ b, contains_loop KT t k fuel i c = some b := by
  intro fuel
  induction fuel with
  | zero => intro i c h1 h2; omega
  | succ fuel ih =>
    intro i c hc hf
    simp only [contains_loop]
    split_ifs with h1 h2 h3
    · exact ⟨_, rfl⟩
    · exact ⟨_, rfl⟩
    · exact ⟨_, rfl⟩
    · have := distance_lt hN (KT.hash (t.getD (i &&& (t.length - 1)) 0) &&& (t.length - 1))
        (i &&& (t.length - 1))
      exact ih _ _ (by omega) (by omega)

theorem contains_loop_more_fuel (KT : KeyTraits) (t : List Nat) (k : Nat) (b : Bool) :
    ∀ fuel n i c, contains_loop KT t k fuel i c = some b →
      contains_loop KT t k (fuel + n) i c = some b := by
  intro fuel
  induction fuel with
  | zero => intro n i c h; simp [contains_loop] at h
  | succ fuel ih =>
    intro n i c h
    rw [Nat.add_right_comm]
    simp only [contains_loop] at h ⊢
    split_ifs at h ⊢ with h1 h2 h3
    · exact h
    · exact h
    · exact h
    · exact ih _ _ _ h

/-- C40: on every table with at least one slot, full or not, with or without the distance
invariant, and for every key, `contains` returns within `N + 1` iterations of its loop, one
slot being inspected in each: with fuel `N + 1` it returns a boolean, and with any larger
fuel it returns the same boolean. Every probe distance computed from a slot is below `N`,
which is why the walk stops once `cur_dist` has reached `N`. -/
theorem contains_always_returns (KT : KeyTraits) (t : List Nat) (k fuel : Nat)
    (hN : 0 < t.length) (hf : t.length + 1 ≤ fuel) :
    (∃ b, contains KT (t.length + 1) t k = some b ∧ contains KT fuel t k = some b) ∧
    ∀ a i, distance_from_slot t.length a i < t.length := by
  refine ⟨?_, fun a i => distance_lt hN a i⟩
  obtain ⟨b, hb⟩ := contains_loop_returns KT t k hN (t.length + 1) (KT.hash k) 0
    (Nat.zero_le _) (le_refl _)
  refine ⟨b, hb, ?_⟩
  have := contains_loop_more_fuel KT t k b (t.length + 1) (fuel - (t.length + 1))
    (KT.hash k) 0 hb
  rw [Nat.add_sub_cancel' hf] at this
  exact this

theorem contains_always_returns_witness :
    contains idTraits 4 [1, 2, 3, 0] 7 = none ∧
    (∃ b, contains idTraits (4 + 1) [1, 2, 3, 0] 7 = some b ∧
      contains idTraits 9 [1, 2, 3, 0] 7 = some b) ∧
    ∀ a i, distance_from_slot 4 a i < 4 :=
  ⟨by decide, contains_always_returns idTraits [1, 2, 3, 0] 7 9 (by decide) (by decide)⟩

end TransactionalRobinHoodSet
end concurrent_data_structures

namespace concurrent_data_structures
namespace EpochReclaimer

/-! ### Epoch reclaimer: the epochs -/

/-- C37: from the constructed reclaimer (global epoch 3, every local epoch 3), every
sequence of `enter`, `exit` and `retire` calls by threads below `num_threads`, in any
order, runs to a state in which every thread's local epoch is the global epoch or one
less; in that state the assertion of `enter` holds for every thread, so `enter` returns. -/
theorem local_epochs_close (T : Nat) (tr : List Step) (hthreads : ∀ st ∈ tr, st.thread < T) :
    ∃ s, run (init T) tr = some s ∧
      (∀ t < T, s.m_thread_epochs t = s.m_global_epoch ∨
        s.m_thread_epochs t + 1 = s.m_global_epoch) ∧
      ∀ t < T, ∃ s', enter s t = some s' := by
  obtain ⟨s, hr, hI, hn, -⟩ := run_count tr (init T) (init_epochsClose T) hthreads
  have hT : s.m_num_threads = T := hn
  refine ⟨s, hr, fun t ht => ?_, fun t ht => ?_⟩
  · have := hI t (by rw [hT]; exact ht)
    omega
  · rcases enter_cases s t (hI t (by rw [hT]; exact ht)) with ⟨-, h⟩ | ⟨-, h⟩
    · exact ⟨_, h⟩
    · exact ⟨_, h⟩

theorem local_epochs_close_witness :
    ∃ s, run (init 2) [Step.enter 0, Step.retire 100 0, Step.exit 0, Step.enter 1,
        Step.exit 1, Step.enter 0, Step.exit 0, Step.enter 0, Step.exit 0] = some s ∧
      (∀ t < 2, s.m_thread_epochs t = s.m_global_epoch ∨
        s.m_thread_epochs t + 1 = s.m_global_epoch) ∧
      ∀ t < 2, ∃ s', enter s t = some s' :=
  local_epochs_close 2 _ (by decide)

/-- C38: `exit(t)` leaves the global epoch one higher exactly when, before the call, the
local epoch of `t` and the local epoch of every thread equal the global epoch; otherwise it
leaves the global epoch as it was. It changes no local epoch, no garbage list and frees
nothing. `enter` and `retire` leave the global epoch as it was. -/
theorem exit_advances_iff_all_current (s : State) (t : Nat) :
    ((exit s t).m_global_epoch = s.m_global_epoch + 1 ↔
      (s.m_thread_epochs t = s.m_global_epoch ∧
        ∀ u < s.m_num_threads, s.m_thread_epochs u = s.m_global_epoch)) ∧
    ((exit s t).m_global_epoch = s.m_global_epoch + 1 ∨
      (exit s t).m_global_epoch = s.m_global_epoch) ∧
    (exit s t).m_thread_epochs = s.m_thread_epochs ∧
    (exit s t).m_garbage_list = s.m_garbage_list ∧
    (exit s t).freed = s.freed ∧ (exit s t).m_num_threads = s.m_num_threads ∧
    (∀ s', enter s t = some s' → s'.m_global_epoch = s.m_global_epoch) ∧
    ∀ p, (retire s p t).m_global_epoch = s.m_global_epoch := by
  refine ⟨?_, ?_, (exit_fields s t).2.1, (exit_fields s t).2.2.1, (exit_fields s t).2.2.2.1,
    (exit_fields s t).1, ?_, fun p => rfl⟩
  · unfold exit try_increment_epoch
    simp only []
    split_ifs with h1 h2
    · exact ⟨fun _ => ⟨h1, (all_epochs_iff s _).mp h2⟩, fun _ => rfl⟩
    · refine ⟨fun h => ?_, fun h => absurd ((all_epochs_iff s _).mpr h.2) h2⟩
      have h' : s.m_global_epoch = s.m_global_epoch + 1 := h
      omega
    · refine ⟨fun h => ?_, fun h => absurd h.1 h1⟩
      have h' : s.m_global_epoch = s.m_global_epoch + 1 := h
      omega
  · rcases (exit_fields s t).2.2.2.2 with h | ⟨h, -⟩
    · exact Or.inr h
    · exact Or.inl h
  · intro s' h
    unfold enter at h
    simp only [] at h
    split_ifs at h with h1 h2
    · cases h; rfl
    · cases h; rfl

end EpochReclaimer
end concurrent_data_structures

namespace concurrent_data_structures
namespace EpochReclaimer

/-! ### Epoch reclaimer: the list and the drain of a retired pointer -/

theorem step_pendingAt (s s' : State) (st : Step) (w E p : Nat) (hI : EpochsClose s)
    (ht : st.thread < s.m_num_threads) (h : step s st = some s')
    (hp : p ∉ retired [st]) (hP : PendingAt s w E p) : PendingAt s' w E p := by
  obtain ⟨hE, hP⟩ := hP
  cases st with
  | enter t =>
    rcases enter_cases s t (hI t ht) with ⟨-, he⟩ | ⟨hg, he⟩
    · have : s' = s := (Option.some.inj (he.symm.trans h)).symm
      subst this
      exact ⟨hE, hP⟩
    · have := Option.some.inj (he.symm.trans h)
      subst this
      unfold PendingAt
      show E ≤ Function.update s.m_thread_epochs t s.m_global_epoch w ∧
        ((Function.update s.m_thread_epochs t s.m_global_epoch w < E + 3 ∧
            p ∉ s.freed ++ s.m_garbage_list t (s.m_global_epoch % 3) ∧
            p ∈ Function.update s.m_garbage_list t
              (Function.update (s.m_garbage_list t) (s.m_global_epoch % 3) []) w (E % 3) ∧
            ∀ t' i, p ∈ Function.update s.m_garbage_list t
              (Function.update (s.m_garbage_list t) (s.m_global_epoch % 3) []) t' i →
              t' = w ∧ i = E % 3) ∨
          (E + 3 ≤ Function.update s.m_thread_epochs t s.m_global_epoch w ∧
            p ∈ s.freed ++ s.m_garbage_list t (s.m_global_epoch % 3)))
      have huniq : ∀ (hh : ∀ t i, p ∈ s.m_garbage_list t i → t = w ∧ i = E % 3) t' i,
          p ∈ Function.update s.m_garbage_list t
              (Function.update (s.m_garbage_list t) (s.m_global_epoch % 3) []) t' i →
          t' = w ∧ i = E % 3 := by
        intro hh t' i hm
        rcases (mem_update_list _ _ _ _ _ _ _).mp hm with ⟨-, h1⟩ | ⟨-, h1⟩
        · cases h1
        · exact hh _ _ h1
      by_cases ht0 : t = w
      · subst ht0
        rw [Function.update_same]
        rcases hP with ⟨h1, h2, h3, h4⟩ | ⟨h1, h2⟩
        · by_cases hm : s.m_global_epoch % 3 = E % 3
          · refine ⟨by omega, Or.inr ⟨by omega, ?_⟩⟩
            rw [hm]
            exact List.mem_append_right _ h3
          · refine ⟨by omega, Or.inl ⟨by omega, ?_, ?_, huniq h4⟩⟩
            · rw [List.mem_append]
              rintro (h5 | h5)
              · exact h2 h5
              · exact hm (h4 _ _ h5).2
            · exact (mem_update_list _ _ _ _ _ _ _).mpr
                (Or.inr ⟨fun hh => hm hh.2.symm, h3⟩)
        · exact ⟨by omega, Or.inr ⟨by omega, List.mem_append_left _ h2⟩⟩
      · rw [Function.update_noteq (fun e => ht0 e.symm)]
        refine ⟨hE, ?_⟩
        rcases hP with ⟨h1, h2, h3, h4⟩ | ⟨h1, h2⟩
        · refine Or.inl ⟨h1, ?_, ?_, huniq h4⟩
          · rw [List.mem_append]
            rintro (h5 | h5)
            · exact h2 h5
            · exact ht0 (h4 _ _ h5).1
          · exact (mem_update_list _ _ _ _ _ _ _).mpr
              (Or.inr ⟨fun hh => ht0 hh.1.symm, h3⟩)
        · exact Or.inr ⟨h1, List.mem_append_left _ h2⟩
  | exit t =>
    have : s' = exit s t := (Option.some.inj h).symm
    subst this
    obtain ⟨-, h2, h3, h4, -⟩ := exit_fields s t
    unfold PendingAt
    rw [h2, h3, h4]
    exact ⟨hE, hP⟩
  | retire q t =>
    have : s' = retire s q t := (Option.some.inj h).symm
    subst this
    have hq : p ≠ q := by
      intro e
      apply hp
      rw [e]
      simp [retired]
    refine ⟨hE, ?_⟩
    rcases hP with ⟨h1, h2, h3, h4⟩ | ⟨h1, h2⟩
    · refine Or.inl ⟨h1, h2, ?_, fun t' i hm => ?_⟩
      · show p ∈ Function.update s.m_garbage_list t
          (Function.update (s.m_garbage_list t) (s.m_thread_epochs t % S_NUM_EPOCHS)
            (s.m_garbage_list t (s.m_thread_epochs t % S_NUM_EPOCHS) ++ [q])) w (E % 3)
        rw [mem_update_list]
        by_cases hc : w = t ∧ E % 3 = s.m_thread_epochs t % S_NUM_EPOCHS
        · left
          refine ⟨hc, List.mem_append_left _ ?_⟩
          obtain ⟨hc1, hc2⟩ := hc
          subst hc1
          rw [← hc2]
          exact h3
        · exact Or.inr ⟨hc, h3⟩
      · rcases (mem_update_list _ _ _ _ _ _ _).mp hm with ⟨⟨h0, h0'⟩, h5⟩ | ⟨-, h5⟩
        · rw [List.mem_append] at h5
          rcases h5 with h5 | h5
          · rw [h0, h0']
            exact h4 _ _ h5
          · exact absurd (List.mem_singleton.mp h5) hq
        · exact h4 _ _ h5
    · exact Or.inr ⟨h1, h2⟩

theorem run_pendingAt :
    ∀ (tr : List Step) (s : State) (w E p : Nat), EpochsClose s →
      (∀ st ∈ tr, st.thread < s.m_num_threads) → p ∉ retired tr → PendingAt s w E p →
      ∃ s', run s tr = some s' ∧ EpochsClose s' ∧ s'.m_num_threads = s.m_num_threads ∧
        PendingAt s' w E p
  | [], s, _, _, _, hI, _, _, hP => ⟨s, rfl, hI, rfl, hP⟩
  | st :: tr, s, w, E, p, hI, ht, hp, hP => by
    rw [retired_cons, List.mem_append, not_or] at hp
    have hst := ht st (List.mem_cons_self _ _)
    obtain ⟨s1, h1, hI1, hn1⟩ := step_epochsClose s st hI hst
    obtain ⟨s', h2, hI2, hn2, hP2⟩ := run_pendingAt tr s1 w E p hI1
      (fun x hx => by rw [hn1]; exact ht x (List.mem_cons_of_mem _ hx)) hp.2
      (step_pendingAt s s1 st w E p hI hst h1 hp.1 hP)
    refine ⟨s', ?_, hI2, hn2.trans hn1, hP2⟩
    unfold run
    rw [h1]
    exact h2

theorem retire_pendingAt (s : State) (w E p : Nat) (hE : s.m_thread_epochs w = E)
    (hf : Fresh s p) : PendingAt (retire s p w) w E p := by
  refine ⟨by show E ≤ s.m_thread_epochs w; omega, Or.inl ⟨?_, hf.1, ?_, fun t i hm => ?_⟩⟩
  · show s.m_thread_epochs w < E + 3
    omega
  · show p ∈ Function.update s.m_garbage_list w
      (Function.update (s.m_garbage_list w) (s.m_thread_epochs w % S_NUM_EPOCHS)
        (s.m_garbage_list w (s.m_thread_epochs w % S_NUM_EPOCHS) ++ [p])) w (E % 3)
    rw [mem_update_list]
    exact Or.inl ⟨⟨rfl, by rw [hE]; rfl⟩, List.mem_append_right _ (List.mem_singleton.mpr rfl)⟩
  · rcases (mem_update_list _ _ _ _ _ _ _).mp hm with ⟨⟨h0, h0'⟩, -⟩ | ⟨-, h5⟩
    · exact ⟨h0, by rw [h0', hE]; rfl⟩
    · exact absurd h5 (hf.2 _ _)

end EpochReclaimer
end concurrent_data_structures

namespace concurrent_data_structures
namespace EpochReclaimer

theorem step_local_epoch (s s' : State) (st : Step) (w : Nat) (hI : EpochsClose s)
    (ht : st.thread < s.m_num_threads) (h : step s st = some s') :
    s'.m_thread_epochs w = s.m_thread_epochs w ∨
      (st = Step.enter w ∧ s'.m_thread_epochs w = s.m_thread_epochs w + 1) := by
  cases st with
  | enter t =>
    rcases enter_cases s t (hI t ht) with ⟨-, he⟩ | ⟨hg, he⟩
    · have : s' = s := (Option.some.inj (he.symm.trans h)).symm
      subst this
      exact Or.inl rfl
    · have := Option.some.inj (he.symm.trans h)
      subst this
      show Function.update s.m_thread_epochs t s.m_global_epoch w = s.m_thread_epochs w ∨
        (Step.enter t = Step.enter w ∧
          Function.update s.m_thread_epochs t s.m_global_epoch w = s.m_thread_epochs w + 1)
      by_cases hwt : w = t
      · subst hwt
        rw [Function.update_same]
        exact Or.inr ⟨rfl, hg⟩
      · rw [Function.update_noteq hwt]
        exact Or.inl rfl
  | exit t =>
    have : s' = exit s t := (Option.some.inj h).symm
    subst this
    rw [(exit_fields s t).2.1]
    exact Or.inl rfl
  | retire q t =>
    have : s' = retire s q t := (Option.some.inj h).symm
    subst this
    exact Or.inl rfl

/-- C39: take any calls `tr0` from the constructed reclaimer, after which thread `w` retires
pointer `p` (not retired before or again) while its local epoch is `e`, then any calls `tr`
and one more call `st`. All calls run. Right after `retire`, `p` is in the garbage list
`e % 3` of thread `w` and in no other list. After `tr`, `p` has been freed exactly when the
local epoch of `w` has reached `e + 3`. The call `st` is the one that frees `p` exactly when
it is `enter` of thread `w` raising its local epoch from `e + 2` to `e + 3`. -/
theorem retired_pointer_freed_at_third_enter (T w p : Nat) (tr0 tr : List Step) (st : Step)
    (h0 : ∀ x ∈ tr0, x.thread < T) (h1 : ∀ x ∈ tr, x.thread < T)
    (hst : st.thread < T) (hp0 : p ∉ retired tr0) (hp1 : p ∉ retired tr)
    (hpst : p ∉ retired [st]) :
    ∃ s0, run (init T) tr0 = some s0 ∧
      p ∈ (retire s0 p w).m_garbage_list w (s0.m_thread_epochs w % 3) ∧
      (∀ t i, p ∈ (retire s0 p w).m_garbage_list t i →
        t = w ∧ i = s0.m_thread_epochs w % 3) ∧
      ∃ s, run (retire s0 p w) tr = some s ∧
        (p ∈ s.freed ↔ s0.m_thread_epochs w + 3 ≤ s.m_thread_epochs w) ∧
        ∃ s', step s st = some s' ∧
          ((p ∉ s.freed ∧ p ∈ s'.freed) ↔
            (st = Step.enter w ∧ s.m_thread_epochs w = s0.m_thread_epochs w + 2 ∧
              s'.m_thread_epochs w = s0.m_thread_epochs w + 3)) := by
  obtain ⟨s0, hr0, hI0, hn0, hf0⟩ :=
    run_fresh tr0 (init T) p (init_epochsClose T) h0 (init_fresh T p) hp0
  have hT0 : s0.m_num_threads = T := hn0
  have hPr := retire_pendingAt s0 w (s0.m_thread_epochs w) p rfl hf0
  obtain ⟨s, hr, hI, hn, hP⟩ := run_pendingAt tr (retire s0 p w) w (s0.m_thread_epochs w) p
    (retire_epochsClose s0 p w hI0)
    (fun x hx => by show x.thread < s0.m_num_threads; rw [hT0]; exact h1 x hx) hp1 hPr
  have hT : s.m_num_threads = T := hn.trans hT0
  obtain ⟨s', hs', hI', -⟩ := step_epochsClose s st hI (by rw [hT]; exact hst)
  have hP' := step_pendingAt s s' st w (s0.m_thread_epochs w) p hI (by rw [hT]; exact hst)
    hs' hpst hP
  have hfreed : ∀ x : State, PendingAt x w (s0.m_thread_epochs w) p →
      (p ∈ x.freed ↔ s0.m_thread_epochs w + 3 ≤ x.m_thread_epochs w) := by
    intro x hx
    rcases hx.2 with ⟨h2, h3, -, -⟩ | ⟨h2, h3⟩
    · exact ⟨fun h => absurd h h3, fun h => by omega⟩
    · exact ⟨fun _ => h2, fun _ => h3⟩
  refine ⟨s0, hr0, ?_, ?_, s, hr, hfreed s hP, s', hs', ?_⟩
  · rcases hPr.2 with ⟨-, -, h3, -⟩ | ⟨h2, -⟩
    · exact h3
    · have : (retire s0 p w).m_thread_epochs w = s0.m_thread_epochs w := rfl
      omega
  · rcases hPr.2 with ⟨-, -, -, h4⟩ | ⟨h2, -⟩
    · exact h4
    · have : (retire s0 p w).m_thread_epochs w = s0.m_thread_epochs w := rfl
      omega
  · have hstep := step_local_epoch s s' st w hI (by rw [hT]; exact hst) hs'
    rw [hfreed s hP, hfreed s' hP']
    have hle := hP.1
    constructor
    · rintro ⟨h2, h3⟩
      rcases hstep with h | ⟨h4, h5⟩
      · omega
      · exact ⟨h4, by omega, by omega⟩
    · rintro ⟨-, h2, h3⟩
      omega

theorem retired_pointer_freed_at_third_enter_witness :
    ∃ s0, run (init 2) [Step.enter 0] = some s0 ∧
      100 ∈ (retire s0 100 0).m_garbage_list 0 (s0.m_thread_epochs 0 % 3) ∧
      (∀ t i, 100 ∈ (retire s0 100 0).m_garbage_list t i →
        t = 0 ∧ i = s0.m_thread_epochs 0 % 3) ∧
      ∃ s, run (retire s0 100 0)
          [Step.exit 0, Step.enter 1, Step.exit 1, Step.enter 0, Step.exit 0, Step.enter 1,
            Step.exit 1, Step.enter 0, Step.exit 0, Step.enter 1, Step.exit 1] = some s ∧
        (100 ∈ s.freed ↔ s0.m_thread_epochs 0 + 3 ≤ s.m_thread_epochs 0) ∧
        ∃ s', step s (Step.enter 0) = some s' ∧
          ((100 ∉ s.freed ∧ 100 ∈ s'.freed) ↔
            (Step.enter 0 = Step.enter 0 ∧ s.m_thread_epochs 0 = s0.m_thread_epochs 0 + 2 ∧
              s'.m_thread_epochs 0 = s0.m_thread_epochs 0 + 3)) :=
  retired_pointer_freed_at_third_enter 2 0 100 _ _ _ (by decide) (by decide) (by decide)
    (by decide) (by decide) (by decide)

end EpochReclaimer
end concurrent_data_structures

namespace concurrent_data_structures
namespace HopscotchHashSet

/-! ### Hopscotch: every claimed bucket is on the list of its home bucket -/

theorem exec_or_exit (KT : KeyTraits) (cfg : Config) (fuel : Nat) :
    ∀ (ops : List Op) (t : List Bucket) (S : Finset Nat), Represents KT cfg t S →
      (t.length : Int) ≤ 2147483648 →
      (cfg.m_size_mask : Int) + (cfg._cache_mask : Int) < (t.length : Int) →
      (cfg.m_size_mask : Int) + 1 < (t.length : Int) →
      t.length + cfg._cache_mask + 1 < fuel →
      (∀ op ∈ ops, KT.hash op.key % 2 ^ 32 ≠ 0) →
      run KT cfg fuel t ops = some none ∨
      ∃ t' S', exec KT cfg fuel t ops = some t' ∧ Represents KT cfg t' S'
  | [], t, S, hrep, _, _, _, _, _ => Or.inr ⟨t, S, rfl, hrep⟩
  | Op.contains k :: ops, t, S, hrep, hL, hM, hM1, hfuel, hh => by
    unfold exec run
    rw [hopscotch_contains_refines KT cfg hrep k fuel (by omega)]
    rcases exec_or_exit KT cfg fuel ops t S hrep hL hM hM1 hfuel
      (fun op hop => hh op (List.mem_cons_of_mem _ hop)) with h | h
    · left
      simp only [h]
      rfl
    · exact Or.inr h
  | Op.add k :: ops, t, S, hrep, hL, hM, hM1, hfuel, hh => by
    unfold exec run
    rcases hopscotch_add_refines KT cfg hrep k fuel hL hM hM1 (hh _ (List.mem_cons_self _ _))
      hfuel with ⟨he, -⟩ | ⟨t1, he, hrep1, hlen⟩
    · left
      rw [he]
    · rw [he]
      rcases exec_or_exit KT cfg fuel ops t1 _ hrep1 (by rw [hlen]; exact hL)
        (by rw [hlen]; exact hM) (by rw [hlen]; exact hM1) (by rw [hlen]; exact hfuel)
        (fun op hop => hh op (List.mem_cons_of_mem _ hop)) with h | h
      · left
        simp only [h]
        rfl
      · exact Or.inr h
  | Op.remove k :: ops, t, S, hrep, hL, hM, hM1, hfuel, hh => by
    unfold exec run
    obtain ⟨t1, he, hrep1, hlen⟩ := hopscotch_remove_refines KT cfg hrep k fuel hL hM hfuel
    rw [he]
    rcases exec_or_exit KT cfg fuel ops t1 _ hrep1 (by rw [hlen]; exact hL)
      (by rw [hlen]; exact hM) (by rw [hlen]; exact hM1) (by rw [hlen]; exact hfuel)
      (fun op hop => hh op (List.mem_cons_of_mem _ hop)) with h | h
    · left
      simp only [h]
      rfl
    · exact Or.inr h

/-- C31: started on the empty Hopscotch table of `n` home buckets, every sequence of calls of
one thread on keys whose 32-bit hash is not 0 either ends in an `add` that finds no free
bucket and reaches `exit(1)`, or runs to a table with lists `ms h`, one for each home
bucket `h`, such that: `ms h` is the finite list of the buckets met by following
`_first_delta` from `h` and then `_next_delta` from bucket to bucket up to `_NULL_DELTA`;
every occupied bucket (hash word not 0) is on the list of the home bucket of its key; and
every bucket on the list of `h` is occupied by a key whose home bucket is `h`. -/
theorem occupied_buckets_on_home_lists (KT : KeyTraits) (cfg : Config) (n : Nat)
    (ops : List Op) (fuel : Nat) (hmask : cfg.m_size_mask + 1 = n)
    (hsize : n + 4097 ≤ 2147483648) (hline : 2 * cfg._cache_mask ≤ 4096)
    (hhash : ∀ op ∈ ops, KT.hash op.key % 2 ^ 32 ≠ 0)
    (hfuel : n + 4097 + cfg._cache_mask + 1 < fuel) :
    run KT cfg fuel (emptyTable KT n) ops = some none ∨
    ∃ (t : List Bucket) (ms : Int → List Int),
      exec KT cfg fuel (emptyTable KT n) ops = some t ∧
      (∀ h, Chain KT t h (bucketAt KT t h)._first_delta (ms h)) ∧
      (∀ i, (bucketAt KT t i)._hash ≠ 0 → i ∈ ms (home KT cfg (bucketAt KT t i)._key)) ∧
      ∀ h m, m ∈ ms h →
        (bucketAt KT t m)._hash ≠ 0 ∧ home KT cfg (bucketAt KT t m)._key = h := by
  have hlen := length_emptyTable KT n
  rcases exec_or_exit KT cfg fuel ops (emptyTable KT n) ∅ (emptyTable_represents KT cfg n)
    (by rw [hlen]; push_cast; omega) (by rw [hlen]; push_cast; omega)
    (by rw [hlen]; push_cast; omega) (by rw [hlen]; omega) hhash with h | ⟨t, S, he, hrep⟩
  · exact Or.inl h
  · obtain ⟨ms, hwf, -⟩ := hrep
    refine Or.inr ⟨t, ms, he, hwf.chain, fun i hi => ?_, fun h m hm => ?_⟩
    · obtain ⟨h, hm⟩ := hwf.claimed i hi
      rw [(hwf.member h i hm).2.2.2.2]
      exact hm
    · exact ⟨(hwf.member h m hm).2.2.1, (hwf.member h m hm).2.2.2.2⟩

theorem occupied_buckets_on_home_lists_witness :
    run idTraits { m_size_mask := 15, _cache_mask := 3, _is_cacheline_alignment := true } 4200
        (emptyTable idTraits 16)
        [Op.add 5, Op.add 21, Op.add 37, Op.add 53, Op.remove 21] ≠ some none ∧
    (run idTraits { m_size_mask := 15, _cache_mask := 3, _is_cacheline_alignment := true } 4200
        (emptyTable idTraits 16)
        [Op.add 5, Op.add 21, Op.add 37, Op.add 53, Op.remove 21] = some none ∨
    ∃ (t : List Bucket) (ms : Int → List Int),
      exec idTraits { m_size_mask := 15, _cache_mask := 3, _is_cacheline_alignment := true }
        4200 (emptyTable idTraits 16)
        [Op.add 5, Op.add 21, Op.add 37, Op.add 53, Op.remove 21] = some t ∧
      (∀ h, Chain idTraits t h (bucketAt idTraits t h)._first_delta (ms h)) ∧
      (∀ i, (bucketAt idTraits t i)._hash ≠ 0 →
        i ∈ ms (home idTraits
          { m_size_mask := 15, _cache_mask := 3, _is_cacheline_alignment := true }
          (bucketAt idTraits t i)._key)) ∧
      ∀ h m, m ∈ ms h →
        (bucketAt idTraits t m)._hash ≠ 0 ∧
        home idTraits { m_size_mask := 15, _cache_mask := 3, _is_cacheline_alignment := true }
          (bucketAt idTraits t m)._key = h) :=
  ⟨by decide, occupied_buckets_on_home_lists idTraits
    { m_size_mask := 15, _cache_mask := 3, _is_cacheline_alignment := true } 16
    [Op.add 5, Op.add 21, Op.add 37, Op.add 53, Op.remove 21] 4200 (by decide) (by decide)
    (by decide) (by decide) (by decide)⟩

end HopscotchHashSet
end concurrent_data_structures

namespace concurrent_data_structures
namespace MagedMichael

/-! ### The links written by `add` and `remove` on an ascending unmarked chain -/

theorem list_add_links (cell key b sfuel n : Nat) (s : State) (bound : Nat) (ks : List Nat)
    (hb : b < s.m_table.length)
    (hchain : Chain s.mem bound (load s (Loc.head b)) ks)
    (hs : ks.Pairwise (fun a b => a < b)) (hfuel : ks.length < sfuel) (hmem : key ∉ ks)
    (hc0 : cell ≠ 0) (hce : cell % 2 = 0) (hcb : cell < bound) (hck : (s.mem cell).key = key) :
    ∃ prev cur s', Link s (Loc.head b) (ks.takeWhile (fun x => decide (x < key))) prev ∧
      load s prev = cur ∧
      Chain s.mem bound cur (ks.dropWhile (fun x => decide (x < key))) ∧
      s' = store (store s (Loc.next cell) cur) prev cell ∧
      list_add cell key b sfuel (n + 1) s = some (true, s') ∧
      Chain s'.mem bound (load s' (Loc.head b))
        (ks.takeWhile (fun x => decide (x < key)) ++
          key :: ks.dropWhile (fun x => decide (x < key))) ∧
      (ks.takeWhile (fun x => decide (x < key)) ++
          key :: ks.dropWhile (fun x => decide (x < key))).Pairwise (fun a b => a < b) ∧
      load s' prev = cell ∧ (s'.mem cell).next = cur ∧ (s'.mem cell).key = key := by
  obtain ⟨prev', cur', nx', hrun, hlink, hload, hchain2, _⟩ :=
    search_loop_chain key b s bound ks sfuel (Loc.head b) _ 0 rfl hchain hs hfuel
  have hsplit := List.takeWhile_append_dropWhile (fun x => decide (x < key)) ks
  have hlt1 := takeWhile_lt key ks
  have hgt2 := split_absent hs hmem
  generalize hks1 : ks.takeWhile (fun x => decide (x < key)) = ks1 at *
  generalize hks2 : ks.dropWhile (fun x => decide (x < key)) = ks2 at *
  subst hsplit
  have hown := link_from_head s bound b ks1 ks2 prev' hlink hchain
  have hprev_cell : prev' ≠ Loc.next cell := by
    rcases hown with h | ⟨c, hc, _, hkc⟩
    · rw [h]; exact fun e => by cases e
    · rw [hc]
      intro e
      cases e
      have := hlt1 _ hkc
      omega
  have hprev_len : ∀ b0, prev' = Loc.head b0 → b0 < s.m_table.length := by
    intro b0 h0
    rcases hown with h | ⟨c, hc, _⟩
    · rw [h] at h0; cases h0; exact hb
    · rw [hc] at h0; cases h0
  have hcas : compare_exchange_weak (store s (Loc.next cell) cur') prev' cur' cell =
      (true, store (store s (Loc.next cell) cur') prev' cell) := by
    unfold compare_exchange_weak
    rw [load_store_other _ _ _ _ hprev_cell, hload, if_pos rfl]
  have hmem_same : ∀ a, a ≠ cell → Loc.next a ≠ prev' →
      (store (store s (Loc.next cell) cur') prev' cell).mem a = s.mem a := by
    intro a h1 h2
    rw [store_mem_other _ _ _ _ (fun e => h2 e.symm),
      store_mem_other _ _ _ _ (by intro e; cases e; exact h1 rfl)]
  have hnext : ((store (store s (Loc.next cell) cur') prev' cell).mem cell).next = cur' := by
    rw [store_mem_other _ _ _ _ hprev_cell]
    exact load_store_same s (Loc.next cell) cur' (fun b0 h0 => by cases h0)
  have hnew : Chain (store (store s (Loc.next cell) cur') prev' cell).mem bound cell
      (key :: ks2) := by
    refine ⟨hc0, hce, hcb, by rw [store_key, store_key]; exact hck, ?_⟩
    rw [hnext]
    refine chain_frame ks2 cur' hchain2 ?_
    intro a _ hka
    refine hmem_same a ?_ ?_
    · intro e; subst e; rw [hck] at hka; exact hmem (List.mem_append_right _ hka)
    · intro e
      rcases hown with h | ⟨c, hc, _, hkc⟩
      · rw [h] at e; cases e
      · rw [hc] at e; cases e
        have h1 := hlt1 _ hkc
        have h2 := hgt2 _ hka
        omega
  refine ⟨prev', cur', store (store s (Loc.next cell) cur') prev' cell, hlink, hload, hchain2,
    rfl, ?_, ?_, ?_, ?_, hnext, by rw [store_key, store_key]; exact hck⟩
  · unfold list_add search
    rw [hrun]
    simp only [hmem, if_false]
    rw [if_neg (by intro h; cases h)]
    simp only [hcas]
  · refine chain_relink (le_refl bound) (fun a => by rw [store_key, store_key]) ?_
      (load_store_same _ prev' cell (by rw [store_length]; exact hprev_len)) hnew ks1
      (Loc.head b) hlink hchain hs (fun c hc => by cases hc)
      (Or.inr (fun k hk => by rw [hck]; exact hlt1 k hk))
    intro l h1 h2
    rw [load_store_other _ _ _ _ h1, load_store_other _ _ _ _ h2]
  · rw [List.pairwise_append] at hs ⊢
    refine ⟨hs.1, ?_, ?_⟩
    · rw [List.pairwise_cons]; exact ⟨hgt2, hs.2.1⟩
    · intro x hx y hy
      rcases List.mem_cons.mp hy with h | h
      · rw [h]; exact hlt1 x hx
      · exact hs.2.2 x hx y h
  · exact load_store_same _ prev' cell (by rw [store_length]; exact hprev_len)

theorem list_remove_unlinks (key b sfuel n : Nat) (s : State) (bound : Nat) (ks : List Nat)
    (hb : b < s.m_table.length)
    (hchain : Chain s.mem bound (load s (Loc.head b)) ks)
    (hs : ks.Pairwise (fun a b => a < b)) (hfuel : ks.length < sfuel) (hmem : key ∈ ks) :
    ∃ prev cur s', Link s (Loc.head b) (ks.takeWhile (fun x => decide (x < key))) prev ∧
      load s prev = cur ∧ cur ≠ 0 ∧ (s.mem cur).key = key ∧
      s' = store (store s (Loc.next cur) (Cell.mark (s.mem cur).next)) prev (s.mem cur).next ∧
      list_remove key b sfuel (n + 1) s = some (true, s') ∧
      Chain s'.mem bound (load s' (Loc.head b)) (ks.erase key) ∧
      (ks.erase key).Pairwise (fun a b => a < b) ∧
      load s' prev = (s.mem cur).next ∧
      ∀ l, l ≠ prev → l ≠ Loc.next cur → load s' l = load s l := by
  obtain ⟨prev', cur', nx', hrun, hlink, hload, hchain2, hnx⟩ :=
    search_loop_chain key b s bound ks sfuel (Loc.head b) _ 0 rfl hchain hs hfuel
  have hnx' := hnx hmem
  subst hnx'
  have hsplit := List.takeWhile_append_dropWhile (fun x => decide (x < key)) ks
  have hlt1 := takeWhile_lt key ks
  obtain ⟨rest, hdrop, hgt2⟩ := split_present hs hmem
  rw [hdrop] at hsplit hchain2
  generalize hks1 : ks.takeWhile (fun x => decide (x < key)) = ks1 at *
  subst hsplit
  obtain ⟨hcur0, hcure, hcurb, hcurk, hrest⟩ := hchain2
  have hne := chain_even hrest
  have hown := link_from_head s bound b ks1 (key :: rest) prev' hlink hchain
  have hprev_cur : prev' ≠ Loc.next cur' := by
    rcases hown with h | ⟨c, hc, _, hkc⟩
    · rw [h]; exact fun e => by cases e
    · rw [hc]
      intro e
      cases e
      have := hlt1 _ hkc
      omega
  have hprev_len : ∀ b0, prev' = Loc.head b0 → b0 < s.m_table.length := by
    intro b0 h0
    rcases hown with h | ⟨c, hc, _⟩
    · rw [h] at h0; cases h0; exact hb
    · rw [hc] at h0; cases h0
  have hcas1 : compare_exchange_weak s (Loc.next cur') (s.mem cur').next
      (Cell.mark (s.mem cur').next) =
      (true, store s (Loc.next cur') (Cell.mark (s.mem cur').next)) := by
    unfold compare_exchange_weak
    exact if_pos rfl
  have hcas2 : compare_exchange_weak (store s (Loc.next cur') (Cell.mark (s.mem cur').next))
      prev' cur' (Cell.get_ptr (s.mem cur').next) =
      (true, store (store s (Loc.next cur') (Cell.mark (s.mem cur').next)) prev'
        (s.mem cur').next) := by
    unfold compare_exchange_weak
    rw [load_store_other _ _ _ _ hprev_cur, hload, if_pos rfl, get_ptr_even hne]
  have herase : (ks1 ++ key :: rest).erase key = ks1 ++ rest := by
    rw [List.erase_append_right _ (fun h => by have := hlt1 _ h; omega),
      List.erase_cons_head]
  rw [herase]
  have hmem_same : ∀ a, a ≠ cur' → Loc.next a ≠ prev' →
      (store (store s (Loc.next cur') (Cell.mark (s.mem cur').next)) prev'
        (s.mem cur').next).mem a = s.mem a := by
    intro a h1 h2
    rw [store_mem_other _ _ _ _ (fun e => h2 e.symm),
      store_mem_other _ _ _ _ (by intro e; cases e; exact h1 rfl)]
  have hnew : Chain (store (store s (Loc.next cur') (Cell.mark (s.mem cur').next)) prev'
      (s.mem cur').next).mem bound (s.mem cur').next rest := by
    refine chain_frame rest _ hrest ?_
    intro a _ hka
    refine hmem_same a ?_ ?_
    · intro e; subst e; rw [hcurk] at hka; have := hgt2 _ hka; omega
    · intro e
      rcases hown with h | ⟨c, hc, _, hkc⟩
      · rw [h] at e; cases e
      · rw [hc] at e; cases e
        have h1 := hlt1 _ hkc
        have h2 := hgt2 _ hka
        omega
  refine ⟨prev', cur', store (store s (Loc.next cur') (Cell.mark (s.mem cur').next)) prev'
    (s.mem cur').next, hlink, hload, hcur0, hcurk, rfl, ?_, ?_, ?_, ?_, ?_⟩
  · unfold list_remove search
    rw [hrun]
    simp only [hmem, if_true]
    rw [if_neg (by intro h; cases h)]
    simp only [hcas1, hcas2]
  · refine chain_relink (le_refl bound) (fun a => by rw [store_key, store_key]) ?_
      (load_store_same _ prev' _ (by rw [store_length]; exact hprev_len)) hnew ks1
      (Loc.head b) hlink hchain hs (fun c hc => by cases hc)
      (Or.inr (fun k hk => by rw [hcurk]; exact hlt1 k hk))
    intro l h1 h2
    rw [load_store_other _ _ _ _ h1, load_store_other _ _ _ _ h2]
  · rw [List.pairwise_append] at hs ⊢
    refine ⟨hs.1, (List.pairwise_cons.mp hs.2.1).2, ?_⟩
    intro x hx y hy
    exact hs.2.2 x hx y (List.mem_cons_of_mem _ hy)
  · exact load_store_same _ prev' _ (by rw [store_length]; exact hprev_len)
  · intro l h1 h2
    rw [load_store_other _ _ _ _ h1, load_store_other _ _ _ _ h2]

end MagedMichael
end concurrent_data_structures

namespace concurrent_data_structures
namespace MagedMichael

/-- C33: take a bucket list that is an unmarked chain (every link from the head on is an
even, non-null pointer to an allocated cell, up to the final null) of the strictly ascending
keys `ks`, and a new cell holding `key`. `LinkedList::add` returns true exactly when `key`
is not in `ks`; it then stores the first cell whose key is not below `key` (or null) in the
new cell and the new cell in the link before it, so the list becomes the chain of the keys
below `key`, then `key`, then the others. `LinkedList::remove` returns true exactly when
`key` is in `ks`; it then marks the link of the cell of `key` and stores its successor in
the link before it, so the list becomes the chain of `ks` without `key`. In both cases the
list is again an unmarked chain of strictly ascending keys, and a call that returns false
leaves the state as it was. -/
theorem list_stays_ascending (cell key b sfuel n : Nat) (s : State) (bound : Nat)
    (ks : List Nat) (hb : b < s.m_table.length)
    (hchain : Chain s.mem bound (load s (Loc.head b)) ks)
    (hs : ks.Pairwise (fun a b => a < b)) (hfuel : ks.length < sfuel)
    (hc0 : cell ≠ 0) (hce : cell % 2 = 0) (hcb : cell < bound)
    (hck : (s.mem cell).key = key) :
    (∃ s' ks', list_add cell key b sfuel (n + 1) s = some (decide (key ∉ ks), s') ∧
      Chain s'.mem bound (load s' (Loc.head b)) ks' ∧ ks'.Pairwise (fun a b => a < b) ∧
      (key ∈ ks → s' = s ∧ ks' = ks) ∧
      (key ∉ ks →
        ks' = ks.takeWhile (fun x => decide (x < key)) ++
          key :: ks.dropWhile (fun x => decide (x < key)) ∧
        ∃ prev cur, Link s (Loc.head b) (ks.takeWhile (fun x => decide (x < key))) prev ∧
          load s prev = cur ∧
          Chain s.mem bound cur (ks.dropWhile (fun x => decide (x < key))) ∧
          s' = store (store s (Loc.next cell) cur) prev cell ∧
          load s' prev = cell ∧ (s'.mem cell).next = cur)) ∧
    (∃ s' ks', list_remove key b sfuel (n + 1) s = some (decide (key ∈ ks), s') ∧
      Chain s'.mem bound (load s' (Loc.head b)) ks' ∧ ks'.Pairwise (fun a b => a < b) ∧
      (key ∉ ks → s' = s ∧ ks' = ks) ∧
      (key ∈ ks →
        ks' = ks.erase key ∧
        ∃ prev cur, Link s (Loc.head b) (ks.takeWhile (fun x => decide (x < key))) prev ∧
          load s prev = cur ∧ cur ≠ 0 ∧ (s.mem cur).key = key ∧
          s' = store (store s (Loc.next cur) (Cell.mark (s.mem cur).next)) prev
            (s.mem cur).next ∧
          load s' prev = (s.mem cur).next ∧
          ∀ l, l ≠ prev → l ≠ Loc.next cur → load s' l = load s l)) := by
  by_cases hmem : key ∈ ks
  · constructor
    · refine ⟨s, ks, ?_, hchain, hs, fun _ => ⟨rfl, rfl⟩, fun h => absurd hmem h⟩
      rw [list_add_found cell key b sfuel n s bound ks hchain hs hfuel hmem]
      simp [hmem]
    · obtain ⟨prev, cur, s', h1, h2, h3, h4, h5, h6, h7, h8, h9, h10⟩ :=
        list_remove_unlinks key b sfuel n s bound ks hb hchain hs hfuel hmem
      refine ⟨s', ks.erase key, ?_, h7, h8, fun h => absurd hmem h, fun _ =>
        ⟨rfl, prev, cur, h1, h2, h3, h4, h5, h9, h10⟩⟩
      rw [h6]
      simp [hmem]
  · constructor
    · obtain ⟨prev, cur, s', h1, h2, h3, h4, h5, h6, h7, h8, h9, -⟩ :=
        list_add_links cell key b sfuel n s bound ks hb hchain hs hfuel hmem hc0 hce hcb hck
      refine ⟨s', _, ?_, h6, h7, fun h => absurd h hmem, fun _ =>
        ⟨rfl, prev, cur, h1, h2, h3, h4, h8, h9⟩⟩
      rw [h5]
      simp [hmem]
    · refine ⟨s, ks, ?_, hchain, hs, fun _ => ⟨rfl, rfl⟩, fun h => absurd h hmem⟩
      rw [list_remove_absent key b sfuel n s bound ks hchain hs hfuel hmem]
      simp [hmem]

theorem list_stays_ascending_witness :
    (∃ s' ks', list_add 48 3 0 3 (0 + 1) exampleList = some (decide (3 ∉ [1, 5]), s') ∧
      Chain s'.mem 64 (load s' (Loc.head 0)) ks' ∧ ks'.Pairwise (fun a b => a < b) ∧
      (3 ∈ [1, 5] → s' = exampleList ∧ ks' = [1, 5]) ∧
      (3 ∉ [1, 5] →
        ks' = [1, 5].takeWhile (fun x => decide (x < 3)) ++
          3 :: [1, 5].dropWhile (fun x => decide (x < 3)) ∧
        ∃ prev cur,
          Link exampleList (Loc.head 0) ([1, 5].takeWhile (fun x => decide (x < 3))) prev ∧
          load exampleList prev = cur ∧
          Chain exampleList.mem 64 cur ([1, 5].dropWhile (fun x => decide (x < 3))) ∧
          s' = store (store exampleList (Loc.next 48) cur) prev 48 ∧
          load s' prev = 48 ∧ (s'.mem 48).next = cur)) ∧
    (∃ s' ks', list_remove 3 0 3 (0 + 1) exampleList = some (decide (3 ∈ [1, 5]), s') ∧
      Chain s'.mem 64 (load s' (Loc.head 0)) ks' ∧ ks'.Pairwise (fun a b => a < b) ∧
      (3 ∉ [1, 5] → s' = exampleList ∧ ks' = [1, 5]) ∧
      (3 ∈ [1, 5] →
        ks' = [1, 5].erase 3 ∧
        ∃ prev cur,
          Link exampleList (Loc.head 0) ([1, 5].takeWhile (fun x => decide (x < 3))) prev ∧
          load exampleList prev = cur ∧ cur ≠ 0 ∧ (exampleList.mem cur).key = 3 ∧
          s' = store (store exampleList (Loc.next cur) (Cell.mark (exampleList.mem cur).next))
            prev (exampleList.mem cur).next ∧
          load s' prev = (exampleList.mem cur).next ∧
          ∀ l, l ≠ prev → l ≠ Loc.next cur → load s' l = load exampleList l)) :=
  list_stays_ascending 48 3 0 3 0 exampleList 64 [1, 5] (by decide)
    ⟨by decide, by decide, by decide, rfl, by decide, by decide, by decide, rfl, rfl⟩
    (by decide) (by decide) (by decide) (by decide) (by decide) rfl

end MagedMichael
end concurrent_data_structures

namespace concurrent_data_structures
namespace LockFreeLinearProbingNodeSet

open TransactionalRobinHoodSet (mask_eq_mod size_pos_of_pow getD_set_other)

/-! ### Lock-free linear probing: `upgrade` when a committed cell comes first -/

theorem slot_after (n i m : Nat) (hm : m ≠ 0) : (i % n + 1 + (m - 1)) % n = (i + m) % n := by
  have h : i % n + 1 + (m - 1) = i % n + m := by omega
  rw [h, Nat.add_mod, Nat.mod_mod, ← Nat.add_mod]

/-- The scan of `upgrade` once a committed cell of the key has been met and no tentative
cell is remembered: whatever follows, at the first null slot the value of `actual_cell` is
returned. -/
theorem upgrade_loop_found_non_flagged (k p : Nat) :
    ∀ (fuel : Nat) (st : State) (i cfs a m : Nat), st.m_table.length = 2 ^ p → m < fuel →
      st.m_table.getD ((i + m) % st.m_table.length) 0 = 0 →
      ∃ s', upgrade_loop k fuel st i ⟨true, false, cfs, a⟩ = some (a, s') := by
  intro fuel
  induction fuel with
  | zero => intro st i cfs a m _ hm; omega
  | succ fuel ih =>
    intro st i cfs a m hp hm hnull
    simp only [upgrade_loop]
    rw [mask_eq_mod hp]
    by_cases hx0 : st.m_table.getD (i % st.m_table.length) 0 = 0
    · rw [if_pos hx0]
      exact ⟨st, rfl⟩
    · rw [if_neg hx0]
      have hm0 : m ≠ 0 := by
        intro e
        subst e
        exact hx0 hnull
      have hnext : st.m_table.getD ((i % st.m_table.length + 1 + (m - 1)) % st.m_table.length)
          0 = 0 := by
        rw [slot_after _ _ _ hm0]
        exact hnull
      have hrec := ih st (i % st.m_table.length + 1) cfs a (m - 1) hp (by omega) hnext
      have hcas : compare_exchange_weak st (i % st.m_table.length)
          (st.m_table.getD (i % st.m_table.length) 0) st.TOMBSTONE =
          (true, st.m_table.getD (i % st.m_table.length) 0,
            { st with m_table := st.m_table.set (i % st.m_table.length) st.TOMBSTONE }) := by
        unfold compare_exchange_weak
        rw [if_pos rfl]
      have hrec2 := ih
        (retire { st with m_table := st.m_table.set (i % st.m_table.length) st.TOMBSTONE }
          (Cell.get_ptr (st.m_table.getD (i % st.m_table.length) 0)))
        (i % st.m_table.length + 1) cfs a (m - 1)
        (by
          show (st.m_table.set (i % st.m_table.length) st.TOMBSTONE).length = 2 ^ p
          rw [List.length_set]
          exact hp)
        (by omega)
        (by
          show (st.m_table.set (i % st.m_table.length) st.TOMBSTONE).getD
            ((i % st.m_table.length + 1 + (m - 1)) %
              (st.m_table.set (i % st.m_table.length) st.TOMBSTONE).length) 0 = 0
          rw [List.length_set, getD_set_other, hnext]
          intro e
          rw [← e] at hnext
          exact hx0 hnext)
      by_cases hxt : st.m_table.getD (i % st.m_table.length) 0 = st.TOMBSTONE
      · rw [if_pos hxt]
        exact hrec
      · rw [if_neg hxt]
        by_cases hfl : Cell.is_flagged (st.m_table.getD (i % st.m_table.length) 0) = true
        · rw [if_pos hfl]
          by_cases hk : st.key (Cell.get_ptr (st.m_table.getD (i % st.m_table.length) 0)) = k
          · rw [if_pos hk]
            simp only [if_true, hcas]
            exact hrec2
          · rw [if_neg hk]
            exact hrec
        · rw [if_neg hfl]
          by_cases hk : st.key (st.m_table.getD (i % st.m_table.length) 0) = k
          · rw [if_pos hk]
            simp only [Bool.false_eq_true, if_false]
            exact hrec
          · rw [if_neg hk]
            exact hrec

/-- The scan of `upgrade` before the committed cell at distance `dq`, over slots that hold
neither null nor a cell of the key. -/
theorem upgrade_loop_before_committed (k h0 dq p : Nat) (s : State)
    (hp : s.m_table.length = 2 ^ p) (hq : CommittedKey s ((h0 + dq) % s.m_table.length) k)
    (hbefore : ∀ d < dq, s.m_table.getD ((h0 + d) % s.m_table.length) 0 ≠ 0 ∧
      (s.m_table.getD ((h0 + d) % s.m_table.length) 0 ≠ s.TOMBSTONE →
        s.key (Cell.get_ptr (s.m_table.getD ((h0 + d) % s.m_table.length) 0)) ≠ k)) :
    ∀ (fuel d i m : Nat), i % s.m_table.length = (h0 + d) % s.m_table.length → d ≤ dq →
      dq < m → m < fuel + d → s.m_table.getD ((h0 + m) % s.m_table.length) 0 = 0 →
      ∃ s', upgrade_loop k fuel s i ⟨false, false, 0, s.TOMBSTONE⟩ =
        some (s.TOMBSTONE, s') := by
  intro fuel
  induction fuel with
  | zero => intro d i m _ h1 h2 h3; omega
  | succ fuel ih =>
    intro d i m hi hd hm hf hnull
    have hnext := next_slot s.m_table.length h0 d
    simp only [upgrade_loop]
    rw [mask_eq_mod hp, hi]
    by_cases hdq : d = dq
    · subst hdq
      obtain ⟨hq0, hqt, hqf, hqk⟩ := hq
      rw [if_neg hq0, if_neg hqt, hqf]
      simp only [Bool.false_eq_true, if_false]
      rw [if_pos hqk]
      have hslot : ((h0 + d) % s.m_table.length + 1 + (m - (d + 1))) % s.m_table.length =
          (h0 + m) % s.m_table.length := by
        rw [Nat.add_assoc, Nat.add_mod, Nat.mod_mod, ← Nat.add_mod]
        congr 1
        omega
      exact upgrade_loop_found_non_flagged k p fuel s _ 0 s.TOMBSTONE (m - (d + 1)) hp
        (by omega) (by rw [hslot]; exact hnull)
    · obtain ⟨hb0, hbk⟩ := hbefore d (by omega)
      rw [if_neg hb0]
      have hrec := ih (d + 1) ((h0 + d) % s.m_table.length + 1) m hnext (by omega) hm
        (by omega) hnull
      by_cases hxt : s.m_table.getD ((h0 + d) % s.m_table.length) 0 = s.TOMBSTONE
      · rw [if_pos hxt]
        exact hrec
      · rw [if_neg hxt]
        by_cases hfl : Cell.is_flagged (s.m_table.getD ((h0 + d) % s.m_table.length) 0) = true
        · rw [if_pos hfl, if_neg (hbk hxt)]
          exact hrec
        · rw [if_neg hfl]
          have heven := (is_flagged_false_iff _).1 (Bool.eq_false_iff.2 hfl)
          have hkey := hbk hxt
          rw [get_ptr_unflagged heven] at hkey
          rw [if_neg hkey]
          exact hrec

/-- C34 fails on the code whenever the committed cell comes first: take a table of
power-of-two size in which the slot at distance `dq` on the probe path from `home` holds a
committed cell with key `k`, no slot before it holds null or a cell (tentative or
committed) with key `k`, and a null slot follows at distance `m`. Then `upgrade(home, k)`
returns the tombstone pointer, which is not the pointer of the committed cell. -/
theorem upgrade_returns_tombstone_when_committed_first (k home dq m p fuel : Nat) (s : State)
    (hp : s.m_table.length = 2 ^ p)
    (hq : CommittedKey s ((home + dq) % s.m_table.length) k)
    (hbefore : ∀ d < dq, s.m_table.getD ((home + d) % s.m_table.length) 0 ≠ 0 ∧
      (s.m_table.getD ((home + d) % s.m_table.length) 0 ≠ s.TOMBSTONE →
        s.key (Cell.get_ptr (s.m_table.getD ((home + d) % s.m_table.length) 0)) ≠ k))
    (hm : dq < m) (hnull : s.m_table.getD ((home + m) % s.m_table.length) 0 = 0)
    (hfuel : m < fuel) :
    ∃ s', upgrade fuel s home k = some (s.TOMBSTONE, s') ∧
      s.TOMBSTONE ≠ s.m_table.getD ((home + dq) % s.m_table.length) 0 := by
  obtain ⟨s', h⟩ := upgrade_loop_before_committed k home dq p s hp hq hbefore fuel 0 home m
    rfl (Nat.zero_le _) hm (by omega) hnull
  exact ⟨s', h, fun e => hq.2.1 e.symm⟩

theorem upgrade_returns_tombstone_when_committed_first_witness :
    ∃ s', upgrade 4 (exampleState [32, 16, 19, 0]) 0 1 =
        some ((exampleState [32, 16, 19, 0]).TOMBSTONE, s') ∧
      (exampleState [32, 16, 19, 0]).TOMBSTONE ≠
        (exampleState [32, 16, 19, 0]).m_table.getD
          ((0 + 1) % (exampleState [32, 16, 19, 0]).m_table.length) 0 :=
  upgrade_returns_tombstone_when_committed_first 1 0 1 3 2 4 (exampleState [32, 16, 19, 0])
    rfl (by decide) (by decide) (by decide) (by decide) (by decide)

/-- The sibling path of `upgrade`: when the tentative cell of the key comes first and the
committed cell second, as in `[19, 16, null, null]`, the tentative cell is withdrawn and the
pointer 16 of the committed cell is returned; with the committed cell first, as in
`[16, 19, null, null]`, the tombstone pointer 4096 is returned. -/
theorem upgrade_returns_committed_after_tentative :
    (upgrade 4 (exampleState [19, 16, 0, 0]) 0 1).map (fun r => (r.1, r.2.m_table)) =
      some (16, [4096, 16, 0, 0]) ∧
    (upgrade 4 (exampleState [16, 19, 0, 0]) 0 1).map (fun r => (r.1, r.2.m_table)) =
      some (4096, [16, 4096, 0, 0]) := by
  constructor <;> decide

end LockFreeLinearProbingNodeSet
end concurrent_data_structures

namespace concurrent_data_structures
namespace LockFreeLinearProbingNodeSet

/-! ### Lock-free linear probing: what `upgrade` returns and what `add` makes of it -/

/-- C35, as the claim states it, fails: in the state `publishedState` the cell `to_insert`
at address 18 has been published in slot 1 and `upgrade` is called; it returns the
tombstone pointer 4096, which is not the pointer 18 of the cell, and `add` returns true. -/
theorem add_true_on_tombstone_result :
    (upgrade 4 publishedState 0 1).map (fun r => r.1) = some publishedState.TOMBSTONE ∧
    publishedState.TOMBSTONE ≠ 18 ∧
    (add_published 4 publishedState 0 1 18).map (fun r => r.1) = some true := by
  refine ⟨?_, ?_, ?_⟩ <;> decide

/-- C35, amended: at a slot that holds null or the tombstone pointer, `add` publishes its
cell `to_insert` as a flagged pointer and ends as `add_published` on the resulting state:
it calls `upgrade` and returns true exactly when the pointer returned by `upgrade` is the
tombstone pointer or the pointer of `to_insert`; the state it leaves is the one left by
`upgrade`. -/
theorem add_true_iff_tombstone_or_own_cell (key to_insert original_slot ufuel fuel i : Nat)
    (s : State)
    (hslot : s.m_table.getD (i &&& (s.m_table.length - 1)) 0 = 0 ∨
      s.m_table.getD (i &&& (s.m_table.length - 1)) 0 = s.TOMBSTONE) :
    add_loop key to_insert original_slot ufuel (fuel + 1) s i =
      add_published ufuel
        { s with
          m_table := s.m_table.set (i &&& (s.m_table.length - 1)) (Cell.flag to_insert) }
        original_slot key to_insert ∧
    ∀ s1 : State, add_published ufuel s1 original_slot key to_insert =
      (upgrade ufuel s1 original_slot key).map
        (fun r => (decide (r.1 = r.2.TOMBSTONE ∨ r.1 = to_insert), r.2)) := by
  constructor
  · simp only [add_loop]
    rw [if_pos hslot]
    have hcas : compare_exchange_weak s (i &&& (s.m_table.length - 1))
        (s.m_table.getD (i &&& (s.m_table.length - 1)) 0) (Cell.flag to_insert) =
        (true, s.m_table.getD (i &&& (s.m_table.length - 1)) 0,
          { s with
            m_table := s.m_table.set (i &&& (s.m_table.length - 1)) (Cell.flag to_insert) }) := by
      unfold compare_exchange_weak
      exact if_pos rfl
    rw [hcas]
    rfl
  · intro s1
    unfold add_published
    cases h : upgrade ufuel s1 original_slot key with
    | none => rfl
    | some r =>
      obtain ⟨c, s'⟩ := r
      simp only [Option.map_some']
      by_cases hc : c = s'.TOMBSTONE
      · rw [if_pos hc]
        simp [hc]
      · rw [if_neg hc]
        simp [hc]

theorem add_true_iff_tombstone_or_own_cell_witness :
    add_loop 1 18 0 4 (3 + 1) (exampleState [32, 0, 0, 0]) 1 =
      add_published 4
        { exampleState [32, 0, 0, 0] with
          m_table :=
            (exampleState [32, 0, 0, 0]).m_table.set
              (1 &&& ((exampleState [32, 0, 0, 0]).m_table.length - 1)) (Cell.flag 18) }
        0 1 18 ∧
    ∀ s1 : State, add_published 4 s1 0 1 18 =
      (upgrade 4 s1 0 1).map (fun r => (decide (r.1 = r.2.TOMBSTONE ∨ r.1 = 18), r.2)) :=
  add_true_iff_tombstone_or_own_cell 1 18 0 4 3 1 (exampleState [32, 0, 0, 0])
    (Or.inl (by decide))

end LockFreeLinearProbingNodeSet
end concurrent_data_structures

namespace concurrent_data_structures
namespace LockFreeLinearProbingNodeSet

open TransactionalRobinHoodSet (getD_set_other)

/-! ### Lock-free linear probing: no store of null -/

theorem keeps_refl (s : State) : Keeps s s := ⟨rfl, rfl, fun _ h => h⟩

theorem keeps_trans {a b c : State} (h1 : Keeps a b) (h2 : Keeps b c) : Keeps a c :=
  ⟨h2.1.trans h1.1, h2.2.1.trans h1.2.1, fun i hi => h2.2.2 i (h1.2.2 i hi)⟩

theorem getD_set_cases (t : List Nat) (i j v : Nat) :
    (t.set i v).getD j 0 = t.getD j 0 ∨ ((t.set i v).getD j 0 = v ∧ j = i ∧ i < t.length) := by
  by_cases hij : i = j
  · subst hij
    by_cases hi : i < t.length
    · right
      exact ⟨by simp [List.getD_eq_getElem?_getD, hi], rfl, hi⟩
    · left
      rw [List.set_eq_of_length_le (Nat.le_of_not_lt hi)]
  · left
    exact getD_set_other hij v

theorem store_keeps (s : State) (i v : Nat) (hS : Sound s) (hv : 2 ≤ v) :
    Sound { s with m_table := s.m_table.set i v } ∧
      Keeps s { s with m_table := s.m_table.set i v } := by
  refine ⟨⟨hS.1, fun j => ?_⟩, rfl, List.length_set _ _ _, fun j hj => ?_⟩
  · show (s.m_table.set i v).getD j 0 = 0 ∨ 2 ≤ (s.m_table.set i v).getD j 0
    rcases getD_set_cases s.m_table i j v with h | ⟨h, -, -⟩
    · rw [h]; exact hS.2 j
    · rw [h]; exact Or.inr hv
  · show (s.m_table.set i v).getD j 0 ≠ 0
    rcases getD_set_cases s.m_table i j v with h | ⟨h, -, -⟩
    · rw [h]; exact hj
    · rw [h]; omega

theorem cas_keeps (s : State) (i e v : Nat) (hS : Sound s) (hv : 2 ≤ v) :
    Sound (compare_exchange_weak s i e v).2.2 ∧ Keeps s (compare_exchange_weak s i e v).2.2 := by
  unfold compare_exchange_weak
  split_ifs
  · exact store_keeps s i v hS hv
  · exact ⟨hS, keeps_refl s⟩

theorem retire_keeps (s : State) (c : Nat) (hS : Sound s) :
    Sound (retire s c) ∧ Keeps s (retire s c) := ⟨hS, keeps_refl s⟩

theorem get_ptr_ge {x : Nat} (h : 2 ≤ x) : 2 ≤ Cell.get_ptr x := by
  unfold Cell.get_ptr; omega

theorem flag_eq (x : Nat) : Cell.flag x = 2 * (x / 2) + 1 := by
  unfold Cell.flag
  apply Nat.eq_of_testBit_eq
  intro i
  rw [Nat.testBit_or]
  cases i with
  | zero =>
    simp only [Nat.testBit_zero]
    have : (2 * (x / 2) + 1) % 2 = 1 := by omega
    simp [this]
  | succ i =>
    simp only [Nat.testBit_succ]
    have : (2 * (x / 2) + 1) / 2 = x / 2 := by omega
    rw [this]
    simp

theorem flag_ge {x : Nat} (h : 2 ≤ x) : 2 ≤ Cell.flag x := by
  rw [flag_eq]; omega

theorem upgrade_loop_keeps (k : Nat) :
    ∀ (fuel : Nat) (s : State) (i : Nat) (v : UpgradeVars) (r : Nat) (s' : State), Sound s →
      (v.found_closest_flagged = true → 2 ≤ v.actual_cell) →
      upgrade_loop k fuel s i v = some (r, s') → Sound s' ∧ Keeps s s' := by
  intro fuel
  induction fuel with
  | zero => intro s i v r s' _ _ h; simp [upgrade_loop] at h
  | succ fuel ih =>
    intro s i v r s' hS hv h
    have hT : 2 ≤ s.TOMBSTONE := hS.1
    -- a compare-and-swap storing the tombstone pointer, then the scan goes on
    have hwipe : ∀ (j e c : Nat) (w : UpgradeVars),
        (w.found_closest_flagged = true → 2 ≤ w.actual_cell) →
        (match compare_exchange_weak s j e s.TOMBSTONE with
          | (true, _, s1) =>
            upgrade_loop k fuel (retire s1 c) ((i &&& (s.m_table.length - 1)) + 1) w
          | (false, _, s1) =>
            upgrade_loop k fuel s1 ((i &&& (s.m_table.length - 1)) + 1) w) = some (r, s') →
        Sound s' ∧ Keeps s s' := by
      intro j e c w hw hm
      have hk := cas_keeps s j e s.TOMBSTONE hS hT
      rcases hc : compare_exchange_weak s j e s.TOMBSTONE with ⟨b, x, s1⟩
      rw [hc] at hm hk
      cases b
      · have := ih _ _ _ _ _ hk.1 hw hm
        exact ⟨this.1, keeps_trans hk.2 this.2⟩
      · have := ih _ _ _ _ _ (retire_keeps s1 c hk.1).1 hw hm
        exact ⟨this.1, keeps_trans hk.2 this.2⟩
    simp only [upgrade_loop] at h
    by_cases h0 : s.m_table.getD (i &&& (s.m_table.length - 1)) 0 = 0
    · rw [if_pos h0] at h
      by_cases h1 : v.found_non_flagged = true
      · rw [if_pos h1] at h
        cases h
        exact ⟨hS, keeps_refl s⟩
      · rw [if_neg h1] at h
        by_cases h2 : v.found_closest_flagged = true
        · rw [if_pos h2] at h
          by_cases h3 : s.m_table.getD v.closest_flagged_slot 0 = Cell.get_ptr v.actual_cell
          · rw [if_pos h3] at h
            cases h
            exact ⟨hS, keeps_refl s⟩
          · rw [if_neg h3] at h
            by_cases h4 : Cell.get_ptr (s.m_table.getD v.closest_flagged_slot 0) ≠
                Cell.get_ptr v.actual_cell
            · rw [if_pos h4] at h
              cases h
              exact ⟨hS, keeps_refl s⟩
            · rw [if_neg h4] at h
              have hk := cas_keeps s v.closest_flagged_slot
                (s.m_table.getD v.closest_flagged_slot 0) (Cell.get_ptr v.actual_cell) hS
                (get_ptr_ge (hv h2))
              rcases hc : compare_exchange_weak s v.closest_flagged_slot
                (s.m_table.getD v.closest_flagged_slot 0) (Cell.get_ptr v.actual_cell)
                with ⟨b, x, s1⟩
              rw [hc] at h hk
              cases b
              · simp only at h
                split_ifs at h <;> cases h <;> exact hk
              · simp only at h
                cases h
                exact hk
        · rw [if_neg h2] at h
          exact ih _ _ _ _ _ hS hv h
    · rw [if_neg h0] at h
      have hcur : 2 ≤ s.m_table.getD (i &&& (s.m_table.length - 1)) 0 := by
        rcases hS.2 (i &&& (s.m_table.length - 1)) with h' | h'
        · exact absurd h' h0
        · exact h'
      by_cases h1 : s.m_table.getD (i &&& (s.m_table.length - 1)) 0 = s.TOMBSTONE
      · rw [if_pos h1] at h
        exact ih _ _ _ _ _ hS hv h
      · rw [if_neg h1] at h
        by_cases h2 : Cell.is_flagged (s.m_table.getD (i &&& (s.m_table.length - 1)) 0) = true
        · rw [if_pos h2] at h
          by_cases h3 : s.key (Cell.get_ptr (s.m_table.getD (i &&& (s.m_table.length - 1)) 0))
              = k
          · rw [if_pos h3] at h
            by_cases h4 : v.found_non_flagged = true
            · rw [if_pos h4] at h
              exact hwipe _ _ _ v hv h
            · rw [if_neg h4] at h
              by_cases h5 : v.found_closest_flagged = true
              · simp only [h5, Bool.not_true, Bool.false_eq_true, if_false] at h
                by_cases h6 : s.m_table.getD v.closest_flagged_slot 0 = v.actual_cell
                · rw [if_pos h6] at h
                  exact hwipe _ _ _ v hv h
                · rw [if_neg h6] at h
                  cases h
                  exact ⟨hS, keeps_refl s⟩
              · have h5' : v.found_closest_flagged = false := Bool.eq_false_iff.2 h5
                simp only [h5', Bool.not_false, if_true] at h
                refine ih _ _ _ _ _ hS ?_ h
                exact fun _ => hcur
          · rw [if_neg h3] at h
            exact ih _ _ _ _ _ hS hv h
        · rw [if_neg h2] at h
          by_cases h3 : s.key (s.m_table.getD (i &&& (s.m_table.length - 1)) 0) = k
          · rw [if_pos h3] at h
            by_cases h5 : v.found_closest_flagged = true
            · simp only [h5, if_true] at h
              by_cases h6 : s.m_table.getD v.closest_flagged_slot 0 = s.TOMBSTONE
              · rw [if_pos h6] at h
                refine ih _ _ _ _ _ hS ?_ h
                exact fun _ => hv h5
              · rw [if_neg h6] at h
                by_cases h7 : s.key (Cell.get_ptr (s.m_table.getD v.closest_flagged_slot 0)) ≠ k
                · rw [if_pos h7] at h
                  refine ih _ _ _ _ _ hS ?_ h
                  exact fun _ => hv h5
                · rw [if_neg h7] at h
                  refine hwipe _ _ _ _ ?_ h
                  intro hh
                  cases hh
            · have h5' : v.found_closest_flagged = false := Bool.eq_false_iff.2 h5
              simp only [h5', Bool.false_eq_true, if_false] at h
              refine ih _ _ _ _ _ hS ?_ h
              intro hh
              cases hh
          · rw [if_neg h3] at h
            exact ih _ _ _ _ _ hS hv h

end LockFreeLinearProbingNodeSet
end concurrent_data_structures

namespace concurrent_data_structures
namespace LockFreeLinearProbingNodeSet

open TransactionalRobinHoodSet (getD_set_other)

theorem upgrade_keeps (k fuel : Nat) (s : State) (i r : Nat) (s' : State) (hS : Sound s)
    (h : upgrade fuel s i k = some (r, s')) : Sound s' ∧ Keeps s s' :=
  upgrade_loop_keeps k fuel s i _ r s' hS (fun hh => by cases hh) h

theorem add_loop_keeps (key c os ufuel : Nat) (hc : 2 ≤ c) :
    ∀ (fuel : Nat) (s : State) (i : Nat) (b : Bool) (s' : State), Sound s →
      add_loop key c os ufuel fuel s i = some (b, s') → Sound s' ∧ Keeps s s' := by
  intro fuel
  induction fuel with
  | zero => intro s i b s' _ h; simp [add_loop] at h
  | succ fuel ih =>
    intro s i b s' hS h
    simp only [add_loop] at h
    by_cases h0 : s.m_table.getD (i &&& (s.m_table.length - 1)) 0 = 0 ∨
        s.m_table.getD (i &&& (s.m_table.length - 1)) 0 = s.TOMBSTONE
    · rw [if_pos h0] at h
      have hk := cas_keeps s (i &&& (s.m_table.length - 1))
        (s.m_table.getD (i &&& (s.m_table.length - 1)) 0) (Cell.flag c) hS (flag_ge hc)
      rcases hcas : compare_exchange_weak s (i &&& (s.m_table.length - 1))
        (s.m_table.getD (i &&& (s.m_table.length - 1)) 0) (Cell.flag c) with ⟨b1, x, s1⟩
      rw [hcas] at h hk
      cases b1
      · have := ih _ _ _ _ hk.1 h
        exact ⟨this.1, keeps_trans hk.2 this.2⟩
      · simp only at h
        cases hu : upgrade ufuel s1 os key with
        | none => rw [hu] at h; cases h
        | some r =>
          obtain ⟨cc, s2⟩ := r
          rw [hu] at h
          have hk2 := upgrade_keeps key ufuel s1 os cc s2 hk.1 hu
          simp only at h
          split_ifs at h <;> cases h <;> exact ⟨hk2.1, keeps_trans hk.2 hk2.2⟩
    · rw [if_neg h0] at h
      by_cases h1 : s.key (Cell.get_ptr (s.m_table.getD (i &&& (s.m_table.length - 1)) 0)) = key
      · rw [if_pos h1] at h
        by_cases h2 : Cell.is_flagged (s.m_table.getD (i &&& (s.m_table.length - 1)) 0) = true
        · rw [if_pos h2] at h
          cases hu : upgrade ufuel s os key with
          | none => rw [hu] at h; cases h
          | some r =>
            obtain ⟨cc, s2⟩ := r
            rw [hu] at h
            simp only at h
            cases h
            exact upgrade_keeps key ufuel s os cc _ hS hu
        · rw [if_neg h2] at h
          cases h
          exact ⟨hS, keeps_refl s⟩
      · rw [if_neg h1] at h
        exact ih _ _ _ _ hS h

theorem add_keeps (KT : KeyTraits) (fuel : Nat) (s : State) (c k : Nat) (b : Bool)
    (s' : State) (hS : Sound s) (hc : 2 ≤ c) (h : add KT fuel s c k = some (b, s')) :
    Sound s' ∧ Keeps s s' :=
  add_loop_keeps k c _ fuel hc fuel { s with key := Function.update s.key c k } _ b s' hS h

/-- What `remove` does: a false result leaves the state as it was; a true result turns one
slot, which held a committed cell with the key, into a tombstone and retires the cell. -/
theorem remove_loop_effect (k os : Nat) :
    ∀ (fuel : Nat) (s : State) (i : Nat) (b : Bool) (s' : State),
      remove_loop k os fuel s i = some (b, s') →
      (b = false → s' = s) ∧
      (b = true → ∃ j, CommittedKey s j k ∧
        s' = retire { s with m_table := s.m_table.set j s.TOMBSTONE } (s.m_table.getD j 0)) := by
  intro fuel
  induction fuel with
  | zero => intro s i b s' h; simp [remove_loop] at h
  | succ fuel ih =>
    intro s i b s' h
    simp only [remove_loop] at h
    by_cases h0 : s.m_table.getD (i &&& (s.m_table.length - 1)) 0 = 0
    · rw [if_pos h0] at h
      cases h
      exact ⟨fun _ => rfl, fun hh => by cases hh⟩
    · rw [if_neg h0] at h
      by_cases h1 : s.m_table.getD (i &&& (s.m_table.length - 1)) 0 = s.TOMBSTONE ∨
          Cell.is_flagged (s.m_table.getD (i &&& (s.m_table.length - 1)) 0) = true
      · rw [if_pos h1] at h
        exact ih _ _ _ _ h
      · rw [if_neg h1] at h
        rw [not_or] at h1
        by_cases h2 : s.key (s.m_table.getD (i &&& (s.m_table.length - 1)) 0) = k
        · rw [if_pos h2] at h
          have hcas : compare_exchange_weak s (i &&& (s.m_table.length - 1))
              (s.m_table.getD (i &&& (s.m_table.length - 1)) 0) s.TOMBSTONE =
              (true, s.m_table.getD (i &&& (s.m_table.length - 1)) 0,
                { s with
                  m_table := s.m_table.set (i &&& (s.m_table.length - 1)) s.TOMBSTONE }) := by
            unfold compare_exchange_weak
            rw [if_pos rfl]
          rw [hcas] at h
          simp only at h
          cases h
          refine ⟨fun hh => (by cases hh), fun _ => ⟨i &&& (s.m_table.length - 1),
            ⟨h0, h1.1, Bool.eq_false_iff.2 h1.2, h2⟩, rfl⟩⟩
        · rw [if_neg h2] at h
          exact ih _ _ _ _ h

theorem remove_keeps (KT : KeyTraits) (fuel : Nat) (s : State) (k : Nat) (b : Bool)
    (s' : State) (hS : Sound s) (h : remove KT fuel s k = some (b, s')) :
    Sound s' ∧ Keeps s s' := by
  obtain ⟨h1, h2⟩ := remove_loop_effect k _ fuel s _ b s' h
  cases b
  · rw [h1 rfl]
    exact ⟨hS, keeps_refl s⟩
  · obtain ⟨j, -, hs'⟩ := h2 rfl
    rw [hs']
    exact store_keeps s j s.TOMBSTONE hS hS.1

theorem remove_tombstones (KT : KeyTraits) (fuel : Nat) (s : State) (k : Nat) (b : Bool)
    (s' : State) (h : remove KT fuel s k = some (b, s')) :
    s'.TOMBSTONE = s.TOMBSTONE ∧
      ∀ i, s.m_table.getD i 0 = s.TOMBSTONE → s'.m_table.getD i 0 = s.TOMBSTONE := by
  obtain ⟨h1, h2⟩ := remove_loop_effect k _ fuel s _ b s' h
  cases b
  · rw [h1 rfl]
    exact ⟨rfl, fun _ hi => hi⟩
  · obtain ⟨j, -, hs'⟩ := h2 rfl
    rw [hs']
    refine ⟨rfl, fun i hi => ?_⟩
    show (s.m_table.set j s.TOMBSTONE).getD i 0 = s.TOMBSTONE
    rcases getD_set_cases s.m_table j i s.TOMBSTONE with h | ⟨h, -, -⟩
    · rw [h]; exact hi
    · exact h

theorem exec_keeps (KT : KeyTraits) (fuel : Nat) :
    ∀ (ops : List Op) (s s' : State), Sound s → (∀ op ∈ ops, op.allocated = true) →
      exec KT fuel s ops = some s' → Sound s' ∧ Keeps s s'
  | [], s, s', hS, _, h => by
    cases h
    exact ⟨hS, keeps_refl s⟩
  | Op.contains k :: ops, s, s', hS, ha, h => by
    unfold exec at h
    cases hc : contains KT fuel s k with
    | none => rw [hc] at h; cases h
    | some b =>
      rw [hc] at h
      exact exec_keeps KT fuel ops s s' hS (fun op hop => ha op (List.mem_cons_of_mem _ hop)) h
  | Op.add c k :: ops, s, s', hS, ha, h => by
    unfold exec at h
    cases hc : add KT fuel s c k with
    | none => rw [hc] at h; cases h
    | some r =>
      obtain ⟨b, s1⟩ := r
      rw [hc] at h
      have hc2 : 2 ≤ c := by
        have := ha _ (List.mem_cons_self _ _)
        simpa [Op.allocated] using this
      have h1 := add_keeps KT fuel s c k b s1 hS hc2 hc
      have h2 := exec_keeps KT fuel ops s1 s' h1.1
        (fun op hop => ha op (List.mem_cons_of_mem _ hop)) h
      exact ⟨h2.1, keeps_trans h1.2 h2.2⟩
  | Op.remove k :: ops, s, s', hS, ha, h => by
    unfold exec at h
    cases hc : remove KT fuel s k with
    | none => rw [hc] at h; cases h
    | some r =>
      obtain ⟨b, s1⟩ := r
      rw [hc] at h
      have h1 := remove_keeps KT fuel s k b s1 hS hc
      have h2 := exec_keeps KT fuel ops s1 s' h1.1
        (fun op hop => ha op (List.mem_cons_of_mem _ hop)) h
      exact ⟨h2.1, keeps_trans h1.2 h2.2⟩

theorem exec_tombstones (KT : KeyTraits) (fuel : Nat) :
    ∀ (ops : List Op) (s s' : State), (∀ op ∈ ops, op.isAdd = false) →
      exec KT fuel s ops = some s' →
      s'.TOMBSTONE = s.TOMBSTONE ∧
        ∀ i, s.m_table.getD i 0 = s.TOMBSTONE → s'.m_table.getD i 0 = s.TOMBSTONE
  | [], s, s', _, h => by
    cases h
    exact ⟨rfl, fun _ hi => hi⟩
  | Op.contains k :: ops, s, s', ha, h => by
    unfold exec at h
    cases hc : contains KT fuel s k with
    | none => rw [hc] at h; cases h
    | some b =>
      rw [hc] at h
      exact exec_tombstones KT fuel ops s s' (fun op hop => ha op (List.mem_cons_of_mem _ hop)) h
  | Op.add c k :: ops, s, s', ha, _ => by
    have := ha _ (List.mem_cons_self _ _)
    cases this
  | Op.remove k :: ops, s, s', ha, h => by
    unfold exec at h
    cases hc : remove KT fuel s k with
    | none => rw [hc] at h; cases h
    | some r =>
      obtain ⟨b, s1⟩ := r
      rw [hc] at h
      have h1 := remove_tombstones KT fuel s k b s1 hc
      have h2 := exec_tombstones KT fuel ops s1 s'
        (fun op hop => ha op (List.mem_cons_of_mem _ hop)) h
      refine ⟨h2.1.trans h1.1, fun i hi => ?_⟩
      rw [← h1.1]
      exact h2.2 i (by rw [h1.1]; exact h1.2 i hi)

theorem count_zero_le :
    ∀ (l l' : List Nat), l'.length = l.length →
      (∀ i, l.getD i 0 ≠ 0 → l'.getD i 0 ≠ 0) → l'.count 0 ≤ l.count 0
  | [], l', hl, _ => by
    have : l' = [] := List.length_eq_zero.mp hl
    rw [this]
  | a :: l, [], hl, _ => by cases hl
  | a :: l, b :: l', hl, h => by
    have ih := count_zero_le l l' (by simpa using hl) (fun i hi => by
      have := h (i + 1)
      simpa using this (by simpa using hi))
    have h0 := h 0
    simp only [List.getD_cons_zero] at h0
    rw [List.count_cons, List.count_cons]
    by_cases ha : a = 0
    · subst ha
      simp only [beq_self_eq_true, if_true]
      split_ifs <;> omega
    · have hb := h0 ha
      have hb' : (b == 0) = false := by simpa using hb
      have ha' : (a == 0) = false := by simpa using ha
      rw [ha', hb']
      simpa using ih

end LockFreeLinearProbingNodeSet
end concurrent_data_structures

namespace concurrent_data_structures
namespace LockFreeLinearProbingNodeSet

/-- C36: take a state whose tombstone pointer and slot contents are pointers to cells or
null, and any sequence of `contains`, `add` and `remove` calls of one thread in which every
`add` gets a cell from `malloc`. If the calls return, the table has as many slots as
before, every slot that was not null is not null afterwards, and the number of null slots
has not grown. If none of the calls is an `add`, every slot that held the tombstone pointer
still holds it. A `remove` that returns false leaves the state as it was, and a `remove`
that returns true has stored the tombstone pointer in one slot, which held a committed cell
with the key, and nothing else. A call of `upgrade` on such a state, when it returns,
leaves every slot that was not null not null. -/
theorem slots_never_return_to_null (KT : KeyTraits) (fuel : Nat) (s s' : State)
    (ops : List Op) (hS : Sound s) (hops : ∀ op ∈ ops, op.allocated = true)
    (hexec : exec KT fuel s ops = some s') :
    s'.m_table.length = s.m_table.length ∧ s'.TOMBSTONE = s.TOMBSTONE ∧
    (∀ i, s.m_table.getD i 0 ≠ 0 → s'.m_table.getD i 0 ≠ 0) ∧
    nulls s' ≤ nulls s ∧
    ((∀ op ∈ ops, op.isAdd = false) →
      ∀ i, s.m_table.getD i 0 = s.TOMBSTONE → s'.m_table.getD i 0 = s.TOMBSTONE) ∧
    (∀ (s1 s2 : State) (k : Nat) (b : Bool), remove KT fuel s1 k = some (b, s2) →
      (b = false → s2 = s1) ∧
      (b = true → ∃ j, CommittedKey s1 j k ∧
        s2 = retire { s1 with m_table := s1.m_table.set j s1.TOMBSTONE }
          (s1.m_table.getD j 0))) ∧
    ∀ (s1 s2 : State) (home k r : Nat), Sound s1 → upgrade fuel s1 home k = some (r, s2) →
      Sound s2 ∧ ∀ i, s1.m_table.getD i 0 ≠ 0 → s2.m_table.getD i 0 ≠ 0 := by
  obtain ⟨-, h1, h2, h3⟩ := exec_keeps KT fuel ops s s' hS hops hexec
  refine ⟨h2, h1, h3, count_zero_le _ _ h2 h3, fun hno => (exec_tombstones KT fuel ops s s' hno
    hexec).2, fun s1 s2 k b hr => remove_loop_effect k _ fuel s1 _ b s2 hr,
    fun s1 s2 home k r hS1 hu => ?_⟩
  have := upgrade_keeps k fuel s1 home r s2 hS1 hu
  exact ⟨this.1, this.2.2.2⟩

theorem slots_never_return_to_null_witness :
    ((exec idTraits 6 (exampleState [0, 0, 0, 0])
        [Op.add 16 1, Op.add 34 5, Op.remove 1, Op.contains 5, Op.add 50 9]).getD
      (exampleState [])).m_table = [0, 50, 34, 0] ∧
    ((exec idTraits 6 (exampleState [0, 0, 0, 0])
        [Op.add 16 1, Op.add 34 5, Op.remove 1, Op.contains 5]).getD
      (exampleState [])).m_table = [0, 4096, 34, 0] ∧
    (((exec idTraits 6 (exampleState [0, 0, 0, 0])
        [Op.add 16 1, Op.add 34 5, Op.remove 1, Op.contains 5, Op.add 50 9]).getD
      (exampleState [])).m_table.length = (exampleState [0, 0, 0, 0]).m_table.length ∧
    ((exec idTraits 6 (exampleState [0, 0, 0, 0])
        [Op.add 16 1, Op.add 34 5, Op.remove 1, Op.contains 5, Op.add 50 9]).getD
      (exampleState [])).TOMBSTONE = (exampleState [0, 0, 0, 0]).TOMBSTONE ∧
    (∀ i, (exampleState [0, 0, 0, 0]).m_table.getD i 0 ≠ 0 →
      ((exec idTraits 6 (exampleState [0, 0, 0, 0])
        [Op.add 16 1, Op.add 34 5, Op.remove 1, Op.contains 5, Op.add 50 9]).getD
      (exampleState [])).m_table.getD i 0 ≠ 0) ∧
    nulls ((exec idTraits 6 (exampleState [0, 0, 0, 0])
        [Op.add 16 1, Op.add 34 5, Op.remove 1, Op.contains 5, Op.add 50 9]).getD
      (exampleState [])) ≤ nulls (exampleState [0, 0, 0, 0]) ∧
    ((∀ op ∈ [Op.add 16 1, Op.add 34 5, Op.remove 1, Op.contains 5, Op.add 50 9],
        op.isAdd = false) →
      ∀ i, (exampleState [0, 0, 0, 0]).m_table.getD i 0 = (exampleState [0, 0, 0, 0]).TOMBSTONE →
        ((exec idTraits 6 (exampleState [0, 0, 0, 0])
          [Op.add 16 1, Op.add 34 5, Op.remove 1, Op.contains 5, Op.add 50 9]).getD
        (exampleState [])).m_table.getD i 0 = (exampleState [0, 0, 0, 0]).TOMBSTONE) ∧
    (∀ (s1 s2 : State) (k : Nat) (b : Bool), remove idTraits 6 s1 k = some (b, s2) →
      (b = false → s2 = s1) ∧
      (b = true → ∃ j, CommittedKey s1 j k ∧
        s2 = retire { s1 with m_table := s1.m_table.set j s1.TOMBSTONE }
          (s1.m_table.getD j 0))) ∧
    ∀ (s1 s2 : State) (home k r : Nat), Sound s1 → upgrade 6 s1 home k = some (r, s2) →
      Sound s2 ∧ ∀ i, s1.m_table.getD i 0 ≠ 0 → s2.m_table.getD i 0 ≠ 0) :=
  ⟨by decide, by decide,
    slots_never_return_to_null idTraits 6 (exampleState [0, 0, 0, 0]) _
      [Op.add 16 1, Op.add 34 5, Op.remove 1, Op.contains 5, Op.add 50 9]
      ⟨by decide, fun i => by
        show [0, 0, 0, 0].getD i 0 = 0 ∨ 2 ≤ [0, 0, 0, 0].getD i 0
        left
        rcases i with _ | _ | _ | _ | i <;> rfl⟩
      (by decide) (HopscotchHashSet.eq_some_getD (by decide) _)⟩

end LockFreeLinearProbingNodeSet
end concurrent_data_structures

namespace concurrent_data_structures
namespace HopscotchHashSet

/-! ### Hopscotch: every store goes to a home bucket -/

theorem or_add_and (f : Nat) : ∀ c : Nat, (f ||| c) + (f &&& c) = f + c := by
  induction f using Nat.binaryRec with
  | z => intro c; simp
  | f b n ih =>
    intro c
    rw [← Nat.bit_decomp c, Nat.lor_bit, Nat.land_bit]
    have := ih c.div2
    simp only [Nat.bit_val]
    cases b <;> cases c.bodd <;> simp <;> omega

/-- The cache line of a home bucket lies within the home buckets when their number is a
power of two and at least the number of buckets of a cache line. -/
theorem cacheline_inRange (cfg : Config) (p : Nat) (hN : cfg.m_size_mask + 1 = 2 ^ p)
    (hc : cfg._cache_mask < 2 ^ p) (f : Int) (hf : InRange cfg f) :
    0 ≤ get_start_cacheline_bucket cfg f ∧ get_start_cacheline_bucket cfg f ≤ f ∧
      f ≤ get_start_cacheline_bucket cfg f + (cfg._cache_mask : Int) ∧
      get_start_cacheline_bucket cfg f + (cfg._cache_mask : Int) ≤ (cfg.m_size_mask : Int) := by
  obtain ⟨h0, h1⟩ := hf
  unfold get_start_cacheline_bucket
  have ha : f.toNat &&& cfg._cache_mask ≤ f.toNat := Nat.and_le_left
  have hb : f.toNat &&& cfg._cache_mask ≤ cfg._cache_mask := Nat.and_le_right
  have hlt : f.toNat < 2 ^ p := by omega
  have hor := Nat.or_lt_two_pow hlt hc
  have hid := or_add_and f.toNat cfg._cache_mask
  have hf' : (f.toNat : Int) = f := Int.toNat_of_nonneg h0
  refine ⟨by omega, by omega, by omega, by omega⟩

theorem inTable_setBucket (KT : KeyTraits) (cfg : Config) {t : List Bucket} {i : Int}
    {b : Bucket} (hT : InTable KT cfg t) (hi : InRange cfg i)
    (hfd : b._first_delta ≠ _NULL_DELTA → InRange cfg (i + b._first_delta))
    (hnd : b._next_delta ≠ _NULL_DELTA → InRange cfg (i + b._next_delta)) :
    InTable KT cfg (setBucket t i b) := by
  refine ⟨fun j hj => ?_, fun j hj => ?_, fun j hj => ?_⟩
  · rcases bucketAt_setBucket_field KT t i j b with ⟨-, e⟩ | e
    · rw [e] at hj; exact absurd hi hj
    · rw [e]; exact hT.1 j hj
  · rcases bucketAt_setBucket_field KT t i j b with ⟨e1, e⟩ | e
    · rw [e1] at hj ⊢; rw [e]; exact hfd hj
    · rw [e] at hj ⊢; exact hT.2.1 j hj
  · rcases bucketAt_setBucket_field KT t i j b with ⟨e1, e⟩ | e
    · rw [e1] at hj ⊢; rw [e]; exact hnd hj
    · rw [e] at hj ⊢; exact hT.2.2 j hj

theorem inTable_set_first_delta (KT : KeyTraits) (cfg : Config) {t : List Bucket} {i v : Int}
    (hT : InTable KT cfg t) (hi : InRange cfg i)
    (hv : v ≠ _NULL_DELTA → InRange cfg (i + v)) :
    InTable KT cfg (set_first_delta KT t i v) :=
  inTable_setBucket KT cfg hT hi hv (hT.2.2 i)

theorem inTable_set_next_delta (KT : KeyTraits) (cfg : Config) {t : List Bucket} {i v : Int}
    (hT : InTable KT cfg t) (hi : InRange cfg i)
    (hv : v ≠ _NULL_DELTA → InRange cfg (i + v)) :
    InTable KT cfg (set_next_delta KT t i v) :=
  inTable_setBucket KT cfg hT hi (hT.2.1 i) hv

theorem inTable_set_hash (KT : KeyTraits) (cfg : Config) {t : List Bucket} {i : Int} (v : Nat)
    (hT : InTable KT cfg t) (hi : InRange cfg i) : InTable KT cfg (set_hash KT t i v) :=
  inTable_setBucket KT cfg hT hi (hT.2.1 i) (hT.2.2 i)

theorem inTable_set_key (KT : KeyTraits) (cfg : Config) {t : List Bucket} {i : Int} (v : Nat)
    (hT : InTable KT cfg t) (hi : InRange cfg i) : InTable KT cfg (set_key KT t i v) :=
  inTable_setBucket KT cfg hT hi (hT.2.1 i) (hT.2.2 i)

/-- The delta from a home bucket to a home bucket fits `std::int32_t` and leads there. -/
theorem delta_inRange (cfg : Config) (hM : (cfg.m_size_mask : Int) < 2147483648) {a b : Int}
    (ha : InRange cfg a) (hb : InRange cfg b) (_ : toInt32 (a - b) ≠ _NULL_DELTA) :
    InRange cfg (b + toInt32 (a - b)) := by
  obtain ⟨h1, h2⟩ := ha
  obtain ⟨h3, h4⟩ := hb
  rw [toInt32_eq (by omega) (by omega)]
  exact ⟨by omega, by omega⟩

theorem inTable_add_key_to_end (KT : KeyTraits) (cfg : Config)
    (hM : (cfg.m_size_mask : Int) < 2147483648) {t : List Bucket} {h f : Int} (key : Nat)
    {last : Option Int} (hT : InTable KT cfg t) (hh : InRange cfg h) (hf : InRange cfg f)
    (hl : ∀ l, last = some l → InRange cfg l) :
    InTable KT cfg (add_key_to_end_of_list KT t h f key last) := by
  unfold add_key_to_end_of_list
  have h1 := inTable_set_key KT cfg key hT hf
  have h2 := inTable_set_next_delta KT cfg h1 hf (fun hn => absurd rfl hn)
  cases last with
  | none => exact inTable_set_first_delta KT cfg h2 hh (delta_inRange cfg hM hf hh)
  | some l => exact inTable_set_next_delta KT cfg h2 (hl l rfl) (delta_inRange cfg hM hf (hl l rfl))

theorem inTable_add_key_to_begining (KT : KeyTraits) (cfg : Config)
    (hM : (cfg.m_size_mask : Int) < 2147483648) {t : List Bucket} {h f : Int} (key : Nat)
    (hT : InTable KT cfg t) (hh : InRange cfg h) (hf : InRange cfg f) :
    InTable KT cfg (add_key_to_begining_of_list KT t h f key) := by
  unfold add_key_to_begining_of_list
  have h1 := inTable_set_key KT cfg key hT hf
  simp only []
  split_ifs with c1 c2 c3
  · exact inTable_set_next_delta KT cfg
      (inTable_set_next_delta KT cfg h1 hf (fun hn => absurd rfl hn)) hh
      (delta_inRange cfg hM hf hh)
  · refine inTable_set_next_delta KT cfg
      (inTable_set_next_delta KT cfg h1 hf ?_) hh (delta_inRange cfg hM hf hh)
    have := h1.2.2 h (fun e => c2 e.symm)
    exact delta_inRange cfg hM this hf
  · exact inTable_set_first_delta KT cfg
      (inTable_set_next_delta KT cfg h1 hf (fun hn => absurd rfl hn)) hh
      (delta_inRange cfg hM hf hh)
  · refine inTable_set_first_delta KT cfg
      (inTable_set_next_delta KT cfg h1 hf ?_) hh (delta_inRange cfg hM hf hh)
    have := h1.2.1 h (fun e => c3 e.symm)
    exact delta_inRange cfg hM this hf

end HopscotchHashSet
end concurrent_data_structures

namespace concurrent_data_structures
namespace HopscotchHashSet

/-- The sum of two consecutive deltas fits `std::int32_t` and leads to a home bucket. -/
theorem sum_inRange (cfg : Config) (hM : (cfg.m_size_mask : Int) < 2147483648)
    {a d1 d2 : Int} (ha : InRange cfg a) (h2 : InRange cfg (a + d1 + d2))
    (_ : toInt32 (d1 + d2) ≠ _NULL_DELTA) : InRange cfg (a + toInt32 (d1 + d2)) := by
  obtain ⟨h3, h4⟩ := ha
  obtain ⟨h5, h6⟩ := h2
  rw [toInt32_eq (by omega) (by omega)]
  exact ⟨by omega, by omega⟩

theorem inTable_remove_key (KT : KeyTraits) (cfg : Config)
    (hM : (cfg.m_size_mask : Int) < 2147483648) {t : List Bucket} {h m : Int}
    {prev : Option Int} (hT : InTable KT cfg t) (hh : InRange cfg h) (hm : InRange cfg m)
    (hnone : prev = none → m = h + (bucketAt KT t h)._first_delta)
    (hsome : ∀ l, prev = some l → InRange cfg l ∧ m = l + (bucketAt KT t l)._next_delta) :
    InTable KT cfg (remove_key KT t h m prev) := by
  unfold remove_key
  have h1 := inTable_set_key KT cfg KT.NullKey hT hm
  simp only []
  have hfin : ∀ t2, InTable KT cfg t2 →
      InTable KT cfg (set_hash KT (set_next_delta KT t2 m _NULL_DELTA) m 0) := fun t2 h2 =>
    inTable_set_hash KT cfg 0 (inTable_set_next_delta KT cfg h2 hm (fun hn => absurd rfl hn)) hm
  cases prev with
  | none =>
    simp only []
    have hm' := hnone rfl
    split_ifs with c1
    · exact hfin _ (inTable_set_first_delta KT cfg h1 hh (fun hn => absurd rfl hn))
    · refine hfin _ (inTable_set_first_delta KT cfg h1 hh ?_)
      have hnext := h1.2.2 m (fun e => c1 e.symm)
      rw [first_delta_set_key]
      refine sum_inRange cfg hM hh ?_
      rw [← hm']
      exact hnext
  | some l =>
    simp only []
    obtain ⟨hl, hm'⟩ := hsome l rfl
    split_ifs with c1
    · exact hfin _ (inTable_set_next_delta KT cfg h1 hl (fun hn => absurd rfl hn))
    · refine hfin _ (inTable_set_next_delta KT cfg h1 hl ?_)
      have hnext := h1.2.2 m (fun e => c1 e.symm)
      rw [next_delta_set_key KT t m l]
      refine sum_inRange cfg hM hl ?_
      rw [← hm']
      exact hnext

theorem inTable_relocate (KT : KeyTraits) (cfg : Config)
    (hM : (cfg.m_size_mask : Int) < 2147483648) {t : List Bucket} {f o r : Int}
    {last : Option Int} (hT : InTable KT cfg t) (hf : InRange cfg f) (ho : InRange cfg o)
    (hr : InRange cfg r) (hl : ∀ l, last = some l → InRange cfg l) :
    InTable KT cfg (relocate KT t f o r last) := by
  unfold relocate
  simp only []
  have h1 : ∀ v, InTable KT cfg (set_hash KT (set_key KT t f (bucketAt KT t r)._key) f v) :=
    fun v => inTable_set_hash KT cfg v (inTable_set_key KT cfg (bucketAt KT t r)._key hT hf) hf
  have hfin : ∀ t2, InTable KT cfg t2 →
      InTable KT cfg (set_hash KT (set_next_delta KT (set_key KT t2 r KT.NullKey) r
        _NULL_DELTA) r 0) := fun t2 h2 =>
    inTable_set_hash KT cfg 0 (inTable_set_next_delta KT cfg
      (inTable_set_key KT cfg KT.NullKey h2 hr) hr (fun hn => absurd rfl hn)) hr
  cases last with
  | none =>
    simp only []
    split_ifs with c1
    · exact hfin _ (inTable_set_first_delta KT cfg
        (inTable_set_next_delta KT cfg (h1 _) hf (fun hn => absurd rfl hn)) ho
        (delta_inRange cfg hM hf ho))
    · refine hfin _ (inTable_set_first_delta KT cfg
        (inTable_set_next_delta KT cfg (h1 _) hf ?_) ho (delta_inRange cfg hM hf ho))
      have hnext := (h1 _).2.2 r (fun e => c1 e.symm)
      exact delta_inRange cfg hM hnext hf
  | some l =>
    simp only []
    have hl' := hl l rfl
    split_ifs with c1
    · exact hfin _ (inTable_set_next_delta KT cfg
        (inTable_set_next_delta KT cfg (h1 _) hf (fun hn => absurd rfl hn)) hl'
        (delta_inRange cfg hM hf hl'))
    · refine hfin _ (inTable_set_next_delta KT cfg
        (inTable_set_next_delta KT cfg (h1 _) hf ?_) hl' (delta_inRange cfg hM hf hl'))
      have hnext := (h1 _).2.2 r (fun e => c1 e.symm)
      exact delta_inRange cfg hM hnext hf

end HopscotchHashSet
end concurrent_data_structures

namespace concurrent_data_structures
namespace HopscotchHashSet

/-! ### Hopscotch: the walks and scans stay among the home buckets -/

theorem add_walk_inRange (KT : KeyTraits) (cfg : Config) (t : List Bucket) (hash key : Nat)
    (hT : InTable KT cfg t) :
    ∀ (fuel : Nat) (last : Option Int) (cb nd : Int) (r : Option Int),
      (∀ l, last = some l → InRange cfg l) → (nd ≠ _NULL_DELTA → InRange cfg (cb + nd)) →
      add_walk KT t hash key fuel last cb nd = some (some r) →
      ∀ l, r = some l → InRange cfg l
  | 0, _, _, _, _, _, _, h => by cases h
  | fuel + 1, last, cb, nd, r, hl, hnd, h => by
    unfold add_walk at h
    simp only [] at h
    split_ifs at h with c1 c2
    · cases h
    · exact add_walk_inRange KT cfg t hash key hT fuel _ _ _ r
        (fun l e => by cases e; exact hnd (fun e => c1 e.symm))
        (fun hn => hT.2.2 _ hn) h
    · cases h
      exact hl

theorem cacheline_scan_inRange (KT : KeyTraits) (t : List Bucket) (start sc ec : Int)
    (hle : sc ≤ ec) :
    ∀ (fuel : Nat) (free f : Int), sc ≤ free → free ≤ ec →
      cacheline_scan KT t start sc ec fuel free = some (some f) → sc ≤ f ∧ f ≤ ec
  | 0, _, _, _, _, h => by cases h
  | fuel + 1, free, f, h1, h2, h => by
    unfold cacheline_scan at h
    simp only [] at h
    split_ifs at h with c1 c2 c3 c4
    · cases h; exact ⟨h1, h2⟩
    · exact cacheline_scan_inRange KT t start sc ec hle fuel _ f (le_refl _) hle h
    · cases h
    · exact cacheline_scan_inRange KT t start sc ec hle fuel _ f (by omega) (by omega) h
    · cases h

theorem forward_scan_inRange (KT : KeyTraits) (t : List Bucket) (max_bucket : Int) :
    ∀ (fuel : Nat) (free f : Int),
      forward_scan KT t max_bucket fuel free = some (some f) → free ≤ f ∧ f ≤ max_bucket
  | 0, _, _, h => by cases h
  | fuel + 1, free, f, h => by
    unfold forward_scan at h
    split_ifs at h with c1 c2
    · cases h; exact ⟨le_refl _, c1⟩
    · have := forward_scan_inRange KT t max_bucket fuel _ f h
      exact ⟨by omega, this.2⟩
    · cases h

theorem backward_scan_inRange (KT : KeyTraits) (t : List Bucket) (min_bucket : Int) :
    ∀ (fuel : Nat) (free f : Int),
      backward_scan KT t min_bucket fuel free = some (some f) → min_bucket ≤ f ∧ f ≤ free
  | 0, _, _, h => by cases h
  | fuel + 1, free, f, h => by
    unfold backward_scan at h
    split_ifs at h with c1 c2
    · cases h; exact ⟨c1, le_refl _⟩
    · have := backward_scan_inRange KT t min_bucket fuel _ f h
      exact ⟨this.1, by omega⟩
    · cases h

theorem add_inTable (KT : KeyTraits) (cfg : Config) (p : Nat)
    (hN : cfg.m_size_mask + 1 = 2 ^ p) (hc : cfg._cache_mask < 2 ^ p)
    (hM : (cfg.m_size_mask : Int) < 2147483648) (fuel : Nat) (t : List Bucket) (key : Nat)
    (b : Bool) (t' : List Bucket) (hT : InTable KT cfg t)
    (h : add KT cfg fuel t key = some (Outcome.returned b t')) : InTable KT cfg t' := by
  have hh : InRange cfg (home KT cfg key) := ⟨home_nonneg KT cfg key, home_le_mask KT cfg key⟩
  have hhome : ((KT.hash key % 2 ^ 32 &&& cfg.m_size_mask : Nat) : Int) = home KT cfg key := rfl
  unfold add at h
  simp only [] at h
  rw [hhome] at h
  cases hw : add_walk KT t (KT.hash key % 2 ^ 32) key fuel none (home KT cfg key)
      (bucketAt KT t (home KT cfg key))._first_delta with
  | none => rw [hw] at h; cases h
  | some w =>
    rw [hw] at h
    cases w with
    | none =>
      simp only [] at h
      cases h
      exact hT
    | some last =>
      simp only [] at h
      have hlast := add_walk_inRange KT cfg t _ key hT fuel none _ _ last
        (fun l e => by cases e) (fun hn => hT.2.1 _ hn) hw
      obtain ⟨hl0, hl1, hl2, hl3⟩ := cacheline_inRange cfg p hN hc _ hh
      have hline : ∀ f, cacheline_scan KT t (home KT cfg key)
          (get_start_cacheline_bucket cfg (home KT cfg key))
          (get_start_cacheline_bucket cfg (home KT cfg key) + (cfg._cache_mask : Int)) fuel
          (home KT cfg key) = some (some f) → InRange cfg f := by
        intro f hf
        have := cacheline_scan_inRange KT t _ _ _ (by omega) fuel _ f hl1 hl2 hf
        exact ⟨by omega, by omega⟩
      have hrest : (match forward_scan KT t
            (min (home KT cfg key + (INT_MAX - 1)) (cfg.m_size_mask : Int)) fuel
            (home KT cfg key + ((cfg._cache_mask : Int) + 1)) with
          | none => none
          | some (some free_max_bucket) =>
            some (Outcome.returned true
              (add_key_to_end_of_list KT (claim KT t free_max_bucket (KT.hash key % 2 ^ 32))
                (home KT cfg key) free_max_bucket key last))
          | some none =>
            match backward_scan KT t (max (home KT cfg key - (INT_MAX - 1)) 0) fuel
                (home KT cfg key - ((cfg._cache_mask : Int) + 1)) with
            | none => none
            | some (some free_min_bucket) =>
              some (Outcome.returned true
                (add_key_to_end_of_list KT (claim KT t free_min_bucket (KT.hash key % 2 ^ 32))
                  (home KT cfg key) free_min_bucket key last))
            | some none => some Outcome.exited) = some (Outcome.returned b t') →
          InTable KT cfg t' := by
        intro hr
        cases hfw : forward_scan KT t
            (min (home KT cfg key + (INT_MAX - 1)) (cfg.m_size_mask : Int)) fuel
            (home KT cfg key + ((cfg._cache_mask : Int) + 1)) with
        | none => rw [hfw] at hr; cases hr
        | some r =>
          rw [hfw] at hr
          cases r with
          | some f =>
            simp only [] at hr
            cases hr
            have hf := forward_scan_inRange KT t _ fuel _ f hfw
            have hfr : InRange cfg f := ⟨by have := hh.1; omega, le_trans hf.2 (min_le_right _ _)⟩
            exact inTable_add_key_to_end KT cfg hM key
              (inTable_set_hash KT cfg _ hT hfr) hh hfr hlast
          | none =>
            simp only [] at hr
            cases hbw : backward_scan KT t (max (home KT cfg key - (INT_MAX - 1)) 0) fuel
                (home KT cfg key - ((cfg._cache_mask : Int) + 1)) with
            | none => rw [hbw] at hr; cases hr
            | some r =>
              rw [hbw] at hr
              cases r with
              | some f =>
                simp only [] at hr
                cases hr
                have hf := backward_scan_inRange KT t _ fuel _ f hbw
                have hfr : InRange cfg f :=
                  ⟨le_trans (le_max_right _ _) hf.1, by have := hh.2; omega⟩
                exact inTable_add_key_to_end KT cfg hM key
                  (inTable_set_hash KT cfg _ hT hfr) hh hfr hlast
              | none =>
                simp only [] at hr
                cases hr
      by_cases ha : cfg._is_cacheline_alignment = true
      · rw [if_pos ha] at h
        cases hcs : cacheline_scan KT t (home KT cfg key)
            (get_start_cacheline_bucket cfg (home KT cfg key))
            (get_start_cacheline_bucket cfg (home KT cfg key) + (cfg._cache_mask : Int)) fuel
            (home KT cfg key) with
        | none => rw [hcs] at h; cases h
        | some r =>
          rw [hcs] at h
          cases r with
          | some f =>
            simp only [] at h
            cases h
            have hfr := hline f hcs
            exact inTable_add_key_to_begining KT cfg hM key
              (inTable_set_hash KT cfg _ hT hfr) hh hfr
          | none =>
            simp only [] at h
            exact hrest h
      · rw [if_neg ha] at h
        simp only [] at h
        exact hrest h

end HopscotchHashSet
end concurrent_data_structures

namespace concurrent_data_structures
namespace HopscotchHashSet

theorem optimize_list_inTable (KT : KeyTraits) (cfg : Config)
    (hM : (cfg.m_size_mask : Int) < 2147483648) (t : List Bucket) (f o : Int)
    (hT : InTable KT cfg t) (hf : InRange cfg f) (ho : InRange cfg o) :
    ∀ (fuel : Nat) (last : Option Int) (cd rk : Int) (t' : List Bucket),
      (∀ l, last = some l → InRange cfg l) → InRange cfg rk →
      optimize_list KT cfg t f o fuel last cd rk = some (some t') → InTable KT cfg t'
  | 0, _, _, _, _, _, _, h => by cases h
  | fuel + 1, last, cd, rk, t', hl, hr, h => by
    unfold optimize_list at h
    split_ifs at h with c1 c2
    · cases h
      exact inTable_relocate KT cfg hM hT hf ho hr hl
    · cases h
    · exact optimize_list_inTable KT cfg hM t f o hT hf ho fuel _ _ _ t'
        (fun l e => by cases e; exact hr) (hT.2.2 rk (fun e => c2 e.symm)) h

theorem optimize_loop_inTable (KT : KeyTraits) (cfg : Config)
    (hM : (cfg.m_size_mask : Int) < 2147483648) (lfuel : Nat) (t : List Bucket) (f ec : Int)
    (hT : InTable KT cfg t) (hf : InRange cfg f) (hec : ec ≤ (cfg.m_size_mask : Int)) :
    ∀ (fuel : Nat) (o : Int) (t' : List Bucket), 0 ≤ o → o ≤ ec →
      optimize_loop KT cfg lfuel t f ec fuel o = some t' → InTable KT cfg t'
  | 0, _, _, _, _, h => by cases h
  | fuel + 1, o, t', h0, h1, h => by
    unfold optimize_loop at h
    simp only [] at h
    have ho : InRange cfg o := ⟨h0, by omega⟩
    have hnext : (if o + 1 ≤ ec then optimize_loop KT cfg lfuel t f ec fuel (o + 1)
        else some t) = some t' → InTable KT cfg t' := by
      intro hn
      split_ifs at hn with c1
      · exact optimize_loop_inTable KT cfg hM lfuel t f ec hT hf hec fuel (o + 1) t'
          (by omega) c1 hn
      · cases hn
        exact hT
    by_cases hfd : _NULL_DELTA ≠ (bucketAt KT t o)._first_delta
    · rw [if_pos hfd] at h
      cases hin : optimize_list KT cfg t f o lfuel none (bucketAt KT t o)._first_delta
          (o + (bucketAt KT t o)._first_delta) with
      | none => rw [hin] at h; cases h
      | some r =>
        rw [hin] at h
        cases r with
        | none => exact hnext h
        | some t1 =>
          cases h
          exact optimize_list_inTable KT cfg hM t f o hT hf ho lfuel _ _ _ _
            (fun l e => by cases e) (hT.2.1 o (fun e => hfd e.symm)) hin
    · rw [if_neg hfd] at h
      exact hnext h

theorem optimize_cacheline_use_inTable (KT : KeyTraits) (cfg : Config) (p : Nat)
    (hN : cfg.m_size_mask + 1 = 2 ^ p) (hc : cfg._cache_mask < 2 ^ p)
    (hM : (cfg.m_size_mask : Int) < 2147483648) (fuel : Nat) (t t' : List Bucket) (f : Int)
    (hT : InTable KT cfg t) (hf : InRange cfg f)
    (h : optimize_cacheline_use KT cfg fuel t f = some t') : InTable KT cfg t' := by
  obtain ⟨h0, h1, h2, h3⟩ := cacheline_inRange cfg p hN hc f hf
  unfold optimize_cacheline_use at h
  exact optimize_loop_inTable KT cfg hM fuel t f _ hT hf h3 fuel _ t' h0 (by omega) h

theorem remove_walk_inTable (KT : KeyTraits) (cfg : Config) (p : Nat)
    (hN : cfg.m_size_mask + 1 = 2 ^ p) (hc : cfg._cache_mask < 2 ^ p)
    (hM : (cfg.m_size_mask : Int) < 2147483648) (ofuel : Nat) (t : List Bucket)
    (hash key : Nat) (start : Int) (hT : InTable KT cfg t) (hs : InRange cfg start) :
    ∀ (fuel : Nat) (last : Option Int) (cur delta : Int) (b : Bool) (t' : List Bucket),
      (last = none → cur = start ∧ delta = (bucketAt KT t start)._first_delta) →
      (∀ l, last = some l →
        InRange cfg l ∧ cur = l ∧ delta = (bucketAt KT t l)._next_delta) →
      remove_walk KT cfg ofuel t hash key start fuel last cur delta =
        some (Outcome.returned b t') → InTable KT cfg t'
  | 0, _, _, _, _, _, _, _, h => by cases h
  | fuel + 1, last, cur, delta, b, t', hnone, hsome, h => by
    unfold remove_walk at h
    simp only [] at h
    by_cases c1 : _NULL_DELTA = delta
    · rw [if_pos c1] at h
      cases h
      exact hT
    · rw [if_neg c1] at h
      have hcur : InRange cfg (cur + delta) := by
        cases last with
        | none =>
          obtain ⟨e1, e2⟩ := hnone rfl
          rw [e1, e2]
          exact hT.2.1 start (fun e => c1 (by rw [e2, e]))
        | some l =>
          obtain ⟨-, e1, e2⟩ := hsome l rfl
          rw [e1, e2]
          exact hT.2.2 l (fun e => c1 (by rw [e2, e]))
      by_cases c2 : hash = (bucketAt KT t (cur + delta))._hash ∧
          key = (bucketAt KT t (cur + delta))._key
      · rw [if_pos c2] at h
        have hrem : InTable KT cfg (remove_key KT t start (cur + delta) last) := by
          refine inTable_remove_key KT cfg hM hT hs hcur (fun e => ?_) (fun l e => ?_)
          · obtain ⟨e1, e2⟩ := hnone e
            rw [e1, e2]
          · obtain ⟨e0, e1, e2⟩ := hsome l e
            exact ⟨e0, by rw [e1, e2]⟩
        by_cases c3 : cfg._is_cacheline_alignment = true
        · rw [if_pos c3] at h
          cases ho : optimize_cacheline_use KT cfg ofuel
              (remove_key KT t start (cur + delta) last) (cur + delta) with
          | none => rw [ho] at h; cases h
          | some t2 =>
            rw [ho] at h
            cases h
            exact optimize_cacheline_use_inTable KT cfg p hN hc hM ofuel _ _ _ hrem hcur ho
        · rw [if_neg c3] at h
          cases h
          exact hrem
      · rw [if_neg c2] at h
        exact remove_walk_inTable KT cfg p hN hc hM ofuel t hash key start hT hs fuel _ _ _ b t'
          (fun e => by cases e) (fun l e => by cases e; exact ⟨hcur, rfl, rfl⟩) h

theorem remove_inTable (KT : KeyTraits) (cfg : Config) (p : Nat)
    (hN : cfg.m_size_mask + 1 = 2 ^ p) (hc : cfg._cache_mask < 2 ^ p)
    (hM : (cfg.m_size_mask : Int) < 2147483648) (fuel : Nat) (t : List Bucket) (key : Nat)
    (b : Bool) (t' : List Bucket) (hT : InTable KT cfg t)
    (h : remove KT cfg fuel t key = some (Outcome.returned b t')) : InTable KT cfg t' :=
  remove_walk_inTable KT cfg p hN hc hM fuel t _ key _ hT
    ⟨home_nonneg KT cfg key, home_le_mask KT cfg key⟩ fuel none _ _ b t'
    (fun _ => ⟨rfl, rfl⟩) (fun l e => by cases e) h

theorem exec_inTable (KT : KeyTraits) (cfg : Config) (p : Nat)
    (hN : cfg.m_size_mask + 1 = 2 ^ p) (hc : cfg._cache_mask < 2 ^ p)
    (hM : (cfg.m_size_mask : Int) < 2147483648) (fuel : Nat) :
    ∀ (ops : List Op) (t t' : List Bucket), InTable KT cfg t →
      exec KT cfg fuel t ops = some t' → InTable KT cfg t'
  | [], t, t', hT, h => by
    cases h
    exact hT
  | Op.contains k :: ops, t, t', hT, h => by
    unfold exec at h
    cases hc' : contains KT cfg fuel t k with
    | none => rw [hc'] at h; cases h
    | some b =>
      rw [hc'] at h
      exact exec_inTable KT cfg p hN hc hM fuel ops t t' hT h
  | Op.add k :: ops, t, t', hT, h => by
    unfold exec at h
    cases ha : add KT cfg fuel t k with
    | none => rw [ha] at h; cases h
    | some o =>
      rw [ha] at h
      cases o with
      | exited => cases h
      | returned b t1 =>
        exact exec_inTable KT cfg p hN hc hM fuel ops t1 t'
          (add_inTable KT cfg p hN hc hM fuel t k b t1 hT ha) h
  | Op.remove k :: ops, t, t', hT, h => by
    unfold exec at h
    cases ha : remove KT cfg fuel t k with
    | none => rw [ha] at h; cases h
    | some o =>
      rw [ha] at h
      cases o with
      | exited => cases h
      | returned b t1 =>
        exact exec_inTable KT cfg p hN hc hM fuel ops t1 t'
          (remove_inTable KT cfg p hN hc hM fuel t k b t1 hT ha) h

theorem emptyTable_inTable (KT : KeyTraits) (cfg : Config) (n : Nat) :
    InTable KT cfg (emptyTable KT n) := by
  refine ⟨fun i _ => bucketAt_emptyTable KT n i, fun i hi => ?_, fun i hi => ?_⟩
  · rw [bucketAt_emptyTable] at hi
    exact absurd rfl hi
  · rw [bucketAt_emptyTable] at hi
    exact absurd rfl hi

end HopscotchHashSet
end concurrent_data_structures

namespace concurrent_data_structures
namespace HopscotchHashSet

/-! ### Hopscotch: the number of buckets never changes -/

theorem length_add_key_to_end (KT : KeyTraits) (t : List Bucket) (h f : Int) (key : Nat)
    (last : Option Int) : (add_key_to_end_of_list KT t h f key last).length = t.length := by
  unfold add_key_to_end_of_list
  cases last <;>
    simp only [length_set_first_delta, length_set_next_delta, length_set_key]

theorem length_add_key_to_begining (KT : KeyTraits) (t : List Bucket) (h f : Int) (key : Nat) :
    (add_key_to_begining_of_list KT t h f key).length = t.length := by
  unfold add_key_to_begining_of_list
  simp only []
  split_ifs <;> simp only [length_set_first_delta, length_set_next_delta, length_set_key]

theorem length_remove_key (KT : KeyTraits) (t : List Bucket) (h m : Int) (prev : Option Int) :
    (remove_key KT t h m prev).length = t.length := by
  unfold remove_key
  simp only []
  cases prev <;> simp only [] <;> split_ifs <;>
    simp only [length_set_first_delta, length_set_next_delta, length_set_key, length_set_hash]

theorem length_relocate (KT : KeyTraits) (t : List Bucket) (f o r : Int) (last : Option Int) :
    (relocate KT t f o r last).length = t.length := by
  unfold relocate
  simp only []
  cases last <;> simp only [] <;> split_ifs <;>
    simp only [length_set_first_delta, length_set_next_delta, length_set_key, length_set_hash]

theorem optimize_list_length (KT : KeyTraits) (cfg : Config) (t : List Bucket) (f o : Int) :
    ∀ (fuel : Nat) (last : Option Int) (cd rk : Int) (t' : List Bucket),
      optimize_list KT cfg t f o fuel last cd rk = some (some t') → t'.length = t.length
  | 0, _, _, _, _, h => by cases h
  | fuel + 1, last, cd, rk, t', h => by
    unfold optimize_list at h
    split_ifs at h
    · cases h
      exact length_relocate KT t f o rk last
    · cases h
    · exact optimize_list_length KT cfg t f o fuel _ _ _ t' h

theorem optimize_loop_length (KT : KeyTraits) (cfg : Config) (lfuel : Nat) (t : List Bucket)
    (f ec : Int) :
    ∀ (fuel : Nat) (o : Int) (t' : List Bucket),
      optimize_loop KT cfg lfuel t f ec fuel o = some t' → t'.length = t.length
  | 0, _, _, h => by cases h
  | fuel + 1, o, t', h => by
    unfold optimize_loop at h
    simp only [] at h
    have hnext : (if o + 1 ≤ ec then optimize_loop KT cfg lfuel t f ec fuel (o + 1)
        else some t) = some t' → t'.length = t.length := by
      intro hn
      split_ifs at hn
      · exact optimize_loop_length KT cfg lfuel t f ec fuel (o + 1) t' hn
      · cases hn
        rfl
    by_cases hfd : _NULL_DELTA ≠ (bucketAt KT t o)._first_delta
    · rw [if_pos hfd] at h
      cases hin : optimize_list KT cfg t f o lfuel none (bucketAt KT t o)._first_delta
          (o + (bucketAt KT t o)._first_delta) with
      | none => rw [hin] at h; cases h
      | some r =>
        rw [hin] at h
        cases r with
        | none => exact hnext h
        | some t1 =>
          cases h
          exact optimize_list_length KT cfg t f o lfuel _ _ _ _ hin
    · rw [if_neg hfd] at h
      exact hnext h

theorem remove_walk_length (KT : KeyTraits) (cfg : Config) (ofuel : Nat) (t : List Bucket)
    (hash key : Nat) (start : Int) :
    ∀ (fuel : Nat) (last : Option Int) (cur delta : Int) (b : Bool) (t' : List Bucket),
      remove_walk KT cfg ofuel t hash key start fuel last cur delta =
        some (Outcome.returned b t') → t'.length = t.length
  | 0, _, _, _, _, _, h => by cases h
  | fuel + 1, last, cur, delta, b, t', h => by
    unfold remove_walk at h
    simp only [] at h
    split_ifs at h with c1 c2 c3
    · cases h
      rfl
    · cases ho : optimize_cacheline_use KT cfg ofuel
          (remove_key KT t start (cur + delta) last) (cur + delta) with
      | none => rw [ho] at h; cases h
      | some t2 =>
        rw [ho] at h
        cases h
        unfold optimize_cacheline_use at ho
        rw [optimize_loop_length KT cfg ofuel _ _ _ ofuel _ _ ho, length_remove_key]
    · cases h
      exact length_remove_key KT t start (cur + delta) last
    · exact remove_walk_length KT cfg ofuel t hash key start fuel _ _ _ b t' h

theorem add_length (KT : KeyTraits) (cfg : Config) (fuel : Nat) (t : List Bucket) (key : Nat)
    (b : Bool) (t' : List Bucket) (h : add KT cfg fuel t key = some (Outcome.returned b t')) :
    t'.length = t.length := by
  unfold add at h
  simp only [] at h
  split at h
  · cases h
  · cases h
    rfl
  · split at h
    · cases h
    · cases h
      rw [length_add_key_to_begining]
      exact length_set_hash KT t _ _
    · split at h
      · cases h
      · cases h
        rw [length_add_key_to_end]
        exact length_set_hash KT t _ _
      · split at h
        · cases h
        · cases h
          rw [length_add_key_to_end]
          exact length_set_hash KT t _ _
        · cases h

theorem exec_length (KT : KeyTraits) (cfg : Config) (fuel : Nat) :
    ∀ (ops : List Op) (t t' : List Bucket),
      exec KT cfg fuel t ops = some t' → t'.length = t.length
  | [], t, t', h => by
    cases h
    rfl
  | Op.contains k :: ops, t, t', h => by
    unfold exec at h
    cases hc' : contains KT cfg fuel t k with
    | none => rw [hc'] at h; cases h
    | some b =>
      rw [hc'] at h
      exact exec_length KT cfg fuel ops t t' h
  | Op.add k :: ops, t, t', h => by
    unfold exec at h
    cases ha : add KT cfg fuel t k with
    | none => rw [ha] at h; cases h
    | some o =>
      rw [ha] at h
      cases o with
      | exited => cases h
      | returned b t1 =>
        rw [exec_length KT cfg fuel ops t1 t' h]
        exact add_length KT cfg fuel t k b t1 ha
  | Op.remove k :: ops, t, t', h => by
    unfold exec at h
    cases ha : remove KT cfg fuel t k with
    | none => rw [ha] at h; cases h
    | some o =>
      rw [ha] at h
      cases o with
      | exited => cases h
      | returned b t1 =>
        rw [exec_length KT cfg fuel ops t1 t' h]
        exact remove_walk_length KT cfg fuel t _ k _ fuel none _ _ b t1 ha

end HopscotchHashSet
end concurrent_data_structures

namespace concurrent_data_structures
namespace HopscotchHashSet

/-- C32: take a capacity `n` that is a power of two, at most `2 ^ 31` and more than the cache
mask (so at least the number of buckets of a cache line), and any sequence of calls of one
thread started on the empty table, on any keys. If the calls return, the table still has
its `n + 4097` buckets, every bucket of index `n` or more is as `Bucket::init` left it
(hash word 0, `NullKey`, both deltas `_NULL_DELTA`), every bucket that is marked occupied
or holds a key has an index from `0` to `n - 1`, and every delta stored in a bucket leads
to a bucket with such an index. The forward scan of `add`, on any table, claims no bucket
beyond index `m_size_mask = n - 1`. -/
theorem extra_buckets_stay_free (KT : KeyTraits) (cfg : Config) (n p : Nat) (ops : List Op)
    (fuel : Nat) (t : List Bucket) (hmask : cfg.m_size_mask + 1 = n) (hpow : n = 2 ^ p)
    (hp : p ≤ 31) (hline : cfg._cache_mask < n)
    (hexec : exec KT cfg fuel (emptyTable KT n) ops = some t) :
    t.length = n + 4096 + 1 ∧
    (∀ j : Nat, n ≤ j → t.getD j (Bucket.init KT) = Bucket.init KT) ∧
    (∀ i : Int, (bucketAt KT t i)._hash ≠ 0 ∨ (bucketAt KT t i)._key ≠ KT.NullKey →
      0 ≤ i ∧ i < (n : Int)) ∧
    (∀ i : Int, (bucketAt KT t i)._first_delta ≠ _NULL_DELTA →
      0 ≤ i + (bucketAt KT t i)._first_delta ∧ i + (bucketAt KT t i)._first_delta < (n : Int)) ∧
    (∀ i : Int, (bucketAt KT t i)._next_delta ≠ _NULL_DELTA →
      0 ≤ i + (bucketAt KT t i)._next_delta ∧ i + (bucketAt KT t i)._next_delta < (n : Int)) ∧
    ∀ (t0 : List Bucket) (start f : Int) (m : Nat),
      forward_scan KT t0 (min (start + (INT_MAX - 1)) (cfg.m_size_mask : Int)) m
        (start + ((cfg._cache_mask : Int) + 1)) = some (some f) →
      f ≤ (cfg.m_size_mask : Int) := by
  have hN : cfg.m_size_mask + 1 = 2 ^ p := hmask.trans hpow
  have h31 : 2 ^ p ≤ 2 ^ 31 := Nat.pow_le_pow_right (by decide) hp
  have hM : (cfg.m_size_mask : Int) < 2147483648 := by
    have : cfg.m_size_mask + 1 ≤ 2147483648 := by rw [hN]; exact h31
    omega
  have hn : (n : Int) = (cfg.m_size_mask : Int) + 1 := by rw [← hmask]; push_cast; rfl
  have hT := exec_inTable KT cfg p hN (by rw [← hpow]; exact hline) hM fuel ops _ t
    (emptyTable_inTable KT cfg n) hexec
  have hout : ∀ i : Int, ¬ (0 ≤ i ∧ i < (n : Int)) → bucketAt KT t i = Bucket.init KT := by
    intro i hi
    refine hT.1 i (fun hr => hi ⟨hr.1, ?_⟩)
    have := hr.2
    omega
  refine ⟨?_, fun j hj => ?_, fun i hi => ?_, fun i hi => ?_, fun i hi => ?_,
    fun t0 start f m hf => ?_⟩
  · rw [exec_length KT cfg fuel ops _ t hexec, length_emptyTable]
  · have := hout (j : Int) (fun h => by have := h.2; omega)
    unfold bucketAt at this
    rw [if_neg (by omega)] at this
    simpa using this
  · by_contra hc
    rw [hout i hc] at hi
    rcases hi with hi | hi
    · exact hi rfl
    · exact hi rfl
  · have := hT.2.1 i hi
    exact ⟨this.1, by have := this.2; omega⟩
  · have := hT.2.2 i hi
    exact ⟨this.1, by have := this.2; omega⟩
  · exact le_trans (forward_scan_inRange KT t0 _ m _ f hf).2 (min_le_right _ _)

theorem extra_buckets_stay_free_witness :
    ((exec idTraits { m_size_mask := 15, _cache_mask := 3, _is_cacheline_alignment := true } 10
        (emptyTable idTraits 16)
        [Op.add 15, Op.add 31, Op.add 47, Op.add 63, Op.add 79, Op.remove 31, Op.add 0,
          Op.add 16, Op.add 95, Op.remove 16]).getD []).length = 16 + 4096 + 1 ∧
    (∀ j : Nat, 16 ≤ j →
      ((exec idTraits { m_size_mask := 15, _cache_mask := 3, _is_cacheline_alignment := true }
        10 (emptyTable idTraits 16)
        [Op.add 15, Op.add 31, Op.add 47, Op.add 63, Op.add 79, Op.remove 31, Op.add 0,
          Op.add 16, Op.add 95, Op.remove 16]).getD []).getD j (Bucket.init idTraits) =
        Bucket.init idTraits) :=
  ⟨(extra_buckets_stay_free idTraits
      { m_size_mask := 15, _cache_mask := 3, _is_cacheline_alignment := true } 16 4
      [Op.add 15, Op.add 31, Op.add 47, Op.add 63, Op.add 79, Op.remove 31, Op.add 0,
        Op.add 16, Op.add 95, Op.remove 16] 10 _ (by decide) (by decide) (by decide)
      (by decide) (eq_some_getD (by decide) [])).1,
    (extra_buckets_stay_free idTraits
      { m_size_mask := 15, _cache_mask := 3, _is_cacheline_alignment := true } 16 4
      [Op.add 15, Op.add 31, Op.add 47, Op.add 63, Op.add 79, Op.remove 31, Op.add 0,
        Op.add 16, Op.add 95, Op.remove 16] 10 _ (by decide) (by decide) (by decide)
      (by decide) (eq_some_getD (by decide) [])).2.1⟩

end HopscotchHashSet
end concurrent_data_structures
